import Mathlib

/-!
# cads-lib: linked sequence (`cads::List`) and dynamic array (`cads::Vector`)

A shallow embedding of `include/cads/list.tpp` and `include/cads/vector.tpp`.

* Memory is explicit.  A `cads::List` lives in a node heap (`Mem`): a partial map from
  addresses to `Node`s, a bump allocator for `new Node`, and a store of list objects
  (`m_sentinel`, `m_size`) addressed by reference, so that `this != &other` is a
  comparison of references.
* Every member function is a state transformer `Prog σ ρ`.  Its outcome is a normal
  return, a C++ exception together with the state at the throw, undefined behaviour
  (a load, store or `delete` through a pointer that designates no live node), or
  exhaustion of the iteration bound handed to a pointer-chasing `while` loop.
* `size_t` values are natural numbers: a container of `n` elements occupies `n`
  distinct addresses, so the increments and doublings performed by the library stay
  below `2^64` on every state a 64-bit machine can hold.
-/

namespace cads

/-! ## Outcomes and programs -/

/-- Exceptions and assertion failures raised by the library. -/
inductive Exn where
  | bad_alloc
  | out_of_range
  | assertion
deriving DecidableEq

/-- Result of running a member function from a state of type `σ`. -/
inductive Outcome (σ : Type) (ρ : Type) where
  | ret (r : ρ) (s : σ)
  | raise (e : Exn) (s : σ)
  | undefined
  | spent
deriving DecidableEq

/-- State transformer with exceptions, undefined behaviour and loop bounds. -/
def Prog (σ : Type) (ρ : Type) : Type := σ → Outcome σ ρ

/-- Sequencing: the continuation runs only after a normal return. -/
def Prog.bind {σ ρ τ : Type} (m : Prog σ ρ) (f : ρ → Prog σ τ) : Prog σ τ :=
  fun s =>
    match m s with
    | .ret r s1 => f r s1
    | .raise e s1 => .raise e s1
    | .undefined => .undefined
    | .spent => .spent

instance {σ : Type} : Monad (Prog σ) where
  pure r := fun s => .ret r s
  bind := Prog.bind

/-! ## Node heap -/

/-- Addresses of heap nodes. -/
abbrev Ptr := Nat

/-- References to container objects (`this`, `&other`). -/
abbrev Ref := Nat

/-- The `List<ValType>::Node` struct. -/
structure Node (α : Type) where
  data : α
  prev : Ptr
  next : Ptr
deriving DecidableEq

/-- The data members of a `List` object. -/
structure ListObj where
  m_sentinel : Ptr
  m_size : Nat
deriving DecidableEq

/-- Partial map from addresses to live nodes. -/
abbrev Heap (α : Type) := Ptr → Option (Node α)

/-- Memory seen by the list engine. -/
structure Mem (α : Type) where
  nodes : Heap α
  brk : Ptr
  lists : Ref → ListObj

/-- The `next` field of the node at `a`, if `a` is live. -/
def nextOf {α : Type} (h : Heap α) (a : Ptr) : Option Ptr := (h a).map (fun n => n.next)

/-- The `prev` field of the node at `a`, if `a` is live. -/
def prevOf {α : Type} (h : Heap α) (a : Ptr) : Option Ptr := (h a).map (fun n => n.prev)

/-- The `data` field of the node at `a`, if `a` is live. -/
def dataOf {α : Type} (h : Heap α) (a : Ptr) : Option α := (h a).map (fun n => n.data)

/-- Heap after `a->next = b`. -/
def Heap.setNext {α : Type} (h : Heap α) (a b : Ptr) : Heap α :=
  fun x => if x = a then (h a).map (fun n => { n with next := b }) else h x

/-- Heap after `a->prev = b`. -/
def Heap.setPrev {α : Type} (h : Heap α) (a b : Ptr) : Heap α :=
  fun x => if x = a then (h a).map (fun n => { n with prev := b }) else h x

/-- Heap after a node has been constructed at `a`. -/
def Heap.put {α : Type} (h : Heap α) (a : Ptr) (n : Node α) : Heap α :=
  fun x => if x = a then some n else h x

/-- Heap after `delete a`. -/
def Heap.free {α : Type} (h : Heap α) (a : Ptr) : Heap α :=
  fun x => if x = a then none else h x

/-- Load `a->next`. -/
def getNext {α : Type} (a : Ptr) : Prog (Mem α) Ptr :=
  fun st => match nextOf st.nodes a with
    | some b => .ret b st
    | none => .undefined

/-- Load `a->prev`. -/
def getPrev {α : Type} (a : Ptr) : Prog (Mem α) Ptr :=
  fun st => match prevOf st.nodes a with
    | some b => .ret b st
    | none => .undefined

/-- Load `a->data`. -/
def getData {α : Type} (a : Ptr) : Prog (Mem α) α :=
  fun st => match dataOf st.nodes a with
    | some v => .ret v st
    | none => .undefined

/-- Store `a->next = b`. -/
def storeNext {α : Type} (a b : Ptr) : Prog (Mem α) Unit :=
  fun st => match st.nodes a with
    | some _ => .ret () { st with nodes := st.nodes.setNext a b }
    | none => .undefined

/-- Store `a->prev = b`. -/
def storePrev {α : Type} (a b : Ptr) : Prog (Mem α) Unit :=
  fun st => match st.nodes a with
    | some _ => .ret () { st with nodes := st.nodes.setPrev a b }
    | none => .undefined

/-- The expression `new Node{value, p, n}`. -/
def newNode {α : Type} (value : α) (p n : Ptr) : Prog (Mem α) Ptr :=
  fun st => .ret st.brk
    { st with nodes := st.nodes.put st.brk { data := value, prev := p, next := n },
              brk := st.brk + 1 }

/-- The expression `new Node{}`: default data, `prev` and `next` are the node itself. -/
def newSentinel {α : Type} [Inhabited α] : Prog (Mem α) Ptr :=
  fun st => .ret st.brk
    { st with nodes := st.nodes.put st.brk { data := default, prev := st.brk, next := st.brk },
              brk := st.brk + 1 }

/-- The statement `delete a`. -/
def deleteNode {α : Type} (a : Ptr) : Prog (Mem α) Unit :=
  fun st => match st.nodes a with
    | some _ => .ret () { st with nodes := st.nodes.free a }
    | none => .undefined

/-- Read the member `m_sentinel` of the list object `l`. -/
def getSentinel {α : Type} (l : Ref) : Prog (Mem α) Ptr :=
  fun st => .ret (st.lists l).m_sentinel st

/-- Read the member `m_size` of the list object `l`. -/
def getSize {α : Type} (l : Ref) : Prog (Mem α) Nat :=
  fun st => .ret (st.lists l).m_size st

/-- Write the member `m_sentinel` of the list object `l`. -/
def setSentinel {α : Type} (l : Ref) (p : Ptr) : Prog (Mem α) Unit :=
  fun st => .ret ()
    { st with lists := fun r => if r = l then { st.lists l with m_sentinel := p } else st.lists r }

/-- Write the member `m_size` of the list object `l`. -/
def setSize {α : Type} (l : Ref) (n : Nat) : Prog (Mem α) Unit :=
  fun st => .ret ()
    { st with lists := fun r => if r = l then { st.lists l with m_size := n } else st.lists r }

/-! ## `cads::List` member functions (list.tpp) -/

/-- Member `List::size`. -/
def List_size {α : Type} (this : Ref) : Prog (Mem α) Nat := getSize this

/-- Member `List::empty`. -/
def List_empty {α : Type} (this : Ref) : Prog (Mem α) Bool := do
  let n ← getSize this
  return decide (n = 0)

/-- Member `List::begin`: an iterator on `m_sentinel->next`. -/
def List_begin {α : Type} (this : Ref) : Prog (Mem α) Ptr := do
  let s ← getSentinel this
  getNext s

/-- Member `List::end`: an iterator on `m_sentinel`. -/
def List_end {α : Type} (this : Ref) : Prog (Mem α) Ptr := getSentinel this

/-- Member `List::insert(pos, value)`. -/
def List_insert {α : Type} (this : Ref) (pos : Ptr) (value : α) : Prog (Mem α) Ptr := do
  let nodeAfter := pos
  let nodeBefore ← getPrev nodeAfter
  let newNode ← newNode value nodeBefore nodeAfter
  storeNext nodeBefore newNode
  storePrev nodeAfter newNode
  let n ← getSize this
  setSize this (n + 1)
  return newNode

/-- Subtraction on `size_t`: exact when `b ≤ a`, wrapping modulo `2^64` otherwise. -/
def wrapSub (a b : Nat) : Nat := if b ≤ a then a - b else a + 2 ^ 64 - b

/-- Private member `List::_initWithValues(currTail, value)`. -/
def List__initWithValues {α : Type} (this : Ref) (currTail : Ptr) (value : α) :
    Prog (Mem α) Ptr := do
  let s ← getSentinel this
  let newNode ← newNode value currTail s
  storeNext currTail newNode
  let s ← getSentinel this
  storePrev s newNode
  return newNode

/-- Constructor `List::List()`. -/
def List_ctor {α : Type} [Inhabited α] (this : Ref) : Prog (Mem α) Unit := do
  setSize this 0
  let s ← newSentinel
  setSentinel this s

/-- The loop `for (i = 0; i < m_size; ++i) currTail = _initWithValues(currTail, value)`,
with `n` iterations left. -/
def List_fillLoop {α : Type} (this : Ref) (value : α) : Nat → Ptr → Prog (Mem α) Ptr
  | 0, currTail => pure currTail
  | n + 1, currTail => do
    let t ← List__initWithValues this currTail value
    List_fillLoop this value n t

/-- Constructor `List::List(size, value)`. -/
def List_ctor_fill {α : Type} [Inhabited α] (this : Ref) (size : Nat) (value : α) :
    Prog (Mem α) Unit := do
  setSize this size
  let s ← newSentinel
  setSentinel this s
  let currTail ← getSentinel this
  let n ← getSize this
  let _ ← List_fillLoop this value n currTail
  return ()

/-- The loop `for (const ValType& item : list) currTail = _initWithValues(currTail, item)`. -/
def List_initLoop {α : Type} (this : Ref) : List α → Ptr → Prog (Mem α) Ptr
  | [], currTail => pure currTail
  | item :: rest, currTail => do
    let t ← List__initWithValues this currTail item
    List_initLoop this rest t

/-- Constructor `List::List(std::initializer_list)`. -/
def List_ctor_init {α : Type} [Inhabited α] (this : Ref) (list : List α) :
    Prog (Mem α) Unit := do
  setSize this list.length
  let s ← newSentinel
  setSentinel this s
  let currTail ← getSentinel this
  let _ ← List_initLoop this list currTail
  return ()

/-- The loop `for (const ValType& item : other) currTail = _initWithValues(currTail, item)`:
`it` runs from `other.begin()` until it equals `other.end()`. -/
def List_copyLoop {α : Type} (this other : Ref) : Nat → Ptr → Ptr → Prog (Mem α) Ptr
  | 0, _, _ => fun _ => .spent
  | fuel + 1, it, currTail => do
    let e ← List_end other
    if it = e then return currTail
    let item ← getData it
    let t ← List__initWithValues this currTail item
    let it1 ← getNext it
    List_copyLoop this other fuel it1 t

/-- Constructor `List::List(const List& other)`. -/
def List_ctor_copy {α : Type} [Inhabited α] (fuel : Nat) (this other : Ref) :
    Prog (Mem α) Unit := do
  let n ← getSize other
  setSize this n
  let s ← newSentinel
  setSentinel this s
  let currTail ← getSentinel this
  let b ← List_begin other
  let _ ← List_copyLoop this other fuel b currTail
  return ()

/-- Constructor `List::List(List&& other)`. -/
def List_ctor_move {α : Type} [Inhabited α] (this other : Ref) : Prog (Mem α) Unit := do
  let s ← getSentinel other
  setSentinel this s
  let n ← List_size other
  setSize this n
  let fresh ← newSentinel
  setSentinel other fresh
  setSize other 0

/-- Member `List::pushFront(value)`. -/
def List_pushFront {α : Type} (this : Ref) (value : α) : Prog (Mem α) Unit := do
  let s ← getSentinel this
  let lastFront ← getNext s
  let newNode ← newNode value s lastFront
  storePrev lastFront newNode
  let s ← getSentinel this
  storeNext s newNode
  let n ← getSize this
  setSize this (n + 1)

/-- Member `List::pushBack(value)`. -/
def List_pushBack {α : Type} (this : Ref) (value : α) : Prog (Mem α) Unit := do
  let s ← getSentinel this
  let lastBack ← getPrev s
  let newNode ← newNode value lastBack s
  storeNext lastBack newNode
  let s ← getSentinel this
  storePrev s newNode
  let n ← getSize this
  setSize this (n + 1)

/-- Member `List::popFront()`. -/
def List_popFront {α : Type} (this : Ref) : Prog (Mem α) Unit := do
  if (← List_empty this) then return ()
  let s ← getSentinel this
  let frontToPop ← getNext s
  let newFront ← getNext frontToPop
  storeNext s newFront
  storePrev newFront s
  deleteNode frontToPop
  let n ← getSize this
  setSize this (wrapSub n 1)

/-- Member `List::popBack()`. -/
def List_popBack {α : Type} (this : Ref) : Prog (Mem α) Unit := do
  if (← List_empty this) then return ()
  let s ← getSentinel this
  let backToPop ← getPrev s
  let newBack ← getPrev backToPop
  storePrev s newBack
  storeNext newBack s
  deleteNode backToPop
  let n ← getSize this
  setSize this (wrapSub n 1)

/-- The loop `while (curr != lastNode) { next = curr->next; delete curr; ++count; curr = next; }`
of `List::erase(first, last)`; returns the final `count`. -/
def List_eraseLoop {α : Type} (lastNode : Ptr) : Nat → Ptr → Nat → Prog (Mem α) Nat
  | 0, _, _ => fun _ => .spent
  | fuel + 1, curr, count =>
    if curr = lastNode then pure count
    else do
      let next ← getNext curr
      deleteNode curr
      List_eraseLoop lastNode fuel next (count + 1)

/-- Member `List::erase(first, last)`. -/
def List_erase_range {α : Type} (fuel : Nat) (this : Ref) (first last : Ptr) :
    Prog (Mem α) Ptr := do
  let firstNode := first
  let lastNode := last
  if first = last then return lastNode
  let p ← getPrev firstNode
  storeNext p lastNode
  let p ← getPrev firstNode
  storePrev lastNode p
  let count ← List_eraseLoop lastNode fuel firstNode 0
  let n ← getSize this
  setSize this (wrapSub n count)
  return lastNode

/-- Member `List::erase(pos)`. -/
def List_erase {α : Type} (fuel : Nat) (this : Ref) (pos : Ptr) : Prog (Mem α) Ptr := do
  let last ← getNext pos
  List_erase_range fuel this pos last

/-- The loop of `List::remove(value)`, started with `currIt = begin()`. -/
def List_removeLoop {α : Type} [DecidableEq α] (this : Ref) (value : α) :
    Nat → Ptr → Prog (Mem α) Unit
  | 0, _ => fun _ => .spent
  | fuel + 1, currIt => do
    let e ← List_end this
    if currIt = e then return ()
    let d ← getData currIt
    if d = value then do
      let it ← List_erase (fuel + 1) this currIt
      List_removeLoop this value fuel it
    else do
      let it ← getNext currIt
      List_removeLoop this value fuel it

/-- Member `List::remove(value)`. -/
def List_remove {α : Type} [DecidableEq α] (fuel : Nat) (this : Ref) (value : α) :
    Prog (Mem α) Unit := do
  let currIt ← List_begin this
  List_removeLoop this value fuel currIt

/-- The loop `while (curr != m_sentinel) { next = curr->next; delete curr; curr = next; }`
of `List::clear()`. -/
def List_clearLoop {α : Type} (this : Ref) : Nat → Ptr → Prog (Mem α) Unit
  | 0, _ => fun _ => .spent
  | fuel + 1, curr => do
    let s ← getSentinel this
    if curr = s then return ()
    let next ← getNext curr
    deleteNode curr
    List_clearLoop this fuel next

/-- Member `List::clear()`. -/
def List_clear {α : Type} (fuel : Nat) (this : Ref) : Prog (Mem α) Unit := do
  let s ← getSentinel this
  let curr ← getNext s
  List_clearLoop this fuel curr
  let s ← getSentinel this
  storeNext s s
  let s ← getSentinel this
  storePrev s s
  setSize this 0

/-- Member `List::swap(other)`: `std::swap` of both data members. -/
def List_swap {α : Type} (this other : Ref) : Prog (Mem α) Unit := do
  let tmp ← getSentinel this
  let v ← getSentinel other
  setSentinel this v
  setSentinel other tmp
  let tmp ← getSize this
  let v ← getSize other
  setSize this v
  setSize other tmp

/-- The statement `std::swap(a->next, a->prev)`. -/
def swapLinks {α : Type} (a : Ptr) : Prog (Mem α) Unit := do
  let tmp ← getNext a
  let p ← getPrev a
  storeNext a p
  storePrev a tmp

/-- The loop `while (curr != m_sentinel) { next = curr->next; swap(curr->next, curr->prev);
curr = next; }` of `List::reverse()`. -/
def List_reverseLoop {α : Type} (this : Ref) : Nat → Ptr → Prog (Mem α) Unit
  | 0, _ => fun _ => .spent
  | fuel + 1, curr => do
    let s ← getSentinel this
    if curr = s then return ()
    let next ← getNext curr
    swapLinks curr
    List_reverseLoop this fuel next

/-- Member `List::reverse()`. -/
def List_reverse {α : Type} (fuel : Nat) (this : Ref) : Prog (Mem α) Unit := do
  let s ← getSentinel this
  let curr ← getNext s
  swapLinks s
  List_reverseLoop this fuel curr

/-- The library call `std::distance(first, last)` on bidirectional iterators: advance
`first` until it equals `last`, counting the steps. -/
def distanceLoop {α : Type} (last : Ptr) : Nat → Ptr → Nat → Prog (Mem α) Nat
  | 0, _, _ => fun _ => .spent
  | fuel + 1, it, n =>
    if it = last then pure n
    else do
      let it1 ← getNext it
      distanceLoop last fuel it1 (n + 1)

/-- Member `List::splice(pos, other, first, last)`. -/
def List_splice {α : Type} (fuel : Nat) (this : Ref) (pos : Ptr) (other : Ref)
    (first last : Ptr) : Prog (Mem α) Unit := do
  if first = last then return ()
  let posNode := pos
  let firstNode := first
  let lastNode := last
  let count ← (if this ≠ other then distanceLoop last fuel first 0 else pure 0)
  let rangeFirst := firstNode
  let rangeLast ← getPrev lastNode
  let p ← getPrev firstNode
  storeNext p lastNode
  let p ← getPrev firstNode
  storePrev lastNode p
  let q ← getPrev posNode
  storeNext q rangeFirst
  let q ← getPrev posNode
  storePrev rangeFirst q
  storeNext rangeLast posNode
  storePrev posNode rangeLast
  let n ← getSize this
  setSize this (n + count)
  let m ← getSize other
  setSize other (wrapSub m count)

/-! ## The ring invariant -/

/-- Nodes `a` and `b` are adjacent: `a->next == b` and `b->prev == a`. -/
def Linked {α : Type} (h : Heap α) (a b : Ptr) : Prop :=
  nextOf h a = some b ∧ prevOf h b = some a

instance {α : Type} (h : Heap α) (a b : Ptr) : Decidable (Linked h a b) :=
  inferInstanceAs (Decidable (nextOf h a = some b ∧ prevOf h b = some a))

/-- The sentinel `s` and the data nodes `ns` (in logical order) form one circular
doubly-linked ring: the nodes are pairwise distinct, and walking `next` from `s` goes
through `ns` and back to `s`, every step being matched by the `prev` link. -/
def Ring {α : Type} (h : Heap α) (s : Ptr) (ns : List Ptr) : Prop :=
  (s :: ns).Nodup ∧ List.Chain' (Linked h) (s :: ns ++ [s])

instance {α : Type} (h : Heap α) (s : Ptr) (ns : List Ptr) : Decidable (Ring h s ns) :=
  inferInstanceAs (Decidable ((s :: ns).Nodup ∧ List.Chain' (Linked h) (s :: ns ++ [s])))

/-- The list object `l` owns the ring with data nodes `ns`, which hold the values `xs`,
and its `m_size` is the number of data nodes. -/
def Repr {α : Type} (st : Mem α) (l : Ref) (ns : List Ptr) (xs : List α) : Prop :=
  (st.lists l).m_size = ns.length ∧ Ring st.nodes (st.lists l).m_sentinel ns ∧
    ns.map (dataOf st.nodes) = xs.map some

instance {α : Type} [DecidableEq α] (st : Mem α) (l : Ref) (ns : List Ptr) (xs : List α) :
    Decidable (Repr st l ns xs) :=
  inferInstanceAs (Decidable ((st.lists l).m_size = ns.length ∧
    Ring st.nodes (st.lists l).m_sentinel ns ∧ ns.map (dataOf st.nodes) = xs.map some))

/-- Allocator invariant: no live node at or above the allocation pointer. -/
def Fresh {α : Type} (st : Mem α) : Prop := ∀ a, st.brk ≤ a → st.nodes a = none

/-- The iterator designating position `p` of a list with data nodes `ns` and sentinel `s`:
the node of the element at index `p`, and `end()` (the sentinel) for `p = ns.length`. -/
def iterAt (s : Ptr) (ns : List Ptr) (p : Nat) : Ptr := ns.getD p s

/-! ## Buffer memory of `cads::Vector` -/

/-- What the element type `ValType` contributes to the behaviour of `Vector<ValType>`: the
value `ValType{}`, the state an object is left in after `std::move_if_noexcept` handed it
to a constructor or an assignment (the object itself when it was copied), and
`std::is_trivially_destructible_v<ValType>`. -/
class ValType (α : Type) where
  dflt : α
  movedFrom : α → α
  trivial_dtor : Bool

/-- A raw buffer returned by `operator new`: `len` element slots, each holding a live
object or nothing. -/
structure Block (α : Type) where
  len : Nat
  slot : Nat → Option α

/-- Buffer with slot `i` replaced. -/
def Block.set {α : Type} (b : Block α) (i : Nat) (o : Option α) : Block α :=
  { b with slot := fun j => if j = i then o else b.slot j }

/-- The data members of a `Vector` object; `m_data = none` is `nullptr`. -/
structure VecObj where
  m_data : Option Ptr
  m_size : Nat
  m_capacity : Nat
deriving DecidableEq

/-- A `Vector` iterator: a pointer to slot `off` of the buffer `ptr`. -/
structure VIter where
  ptr : Option Ptr
  off : Nat
deriving DecidableEq

/-- Memory seen by the array engine: the live buffers, the allocator (next fresh buffer and
the number of element slots it can still hand out) and the `Vector` objects. -/
structure VMem (α : Type) where
  bufs : Ptr → Option (Block α)
  brk : Ptr
  avail : Nat
  vecs : Ref → VecObj

/-- State with buffer `b` replaced by `blk`. -/
def VMem.setBuf {α : Type} (st : VMem α) (b : Ptr) (blk : Option (Block α)) : VMem α :=
  { st with bufs := fun x => if x = b then blk else st.bufs x }

/-- The allocation `operator new(bytes)` of a buffer for `n` elements, `bytes` being `n`
times `sizeof(ValType)`: a fresh buffer of `n` raw slots, or `std::bad_alloc` when the
allocator cannot provide them.  This is the expression `operator new(n * sizeof(ValType))`
of the source whenever the product does not wrap around in `size_t`; `opNew_sized` is the
expression with the product taken in `size_t`. -/
def opNew {α : Type} (n : Nat) : Prog (VMem α) (Option Ptr) :=
  fun st =>
    if n ≤ st.avail then
      .ret (some st.brk)
        { st with bufs := fun x => if x = st.brk then some { len := n, slot := fun _ => none }
                                    else st.bufs x,
                  brk := st.brk + 1,
                  avail := st.avail - n }
    else .raise .bad_alloc st

/-- The statement `operator delete(p)`; a no-op on `nullptr`. -/
def opDelete {α : Type} (p : Option Ptr) : Prog (VMem α) Unit :=
  fun st =>
    match p with
    | none => .ret () st
    | some b =>
      match st.bufs b with
      | some blk => .ret () { st.setBuf b none with avail := st.avail + blk.len }
      | none => .undefined

/-- Read the object `p[i]`. -/
def readAt {α : Type} (p : Option Ptr) (i : Nat) : Prog (VMem α) α :=
  fun st =>
    match p with
    | none => .undefined
    | some b =>
      match st.bufs b with
      | some blk =>
        match blk.slot i with
        | some v => .ret v st
        | none => .undefined
      | none => .undefined

/-- The expression `std::move_if_noexcept(p[i])` consumed by a constructor or an
assignment: yields the value and leaves the source object in its moved-from state. -/
def moveFrom {α : Type} [ValType α] (p : Option Ptr) (i : Nat) : Prog (VMem α) α :=
  fun st =>
    match p with
    | none => .undefined
    | some b =>
      match st.bufs b with
      | some blk =>
        match blk.slot i with
        | some v => .ret v (st.setBuf b (some (blk.set i (some (ValType.movedFrom v)))))
        | none => .undefined
      | none => .undefined

/-- The placement construction `new (p + i) ValType(v)`. -/
def constructAt {α : Type} (p : Option Ptr) (i : Nat) (v : α) : Prog (VMem α) Unit :=
  fun st =>
    match p with
    | none => .undefined
    | some b =>
      match st.bufs b with
      | some blk =>
        if i < blk.len then .ret () (st.setBuf b (some (blk.set i (some v)))) else .undefined
      | none => .undefined

/-- The assignment `p[i] = v` to a live object. -/
def assignAt {α : Type} (p : Option Ptr) (i : Nat) (v : α) : Prog (VMem α) Unit :=
  fun st =>
    match p with
    | none => .undefined
    | some b =>
      match st.bufs b with
      | some blk =>
        match blk.slot i with
        | some _ => .ret () (st.setBuf b (some (blk.set i (some v))))
        | none => .undefined
      | none => .undefined

/-- The destructor call `p[i].~ValType()`. -/
def destroyAt {α : Type} (p : Option Ptr) (i : Nat) : Prog (VMem α) Unit :=
  fun st =>
    match p with
    | none => .undefined
    | some b =>
      match st.bufs b with
      | some blk =>
        match blk.slot i with
        | some _ => .ret () (st.setBuf b (some (blk.set i none)))
        | none => .undefined
      | none => .undefined

/-- Read the data members of the vector object `v`. -/
def getVec {α : Type} (v : Ref) : Prog (VMem α) VecObj :=
  fun st => .ret (st.vecs v) st

/-- Write the member `m_data` of the vector object `v`. -/
def setData {α : Type} (v : Ref) (p : Option Ptr) : Prog (VMem α) Unit :=
  fun st => .ret ()
    { st with vecs := fun r => if r = v then { st.vecs v with m_data := p } else st.vecs r }

/-- Write the member `m_size` of the vector object `v`. -/
def setVSize {α : Type} (v : Ref) (n : Nat) : Prog (VMem α) Unit :=
  fun st => .ret ()
    { st with vecs := fun r => if r = v then { st.vecs v with m_size := n } else st.vecs r }

/-- Write the member `m_capacity` of the vector object `v`. -/
def setCapacity {α : Type} (v : Ref) (n : Nat) : Prog (VMem α) Unit :=
  fun st => .ret ()
    { st with vecs := fun r => if r = v then { st.vecs v with m_capacity := n } else st.vecs r }

/-- The loop `for (size_t i = lo; i < lo + n; ++i) body(i)`. -/
def forUp {σ : Type} (body : Nat → Prog σ Unit) : Nat → Nat → Prog σ Unit
  | 0, _ => pure ()
  | n + 1, i => do
    body i
    forUp body n (i + 1)

/-- The loop `for (size_t i = hi; i > hi - n; --i) body(i)`. -/
def forDown {σ : Type} (body : Nat → Prog σ Unit) : Nat → Nat → Prog σ Unit
  | 0, _ => pure ()
  | n + 1, i => do
    body i
    forDown body n (i - 1)

/-- The statement `if constexpr (!std::is_trivially_destructible_v<ValType>)
for (size_t i = lo; i < lo + n; ++i) p[i].~ValType();`. -/
def destroyRange {α : Type} [ValType α] (p : Option Ptr) (n lo : Nat) : Prog (VMem α) Unit :=
  if ValType.trivial_dtor α then pure () else forUp (fun i => destroyAt p i) n lo

/-- The library call `std::distance(a, b)` on random-access iterators: the pointer
difference `b - a`, defined only inside one buffer. -/
def vdistance {α : Type} (a b : VIter) : Prog (VMem α) Int :=
  fun st => if a.ptr = b.ptr then .ret ((b.off : Int) - (a.off : Int)) st else .undefined

/-! ## `cads::Vector` member functions (vector.tpp) -/

/-- Member `Vector::size`. -/
def Vector_size {α : Type} (this : Ref) : Prog (VMem α) Nat := do
  let v ← getVec this
  return v.m_size

/-- Member `Vector::capacity`. -/
def Vector_capacity {α : Type} (this : Ref) : Prog (VMem α) Nat := do
  let v ← getVec this
  return v.m_capacity

/-- Member `Vector::empty`. -/
def Vector_empty {α : Type} (this : Ref) : Prog (VMem α) Bool := do
  let v ← getVec this
  return decide (v.m_size = 0)

/-- Member `Vector::data`. -/
def Vector_data {α : Type} (this : Ref) : Prog (VMem α) (Option Ptr) := do
  let v ← getVec this
  return v.m_data

/-- Members `Vector::begin` and `Vector::cbegin`: an iterator on `m_data`. -/
def Vector_begin {α : Type} (this : Ref) : Prog (VMem α) VIter := do
  let v ← getVec this
  return { ptr := v.m_data, off := 0 }

/-- Members `Vector::end` and `Vector::cend`: an iterator on `m_data + m_size`. -/
def Vector_end {α : Type} (this : Ref) : Prog (VMem α) VIter := do
  let v ← getVec this
  return { ptr := v.m_data, off := v.m_size }

/-- Iterator arithmetic `it + n`. -/
def VIter.add (it : VIter) (n : Nat) : VIter := { it with off := it.off + n }

/-- Member `Vector::operator[]`. -/
def Vector_index {α : Type} (this : Ref) (index : Nat) : Prog (VMem α) α := do
  let v ← getVec this
  readAt v.m_data index

/-- Constructor `Vector::Vector()`. -/
def Vector_ctor {α : Type} (this : Ref) : Prog (VMem α) Unit := do
  setData this none
  setVSize this 0
  setCapacity this 0

/-- The loop `for (const ValType& item : list) { new (m_data + i) ValType(item); ++i; }`. -/
def Vector_initLoop {α : Type} (this : Ref) : List α → Nat → Prog (VMem α) Unit
  | [], _ => pure ()
  | item :: rest, i => do
    let v ← getVec this
    constructAt v.m_data i item
    Vector_initLoop this rest (i + 1)

/-- Constructor `Vector::Vector(std::initializer_list)`. -/
def Vector_ctor_init {α : Type} (this : Ref) (list : List α) : Prog (VMem α) Unit := do
  setData this none
  setVSize this list.length
  setCapacity this list.length
  let v ← getVec this
  if v.m_size > 0 then
    let p ← opNew v.m_capacity
    setData this p
    Vector_initLoop this list 0

/-- Private member `Vector::_reallocate(newCapacity)`. -/
def Vector__reallocate {α : Type} [ValType α] (this : Ref) (newCapacity : Nat) :
    Prog (VMem α) Unit := do
  let newData ← opNew newCapacity
  let v ← getVec this
  forUp (fun i => do
    let x ← moveFrom v.m_data i
    constructAt newData i x) v.m_size 0
  destroyRange v.m_data v.m_size 0
  opDelete v.m_data
  setData this newData
  setCapacity this newCapacity

/-- Member `Vector::reserve(newCapacity)`. -/
def Vector_reserve {α : Type} [ValType α] (this : Ref) (newCapacity : Nat) :
    Prog (VMem α) Unit := do
  let v ← getVec this
  if newCapacity ≤ v.m_capacity then return ()
  Vector__reallocate this newCapacity

/-- Member `Vector::insert(pos, value)` called with an argument that is no element of a
vector: the parameter `const ValType& value` is bound to an object outside the buffers,
whose value `value` is the same whenever the function reads it (`Vector_insert_ref` is the
member function with the reference argument).  The destroy loop of the reallocating path
is written `m_data[i].~T()` in the source; it is taken as the destructor call of the
element type, like the loops of `_reallocate` and `erase`. -/
def Vector_insert {α : Type} [ValType α] (this : Ref) (pos : VIter) (value : α) :
    Prog (VMem α) VIter := do
  let b ← Vector_begin this
  let d ← vdistance b pos
  let index := d.toNat
  let v ← getVec this
  if v.m_size < v.m_capacity then
    if index < v.m_size then
      let x ← moveFrom v.m_data (v.m_size - 1)
      constructAt v.m_data v.m_size x
      forDown (fun i => do
        let y ← moveFrom v.m_data (i - 1)
        assignAt v.m_data i y) (v.m_size - 1 - index) (v.m_size - 1)
      assignAt v.m_data index value
    else
      constructAt v.m_data v.m_size value
    setVSize this (v.m_size + 1)
    let b ← Vector_begin this
    return b.add index
  else
    let oldSize := v.m_size
    let newCapacity := if v.m_capacity = 0 then 1 else v.m_capacity * 2
    let newData ← opNew newCapacity
    forUp (fun i => do
      let x ← moveFrom v.m_data i
      constructAt newData i x) index 0
    constructAt newData index value
    forUp (fun i => do
      let x ← moveFrom v.m_data i
      constructAt newData (i + 1) x) (oldSize - index) index
    destroyRange v.m_data oldSize 0
    opDelete v.m_data
    setData this newData
    setVSize this (oldSize + 1)
    setCapacity this newCapacity
    let b ← Vector_begin this
    return b.add index

/-- Member `Vector::pushBack(value)` called with an argument that is no element of a
vector: the parameter `const ValType& value` (or `ValType&& value`) is bound to an object
outside the buffers, whose value `value` is the same whenever the function reads it
(`Vector_pushBack_ref` is the member function with the reference argument). -/
def Vector_pushBack {α : Type} [ValType α] (this : Ref) (value : α) : Prog (VMem α) Unit := do
  let v ← getVec this
  if v.m_size = v.m_capacity then
    Vector_reserve this (if v.m_capacity = 0 then 1 else v.m_capacity * 2)
  let v ← getVec this
  constructAt v.m_data v.m_size value
  setVSize this (v.m_size + 1)

/-- The loop `while (readPos != end()) { *writePos = std::move_if_noexcept(*readPos);
++writePos; ++readPos; }` of `Vector::erase(first, last)`. -/
def Vector_eraseLoop {α : Type} [ValType α] (this : Ref) :
    Nat → VIter → VIter → Prog (VMem α) Unit
  | 0, _, _ => fun _ => .spent
  | fuel + 1, writePos, readPos => do
    let e ← Vector_end this
    if readPos = e then return ()
    let x ← moveFrom readPos.ptr readPos.off
    assignAt writePos.ptr writePos.off x
    Vector_eraseLoop this fuel (writePos.add 1) (readPos.add 1)

/-- Member `Vector::erase(first, last)`. -/
def Vector_erase_range {α : Type} [ValType α] (fuel : Nat) (this : Ref) (first last : VIter) :
    Prog (VMem α) VIter := do
  let b ← Vector_begin this
  let firstIndex ← vdistance b first
  let lastIndex ← vdistance b last
  let countToErase ← vdistance first last
  if countToErase ≤ 0 then
    let b ← Vector_begin this
    return b.add firstIndex.toNat
  let b ← Vector_begin this
  let writePos := b.add firstIndex.toNat
  let readPos := b.add lastIndex.toNat
  Vector_eraseLoop this fuel writePos readPos
  let v ← getVec this
  let newSize := wrapSub v.m_size countToErase.toNat
  destroyRange v.m_data (v.m_size - newSize) newSize
  setVSize this newSize
  let b ← Vector_begin this
  return b.add firstIndex.toNat

/-- Member `Vector::erase(pos)`. -/
def Vector_erase {α : Type} [ValType α] (fuel : Nat) (this : Ref) (pos : VIter) :
    Prog (VMem α) VIter :=
  Vector_erase_range fuel this pos (pos.add 1)

/-! ## The array invariant -/

/-- Length of the buffer `p` points to. -/
def bufLen {α : Type} (st : VMem α) (p : Option Ptr) : Option Nat :=
  match p with
  | none => none
  | some b => (st.bufs b).map (fun blk => blk.len)

/-- Content of slot `i` of the buffer `p` points to. -/
def slotAt {α : Type} (st : VMem α) (p : Option Ptr) (i : Nat) : Option α :=
  match p with
  | none => none
  | some b =>
    match st.bufs b with
    | some blk => blk.slot i
    | none => none

/-- The vector object `v` holds the elements `xs`: `m_size` is their number and does not
exceed `m_capacity`, a null buffer goes with capacity zero, a non-null buffer is live and
has `m_capacity` slots, and slot `i` holds `xs[i]` for every `i < m_size`. -/
def VRepr {α : Type} (st : VMem α) (v : Ref) (xs : List α) : Prop :=
  (st.vecs v).m_size = xs.length ∧ (st.vecs v).m_size ≤ (st.vecs v).m_capacity ∧
    ((st.vecs v).m_data = none → (st.vecs v).m_capacity = 0) ∧
    ((st.vecs v).m_data ≠ none → bufLen st (st.vecs v).m_data = some (st.vecs v).m_capacity) ∧
    ∀ i, i < xs.length → slotAt st (st.vecs v).m_data i = xs[i]?

instance {α : Type} [DecidableEq α] (st : VMem α) (v : Ref) (xs : List α) :
    Decidable (VRepr st v xs) :=
  inferInstanceAs (Decidable ((st.vecs v).m_size = xs.length ∧
    (st.vecs v).m_size ≤ (st.vecs v).m_capacity ∧
    ((st.vecs v).m_data = none → (st.vecs v).m_capacity = 0) ∧
    ((st.vecs v).m_data ≠ none → bufLen st (st.vecs v).m_data = some (st.vecs v).m_capacity) ∧
    ∀ i, i < xs.length → slotAt st (st.vecs v).m_data i = xs[i]?))

/-- Buffer `b` is live, has `len` slots, and its slot `j` holds `f j`. -/
def BufIs {α : Type} (st : VMem α) (b : Ptr) (len : Nat) (f : Nat → Option α) : Prop :=
  ∃ blk, st.bufs b = some blk ∧ blk.len = len ∧ ∀ j, blk.slot j = f j

/-- The states agree on the vector objects, on the allocator and on every buffer outside
`bs`. -/
def SameBut {α : Type} (st st1 : VMem α) (bs : List Ptr) : Prop :=
  st1.vecs = st.vecs ∧ st1.brk = st.brk ∧ st1.avail = st.avail ∧
    ∀ x, x ∉ bs → st1.bufs x = st.bufs x

/-- Allocator invariant: no live buffer at or above the allocation pointer. -/
def VFresh {α : Type} (st : VMem α) : Prop := ∀ a, st.brk ≤ a → st.bufs a = none

/-! ## The ring invariant of a list object, and calls of the public `List` operations -/

/-- The ring invariant of the list object `l`, with the data nodes named: following `next`
from the sentinel visits the `m_size` nodes `ns` and returns to the sentinel, and
`node.next.prev == node`, `node.prev.next == node` hold at every node of the ring. -/
def RingAt {α : Type} (st : Mem α) (l : Ref) (ns : List Ptr) : Prop :=
  (st.lists l).m_size = ns.length ∧ Ring st.nodes (st.lists l).m_sentinel ns

instance {α : Type} (st : Mem α) (l : Ref) (ns : List Ptr) : Decidable (RingAt st l ns) :=
  inferInstanceAs (Decidable ((st.lists l).m_size = ns.length ∧
    Ring st.nodes (st.lists l).m_sentinel ns))

/-- The list object `l` satisfies the ring invariant. -/
def RingInv {α : Type} (st : Mem α) (l : Ref) : Prop := ∃ ns, RingAt st l ns

/-- The state a call returns in, when it returns normally. -/
def Outcome.final {σ ρ : Type} : Outcome σ ρ → Option σ
  | .ret _ s => some s
  | .raise _ _ => none
  | .undefined => none
  | .spent => none

/-- A call of one of the public operations of `cads::List` that modify a list: the
constructors and the modifiers, with their arguments. -/
inductive ListCall (α : Type) where
  | ctor (this : Ref)
  | ctorFill (this : Ref) (size : Nat) (value : α)
  | ctorInit (this : Ref) (list : List α)
  | ctorCopy (this other : Ref)
  | ctorMove (this other : Ref)
  | insert (this : Ref) (pos : Ptr) (value : α)
  | pushFront (this : Ref) (value : α)
  | pushBack (this : Ref) (value : α)
  | popFront (this : Ref)
  | popBack (this : Ref)
  | erase (this : Ref) (pos : Ptr)
  | eraseRange (this : Ref) (first last : Ptr)
  | remove (this : Ref) (value : α)
  | clear (this : Ref)
  | swap (this other : Ref)
  | reverse (this : Ref)
  | splice (this : Ref) (pos : Ptr) (other : Ref) (first last : Ptr)

/-- State in which the call returns; `fuel` bounds the iterations of its `while` loops. -/
def ListCall.exec {α : Type} [DecidableEq α] [Inhabited α] (fuel : Nat) :
    ListCall α → Mem α → Option (Mem α)
  | .ctor this, st => (List_ctor this st).final
  | .ctorFill this size value, st => (List_ctor_fill this size value st).final
  | .ctorInit this list, st => (List_ctor_init this list st).final
  | .ctorCopy this other, st => (List_ctor_copy fuel this other st).final
  | .ctorMove this other, st => (List_ctor_move this other st).final
  | .insert this pos value, st => (List_insert this pos value st).final
  | .pushFront this value, st => (List_pushFront this value st).final
  | .pushBack this value, st => (List_pushBack this value st).final
  | .popFront this, st => (List_popFront this st).final
  | .popBack this, st => (List_popBack this st).final
  | .erase this pos, st => (List_erase fuel this pos st).final
  | .eraseRange this first last, st => (List_erase_range fuel this first last st).final
  | .remove this value, st => (List_remove fuel this value st).final
  | .clear this, st => (List_clear fuel this st).final
  | .swap this other, st => (List_swap this other st).final
  | .reverse this, st => (List_reverse fuel this st).final
  | .splice this pos other first last, st =>
    (List_splice fuel this pos other first last st).final

/-- The list objects a call involves. -/
def ListCall.involved {α : Type} : ListCall α → List Ref
  | .ctor this => [this]
  | .ctorFill this _ _ => [this]
  | .ctorInit this _ => [this]
  | .ctorCopy this other => [this, other]
  | .ctorMove this other => [this, other]
  | .insert this _ _ => [this]
  | .pushFront this _ => [this]
  | .pushBack this _ => [this]
  | .popFront this => [this]
  | .popBack this => [this]
  | .erase this _ => [this]
  | .eraseRange this _ _ => [this]
  | .remove this _ => [this]
  | .clear this => [this]
  | .swap this other => [this, other]
  | .reverse this => [this]
  | .splice this _ other _ _ => [this, other]

/-- Number of elements the `while` loops of a call may have to walk over. -/
def ListCall.bound {α : Type} (st : Mem α) : ListCall α → Nat
  | .ctorCopy _ other => (st.lists other).m_size
  | .erase this _ => (st.lists this).m_size
  | .eraseRange this _ _ => (st.lists this).m_size
  | .remove this _ => (st.lists this).m_size
  | .clear this => (st.lists this).m_size
  | .reverse this => (st.lists this).m_size
  | .splice _ _ other _ _ => (st.lists other).m_size
  | _ => 0

/-- Precondition of a call: the lists it reads satisfy the ring invariant, a constructed
object is not its own argument, iterators designate positions of the list they are passed
for, `erase(pos)` gets a dereferenceable position, ranges run forward inside one list, two
lists of a `splice` own disjoint nodes, and the position of a self-splice is not inside
the moved range. -/
def ListCall.Valid {α : Type} (st : Mem α) : ListCall α → Prop
  | .ctor _ => True
  | .ctorFill _ _ _ => True
  | .ctorInit _ _ => True
  | .ctorCopy this other => this ≠ other ∧ RingInv st other
  | .ctorMove this other => this ≠ other ∧ RingInv st other
  | .insert this pos _ =>
    ∃ ns p, RingAt st this ns ∧ p ≤ ns.length ∧ pos = iterAt (st.lists this).m_sentinel ns p
  | .pushFront this _ => RingInv st this
  | .pushBack this _ => RingInv st this
  | .popFront this => RingInv st this
  | .popBack this => RingInv st this
  | .erase this pos =>
    ∃ ns i, RingAt st this ns ∧ i < ns.length ∧ pos = iterAt (st.lists this).m_sentinel ns i
  | .eraseRange this first last =>
    ∃ ns i j, RingAt st this ns ∧ i ≤ j ∧ j ≤ ns.length ∧
      first = iterAt (st.lists this).m_sentinel ns i ∧
      last = iterAt (st.lists this).m_sentinel ns j
  | .remove this _ => RingInv st this
  | .clear this => RingInv st this
  | .swap this other => RingInv st this ∧ RingInv st other
  | .reverse this => RingInv st this
  | .splice this pos other first last =>
    (this = other ∧ ∃ ns p i j, RingAt st this ns ∧ i ≤ j ∧ j ≤ ns.length ∧ p ≤ ns.length ∧
        (p < i ∨ j ≤ p ∨ i = j) ∧
        pos = iterAt (st.lists this).m_sentinel ns p ∧
        first = iterAt (st.lists this).m_sentinel ns i ∧
        last = iterAt (st.lists this).m_sentinel ns j) ∨
    (this ≠ other ∧ ∃ ns ms p i j, RingAt st this ns ∧ RingAt st other ms ∧
        (∀ x ∈ (st.lists this).m_sentinel :: ns, x ∉ (st.lists other).m_sentinel :: ms) ∧
        p ≤ ns.length ∧ i ≤ j ∧ j ≤ ms.length ∧
        pos = iterAt (st.lists this).m_sentinel ns p ∧
        first = iterAt (st.lists other).m_sentinel ms i ∧
        last = iterAt (st.lists other).m_sentinel ms j)

/-! ## Example states -/

/-- Example state: list object `0` holds `[10, 20, 30]` in the nodes `1, 2, 3` around the
sentinel `0`; every other list object holds `[40, 50]` in the nodes `5, 6` around the
sentinel `4`. -/
def exMem : Mem Nat :=
  Mem.mk
    (fun a =>
      if a = 0 then some (Node.mk 0 3 1)
      else if a = 1 then some (Node.mk 10 0 2)
      else if a = 2 then some (Node.mk 20 1 3)
      else if a = 3 then some (Node.mk 30 2 0)
      else if a = 4 then some (Node.mk 0 6 5)
      else if a = 5 then some (Node.mk 40 4 6)
      else if a = 6 then some (Node.mk 50 5 4)
      else none)
    7
    (fun r => if r = 0 then ListObj.mk 0 3 else ListObj.mk 4 2)

/-- Elements of type `Nat` in a `Vector`: copied by `std::move_if_noexcept`, trivially
destructible. -/
instance : ValType Nat where
  dflt := 0
  movedFrom := fun x => x
  trivial_dtor := true

/-- Example state: every vector object holds `[10, 20, 30]` in the buffer `0` of capacity
`3`; the allocator can still hand out `100` slots. -/
def exVec : VMem Nat :=
  VMem.mk
    (fun b =>
      if b = 0 then
        some (Block.mk 3 (fun i =>
          if i = 0 then some 10 else if i = 1 then some 20 else if i = 2 then some 30
          else none))
      else none)
    1 100
    (fun _ => VecObj.mk (some 0) 3 3)

/-! ## Further `cads::Vector` member functions (vector.tpp) -/

/-- The statement `throw e` (and a failing `assert`, for `e = assertion`). -/
def throwExn {σ ρ : Type} (e : Exn) : Prog σ ρ := fun s => .raise e s

/-- Constructor `Vector::Vector(size, value)`. -/
def Vector_ctor_fill {α : Type} (this : Ref) (size : Nat) (value : α) : Prog (VMem α) Unit := do
  setData this none
  setVSize this size
  setCapacity this size
  if size > 0 then
    let v ← getVec this
    let p ← opNew v.m_capacity
    setData this p
    forUp (fun i => do
      let w ← getVec this
      constructAt w.m_data i value) size 0
  else pure ()

/-- Constructor `Vector::Vector(const Vector& other)`. -/
def Vector_ctor_copy {α : Type} (this other : Ref) : Prog (VMem α) Unit := do
  let o ← getVec other
  setVSize this o.m_size
  setCapacity this o.m_capacity
  let o ← getVec other
  if o.m_capacity > 0 then
    let p ← opNew o.m_capacity
    setData this p
    let t ← getVec this
    forUp (fun i => do
      let w ← getVec this
      let o ← getVec other
      let x ← readAt o.m_data i
      constructAt w.m_data i x) t.m_size 0
  else setData this none

/-- Constructor `Vector::Vector(Vector&& other)`. -/
def Vector_ctor_move {α : Type} (this other : Ref) : Prog (VMem α) Unit := do
  let o ← getVec other
  setData this o.m_data
  setVSize this o.m_size
  setCapacity this o.m_capacity
  setData other none
  setVSize other 0
  setCapacity other 0

/-- Member `Vector::clear()`. -/
def Vector_clear {α : Type} [ValType α] (this : Ref) : Prog (VMem α) Unit := do
  let v ← getVec this
  destroyRange v.m_data v.m_size 0
  setVSize this 0

/-- Destructor `Vector::~Vector()`. -/
def Vector_dtor {α : Type} [ValType α] (this : Ref) : Prog (VMem α) Unit := do
  Vector_clear this
  let v ← getVec this
  opDelete v.m_data

/-- Member `Vector::swap(other)`: `std::swap` of the three data members. -/
def Vector_swap {α : Type} (this other : Ref) : Prog (VMem α) Unit := do
  let tmp ← getVec this
  let o ← getVec other
  setData this o.m_data
  setData other tmp.m_data
  let tmp ← getVec this
  let o ← getVec other
  setVSize this o.m_size
  setVSize other tmp.m_size
  let tmp ← getVec this
  let o ← getVec other
  setCapacity this o.m_capacity
  setCapacity other tmp.m_capacity

/-- Copy assignment `Vector::operator=(const Vector& other)`; `temp` is the local object
`Vector temp{other}`, destroyed at the end of its block. -/
def Vector_assign_copy {α : Type} [ValType α] (this other temp : Ref) : Prog (VMem α) Unit :=
  if this ≠ other then do
    Vector_ctor_copy temp other
    Vector_swap this temp
    Vector_dtor temp
  else pure ()

/-- Move assignment `Vector::operator=(Vector&& other)`. -/
def Vector_assign_move {α : Type} [ValType α] (this other : Ref) : Prog (VMem α) Unit :=
  if this ≠ other then do
    Vector_clear this
    let v ← getVec this
    opDelete v.m_data
    let o ← getVec other
    setData this o.m_data
    let o ← getVec other
    setVSize this o.m_size
    let o ← getVec other
    setCapacity this o.m_capacity
    setData other none
    setVSize other 0
    setCapacity other 0
  else pure ()

/-- Assignment `Vector::operator=(std::initializer_list)`; `temp` is the local object
`Vector temp{list}`, destroyed at the end of the function. -/
def Vector_assign_init {α : Type} [ValType α] (this : Ref) (list : List α) (temp : Ref) :
    Prog (VMem α) Unit := do
  Vector_ctor_init temp list
  Vector_swap this temp
  Vector_dtor temp

/-- Member `Vector::at(index)`; the reference it returns is read. -/
def Vector_at {α : Type} (this : Ref) (index : Nat) : Prog (VMem α) α := do
  let v ← getVec this
  if index ≥ v.m_size then throwExn .out_of_range
  else readAt v.m_data index

/-- Member `Vector::resize(newSize, value)`. -/
def Vector_resize {α : Type} [ValType α] (this : Ref) (newSize : Nat) (value : α) :
    Prog (VMem α) Unit := do
  let v ← getVec this
  (if newSize < v.m_size then
    destroyRange v.m_data (v.m_size - newSize) newSize
  else if newSize > v.m_size then do
    (if newSize > v.m_capacity then Vector_reserve this newSize else pure ())
    let w ← getVec this
    forUp (fun i => do
      let u ← getVec this
      constructAt u.m_data i value) (newSize - w.m_size) w.m_size
  else pure ())
  setVSize this newSize

/-- Member `Vector::resize(newSize)`: `resize(newSize, ValType{})`. -/
def Vector_resize_default {α : Type} [ValType α] (this : Ref) (newSize : Nat) :
    Prog (VMem α) Unit :=
  Vector_resize this newSize ValType.dflt

/-- Member `Vector::shrinkToFit()`. -/
def Vector_shrinkToFit {α : Type} [ValType α] (this : Ref) : Prog (VMem α) Unit := do
  let v ← getVec this
  if v.m_capacity ≤ v.m_size then pure ()
  else do
    Vector__reallocate this v.m_size
    let w ← getVec this
    setCapacity this w.m_size

/-- Member `Vector::popBack()`. -/
def Vector_popBack {α : Type} [ValType α] (this : Ref) : Prog (VMem α) Unit := do
  let e ← Vector_empty this
  if e then pure ()
  else do
    let v ← getVec this
    (if ValType.trivial_dtor α then pure () else destroyAt v.m_data (v.m_size - 1))
    setVSize this (wrapSub v.m_size 1)

/-- The client code `for (x : values) vec.pushBack(x);`: sequential `pushBack` calls. -/
def Vector_pushBackAll {α : Type} [ValType α] (this : Ref) : List α → Prog (VMem α) Unit
  | [] => pure ()
  | x :: rest => do
    Vector_pushBack this x
    Vector_pushBackAll this rest

/-! ## Further `cads::List` member functions (list.tpp) -/

/-- Member `List::front()`; the reference it returns is read. -/
def List_front {α : Type} (this : Ref) : Prog (Mem α) α := do
  let e ← List_empty this
  if e then throwExn .assertion
  else do
    let s ← getSentinel this
    let n ← getNext s
    getData n

/-- Member `List::back()`; the reference it returns is read. -/
def List_back {α : Type} (this : Ref) : Prog (Mem α) α := do
  let e ← List_empty this
  if e then throwExn .assertion
  else do
    let s ← getSentinel this
    let n ← getPrev s
    getData n

/-! ## The array invariant, with the slots past the size -/

/-- The vector object `v` holds exactly the elements `xs`: `VRepr`, and when the element
type has a destructor to run, no slot from `m_size` on holds a constructed object. -/
def VOwns {α : Type} [ValType α] (st : VMem α) (v : Ref) (xs : List α) : Prop :=
  VRepr st v xs ∧
    (ValType.trivial_dtor α = false →
      ∀ i, xs.length ≤ i → slotAt st (st.vecs v).m_data i = none)

/-- The invariant of the vector object `v`: `m_size ≤ m_capacity`, a null buffer goes with
capacity zero, a non-null buffer is live and has `m_capacity` slots, every slot below
`m_size` holds a constructed object, and when the element type has a destructor to run no
other slot does. -/
def VInv {α : Type} [ValType α] (st : VMem α) (v : Ref) : Prop :=
  (st.vecs v).m_size ≤ (st.vecs v).m_capacity ∧
    ((st.vecs v).m_data = none → (st.vecs v).m_capacity = 0) ∧
    ((st.vecs v).m_data ≠ none → bufLen st (st.vecs v).m_data = some (st.vecs v).m_capacity) ∧
    (∀ i, i < (st.vecs v).m_size → (slotAt st (st.vecs v).m_data i).isSome) ∧
    (ValType.trivial_dtor α = false →
      ∀ i, (st.vecs v).m_size ≤ i → slotAt st (st.vecs v).m_data i = none)

/-- What a member function called on the vector object `v` may touch: the allocator only
moves forward, the other vector objects keep their members, a buffer that was live and is
not `v`'s keeps its content, and `v`'s buffer afterwards is its old one, null, or a buffer
allocated during the call. -/
def VStep {α : Type} (st st1 : VMem α) (v : Ref) : Prop :=
  st.brk ≤ st1.brk ∧ (∀ r, r ≠ v → st1.vecs r = st.vecs r) ∧
    (∀ x, some x ≠ (st.vecs v).m_data → x < st.brk → st1.bufs x = st.bufs x) ∧
    ((st1.vecs v).m_data = (st.vecs v).m_data ∨ (st1.vecs v).m_data = none ∨
      ∃ a, (st1.vecs v).m_data = some a ∧ st.brk ≤ a)

/-- What a constructor of the vector object `v` may touch: the allocator only moves
forward, the other vector objects keep their members, every buffer that was live keeps its
content, and the buffer of `v` afterwards is null or allocated during the call. -/
def VNew {α : Type} (st st1 : VMem α) (v : Ref) : Prop :=
  st.brk ≤ st1.brk ∧ (∀ r, r ≠ v → st1.vecs r = st.vecs r) ∧
    (∀ x, x < st.brk → st1.bufs x = st.bufs x) ∧
    ((st1.vecs v).m_data = none ∨ ∃ a, (st1.vecs v).m_data = some a ∧ st.brk ≤ a)

/-- The vector objects `vs` are the constructed ones: the allocator invariant holds, each
of them satisfies `VInv`, and no two of them share a buffer. -/
def VWorld {α : Type} [ValType α] (st : VMem α) (vs : List Ref) : Prop :=
  VFresh st ∧ (∀ v ∈ vs, VInv st v) ∧
    (∀ v ∈ vs, ∀ w ∈ vs, v ≠ w → ∀ a, (st.vecs v).m_data = some a →
      (st.vecs w).m_data ≠ some a)

/-! ## Calls of the public `Vector` operations, and the states they reach -/

/-- Outcome of a call whose result is not used. -/
def Outcome.discard {σ ρ : Type} : Outcome σ ρ → Outcome σ Unit
  | .ret _ s => .ret () s
  | .raise e s => .raise e s
  | .undefined => .undefined
  | .spent => .spent

/-- A call of one of the public operations of `cads::Vector` that modify a vector: the
constructors, the assignment operators and the modifiers, with their arguments; `temp` is
the place of the local object an assignment operator builds. -/
inductive VecCall (α : Type) where
  | ctor (this : Ref)
  | ctorFill (this : Ref) (size : Nat) (value : α)
  | ctorInit (this : Ref) (list : List α)
  | ctorCopy (this other : Ref)
  | ctorMove (this other : Ref)
  | assignCopy (this other temp : Ref)
  | assignMove (this other : Ref)
  | assignInit (this : Ref) (list : List α) (temp : Ref)
  | reserve (this : Ref) (newCapacity : Nat)
  | resize (this : Ref) (newSize : Nat) (value : α)
  | resizeDefault (this : Ref) (newSize : Nat)
  | shrinkToFit (this : Ref)
  | insert (this : Ref) (pos : VIter) (value : α)
  | pushBack (this : Ref) (value : α)
  | popBack (this : Ref)
  | clear (this : Ref)
  | erase (this : Ref) (pos : VIter)
  | eraseRange (this : Ref) (first last : VIter)
  | swap (this other : Ref)

/-- Outcome of a call; `fuel` bounds the iterations of the `while` loop of `erase`. -/
def VecCall.exec {α : Type} [ValType α] (fuel : Nat) :
    VecCall α → VMem α → Outcome (VMem α) Unit
  | .ctor this, st => Vector_ctor this st
  | .ctorFill this size value, st => Vector_ctor_fill this size value st
  | .ctorInit this list, st => Vector_ctor_init this list st
  | .ctorCopy this other, st => Vector_ctor_copy this other st
  | .ctorMove this other, st => Vector_ctor_move this other st
  | .assignCopy this other temp, st => Vector_assign_copy this other temp st
  | .assignMove this other, st => Vector_assign_move this other st
  | .assignInit this list temp, st => Vector_assign_init this list temp st
  | .reserve this newCapacity, st => Vector_reserve this newCapacity st
  | .resize this newSize value, st => Vector_resize this newSize value st
  | .resizeDefault this newSize, st => Vector_resize_default this newSize st
  | .shrinkToFit this, st => Vector_shrinkToFit this st
  | .insert this pos value, st => (Vector_insert this pos value st).discard
  | .pushBack this value, st => Vector_pushBack this value st
  | .popBack this, st => Vector_popBack this st
  | .clear this, st => Vector_clear this st
  | .erase this pos, st => (Vector_erase fuel this pos st).discard
  | .eraseRange this first last, st => (Vector_erase_range fuel this first last st).discard
  | .swap this other, st => Vector_swap this other st

/-- Number of elements the `while` loop of a call may have to walk over. -/
def VecCall.bound {α : Type} (st : VMem α) : VecCall α → Nat
  | .erase this _ => (st.vecs this).m_size
  | .eraseRange this _ _ => (st.vecs this).m_size
  | _ => 0

/-- The constructed vector objects after a call that returned, given those before it. -/
def VecCall.after {α : Type} (vs : List Ref) : VecCall α → List Ref
  | .ctor this => this :: vs
  | .ctorFill this _ _ => this :: vs
  | .ctorInit this _ => this :: vs
  | .ctorCopy this _ => this :: vs
  | .ctorMove this _ => this :: vs
  | _ => vs

/-- Precondition of a call, `vs` being the constructed vector objects: a constructor builds
an object that is not constructed yet, from a constructed one; a member function is called
on a constructed object, with constructed arguments; the local object of an assignment
operator is at a place of its own; `insert` gets a position in `[begin(), end()]`,
`erase(pos)` a dereferenceable one, and `erase(first, last)` a range that runs forward
inside `[begin(), end()]`. -/
def VecCall.Valid {α : Type} (st : VMem α) (vs : List Ref) : VecCall α → Prop
  | .ctor this => this ∉ vs
  | .ctorFill this _ _ => this ∉ vs
  | .ctorInit this _ => this ∉ vs
  | .ctorCopy this other => this ∉ vs ∧ other ∈ vs
  | .ctorMove this other => this ∉ vs ∧ other ∈ vs
  | .assignCopy this other temp => this ∈ vs ∧ other ∈ vs ∧ temp ∉ vs
  | .assignMove this other => this ∈ vs ∧ other ∈ vs
  | .assignInit this _ temp => this ∈ vs ∧ temp ∉ vs
  | .reserve this _ => this ∈ vs
  | .resize this _ _ => this ∈ vs
  | .resizeDefault this _ => this ∈ vs
  | .shrinkToFit this => this ∈ vs
  | .insert this pos _ =>
    this ∈ vs ∧ ∃ i, i ≤ (st.vecs this).m_size ∧ pos = VIter.mk (st.vecs this).m_data i
  | .pushBack this _ => this ∈ vs
  | .popBack this => this ∈ vs
  | .clear this => this ∈ vs
  | .erase this pos =>
    this ∈ vs ∧ ∃ i, i < (st.vecs this).m_size ∧ pos = VIter.mk (st.vecs this).m_data i
  | .eraseRange this first last =>
    this ∈ vs ∧ ∃ i j, i ≤ j ∧ j ≤ (st.vecs this).m_size ∧
      first = VIter.mk (st.vecs this).m_data i ∧ last = VIter.mk (st.vecs this).m_data j
  | .swap this other => this ∈ vs ∧ other ∈ vs

/-- The states reachable from a state without vector objects through calls of the public
operations within their preconditions, with the vector objects constructed so far: a call
that returns leads to a reachable state, and so does a call that throws (its exception
being caught by the caller). -/
inductive VReach {α : Type} [ValType α] : VMem α → List Ref → Prop where
  | init (st : VMem α) : VFresh st → VReach st []
  | call (c : VecCall α) (fuel : Nat) (st st1 : VMem α) (vs : List Ref) :
      VReach st vs → c.Valid st vs → c.bound st < fuel → c.exec fuel st = .ret () st1 →
      VReach st1 (c.after vs)
  | fail (c : VecCall α) (fuel : Nat) (e : Exn) (st st1 : VMem α) (vs : List Ref) :
      VReach st vs → c.Valid st vs → c.bound st < fuel → c.exec fuel st = .raise e st1 →
      VReach st1 vs

/-! ## Further example states -/

/-- Example state: no buffer is allocated and the allocator can hand out `100` slots. -/
def exNew : VMem Nat :=
  VMem.mk (fun _ => none) 0 100 (fun _ => VecObj.mk none 0 0)

/-- Example state: the state `Vector<Nat> v{1, 2, 3};` leaves when the vector object `0`
is constructed in the state `exNew`. -/
def exOne : VMem Nat :=
  ((Vector_ctor_init 0 [1, 2, 3] exNew).final).getD exNew

/-- Example state: every vector object holds `[10, 20]` in the buffer `0` of capacity `4`;
the allocator can still hand out `100` slots. -/
def exSpare : VMem Nat :=
  VMem.mk
    (fun b =>
      if b = 0 then
        some (Block.mk 4 (fun i => if i = 0 then some 10 else if i = 1 then some 20 else none))
      else none)
    1 100
    (fun _ => VecObj.mk (some 0) 2 4)

/-- Example state: every vector object holds `[10, 20, 30]` in the buffer `0` of capacity
`3`, and the allocator can hand out only `2` more slots. -/
def exFull : VMem Nat :=
  VMem.mk
    (fun b =>
      if b = 0 then
        some (Block.mk 3 (fun i =>
          if i = 0 then some 10 else if i = 1 then some 20 else if i = 2 then some 30
          else none))
      else none)
    1 2
    (fun _ => VecObj.mk (some 0) 3 3)

/-! ## Iterators of `cads::List` (list.h) and iteration -/

/-- Heap after `a->data = v`. -/
def Heap.setData {α : Type} (h : Heap α) (a : Ptr) (v : α) : Heap α :=
  fun x => if x = a then (h a).map (fun n => { n with data := v }) else h x

/-- Store `a->data = v`. -/
def storeData {α : Type} (a : Ptr) (v : α) : Prog (Mem α) Unit :=
  fun st => match st.nodes a with
    | some _ => .ret () { st with nodes := st.nodes.setData a v }
    | none => .undefined

/-- Member `List::Iterator::operator*`, read: `m_node->data`. -/
def List_Iterator_deref {α : Type} (it : Ptr) : Prog (Mem α) α := getData it

/-- The assignment `*it = value` through `List::Iterator::operator*`. -/
def List_Iterator_assign {α : Type} (it : Ptr) (value : α) : Prog (Mem α) Unit :=
  storeData it value

/-- Member `List::Iterator::operator++`: `m_node = m_node->next`. -/
def List_Iterator_inc {α : Type} (it : Ptr) : Prog (Mem α) Ptr := getNext it

/-- Member `List::Iterator::operator--`: `m_node = m_node->prev`. -/
def List_Iterator_dec {α : Type} (it : Ptr) : Prog (Mem α) Ptr := getPrev it

/-- Members `List::rbegin` and `List::crbegin`: `ReverseIterator{end()}`.  A
`std::reverse_iterator` is represented by the iterator it wraps. -/
def List_rbegin {α : Type} (this : Ref) : Prog (Mem α) Ptr := List_end this

/-- Members `List::rend` and `List::crend`: `ReverseIterator{begin()}`. -/
def List_rend {α : Type} (this : Ref) : Prog (Mem α) Ptr := List_begin this

/-- The library call `std::reverse_iterator::operator*`:
`Iterator tmp = current; return *--tmp;`. -/
def List_ReverseIterator_deref {α : Type} (rit : Ptr) : Prog (Mem α) α := do
  let tmp ← List_Iterator_dec rit
  List_Iterator_deref tmp

/-- The library call `std::reverse_iterator::operator++`: `--current`. -/
def List_ReverseIterator_inc {α : Type} (rit : Ptr) : Prog (Mem α) Ptr :=
  List_Iterator_dec rit

/-- The loop `for (; it != list.end(); ++it) out.push_back(*it);`. -/
def List_iterateLoop {α : Type} (this : Ref) : Nat → Ptr → List α → Prog (Mem α) (List α)
  | 0, _, _ => fun _ => .spent
  | fuel + 1, it, out => do
    let e ← List_end this
    if it = e then return out
    let x ← List_Iterator_deref it
    let it1 ← List_Iterator_inc it
    List_iterateLoop this fuel it1 (out ++ [x])

/-- The client code `for (auto it = list.begin(); it != list.end(); ++it)
out.push_back(*it);`: the elements met from `begin()` to `end()`. -/
def List_iterate {α : Type} (fuel : Nat) (this : Ref) : Prog (Mem α) (List α) := do
  let b ← List_begin this
  List_iterateLoop this fuel b []

/-- The loop `for (; rit != list.rend(); ++rit) out.push_back(*rit);`. -/
def List_riterateLoop {α : Type} (this : Ref) : Nat → Ptr → List α → Prog (Mem α) (List α)
  | 0, _, _ => fun _ => .spent
  | fuel + 1, rit, out => do
    let e ← List_rend this
    if rit = e then return out
    let x ← List_ReverseIterator_deref rit
    let rit1 ← List_ReverseIterator_inc rit
    List_riterateLoop this fuel rit1 (out ++ [x])

/-- The client code `for (auto rit = list.rbegin(); rit != list.rend(); ++rit)
out.push_back(*rit);`: the elements met from `rbegin()` to `rend()`. -/
def List_riterate {α : Type} (fuel : Nat) (this : Ref) : Prog (Mem α) (List α) := do
  let b ← List_rbegin this
  List_riterateLoop this fuel b []

/-- The client code `++it; ... ++it;` with `n` increments. -/
def List_advance {α : Type} : Nat → Ptr → Prog (Mem α) Ptr
  | 0, it => pure it
  | n + 1, it => do
    let it1 ← List_Iterator_inc it
    List_advance n it1

/-- The client code `auto it = list.begin(); ++it; ... ++it;` with `i` increments: the
iterator on position `i`. -/
def List_iterTo {α : Type} (this : Ref) (i : Nat) : Prog (Mem α) Ptr := do
  let b ← List_begin this
  List_advance i b

/-! ## Further `cads::List` member functions (list.tpp) -/

/-- Member `List::front()`, as the reference it returns: the node whose `data` member the
reference designates. -/
def List_front_ref {α : Type} (this : Ref) : Prog (Mem α) Ptr := do
  let e ← List_empty this
  if e then throwExn .assertion
  else do
    let s ← getSentinel this
    getNext s

/-- Member `List::back()`, as the reference it returns: the node whose `data` member the
reference designates. -/
def List_back_ref {α : Type} (this : Ref) : Prog (Mem α) Ptr := do
  let e ← List_empty this
  if e then throwExn .assertion
  else do
    let s ← getSentinel this
    getPrev s

/-- The statement `list.front() = value`. -/
def List_front_write {α : Type} (this : Ref) (value : α) : Prog (Mem α) Unit := do
  let r ← List_front_ref this
  storeData r value

/-- The statement `list.back() = value`. -/
def List_back_write {α : Type} (this : Ref) (value : α) : Prog (Mem α) Unit := do
  let r ← List_back_ref this
  storeData r value

/-- Destructor `List::~List()`. -/
def List_dtor {α : Type} (fuel : Nat) (this : Ref) : Prog (Mem α) Unit := do
  List_clear fuel this
  let s ← getSentinel this
  deleteNode s

/-- Copy assignment `List::operator=(const List& other)`; `temp` is the local object
`List temp{other}`, destroyed at the end of its block. -/
def List_assign_copy {α : Type} [Inhabited α] (fuel : Nat) (this other temp : Ref) :
    Prog (Mem α) Unit :=
  if this ≠ other then do
    List_ctor_copy fuel temp other
    List_swap this temp
    List_dtor fuel temp
  else pure ()

/-- Move assignment `List::operator=(List&& other)`. -/
def List_assign_move {α : Type} (this other : Ref) : Prog (Mem α) Unit :=
  if this ≠ other then List_swap this other else pure ()

/-- Member `List::operator==`. -/
def List_eq {α : Type} (this other : Ref) : Prog (Mem α) Bool := do
  let n ← getSize this
  let m ← getSize other
  let s ← getSentinel this
  let t ← getSentinel other
  return (decide (n = m) && decide (s = t))

/-! ## Sequences of mutating operations on a `List` -/

/-- A mutating operation applied to a list by client code; positions are given by the
number of increments that lead from `begin()` to them. -/
inductive ListMut (α : Type) where
  | pushFront (value : α)
  | pushBack (value : α)
  | popFront
  | popBack
  | insert (i : Nat) (value : α)
  | erase (i : Nat)
  | eraseRange (i j : Nat)
  | remove (value : α)
  | clear
  | reverse
  | write (i : Nat) (value : α)

/-- The call a mutating operation stands for, on the list object `this`. -/
def ListMut.exec {α : Type} [DecidableEq α] (fuel : Nat) (this : Ref) :
    ListMut α → Prog (Mem α) Unit
  | .pushFront value => List_pushFront this value
  | .pushBack value => List_pushBack this value
  | .popFront => List_popFront this
  | .popBack => List_popBack this
  | .insert i value => do
    let pos ← List_iterTo this i
    let _ ← List_insert this pos value
    return ()
  | .erase i => do
    let pos ← List_iterTo this i
    let _ ← List_erase fuel this pos
    return ()
  | .eraseRange i j => do
    let first ← List_iterTo this i
    let last ← List_iterTo this j
    let _ ← List_erase_range fuel this first last
    return ()
  | .remove value => List_remove fuel this value
  | .clear => List_clear fuel this
  | .reverse => List_reverse fuel this
  | .write i value => do
    let pos ← List_iterTo this i
    List_Iterator_assign pos value

/-- The client code that applies the operations `ops` to the list object `this`, one after
the other. -/
def List_mutAll {α : Type} [DecidableEq α] (fuel : Nat) (this : Ref) :
    List (ListMut α) → Prog (Mem α) Unit
  | [] => pure ()
  | op :: rest => do
    op.exec fuel this
    List_mutAll fuel this rest

/-- Precondition of a mutating operation on a list of `n` elements: `insert` gets a
position in `[begin(), end()]`, `erase(pos)` and an element write a dereferenceable one,
and `erase(first, last)` a range that runs forward inside `[begin(), end()]`. -/
def ListMut.Valid {α : Type} (n : Nat) : ListMut α → Prop
  | .insert i _ => i ≤ n
  | .erase i => i < n
  | .eraseRange i j => i ≤ j ∧ j ≤ n
  | .write i _ => i < n
  | _ => True

/-- The element sequence a mutating operation is to leave in a list that holds `xs`. -/
def ListMut.expected {α : Type} [DecidableEq α] (xs : List α) : ListMut α → List α
  | .pushFront value => value :: xs
  | .pushBack value => xs ++ [value]
  | .popFront => xs.drop 1
  | .popBack => xs.take (xs.length - 1)
  | .insert i value => xs.take i ++ value :: xs.drop i
  | .erase i => xs.take i ++ xs.drop (i + 1)
  | .eraseRange i j => xs.take i ++ xs.drop j
  | .remove value => xs.filter (fun x => decide (x ≠ value))
  | .clear => []
  | .reverse => xs.reverse
  | .write i value => xs.set i value

/-- The element sequence a sequence of mutating operations is to leave. -/
def ListMut.expectedAll {α : Type} [DecidableEq α] (xs : List α) (ops : List (ListMut α)) :
    List α :=
  ops.foldl ListMut.expected xs

/-- Every operation of the sequence is called within its precondition. -/
def ListMut.ValidAll {α : Type} [DecidableEq α] : List α → List (ListMut α) → Prop
  | _, [] => True
  | xs, op :: rest => op.Valid xs.length ∧ ListMut.ValidAll (op.expected xs) rest

/-- The operation is a push. -/
def ListMut.isPush {α : Type} : ListMut α → Bool
  | .pushFront _ => true
  | .pushBack _ => true
  | _ => false

/-- The operation is a pop or an erase. -/
def ListMut.isRemoval {α : Type} : ListMut α → Bool
  | .popFront => true
  | .popBack => true
  | .erase _ => true
  | .eraseRange _ _ => true
  | _ => false

/-- Number of elements a pop or an erase removes from a container of `n` elements: one for
`erase(pos)`, the length of the range for `erase(first, last)`, and one for a pop unless
the container is empty. -/
def ListMut.removed {α : Type} (n : Nat) : ListMut α → Nat
  | .popFront => if n = 0 then 0 else 1
  | .popBack => if n = 0 then 0 else 1
  | .erase _ => 1
  | .eraseRange i j => j - i
  | _ => 0

/-- Number of elements a sequence of pops and erases removes from a container of `n`
elements. -/
def ListMut.removedAll {α : Type} : Nat → List (ListMut α) → Nat
  | _, [] => 0
  | n, op :: rest => op.removed n + ListMut.removedAll (n - op.removed n) rest

/-- What a member function called on the list object `l`, whose data nodes are `ns` before
and `ns1` after the call, may touch: the allocator only moves forward, `l` keeps its
sentinel, the other list objects keep their members, a node that was allocated before and
is not a node of `l` is left as it was, and the nodes of `l` afterwards are former ones or
nodes allocated during the call. -/
def LStep {α : Type} (st st1 : Mem α) (l : Ref) (ns ns1 : List Ptr) : Prop :=
  st.brk ≤ st1.brk ∧ (st1.lists l).m_sentinel = (st.lists l).m_sentinel ∧
    (∀ r, r ≠ l → st1.lists r = st.lists r) ∧
    (∀ x, x ∉ (st.lists l).m_sentinel :: ns → x < st.brk → st1.nodes x = st.nodes x) ∧
    (∀ x ∈ ns1, x ∈ ns ∨ st.brk ≤ x)

/-! ## Iterators of `cads::Vector` (vector.h) and iteration -/

/-- Member `Vector::Iterator::operator*`, read: `*m_ptr`. -/
def Vector_Iterator_deref {α : Type} (it : VIter) : Prog (VMem α) α := readAt it.ptr it.off

/-- Member `Vector::Iterator::operator--`: `--m_ptr`; undefined on a pointer to the start
of the buffer. -/
def Vector_Iterator_dec {α : Type} (it : VIter) : Prog (VMem α) VIter :=
  fun st => if 0 < it.off then .ret { it with off := it.off - 1 } st else .undefined

/-- Members `Vector::rbegin` and `Vector::crbegin`: `ReverseIterator{end()}`.  A
`std::reverse_iterator` is represented by the iterator it wraps. -/
def Vector_rbegin {α : Type} (this : Ref) : Prog (VMem α) VIter := Vector_end this

/-- Members `Vector::rend` and `Vector::crend`: `ReverseIterator{begin()}`. -/
def Vector_rend {α : Type} (this : Ref) : Prog (VMem α) VIter := Vector_begin this

/-- The library call `std::reverse_iterator::operator*`:
`Iterator tmp = current; return *--tmp;`. -/
def Vector_ReverseIterator_deref {α : Type} (rit : VIter) : Prog (VMem α) α := do
  let tmp ← Vector_Iterator_dec rit
  Vector_Iterator_deref tmp

/-- The library call `std::reverse_iterator::operator++`: `--current`. -/
def Vector_ReverseIterator_inc {α : Type} (rit : VIter) : Prog (VMem α) VIter :=
  Vector_Iterator_dec rit

/-- The loop `for (; it != vec.end(); ++it) out.push_back(*it);`. -/
def Vector_iterateLoop {α : Type} (this : Ref) :
    Nat → VIter → List α → Prog (VMem α) (List α)
  | 0, _, _ => fun _ => .spent
  | fuel + 1, it, out => do
    let e ← Vector_end this
    if it = e then return out
    let x ← Vector_Iterator_deref it
    Vector_iterateLoop this fuel (it.add 1) (out ++ [x])

/-- The client code `for (auto it = vec.begin(); it != vec.end(); ++it)
out.push_back(*it);`: the elements met from `begin()` to `end()`. -/
def Vector_iterate {α : Type} (fuel : Nat) (this : Ref) : Prog (VMem α) (List α) := do
  let b ← Vector_begin this
  Vector_iterateLoop this fuel b []

/-- The loop `for (; rit != vec.rend(); ++rit) out.push_back(*rit);`. -/
def Vector_riterateLoop {α : Type} (this : Ref) :
    Nat → VIter → List α → Prog (VMem α) (List α)
  | 0, _, _ => fun _ => .spent
  | fuel + 1, rit, out => do
    let e ← Vector_rend this
    if rit = e then return out
    let x ← Vector_ReverseIterator_deref rit
    let rit1 ← Vector_ReverseIterator_inc rit
    Vector_riterateLoop this fuel rit1 (out ++ [x])

/-- The client code `for (auto rit = vec.rbegin(); rit != vec.rend(); ++rit)
out.push_back(*rit);`: the elements met from `rbegin()` to `rend()`. -/
def Vector_riterate {α : Type} (fuel : Nat) (this : Ref) : Prog (VMem α) (List α) := do
  let b ← Vector_rbegin this
  Vector_riterateLoop this fuel b []

/-- The statement `vec[index] = value` through `Vector::operator[]`. -/
def Vector_index_write {α : Type} (this : Ref) (index : Nat) (value : α) :
    Prog (VMem α) Unit := do
  let v ← getVec this
  assignAt v.m_data index value

/-! ## Sequences of mutating operations on a `Vector` -/

/-- A mutating operation applied to a vector by client code; the position `i` stands for
the iterator `begin() + i`. -/
inductive VecMut (α : Type) where
  | pushBack (value : α)
  | popBack
  | insert (i : Nat) (value : α)
  | erase (i : Nat)
  | eraseRange (i j : Nat)
  | clear
  | write (i : Nat) (value : α)

/-- The call a mutating operation stands for, on the vector object `this`. -/
def VecMut.exec {α : Type} [ValType α] (fuel : Nat) (this : Ref) :
    VecMut α → Prog (VMem α) Unit
  | .pushBack value => Vector_pushBack this value
  | .popBack => Vector_popBack this
  | .insert i value => do
    let b ← Vector_begin this
    let _ ← Vector_insert this (b.add i) value
    return ()
  | .erase i => do
    let b ← Vector_begin this
    let _ ← Vector_erase fuel this (b.add i)
    return ()
  | .eraseRange i j => do
    let b ← Vector_begin this
    let _ ← Vector_erase_range fuel this (b.add i) (b.add j)
    return ()
  | .clear => Vector_clear this
  | .write i value => Vector_index_write this i value

/-- The client code that applies the operations `ops` to the vector object `this`, one
after the other. -/
def Vector_mutAll {α : Type} [ValType α] (fuel : Nat) (this : Ref) :
    List (VecMut α) → Prog (VMem α) Unit
  | [] => pure ()
  | op :: rest => do
    op.exec fuel this
    Vector_mutAll fuel this rest

/-- Precondition of a mutating operation on a vector of `n` elements: `insert` gets a
position in `[begin(), end()]`, `erase(pos)` and an element write an index below `n`, and
`erase(first, last)` a range that runs forward inside `[begin(), end()]`. -/
def VecMut.Valid {α : Type} (n : Nat) : VecMut α → Prop
  | .insert i _ => i ≤ n
  | .erase i => i < n
  | .eraseRange i j => i ≤ j ∧ j ≤ n
  | .write i _ => i < n
  | _ => True

/-- The element sequence a mutating operation is to leave in a vector that holds `xs`. -/
def VecMut.expected {α : Type} (xs : List α) : VecMut α → List α
  | .pushBack value => xs ++ [value]
  | .popBack => xs.take (xs.length - 1)
  | .insert i value => xs.take i ++ value :: xs.drop i
  | .erase i => xs.take i ++ xs.drop (i + 1)
  | .eraseRange i j => xs.take i ++ xs.drop j
  | .clear => []
  | .write i value => xs.set i value

/-- The element sequence a sequence of mutating operations is to leave. -/
def VecMut.expectedAll {α : Type} (xs : List α) (ops : List (VecMut α)) : List α :=
  ops.foldl VecMut.expected xs

/-- Every operation of the sequence is called within its precondition. -/
def VecMut.ValidAll {α : Type} : List α → List (VecMut α) → Prop
  | _, [] => True
  | xs, op :: rest => op.Valid xs.length ∧ VecMut.ValidAll (op.expected xs) rest

/-- The operation is a pop or an erase. -/
def VecMut.isRemoval {α : Type} : VecMut α → Bool
  | .popBack => true
  | .erase _ => true
  | .eraseRange _ _ => true
  | _ => false

/-- Number of elements a pop or an erase removes from a vector of `n` elements: one for
`erase(pos)`, the length of the range for `erase(first, last)`, and one for `popBack()`
unless the vector is empty. -/
def VecMut.removed {α : Type} (n : Nat) : VecMut α → Nat
  | .popBack => if n = 0 then 0 else 1
  | .erase _ => 1
  | .eraseRange i j => j - i
  | _ => 0

/-- Number of elements a sequence of pops and erases removes from a vector of `n`
elements. -/
def VecMut.removedAll {α : Type} : Nat → List (VecMut α) → Nat
  | _, [] => 0
  | n, op :: rest => op.removed n + VecMut.removedAll (n - op.removed n) rest

/-! ## Further example states -/

/-- Example state: every list object is empty, around the sentinel `0`. -/
def exNil : Mem Nat :=
  Mem.mk (fun a => if a = 0 then some (Node.mk 0 0 0) else none) 1 (fun _ => ListObj.mk 0 0)

/-- Example state: list object `0` holds `[10, 20]` in the nodes `1, 2` around the sentinel
`0`; every other list object holds `[10, 20]` in the nodes `4, 5` around the sentinel `3`. -/
def exPair : Mem Nat :=
  Mem.mk
    (fun a =>
      if a = 0 then some (Node.mk 0 2 1)
      else if a = 1 then some (Node.mk 10 0 2)
      else if a = 2 then some (Node.mk 20 1 0)
      else if a = 3 then some (Node.mk 0 5 4)
      else if a = 4 then some (Node.mk 10 3 5)
      else if a = 5 then some (Node.mk 20 4 3)
      else none)
    6
    (fun r => if r = 0 then ListObj.mk 0 2 else ListObj.mk 3 2)

/-- Example sequence of operations on a list of three elements: a push, an erase, an
element write and a `reverse`. -/
def exListOps : List (ListMut Nat) :=
  [ListMut.pushBack 7, ListMut.erase 0, ListMut.write 0 9, ListMut.reverse]

/-- Example sequence of operations on a vector of three elements: a push, an erase and an
element write. -/
def exVecOps : List (VecMut Nat) :=
  [VecMut.pushBack 7, VecMut.erase 0, VecMut.write 0 9]

/-- Example state: vector object `0` holds `[10, 20, 30]` in the buffer `0` of capacity
`3`; every other vector object holds `[40, 50]` in the buffer `1` of capacity `2`; the
allocator can still hand out `100` slots. -/
def exTwo : VMem Nat :=
  VMem.mk
    (fun b =>
      if b = 0 then
        some (Block.mk 3 (fun i =>
          if i = 0 then some 10 else if i = 1 then some 20 else if i = 2 then some 30
          else none))
      else if b = 1 then
        some (Block.mk 2 (fun i => if i = 0 then some 40 else if i = 1 then some 50 else none))
      else none)
    2 100
    (fun r => if r = 0 then VecObj.mk (some 0) 3 3 else VecObj.mk (some 1) 2 2)

/-! ## `List::operator!=` (list.tpp) -/

/-- Member `List::operator!=`. -/
def List_ne {α : Type} (this other : Ref) : Prog (Mem α) Bool := do
  let n ← getSize this
  let m ← getSize other
  let s ← getSentinel this
  let t ← getSentinel other
  return (decide (n ≠ m) && decide (s ≠ t))

/-! ## `cads::Stack` (stack.h)

A `Stack` object has the single data member `m_container`; it is addressed by the reference
of that member.  `Stack_*` is the adapter over the default container `List<ValType>`,
`VStack_*` the instantiation `Stack<ValType, Vector<ValType>>`. -/

/-- Implicit default constructor of `Stack`: default-constructs `m_container`. -/
def Stack_ctor {α : Type} [Inhabited α] (this : Ref) : Prog (Mem α) Unit := List_ctor this

/-- Member `Stack::empty`. -/
def Stack_empty {α : Type} (this : Ref) : Prog (Mem α) Bool := List_empty this

/-- Member `Stack::size`. -/
def Stack_size {α : Type} (this : Ref) : Prog (Mem α) Nat := List_size this

/-- Member `Stack::top`; the reference it returns is read. -/
def Stack_top {α : Type} (this : Ref) : Prog (Mem α) α := List_back this

/-- Member `Stack::push(val)`. -/
def Stack_push {α : Type} (this : Ref) (val : α) : Prog (Mem α) Unit := List_pushBack this val

/-- Member `Stack::pop`. -/
def Stack_pop {α : Type} (this : Ref) : Prog (Mem α) Unit := List_popBack this

/-- The client code `for (x : values) stack.push(x);`. -/
def Stack_pushAll {α : Type} (this : Ref) : List α → Prog (Mem α) Unit
  | [] => pure ()
  | x :: rest => do
    Stack_push this x
    Stack_pushAll this rest

/-- The client code `while (!stack.empty()) { out.push_back(stack.top()); stack.pop(); }`:
the values met by alternating `top()` and `pop()`. -/
def Stack_drain {α : Type} (this : Ref) : Nat → List α → Prog (Mem α) (List α)
  | 0, _ => fun _ => .spent
  | fuel + 1, out => do
    let e ← Stack_empty this
    if e then return out
    let x ← Stack_top this
    Stack_pop this
    Stack_drain this fuel (out ++ [x])

/-- Member `Vector::back()`; the reference it returns is read. -/
def Vector_back {α : Type} (this : Ref) : Prog (VMem α) α := do
  let v ← getVec this
  readAt v.m_data (wrapSub v.m_size 1)

/-- Implicit default constructor of `Stack<ValType, Vector<ValType>>`. -/
def VStack_ctor {α : Type} (this : Ref) : Prog (VMem α) Unit := Vector_ctor this

/-- Member `Stack::empty` over a `Vector`. -/
def VStack_empty {α : Type} (this : Ref) : Prog (VMem α) Bool := Vector_empty this

/-- Member `Stack::size` over a `Vector`. -/
def VStack_size {α : Type} (this : Ref) : Prog (VMem α) Nat := Vector_size this

/-- Member `Stack::top` over a `Vector`; the reference it returns is read. -/
def VStack_top {α : Type} (this : Ref) : Prog (VMem α) α := Vector_back this

/-- Member `Stack::push(val)` over a `Vector`. -/
def VStack_push {α : Type} [ValType α] (this : Ref) (val : α) : Prog (VMem α) Unit :=
  Vector_pushBack this val

/-- Member `Stack::pop` over a `Vector`. -/
def VStack_pop {α : Type} [ValType α] (this : Ref) : Prog (VMem α) Unit := Vector_popBack this

/-- The client code `for (x : values) stack.push(x);` over a `Vector`. -/
def VStack_pushAll {α : Type} [ValType α] (this : Ref) : List α → Prog (VMem α) Unit
  | [] => pure ()
  | x :: rest => do
    VStack_push this x
    VStack_pushAll this rest

/-- The client code `while (!stack.empty()) { out.push_back(stack.top()); stack.pop(); }`
over a `Vector`. -/
def VStack_drain {α : Type} [ValType α] (this : Ref) : Nat → List α → Prog (VMem α) (List α)
  | 0, _ => fun _ => .spent
  | fuel + 1, out => do
    let e ← VStack_empty this
    if e then return out
    let x ← VStack_top this
    VStack_pop this
    VStack_drain this fuel (out ++ [x])

/-! ## `cads::Queue` (queue.h) over the default container `List<ValType>` -/

/-- Implicit default constructor of `Queue`: default-constructs `m_container`. -/
def Queue_ctor {α : Type} [Inhabited α] (this : Ref) : Prog (Mem α) Unit := List_ctor this

/-- Member `Queue::empty`. -/
def Queue_empty {α : Type} (this : Ref) : Prog (Mem α) Bool := List_empty this

/-- Member `Queue::size`. -/
def Queue_size {α : Type} (this : Ref) : Prog (Mem α) Nat := List_size this

/-- Member `Queue::front`; the reference it returns is read. -/
def Queue_front {α : Type} (this : Ref) : Prog (Mem α) α := List_front this

/-- Member `Queue::back`; the reference it returns is read. -/
def Queue_back {α : Type} (this : Ref) : Prog (Mem α) α := List_back this

/-- Member `Queue::push(val)`. -/
def Queue_push {α : Type} (this : Ref) (val : α) : Prog (Mem α) Unit := List_pushBack this val

/-- Member `Queue::pop`. -/
def Queue_pop {α : Type} (this : Ref) : Prog (Mem α) Unit := List_popFront this

/-- The client code `for (x : values) queue.push(x);`. -/
def Queue_pushAll {α : Type} (this : Ref) : List α → Prog (Mem α) Unit
  | [] => pure ()
  | x :: rest => do
    Queue_push this x
    Queue_pushAll this rest

/-- The client code `while (!queue.empty()) { out.push_back(queue.front()); queue.pop(); }`:
the values met by alternating `front()` and `pop()`. -/
def Queue_drain {α : Type} (this : Ref) : Nat → List α → Prog (Mem α) (List α)
  | 0, _ => fun _ => .spent
  | fuel + 1, out => do
    let e ← Queue_empty this
    if e then return out
    let x ← Queue_front this
    Queue_pop this
    Queue_drain this fuel (out ++ [x])

/-! ## Capacities met while inserting into a `Vector` -/

/-- The client code `for ((i, x) : items) { vec.insert(vec.begin() + i, x);
caps.push_back(vec.capacity()); }`: the capacity after each insertion. -/
def Vector_insertCaps {α : Type} [ValType α] (this : Ref) :
    List (Nat × α) → Prog (VMem α) (List Nat)
  | [] => pure []
  | item :: rest => do
    let b ← Vector_begin this
    let _ ← Vector_insert this (b.add item.1) item.2
    let c ← Vector_capacity this
    let cs ← Vector_insertCaps this rest
    return c :: cs

/-- The doubling growth policy in the words of the specification: an insertion into a
vector of size `s` and capacity `c` keeps the capacity when there is room, and otherwise
reallocates to `1` slot when the vector has no buffer and to twice the capacity when it
has one. -/
def doublingCapacity (s c : Nat) : Nat := if s < c then c else if c = 0 then 1 else c * 2

/-- The capacities the doubling growth policy gives after each of `n` insertions, one at a
time, into a vector of size `s` and capacity `c`. -/
def doublingCapacities : Nat → Nat → Nat → List Nat
  | _, _, 0 => []
  | s, c, n + 1 => doublingCapacity s c :: doublingCapacities (s + 1) (doublingCapacity s c) n

/-- Every insertion of the sequence gets a position in `[begin(), end()]` of the vector it
is applied to, which has `s` elements before the first one. -/
def InsertsValid {α : Type} : Nat → List (Nat × α) → Prop
  | _, [] => True
  | s, item :: rest => item.1 ≤ s ∧ InsertsValid (s + 1) rest

/-- The allocator, which can hand out `avail` slots, can serve each of `n` insertions into
a vector of size `s` and capacity `c`: a reallocation asks for the new buffer before the
old one is released. -/
def AllocFits : Nat → Nat → Nat → Nat → Prop
  | _, _, _, 0 => True
  | s, c, avail, n + 1 =>
    (s < c ∨ doublingCapacity s c ≤ avail) ∧
      AllocFits (s + 1) (doublingCapacity s c) (avail + c - doublingCapacity s c) n

/-! ## The traversal loops of `cads::List`, with a record of the visited nodes

Each `*_visits` function is the member function it is named after, its `while` loop
extended by the ghost variable `seen`: the list of the values `curr` had in the executions
of the loop body, in order.  Its length is the number of iterations. -/

/-- The loop of `List::erase(first, last)`, recording the nodes it visits. -/
def List_eraseLoop_visits {α : Type} (lastNode : Ptr) :
    Nat → Ptr → Nat → List Ptr → Prog (Mem α) (Nat × List Ptr)
  | 0, _, _, _ => fun _ => .spent
  | fuel + 1, curr, count, seen =>
    if curr = lastNode then pure (count, seen)
    else do
      let next ← getNext curr
      deleteNode curr
      List_eraseLoop_visits lastNode fuel next (count + 1) (seen ++ [curr])

/-- Member `List::erase(first, last)`, returning the nodes its loop visited besides its
result. -/
def List_erase_range_visits {α : Type} (fuel : Nat) (this : Ref) (first last : Ptr) :
    Prog (Mem α) (Ptr × List Ptr) := do
  let firstNode := first
  let lastNode := last
  if first = last then return (lastNode, [])
  let p ← getPrev firstNode
  storeNext p lastNode
  let p ← getPrev firstNode
  storePrev lastNode p
  let r ← List_eraseLoop_visits lastNode fuel firstNode 0 []
  let n ← getSize this
  setSize this (wrapSub n r.1)
  return (lastNode, r.2)

/-- The loop of `List::remove(value)`, recording the nodes it visits. -/
def List_removeLoop_visits {α : Type} [DecidableEq α] (this : Ref) (value : α) :
    Nat → Ptr → List Ptr → Prog (Mem α) (List Ptr)
  | 0, _, _ => fun _ => .spent
  | fuel + 1, currIt, seen => do
    let e ← List_end this
    if currIt = e then return seen
    let d ← getData currIt
    if d = value then do
      let it ← List_erase (fuel + 1) this currIt
      List_removeLoop_visits this value fuel it (seen ++ [currIt])
    else do
      let it ← getNext currIt
      List_removeLoop_visits this value fuel it (seen ++ [currIt])

/-- Member `List::remove(value)`, returning the nodes its loop visited. -/
def List_remove_visits {α : Type} [DecidableEq α] (fuel : Nat) (this : Ref) (value : α) :
    Prog (Mem α) (List Ptr) := do
  let currIt ← List_begin this
  List_removeLoop_visits this value fuel currIt []

/-- The loop of `List::clear()`, recording the nodes it visits. -/
def List_clearLoop_visits {α : Type} (this : Ref) :
    Nat → Ptr → List Ptr → Prog (Mem α) (List Ptr)
  | 0, _, _ => fun _ => .spent
  | fuel + 1, curr, seen => do
    let s ← getSentinel this
    if curr = s then return seen
    let next ← getNext curr
    deleteNode curr
    List_clearLoop_visits this fuel next (seen ++ [curr])

/-- Member `List::clear()`, returning the nodes its loop visited. -/
def List_clear_visits {α : Type} (fuel : Nat) (this : Ref) : Prog (Mem α) (List Ptr) := do
  let s ← getSentinel this
  let curr ← getNext s
  let seen ← List_clearLoop_visits this fuel curr []
  let s ← getSentinel this
  storeNext s s
  let s ← getSentinel this
  storePrev s s
  setSize this 0
  return seen

/-- The loop of `List::reverse()`, recording the nodes it visits. -/
def List_reverseLoop_visits {α : Type} (this : Ref) :
    Nat → Ptr → List Ptr → Prog (Mem α) (List Ptr)
  | 0, _, _ => fun _ => .spent
  | fuel + 1, curr, seen => do
    let s ← getSentinel this
    if curr = s then return seen
    let next ← getNext curr
    swapLinks curr
    List_reverseLoop_visits this fuel next (seen ++ [curr])

/-- Member `List::reverse()`, returning the nodes its loop visited. -/
def List_reverse_visits {α : Type} (fuel : Nat) (this : Ref) : Prog (Mem α) (List Ptr) := do
  let s ← getSentinel this
  let curr ← getNext s
  swapLinks s
  List_reverseLoop_visits this fuel curr []

/-! ## Further example states -/

/-- Example state: every vector object holds `[10, 20]` in the buffer `0` of capacity `2`;
the allocator can still hand out `100` slots. -/
def exPacked : VMem Nat :=
  VMem.mk
    (fun b =>
      if b = 0 then
        some (Block.mk 2 (fun i => if i = 0 then some 10 else if i = 1 then some 20 else none))
      else none)
    1 100
    (fun _ => VecObj.mk (some 0) 2 2)

/-- Example state: vector object `0` holds `[10, 20]` in the buffer `0` of capacity `4`;
every other vector object holds `[40]` in the buffer `1` of capacity `1`; the allocator
can still hand out `100` slots. -/
def exRoomy : VMem Nat :=
  VMem.mk
    (fun b =>
      if b = 0 then
        some (Block.mk 4 (fun i => if i = 0 then some 10 else if i = 1 then some 20 else none))
      else if b = 1 then
        some (Block.mk 1 (fun i => if i = 0 then some 40 else none))
      else none)
    2 100
    (fun r => if r = 0 then VecObj.mk (some 0) 2 4 else VecObj.mk (some 1) 1 1)

/-! ## Allocation sizes computed in `size_t` -/

/-- The constant `sizeof(ValType)` of the element type: a positive number of bytes. -/
class ValSizeof (α : Type) where
  sizeof : Nat
  sizeof_pos : 0 < sizeof

/-- Elements of type `Nat` stand for `int` elements of four bytes. -/
instance : ValSizeof Nat where
  sizeof := 4
  sizeof_pos := by decide

/-- Number of elements that fit into the `n * sizeof(ValType)` bytes an allocation asks
for, the product being computed in `size_t` (64 bits): `n`, unless the product wraps. -/
def allocSlots (α : Type) [ValSizeof α] (n : Nat) : Nat :=
  n * ValSizeof.sizeof α % 2 ^ 64 / ValSizeof.sizeof α

/-- The expression `operator new(n * sizeof(ValType))`, the product being computed in
`size_t`: a fresh buffer with room for `allocSlots α n` elements (a buffer without room for
any element when the product is zero), or `std::bad_alloc`. -/
def opNew_sized {α : Type} [ValSizeof α] (n : Nat) : Prog (VMem α) (Option Ptr) :=
  opNew (allocSlots α n)

/-- Private member `Vector::_reallocate(newCapacity)`, with the byte count of the
allocation computed in `size_t`. -/
def Vector__reallocate_wrap {α : Type} [ValType α] [ValSizeof α] (this : Ref)
    (newCapacity : Nat) : Prog (VMem α) Unit := do
  let newData ← opNew_sized newCapacity
  let v ← getVec this
  forUp (fun i => do
    let x ← moveFrom v.m_data i
    constructAt newData i x) v.m_size 0
  destroyRange v.m_data v.m_size 0
  opDelete v.m_data
  setData this newData
  setCapacity this newCapacity

/-- Member `Vector::reserve(newCapacity)`, with the byte count of the allocation computed
in `size_t`. -/
def Vector_reserve_wrap {α : Type} [ValType α] [ValSizeof α] (this : Ref)
    (newCapacity : Nat) : Prog (VMem α) Unit := do
  let v ← getVec this
  if newCapacity ≤ v.m_capacity then return ()
  Vector__reallocate_wrap this newCapacity

/-- Member `Vector::resize(newSize, value)` called with an argument that is no element of
the vector, with the byte count of the allocation computed in `size_t`. -/
def Vector_resize_wrap {α : Type} [ValType α] [ValSizeof α] (this : Ref) (newSize : Nat)
    (value : α) : Prog (VMem α) Unit := do
  let v ← getVec this
  (if newSize < v.m_size then
    destroyRange v.m_data (v.m_size - newSize) newSize
  else if newSize > v.m_size then do
    (if newSize > v.m_capacity then Vector_reserve_wrap this newSize else pure ())
    let w ← getVec this
    forUp (fun i => do
      let u ← getVec this
      constructAt u.m_data i value) (newSize - w.m_size) w.m_size
  else pure ())
  setVSize this newSize

/-- Member `Vector::resize(newSize)`: `resize(newSize, ValType{})`, with the byte count of
the allocation computed in `size_t`. -/
def Vector_resize_default_wrap {α : Type} [ValType α] [ValSizeof α] (this : Ref)
    (newSize : Nat) : Prog (VMem α) Unit :=
  Vector_resize_wrap this newSize ValType.dflt

/-- Constructor `Vector::Vector(size, value)`, with the byte count of the allocation
computed in `size_t`. -/
def Vector_ctor_fill_wrap {α : Type} [ValSizeof α] (this : Ref) (size : Nat) (value : α) :
    Prog (VMem α) Unit := do
  setData this none
  setVSize this size
  setCapacity this size
  if size > 0 then
    let v ← getVec this
    let p ← opNew_sized v.m_capacity
    setData this p
    forUp (fun i => do
      let w ← getVec this
      constructAt w.m_data i value) size 0
  else pure ()

/-- Constructor `Vector::Vector(std::initializer_list)`, with the byte count of the
allocation computed in `size_t`. -/
def Vector_ctor_init_wrap {α : Type} [ValSizeof α] (this : Ref) (list : List α) :
    Prog (VMem α) Unit := do
  setData this none
  setVSize this list.length
  setCapacity this list.length
  let v ← getVec this
  if v.m_size > 0 then
    let p ← opNew_sized v.m_capacity
    setData this p
    Vector_initLoop this list 0
  else pure ()

/-- Constructor `Vector::Vector(const Vector& other)`, with the byte count of the
allocation computed in `size_t`. -/
def Vector_ctor_copy_wrap {α : Type} [ValSizeof α] (this other : Ref) :
    Prog (VMem α) Unit := do
  let o ← getVec other
  setVSize this o.m_size
  setCapacity this o.m_capacity
  let o ← getVec other
  if o.m_capacity > 0 then
    let p ← opNew_sized o.m_capacity
    setData this p
    let t ← getVec this
    forUp (fun i => do
      let w ← getVec this
      let o ← getVec other
      let x ← readAt o.m_data i
      constructAt w.m_data i x) t.m_size 0
  else setData this none

/-- Copy assignment `Vector::operator=(const Vector& other)`, with the byte count of the
allocation computed in `size_t`; `temp` is the local object `Vector temp{other}`. -/
def Vector_assign_copy_wrap {α : Type} [ValType α] [ValSizeof α] (this other temp : Ref) :
    Prog (VMem α) Unit :=
  if this ≠ other then do
    Vector_ctor_copy_wrap temp other
    Vector_swap this temp
    Vector_dtor temp
  else pure ()

/-- Assignment `Vector::operator=(std::initializer_list)`, with the byte count of the
allocation computed in `size_t`; `temp` is the local object `Vector temp{list}`. -/
def Vector_assign_init_wrap {α : Type} [ValType α] [ValSizeof α] (this : Ref)
    (list : List α) (temp : Ref) : Prog (VMem α) Unit := do
  Vector_ctor_init_wrap temp list
  Vector_swap this temp
  Vector_dtor temp

/-- Member `Vector::shrinkToFit()`, with the byte count of the allocation computed in
`size_t`. -/
def Vector_shrinkToFit_wrap {α : Type} [ValType α] [ValSizeof α] (this : Ref) :
    Prog (VMem α) Unit := do
  let v ← getVec this
  if v.m_capacity ≤ v.m_size then pure ()
  else do
    Vector__reallocate_wrap this v.m_size
    let w ← getVec this
    setCapacity this w.m_size

/-- The capacity the growth policy asks for on a full vector of capacity `c`: `1` for an
empty buffer, twice the capacity otherwise. -/
def grownCapacity (c : Nat) : Nat := if c = 0 then 1 else c * 2

/-- The expression `(m_capacity == 0) ? 1 : m_capacity * 2` computed in `size_t`. -/
def grownCapacity_wrap (c : Nat) : Nat := if c = 0 then 1 else c * 2 % 2 ^ 64

/-! ## Arguments of type `const ValType&` -/

/-- The object an argument of type `const ValType&` is bound to: an object outside the
buffers of the vectors (a temporary, a local variable) with its value, or the element in
slot `i` of the buffer `p`. -/
inductive ValRef (α : Type) where
  | obj (x : α)
  | elem (p : Ptr) (i : Nat)
deriving DecidableEq

/-- Reading through a reference: the value of the outside object, or the object in the
slot, which has to be alive in a buffer that has not been released. -/
def ValRef.read {α : Type} : ValRef α → Prog (VMem α) α
  | .obj x => pure x
  | .elem p i => readAt (some p) i

/-- The reference is not bound to an element of the buffer `d`. -/
def ValRef.Outside {α : Type} : ValRef α → Option Ptr → Prop
  | .obj _, _ => True
  | .elem p _, d => d ≠ some p

instance {α : Type} (r : ValRef α) (d : Option Ptr) : Decidable (r.Outside d) :=
  match r with
  | .obj _ => inferInstanceAs (Decidable True)
  | .elem p _ => inferInstanceAs (Decidable (d ≠ some p))

/-- Member `Vector::operator[]`, returning the reference to the element. -/
def Vector_index_ref {α : Type} (this : Ref) (index : Nat) : Prog (VMem α) (ValRef α) := do
  let v ← getVec this
  match v.m_data with
  | some p => return .elem p index
  | none => fun _ => .undefined

/-- Member `Vector::back()`, returning the reference to the element. -/
def Vector_back_ref {α : Type} (this : Ref) : Prog (VMem α) (ValRef α) := do
  let v ← getVec this
  match v.m_data with
  | some p => return .elem p (wrapSub v.m_size 1)
  | none => fun _ => .undefined

/-- Member `Vector::pushBack(const ValType& value)` with its reference argument: the
argument is read after `reserve` returned.  The doubled capacity and the byte count of the
allocation are computed in `size_t`.  Called with a temporary, `ValRef.obj`, the overload
`pushBack(ValType&& value)` does the same. -/
def Vector_pushBack_ref {α : Type} [ValType α] [ValSizeof α] (this : Ref)
    (value : ValRef α) : Prog (VMem α) Unit := do
  let v ← getVec this
  (if v.m_size = v.m_capacity then
    Vector_reserve_wrap this (grownCapacity_wrap v.m_capacity)
  else pure ())
  let v ← getVec this
  let x ← value.read
  constructAt v.m_data v.m_size x
  setVSize this (v.m_size + 1)

/-- Member `Vector::insert(pos, value)` with its reference argument `const ValType& value`:
the path that shifts in place reads the argument after the shift, the path that
reallocates reads it after the elements in front of `pos` were moved to the new buffer.
The doubled capacity and the byte count of the allocation are computed in `size_t`; the
destroy loop of the reallocating path, written `m_data[i].~T()` in the source, is taken as
the destructor call of the element type. -/
def Vector_insert_ref {α : Type} [ValType α] [ValSizeof α] (this : Ref) (pos : VIter)
    (value : ValRef α) : Prog (VMem α) VIter := do
  let b ← Vector_begin this
  let d ← vdistance b pos
  let index := d.toNat
  let v ← getVec this
  if v.m_size < v.m_capacity then
    if index < v.m_size then
      let x ← moveFrom v.m_data (v.m_size - 1)
      constructAt v.m_data v.m_size x
      forDown (fun i => do
        let y ← moveFrom v.m_data (i - 1)
        assignAt v.m_data i y) (v.m_size - 1 - index) (v.m_size - 1)
      let z ← value.read
      assignAt v.m_data index z
    else
      let z ← value.read
      constructAt v.m_data v.m_size z
    setVSize this (v.m_size + 1)
    let b ← Vector_begin this
    return b.add index
  else
    let oldSize := v.m_size
    let newCapacity := grownCapacity_wrap v.m_capacity
    let newData ← opNew_sized newCapacity
    forUp (fun i => do
      let x ← moveFrom v.m_data i
      constructAt newData i x) index 0
    let z ← value.read
    constructAt newData index z
    forUp (fun i => do
      let x ← moveFrom v.m_data i
      constructAt newData (i + 1) x) (oldSize - index) index
    destroyRange v.m_data oldSize 0
    opDelete v.m_data
    setData this newData
    setVSize this (oldSize + 1)
    setCapacity this newCapacity
    let b ← Vector_begin this
    return b.add index

/-- Member `Stack::top` over a `Vector`, returning the reference to the element. -/
def VStack_top_ref {α : Type} (this : Ref) : Prog (VMem α) (ValRef α) := Vector_back_ref this

/-- Member `Stack::push(const ValType& val)` over a `Vector` with its reference argument,
which it hands on to `pushBack`. -/
def VStack_push_ref {α : Type} [ValType α] [ValSizeof α] (this : Ref) (val : ValRef α) :
    Prog (VMem α) Unit :=
  Vector_pushBack_ref this val

/-- The client code `for (x : values) stack.push(x);` over a `Vector`, the values being
objects outside the stack. -/
def VStack_pushAll_ref {α : Type} [ValType α] [ValSizeof α] (this : Ref) :
    List α → Prog (VMem α) Unit
  | [] => pure ()
  | x :: rest => do
    VStack_push_ref this (.obj x)
    VStack_pushAll_ref this rest

/-! ## Calls of the public `Vector` operations with the sizes computed in `size_t` -/

/-- Number of elements a call asks the allocator for; `0` when the call does not
allocate. -/
def VecCall.request {α : Type} (st : VMem α) : VecCall α → Nat
  | .ctorFill _ size _ => size
  | .ctorInit _ list => list.length
  | .ctorCopy _ other => (st.vecs other).m_capacity
  | .assignCopy this other _ => if this = other then 0 else (st.vecs other).m_capacity
  | .assignInit _ list _ => list.length
  | .reserve this newCapacity =>
    if newCapacity ≤ (st.vecs this).m_capacity then 0 else newCapacity
  | .resize this newSize _ =>
    if newSize > (st.vecs this).m_size ∧ newSize > (st.vecs this).m_capacity then newSize
    else 0
  | .resizeDefault this newSize =>
    if newSize > (st.vecs this).m_size ∧ newSize > (st.vecs this).m_capacity then newSize
    else 0
  | .shrinkToFit this =>
    if (st.vecs this).m_capacity ≤ (st.vecs this).m_size then 0 else (st.vecs this).m_size
  | .insert this _ _ =>
    if (st.vecs this).m_size < (st.vecs this).m_capacity then 0
    else grownCapacity (st.vecs this).m_capacity
  | .pushBack this _ =>
    if (st.vecs this).m_size = (st.vecs this).m_capacity then
      grownCapacity (st.vecs this).m_capacity
    else 0
  | _ => 0

/-- Precondition of a call: `VecCall.Valid`, and the byte size of the buffer the call asks
for does not exceed `SIZE_MAX`. -/
def VecCall.Pre {α : Type} [ValSizeof α] (st : VMem α) (vs : List Ref) (c : VecCall α) :
    Prop :=
  c.Valid st vs ∧ c.request st * ValSizeof.sizeof α < 2 ^ 64

/-- Outcome of a call, with the capacities and the byte counts of the allocations computed
in `size_t`; the value arguments of the call are objects outside the buffers; `fuel`
bounds the iterations of the `while` loop of `erase`. -/
def VecCall.run {α : Type} [ValType α] [ValSizeof α] (fuel : Nat) :
    VecCall α → VMem α → Outcome (VMem α) Unit
  | .ctor this, st => Vector_ctor this st
  | .ctorFill this size value, st => Vector_ctor_fill_wrap this size value st
  | .ctorInit this list, st => Vector_ctor_init_wrap this list st
  | .ctorCopy this other, st => Vector_ctor_copy_wrap this other st
  | .ctorMove this other, st => Vector_ctor_move this other st
  | .assignCopy this other temp, st => Vector_assign_copy_wrap this other temp st
  | .assignMove this other, st => Vector_assign_move this other st
  | .assignInit this list temp, st => Vector_assign_init_wrap this list temp st
  | .reserve this newCapacity, st => Vector_reserve_wrap this newCapacity st
  | .resize this newSize value, st => Vector_resize_wrap this newSize value st
  | .resizeDefault this newSize, st => Vector_resize_default_wrap this newSize st
  | .shrinkToFit this, st => Vector_shrinkToFit_wrap this st
  | .insert this pos value, st => (Vector_insert_ref this pos (.obj value) st).discard
  | .pushBack this value, st => Vector_pushBack_ref this (.obj value) st
  | .popBack this, st => Vector_popBack this st
  | .clear this, st => Vector_clear this st
  | .erase this pos, st => (Vector_erase fuel this pos st).discard
  | .eraseRange this first last, st => (Vector_erase_range fuel this first last st).discard
  | .swap this other, st => Vector_swap this other st

/-- The states reachable from a state without vector objects through calls of the public
operations within their preconditions `VecCall.Pre`, the sizes being computed in `size_t`:
a call that returns leads to a reachable state, and so does a call that throws. -/
inductive VReached {α : Type} [ValType α] [ValSizeof α] : VMem α → List Ref → Prop where
  | init (st : VMem α) : VFresh st → VReached st []
  | call (c : VecCall α) (fuel : Nat) (st st1 : VMem α) (vs : List Ref) :
      VReached st vs → c.Pre st vs → c.bound st < fuel → c.run fuel st = .ret () st1 →
      VReached st1 (c.after vs)
  | fail (c : VecCall α) (fuel : Nat) (e : Exn) (st st1 : VMem α) (vs : List Ref) :
      VReached st vs → c.Pre st vs → c.bound st < fuel → c.run fuel st = .raise e st1 →
      VReached st1 vs

/-! ## Destructor calls of the move assignment -/

/-- The loop `for (size_t i = lo; i < lo + n; ++i) p[i].~ValType();`, recording the objects
whose destructor it calls. -/
def destroyLoop_dtors {α : Type} (p : Option Ptr) :
    Nat → Nat → List α → Prog (VMem α) (List α)
  | 0, _, seen => pure seen
  | n + 1, i, seen => do
    let x ← readAt p i
    destroyAt p i
    destroyLoop_dtors p n (i + 1) (seen ++ [x])

/-- The statement `destroyRange`, returning the objects whose destructor it called: none
for a trivially destructible element type. -/
def destroyRange_dtors {α : Type} [ValType α] (p : Option Ptr) (n lo : Nat) :
    Prog (VMem α) (List α) :=
  if ValType.trivial_dtor α then pure [] else destroyLoop_dtors p n lo []

/-- Member `Vector::clear()`, returning the objects whose destructor it called. -/
def Vector_clear_dtors {α : Type} [ValType α] (this : Ref) : Prog (VMem α) (List α) := do
  let v ← getVec this
  let ds ← destroyRange_dtors v.m_data v.m_size 0
  setVSize this 0
  return ds

/-- Move assignment `Vector::operator=(Vector&& other)`, returning the objects whose
destructor it called. -/
def Vector_assign_move_dtors {α : Type} [ValType α] (this other : Ref) :
    Prog (VMem α) (List α) :=
  if this ≠ other then do
    let ds ← Vector_clear_dtors this
    let v ← getVec this
    opDelete v.m_data
    let o ← getVec other
    setData this o.m_data
    let o ← getVec other
    setVSize this o.m_size
    let o ← getVec other
    setCapacity this o.m_capacity
    setData other none
    setVSize other 0
    setCapacity other 0
    return ds
  else pure []

/-! ## Further element types and example states -/

/-- The element type `InstanceCounter` of the tests: a class without data members whose
constructors and destructor count the live instances. -/
inductive InstanceCounter where
  | mk
deriving DecidableEq

/-- `InstanceCounter` has a `noexcept` move constructor, which leaves the source an object
like any other, and a user-provided destructor. -/
instance : ValType InstanceCounter where
  dflt := .mk
  movedFrom := fun x => x
  trivial_dtor := false

/-- An object without data members takes one byte. -/
instance : ValSizeof InstanceCounter where
  sizeof := 1
  sizeof_pos := by decide

/-- Example state of the test `MoveAssignmentOperator`: vector object `0` holds two
`InstanceCounter` objects in the buffer `0`, every other vector object holds three in the
buffer `1`; the allocator can still hand out `100` slots. -/
def exCounters : VMem InstanceCounter :=
  VMem.mk
    (fun b =>
      if b = 0 then some (Block.mk 2 (fun i => if i < 2 then some .mk else none))
      else if b = 1 then some (Block.mk 3 (fun i => if i < 3 then some .mk else none))
      else none)
    2 100
    (fun r => if r = 0 then VecObj.mk (some 0) 2 2 else VecObj.mk (some 1) 3 3)

/-- Example state: the state `v.popBack();` leaves when called in the state `exOne`, in
which the vector object `0` holds `[1, 2, 3]`. -/
def exPopped : VMem Nat :=
  ((Vector_popBack 0 exOne).final).getD exOne

/-- Example state: the state `v.insert(v.begin(), v[1]);` leaves on the example vector
`[10, 20]` of capacity `4`. -/
def exShifted : VMem Nat :=
  ((Vector_insert_ref 0 (VIter.mk (some 0) 0) (.elem 0 1) exSpare).final).getD exSpare

/-- Example state: the state `v.insert(v.begin(), v[1]);` leaves on the example vector
`[10, 20]` of capacity `2`. -/
def exRegrown : VMem Nat :=
  ((Vector_insert_ref 0 (VIter.mk (some 0) 0) (.elem 0 1) exPacked).final).getD exPacked

/-! # Verification -/

/-! ## Running programs -/

section ProgLemmas
variable {σ ρ τ : Type}

@[simp] theorem Prog.pure_run (r : ρ) (s : σ) : (pure r : Prog σ ρ) s = .ret r s := rfl

@[simp] theorem Prog.bind_run (m : Prog σ ρ) (f : ρ → Prog σ τ) (s : σ) :
    (m >>= f) s = Prog.bind m f s := rfl

theorem Prog.bind_ret {m : Prog σ ρ} {f : ρ → Prog σ τ} {s s1 : σ} {r : ρ}
    (h : m s = .ret r s1) : Prog.bind m f s = f r s1 := by
  simp [Prog.bind, h]

end ProgLemmas

/-! ## Heap projections under the heap updates -/

section HeapLemmas
variable {α : Type}

/-- Liveness of an address. -/
theorem live_iff_next (h : Heap α) (a : Ptr) : (h a).isSome ↔ (nextOf h a).isSome := by
  simp [nextOf]

theorem live_iff_prev (h : Heap α) (a : Ptr) : (h a).isSome ↔ (prevOf h a).isSome := by
  simp [prevOf]

theorem live_of_next {h : Heap α} {a b : Ptr} (e : nextOf h a = some b) : (h a).isSome := by
  cases hx : h a <;> simp_all [nextOf]

theorem live_of_prev {h : Heap α} {a b : Ptr} (e : prevOf h a = some b) : (h a).isSome := by
  cases hx : h a <;> simp_all [prevOf]

@[simp] theorem nextOf_setNext (h : Heap α) (a b x : Ptr) :
    nextOf (h.setNext a b) x = if x = a then (if (h a).isSome then some b else none)
      else nextOf h x := by
  unfold nextOf Heap.setNext
  split
  · cases h a <;> simp
  · rfl

@[simp] theorem prevOf_setNext (h : Heap α) (a b x : Ptr) :
    prevOf (h.setNext a b) x = prevOf h x := by
  unfold prevOf Heap.setNext
  split
  · subst x; cases h a <;> simp
  · rfl

@[simp] theorem dataOf_setNext (h : Heap α) (a b x : Ptr) :
    dataOf (h.setNext a b) x = dataOf h x := by
  unfold dataOf Heap.setNext
  split
  · subst x; cases h a <;> simp
  · rfl

@[simp] theorem live_setNext (h : Heap α) (a b x : Ptr) :
    ((h.setNext a b) x).isSome = (h x).isSome := by
  unfold Heap.setNext
  split
  · subst x; cases h a <;> simp
  · rfl

@[simp] theorem prevOf_setPrev (h : Heap α) (a b x : Ptr) :
    prevOf (h.setPrev a b) x = if x = a then (if (h a).isSome then some b else none)
      else prevOf h x := by
  unfold prevOf Heap.setPrev
  split
  · cases h a <;> simp
  · rfl

@[simp] theorem nextOf_setPrev (h : Heap α) (a b x : Ptr) :
    nextOf (h.setPrev a b) x = nextOf h x := by
  unfold nextOf Heap.setPrev
  split
  · subst x; cases h a <;> simp
  · rfl

@[simp] theorem dataOf_setPrev (h : Heap α) (a b x : Ptr) :
    dataOf (h.setPrev a b) x = dataOf h x := by
  unfold dataOf Heap.setPrev
  split
  · subst x; cases h a <;> simp
  · rfl

@[simp] theorem live_setPrev (h : Heap α) (a b x : Ptr) :
    ((h.setPrev a b) x).isSome = (h x).isSome := by
  unfold Heap.setPrev
  split
  · subst x; cases h a <;> simp
  · rfl

@[simp] theorem nextOf_put (h : Heap α) (a x : Ptr) (n : Node α) :
    nextOf (h.put a n) x = if x = a then some n.next else nextOf h x := by
  unfold nextOf Heap.put; split <;> rfl

@[simp] theorem prevOf_put (h : Heap α) (a x : Ptr) (n : Node α) :
    prevOf (h.put a n) x = if x = a then some n.prev else prevOf h x := by
  unfold prevOf Heap.put; split <;> rfl

@[simp] theorem dataOf_put (h : Heap α) (a x : Ptr) (n : Node α) :
    dataOf (h.put a n) x = if x = a then some n.data else dataOf h x := by
  unfold dataOf Heap.put; split <;> rfl

@[simp] theorem live_put (h : Heap α) (a x : Ptr) (n : Node α) :
    ((h.put a n) x).isSome = (decide (x = a) || (h x).isSome) := by
  unfold Heap.put; split <;> simp [*]

@[simp] theorem nextOf_free (h : Heap α) (a x : Ptr) :
    nextOf (h.free a) x = if x = a then none else nextOf h x := by
  unfold nextOf Heap.free; split <;> rfl

@[simp] theorem prevOf_free (h : Heap α) (a x : Ptr) :
    prevOf (h.free a) x = if x = a then none else prevOf h x := by
  unfold prevOf Heap.free; split <;> rfl

@[simp] theorem dataOf_free (h : Heap α) (a x : Ptr) :
    dataOf (h.free a) x = if x = a then none else dataOf h x := by
  unfold dataOf Heap.free; split <;> rfl

@[simp] theorem live_free (h : Heap α) (a x : Ptr) :
    ((h.free a) x).isSome = (!decide (x = a) && (h x).isSome) := by
  unfold Heap.free; split <;> simp [*]

/-! ## Primitive statements -/

theorem getNext_run {S : Mem α} {a b : Ptr} (e : nextOf S.nodes a = some b) :
    getNext a S = .ret b S := by
  simp [getNext, e]

theorem getPrev_run {st : Mem α} {a b : Ptr} (e : prevOf st.nodes a = some b) :
    getPrev a st = .ret b st := by
  simp [getPrev, e]

theorem getData_run {st : Mem α} {a : Ptr} {v : α} (e : dataOf st.nodes a = some v) :
    getData a st = .ret v st := by
  simp [getData, e]

theorem storeNext_run {S : Mem α} {a : Ptr} (b : Ptr) (e : (S.nodes a).isSome) :
    storeNext a b S = .ret () { S with nodes := S.nodes.setNext a b } := by
  unfold storeNext
  cases hx : S.nodes a <;> simp_all

theorem storePrev_run {S : Mem α} {a : Ptr} (b : Ptr) (e : (S.nodes a).isSome) :
    storePrev a b S = .ret () { S with nodes := S.nodes.setPrev a b } := by
  unfold storePrev
  cases hx : S.nodes a <;> simp_all

theorem deleteNode_run {S : Mem α} {a : Ptr} (e : (S.nodes a).isSome) :
    deleteNode a S = .ret () { S with nodes := S.nodes.free a } := by
  unfold deleteNode
  cases hx : S.nodes a <;> simp_all

@[simp] theorem newNode_run (st : Mem α) (v : α) (p n : Ptr) :
    newNode v p n st = .ret st.brk
      { st with nodes := st.nodes.put st.brk { data := v, prev := p, next := n },
                brk := st.brk + 1 } := rfl

@[simp] theorem getSentinel_run (st : Mem α) (l : Ref) :
    getSentinel l st = .ret (st.lists l).m_sentinel st := rfl

@[simp] theorem getSize_run (st : Mem α) (l : Ref) :
    getSize l st = .ret (st.lists l).m_size st := rfl

@[simp] theorem setSize_run (st : Mem α) (l : Ref) (n : Nat) :
    setSize l n st = .ret ()
      { st with lists := fun r => if r = l then { st.lists l with m_size := n }
                                   else st.lists r } := rfl

@[simp] theorem setSentinel_run (st : Mem α) (l : Ref) (p : Ptr) :
    setSentinel l p st = .ret ()
      { st with lists := fun r => if r = l then { st.lists l with m_sentinel := p }
                                   else st.lists r } := rfl

theorem Fresh.ne_of_live {st : Mem α} (hf : Fresh st) {a : Ptr} (e : (st.nodes a).isSome) :
    a ≠ st.brk := by
  intro hab
  have := hf a (le_of_eq hab.symm)
  simp [this] at e

theorem Fresh.lt_of_live {st : Mem α} (hf : Fresh st) {a : Ptr} (e : (st.nodes a).isSome) :
    a < st.brk := by
  by_contra hab
  have := hf a (not_lt.mp hab)
  simp [this] at e

end HeapLemmas

/-! ## Chains of adjacent nodes -/

section ChainLemmas
variable {α : Type}

theorem getLastD_mem (s : Ptr) (A : List Ptr) : A.getLastD s ∈ s :: A := by
  induction A generalizing s with
  | nil => simp
  | cons a A ih =>
    have := ih a
    simp only [List.getLastD_cons]
    exact List.mem_cons_of_mem _ this

theorem headD_mem (s : Ptr) (C : List Ptr) : C.headD s ∈ C ++ [s] := by
  cases C <;> simp

theorem getLast?_cons_eq (s : Ptr) (A : List Ptr) : (s :: A).getLast? = some (A.getLastD s) := by
  induction A generalizing s with
  | nil => simp
  | cons a A ih => simp [List.getLast?_cons_cons, ih a]

theorem head?_snoc_eq (s : Ptr) (C : List Ptr) : (C ++ [s]).head? = some (C.headD s) := by
  cases C <;> simp

theorem mem_dropLast_cons {s a : Ptr} {A : List Ptr} (hnd : (s :: A).Nodup)
    (ha : a ∈ (s :: A).dropLast) : a ∈ s :: A ∧ a ≠ A.getLastD s := by
  induction A generalizing s with
  | nil => simp at ha
  | cons b A ih =>
    simp only [List.dropLast_cons₂, List.mem_cons] at ha
    rcases ha with rfl | ha
    · refine ⟨by simp, ?_⟩
      intro e
      have hm := getLastD_mem b A
      rw [List.getLastD_cons] at e
      rw [← e] at hm
      exact (List.nodup_cons.mp hnd).1 hm
    · have := ih (List.nodup_cons.mp hnd).2 ha
      exact ⟨List.mem_cons_of_mem _ this.1, by rw [List.getLastD_cons]; exact this.2⟩

theorem mem_tail_snoc {s b : Ptr} {C : List Ptr} (hnd : (C ++ [s]).Nodup)
    (hb : b ∈ (C ++ [s]).tail) : b ∈ C ++ [s] ∧ b ≠ C.headD s := by
  cases C with
  | nil => simp at hb
  | cons c C =>
    simp only [List.cons_append, List.tail_cons] at hb
    refine ⟨List.mem_cons_of_mem _ hb, ?_⟩
    intro e
    simp only [List.headD_cons] at e
    subst e
    exact (List.nodup_cons.mp hnd).1 hb

/-- A chain survives a heap change that keeps `next` on all but its last node and `prev`
on all but its first node. -/
theorem chain_transfer {h h1 : Heap α} {l : List Ptr} (hc : List.Chain' (Linked h) l)
    (hn : ∀ a ∈ l.dropLast, nextOf h1 a = nextOf h a)
    (hp : ∀ b ∈ l.tail, prevOf h1 b = prevOf h b) : List.Chain' (Linked h1) l := by
  induction l with
  | nil => exact List.chain'_nil
  | cons a l ih =>
    cases l with
    | nil => exact List.chain'_singleton a
    | cons b l =>
      rw [List.chain'_cons] at hc ⊢
      refine ⟨?_, ih hc.2 ?_ ?_⟩
      · have h1n := hn a (by simp)
        have h1p := hp b (by simp)
        exact ⟨by rw [h1n]; exact hc.1.1, by rw [h1p]; exact hc.1.2⟩
      · intro x hx
        exact hn x (by simp only [List.dropLast_cons₂]; exact List.mem_cons_of_mem _ hx)
      · intro x hx
        exact hp x (by simp only [List.tail_cons]; exact List.mem_of_mem_tail hx)

theorem chain_split (R : Ptr → Ptr → Prop) (s t : Ptr) (A C : List Ptr) :
    List.Chain' R (s :: A ++ (C ++ [t])) ↔
      List.Chain' R (s :: A) ∧ List.Chain' R (C ++ [t]) ∧ R (A.getLastD s) (C.headD t) := by
  rw [List.chain'_append, getLast?_cons_eq, head?_snoc_eq]
  simp

theorem chain_live {h : Heap α} {l : List Ptr} (hc : List.Chain' (Linked h) l)
    (hl : 2 ≤ l.length) : ∀ a ∈ l, (h a).isSome := by
  induction l with
  | nil => simp
  | cons a l ih =>
    cases l with
    | nil => simp at hl
    | cons b l =>
      rw [List.chain'_cons] at hc
      intro x hx
      rcases List.mem_cons.mp hx with rfl | hx
      · exact live_of_next hc.1.1
      · cases l with
        | nil =>
          simp only [List.mem_singleton] at hx
          subst hx
          exact live_of_prev hc.1.2
        | cons c l => exact ih hc.2 (by simp) x hx

theorem Ring.live {h : Heap α} {s : Ptr} {ns : List Ptr} (hr : Ring h s ns) :
    ∀ a ∈ s :: ns, (h a).isSome := by
  intro a ha
  refine chain_live hr.2 (by simp) a ?_
  simp only [List.cons_append, List.mem_cons, List.mem_append] at ha ⊢
  tauto

end ChainLemmas

section RingLemmas
variable {α : Type}

theorem nodup_block {s : Ptr} {A B C : List Ptr} :
    (s :: (A ++ (B ++ C))).Nodup ↔
      (s :: (A ++ C)).Nodup ∧ B.Nodup ∧ ∀ x ∈ B, x ∉ s :: (A ++ C) := by
  have hperm : List.Perm (s :: (A ++ (B ++ C))) (B ++ (s :: (A ++ C))) := by
    have h1 : List.Perm (A ++ (B ++ C)) (B ++ (A ++ C)) := by
      rw [← List.append_assoc, ← List.append_assoc]
      exact List.Perm.append_right C List.perm_append_comm
    exact (List.Perm.cons s h1).trans (List.perm_middle.symm)
  rw [hperm.nodup_iff, List.nodup_append]
  constructor
  · rintro ⟨h1, h2, h3⟩
    exact ⟨h2, h1, fun x hx hx2 => h3 hx hx2⟩
  · rintro ⟨h1, h2, h3⟩
    exact ⟨h2, h1, fun x hx hx2 => h3 x hx hx2⟩

theorem nodup_sides {s : Ptr} {A C : List Ptr} (hnd : (s :: (A ++ C)).Nodup) :
    (s :: A).Nodup ∧ (C ++ [s]).Nodup ∧ (∀ x ∈ A, x ∉ C ++ [s]) ∧ (∀ x ∈ C, x ∉ s :: A) := by
  rw [List.nodup_cons, List.nodup_append] at hnd
  obtain ⟨hs, hA, hC, hd⟩ := hnd
  have hsA : s ∉ A := fun hx => hs (List.mem_append_left _ hx)
  have hsC : s ∉ C := fun hx => hs (List.mem_append_right _ hx)
  refine ⟨List.nodup_cons.mpr ⟨hsA, hA⟩, ?_, ?_, ?_⟩
  · rw [List.nodup_append]
    refine ⟨hC, List.nodup_singleton s, ?_⟩
    intro x hx hx2
    rw [List.mem_singleton] at hx2
    exact hsC (hx2 ▸ hx)
  · intro x hx hx2
    rcases List.mem_append.mp hx2 with h0 | h0
    · exact hd hx h0
    · rw [List.mem_singleton] at h0
      exact hsA (h0 ▸ hx)
  · intro x hx hx2
    rcases List.mem_cons.mp hx2 with h0 | h0
    · exact hsC (h0 ▸ hx)
    · exact hd h0 hx

theorem chain_transfer_left {h h1 : Heap α} {s : Ptr} {A : List Ptr} (hnd : (s :: A).Nodup)
    (hc : List.Chain' (Linked h) (s :: A))
    (hn : ∀ a ∈ s :: A, a ≠ A.getLastD s → nextOf h1 a = nextOf h a)
    (hp : ∀ b ∈ A, prevOf h1 b = prevOf h b) : List.Chain' (Linked h1) (s :: A) := by
  refine chain_transfer hc ?_ ?_
  · intro a ha
    have := mem_dropLast_cons hnd ha
    exact hn a this.1 this.2
  · intro b hb
    exact hp b hb

theorem chain_transfer_right {h h1 : Heap α} {s : Ptr} {C : List Ptr}
    (hnd : (C ++ [s]).Nodup) (hc : List.Chain' (Linked h) (C ++ [s]))
    (hn : ∀ a ∈ C, nextOf h1 a = nextOf h a)
    (hp : ∀ b ∈ C ++ [s], b ≠ C.headD s → prevOf h1 b = prevOf h b) :
    List.Chain' (Linked h1) (C ++ [s]) := by
  refine chain_transfer hc ?_ ?_
  · intro a ha
    rw [List.dropLast_concat] at ha
    exact hn a ha
  · intro b hb
    have := mem_tail_snoc hnd hb
    exact hp b this.1 this.2

theorem Ring.frame {h h1 : Heap α} {s : Ptr} {ns : List Ptr} (hr : Ring h s ns)
    (hn : ∀ x ∈ s :: ns, nextOf h1 x = nextOf h x)
    (hp : ∀ x ∈ s :: ns, prevOf h1 x = prevOf h x) : Ring h1 s ns := by
  refine ⟨hr.1, chain_transfer hr.2 ?_ ?_⟩
  · intro a ha
    have := List.mem_of_mem_dropLast ha
    refine hn a ?_
    simp only [List.cons_append, List.mem_cons, List.mem_append, List.mem_singleton] at this ⊢
    tauto
  · intro b hb
    refine hp b ?_
    simp only [List.cons_append, List.tail_cons, List.mem_cons, List.mem_append,
      List.mem_singleton] at hb ⊢
    tauto

theorem Ring.chain {h : Heap α} {s : Ptr} {A C : List Ptr} (hr : Ring h s (A ++ C)) :
    List.Chain' (Linked h) (s :: A) ∧ List.Chain' (Linked h) (C ++ [s]) ∧
      Linked h (A.getLastD s) (C.headD s) := by
  have e : (s :: (A ++ C)) ++ [s] = (s :: A) ++ (C ++ [s]) := by simp
  have := hr.2
  rw [e] at this
  exact (chain_split _ s s A C).mp this

theorem Ring.mk_of_chain {h : Heap α} {s : Ptr} {A C : List Ptr}
    (hnd : (s :: (A ++ C)).Nodup) (hA : List.Chain' (Linked h) (s :: A))
    (hC : List.Chain' (Linked h) (C ++ [s])) (hl : Linked h (A.getLastD s) (C.headD s)) :
    Ring h s (A ++ C) := by
  have e : (s :: (A ++ C)) ++ [s] = (s :: A) ++ (C ++ [s]) := by simp
  refine ⟨hnd, ?_⟩
  rw [e]
  exact (chain_split _ s s A C).mpr ⟨hA, hC, hl⟩

/-- In a ring, the node before position `|A|` and the node at that position are adjacent. -/
theorem Ring.boundary {h : Heap α} {s : Ptr} {A C : List Ptr} (hr : Ring h s (A ++ C)) :
    Linked h (A.getLastD s) (C.headD s) := hr.chain.2.2

/-- Detaching the block `f :: B` from a ring: only `next` of the node before the block and
`prev` of the node after it change. -/
theorem ring_unlink {h h1 : Heap α} {s f : Ptr} {A B C : List Ptr}
    (hr : Ring h s (A ++ (f :: B ++ C)))
    (hn : ∀ x, nextOf h1 x = if x = A.getLastD s then some (C.headD s) else nextOf h x)
    (hp : ∀ x, prevOf h1 x = if x = C.headD s then some (A.getLastD s) else prevOf h x) :
    Ring h1 s (A ++ C) ∧ List.Chain' (Linked h1) (f :: B) := by
  obtain ⟨hcA, hcBC, -⟩ := hr.chain
  have hcBC1 : List.Chain' (Linked h) (f :: B ++ (C ++ [s])) := by simpa using hcBC
  obtain ⟨hcB, hcC, -⟩ := (chain_split _ f s B C).mp hcBC1
  obtain ⟨hndAC, hndB, hdB⟩ := nodup_block.mp (show (s :: (A ++ (f :: B ++ C))).Nodup from hr.1)
  obtain ⟨hndA, hndC, hdA, hdC⟩ := nodup_sides hndAC
  have hfpm := getLastD_mem s A
  have hlm := headD_mem s C
  have hfpm1 : A.getLastD s ∈ s :: (A ++ C) := by
    rcases List.mem_cons.mp hfpm with h0 | h0
    · rw [h0]; exact List.mem_cons_self _ _
    · exact List.mem_cons_of_mem _ (List.mem_append_left _ h0)
  have hlm1 : C.headD s ∈ s :: (A ++ C) := by
    rcases List.mem_append.mp hlm with h0 | h0
    · exact List.mem_cons_of_mem _ (List.mem_append_right _ h0)
    · rw [List.mem_singleton.mp h0]; exact List.mem_cons_self _ _
  refine ⟨Ring.mk_of_chain hndAC ?_ ?_ ?_, ?_⟩
  · refine chain_transfer_left hndA hcA ?_ ?_
    · intro a _ hne
      rw [hn, if_neg hne]
    · intro b hb
      rw [hp, if_neg]
      rintro rfl
      exact hdA _ hb hlm
  · refine chain_transfer_right hndC hcC ?_ ?_
    · intro a ha
      rw [hn, if_neg]
      rintro rfl
      exact hdC _ ha hfpm
    · intro b _ hne
      rw [hp, if_neg hne]
  · exact ⟨by rw [hn, if_pos rfl], by rw [hp, if_pos rfl]⟩
  · refine chain_transfer hcB ?_ ?_
    · intro a ha
      have ha1 : a ∈ f :: B := List.mem_of_mem_dropLast ha
      rw [hn, if_neg]
      rintro rfl
      exact hdB _ ha1 hfpm1
    · intro b hb
      have hb1 : b ∈ f :: B := List.mem_of_mem_tail hb
      rw [hp, if_neg]
      rintro rfl
      exact hdB _ hb1 hlm1

/-- Linking a detached chain `f :: B` into a ring between the node before position `|A|`
and the node at that position. -/
theorem ring_link {h h1 : Heap α} {s f : Ptr} {A B C : List Ptr}
    (hr : Ring h s (A ++ C)) (hcB : List.Chain' (Linked h) (f :: B))
    (hndB : (f :: B).Nodup) (hdB : ∀ x ∈ f :: B, x ∉ s :: (A ++ C))
    (hn : ∀ x, nextOf h1 x = if x = A.getLastD s then some f
      else if x = B.getLastD f then some (C.headD s) else nextOf h x)
    (hp : ∀ x, prevOf h1 x = if x = C.headD s then some (B.getLastD f)
      else if x = f then some (A.getLastD s) else prevOf h x) :
    Ring h1 s (A ++ (f :: B ++ C)) := by
  obtain ⟨hcA, hcC, -⟩ := hr.chain
  have hndAC := hr.1
  obtain ⟨hndA, hndC, hdA, hdC⟩ := nodup_sides hndAC
  have hfpm := getLastD_mem s A
  have hlm := headD_mem s C
  have hrm := getLastD_mem f B
  have hfm : f ∈ f :: B := List.mem_cons_self _ _
  have hfpm1 : A.getLastD s ∈ s :: (A ++ C) := by
    rcases List.mem_cons.mp hfpm with h0 | h0
    · rw [h0]; exact List.mem_cons_self _ _
    · exact List.mem_cons_of_mem _ (List.mem_append_left _ h0)
  have hlm1 : C.headD s ∈ s :: (A ++ C) := by
    rcases List.mem_append.mp hlm with h0 | h0
    · exact List.mem_cons_of_mem _ (List.mem_append_right _ h0)
    · rw [List.mem_singleton.mp h0]; exact List.mem_cons_self _ _
  have hA1 : ∀ x ∈ s :: A, x ∈ s :: (A ++ C) := by
    intro x hx
    rcases List.mem_cons.mp hx with h0 | h0
    · rw [h0]; exact List.mem_cons_self _ _
    · exact List.mem_cons_of_mem _ (List.mem_append_left _ h0)
  have hC1 : ∀ x ∈ C ++ [s], x ∈ s :: (A ++ C) := by
    intro x hx
    rcases List.mem_append.mp hx with h0 | h0
    · exact List.mem_cons_of_mem _ (List.mem_append_right _ h0)
    · rw [List.mem_singleton.mp h0]; exact List.mem_cons_self _ _
  have hne1 : B.getLastD f ≠ A.getLastD s := fun e => hdB _ hrm (e ▸ hfpm1)
  have hne2 : f ≠ C.headD s := fun e => hdB _ hfm (e ▸ hlm1)
  refine ⟨nodup_block.mpr ⟨hndAC, hndB, hdB⟩, ?_⟩
  have : List.Chain' (Linked h1) (s :: A ++ ((f :: B ++ C) ++ [s])) := by
    rw [chain_split]
    refine ⟨?_, ?_, ?_⟩
    · refine chain_transfer_left hndA hcA ?_ ?_
      · intro a ha hne
        rw [hn, if_neg hne, if_neg]
        rintro rfl
        exact hdB _ hrm (hA1 _ ha)
      · intro b hb
        rw [hp, if_neg, if_neg]
        · rintro rfl
          exact hdB _ hfm (hA1 _ (List.mem_cons_of_mem _ hb))
        · rintro rfl
          exact hdA _ hb hlm
    · have : List.Chain' (Linked h1) (f :: B ++ (C ++ [s])) := by
        rw [chain_split]
        refine ⟨chain_transfer hcB ?_ ?_, chain_transfer_right hndC hcC ?_ ?_, ?_⟩
        · intro a ha
          have ha1 := mem_dropLast_cons hndB ha
          rw [hn, if_neg, if_neg ha1.2]
          rintro rfl
          exact hdB _ ha1.1 hfpm1
        · intro b hb
          have hb1 : b ∈ f :: B := List.mem_of_mem_tail hb
          rw [hp, if_neg, if_neg]
          · rintro rfl
            simp only [List.tail_cons] at hb
            exact (List.nodup_cons.mp hndB).1 hb
          · rintro rfl
            exact hdB _ hb1 hlm1
        · intro a ha
          rw [hn, if_neg, if_neg]
          · rintro rfl
            exact hdB _ hrm (hC1 _ (List.mem_append_left _ ha))
          · rintro rfl
            exact hdC _ ha hfpm
        · intro b hb hne
          rw [hp, if_neg hne, if_neg]
          rintro rfl
          exact hdB _ hfm (hC1 _ hb)
        · exact ⟨by rw [hn, if_neg hne1, if_pos rfl], by rw [hp, if_pos rfl]⟩
      simpa using this
    · refine ⟨by rw [hn, if_pos rfl]; rfl, ?_⟩
      simp only [List.cons_append, List.headD_cons]
      rw [hp, if_neg hne2, if_pos rfl]
  simpa using this

end RingLemmas

section InsertLemmas
variable {α : Type}

theorem map_split {β γ : Type} {g : β → Option γ} {A C : List β} {X : List γ}
    (hm : (A ++ C).map g = X.map some) :
    A.map g = (X.take A.length).map some ∧ C.map g = (X.drop A.length).map some := by
  constructor
  · have := congrArg (List.take A.length) hm
    simpa [List.map_take, List.take_append_eq_append_take] using this
  · have := congrArg (List.drop A.length) hm
    simpa [List.map_drop, List.drop_append_eq_append_drop] using this

theorem map_len {β γ : Type} {g : β → Option γ} {A : List β} {xs : List γ}
    (hm : A.map g = xs.map some) : A.length = xs.length := by
  have := congrArg List.length hm
  simpa using this

theorem headD_drop (s : Ptr) (ns : List Ptr) (p : Nat) : (ns.drop p).headD s = ns.getD p s := by
  induction ns generalizing p with
  | nil => simp
  | cons a ns ih =>
    cases p with
    | zero => simp
    | succ p => simp [ih p]

theorem Repr.live_nodes {st : Mem α} {l : Ref} {ns : List Ptr} {xs : List α} (hR : Repr st l ns xs) :
    ∀ a ∈ (st.lists l).m_sentinel :: ns, (st.nodes a).isSome := hR.2.1.live

theorem Fresh.mono {st st1 : Mem α} (hf : Fresh st)
    (hl : ∀ a, (st1.nodes a).isSome → (st.nodes a).isSome ∨ a < st1.brk) (hb : st.brk ≤ st1.brk) :
    Fresh st1 := by
  intro a ha
  cases hx : st1.nodes a with
  | none => rfl
  | some n =>
    exfalso
    rcases hl a (by simp [hx]) with h0 | h0
    · have := hf a (le_trans hb ha)
      simp [this] at h0
    · exact absurd ha (not_le.mpr h0)

theorem List_insert_run {st : Mem α} {l : Ref} {pos nb : Ptr} (v : α)
    (hp : prevOf st.nodes pos = some nb) (hnb : (st.nodes nb).isSome) :
    List_insert l pos v st = .ret st.brk
      { nodes := ((st.nodes.put st.brk { data := v, prev := nb, next := pos }).setNext
                    nb st.brk).setPrev pos st.brk,
        brk := st.brk + 1,
        lists := fun r => if r = l then { st.lists l with m_size := (st.lists l).m_size + 1 }
                          else st.lists r } := by
  have hpos := live_of_prev hp
  simp [List_insert, Prog.bind, getPrev_run hp, storeNext_run, storePrev_run, hnb, hpos]

/-- Heap reached by linking a freshly constructed node `a` between `nb` and `pos`. -/
theorem ring_insert_node {h h1 : Heap α} {s a : Ptr} {A C : List Ptr}
    (hr : Ring h s (A ++ C)) (ha : h a = none)
    (hn : ∀ x, nextOf h1 x = if x = A.getLastD s then some a
      else if x = a then some (C.headD s) else nextOf h x)
    (hp : ∀ x, prevOf h1 x = if x = C.headD s then some a
      else if x = a then some (A.getLastD s) else prevOf h x) :
    Ring h1 s (A ++ a :: C) := by
  have hfresh : ∀ x ∈ s :: (A ++ C), x ≠ a := by
    intro x hx e
    have := hr.live x hx
    rw [e, ha] at this
    simp at this
  have := @ring_link α h h1 s a A [] C hr (List.chain'_singleton a) (List.nodup_singleton a)
    (by
      intro x hx hx2
      rw [List.mem_singleton] at hx
      exact hfresh x hx2 hx)
    (by intro x; rw [hn]; rfl)
    (by intro x; rw [hp]; rfl)
  simpa using this

theorem List_insert_repr {st : Mem α} {l : Ref} {A C : List Ptr} {xs : List α} (v : α)
    (hf : Fresh st) (hR : Repr st l (A ++ C) xs) :
    ∃ st1, List_insert l (C.headD (st.lists l).m_sentinel) v st = .ret st.brk st1 ∧
      Repr st1 l (A ++ st.brk :: C) (xs.take A.length ++ v :: xs.drop A.length) ∧
      Fresh st1 ∧ (st1.lists l).m_sentinel = (st.lists l).m_sentinel ∧
      st.brk ∉ (st.lists l).m_sentinel :: (A ++ C) := by
  obtain ⟨hsz, hr, hd⟩ := hR
  have hb := hr.boundary
  have hlive := hr.live
  have hnbl := hlive _ (by
    have := getLastD_mem (st.lists l).m_sentinel A
    simp only [List.mem_cons, List.mem_append] at this ⊢
    tauto)
  have hposl := live_of_prev hb.2
  have hfr : st.nodes st.brk = none := hf _ (le_refl _)
  have hne : ∀ x ∈ (st.lists l).m_sentinel :: (A ++ C), x ≠ st.brk :=
    fun x hx => hf.ne_of_live (hlive x hx)
  refine ⟨_, List_insert_run v hb.2 hnbl, ⟨?_, ?_, ?_⟩, ?_, ?_, ?_⟩
  · simp [hsz]; omega
  · simp only [if_true]
    refine ring_insert_node hr hfr ?_ ?_
    · intro x
      simp only [nextOf_setPrev, nextOf_setNext, live_put, hnbl, nextOf_put, Bool.or_true,
        if_true]
    · intro x
      simp only [prevOf_setPrev, prevOf_setNext, live_put, hposl, prevOf_put, Bool.or_true,
        if_true, live_setNext]
  · obtain ⟨hdA, hdC⟩ := map_split hd
    have hA : ∀ x ∈ A, x ≠ st.brk := fun x hx => hne x (by simp [hx])
    have hC : ∀ x ∈ C, x ≠ st.brk := fun x hx => hne x (by simp [hx])
    simp only [List.map_append, List.map_cons, dataOf_setPrev, dataOf_setNext, dataOf_put,
      if_true]
    congr 1
    · rw [← hdA]
      exact List.map_congr_left (fun x hx => by simp [hA x hx])
    · congr 1
      rw [← hdC]
      exact List.map_congr_left (fun x hx => by simp [hC x hx])
  · refine hf.mono ?_ (Nat.le_succ _)
    intro a ha
    simp only [live_setPrev, live_setNext, live_put, Bool.or_eq_true, decide_eq_true_eq] at ha
    rcases ha with h0 | h0
    · right; rw [h0]; exact Nat.lt_succ_self _
    · left; exact h0
  · simp
  · intro hx
    exact hne _ hx rfl

end InsertLemmas

section EraseLemmas
variable {α : Type}

/-- Following `next` from the first node of `l` walks through `l`. -/
theorem next_chain_of_linked {h : Heap α} {l : List Ptr} (hc : List.Chain' (Linked h) l) :
    List.Chain' (fun a b => nextOf h a = some b) l :=
  hc.imp (fun _ _ hab => hab.1)

theorem next_chain_congr {h h1 : Heap α} {l : List Ptr}
    (hc : List.Chain' (fun a b => nextOf h a = some b) l)
    (he : ∀ x ∈ l.dropLast, nextOf h1 x = nextOf h x) :
    List.Chain' (fun a b => nextOf h1 a = some b) l := by
  induction l with
  | nil => exact List.chain'_nil
  | cons a l ih =>
    cases l with
    | nil => exact List.chain'_singleton a
    | cons b l =>
      rw [List.chain'_cons] at hc ⊢
      refine ⟨by rw [he a (by simp)]; exact hc.1, ih hc.2 ?_⟩
      intro x hx
      exact he x (by simp only [List.dropLast_cons₂]; exact List.mem_cons_of_mem _ hx)

theorem next_path_of_ring_block {h : Heap α} {f s : Ptr} {B C : List Ptr}
    (hc : List.Chain' (Linked h) ((f :: B ++ C) ++ [s])) :
    List.Chain' (fun a b => nextOf h a = some b) ((f :: B) ++ [C.headD s]) := by
  have e : (f :: B ++ C) ++ [s] = (f :: B) ++ (C ++ [s]) := by simp
  rw [e] at hc
  obtain ⟨h1, -, h3⟩ := (chain_split _ f s B C).mp hc
  have := (chain_split (fun a b => nextOf h a = some b) f (C.headD s) B []).mpr
    ⟨next_chain_of_linked h1, by simp, by simpa using h3.1⟩
  simpa using this

theorem nextOf_foldl_free (h : Heap α) (L : List Ptr) (x : Ptr) :
    nextOf (L.foldl Heap.free h) x = if x ∈ L then none else nextOf h x := by
  induction L generalizing h with
  | nil => simp
  | cons a L ih =>
    simp only [List.foldl_cons, ih, nextOf_free, List.mem_cons]
    by_cases h1 : x ∈ L <;> by_cases h2 : x = a <;> simp [h1, h2]

theorem prevOf_foldl_free (h : Heap α) (L : List Ptr) (x : Ptr) :
    prevOf (L.foldl Heap.free h) x = if x ∈ L then none else prevOf h x := by
  induction L generalizing h with
  | nil => simp
  | cons a L ih =>
    simp only [List.foldl_cons, ih, prevOf_free, List.mem_cons]
    by_cases h1 : x ∈ L <;> by_cases h2 : x = a <;> simp [h1, h2]

theorem dataOf_foldl_free (h : Heap α) (L : List Ptr) (x : Ptr) :
    dataOf (L.foldl Heap.free h) x = if x ∈ L then none else dataOf h x := by
  induction L generalizing h with
  | nil => simp
  | cons a L ih =>
    simp only [List.foldl_cons, ih, dataOf_free, List.mem_cons]
    by_cases h1 : x ∈ L <;> by_cases h2 : x = a <;> simp [h1, h2]

theorem live_foldl_free (h : Heap α) (L : List Ptr) (x : Ptr) :
    ((L.foldl Heap.free h) x).isSome = (!decide (x ∈ L) && (h x).isSome) := by
  induction L generalizing h with
  | nil => simp
  | cons a L ih =>
    simp only [List.foldl_cons, ih, live_free, List.mem_cons]
    by_cases h1 : x ∈ L <;> by_cases h2 : x = a <;> simp [h1, h2]

theorem List_eraseLoop_run (lastNode : Ptr) :
    ∀ (B : List Ptr) (f : Ptr) (count fuel : Nat) (st : Mem α),
      List.Chain' (fun a b => nextOf st.nodes a = some b) ((f :: B) ++ [lastNode]) →
      (f :: B).Nodup → lastNode ∉ f :: B → B.length + 2 ≤ fuel →
      List_eraseLoop lastNode fuel f count st = .ret (count + B.length + 1)
        { st with nodes := (f :: B).foldl Heap.free st.nodes } := by
  intro B
  induction B with
  | nil =>
    intro f count fuel st hc _ hl hfuel
    obtain ⟨k, rfl⟩ : ∃ k, fuel = k + 2 := ⟨fuel - 2, by simp at hfuel; omega⟩
    have hne : f ≠ lastNode := fun e => hl (by simp [e])
    have hnx : nextOf st.nodes f = some lastNode := by simpa using hc
    have hlv := live_of_next hnx
    simp [List_eraseLoop, hne, Prog.bind, getNext_run hnx, deleteNode_run hlv]
  | cons b B ih =>
    intro f count fuel st hc hnd hl hfuel
    obtain ⟨k, rfl⟩ : ∃ k, fuel = k + 1 := ⟨fuel - 1, by simp at hfuel; omega⟩
    have hne : f ≠ lastNode := fun e => hl (by simp [e])
    have hc1 : nextOf st.nodes f = some b ∧
        List.Chain' (fun a b => nextOf st.nodes a = some b) ((b :: B) ++ [lastNode]) := by
      simpa using hc
    have hlv := live_of_next hc1.1
    have hfn : f ∉ (b :: B) ++ [lastNode] := by
      intro hm
      rcases List.mem_append.mp hm with h0 | h0
      · exact (List.nodup_cons.mp hnd).1 h0
      · exact hne (List.mem_singleton.mp h0)
    have hc2 : List.Chain' (fun a c => nextOf (st.nodes.free f) a = some c)
        ((b :: B) ++ [lastNode]) := by
      refine next_chain_congr hc1.2 ?_
      intro x hx
      have : x ≠ f := fun e => hfn (e ▸ List.mem_of_mem_dropLast hx)
      simp [this]
    have := ih b (count + 1) k { st with nodes := st.nodes.free f } hc2
      (List.nodup_cons.mp hnd).2 (fun hm => hl (List.mem_cons_of_mem _ hm))
      (by simp at hfuel ⊢; omega)
    simp only [List_eraseLoop, hne, if_false, Prog.bind_run, Prog.bind, getNext_run hc1.1,
      deleteNode_run hlv, this]
    simp [List.foldl_cons]
    omega

theorem distanceLoop_run (last : Ptr) :
    ∀ (B : List Ptr) (f : Ptr) (n fuel : Nat) (st : Mem α),
      List.Chain' (fun a b => nextOf st.nodes a = some b) ((f :: B) ++ [last]) →
      last ∉ f :: B → B.length + 2 ≤ fuel →
      distanceLoop last fuel f n st = .ret (n + B.length + 1) st := by
  intro B
  induction B with
  | nil =>
    intro f n fuel st hc hl hfuel
    obtain ⟨k, rfl⟩ : ∃ k, fuel = k + 2 := ⟨fuel - 2, by simp at hfuel; omega⟩
    have hne : f ≠ last := fun e => hl (by simp [e])
    have hnx : nextOf st.nodes f = some last := by simpa using hc
    simp [distanceLoop, hne, Prog.bind, getNext_run hnx]
  | cons b B ih =>
    intro f n fuel st hc hl hfuel
    obtain ⟨k, rfl⟩ : ∃ k, fuel = k + 1 := ⟨fuel - 1, by simp at hfuel; omega⟩
    have hne : f ≠ last := fun e => hl (by simp [e])
    have hc1 : nextOf st.nodes f = some b ∧
        List.Chain' (fun a b => nextOf st.nodes a = some b) ((b :: B) ++ [last]) := by
      simpa using hc
    have := ih b (n + 1) k st hc1.2 (fun hm => hl (List.mem_cons_of_mem _ hm))
      (by simp at hfuel ⊢; omega)
    simp only [distanceLoop, hne, if_false, Prog.bind_run, Prog.bind, getNext_run hc1.1, this]
    simp
    omega

theorem Fresh.of_shrink {st st1 : Mem α} (hf : Fresh st)
    (hl : ∀ a, (st1.nodes a).isSome → (st.nodes a).isSome) (hb : st1.brk = st.brk) :
    Fresh st1 :=
  hf.mono (fun a ha => Or.inl (hl a ha)) (le_of_eq hb.symm)

theorem wrapSub_of_le {a b : Nat} (h : b ≤ a) : wrapSub a b = a - b := by
  simp [wrapSub, h]

/-- Erasing the block `f :: B` of a list whose nodes are `A ++ f :: B ++ C`. -/
theorem List_erase_range_repr {st : Mem α} {l : Ref} {A B C : List Ptr} {f : Ptr}
    {xs : List α} (fuel : Nat) (hR : Repr st l (A ++ (f :: B ++ C)) xs)
    (hfuel : B.length + 2 ≤ fuel) :
    ∃ st1, List_erase_range fuel l f (C.headD (st.lists l).m_sentinel) st =
        .ret (C.headD (st.lists l).m_sentinel) st1 ∧
      Repr st1 l (A ++ C) (xs.take A.length ++ xs.drop (A.length + (B.length + 1))) ∧
      st1.brk = st.brk ∧ (∀ a, (st1.nodes a).isSome → (st.nodes a).isSome) ∧
      (st1.lists l).m_sentinel = (st.lists l).m_sentinel ∧
      (∀ r, r ≠ l → st1.lists r = st.lists r) ∧
      (∀ x, x ∉ (st.lists l).m_sentinel :: (A ++ (f :: B ++ C)) → st1.nodes x = st.nodes x) := by
  obtain ⟨hsz, hr, hd⟩ := hR
  set s := (st.lists l).m_sentinel with hs
  obtain ⟨hcA, hcBC, hlk⟩ := hr.chain
  obtain ⟨hndAC, hndB, hdB⟩ := nodup_block.mp (show (s :: (A ++ (f :: B ++ C))).Nodup from hr.1)
  have hfpm := getLastD_mem s A
  have hlm := headD_mem s C
  have hfpm1 : A.getLastD s ∈ s :: (A ++ C) := by
    rcases List.mem_cons.mp hfpm with h0 | h0
    · rw [h0]; exact List.mem_cons_self _ _
    · exact List.mem_cons_of_mem _ (List.mem_append_left _ h0)
  have hlm1 : C.headD s ∈ s :: (A ++ C) := by
    rcases List.mem_append.mp hlm with h0 | h0
    · exact List.mem_cons_of_mem _ (List.mem_append_right _ h0)
    · rw [List.mem_singleton.mp h0]; exact List.mem_cons_self _ _
  have hne : f ≠ C.headD s := fun e => hdB f (List.mem_cons_self _ _) (e ▸ hlm1)
  have hpf : prevOf st.nodes f = some (A.getLastD s) := by simpa using hlk.2
  have hlfp := live_of_next hlk.1
  have hpath := next_path_of_ring_block hcBC
  have hlst : (st.nodes (C.headD s)).isSome := by
    have := hr.live (C.headD s) (by
      simp only [List.mem_cons, List.mem_append] at hlm1 ⊢
      tauto)
    exact this
  have hpath1 : List.Chain' (fun a b =>
      nextOf ((st.nodes.setNext (A.getLastD s) (C.headD s)).setPrev (C.headD s) (A.getLastD s)) a
        = some b) ((f :: B) ++ [C.headD s]) := by
    refine next_chain_congr hpath ?_
    intro x hx
    rw [List.dropLast_concat] at hx
    have : x ≠ A.getLastD s := fun e => hdB x hx (e ▸ hfpm1)
    simp only [nextOf_setPrev, nextOf_setNext, if_neg this]
  have hlnot : C.headD s ∉ f :: B := fun hm => hdB _ hm hlm1
  have hrun := List_eraseLoop_run (C.headD s) B f 0 fuel
    { nodes := (st.nodes.setNext (A.getLastD s) (C.headD s)).setPrev (C.headD s) (A.getLastD s),
      brk := st.brk, lists := st.lists } hpath1 hndB hlnot hfuel
  have hun := @ring_unlink α st.nodes
    ((st.nodes.setNext (A.getLastD s) (C.headD s)).setPrev (C.headD s) (A.getLastD s))
    s f A B C hr (by intro x; simp only [nextOf_setPrev, nextOf_setNext, hlfp, if_true])
    (by intro x; simp only [prevOf_setPrev, prevOf_setNext, live_setNext, hlst, if_true])
  have hcount : B.length + 1 ≤ (st.lists l).m_size := by
    rw [hsz]; simp; omega
  refine ⟨Mem.mk ((f :: B).foldl Heap.free
      ((st.nodes.setNext (A.getLastD s) (C.headD s)).setPrev (C.headD s) (A.getLastD s)))
      st.brk
      (fun r => if r = l then
        { st.lists l with m_size := wrapSub (st.lists l).m_size (B.length + 1) }
        else st.lists r), ?_, ⟨?_, ?_, ?_⟩, ?_, ?_, ?_, ?_, ?_⟩
  · have hlst1 : (((st.nodes.setNext (A.getLastD s) (C.headD s)) (C.headD s)).isSome) := by
      rw [live_setNext]; exact hlst
    have e1 := getPrev_run hpf
    have e2 := storeNext_run (S := st) (C.headD s) hlfp
    have e3 : getPrev f { st with nodes := st.nodes.setNext (A.getLastD s) (C.headD s) } =
        .ret (A.getLastD s) { st with nodes := st.nodes.setNext (A.getLastD s) (C.headD s) } :=
      getPrev_run (by simpa using hpf)
    have e4 := storePrev_run
      (S := { st with nodes := st.nodes.setNext (A.getLastD s) (C.headD s) })
      (A.getLastD s) hlst1
    simp only [List_erase_range, hne, if_false, Prog.bind_run, Prog.bind, e1, e2, e3, e4, hrun]
    simp only [getSize_run, setSize_run, Prog.pure_run, Nat.zero_add]
  · have hsz1 : (st.lists l).m_size = A.length + (B.length + 1 + C.length) := by
      rw [hsz]; simp only [List.length_append, List.length_cons]
    rw [hsz1] at hcount
    simp only [if_true, hsz1, wrapSub_of_le hcount, List.length_append]
    omega
  · simp only [if_true]
    refine hun.1.frame ?_ ?_
    · intro x hx
      rw [nextOf_foldl_free, if_neg (fun hm => hdB x hm hx)]
    · intro x hx
      rw [prevOf_foldl_free, if_neg (fun hm => hdB x hm hx)]
  · have hd1 := map_split hd
    have hd2 := map_split (A := f :: B) (C := C) (X := xs.drop A.length) hd1.2
    simp only [List.map_append]
    congr 1
    · rw [← hd1.1]
      refine List.map_congr_left (fun x hx => ?_)
      rw [dataOf_foldl_free, if_neg (fun hm => hdB x hm
        (List.mem_cons_of_mem _ (List.mem_append_left _ hx)))]
      simp
    · have e : xs.drop (A.length + (B.length + 1)) = (xs.drop A.length).drop (f :: B).length := by
        simp [List.drop_drop, Nat.add_comm]
      rw [e, ← hd2.2]
      refine List.map_congr_left (fun x hx => ?_)
      rw [dataOf_foldl_free, if_neg (fun hm => hdB x hm
        (List.mem_cons_of_mem _ (List.mem_append_right _ hx)))]
      simp
  · rfl
  · intro a ha
    simp only [live_foldl_free, live_setPrev, live_setNext, Bool.and_eq_true] at ha
    exact ha.2
  · simp
  · intro r hr1
    simp [hr1]
  · intro x hx
    have h1 : x ∉ f :: B := fun hm => hx (by
      simp only [List.mem_cons, List.mem_append] at hm ⊢
      tauto)
    have h2 : x ≠ A.getLastD s := fun e => hx (by
      rw [e]
      simp only [List.mem_cons, List.mem_append] at hfpm ⊢
      tauto)
    have h3 : x ≠ C.headD s := fun e => hx (by
      rw [e]
      simp only [List.mem_cons, List.mem_append, List.mem_singleton] at hlm ⊢
      tauto)
    have key : ∀ (L : List Ptr) (h : Heap α), x ∉ L → (L.foldl Heap.free h) x = h x := by
      intro L
      induction L with
      | nil => intro h _; rfl
      | cons a L ih =>
        intro h hx
        rw [List.foldl_cons, ih _ (fun hm => hx (List.mem_cons_of_mem _ hm))]
        have : x ≠ a := fun e => hx (by simp [e])
        simp [Heap.free, this]
    simp only
    rw [key _ _ h1]
    simp only [Heap.setPrev, Heap.setNext, if_neg h2, if_neg h3]

end EraseLemmas

section RemoveLemmas
variable {α : Type}

theorem Repr.next_at {st : Mem α} {l : Ref} {A C : List Ptr} {a : Ptr} {xs : List α}
    (hR : Repr st l (A ++ (a :: C)) xs) :
    nextOf st.nodes a = some (C.headD (st.lists l).m_sentinel) := by
  have hc := hR.2.1.chain.2.1
  have := next_path_of_ring_block (B := []) (C := C) (f := a) (by simpa using hc)
  simpa using this

theorem Repr.data_at {st : Mem α} {l : Ref} {A C : List Ptr} {a : Ptr} {xsA xsC : List α}
    {x : α} (hR : Repr st l (A ++ (a :: C)) (xsA ++ (x :: xsC))) (hl : A.length = xsA.length) :
    dataOf st.nodes a = some x := by
  have := (map_split hR.2.2).2
  rw [hl] at this
  simp only [List.drop_left, List.map_cons, List.cons.injEq] at this
  exact this.1

/-- Erasing the single node `a` of a list whose nodes are `A ++ a :: C`. -/
theorem List_erase_repr {st : Mem α} {l : Ref} {A C : List Ptr} {a : Ptr}
    {xs : List α} (fuel : Nat) (hR : Repr st l (A ++ (a :: C)) xs) (hfuel : 2 ≤ fuel) :
    ∃ st1, List_erase fuel l a st = .ret (C.headD (st.lists l).m_sentinel) st1 ∧
      Repr st1 l (A ++ C) (xs.take A.length ++ xs.drop (A.length + 1)) ∧
      st1.brk = st.brk ∧ (∀ b, (st1.nodes b).isSome → (st.nodes b).isSome) ∧
      (st1.lists l).m_sentinel = (st.lists l).m_sentinel ∧
      (∀ r, r ≠ l → st1.lists r = st.lists r) ∧
      (∀ x, x ∉ (st.lists l).m_sentinel :: (A ++ (a :: C)) → st1.nodes x = st.nodes x) := by
  have hnx := hR.next_at
  obtain ⟨st1, h1, h2, h3⟩ := List_erase_range_repr (B := []) fuel (by simpa using hR)
    (by simpa using hfuel)
  refine ⟨st1, ?_, by simpa using h2, by simpa using h3⟩
  simp only [List_erase, Prog.bind_run, Prog.bind, getNext_run hnx]
  exact h1

theorem List_removeLoop_repr [DecidableEq α] (l : Ref) (v : α) :
    ∀ (R D : List Ptr) (xsD xsR : List α) (fuel : Nat) (st : Mem α),
      Repr st l (D ++ R) (xsD ++ xsR) → D.length = xsD.length → R.length < fuel →
      ∃ st1 R1, List_removeLoop l v fuel (R.headD (st.lists l).m_sentinel) st = .ret () st1 ∧
        Repr st1 l (D ++ R1) (xsD ++ xsR.filter (fun x => decide (x ≠ v))) ∧
        st1.brk = st.brk ∧ (∀ b, (st1.nodes b).isSome → (st.nodes b).isSome) ∧
        (st1.lists l).m_sentinel = (st.lists l).m_sentinel ∧
        (∀ r, r ≠ l → st1.lists r = st.lists r) ∧
        (∀ x, x ∉ (st.lists l).m_sentinel :: (D ++ R) → st1.nodes x = st.nodes x) := by
  intro R
  induction R with
  | nil =>
    intro D xsD xsR fuel st hR hl hfuel
    obtain ⟨k, rfl⟩ : ∃ k, fuel = k + 1 := ⟨fuel - 1, by omega⟩
    have hlen := map_len hR.2.2
    have hxs : xsR = [] := by
      simp only [List.append_nil, List.length_append] at hlen
      exact List.eq_nil_of_length_eq_zero (by omega)
    subst hxs
    refine ⟨st, [], ?_, by simpa using hR, rfl, fun _ hb => hb, rfl, fun _ _ => rfl,
      fun _ _ => rfl⟩
    simp [List_removeLoop, List_end, Prog.bind]
  | cons a R ih =>
    intro D xsD xsR fuel st hR hl hfuel
    obtain ⟨k, rfl⟩ : ∃ k, fuel = k + 1 := ⟨fuel - 1, by omega⟩
    have hlen := map_len hR.2.2
    cases xsR with
    | nil =>
      exfalso
      simp only [List.length_append, List.length_cons, List.append_nil] at hlen
      omega
    | cons x xsR =>
      have hne : a ≠ (st.lists l).m_sentinel := by
        intro e
        have := hR.2.1.1
        rw [List.nodup_cons] at this
        exact this.1 (by rw [← e]; simp)
      have hdat := hR.data_at hl
      have hnx := hR.next_at
      by_cases hv : x = v
      · obtain ⟨st1, e1, hR1, hb1, hl1, hs1, ho1, hn1⟩ := List_erase_repr (k + 1) hR
          (by simp only [List.length_cons] at hfuel; omega)
        have hxs1 : (xsD ++ x :: xsR).take D.length ++ (xsD ++ x :: xsR).drop (D.length + 1)
            = xsD ++ xsR := by
          rw [hl]
          simp [List.take_append_eq_append_take, List.drop_append_eq_append_drop]
        rw [hxs1] at hR1
        obtain ⟨st2, R2, e2, hR2, hb2, hl2, hs2, ho2, hn2⟩ := ih D xsD xsR k st1 hR1 hl
          (by simp only [List.length_cons] at hfuel; omega)
        refine ⟨st2, R2, ?_, ?_, hb2.trans hb1, fun b hb => hl1 b (hl2 b hb), hs2.trans hs1,
          fun r hr => (ho2 r hr).trans (ho1 r hr), ?_⟩
        · simp only [List_removeLoop, List_end, Prog.bind_run, Prog.bind, getSentinel_run, hne,
            List.headD_cons, Prog.pure_run, if_false, getData_run hdat, hv, if_true, e1]
          rw [hs1] at e2
          exact e2
        · simpa [hv] using hR2
        · intro y hy
          rw [hn2 y (by
            rw [hs1]
            intro hm
            apply hy
            simp only [List.mem_cons, List.mem_append] at hm ⊢
            tauto), hn1 y hy]
      · have hR' : Repr st l ((D ++ [a]) ++ R) ((xsD ++ [x]) ++ xsR) := by simpa using hR
        obtain ⟨st2, R2, e2, hR2, hb2, hl2, hs2, ho2, hn2⟩ := ih (D ++ [a]) (xsD ++ [x]) xsR k st
          hR' (by simp [hl]) (by simp only [List.length_cons] at hfuel; omega)
        refine ⟨st2, a :: R2, ?_, ?_, hb2, hl2, hs2, ho2, ?_⟩
        · simp only [List_removeLoop, List_end, Prog.bind_run, Prog.bind, getSentinel_run, hne,
            List.headD_cons, Prog.pure_run, if_false, getData_run hdat, hv, getNext_run hnx]
          exact e2
        · simpa [hv] using hR2
        · intro y hy
          exact hn2 y (by simpa using hy)

end RemoveLemmas

section ReverseLemmas
variable {α : Type}

theorem Ring.first {h : Heap α} {s : Ptr} {ns : List Ptr} (hr : Ring h s ns) :
    Linked h s (ns.headD s) := by
  have : Ring h s ([] ++ ns) := by simpa using hr
  simpa using this.boundary

theorem Ring.last {h : Heap α} {s : Ptr} {ns : List Ptr} (hr : Ring h s ns) :
    Linked h (ns.getLastD s) s := by
  have : Ring h s (ns ++ []) := by simpa using hr
  have := this.boundary
  exact this

theorem chain_cons_snoc {R : Ptr → Ptr → Prop} {b s : Ptr} {B : List Ptr}
    (hc : List.Chain' R ((b :: B) ++ [s])) : R b (B.headD s) ∧ List.Chain' R (B ++ [s]) := by
  cases B with
  | nil => simpa using hc
  | cons c B => simpa [List.chain'_cons] using hc

theorem List_remove_repr [DecidableEq α] {st : Mem α} {l : Ref} {ns : List Ptr} {xs : List α}
    (fuel : Nat) (v : α) (hR : Repr st l ns xs) (hfuel : ns.length < fuel) :
    ∃ st1 ns1, List_remove fuel l v st = .ret () st1 ∧
      Repr st1 l ns1 (xs.filter (fun x => decide (x ≠ v))) ∧
      st1.brk = st.brk ∧ (∀ b, (st1.nodes b).isSome → (st.nodes b).isSome) ∧
      (st1.lists l).m_sentinel = (st.lists l).m_sentinel ∧
      (∀ r, r ≠ l → st1.lists r = st.lists r) ∧
      (∀ x, x ∉ (st.lists l).m_sentinel :: ns → st1.nodes x = st.nodes x) := by
  have hb := hR.2.1.first
  obtain ⟨st1, R1, e1, h1⟩ := List_removeLoop_repr l v ns [] [] xs fuel st (by simpa using hR)
    rfl hfuel
  refine ⟨st1, R1, ?_, by simpa using h1⟩
  simp only [List_remove, List_begin, Prog.bind_run, Prog.bind, getSentinel_run,
    getNext_run hb.1]
  exact e1

theorem swapLinks_run {st : Mem α} {a n p : Ptr} (hn : nextOf st.nodes a = some n)
    (hp : prevOf st.nodes a = some p) :
    swapLinks a st = .ret () { st with nodes := (st.nodes.setNext a p).setPrev a n } := by
  have hl := live_of_next hn
  have e3 := storeNext_run (S := st) p hl
  have e4 := storePrev_run (S := { st with nodes := st.nodes.setNext a p }) n
    (by rw [live_setNext]; exact hl)
  simp only [swapLinks, Prog.bind_run, Prog.bind, getNext_run hn, getPrev_run hp, e3, e4]

theorem live_prev_some {h : Heap α} {a : Ptr} (hl : (h a).isSome) : ∃ p, prevOf h a = some p := by
  cases hx : h a with
  | none => simp [hx] at hl
  | some n => exact ⟨n.prev, by simp [prevOf, hx]⟩

theorem List_reverseLoop_run (l : Ref) :
    ∀ (B : List Ptr) (fuel : Nat) (st : Mem α),
      List.Chain' (fun a b => nextOf st.nodes a = some b) (B ++ [(st.lists l).m_sentinel]) →
      B.Nodup → (st.lists l).m_sentinel ∉ B → B.length < fuel →
      ∃ h1 : Heap α, List_reverseLoop l fuel (B.headD (st.lists l).m_sentinel) st =
          .ret () { st with nodes := h1 } ∧
        (∀ x, nextOf h1 x = if x ∈ B then prevOf st.nodes x else nextOf st.nodes x) ∧
        (∀ x, prevOf h1 x = if x ∈ B then nextOf st.nodes x else prevOf st.nodes x) ∧
        (∀ x, dataOf h1 x = dataOf st.nodes x) ∧
        (∀ x, (h1 x).isSome = (st.nodes x).isSome) := by
  intro B
  induction B with
  | nil =>
    intro fuel st _ _ _ hfuel
    obtain ⟨k, rfl⟩ : ∃ k, fuel = k + 1 := ⟨fuel - 1, by simp at hfuel; omega⟩
    refine ⟨st.nodes, ?_, by simp, by simp, by simp, by simp⟩
    simp [List_reverseLoop, Prog.bind]
  | cons b B ih =>
    intro fuel st hc hnd hs hfuel
    obtain ⟨k, rfl⟩ : ∃ k, fuel = k + 1 := ⟨fuel - 1, by simp at hfuel; omega⟩
    have hne : b ≠ (st.lists l).m_sentinel := fun e => hs (by simp [e])
    obtain ⟨hnx, hc2⟩ := chain_cons_snoc hc
    have hlb := live_of_next hnx
    obtain ⟨p, hp⟩ := live_prev_some hlb
    have hbB : b ∉ B := (List.nodup_cons.mp hnd).1
    have hc3 : List.Chain' (fun a c =>
        nextOf ((st.nodes.setNext b p).setPrev b (B.headD (st.lists l).m_sentinel)) a = some c)
        (B ++ [(st.lists l).m_sentinel]) := by
      refine next_chain_congr hc2 ?_
      intro x hx
      rw [List.dropLast_concat] at hx
      have : x ≠ b := fun e => hbB (e ▸ hx)
      simp only [nextOf_setPrev, nextOf_setNext, if_neg this]
    obtain ⟨h1, e1, hn1, hp1, hd1, hl1⟩ := ih k
      (Mem.mk ((st.nodes.setNext b p).setPrev b (B.headD (st.lists l).m_sentinel)) st.brk st.lists)
      hc3 (List.nodup_cons.mp hnd).2 (fun hm => hs (List.mem_cons_of_mem _ hm))
      (by simp at hfuel ⊢; omega)
    refine ⟨h1, ?_, ?_, ?_, ?_, ?_⟩
    · simp only [List_reverseLoop, Prog.bind_run, Prog.bind, getSentinel_run, List.headD_cons,
        hne, if_false, Prog.pure_run, getNext_run hnx, swapLinks_run hnx hp]
      exact e1
    · intro x
      rw [hn1]
      by_cases hx : x ∈ B
      · have : x ≠ b := fun e => hbB (e ▸ hx)
        simp only [hx, if_true, List.mem_cons, or_true, prevOf_setPrev, prevOf_setNext,
          if_neg this]
      · by_cases hxb : x = b
        · subst hxb
          simp only [hx, if_false, nextOf_setPrev, nextOf_setNext, if_true, hlb,
            List.mem_cons, true_or, hp]
        · simp only [hx, if_false, nextOf_setPrev, nextOf_setNext, if_neg hxb, List.mem_cons,
            hxb, or_self]
    · intro x
      rw [hp1]
      by_cases hx : x ∈ B
      · have : x ≠ b := fun e => hbB (e ▸ hx)
        simp only [hx, if_true, List.mem_cons, or_true, nextOf_setPrev, nextOf_setNext,
          if_neg this]
      · by_cases hxb : x = b
        · subst hxb
          simp only [hx, if_false, prevOf_setPrev, prevOf_setNext, if_true, hlb,
            List.mem_cons, true_or, hnx, live_setNext]
        · simp only [hx, if_false, prevOf_setPrev, prevOf_setNext, if_neg hxb, List.mem_cons,
            hxb, or_self]
    · intro x
      rw [hd1]
      simp only [dataOf_setPrev, dataOf_setNext]
    · intro x
      rw [hl1]
      simp only [live_setPrev, live_setNext]

/-- Exchanging `next` and `prev` on every node of a ring reverses it. -/
theorem ring_reverse {h h1 : Heap α} {s : Ptr} {ns : List Ptr} (hr : Ring h s ns)
    (hn : ∀ x ∈ s :: ns, nextOf h1 x = prevOf h x)
    (hp : ∀ x ∈ s :: ns, prevOf h1 x = nextOf h x) : Ring h1 s ns.reverse := by
  refine ⟨?_, ?_⟩
  · have := hr.1
    rw [List.nodup_cons] at this ⊢
    exact ⟨by simpa using this.1, List.nodup_reverse.mpr this.2⟩
  · have e : (s :: ns.reverse) ++ [s] = ((s :: ns) ++ [s]).reverse := by simp
    rw [e, List.chain'_reverse]
    have hc := List.Chain'.iff_mem.mp hr.2
    refine hc.imp ?_
    intro a b hab
    have ha : a ∈ s :: ns := by
      have := hab.1
      simp only [List.cons_append, List.mem_cons, List.mem_append, List.mem_singleton] at this ⊢
      tauto
    have hb : b ∈ s :: ns := by
      have := hab.2.1
      simp only [List.cons_append, List.mem_cons, List.mem_append, List.mem_singleton] at this ⊢
      tauto
    exact ⟨by rw [hn b hb]; exact hab.2.2.2, by rw [hp a ha]; exact hab.2.2.1⟩

theorem List_reverse_repr {st : Mem α} {l : Ref} {ns : List Ptr} {xs : List α}
    (fuel : Nat) (hR : Repr st l ns xs) (hfuel : ns.length < fuel) :
    ∃ st1, List_reverse fuel l st = .ret () st1 ∧
      Repr st1 l ns.reverse xs.reverse ∧
      st1.brk = st.brk ∧ st1.lists = st.lists ∧
      (∀ x, (st1.nodes x).isSome = (st.nodes x).isSome) ∧
      (∀ x, dataOf st1.nodes x = dataOf st.nodes x) ∧
      (∀ x, x ∉ (st.lists l).m_sentinel :: ns → nextOf st1.nodes x = nextOf st.nodes x ∧
        prevOf st1.nodes x = prevOf st.nodes x) := by
  obtain ⟨hsz, hr, hd⟩ := hR
  set s := (st.lists l).m_sentinel with hs
  have hfirst := hr.first
  have hlast := hr.last
  have hsl := live_of_next hfirst.1
  have hsn : s ∉ ns := (List.nodup_cons.mp hr.1).1
  have hc : List.Chain' (fun a b => nextOf st.nodes a = some b) (ns ++ [s]) := by
    have := next_chain_of_linked hr.2
    rw [List.cons_append, List.chain'_cons'] at this
    exact this.2
  have hc0 : List.Chain' (fun a b =>
      nextOf ((st.nodes.setNext s (ns.getLastD s)).setPrev s (ns.headD s)) a = some b)
      (ns ++ [s]) := by
    refine next_chain_congr hc ?_
    intro x hx
    rw [List.dropLast_concat] at hx
    have : x ≠ s := fun e => hsn (e ▸ hx)
    simp only [nextOf_setPrev, nextOf_setNext, if_neg this]
  obtain ⟨h1, e1, hn1, hp1, hd1, hl1⟩ := List_reverseLoop_run l ns fuel
    (Mem.mk ((st.nodes.setNext s (ns.getLastD s)).setPrev s (ns.headD s)) st.brk st.lists)
    hc0 (List.nodup_cons.mp hr.1).2 hsn hfuel
  have hnn : ∀ x, nextOf h1 x = if x ∈ s :: ns then prevOf st.nodes x else nextOf st.nodes x := by
    intro x
    rw [hn1]
    by_cases hx : x ∈ ns
    · have : x ≠ s := fun e => hsn (e ▸ hx)
      simp only [hx, if_true, List.mem_cons, or_true, prevOf_setPrev, prevOf_setNext,
        if_neg this]
    · by_cases hxs : x = s
      · subst hxs
        simp only [hx, if_false, nextOf_setPrev, nextOf_setNext, if_true, hsl,
          List.mem_cons, true_or, hlast.2]
      · simp only [hx, if_false, nextOf_setPrev, nextOf_setNext, if_neg hxs, List.mem_cons,
          hxs, or_self]
  have hpp : ∀ x, prevOf h1 x = if x ∈ s :: ns then nextOf st.nodes x else prevOf st.nodes x := by
    intro x
    rw [hp1]
    by_cases hx : x ∈ ns
    · have : x ≠ s := fun e => hsn (e ▸ hx)
      simp only [hx, if_true, List.mem_cons, or_true, nextOf_setPrev, nextOf_setNext,
        if_neg this]
    · by_cases hxs : x = s
      · subst hxs
        simp only [hx, if_false, prevOf_setPrev, prevOf_setNext, if_true, hsl,
          List.mem_cons, true_or, hfirst.1, live_setNext]
      · simp only [hx, if_false, prevOf_setPrev, prevOf_setNext, if_neg hxs, List.mem_cons,
          hxs, or_self]
  refine ⟨Mem.mk h1 st.brk st.lists, ?_, ⟨?_, ?_, ?_⟩, rfl, rfl, ?_, ?_, ?_⟩
  · simp only [List_reverse, Prog.bind_run, Prog.bind, getSentinel_run, getNext_run hfirst.1,
      swapLinks_run hfirst.1 hlast.2]
    exact e1
  · simpa using hsz
  · refine ring_reverse hr ?_ ?_
    · intro x hx; rw [hnn, if_pos hx]
    · intro x hx; rw [hpp, if_pos hx]
  · rw [List.map_reverse, List.map_reverse, ← hd]
    congr 1
    refine List.map_congr_left (fun x _ => ?_)
    rw [hd1]
    simp only [dataOf_setPrev, dataOf_setNext]
  · intro x
    rw [hl1]
    simp only [live_setPrev, live_setNext]
  · intro x
    show dataOf h1 x = _
    rw [hd1]
    simp only [dataOf_setPrev, dataOf_setNext]
  · intro x hx
    show nextOf h1 x = _ ∧ prevOf h1 x = _
    rw [hnn, hpp, if_neg hx, if_neg hx]
    exact ⟨rfl, rfl⟩

end ReverseLemmas

section SpliceLemmas
variable {α : Type}

/-- Symbolic execution of `splice` on a non-empty range, from the pointer facts it reads. -/
theorem List_splice_run {S : Mem α} {T O : Ref} {P f L F r N : Ptr}
    {K M : Nat} (hne : f ≠ L)
    (hcnt : (if T ≠ O then distanceLoop L K f 0 else pure 0) S = .ret M S)
    (hr : prevOf S.nodes L = some r) (hfp : prevOf S.nodes f = some F)
    (hlfp : (S.nodes F).isSome)
    (hnb : prevOf ((S.nodes.setNext F L).setPrev L F) P = some N)
    (hlnb : (S.nodes N).isSome) (hlr : (S.nodes r).isSome) :
    List_splice K T P O f L S = .ret ()
      (Mem.mk
        (((((S.nodes.setNext F L).setPrev L F).setNext N f).setPrev f N).setNext
          r P |>.setPrev P r)
        S.brk
        (fun x => if x = O then
            { (if O = T then
                { S.lists T with m_size := (S.lists T).m_size + M }
               else S.lists O) with
              m_size := wrapSub (if O = T then (S.lists T).m_size + M
                                 else (S.lists O).m_size) M }
          else if x = T then
            { S.lists T with m_size := (S.lists T).m_size + M }
          else S.lists x)) := by
  have hll := live_of_prev hr
  have hlf := live_of_prev hfp
  have hlpos : (S.nodes P).isSome := by
    have := live_of_prev hnb
    simpa using this
  have e1 := getPrev_run hr
  have e2 := getPrev_run hfp
  have e3 := storeNext_run (S := S) L hlfp
  have e4 : getPrev f { S with nodes := S.nodes.setNext F L } =
      .ret F { S with nodes := S.nodes.setNext F L } :=
    getPrev_run (by simpa using hfp)
  have e5 := storePrev_run (S := { S with nodes := S.nodes.setNext F L }) F
    (by rw [live_setNext]; exact hll)
  have e6 : getPrev P
      { S with nodes := (S.nodes.setNext F L).setPrev L F } =
      .ret N { S with nodes := (S.nodes.setNext F L).setPrev L F } :=
    getPrev_run hnb
  have e7 := storeNext_run
    (S := { S with nodes := (S.nodes.setNext F L).setPrev L F }) f
    (a := N) (by simpa using hlnb)
  have e8 : getPrev P
      { S with nodes := ((S.nodes.setNext F L).setPrev L F).setNext N f } =
      .ret N { S with nodes := ((S.nodes.setNext F L).setPrev L F).setNext N f } :=
    getPrev_run (by simpa using hnb)
  have e9 := storePrev_run
    (S := { S with nodes := ((S.nodes.setNext F L).setPrev L F).setNext N f }) N
    (a := f) (by simpa using hlf)
  have e10 := storeNext_run
    (S := { S with nodes :=
      (((S.nodes.setNext F L).setPrev L F).setNext N f).setPrev f N }) P
    (a := r) (by simpa using hlr)
  have e11 := storePrev_run
    (S := { S with nodes :=
      ((((S.nodes.setNext F L).setPrev L F).setNext N f).setPrev f N).setNext r P }) r
    (a := P) (by simpa using hlpos)
  simp only [List_splice, hne, if_false, Prog.bind_run, Prog.bind, hcnt, e1, e2, e3, e4, e5, e6,
    e7, e8, e9, e10, e11, getSize_run, setSize_run, Prog.pure_run]
  congr 1
  congr 1
  funext x
  by_cases h1 : x = O
  · subst h1
    by_cases h2 : x = T
    · subst h2; simp
    · simp [h2]
  · by_cases h2 : x = T
    · subst h2; simp [h1]
    · simp [h1, h2]

/-- The heap after the four stores of `splice` that link the block before `pos`. -/
theorem splice_link {h1 : Heap α} {s1 f : Ptr} {A1 B C1 : List Ptr}
    (hr1 : Ring h1 s1 (A1 ++ C1)) (hcB : List.Chain' (Linked h1) (f :: B))
    (hndB : (f :: B).Nodup) (hdB : ∀ x ∈ f :: B, x ∉ s1 :: (A1 ++ C1))
    (hlB : ∀ x ∈ f :: B, (h1 x).isSome) :
    Ring (((h1.setNext (A1.getLastD s1) f).setPrev f (A1.getLastD s1)).setNext
        (B.getLastD f) (C1.headD s1) |>.setPrev (C1.headD s1) (B.getLastD f))
      s1 (A1 ++ (f :: B ++ C1)) := by
  have hb := hr1.boundary
  have hlnb := live_of_next hb.1
  have hlpos := live_of_prev hb.2
  have hrm := getLastD_mem f B
  have hfm : f ∈ f :: B := List.mem_cons_self _ _
  have hfpm : A1.getLastD s1 ∈ s1 :: (A1 ++ C1) := by
    have := getLastD_mem s1 A1
    simp only [List.mem_cons, List.mem_append] at this ⊢
    tauto
  have hlm : C1.headD s1 ∈ s1 :: (A1 ++ C1) := by
    have := headD_mem s1 C1
    simp only [List.mem_cons, List.mem_append, List.mem_singleton] at this ⊢
    tauto
  have hne1 : B.getLastD f ≠ A1.getLastD s1 := fun e => hdB _ hrm (e ▸ hfpm)
  have hne2 : f ≠ C1.headD s1 := fun e => hdB _ hfm (e ▸ hlm)
  refine ring_link hr1 hcB hndB hdB ?_ ?_
  · intro x
    simp only [nextOf_setPrev, nextOf_setNext, live_setPrev, live_setNext, hlB _ hrm, hlnb,
      if_true]
    by_cases hx : x = A1.getLastD s1
    · have hx2 : x ≠ B.getLastD f := fun e => hne1 (e.symm.trans hx)
      rw [if_pos hx, if_neg hx2, if_pos hx]
    · by_cases hx2 : x = B.getLastD f
      · rw [if_pos hx2, if_neg hx, if_pos hx2]
      · rw [if_neg hx2, if_neg hx, if_neg hx, if_neg hx2]
  · intro x
    simp only [prevOf_setPrev, prevOf_setNext, live_setPrev, live_setNext, hlB _ hfm, hlpos,
      if_true]

theorem mem_ring_left {s x : Ptr} {A C : List Ptr} (hx : x ∈ s :: A) : x ∈ s :: (A ++ C) := by
  simp only [List.mem_cons, List.mem_append] at hx ⊢
  tauto

theorem mem_ring_right {s x : Ptr} {A C : List Ptr} (hx : x ∈ C ++ [s]) : x ∈ s :: (A ++ C) := by
  simp only [List.mem_cons, List.mem_append, List.mem_singleton] at hx ⊢
  tauto

theorem mem_ring_block {s x : Ptr} {A B C : List Ptr} (hx : x ∈ B) :
    x ∈ s :: (A ++ (B ++ C)) := by
  simp only [List.mem_cons, List.mem_append] at hx ⊢
  tauto

theorem mem_ring_rest {s x : Ptr} {A B C : List Ptr} (hx : x ∈ s :: (A ++ C)) :
    x ∈ s :: (A ++ (B ++ C)) := by
  simp only [List.mem_cons, List.mem_append] at hx ⊢
  tauto

/-- Facts about the block `f :: B` of a ring and its two neighbours. -/
theorem Ring.block {h : Heap α} {s f : Ptr} {A B C : List Ptr}
    (hr : Ring h s (A ++ (f :: B ++ C))) :
    Linked h (A.getLastD s) f ∧ Linked h (B.getLastD f) (C.headD s) ∧
      List.Chain' (fun a b => nextOf h a = some b) ((f :: B) ++ [C.headD s]) := by
  obtain ⟨-, hcBC, hlk⟩ := hr.chain
  have e : (f :: B ++ C) ++ [s] = (f :: B) ++ (C ++ [s]) := by simp
  have hcBC1 := hcBC
  rw [e] at hcBC1
  obtain ⟨-, -, h3⟩ := (chain_split _ f s B C).mp hcBC1
  exact ⟨by simpa using hlk, h3, next_path_of_ring_block hcBC⟩

/-- Splicing the block `f :: B` of the list `l2` into a different list `l1`. -/
theorem List_splice_repr_cross {st : Mem α} {l1 l2 : Ref} {A1 C1 A2 B C2 : List Ptr} {f : Ptr}
    {xs1 xs2 : List α} (fuel : Nat) (hl : l1 ≠ l2)
    (hR1 : Repr st l1 (A1 ++ C1) xs1) (hR2 : Repr st l2 (A2 ++ (f :: B ++ C2)) xs2)
    (hdisj : ∀ x ∈ (st.lists l1).m_sentinel :: (A1 ++ C1),
      x ∉ (st.lists l2).m_sentinel :: (A2 ++ (f :: B ++ C2)))
    (hfuel : B.length + 2 ≤ fuel) :
    ∃ st1, List_splice fuel l1 (C1.headD (st.lists l1).m_sentinel) l2 f
        (C2.headD (st.lists l2).m_sentinel) st = .ret () st1 ∧
      Repr st1 l1 (A1 ++ (f :: B ++ C1))
        (xs1.take A1.length ++ ((xs2.drop A2.length).take (B.length + 1) ++
          xs1.drop A1.length)) ∧
      Repr st1 l2 (A2 ++ C2) (xs2.take A2.length ++ xs2.drop (A2.length + (B.length + 1))) ∧
      st1.brk = st.brk ∧ (∀ x, (st1.nodes x).isSome = (st.nodes x).isSome) ∧
      (st1.lists l1).m_sentinel = (st.lists l1).m_sentinel ∧
      (st1.lists l2).m_sentinel = (st.lists l2).m_sentinel ∧
      (∀ r, r ≠ l1 → r ≠ l2 → st1.lists r = st.lists r) ∧
      (∀ x, x ∉ (st.lists l1).m_sentinel :: (A1 ++ C1) →
        x ∉ (st.lists l2).m_sentinel :: (A2 ++ (f :: B ++ C2)) → st1.nodes x = st.nodes x) := by
  obtain ⟨hsz1, hr1, hd1⟩ := hR1
  obtain ⟨hsz2, hr2, hd2⟩ := hR2
  set s1 := (st.lists l1).m_sentinel with hs1
  set s2 := (st.lists l2).m_sentinel with hs2
  obtain ⟨hlkf, hlkl, hpath⟩ := hr2.block
  obtain ⟨hndAC2, hndB, hdB2⟩ :=
    nodup_block.mp (show (s2 :: (A2 ++ (f :: B ++ C2))).Nodup from hr2.1)
  have hb1 := hr1.boundary
  have hfpm := getLastD_mem s2 A2
  have hlm := headD_mem s2 C2
  have hnbm := getLastD_mem s1 A1
  have hposm := headD_mem s1 C1
  have hrm := getLastD_mem f B
  have hfm : f ∈ f :: B := List.mem_cons_self _ _
  have hlive2 := hr2.live
  have hlB : ∀ x ∈ f :: B, (st.nodes x).isSome := fun x hx => hlive2 x (mem_ring_block hx)
  have hne : f ≠ C2.headD s2 := fun e => hdB2 f hfm (e ▸ mem_ring_right hlm)
  have hlnot : C2.headD s2 ∉ f :: B := fun hm => hdB2 _ hm (mem_ring_right hlm)
  have hcnt := distanceLoop_run (C2.headD s2) B f 0 fuel st hpath hlnot hfuel
  have hlfp := live_of_next hlkf.1
  have hllst := live_of_prev hlkl.2
  have hposne : C1.headD s1 ≠ C2.headD s2 := fun e =>
    hdisj _ (mem_ring_right hposm) (e ▸ mem_ring_rest (mem_ring_right hlm))
  have hun := @ring_unlink α st.nodes
    ((st.nodes.setNext (A2.getLastD s2) (C2.headD s2)).setPrev (C2.headD s2) (A2.getLastD s2))
    s2 f A2 B C2 hr2
    (by intro x; simp only [nextOf_setPrev, nextOf_setNext, hlfp, if_true])
    (by intro x; simp only [prevOf_setPrev, prevOf_setNext, live_setNext, hllst, if_true])
  have hr1' : Ring
      ((st.nodes.setNext (A2.getLastD s2) (C2.headD s2)).setPrev (C2.headD s2) (A2.getLastD s2))
      s1 (A1 ++ C1) := by
    refine hr1.frame ?_ ?_
    · intro x hx
      have : x ≠ A2.getLastD s2 := fun e =>
        hdisj x hx (e ▸ mem_ring_rest (mem_ring_left hfpm))
      simp only [nextOf_setPrev, nextOf_setNext, if_neg this]
    · intro x hx
      have : x ≠ C2.headD s2 := fun e =>
        hdisj x hx (e ▸ mem_ring_rest (mem_ring_right hlm))
      simp only [prevOf_setPrev, prevOf_setNext, if_neg this]
  have hdB1 : ∀ x ∈ f :: B, x ∉ s1 :: (A1 ++ C1) := fun x hx hx1 =>
    hdisj x hx1 (mem_ring_block hx)
  have hlink := splice_link hr1' hun.2 hndB hdB1
    (by intro x hx; simp only [live_setPrev, live_setNext]; exact hlB x hx)
  have hrun := List_splice_run (S := st) (T := l1) (O := l2)
    (P := C1.headD s1) (f := f) (L := C2.headD s2) (F := A2.getLastD s2)
    (r := B.getLastD f) (N := A1.getLastD s1) (K := fuel) (M := 0 + B.length + 1) hne
    (by rw [if_pos hl]; exact hcnt) hlkl.2 hlkf.2 hlfp
    (by simp only [prevOf_setPrev, prevOf_setNext, if_neg hposne]; exact hb1.2)
    (live_of_next hb1.1) (hlB _ hrm)
  have hdat : ∀ x, dataOf ((((((st.nodes.setNext (A2.getLastD s2) (C2.headD s2)).setPrev
      (C2.headD s2) (A2.getLastD s2)).setNext (A1.getLastD s1) f).setPrev f
      (A1.getLastD s1)).setNext (B.getLastD f) (C1.headD s1)).setPrev (C1.headD s1)
      (B.getLastD f)) x = dataOf st.nodes x := by
    intro x
    simp only [dataOf_setPrev, dataOf_setNext]
  have hmapeq : ∀ L : List Ptr, L.map (dataOf ((((((st.nodes.setNext (A2.getLastD s2)
      (C2.headD s2)).setPrev (C2.headD s2) (A2.getLastD s2)).setNext (A1.getLastD s1) f).setPrev f
      (A1.getLastD s1)).setNext (B.getLastD f) (C1.headD s1)).setPrev (C1.headD s1)
      (B.getLastD f))) = L.map (dataOf st.nodes) :=
    fun L => List.map_congr_left (fun x _ => hdat x)
  have hd1s := map_split hd1
  have hd2s := map_split hd2
  have hd2b := map_split (A := f :: B) (C := C2) (X := xs2.drop A2.length) hd2s.2
  have hcnt2 : B.length + 1 ≤ (st.lists l2).m_size := by
    rw [hsz2]; simp only [List.length_append, List.length_cons]; omega
  refine ⟨_, hrun, ⟨?_, ?_, ?_⟩, ⟨?_, ?_, ?_⟩, rfl, ?_, ?_, ?_, ?_, ?_⟩
  · simp only [if_neg hl, if_true, hsz1, List.length_append, List.length_cons]
    omega
  · simp only [if_neg hl, if_true]
    exact hlink
  · have hb' := hd2b.1
    rw [List.length_cons] at hb'
    simp only [List.map_append, hmapeq, hd1s.1, hd1s.2, hb']
  · simp only [if_true, if_neg (Ne.symm hl), hsz2, List.length_append, List.length_cons]
    rw [wrapSub_of_le (by omega)]
    omega
  · simp only [if_true, if_neg (Ne.symm hl)]
    refine hun.1.frame ?_ ?_
    · intro x hx
      have h1 : x ≠ B.getLastD f := fun e => hdB2 _ hrm (e ▸ hx)
      have h2 : x ≠ A1.getLastD s1 := fun e =>
        hdisj _ (mem_ring_left hnbm) (e ▸ mem_ring_rest hx)
      simp only [nextOf_setPrev, nextOf_setNext, if_neg h1, if_neg h2]
    · intro x hx
      have h1 : x ≠ f := fun e => hdB2 _ hfm (e ▸ hx)
      have h2 : x ≠ C1.headD s1 := fun e =>
        hdisj _ (mem_ring_right hposm) (e ▸ mem_ring_rest hx)
      simp only [prevOf_setPrev, prevOf_setNext, if_neg h1, if_neg h2]
  · have e : xs2.drop (A2.length + (B.length + 1)) = (xs2.drop A2.length).drop (f :: B).length := by
      simp [List.drop_drop, Nat.add_comm]
    simp only [List.map_append, e, hmapeq, hd2b.2, hd2s.1]
  · intro x
    simp only [live_setPrev, live_setNext]
  · simp only [if_neg hl, if_true]
  · simp only [if_true, if_neg (Ne.symm hl)]
  · intro r hr1 hr2
    simp only [if_neg hr1, if_neg hr2]
  · intro x hx1 hx2
    have h1 : x ≠ A2.getLastD s2 := fun e => hx2 (e ▸ mem_ring_rest (mem_ring_left hfpm))
    have h2 : x ≠ C2.headD s2 := fun e => hx2 (e ▸ mem_ring_rest (mem_ring_right hlm))
    have h3 : x ≠ A1.getLastD s1 := fun e => hx1 (e ▸ mem_ring_left hnbm)
    have h4 : x ≠ C1.headD s1 := fun e => hx1 (e ▸ mem_ring_right hposm)
    have h5 : x ≠ f := fun e => hx2 (by rw [e]; exact mem_ring_block hfm)
    have h6 : x ≠ B.getLastD f := fun e => hx2 (by rw [e]; exact mem_ring_block hrm)
    simp only [Heap.setPrev, Heap.setNext, if_neg h1, if_neg h2, if_neg h3, if_neg h4,
      if_neg h5, if_neg h6]

/-- Splicing the block `f :: B` of a list to another position of the same list: the
position is any node of the list outside the block, or `end()`. -/
theorem List_splice_repr_self {st : Mem α} {l : Ref} {A B C A1 C1 : List Ptr} {f : Ptr}
    {xs ys : List α} (fuel : Nat) (hR : Repr st l (A ++ (f :: B ++ C)) xs)
    (hsplit : A ++ C = A1 ++ C1)
    (hys : (A1 ++ (f :: B ++ C1)).map (dataOf st.nodes) = ys.map some) :
    ∃ st1, List_splice fuel l (C1.headD (st.lists l).m_sentinel) l f
        (C.headD (st.lists l).m_sentinel) st = .ret () st1 ∧
      Repr st1 l (A1 ++ (f :: B ++ C1)) ys ∧
      (st1.lists l).m_size = (st.lists l).m_size ∧
      st1.brk = st.brk ∧ (∀ x, (st1.nodes x).isSome = (st.nodes x).isSome) ∧
      (st1.lists l).m_sentinel = (st.lists l).m_sentinel ∧
      (∀ r, r ≠ l → st1.lists r = st.lists r) ∧
      (∀ x, x ∉ (st.lists l).m_sentinel :: (A ++ (f :: B ++ C)) → st1.nodes x = st.nodes x) := by
  obtain ⟨hsz, hr, hd⟩ := hR
  set s := (st.lists l).m_sentinel with hs
  obtain ⟨hlkf, hlkl, hpath⟩ := hr.block
  obtain ⟨hndAC, hndB, hdB⟩ :=
    nodup_block.mp (show (s :: (A ++ (f :: B ++ C))).Nodup from hr.1)
  have hfpm := getLastD_mem s A
  have hlm := headD_mem s C
  have hnbm := getLastD_mem s A1
  have hposm := headD_mem s C1
  have hrm := getLastD_mem f B
  have hfm : f ∈ f :: B := List.mem_cons_self _ _
  have hlive := hr.live
  have hlB : ∀ x ∈ f :: B, (st.nodes x).isSome := fun x hx => hlive x (mem_ring_block hx)
  have hne : f ≠ C.headD s := fun e => hdB f hfm (e ▸ mem_ring_right hlm)
  have hlfp := live_of_next hlkf.1
  have hllst := live_of_prev hlkl.2
  have hun := @ring_unlink α st.nodes
    ((st.nodes.setNext (A.getLastD s) (C.headD s)).setPrev (C.headD s) (A.getLastD s))
    s f A B C hr
    (by intro x; simp only [nextOf_setPrev, nextOf_setNext, hlfp, if_true])
    (by intro x; simp only [prevOf_setPrev, prevOf_setNext, live_setNext, hllst, if_true])
  have hr1 := hun.1
  rw [hsplit] at hr1 hdB
  have hb1 := hr1.boundary
  have hlnb : (st.nodes (A1.getLastD s)).isSome := by
    have := live_of_next hb1.1
    simpa using this
  have hlink := splice_link hr1 hun.2 hndB hdB
    (by intro x hx; simp only [live_setPrev, live_setNext]; exact hlB x hx)
  have hrun := List_splice_run (S := st) (T := l) (O := l)
    (P := C1.headD s) (f := f) (L := C.headD s) (F := A.getLastD s)
    (r := B.getLastD f) (N := A1.getLastD s) (K := fuel) (M := 0) hne
    (by simp) hlkl.2 hlkf.2 hlfp hb1.2 hlnb (hlB _ hrm)
  have hdat : ∀ x, dataOf ((((((st.nodes.setNext (A.getLastD s) (C.headD s)).setPrev
      (C.headD s) (A.getLastD s)).setNext (A1.getLastD s) f).setPrev f
      (A1.getLastD s)).setNext (B.getLastD f) (C1.headD s)).setPrev (C1.headD s)
      (B.getLastD f)) x = dataOf st.nodes x := by
    intro x
    simp only [dataOf_setPrev, dataOf_setNext]
  have hlen : (A1 ++ (f :: B ++ C1)).length = (A ++ (f :: B ++ C)).length := by
    have := congrArg List.length hsplit
    simp only [List.length_append, List.length_cons] at this ⊢
    omega
  refine ⟨_, hrun, ⟨?_, ?_, ?_⟩, ?_, rfl, ?_, ?_, ?_, ?_⟩
  · simp only [if_true, Nat.add_zero, wrapSub_of_le (Nat.zero_le _), Nat.sub_zero]
    rw [hlen]; exact hsz
  · simp only [if_true]
    exact hlink
  · rw [← hys]
    exact List.map_congr_left (fun x _ => hdat x)
  · simp only [if_true, Nat.add_zero, wrapSub_of_le (Nat.zero_le _), Nat.sub_zero]
  · intro x
    simp only [live_setPrev, live_setNext]
  · simp only [if_true]
  · intro r hr1
    simp only [if_neg hr1]
  · intro x hx
    have hrest : ∀ y, y ∈ s :: (A1 ++ C1) → y ∈ s :: (A ++ (f :: B ++ C)) := by
      intro y hy
      rw [← hsplit] at hy
      exact mem_ring_rest hy
    have h1 : x ≠ A.getLastD s := fun e => hx (by rw [e]; exact mem_ring_left hfpm)
    have h2 : x ≠ C.headD s := fun e => hx (by rw [e]; exact mem_ring_rest (mem_ring_right hlm))
    have h3 : x ≠ A1.getLastD s := fun e => hx (by rw [e]; exact hrest _ (mem_ring_left hnbm))
    have h4 : x ≠ C1.headD s := fun e => hx (by rw [e]; exact hrest _ (mem_ring_right hposm))
    have h5 : x ≠ f := fun e => hx (by rw [e]; exact mem_ring_block hfm)
    have h6 : x ≠ B.getLastD f := fun e => hx (by rw [e]; exact mem_ring_block hrm)
    simp only [Heap.setPrev, Heap.setNext, if_neg h1, if_neg h2, if_neg h3, if_neg h4,
      if_neg h5, if_neg h6]

end SpliceLemmas

section PushPopLemmas
variable {α : Type}

/-- Abstract effect of linking a fresh node `a` holding `v` at position `|A|`. -/
theorem ring_data_insert {h h1 : Heap α} {s a : Ptr} {A C : List Ptr} {xs : List α} {v : α}
    (hr : Ring h s (A ++ C)) (hd : (A ++ C).map (dataOf h) = xs.map some) (ha : h a = none)
    (hn : ∀ x, nextOf h1 x = if x = A.getLastD s then some a
      else if x = a then some (C.headD s) else nextOf h x)
    (hp : ∀ x, prevOf h1 x = if x = C.headD s then some a
      else if x = a then some (A.getLastD s) else prevOf h x)
    (hdt : ∀ x, dataOf h1 x = if x = a then some v else dataOf h x) :
    Ring h1 s (A ++ a :: C) ∧
      (A ++ a :: C).map (dataOf h1) = (xs.take A.length ++ v :: xs.drop A.length).map some := by
  refine ⟨ring_insert_node hr ha hn hp, ?_⟩
  have hne : ∀ x ∈ A ++ C, x ≠ a := by
    intro x hx e
    have := hr.live x (List.mem_cons_of_mem _ hx)
    rw [e, ha] at this
    simp at this
  obtain ⟨hdA, hdC⟩ := map_split hd
  simp only [List.map_append, List.map_cons, hdt, if_true]
  congr 1
  · rw [← hdA]
    exact List.map_congr_left (fun x hx => by
      rw [hdt, if_neg (hne x (List.mem_append_left _ hx))])
  · congr 1
    rw [← hdC]
    exact List.map_congr_left (fun x hx => by
      rw [hdt, if_neg (hne x (List.mem_append_right _ hx))])

theorem take_drop_zero (xs : List α) (v : α) :
    xs.take ([] : List Ptr).length ++ v :: xs.drop ([] : List Ptr).length = v :: xs := by
  simp

theorem List_pushFront_repr {st : Mem α} {l : Ref} {ns : List Ptr} {xs : List α} (v : α)
    (hf : Fresh st) (hR : Repr st l ns xs) :
    ∃ st1, List_pushFront l v st = .ret () st1 ∧ Repr st1 l (st.brk :: ns) (v :: xs) ∧
      Fresh st1 ∧ st1.brk = st.brk + 1 ∧
      (st1.lists l).m_sentinel = (st.lists l).m_sentinel ∧
      (∀ r, r ≠ l → st1.lists r = st.lists r) ∧
      (∀ x, x ∉ st.brk :: (st.lists l).m_sentinel :: ns → st1.nodes x = st.nodes x) := by
  obtain ⟨hsz, hr, hd⟩ := hR
  set s := (st.lists l).m_sentinel with hs
  have hfirst := hr.first
  have hsl := live_of_next hfirst.1
  have hll := live_of_prev hfirst.2
  have hfr : st.nodes st.brk = none := hf _ (le_refl _)
  have e1 := getNext_run hfirst.1
  have e2 := storePrev_run (S := Mem.mk
    (st.nodes.put st.brk { data := v, prev := s, next := ns.headD s }) (st.brk + 1) st.lists)
    (a := ns.headD s) st.brk (by simp only [live_put, hll, Bool.or_true])
  have e3 := storeNext_run (S := Mem.mk
    ((st.nodes.put st.brk { data := v, prev := s, next := ns.headD s }).setPrev (ns.headD s)
      st.brk) (st.brk + 1) st.lists)
    (a := s) st.brk (by simp only [live_setPrev, live_put, hsl, Bool.or_true])
  have hrd := @ring_data_insert α st.nodes
    (((st.nodes.put st.brk { data := v, prev := s, next := ns.headD s }).setPrev (ns.headD s)
      st.brk).setNext s st.brk) s st.brk [] ns xs v (by simpa using hr) (by simpa using hd) hfr
    (by
      intro x
      simp only [nextOf_setNext, nextOf_setPrev, nextOf_put, live_setPrev, live_put, hsl,
        Bool.or_true, if_true, List.getLastD_nil])
    (by
      intro x
      simp only [prevOf_setNext, prevOf_setPrev, prevOf_put, live_put, hll,
        Bool.or_true, if_true, List.getLastD_nil])
    (by
      intro x
      simp only [dataOf_setNext, dataOf_setPrev, dataOf_put])
  refine ⟨Mem.mk (((st.nodes.put st.brk { data := v, prev := s, next := ns.headD s }).setPrev
      (ns.headD s) st.brk).setNext s st.brk) (st.brk + 1)
      (fun r => if r = l then { st.lists l with m_size := (st.lists l).m_size + 1 }
        else st.lists r), ?_, ⟨?_, ?_, ?_⟩, ?_, rfl, ?_, ?_, ?_⟩
  · simp only [List_pushFront, Prog.bind_run, Prog.bind, getSentinel_run, e1, newNode_run, e2, e3,
      getSize_run, setSize_run]
  · simp only [if_true, hsz, List.length_cons]
  · simp only [if_true]
    simpa using hrd.1
  · simpa using hrd.2
  · refine hf.mono ?_ (Nat.le_succ _)
    intro a ha
    simp only [live_setPrev, live_setNext, live_put, Bool.or_eq_true, decide_eq_true_eq] at ha
    rcases ha with h0 | h0
    · right; rw [h0]; exact Nat.lt_succ_self _
    · left; exact h0
  · simp only [if_true]
  · intro r hr1
    simp only [if_neg hr1]
  · intro x hx
    have h1 : x ≠ st.brk := fun e => hx (by rw [e]; exact List.mem_cons_self _ _)
    have h2 : x ≠ s := fun e => hx (by rw [e]; simp)
    have h3 : x ≠ ns.headD s := fun e => hx (by
      rw [e]
      have := headD_mem s ns
      simp only [List.mem_cons, List.mem_append, List.mem_singleton] at this ⊢
      tauto)
    simp only [Heap.setNext, Heap.setPrev, Heap.put, if_neg h1, if_neg h2, if_neg h3]

theorem take_drop_all {β : Type} (xs : List β) (v : β) {n : Nat} (hn : n = xs.length) :
    xs.take n ++ v :: xs.drop n = xs ++ [v] := by
  subst hn
  simp

/-- The heap after a fresh node `a` has been linked after the current tail. -/
theorem ring_push_back_heap {h : Heap α} {s a : Ptr} {ns : List Ptr} {xs : List α} (v : α)
    (hr : Ring h s ns) (hd : ns.map (dataOf h) = xs.map some) (ha : h a = none) :
    Ring (((h.put a { data := v, prev := ns.getLastD s, next := s }).setNext
        (ns.getLastD s) a).setPrev s a) s (ns ++ [a]) ∧
      (ns ++ [a]).map (dataOf (((h.put a { data := v, prev := ns.getLastD s, next := s }).setNext
        (ns.getLastD s) a).setPrev s a)) = (xs ++ [v]).map some ∧
      (∀ x, ((((h.put a { data := v, prev := ns.getLastD s, next := s }).setNext
        (ns.getLastD s) a).setPrev s a) x).isSome = (decide (x = a) || (h x).isSome)) ∧
      (∀ x, x ∉ a :: s :: ns →
        (((h.put a { data := v, prev := ns.getLastD s, next := s }).setNext
          (ns.getLastD s) a).setPrev s a) x = h x) := by
  have hlast := hr.last
  have hsl := live_of_prev hlast.2
  have hll := live_of_next hlast.1
  have hrd := @ring_data_insert α h
    (((h.put a { data := v, prev := ns.getLastD s, next := s }).setNext
      (ns.getLastD s) a).setPrev s a) s a ns [] xs v (by simpa using hr)
    (by simpa using hd) ha
    (by
      intro x
      simp only [nextOf_setNext, nextOf_setPrev, nextOf_put, live_put, hll,
        Bool.or_true, if_true, List.headD_nil])
    (by
      intro x
      simp only [prevOf_setNext, prevOf_setPrev, prevOf_put, live_put, live_setNext, hsl,
        Bool.or_true, if_true, List.headD_nil])
    (by
      intro x
      simp only [dataOf_setNext, dataOf_setPrev, dataOf_put])
  refine ⟨hrd.1, ?_, ?_, ?_⟩
  · rw [hrd.2, take_drop_all xs v (map_len hd)]
  · intro x
    simp only [live_setPrev, live_setNext, live_put]
  · intro x hx
    have h1 : x ≠ a := fun e => hx (by rw [e]; exact List.mem_cons_self _ _)
    have h2 : x ≠ s := fun e => hx (by rw [e]; simp)
    have h3 : x ≠ ns.getLastD s := fun e => hx (by
      rw [e]
      exact List.mem_cons_of_mem _ (getLastD_mem s ns))
    simp only [Heap.setNext, Heap.setPrev, Heap.put, if_neg h1, if_neg h2, if_neg h3]

theorem fresh_after_alloc {st : Mem α} {h1 : Heap α} {L : Ref → ListObj} (hf : Fresh st)
    (hl : ∀ x, (h1 x).isSome = (decide (x = st.brk) || (st.nodes x).isSome)) :
    Fresh (Mem.mk h1 (st.brk + 1) L) := by
  refine hf.mono ?_ (Nat.le_succ _)
  intro a ha
  rw [hl] at ha
  simp only [Bool.or_eq_true, decide_eq_true_eq] at ha
  rcases ha with h0 | h0
  · right; rw [h0]; exact Nat.lt_succ_self _
  · left; exact h0

theorem List__initWithValues_run {st : Mem α} {l : Ref} {ns : List Ptr} (v : α)
    (hr : Ring st.nodes (st.lists l).m_sentinel ns) :
    List__initWithValues l (ns.getLastD (st.lists l).m_sentinel) v st =
      .ret st.brk (Mem.mk
        (((st.nodes.put st.brk
          (Node.mk v (ns.getLastD (st.lists l).m_sentinel) (st.lists l).m_sentinel)).setNext
          (ns.getLastD (st.lists l).m_sentinel) st.brk).setPrev (st.lists l).m_sentinel st.brk)
        (st.brk + 1) st.lists) := by
  set s := (st.lists l).m_sentinel with hs
  have hlast := hr.last
  have hsl := live_of_prev hlast.2
  have hll := live_of_next hlast.1
  have e2 := storeNext_run (S := Mem.mk
    (st.nodes.put st.brk { data := v, prev := ns.getLastD s, next := s }) (st.brk + 1) st.lists)
    (a := ns.getLastD s) st.brk (by simp only [live_put, hll, Bool.or_true])
  have e3 := storePrev_run (S := Mem.mk
    ((st.nodes.put st.brk { data := v, prev := ns.getLastD s, next := s }).setNext
      (ns.getLastD s) st.brk) (st.brk + 1) st.lists)
    (a := s) st.brk (by simp only [live_setNext, live_put, hsl, Bool.or_true])
  simp only [List__initWithValues, Prog.bind_run, Prog.bind, getSentinel_run, newNode_run,
    e2, e3, Prog.pure_run, ← hs]

theorem List_pushBack_repr {st : Mem α} {l : Ref} {ns : List Ptr} {xs : List α} (v : α)
    (hf : Fresh st) (hR : Repr st l ns xs) :
    ∃ st1, List_pushBack l v st = .ret () st1 ∧ Repr st1 l (ns ++ [st.brk]) (xs ++ [v]) ∧
      Fresh st1 ∧ st1.brk = st.brk + 1 ∧
      (st1.lists l).m_sentinel = (st.lists l).m_sentinel ∧
      (∀ r, r ≠ l → st1.lists r = st.lists r) ∧
      (∀ x, x ∉ st.brk :: (st.lists l).m_sentinel :: ns → st1.nodes x = st.nodes x) := by
  obtain ⟨hsz, hr, hd⟩ := hR
  set s := (st.lists l).m_sentinel with hs
  have hfr : st.nodes st.brk = none := hf _ (le_refl _)
  obtain ⟨hr1, hd1, hl1, hn1⟩ := ring_push_back_heap v hr hd hfr
  have hlast := hr.last
  have hsl := live_of_prev hlast.2
  have hll := live_of_next hlast.1
  have e2 := storeNext_run (S := Mem.mk
    (st.nodes.put st.brk { data := v, prev := ns.getLastD s, next := s }) (st.brk + 1) st.lists)
    (a := ns.getLastD s) st.brk (by simp only [live_put, hll, Bool.or_true])
  have e3 := storePrev_run (S := Mem.mk
    ((st.nodes.put st.brk { data := v, prev := ns.getLastD s, next := s }).setNext
      (ns.getLastD s) st.brk) (st.brk + 1) st.lists)
    (a := s) st.brk (by simp only [live_setNext, live_put, hsl, Bool.or_true])
  refine ⟨Mem.mk (((st.nodes.put st.brk { data := v, prev := ns.getLastD s, next := s }).setNext
        (ns.getLastD s) st.brk).setPrev s st.brk) (st.brk + 1)
      (fun r => if r = l then { st.lists l with m_size := (st.lists l).m_size + 1 }
        else st.lists r), ?_, ⟨?_, ?_, ?_⟩, ?_, rfl, ?_, ?_, hn1⟩
  · simp only [List_pushBack, Prog.bind_run, Prog.bind, getSentinel_run, getPrev_run hlast.2,
      newNode_run, e2, e3, getSize_run, setSize_run, ← hs]
  · simp only [if_true, hsz, List.length_append, List.length_singleton]
  · simp only [if_true]
    exact hr1
  · exact hd1
  · exact fresh_after_alloc hf hl1
  · simp only [if_true]
  · intro r hr1
    simp only [if_neg hr1]

end PushPopLemmas

section PopLemmas
variable {α : Type}

/-- Abstract effect of detaching and freeing the block `f :: B`. -/
theorem ring_data_erase {h h1 h2 : Heap α} {s f : Ptr} {A B C : List Ptr} {xs : List α}
    (hr : Ring h s (A ++ (f :: B ++ C)))
    (hd : (A ++ (f :: B ++ C)).map (dataOf h) = xs.map some)
    (hn : ∀ x, nextOf h1 x = if x = A.getLastD s then some (C.headD s) else nextOf h x)
    (hp : ∀ x, prevOf h1 x = if x = C.headD s then some (A.getLastD s) else prevOf h x)
    (hn2 : ∀ x, x ∉ f :: B → nextOf h2 x = nextOf h1 x)
    (hp2 : ∀ x, x ∉ f :: B → prevOf h2 x = prevOf h1 x)
    (hd2 : ∀ x, x ∉ f :: B → dataOf h2 x = dataOf h x) :
    Ring h2 s (A ++ C) ∧
      (A ++ C).map (dataOf h2) = (xs.take A.length ++ xs.drop (A.length + (B.length + 1))).map
        some := by
  obtain ⟨-, -, hdB⟩ := nodup_block.mp (show (s :: (A ++ (f :: B ++ C))).Nodup from hr.1)
  have hun := ring_unlink hr hn hp
  refine ⟨hun.1.frame ?_ ?_, ?_⟩
  · intro x hx
    exact hn2 x (fun hm => hdB x hm hx)
  · intro x hx
    exact hp2 x (fun hm => hdB x hm hx)
  · have hd1 := map_split hd
    have hd3 := map_split (A := f :: B) (C := C) (X := xs.drop A.length) hd1.2
    simp only [List.map_append]
    congr 1
    · rw [← hd1.1]
      refine List.map_congr_left (fun x hx => ?_)
      exact hd2 x (fun hm => hdB x hm (List.mem_cons_of_mem _ (List.mem_append_left _ hx)))
    · have e : xs.drop (A.length + (B.length + 1)) = (xs.drop A.length).drop (f :: B).length := by
        simp [List.drop_drop, Nat.add_comm]
      rw [e, ← hd3.2]
      refine List.map_congr_left (fun x hx => ?_)
      exact hd2 x (fun hm => hdB x hm (List.mem_cons_of_mem _ (List.mem_append_right _ hx)))

theorem List_empty_run (st : Mem α) (l : Ref) :
    List_empty l st = .ret (decide ((st.lists l).m_size = 0)) st := by
  simp [List_empty, Prog.bind]

theorem List_popFront_repr {st : Mem α} {l : Ref} {a : Ptr} {C : List Ptr} {xs : List α}
    (hR : Repr st l (a :: C) xs) :
    ∃ st1, List_popFront l st = .ret () st1 ∧ Repr st1 l C (xs.drop 1) ∧
      st1.brk = st.brk ∧ (∀ b, (st1.nodes b).isSome → (st.nodes b).isSome) ∧
      (st1.lists l).m_sentinel = (st.lists l).m_sentinel ∧
      (∀ r, r ≠ l → st1.lists r = st.lists r) ∧
      (∀ x, x ∉ (st.lists l).m_sentinel :: a :: C → st1.nodes x = st.nodes x) := by
  have hR0 := hR
  obtain ⟨hsz, hr, hd⟩ := hR
  set s := (st.lists l).m_sentinel with hs
  have hfirst : Linked st.nodes s a := hr.first
  have hnx : nextOf st.nodes a = some (C.headD s) := hR0.next_at (A := [])
  have hsl := live_of_next hfirst.1
  have hal := live_of_next hnx
  have hr' : Ring st.nodes s ([] ++ (a :: [] ++ C)) := by simpa using hr
  obtain ⟨-, hlkl, -⟩ := hr'.block
  have hll := live_of_prev hlkl.2
  have hne : (st.lists l).m_size ≠ 0 := by rw [hsz]; simp
  have e1 := getNext_run hfirst.1
  have e2 := getNext_run hnx
  have e3 := storeNext_run (S := st) (a := s) (C.headD s) hsl
  have e4 := storePrev_run (S := Mem.mk (st.nodes.setNext s (C.headD s)) st.brk st.lists)
    (a := C.headD s) s (by simp only [live_setNext]; exact hll)
  have e5 := deleteNode_run (S := Mem.mk
    ((st.nodes.setNext s (C.headD s)).setPrev (C.headD s) s) st.brk st.lists) (a := a)
    (by simp only [live_setPrev, live_setNext]; exact hal)
  have hrd := @ring_data_erase α st.nodes
    ((st.nodes.setNext s (C.headD s)).setPrev (C.headD s) s)
    (((st.nodes.setNext s (C.headD s)).setPrev (C.headD s) s).free a) s a [] [] C xs
    (by simpa using hr) (by simpa using hd)
    (by intro x; simp only [List.getLastD_nil, nextOf_setPrev, nextOf_setNext, hsl, if_true])
    (by
      intro x
      simp only [List.getLastD_nil, prevOf_setPrev, prevOf_setNext, live_setNext, hll, if_true])
    (by
      intro x hx
      have : x ≠ a := fun e => hx (by simp [e])
      simp only [nextOf_free, if_neg this])
    (by
      intro x hx
      have : x ≠ a := fun e => hx (by simp [e])
      simp only [prevOf_free, if_neg this])
    (by
      intro x hx
      have : x ≠ a := fun e => hx (by simp [e])
      simp only [dataOf_free, dataOf_setPrev, dataOf_setNext, if_neg this])
  refine ⟨Mem.mk (((st.nodes.setNext s (C.headD s)).setPrev (C.headD s) s).free a) st.brk
      (fun r => if r = l then { st.lists l with m_size := wrapSub (st.lists l).m_size 1 }
        else st.lists r), ?_, ⟨?_, ?_, ?_⟩, rfl, ?_, ?_, ?_, ?_⟩
  · simp only [List_popFront, Prog.bind_run, Prog.bind, List_empty_run, hne, decide_False,
      Bool.false_eq_true, if_false, Prog.pure_run, getSentinel_run, e1, e2, e3, e4, e5,
      getSize_run, setSize_run, ← hs]
  · simp only [if_true, hsz, List.length_cons]
    rw [wrapSub_of_le (by omega)]
    omega
  · simp only [if_true]
    simpa using hrd.1
  · simpa using hrd.2
  · intro b hb
    simp only [live_free, live_setPrev, live_setNext, Bool.and_eq_true] at hb
    exact hb.2
  · simp only [if_true]
  · intro r hr1
    simp only [if_neg hr1]
  · intro x hx
    have h1 : x ≠ a := fun e => hx (by rw [e]; simp)
    have h2 : x ≠ s := fun e => hx (by rw [e]; simp)
    have h3 : x ≠ C.headD s := fun e => hx (by
      rw [e]
      have := headD_mem s C
      simp only [List.mem_cons, List.mem_append, List.mem_singleton] at this ⊢
      tauto)
    simp only [Heap.free, Heap.setNext, Heap.setPrev, if_neg h1, if_neg h2, if_neg h3]

theorem getLastD_snoc (s a : Ptr) (A : List Ptr) : (A ++ [a]).getLastD s = a := by
  induction A generalizing s with
  | nil => rfl
  | cons b A ih => simp only [List.cons_append, List.getLastD_cons, ih]

theorem List_popBack_repr {st : Mem α} {l : Ref} {a : Ptr} {A : List Ptr} {xs : List α}
    (hR : Repr st l (A ++ [a]) xs) :
    ∃ st1, List_popBack l st = .ret () st1 ∧ Repr st1 l A (xs.take A.length) ∧
      st1.brk = st.brk ∧ (∀ b, (st1.nodes b).isSome → (st.nodes b).isSome) ∧
      (st1.lists l).m_sentinel = (st.lists l).m_sentinel ∧
      (∀ r, r ≠ l → st1.lists r = st.lists r) ∧
      (∀ x, x ∉ (st.lists l).m_sentinel :: (A ++ [a]) → st1.nodes x = st.nodes x) := by
  obtain ⟨hsz, hr, hd⟩ := hR
  set s := (st.lists l).m_sentinel with hs
  have hlast : Linked st.nodes a s := by
    have := hr.last
    rwa [getLastD_snoc] at this
  have hr' : Ring st.nodes s (A ++ (a :: [] ++ [])) := by simpa using hr
  obtain ⟨hlkf, -, -⟩ := hr'.block
  have hsl := live_of_prev hlast.2
  have hal := live_of_next hlast.1
  have hnl := live_of_next hlkf.1
  have hne : (st.lists l).m_size ≠ 0 := by rw [hsz]; simp
  have e1 := getPrev_run hlast.2
  have e2 := getPrev_run hlkf.2
  have e3 := storePrev_run (S := st) (a := s) (A.getLastD s) hsl
  have e4 := storeNext_run (S := Mem.mk (st.nodes.setPrev s (A.getLastD s)) st.brk st.lists)
    (a := A.getLastD s) s (by simp only [live_setPrev]; exact hnl)
  have e5 := deleteNode_run (S := Mem.mk
    ((st.nodes.setPrev s (A.getLastD s)).setNext (A.getLastD s) s) st.brk st.lists) (a := a)
    (by simp only [live_setPrev, live_setNext]; exact hal)
  have hrd := @ring_data_erase α st.nodes
    ((st.nodes.setPrev s (A.getLastD s)).setNext (A.getLastD s) s)
    (((st.nodes.setPrev s (A.getLastD s)).setNext (A.getLastD s) s).free a) s a A [] [] xs
    (by simpa using hr) (by simpa using hd)
    (by
      intro x
      simp only [List.headD_nil, nextOf_setPrev, nextOf_setNext, live_setPrev, hnl, if_true])
    (by
      intro x
      simp only [List.headD_nil, prevOf_setPrev, prevOf_setNext, hsl, if_true])
    (by
      intro x hx
      have : x ≠ a := fun e => hx (by simp [e])
      simp only [nextOf_free, if_neg this])
    (by
      intro x hx
      have : x ≠ a := fun e => hx (by simp [e])
      simp only [prevOf_free, if_neg this])
    (by
      intro x hx
      have : x ≠ a := fun e => hx (by simp [e])
      simp only [dataOf_free, dataOf_setPrev, dataOf_setNext, if_neg this])
  have hlen := map_len hd
  refine ⟨Mem.mk (((st.nodes.setPrev s (A.getLastD s)).setNext (A.getLastD s) s).free a) st.brk
      (fun r => if r = l then { st.lists l with m_size := wrapSub (st.lists l).m_size 1 }
        else st.lists r), ?_, ⟨?_, ?_, ?_⟩, rfl, ?_, ?_, ?_, ?_⟩
  · simp only [List_popBack, Prog.bind_run, Prog.bind, List_empty_run, hne, decide_False,
      Bool.false_eq_true, if_false, Prog.pure_run, getSentinel_run, e1, e2, e3, e4, e5,
      getSize_run, setSize_run, ← hs]
  · simp only [if_true, hsz, List.length_append, List.length_singleton]
    rw [wrapSub_of_le (by omega)]
    omega
  · simp only [if_true]
    simpa using hrd.1
  · have := hrd.2
    simp only [List.append_nil, List.length_nil, Nat.zero_add] at this
    rw [this]
    congr 1
    simp only [List.length_append, List.length_singleton] at hlen
    rw [List.drop_eq_nil_of_le (by omega)]
    simp
  · intro b hb
    simp only [live_free, live_setPrev, live_setNext, Bool.and_eq_true] at hb
    exact hb.2
  · simp only [if_true]
  · intro r hr1
    simp only [if_neg hr1]
  · intro x hx
    have h1 : x ≠ a := fun e => hx (by rw [e]; simp)
    have h2 : x ≠ s := fun e => hx (by rw [e]; simp)
    have h3 : x ≠ A.getLastD s := fun e => hx (by
      rw [e]
      have := getLastD_mem s A
      simp only [List.mem_cons, List.mem_append, List.mem_singleton] at this ⊢
      tauto)
    simp only [Heap.free, Heap.setNext, Heap.setPrev, if_neg h1, if_neg h2, if_neg h3]

theorem List_pop_empty {S : Mem α} {l : Ref} (hz : (S.lists l).m_size = 0) :
    List_popFront l S = .ret () S ∧ List_popBack l S = .ret () S := by
  constructor
  · simp [List_popFront, Prog.bind, List_empty_run, hz]
  · simp [List_popBack, Prog.bind, List_empty_run, hz]

end PopLemmas

section ClearLemmas
variable {α : Type}

theorem List_clearLoop_run (l : Ref) :
    ∀ (B : List Ptr) (fuel : Nat) (st : Mem α),
      List.Chain' (fun a b => nextOf st.nodes a = some b) (B ++ [(st.lists l).m_sentinel]) →
      B.Nodup → (st.lists l).m_sentinel ∉ B → B.length < fuel →
      List_clearLoop l fuel (B.headD (st.lists l).m_sentinel) st =
        .ret () (Mem.mk (B.foldl Heap.free st.nodes) st.brk st.lists) := by
  intro B
  induction B with
  | nil =>
    intro fuel st _ _ _ hfuel
    obtain ⟨k, rfl⟩ : ∃ k, fuel = k + 1 := ⟨fuel - 1, by simp at hfuel; omega⟩
    simp [List_clearLoop, Prog.bind]
  | cons b B ih =>
    intro fuel st hc hnd hs hfuel
    obtain ⟨k, rfl⟩ : ∃ k, fuel = k + 1 := ⟨fuel - 1, by simp at hfuel; omega⟩
    have hne : b ≠ (st.lists l).m_sentinel := fun e => hs (by simp [e])
    obtain ⟨hnx, hc2⟩ := chain_cons_snoc hc
    have hlb := live_of_next hnx
    have hbB : b ∉ B := (List.nodup_cons.mp hnd).1
    have hc3 : List.Chain' (fun a c => nextOf (st.nodes.free b) a = some c)
        (B ++ [(st.lists l).m_sentinel]) := by
      refine next_chain_congr hc2 ?_
      intro x hx
      rw [List.dropLast_concat] at hx
      have : x ≠ b := fun e => hbB (e ▸ hx)
      simp only [nextOf_free, if_neg this]
    have := ih k (Mem.mk (st.nodes.free b) st.brk st.lists) hc3 (List.nodup_cons.mp hnd).2
      (fun hm => hs (List.mem_cons_of_mem _ hm)) (by simp at hfuel ⊢; omega)
    simp only [List_clearLoop, Prog.bind_run, Prog.bind, getSentinel_run, List.headD_cons, hne,
      if_false, Prog.pure_run, getNext_run hnx, deleteNode_run hlb]
    exact this

theorem List_clear_repr {st : Mem α} {l : Ref} {ns : List Ptr} {xs : List α}
    (fuel : Nat) (hR : Repr st l ns xs) (hfuel : ns.length < fuel) :
    ∃ st1, List_clear fuel l st = .ret () st1 ∧ Repr st1 l [] [] ∧
      st1.brk = st.brk ∧ (∀ b, (st1.nodes b).isSome → (st.nodes b).isSome) ∧
      (st1.lists l).m_sentinel = (st.lists l).m_sentinel ∧
      (∀ r, r ≠ l → st1.lists r = st.lists r) ∧
      (∀ x, x ∉ (st.lists l).m_sentinel :: ns → st1.nodes x = st.nodes x) ∧
      (∀ x ∈ ns, st1.nodes x = none) := by
  obtain ⟨hsz, hr, hd⟩ := hR
  set s := (st.lists l).m_sentinel with hs
  have hfirst := hr.first
  have hsl := live_of_next hfirst.1
  have hsn : s ∉ ns := (List.nodup_cons.mp hr.1).1
  have hc : List.Chain' (fun a b => nextOf st.nodes a = some b) (ns ++ [s]) := by
    have := next_chain_of_linked hr.2
    rw [List.cons_append, List.chain'_cons'] at this
    exact this.2
  have e1 := getNext_run hfirst.1
  have e2 := List_clearLoop_run l ns fuel st hc (List.nodup_cons.mp hr.1).2 hsn hfuel
  have hsl2 : ((ns.foldl Heap.free st.nodes) s).isSome := by
    rw [live_foldl_free]
    simp [hsn, hsl]
  have e3 := storeNext_run (S := Mem.mk (ns.foldl Heap.free st.nodes) st.brk st.lists)
    (a := s) s hsl2
  have e4 := storePrev_run
    (S := Mem.mk ((ns.foldl Heap.free st.nodes).setNext s s) st.brk st.lists)
    (a := s) s (by simp only [live_setNext]; exact hsl2)
  refine ⟨Mem.mk (((ns.foldl Heap.free st.nodes).setNext s s).setPrev s s) st.brk
      (fun r => if r = l then { st.lists l with m_size := 0 } else st.lists r),
      ?_, ⟨?_, ⟨?_, ?_⟩, ?_⟩, rfl, ?_, ?_, ?_, ?_, ?_⟩
  · simp only [List_clear, Prog.bind_run, Prog.bind, getSentinel_run, e1, e2, e3, e4,
      setSize_run, ← hs]
  · simp only [if_true, List.length_nil]
  · simp
  · simp only [if_true, List.cons_append, List.nil_append, List.chain'_cons,
      List.chain'_singleton, and_true]
    exact ⟨by simp only [nextOf_setPrev, nextOf_setNext, if_true, hsl2],
      by simp only [prevOf_setPrev, live_setNext, if_true, hsl2]⟩
  · simp
  · intro b hb
    simp only [live_setPrev, live_setNext, live_foldl_free, Bool.and_eq_true] at hb
    exact hb.2
  · simp only [if_true]
  · intro r hr1
    simp only [if_neg hr1]
  · intro x hx
    have h1 : x ≠ s := fun e => hx (by rw [e]; simp)
    have h2 : x ∉ ns := fun hm => hx (List.mem_cons_of_mem _ hm)
    have key : ∀ (L : List Ptr) (h : Heap α), x ∉ L → (L.foldl Heap.free h) x = h x := by
      intro L
      induction L with
      | nil => intro h _; rfl
      | cons a L ih =>
        intro h hx
        rw [List.foldl_cons, ih _ (fun hm => hx (List.mem_cons_of_mem _ hm))]
        have : x ≠ a := fun e => hx (by simp [e])
        simp [Heap.free, this]
    simp only [Heap.setNext, Heap.setPrev, if_neg h1]
    exact key _ _ h2
  · intro x hx
    have h1 : x ≠ s := fun e => hsn (e ▸ hx)
    have := live_foldl_free st.nodes ns x
    simp only [hx, decide_True, Bool.not_true, Bool.false_and] at this
    simp only [Heap.setNext, Heap.setPrev, if_neg h1]
    cases hx2 : List.foldl Heap.free st.nodes ns x with
    | none => rfl
    | some n => rw [hx2] at this; simp at this

theorem List_ctor_repr [Inhabited α] {st : Mem α} (l : Ref) (hf : Fresh st) :
    ∃ st1, List_ctor l st = .ret () st1 ∧ Repr st1 l [] [] ∧ Fresh st1 ∧
      st1.brk = st.brk + 1 ∧ (st1.lists l).m_sentinel = st.brk ∧
      (∀ r, r ≠ l → st1.lists r = st.lists r) ∧
      (∀ x, x ≠ st.brk → st1.nodes x = st.nodes x) := by
  refine ⟨Mem.mk (st.nodes.put st.brk (Node.mk default st.brk st.brk)) (st.brk + 1)
      (fun r => if r = l then ListObj.mk st.brk 0 else st.lists r),
      ?_, ⟨?_, ⟨?_, ?_⟩, ?_⟩, ?_, rfl, ?_, ?_, ?_⟩
  · simp only [List_ctor, Prog.bind_run, Prog.bind, setSize_run, newSentinel, setSentinel_run]
    congr 1
    congr 1
    funext r
    by_cases hr : r = l <;> simp [hr]
  · simp
  · simp
  · simp only [if_true, List.cons_append, List.nil_append, List.chain'_cons,
      List.chain'_singleton, and_true]
    exact ⟨by simp only [nextOf_put, if_true], by simp only [prevOf_put, if_true]⟩
  · simp
  · exact fresh_after_alloc hf (by intro x; simp only [live_put])
  · simp
  · intro r hr
    simp only [if_neg hr]
  · intro x hx
    simp only [Heap.put, if_neg hx]

end ClearLemmas

section CtorLemmas
variable {α : Type}

theorem List_initLoop_ring (l : Ref) :
    ∀ (items : List α) (ns : List Ptr) (xs : List α) (st : Mem α),
      Fresh st → Ring st.nodes (st.lists l).m_sentinel ns →
      ns.map (dataOf st.nodes) = xs.map some →
      ∃ (h1 : Heap α) (ns1 : List Ptr),
        List_initLoop l items (ns.getLastD (st.lists l).m_sentinel) st =
          .ret (ns1.getLastD (st.lists l).m_sentinel)
            (Mem.mk h1 (st.brk + items.length) st.lists) ∧
        Ring h1 (st.lists l).m_sentinel ns1 ∧
        ns1.map (dataOf h1) = (xs ++ items).map some ∧
        ns1.length = ns.length + items.length ∧
        Fresh (Mem.mk h1 (st.brk + items.length) st.lists) ∧
        (∀ x, x < st.brk → x ∉ (st.lists l).m_sentinel :: ns → h1 x = st.nodes x) ∧
        (∀ x ∈ ns1, x ∈ ns ∨ st.brk ≤ x) := by
  intro items
  induction items with
  | nil =>
    intro ns xs st hf hr hd
    exact ⟨st.nodes, ns, by simp [List_initLoop], hr, by simpa using hd, by simp, hf,
      fun _ _ _ => rfl, fun x hx => Or.inl hx⟩
  | cons v items ih =>
    intro ns xs st hf hr hd
    have hfr : st.nodes st.brk = none := hf _ (le_refl _)
    obtain ⟨hr1, hd1, hl1, hn1⟩ := ring_push_back_heap v hr hd hfr
    have e1 := List__initWithValues_run v hr
    have hf1 := fresh_after_alloc (L := st.lists) hf hl1
    obtain ⟨h2, ns2, e2, hr2, hd2, hlen2, hf2, hn2, hm2⟩ := ih (ns ++ [st.brk]) (xs ++ [v])
      (Mem.mk _ (st.brk + 1) st.lists) hf1 hr1 hd1
    have hbrk : st.brk + 1 + items.length = st.brk + (v :: items).length := by
      rw [List.length_cons, Nat.add_assoc, Nat.add_comm 1]
    refine ⟨h2, ns2, ?_, hr2, ?_, ?_, ?_, ?_, ?_⟩
    · simp only [List_initLoop, Prog.bind_run, Prog.bind, e1]
      rw [getLastD_snoc] at e2
      rw [← hbrk]
      exact e2
    · simpa using hd2
    · rw [hlen2, List.length_append, List.length_singleton, List.length_cons, Nat.add_assoc,
        Nat.add_comm 1]
    · rw [← hbrk]; exact hf2
    · intro x hx hxn
      rw [hn2 x (Nat.lt_succ_of_lt hx) (by
        intro hm
        simp only [List.mem_cons, List.mem_append, List.not_mem_nil, or_false] at hm hxn
        rcases hm with h0 | h0 | h0
        · exact hxn (Or.inl h0)
        · exact hxn (Or.inr h0)
        · rw [h0] at hx; exact absurd hx (lt_irrefl _))]
      refine hn1 x ?_
      intro hm
      simp only [List.mem_cons] at hm hxn
      rcases hm with h0 | h0 | h0
      · rw [h0] at hx; exact absurd hx (lt_irrefl _)
      · exact hxn (Or.inl h0)
      · exact hxn (Or.inr h0)
    · intro x hx
      rcases hm2 x hx with h0 | h0
      · rcases List.mem_append.mp h0 with h1 | h1
        · exact Or.inl h1
        · right; rw [List.mem_singleton.mp h1]
      · right; exact Nat.le_of_succ_le h0

theorem List_fillLoop_eq (l : Ref) (v : α) :
    ∀ (n : Nat) (t : Ptr), List_fillLoop l v n t = List_initLoop l (List.replicate n v) t := by
  intro n
  induction n with
  | zero => intro t; rfl
  | succ n ih =>
    intro t
    simp only [List_fillLoop, List.replicate_succ, List_initLoop, ih]

theorem lists_update_twice (ls : Ref → ListObj) (l : Ref) (a b : ListObj) :
    (fun r => if r = l then a else if r = l then b else ls r) =
      (fun r => if r = l then a else ls r) := by
  funext r
  by_cases h : r = l <;> simp [h]

/-- State right after `m_size{n}` and `m_sentinel = new Node{}` in a constructor. -/
theorem ctor_prefix_ring [Inhabited α] {st : Mem α} (l : Ref) (n : Nat) (hf : Fresh st) :
    Ring (st.nodes.put st.brk (Node.mk (default : α) st.brk st.brk)) st.brk [] ∧
      Fresh (Mem.mk (st.nodes.put st.brk (Node.mk (default : α) st.brk st.brk)) (st.brk + 1)
        (fun r => if r = l then ListObj.mk st.brk n else st.lists r)) := by
  refine ⟨⟨by simp, ?_⟩, fresh_after_alloc hf (by intro x; simp only [live_put])⟩
  simp only [List.cons_append, List.nil_append, List.chain'_cons, List.chain'_singleton,
    and_true]
  exact ⟨by simp only [nextOf_put, if_true], by simp only [prevOf_put, if_true]⟩

theorem List_ctor_init_repr [Inhabited α] {st : Mem α} (l : Ref) (list : List α)
    (hf : Fresh st) :
    ∃ st1 ns1, List_ctor_init l list st = .ret () st1 ∧ Repr st1 l ns1 list ∧ Fresh st1 ∧
      (st1.lists l).m_sentinel = st.brk ∧
      (∀ r, r ≠ l → st1.lists r = st.lists r) ∧
      (∀ x, x < st.brk → st1.nodes x = st.nodes x) ∧
      (∀ x ∈ ns1, st.brk < x) := by
  obtain ⟨hr0, hf0⟩ := ctor_prefix_ring l list.length hf
  obtain ⟨h1, ns1, e1, hr1, hd1, hlen1, hf1, hn1, hm1⟩ := List_initLoop_ring l list [] []
    (Mem.mk (st.nodes.put st.brk (Node.mk (default : α) st.brk st.brk)) (st.brk + 1)
      (fun r => if r = l then ListObj.mk st.brk list.length else st.lists r))
    hf0 (by simpa using hr0) (by simp)
  simp only [if_true, List.getLastD_nil] at e1 hr1 hn1
  refine ⟨_, ns1, ?_, ⟨?_, ?_, ?_⟩, hf1, ?_, ?_, ?_, ?_⟩
  · simp only [List_ctor_init, Prog.bind_run, Prog.bind, setSize_run, newSentinel,
      setSentinel_run, getSentinel_run, if_true, Prog.pure_run, lists_update_twice, e1]
  · simp only [if_true]
    simpa using hlen1.symm
  · simp only [if_true]; exact hr1
  · simpa using hd1
  · simp
  · intro r hr
    simp only [if_neg hr]
  · intro x hx
    show h1 x = st.nodes x
    rw [hn1 x (Nat.lt_succ_of_lt hx) (by
      simp only [List.mem_singleton]
      exact fun e => absurd hx (by rw [e]; exact lt_irrefl _))]
    simp only [Heap.put, if_neg (Nat.ne_of_lt hx)]
  · intro x hx
    rcases hm1 x hx with h0 | h0
    · simp at h0
    · exact h0

theorem List_ctor_fill_repr [Inhabited α] {st : Mem α} (l : Ref) (n : Nat) (v : α)
    (hf : Fresh st) :
    ∃ st1 ns1, List_ctor_fill l n v st = .ret () st1 ∧ Repr st1 l ns1 (List.replicate n v) ∧
      Fresh st1 ∧ (st1.lists l).m_sentinel = st.brk ∧
      (∀ r, r ≠ l → st1.lists r = st.lists r) ∧
      (∀ x, x < st.brk → st1.nodes x = st.nodes x) ∧
      (∀ x ∈ ns1, st.brk < x) := by
  obtain ⟨st1, ns1, e1, h1⟩ := List_ctor_init_repr l (List.replicate n v) hf
  refine ⟨st1, ns1, ?_, h1⟩
  rw [← e1]
  simp only [List_ctor_fill, List_ctor_init, Prog.bind_run, Prog.bind, setSize_run, newSentinel,
    setSentinel_run, getSentinel_run, getSize_run, if_true, Prog.pure_run, List_fillLoop_eq,
    List.length_replicate]

end CtorLemmas

section CopyLemmas
variable {α : Type}

theorem Ring.next_mid {h : Heap α} {s a : Ptr} {A C : List Ptr} (hr : Ring h s (A ++ (a :: C))) :
    nextOf h a = some (C.headD s) := by
  have hc := hr.chain.2.1
  have := next_path_of_ring_block (B := []) (C := C) (f := a) (by simpa using hc)
  simpa using this

theorem Ring.of_heap_eq {h h1 : Heap α} {s : Ptr} {ns : List Ptr} (hr : Ring h s ns)
    (he : ∀ x ∈ s :: ns, h1 x = h x) : Ring h1 s ns :=
  hr.frame (fun x hx => by simp only [nextOf, he x hx])
    (fun x hx => by simp only [prevOf, he x hx])

theorem List_copyLoop_ring (this other : Ref) :
    ∀ (R D : List Ptr) (ys : List α) (ns : List Ptr) (xs : List α) (fuel : Nat) (st : Mem α),
      Fresh st → Ring st.nodes (st.lists this).m_sentinel ns →
      ns.map (dataOf st.nodes) = xs.map some →
      Ring st.nodes (st.lists other).m_sentinel (D ++ R) →
      R.map (dataOf st.nodes) = ys.map some →
      (∀ x ∈ (st.lists this).m_sentinel :: ns, x ∉ (st.lists other).m_sentinel :: (D ++ R)) →
      R.length < fuel →
      ∃ (h1 : Heap α) (ns1 : List Ptr),
        List_copyLoop this other fuel (R.headD (st.lists other).m_sentinel)
            (ns.getLastD (st.lists this).m_sentinel) st =
          .ret (ns1.getLastD (st.lists this).m_sentinel)
            (Mem.mk h1 (st.brk + R.length) st.lists) ∧
        Ring h1 (st.lists this).m_sentinel ns1 ∧
        ns1.map (dataOf h1) = (xs ++ ys).map some ∧
        ns1.length = ns.length + R.length ∧
        Fresh (Mem.mk h1 (st.brk + R.length) st.lists) ∧
        (∀ x, x < st.brk → x ∉ (st.lists this).m_sentinel :: ns → h1 x = st.nodes x) ∧
        (∀ x ∈ ns1, x ∈ ns ∨ st.brk ≤ x) := by
  intro R
  induction R with
  | nil =>
    intro D ys ns xs fuel st hf hr hd _ hdy _ hfuel
    obtain ⟨k, rfl⟩ : ∃ k, fuel = k + 1 := ⟨fuel - 1, by simp at hfuel; omega⟩
    have hys : ys = [] := by
      have := map_len hdy
      exact List.eq_nil_of_length_eq_zero this.symm
    subst hys
    refine ⟨st.nodes, ns, ?_, hr, by simpa using hd, by simp, hf, fun _ _ _ => rfl,
      fun x hx => Or.inl hx⟩
    simp [List_copyLoop, List_end, Prog.bind]
  | cons a R ih =>
    intro D ys ns xs fuel st hf hr hd hro hdy hdisj hfuel
    obtain ⟨k, rfl⟩ : ∃ k, fuel = k + 1 := ⟨fuel - 1, by simp at hfuel; omega⟩
    cases ys with
    | nil => exact absurd (map_len hdy) (by simp)
    | cons y ys =>
      set s1 := (st.lists this).m_sentinel with hs1
      set s2 := (st.lists other).m_sentinel with hs2
      have hne : a ≠ s2 := by
        intro e
        have := (List.nodup_cons.mp hro.1).1
        exact this (by rw [← e]; simp)
      have hdat : dataOf st.nodes a = some y := by
        simp only [List.map_cons, List.cons.injEq] at hdy
        exact hdy.1
      have hdy' : R.map (dataOf st.nodes) = ys.map some := by
        simp only [List.map_cons, List.cons.injEq] at hdy
        exact hdy.2
      have hnx := hro.next_mid
      have hfr : st.nodes st.brk = none := hf _ (le_refl _)
      obtain ⟨hr1, hd1, hl1, hn1⟩ := ring_push_back_heap y hr hd hfr
      have e1 := List__initWithValues_run y hr
      have hf1 := fresh_after_alloc (L := st.lists) hf hl1
      have hother : ∀ x ∈ s2 :: (D ++ a :: R), x ∉ st.brk :: s1 :: ns := by
        intro x hx hm
        rcases List.mem_cons.mp hm with h0 | h0
        · exact hf.ne_of_live (hro.live x hx) h0
        · exact hdisj x h0 hx
      have hro1 := hro.of_heap_eq (fun x hx => hn1 x (hother x hx))
      have ham : a ∈ s2 :: (D ++ a :: R) := by simp
      have hnx1 : nextOf (((st.nodes.put st.brk
          (Node.mk y (ns.getLastD s1) s1)).setNext (ns.getLastD s1) st.brk).setPrev s1 st.brk) a
          = some (R.headD s2) := by
        simp only [nextOf, hn1 a (hother a ham)]
        exact hnx
      have hro2 : Ring (((st.nodes.put st.brk
          (Node.mk y (ns.getLastD s1) s1)).setNext (ns.getLastD s1) st.brk).setPrev s1 st.brk)
          s2 ((D ++ [a]) ++ R) := by simpa using hro1
      obtain ⟨h2, ns2, e2, hr2, hd2, hlen2, hf2, hn2, hm2⟩ := ih (D ++ [a]) ys (ns ++ [st.brk])
        (xs ++ [y]) k (Mem.mk _ (st.brk + 1) st.lists) hf1 hr1 hd1 hro2
        (by
          rw [← hdy']
          refine List.map_congr_left (fun x hx => ?_)
          simp only [dataOf, hn1 x (hother x (by simp [hx]))])
        (by
          intro x hx hx2
          have hx2' : x ∈ s2 :: (D ++ a :: R) := by simpa using hx2
          simp only [List.mem_cons, List.mem_append, List.not_mem_nil, or_false] at hx
          rcases hx with h0 | h0 | h0
          · exact hdisj x (by rw [h0]; simp) hx2'
          · exact hdisj x (List.mem_cons_of_mem _ h0) hx2'
          · exact hf.ne_of_live (hro.live x hx2') h0)
        (by simp at hfuel ⊢; omega)
      have hbrk : st.brk + 1 + R.length = st.brk + (a :: R).length := by
        rw [List.length_cons, Nat.add_assoc, Nat.add_comm 1]
      refine ⟨h2, ns2, ?_, hr2, ?_, ?_, ?_, ?_, ?_⟩
      · simp only [List_copyLoop, List_end, Prog.bind_run, Prog.bind, getSentinel_run,
          List.headD_cons, ← hs2, hne, if_false, Prog.pure_run, getData_run hdat, e1]
        rw [getNext_run hnx1]
        rw [getLastD_snoc] at e2
        rw [← hbrk]
        exact e2
      · simpa using hd2
      · rw [hlen2, List.length_append, List.length_singleton, List.length_cons, Nat.add_assoc,
          Nat.add_comm 1]
      · rw [← hbrk]; exact hf2
      · intro x hx hxn
        rw [hn2 x (Nat.lt_succ_of_lt hx) (by
          intro hm
          simp only [List.mem_cons, List.mem_append, List.not_mem_nil, or_false] at hm hxn
          rcases hm with h0 | h0 | h0
          · exact hxn (Or.inl h0)
          · exact hxn (Or.inr h0)
          · rw [h0] at hx; exact absurd hx (lt_irrefl _))]
        refine hn1 x ?_
        intro hm
        simp only [List.mem_cons] at hm hxn
        rcases hm with h0 | h0 | h0
        · rw [h0] at hx; exact absurd hx (lt_irrefl _)
        · exact hxn (Or.inl h0)
        · exact hxn (Or.inr h0)
      · intro x hx
        rcases hm2 x hx with h0 | h0
        · rcases List.mem_append.mp h0 with h1 | h1
          · exact Or.inl h1
          · right; rw [List.mem_singleton.mp h1]
        · right; exact Nat.le_of_succ_le h0

theorem Repr.of_heap_agree {st st1 : Mem α} {l : Ref} {ns : List Ptr} {xs : List α}
    (hR : Repr st l ns xs) (hl : st1.lists l = st.lists l)
    (he : ∀ x ∈ (st.lists l).m_sentinel :: ns, st1.nodes x = st.nodes x) : Repr st1 l ns xs := by
  obtain ⟨hsz, hr, hd⟩ := hR
  refine ⟨by rw [hl]; exact hsz, by rw [hl]; exact hr.of_heap_eq he, ?_⟩
  rw [← hd]
  refine List.map_congr_left (fun x hx => ?_)
  simp only [dataOf, he x (List.mem_cons_of_mem _ hx)]

theorem List_ctor_copy_repr [Inhabited α] {st : Mem α} {this other : Ref} {ms : List Ptr}
    {ys : List α} (fuel : Nat) (hf : Fresh st) (hne : this ≠ other)
    (hR : Repr st other ms ys) (hfuel : ms.length < fuel) :
    ∃ st1 ns1, List_ctor_copy fuel this other st = .ret () st1 ∧
      Repr st1 this ns1 ys ∧ Repr st1 other ms ys ∧ Fresh st1 ∧
      (st1.lists this).m_sentinel = st.brk ∧
      (∀ r, r ≠ this → st1.lists r = st.lists r) ∧
      (∀ x, x < st.brk → st1.nodes x = st.nodes x) ∧
      (∀ x ∈ ns1, st.brk < x) := by
  have hR0 := hR
  obtain ⟨hsz, hr, hd⟩ := hR
  set s2 := (st.lists other).m_sentinel with hs2
  obtain ⟨hr0, hf0⟩ := ctor_prefix_ring (α := α) this (st.lists other).m_size hf
  have hlive := hr.live
  have hnb : ∀ x ∈ s2 :: ms, x ≠ st.brk := fun x hx => hf.ne_of_live (hlive x hx)
  have hro : Ring (st.nodes.put st.brk (Node.mk (default : α) st.brk st.brk)) s2 ([] ++ ms) := by
    rw [List.nil_append]
    refine hr.of_heap_eq ?_
    intro x hx
    simp only [Heap.put, if_neg (hnb x hx)]
  have hl2 : (if other = this then ListObj.mk st.brk (st.lists other).m_size
      else st.lists other) = st.lists other := by
    rw [if_neg (Ne.symm hne)]
  obtain ⟨h1, ns1, e1, hr1, hd1, hlen1, hf1, hn1, hm1⟩ := List_copyLoop_ring this other ms [] ys
    [] [] fuel
    (Mem.mk (st.nodes.put st.brk (Node.mk (default : α) st.brk st.brk)) (st.brk + 1)
      (fun r => if r = this then ListObj.mk st.brk (st.lists other).m_size else st.lists r))
    hf0 (by simpa using hr0) (by simp)
    (by simp only [hl2]; exact hro)
    (by
      rw [← hd]
      refine List.map_congr_left (fun x hx => ?_)
      simp only [dataOf, Heap.put, if_neg (hnb x (List.mem_cons_of_mem _ hx))])
    (by
      intro x hx hx2
      simp only [if_true, List.mem_singleton] at hx
      simp only [hl2, List.nil_append] at hx2
      exact hnb x hx2 hx)
    hfuel
  simp only [if_true, List.getLastD_nil, hl2] at e1 hr1 hn1
  have hfirst := hr.first
  have hbeg : nextOf (st.nodes.put st.brk (Node.mk (default : α) st.brk st.brk)) s2 =
      some (ms.headD s2) := by
    have := hnb s2 (List.mem_cons_self _ _)
    simp only [nextOf_put, if_neg this]
    exact hfirst.1
  have hbeg' := getNext_run (S := Mem.mk
      (st.nodes.put st.brk (Node.mk (default : α) st.brk st.brk)) (st.brk + 1)
      (fun r => if r = this then ListObj.mk st.brk (st.lists other).m_size else st.lists r)) hbeg
  refine ⟨_, ns1, ?_, ⟨?_, ?_, ?_⟩, ?_, hf1, ?_, ?_, ?_, ?_⟩
  · simp only [List_ctor_copy, List_begin, Prog.bind_run, Prog.bind, setSize_run, newSentinel,
      setSentinel_run, getSentinel_run, getSize_run, if_true, Prog.pure_run, lists_update_twice,
      hl2, ← hs2, hbeg', e1]
  · simp only [if_true]
    rw [hlen1, hsz]; simp
  · simp only [if_true]; exact hr1
  · simpa using hd1
  · refine hR0.of_heap_agree ?_ ?_
    · simp only [if_neg (Ne.symm hne)]
    · intro x hx
      show h1 x = st.nodes x
      rw [hn1 x (Nat.lt_succ_of_lt (hf.lt_of_live (hlive x hx))) (by
        simp only [List.mem_singleton]
        exact hnb x hx)]
      simp only [Heap.put, if_neg (hnb x hx)]
  · simp
  · intro r hr
    simp only [if_neg hr]
  · intro x hx
    show h1 x = st.nodes x
    rw [hn1 x (Nat.lt_succ_of_lt hx) (by
      simp only [List.mem_singleton]
      exact fun e => absurd hx (by rw [e]; exact lt_irrefl _))]
    simp only [Heap.put, if_neg (Nat.ne_of_lt hx)]
  · intro x hx
    rcases hm1 x hx with h0 | h0
    · simp at h0
    · exact h0

theorem List_ctor_move_repr [Inhabited α] {st : Mem α} {this other : Ref} {ms : List Ptr}
    {ys : List α} (hf : Fresh st) (hne : this ≠ other) (hR : Repr st other ms ys) :
    ∃ st1, List_ctor_move this other st = .ret () st1 ∧
      Repr st1 this ms ys ∧ Repr st1 other [] [] ∧ Fresh st1 ∧
      (st1.lists this).m_sentinel = (st.lists other).m_sentinel ∧
      (st1.lists other).m_sentinel = st.brk ∧
      (∀ r, r ≠ this → r ≠ other → st1.lists r = st.lists r) ∧
      (∀ x, x ≠ st.brk → st1.nodes x = st.nodes x) := by
  obtain ⟨hsz, hr, hd⟩ := hR
  set s2 := (st.lists other).m_sentinel with hs2
  obtain ⟨hr0, hf0⟩ := ctor_prefix_ring (α := α) other 0 hf
  have hlive := hr.live
  have hnb : ∀ x ∈ s2 :: ms, x ≠ st.brk := fun x hx => hf.ne_of_live (hlive x hx)
  refine ⟨Mem.mk (st.nodes.put st.brk (Node.mk (default : α) st.brk st.brk)) (st.brk + 1)
      (fun r => if r = other then ListObj.mk st.brk 0
        else if r = this then ListObj.mk s2 (st.lists other).m_size else st.lists r),
      ?_, ⟨?_, ?_, ?_⟩, ⟨?_, ?_, ?_⟩, ?_, ?_, ?_, ?_, ?_⟩
  · simp only [List_ctor_move, List_size, Prog.bind_run, Prog.bind, setSize_run, newSentinel,
      setSentinel_run, getSentinel_run, getSize_run, if_true, Prog.pure_run]
    congr 1
    congr 1
    funext r
    by_cases h1 : r = other
    · subst h1; simp [Ne.symm hne]
    · by_cases h2 : r = this
      · subst h2
        have h3 : ¬ other = r := fun e => h1 e.symm
        simp [h1, h3]
      · simp [h1, h2]
  · simp only [if_neg hne, if_true]
    exact hsz
  · simp only [if_neg hne, if_true]
    refine hr.of_heap_eq ?_
    intro x hx
    simp only [Heap.put, if_neg (hnb x hx)]
  · rw [← hd]
    refine List.map_congr_left (fun x hx => ?_)
    simp only [dataOf, Heap.put, if_neg (hnb x (List.mem_cons_of_mem _ hx))]
  · simp
  · simp only [if_true]
    exact hr0
  · simp
  · exact fresh_after_alloc hf (by intro x; simp only [live_put])
  · simp only [if_neg hne, if_true]
  · simp
  · intro r h1 h2
    simp only [if_neg h1, if_neg h2]
  · intro x hx
    simp only [Heap.put, if_neg hx]

theorem List_swap_run (st : Mem α) (this other : Ref) :
    List_swap this other st = .ret () (Mem.mk st.nodes st.brk
      (fun r => if r = other then st.lists this else if r = this then st.lists other
        else st.lists r)) := by
  simp only [List_swap, Prog.bind_run, Prog.bind, setSize_run, setSentinel_run,
    getSentinel_run, getSize_run, if_true, Prog.pure_run]
  congr 1
  congr 1
  funext r
  by_cases h1 : r = other
  · subst h1
    by_cases h2 : r = this
    · subst h2; simp
    · have h3 : ¬ this = r := fun e => h2 e.symm
      simp [h2, h3]
  · by_cases h2 : r = this
    · subst h2
      have h3 : ¬ other = r := fun e => h1 e.symm
      simp [h1, h3]
    · simp [h1, h2]

end CopyLemmas

section VecPrim
variable {α : Type}

@[simp] theorem setBuf_bufs (st : VMem α) (b : Ptr) (o : Option (Block α)) (x : Ptr) :
    (st.setBuf b o).bufs x = if x = b then o else st.bufs x := rfl

@[simp] theorem setBuf_vecs (st : VMem α) (b : Ptr) (o : Option (Block α)) :
    (st.setBuf b o).vecs = st.vecs := rfl

@[simp] theorem setBuf_brk (st : VMem α) (b : Ptr) (o : Option (Block α)) :
    (st.setBuf b o).brk = st.brk := rfl

@[simp] theorem setBuf_avail (st : VMem α) (b : Ptr) (o : Option (Block α)) :
    (st.setBuf b o).avail = st.avail := rfl

@[simp] theorem Block.set_len (blk : Block α) (i : Nat) (o : Option α) :
    (blk.set i o).len = blk.len := rfl

@[simp] theorem Block.set_slot (blk : Block α) (i j : Nat) (o : Option α) :
    (blk.set i o).slot j = if j = i then o else blk.slot j := rfl

theorem moveFrom_run [ValType α] {st : VMem α} {b : Ptr} {blk : Block α} {i : Nat} {v : α}
    (hb : st.bufs b = some blk) (hv : blk.slot i = some v) :
    moveFrom (some b) i st =
      .ret v (st.setBuf b (some (blk.set i (some (ValType.movedFrom v))))) := by
  simp [moveFrom, hb, hv]

theorem readAt_run {st : VMem α} {b : Ptr} {blk : Block α} {i : Nat} {v : α}
    (hb : st.bufs b = some blk) (hv : blk.slot i = some v) :
    readAt (some b) i st = .ret v st := by
  simp [readAt, hb, hv]

theorem constructAt_run {S : VMem α} {b : Ptr} {K : Block α} {i : Nat} (v : α)
    (hb : S.bufs b = some K) (hi : i < K.len) :
    constructAt (some b) i v S = .ret () (S.setBuf b (some (K.set i (some v)))) := by
  simp [constructAt, hb, hi]

theorem assignAt_run {S : VMem α} {b : Ptr} {K : Block α} {i : Nat} {w : α} (v : α)
    (hb : S.bufs b = some K) (hv : K.slot i = some w) :
    assignAt (some b) i v S = .ret () (S.setBuf b (some (K.set i (some v)))) := by
  simp [assignAt, hb, hv]

theorem destroyAt_run {st : VMem α} {b : Ptr} {blk : Block α} {i : Nat} {w : α}
    (hb : st.bufs b = some blk) (hv : blk.slot i = some w) :
    destroyAt (some b) i st = .ret () (st.setBuf b (some (blk.set i none))) := by
  simp [destroyAt, hb, hv]

@[simp] theorem getVec_run (st : VMem α) (v : Ref) : getVec v st = .ret (st.vecs v) st := rfl

/-- Invariant rule for the counting loop: `P k` holds after `k` iterations. -/
theorem forUp_inv {σ : Type} (body : Nat → Prog σ Unit) :
    ∀ (n : Nat) (P : Nat → σ → Prop) (lo : Nat) (s : σ), P 0 s →
      (∀ k s1, k < n → P k s1 → ∃ s2, body (lo + k) s1 = .ret () s2 ∧ P (k + 1) s2) →
      ∃ s2, forUp body n lo s = .ret () s2 ∧ P n s2 := by
  intro n
  induction n with
  | zero =>
    intro P lo s h0 _
    exact ⟨s, rfl, h0⟩
  | succ n ih =>
    intro P lo s h0 hstep
    obtain ⟨s1, e1, h1⟩ := hstep 0 s (Nat.succ_pos _) h0
    obtain ⟨s2, e2, h2⟩ := ih (fun k => P (k + 1)) (lo + 1) s1 h1 (by
      intro k s3 hk hP
      have := hstep (k + 1) s3 (Nat.succ_lt_succ hk) hP
      rwa [show lo + (k + 1) = lo + 1 + k by omega] at this)
    refine ⟨s2, ?_, h2⟩
    simp only [forUp, Prog.bind_run, Prog.bind]
    rw [Nat.add_zero] at e1
    rw [e1]
    exact e2

/-- Invariant rule for the downward loop: `P k` holds after `k` iterations. -/
theorem forDown_inv {σ : Type} (body : Nat → Prog σ Unit) :
    ∀ (n : Nat) (P : Nat → σ → Prop) (hi : Nat) (s : σ), P 0 s →
      (∀ k s1, k < n → P k s1 → ∃ s2, body (hi - k) s1 = .ret () s2 ∧ P (k + 1) s2) →
      ∃ s2, forDown body n hi s = .ret () s2 ∧ P n s2 := by
  intro n
  induction n with
  | zero =>
    intro P hi s h0 _
    exact ⟨s, rfl, h0⟩
  | succ n ih =>
    intro P hi s h0 hstep
    obtain ⟨s1, e1, h1⟩ := hstep 0 s (Nat.succ_pos _) h0
    obtain ⟨s2, e2, h2⟩ := ih (fun k => P (k + 1)) (hi - 1) s1 h1 (by
      intro k s3 hk hP
      have := hstep (k + 1) s3 (Nat.succ_lt_succ hk) hP
      rwa [show hi - (k + 1) = hi - 1 - k by omega] at this)
    refine ⟨s2, ?_, h2⟩
    simp only [forDown, Prog.bind_run, Prog.bind]
    rw [Nat.sub_zero] at e1
    rw [e1]
    exact e2

end VecPrim

section VecLoops
variable {α : Type}

theorem SameBut.refl (st : VMem α) (bs : List Ptr) : SameBut st st bs :=
  ⟨rfl, rfl, rfl, fun _ _ => rfl⟩

theorem SameBut.trans {st st1 st2 : VMem α} {bs : List Ptr} (h1 : SameBut st st1 bs)
    (h2 : SameBut st1 st2 bs) : SameBut st st2 bs :=
  ⟨h2.1.trans h1.1, h2.2.1.trans h1.2.1, h2.2.2.1.trans h1.2.2.1,
    fun x hx => (h2.2.2.2 x hx).trans (h1.2.2.2 x hx)⟩

theorem SameBut.mono_set {st st1 : VMem α} {bs cs : List Ptr} (h : SameBut st st1 bs)
    (hs : ∀ x ∈ bs, x ∈ cs) : SameBut st st1 cs :=
  ⟨h.1, h.2.1, h.2.2.1, fun x hx => h.2.2.2 x (fun hm => hx (hs x hm))⟩

theorem BufIs.congr {st : VMem α} {b : Ptr} {len : Nat} {f g : Nat → Option α}
    (h : BufIs st b len f) (hfg : ∀ j, f j = g j) : BufIs st b len g := by
  obtain ⟨blk, h1, h2, h3⟩ := h
  exact ⟨blk, h1, h2, fun j => (h3 j).trans (hfg j)⟩

theorem BufIs.frame_buf {st st1 : VMem α} {b : Ptr} {len : Nat} {f : Nat → Option α} {bs : List Ptr}
    (h : BufIs st b len f) (hs : SameBut st st1 bs) (hb : b ∉ bs) : BufIs st1 b len f := by
  obtain ⟨blk, h1, h2, h3⟩ := h
  exact ⟨blk, by rw [hs.2.2.2 b hb]; exact h1, h2, h3⟩

/-- One step `new (b + k) ValType(std::move_if_noexcept(a[i]))` between two buffers. -/
theorem move_construct_step [ValType α] {s : VMem α} {a b : Ptr} {la lb i k : Nat}
    {fa fb : Nat → Option α} {v : α} (hab : a ≠ b) (ha : BufIs s a la fa) (hb : BufIs s b lb fb)
    (hv : fa i = some v) (hk : k < lb) :
    ∃ s1, (do let x ← moveFrom (some a) i; constructAt (some b) k x) s = .ret () s1 ∧
      BufIs s1 a la (fun j => if j = i then some (ValType.movedFrom v) else fa j) ∧
      BufIs s1 b lb (fun j => if j = k then some v else fb j) ∧
      SameBut s s1 [a, b] := by
  obtain ⟨blka, ha1, ha2, ha3⟩ := ha
  obtain ⟨blkb, hb1, hb2, hb3⟩ := hb
  have e1 := moveFrom_run ha1 (by rw [ha3]; exact hv)
  have e2 := constructAt_run (S := s.setBuf a (some (blka.set i (some (ValType.movedFrom v)))))
    (b := b) (K := blkb) (i := k) v (by simp [Ne.symm hab, hb1]) (by rw [hb2]; exact hk)
  refine ⟨(s.setBuf a (some (blka.set i (some (ValType.movedFrom v))))).setBuf b
    (some (blkb.set k (some v))), ?_, ?_, ?_, ?_⟩
  · simp only [Prog.bind_run, Prog.bind, e1]
    exact e2
  · refine ⟨blka.set i (some (ValType.movedFrom v)), by simp [hab], by simp [ha2], ?_⟩
    intro j
    simp only [Block.set_slot, ha3]
  · refine ⟨blkb.set k (some v), by simp, by simp [hb2], ?_⟩
    intro j
    simp only [Block.set_slot, hb3]
  · refine ⟨rfl, rfl, rfl, ?_⟩
    intro x hx
    have h1 : x ≠ a := fun e => hx (by simp [e])
    have h2 : x ≠ b := fun e => hx (by simp [e])
    simp [h1, h2]

/-- One step `a[k] = std::move_if_noexcept(a[i])` inside one buffer. -/
theorem move_assign_step [ValType α] {s : VMem α} {a : Ptr} {la i k : Nat}
    {fa : Nat → Option α} {v w : α} (hik : i ≠ k) (ha : BufIs s a la fa)
    (hv : fa i = some v) (hw : fa k = some w) :
    ∃ s1, (do let y ← moveFrom (some a) i; assignAt (some a) k y) s = .ret () s1 ∧
      BufIs s1 a la (fun j => if j = k then some v
        else if j = i then some (ValType.movedFrom v) else fa j) ∧
      SameBut s s1 [a] := by
  obtain ⟨blka, ha1, ha2, ha3⟩ := ha
  have e1 := moveFrom_run ha1 (by rw [ha3]; exact hv)
  have e2 := assignAt_run (S := s.setBuf a (some (blka.set i (some (ValType.movedFrom v)))))
    (b := a) (K := blka.set i (some (ValType.movedFrom v))) (i := k) (w := w) v (by simp)
    (by simp [Ne.symm hik, ha3, hw])
  refine ⟨(s.setBuf a (some (blka.set i (some (ValType.movedFrom v))))).setBuf a
    (some ((blka.set i (some (ValType.movedFrom v))).set k (some v))), ?_, ?_, ?_⟩
  · simp only [Prog.bind_run, Prog.bind, e1]
    exact e2
  · refine ⟨(blka.set i (some (ValType.movedFrom v))).set k (some v), by simp, by simp [ha2], ?_⟩
    intro j
    simp only [Block.set_slot, ha3]
  · refine ⟨rfl, rfl, rfl, ?_⟩
    intro x hx
    have h1 : x ≠ a := fun e => hx (by simp [e])
    simp [h1]

/-- The loop that moves `a[lo .. lo + n)` into `b[lo + d .. lo + d + n)`. -/
theorem copy_loop_spec [ValType α] {s : VMem α} {a b : Ptr} {la lb : Nat}
    {fa fb : Nat → Option α} (body : Nat → Prog (VMem α) Unit) (d n lo : Nat)
    (hbody : ∀ i, body i = (do let x ← moveFrom (some a) i; constructAt (some b) (i + d) x))
    (hab : a ≠ b) (ha : BufIs s a la fa) (hb : BufIs s b lb fb)
    (hlive : ∀ j, lo ≤ j → j < lo + n → (fa j).isSome) (hlen : lo + d + n ≤ lb) :
    ∃ s1, forUp body n lo s = .ret () s1 ∧
      BufIs s1 a la (fun j => if lo ≤ j ∧ j < lo + n then (fa j).map ValType.movedFrom
        else fa j) ∧
      BufIs s1 b lb (fun j => if lo + d ≤ j ∧ j < lo + d + n then fa (j - d) else fb j) ∧
      SameBut s s1 [a, b] := by
  have := forUp_inv body n
    (fun k s1 =>
      BufIs s1 a la (fun j => if lo ≤ j ∧ j < lo + k then (fa j).map ValType.movedFrom
        else fa j) ∧
      BufIs s1 b lb (fun j => if lo + d ≤ j ∧ j < lo + d + k then fa (j - d) else fb j) ∧
      SameBut s s1 [a, b]) lo s
    ⟨ha.congr (fun j => by rw [if_neg]; omega), hb.congr (fun j => by rw [if_neg]; omega),
      SameBut.refl _ _⟩
    (by
      intro k s1 hk ⟨h1, h2, h3⟩
      have hl := hlive (lo + k) (Nat.le_add_right _ _) (by omega)
      obtain ⟨v, hv⟩ := Option.isSome_iff_exists.mp hl
      obtain ⟨s2, e2, h4, h5, h6⟩ := move_construct_step (i := lo + k) (k := lo + k + d)
        (v := v) hab h1 h2 (by simp [hv]) (by omega)
      refine ⟨s2, by rw [hbody]; exact e2, h4.congr ?_, h5.congr ?_, h3.trans h6⟩
      · intro j
        by_cases hj : j = lo + k
        · subst hj; simp [hv]
        · by_cases hj2 : lo ≤ j ∧ j < lo + k
          · have : lo ≤ j ∧ j < lo + (k + 1) := ⟨hj2.1, by omega⟩
            simp [hj, hj2, this]
          · have : ¬ (lo ≤ j ∧ j < lo + (k + 1)) := by
              intro h; exact hj2 ⟨h.1, by omega⟩
            simp [hj, hj2, this]
      · intro j
        by_cases hj : j = lo + k + d
        · subst hj
          have : lo + d ≤ lo + k + d ∧ lo + k + d < lo + d + (k + 1) := ⟨by omega, by omega⟩
          simp [this, hv]
        · by_cases hj2 : lo + d ≤ j ∧ j < lo + d + k
          · have : lo + d ≤ j ∧ j < lo + d + (k + 1) := ⟨hj2.1, by omega⟩
            simp [hj, hj2, this]
          · have : ¬ (lo + d ≤ j ∧ j < lo + d + (k + 1)) := by
              intro h; exact hj2 ⟨h.1, by omega⟩
            simp [hj, hj2, this])
  exact this

/-- The loop that destroys `a[lo .. lo + n)`. -/
theorem destroy_loop_spec {s : VMem α} {a : Ptr} {la : Nat} {fa : Nat → Option α}
    (n lo : Nat) (ha : BufIs s a la fa) (hlive : ∀ j, lo ≤ j → j < lo + n → (fa j).isSome) :
    ∃ s1, forUp (fun i => destroyAt (some a) i) n lo s = .ret () s1 ∧
      BufIs s1 a la (fun j => if lo ≤ j ∧ j < lo + n then none else fa j) ∧
      SameBut s s1 [a] := by
  have := forUp_inv (fun i => destroyAt (some a) i) n
    (fun k s1 =>
      BufIs s1 a la (fun j => if lo ≤ j ∧ j < lo + k then none else fa j) ∧
      SameBut s s1 [a]) lo s
    ⟨ha.congr (fun j => by rw [if_neg]; omega), SameBut.refl _ _⟩
    (by
      intro k s1 hk ⟨h1, h3⟩
      have hl := hlive (lo + k) (Nat.le_add_right _ _) (by omega)
      obtain ⟨v, hv⟩ := Option.isSome_iff_exists.mp hl
      obtain ⟨blk, hb1, hb2, hb3⟩ := h1
      have e := destroyAt_run (i := lo + k) (w := v) hb1 (by rw [hb3]; simp [hv])
      refine ⟨_, e, ⟨blk.set (lo + k) none, by simp, by simp [hb2], ?_⟩, h3.trans ?_⟩
      · intro j
        simp only [Block.set_slot, hb3]
        by_cases hj : j = lo + k
        · subst hj; simp
        · by_cases hj2 : lo ≤ j ∧ j < lo + k
          · have : lo ≤ j ∧ j < lo + (k + 1) := ⟨hj2.1, by omega⟩
            simp [hj, hj2, this]
          · have : ¬ (lo ≤ j ∧ j < lo + (k + 1)) := by
              intro h; exact hj2 ⟨h.1, by omega⟩
            simp [hj, hj2, this]
      · refine ⟨rfl, rfl, rfl, ?_⟩
        intro x hx
        have h1 : x ≠ a := fun e => hx (by simp [e])
        simp [h1])
  exact this

end VecLoops

section VecRealloc
variable {α : Type}

theorem VRepr.buf {st : VMem α} {v : Ref} {xs : List α} {a : Ptr} (hR : VRepr st v xs)
    (ha : (st.vecs v).m_data = some a) :
    ∃ f, BufIs st a (st.vecs v).m_capacity f ∧ ∀ i, i < xs.length → f i = xs[i]? := by
  obtain ⟨-, -, -, h4, h5⟩ := hR
  have h4' := h4 (by rw [ha]; simp)
  rw [ha] at h4' h5
  simp only [bufLen] at h4'
  cases hb : st.bufs a with
  | none => rw [hb] at h4'; simp at h4'
  | some blk =>
    rw [hb] at h4'
    refine ⟨blk.slot, ⟨blk, hb, by simpa using h4', fun _ => rfl⟩, ?_⟩
    intro i hi
    have := h5 i hi
    simpa [slotAt, hb] using this

theorem VRepr.of_buf {st : VMem α} {v : Ref} {xs : List α} {a : Ptr} {f : Nat → Option α}
    (hd : (st.vecs v).m_data = some a) (hs : (st.vecs v).m_size = xs.length)
    (hc : xs.length ≤ (st.vecs v).m_capacity) (hb : BufIs st a (st.vecs v).m_capacity f)
    (hf : ∀ i, i < xs.length → f i = xs[i]?) : VRepr st v xs := by
  obtain ⟨blk, hb1, hb2, hb3⟩ := hb
  refine ⟨hs, by rw [hs]; exact hc, by rw [hd]; simp, ?_, ?_⟩
  · intro _
    rw [hd]
    simp [bufLen, hb1, hb2]
  · intro i hi
    rw [hd]
    simp only [slotAt, hb1, hb3]
    exact hf i hi

theorem VRepr.null {st : VMem α} {v : Ref} {xs : List α} (hR : VRepr st v xs)
    (ha : (st.vecs v).m_data = none) :
    xs = [] ∧ (st.vecs v).m_size = 0 ∧ (st.vecs v).m_capacity = 0 := by
  obtain ⟨h1, h2, h3, -, -⟩ := hR
  have hc := h3 ha
  have hs : (st.vecs v).m_size = 0 := by omega
  exact ⟨List.eq_nil_of_length_eq_zero (by omega), hs, hc⟩

theorem opNew_run {S : VMem α} {n : Nat} (h : n ≤ S.avail) :
    opNew n S = .ret (some S.brk)
      (VMem.mk (fun x => if x = S.brk then some (Block.mk n (fun _ => none)) else S.bufs x)
        (S.brk + 1) (S.avail - n) S.vecs) := by
  simp [opNew, h]

theorem opNew_fail {st : VMem α} {n : Nat} (h : ¬ n ≤ st.avail) :
    opNew n st = .raise .bad_alloc st := by
  simp [opNew, h]

theorem opDelete_run {st : VMem α} {b : Ptr} {blk : Block α} (hb : st.bufs b = some blk) :
    opDelete (some b) st = .ret ()
      (VMem.mk (fun x => if x = b then none else st.bufs x) st.brk (st.avail + blk.len)
        st.vecs) := by
  simp [opDelete, hb, VMem.setBuf]

theorem VFresh.ne_brk {st : VMem α} (hf : VFresh st) {a : Ptr} {blk : Block α}
    (e : st.bufs a = some blk) : a ≠ st.brk := by
  intro hab
  have := hf a (le_of_eq hab.symm)
  rw [this] at e
  simp at e

theorem destroyRange_spec [ValType α] {s : VMem α} {a : Ptr} {la : Nat} {fa : Nat → Option α}
    (n lo : Nat) (ha : BufIs s a la fa) (hlive : ∀ j, lo ≤ j → j < lo + n → (fa j).isSome) :
    ∃ s1 g, destroyRange (some a) n lo s = .ret () s1 ∧ BufIs s1 a la g ∧
      (∀ j, ¬ (lo ≤ j ∧ j < lo + n) → g j = fa j) ∧ SameBut s s1 [a] := by
  unfold destroyRange
  cases ValType.trivial_dtor α with
  | true => exact ⟨s, fa, rfl, ha, fun _ _ => rfl, SameBut.refl _ _⟩
  | false =>
    obtain ⟨s1, e1, h1, h2⟩ := destroy_loop_spec n lo ha hlive
    refine ⟨s1, _, by simpa using e1, h1, ?_, h2⟩
    intro j hj
    simp only [hj, if_false]

theorem destroyRange_zero [ValType α] (s : VMem α) (p : Option Ptr) (lo : Nat) :
    destroyRange p 0 lo s = .ret () s := by
  unfold destroyRange
  cases ValType.trivial_dtor α <;> rfl

/-- Destroying the live elements of the old buffer and releasing it. -/
theorem destroy_delete_spec [ValType α] {s : VMem α} {a : Ptr} {la : Nat} {fa : Nat → Option α}
    (n : Nat) (ha : BufIs s a la fa) (hlive : ∀ j, j < n → (fa j).isSome) :
    (do destroyRange (some a) n 0; opDelete (some a)) s = .ret ()
      (VMem.mk (fun x => if x = a then none else s.bufs x) s.brk (s.avail + la) s.vecs) := by
  obtain ⟨s1, g, e1, ⟨blk, hb1, hb2, -⟩, -, h2⟩ := destroyRange_spec n 0 ha
    (fun j _ hj => hlive j (by omega))
  simp only [Prog.bind_run, Prog.bind, e1, opDelete_run hb1, hb2, h2.1, h2.2.1, h2.2.2.1]
  congr 2
  funext x
  by_cases hx : x = a
  · simp [hx]
  · simp only [if_neg hx]
    exact h2.2.2.2 x (by simp [hx])

theorem destroy_delete_null [ValType α] (s : VMem α) :
    (do destroyRange none 0 0; opDelete none) s = .ret () s := by
  simp [Prog.bind, destroyRange_zero, opDelete]

end VecRealloc

section VecReallocate
variable {α : Type}

theorem bufIs_after_new {st : VMem α} {n : Nat} :
    BufIs (VMem.mk (fun x => if x = st.brk then some (Block.mk n (fun _ => none)) else st.bufs x)
      (st.brk + 1) (st.avail - n) st.vecs) st.brk n (fun _ => (none : Option α)) :=
  ⟨Block.mk n (fun _ => none), by simp, rfl, fun _ => rfl⟩

theorem bufIs_old_after_new {st : VMem α} {a : Ptr} {n cap : Nat} {f : Nat → Option α}
    (hf : VFresh st) (ha : BufIs st a cap f) :
    a ≠ st.brk ∧ BufIs (VMem.mk (fun x => if x = st.brk then some (Block.mk n (fun _ => none))
      else st.bufs x) (st.brk + 1) (st.avail - n) st.vecs) a cap f := by
  obtain ⟨blk, h1, h2, h3⟩ := ha
  have hne := hf.ne_brk h1
  exact ⟨hne, blk, by simp [hne, h1], h2, h3⟩

theorem VFresh.step {st T : VMem α} (hf : VFresh st) (hb : T.brk = st.brk + 1)
    (hl : ∀ x, st.brk < x → T.bufs x = st.bufs x) : VFresh T := by
  intro a ha
  rw [hb] at ha
  rw [hl a (Nat.lt_of_succ_le ha)]
  exact hf a (Nat.le_of_succ_le ha)

/-- Effect of `_reallocate(newCapacity)` when the allocation succeeds and the new buffer
has room for the live elements. -/
theorem Vector__reallocate_spec [ValType α] {st : VMem α} {v : Ref} {xs : List α}
    (newCapacity : Nat) (hf : VFresh st) (hR : VRepr st v xs)
    (hroom : xs.length ≤ newCapacity) (hav : newCapacity ≤ st.avail) :
    ∃ st1, Vector__reallocate v newCapacity st = .ret () st1 ∧
      st1.vecs v = { m_data := some st.brk, m_size := xs.length, m_capacity := newCapacity } ∧
      BufIs st1 st.brk newCapacity (fun j => if j < xs.length then xs[j]? else none) ∧
      VRepr st1 v xs ∧ VFresh st1 ∧ st1.brk = st.brk + 1 ∧
      (∀ r, r ≠ v → st1.vecs r = st.vecs r) ∧
      (∀ x, some x ≠ (st.vecs v).m_data → x ≠ st.brk → st1.bufs x = st.bufs x) ∧
      st1.avail = st.avail - newCapacity + (st.vecs v).m_capacity := by
  have hsz := hR.1
  cases hd : (st.vecs v).m_data with
  | none =>
    obtain ⟨hxs, hs0, hc0⟩ := hR.null hd
    subst hxs
    have hfin : BufIs (VMem.mk
        (fun x => if x = st.brk then some (Block.mk newCapacity (fun _ => none)) else st.bufs x)
        (st.brk + 1) (st.avail - newCapacity)
        (fun r => if r = v then VecObj.mk (some st.brk) 0 newCapacity else st.vecs r))
        st.brk newCapacity (fun j => if j < ([] : List α).length then ([] : List α)[j]? else none) :=
      ⟨Block.mk newCapacity (fun _ => none), by simp, rfl, fun _ => by simp⟩
    refine ⟨VMem.mk
        (fun x => if x = st.brk then some (Block.mk newCapacity (fun _ => none)) else st.bufs x)
        (st.brk + 1) (st.avail - newCapacity)
        (fun r => if r = v then VecObj.mk (some st.brk) 0 newCapacity else st.vecs r),
      ?_, by simp, hfin, ?_, ?_, rfl, ?_, ?_, ?_⟩
    · simp only [Vector__reallocate, Prog.bind_run, Prog.bind, opNew_run hav, getVec_run, hd,
        hs0, forUp, Prog.pure_run, destroyRange_zero, opDelete, setData, setCapacity]
      congr 2
      funext r
      by_cases hr : r = v
      · subst hr; simp [hs0]
      · simp [hr]
    · exact VRepr.of_buf (a := st.brk) (by simp) (by simp) (by simp)
        (by simpa using hfin) (by simp)
    · exact hf.step rfl (fun x hx => by simp [Nat.ne_of_gt hx])
    · intro r hr; simp [hr]
    · intro x _ hx; simp [hx]
    · simp [hc0]
  | some a =>
    obtain ⟨f, hbuf, hfx⟩ := hR.buf hd
    obtain ⟨hne, hold⟩ := bufIs_old_after_new (n := newCapacity) hf hbuf
    have hlive : ∀ j, 0 ≤ j → j < 0 + xs.length → (f j).isSome := by
      intro j _ hj
      rw [hfx j (by omega)]
      simp [List.getElem?_eq_getElem (show j < xs.length by omega)]
    obtain ⟨s1, e1, h1a, h1b, h1s⟩ := copy_loop_spec
      (fun i => do let x ← moveFrom (some a) i; constructAt (some st.brk) i x) 0 xs.length 0
      (fun i => rfl) hne hold bufIs_after_new hlive (by omega)
    obtain ⟨s2, g, e2, ⟨blk2, hb21, hb22, -⟩, -, h2s⟩ := destroyRange_spec xs.length 0 h1a
      (by
        intro j h0 hj
        have : 0 ≤ j ∧ j < 0 + xs.length := ⟨h0, hj⟩
        simp only [this, and_self, if_true, Option.isSome_map']
        exact hlive j h0 hj)
    have e3 := opDelete_run hb21
    have h1b' : BufIs s1 st.brk newCapacity (fun j => if j < xs.length then xs[j]? else none) :=
      h1b.congr (fun j => by
        by_cases hj : j < xs.length
        · have : 0 + 0 ≤ j ∧ j < 0 + 0 + xs.length := ⟨by omega, by omega⟩
          simp [hj, this, hfx j hj]
        · have : ¬ (0 + 0 ≤ j ∧ j < 0 + 0 + xs.length) := fun h => hj (by omega)
          simp [hj, this])
    have h2b := h1b'.frame_buf h2s (by simp [Ne.symm hne])
    have hfin : BufIs (VMem.mk (fun x => if x = a then none else s2.bufs x) s2.brk
        (s2.avail + blk2.len)
        (fun r => if r = v then VecObj.mk (some st.brk) xs.length newCapacity else st.vecs r))
        st.brk newCapacity (fun j => if j < xs.length then xs[j]? else none) := by
      obtain ⟨blk, hb1, hb2, hb3⟩ := h2b
      exact ⟨blk, by simp [Ne.symm hne, hb1], hb2, hb3⟩
    have hvecs : s2.vecs = st.vecs := h2s.1.trans h1s.1
    have hbrk : s2.brk = st.brk + 1 := h2s.2.1.trans h1s.2.1
    have havail : s2.avail = st.avail - newCapacity := h2s.2.2.1.trans h1s.2.2.1
    refine ⟨VMem.mk (fun x => if x = a then none else s2.bufs x) s2.brk (s2.avail + blk2.len)
        (fun r => if r = v then VecObj.mk (some st.brk) xs.length newCapacity else st.vecs r),
      ?_, by simp, hfin, ?_, ?_, hbrk, ?_, ?_, ?_⟩
    · simp only [Vector__reallocate, Prog.bind_run, Prog.bind, opNew_run hav, getVec_run, hd,
        hsz, e1, e2, e3, setData, setCapacity]
      congr 2
      rw [hvecs]
      funext r
      by_cases hr : r = v
      · subst hr; simp [hsz]
      · simp [hr]
    · exact VRepr.of_buf (a := st.brk) (by simp) (by simp) (by simpa using hroom)
        (by simpa using hfin) (by
          intro i hi
          simp [hi])
    · refine hf.step hbrk ?_
      intro x hx
      by_cases hxa : x = a
      · subst hxa
        have := hf x (Nat.le_of_lt hx)
        simp [this]
      · simp only [if_neg hxa]
        rw [h2s.2.2.2 x (by simp [hxa]), h1s.2.2.2 x (by simp [hxa, Nat.ne_of_gt hx])]
        simp [Nat.ne_of_gt hx]
    · intro r hr; simp [hr]
    · intro x hx1 hx2
      have hxa : x ≠ a := fun e => hx1 (by rw [e])
      simp only [if_neg hxa]
      rw [h2s.2.2.2 x (by simp [hxa]), h1s.2.2.2 x (by simp [hxa, hx2])]
      simp [hx2]
    · show s2.avail + blk2.len = _
      rw [havail, hb22]

/-- When `operator new` fails inside `_reallocate`, `std::bad_alloc` leaves the state
untouched. -/
theorem Vector__reallocate_fail [ValType α] {st : VMem α} (v : Ref) {newCapacity : Nat}
    (hav : ¬ newCapacity ≤ st.avail) :
    Vector__reallocate v newCapacity st = .raise .bad_alloc st := by
  simp only [Vector__reallocate, Prog.bind_run, Prog.bind, opNew_fail hav]

end VecReallocate

section VecPush
variable {α : Type}

theorem getElem?_append_one (xs : List α) (v : α) (j : Nat) :
    (xs ++ [v])[j]? = if j < xs.length then xs[j]? else if j = xs.length then some v else none := by
  by_cases h1 : j < xs.length
  · simp [h1, List.getElem?_append_left h1]
  · by_cases h2 : j = xs.length
    · subst h2; simp
    · have : xs.length + 1 ≤ j := by omega
      simp [h1, h2, List.getElem?_eq_none, this]

/-- Constructing `value` in the first free slot of a buffer that holds `xs`. -/
theorem push_slot {S : VMem α} {v : Ref} {X : List α} {a : Ptr} {f : Nat → Option α}
    (value : α) (hd : (S.vecs v).m_data = some a) (hs : (S.vecs v).m_size = X.length)
    (hc : X.length < (S.vecs v).m_capacity) (hb : BufIs S a (S.vecs v).m_capacity f)
    (hf : ∀ i, i < X.length → f i = X[i]?) :
    ∃ st1, (do
        let o ← getVec v
        constructAt o.m_data o.m_size value
        setVSize v (o.m_size + 1)) S = .ret () st1 ∧
      VRepr st1 v (X ++ [value]) ∧
      st1.vecs v = { S.vecs v with m_size := X.length + 1 } ∧
      (∀ r, r ≠ v → st1.vecs r = S.vecs r) ∧ st1.brk = S.brk ∧ st1.avail = S.avail ∧
      (∀ x, x ≠ a → st1.bufs x = S.bufs x) ∧ (VFresh S → VFresh st1) := by
  obtain ⟨blk, hb1, hb2, hb3⟩ := hb
  have e1 := constructAt_run (i := X.length) value hb1 (by rw [hb2]; exact hc)
  refine ⟨VMem.mk (fun x => if x = a then some (blk.set X.length (some value)) else S.bufs x)
      S.brk S.avail
      (fun r => if r = v then { S.vecs v with m_size := X.length + 1 } else S.vecs r),
    ?_, ?_, by simp, ?_, rfl, rfl, ?_, ?_⟩
  · simp only [Prog.bind_run, Prog.bind, getVec_run, hd, hs, e1, setVSize]
    simp [VMem.setBuf, hd]
  · refine VRepr.of_buf (a := a) (f := fun j => if j = X.length then some value else f j)
      (by simp [hd]) (by simp) (by simp only [if_true, List.length_append, List.length_singleton]; omega)
      (Exists.intro (blk.set X.length (some value))
        ⟨by simp, by simp [hb2], fun j => by simp [hb3]⟩) ?_
    intro i hi
    rw [getElem?_append_one]
    by_cases h1 : i < X.length
    · simp [h1, Nat.ne_of_lt h1, hf i h1]
    · have : i = X.length := by simp at hi; omega
      simp [this]
  · intro r hr; simp [hr]
  · intro x hx; simp [hx]
  · intro hfr x hx
    have hne : x ≠ a := by
      intro e
      have := hfr x hx
      rw [e, hb1] at this
      simp at this
    simp only [if_neg hne]
    exact hfr x hx

theorem Vector_reserve_grow [ValType α] {st : VMem α} {v : Ref} {n : Nat}
    (h : ¬ n ≤ (st.vecs v).m_capacity) :
    Vector_reserve v n st = Vector__reallocate v n st := by
  simp [Vector_reserve, Prog.bind, h]

theorem Vector_reserve_noop [ValType α] {st : VMem α} {v : Ref} {n : Nat}
    (h : n ≤ (st.vecs v).m_capacity) : Vector_reserve v n st = .ret () st := by
  simp [Vector_reserve, Prog.bind, h]

/-- Effect of `pushBack(value)`. -/
theorem Vector_pushBack_spec [ValType α] {st : VMem α} {v : Ref} {xs : List α} (value : α)
    (hf : VFresh st) (hR : VRepr st v xs)
    (hav : (st.vecs v).m_size = (st.vecs v).m_capacity →
      (if (st.vecs v).m_capacity = 0 then 1 else (st.vecs v).m_capacity * 2) ≤ st.avail) :
    ∃ st1, Vector_pushBack v value st = .ret () st1 ∧ VRepr st1 v (xs ++ [value]) ∧
      (st1.vecs v).m_size = (st.vecs v).m_size + 1 ∧
      (st1.vecs v).m_capacity =
        (if (st.vecs v).m_size < (st.vecs v).m_capacity then (st.vecs v).m_capacity
         else if (st.vecs v).m_capacity = 0 then 1 else (st.vecs v).m_capacity * 2) ∧
      VFresh st1 ∧ (∀ r, r ≠ v → st1.vecs r = st.vecs r) := by
  have hsz := hR.1
  have hle := hR.2.1
  by_cases hfull : (st.vecs v).m_size = (st.vecs v).m_capacity
  · have hav' := hav hfull
    set nc := (if (st.vecs v).m_capacity = 0 then 1 else (st.vecs v).m_capacity * 2) with hnc
    have hgt : ¬ nc ≤ (st.vecs v).m_capacity := by
      rw [hnc]; split <;> omega
    have hroom : xs.length ≤ nc := by
      rw [← hsz, hfull]; omega
    obtain ⟨s1, e1, hv1, hb1, hR1, hf1, hbrk1, ho1, -, -⟩ :=
      Vector__reallocate_spec nc hf hR hroom hav'
    have hlt : xs.length < nc := by
      rw [← hsz, hfull]; omega
    obtain ⟨s2, e2, hR2, hv2, ho2, hbrk2, -, hbuf2, hf2⟩ := push_slot (S := s1) (v := v) (X := xs)
      (a := st.brk) value (by rw [hv1]) (by rw [hv1]) (by rw [hv1]; exact hlt)
      (by rw [hv1]; exact hb1) (by intro i hi; simp [hi])
    refine ⟨s2, ?_, hR2, ?_, ?_, ?_, ?_⟩
    · simp only [Vector_pushBack, Prog.bind_run, Prog.bind, getVec_run, hfull, if_true,
        Vector_reserve_grow hgt, ← hnc, e1]
      simp only [Prog.bind_run, Prog.bind, getVec_run] at e2
      exact e2
    · rw [hv2, hsz]
    · rw [hv2, hv1]
      simp only [hfull, lt_irrefl, if_false]
    · exact hf2 hf1
    · intro r hr
      rw [ho2 r hr, ho1 r hr]
  · have hlt : (st.vecs v).m_size < (st.vecs v).m_capacity := by omega
    have hdn : (st.vecs v).m_data ≠ none := by
      intro e
      have := hR.2.2.1 e
      omega
    obtain ⟨a, ha⟩ := Option.ne_none_iff_exists'.mp hdn
    obtain ⟨f, hbuf, hfx⟩ := hR.buf ha
    obtain ⟨s2, e2, hR2, hv2, ho2, hbrk2, -, hbuf2, hf2⟩ := push_slot (S := st) (v := v)
      (X := xs) (a := a) value ha hsz (by rw [← hsz]; exact hlt) hbuf hfx
    refine ⟨s2, ?_, hR2, ?_, ?_, hf2 hf, ho2⟩
    · simp only [Vector_pushBack, Prog.bind_run, Prog.bind, getVec_run, hfull, if_false,
        Prog.pure_run]
      simp only [Prog.bind_run, Prog.bind, getVec_run] at e2
      exact e2
    · rw [hv2, hsz]
    · rw [hv2]
      simp only [hlt, if_true]

end VecPush

section VecCtor
variable {α : Type}

theorem ite_ite_same {β : Type} {c : Prop} [Decidable c] (a b d : β) :
    (if c then a else if c then b else d) = if c then a else d := by
  split <;> simp [*]

theorem Vector_initLoop_spec (v : Ref) (a : Ptr) (len : Nat) :
    ∀ (items : List α) (i : Nat) (st : VMem α) (f : Nat → Option α),
      (st.vecs v).m_data = some a → BufIs st a len f → i + items.length ≤ len →
      ∃ st1, Vector_initLoop v items i st = .ret () st1 ∧
        BufIs st1 a len (fun j => if i ≤ j ∧ j < i + items.length then items[j - i]? else f j) ∧
        SameBut st st1 [a] := by
  intro items
  induction items with
  | nil =>
    intro i st f _ hb _
    exact ⟨st, rfl, hb.congr (fun j => by rw [if_neg]; simp), SameBut.refl _ _⟩
  | cons x items ih =>
    intro i st f hd hb hlen
    obtain ⟨blk, hb1, hb2, hb3⟩ := hb
    have e1 := constructAt_run (i := i) x hb1 (by
      rw [hb2]; simp only [List.length_cons] at hlen; omega)
    have hsame : SameBut st (st.setBuf a (some (blk.set i (some x)))) [a] :=
      ⟨rfl, rfl, rfl, fun y hy => by
        have : y ≠ a := fun e => hy (by simp [e])
        simp [this]⟩
    obtain ⟨st1, e2, h2, h3⟩ := ih (i + 1) (st.setBuf a (some (blk.set i (some x))))
      (fun j => if j = i then some x else f j) (by simpa using hd)
      ⟨blk.set i (some x), by simp, by simp [hb2], fun j => by simp [hb3]⟩
      (by simp only [List.length_cons] at hlen; omega)
    refine ⟨st1, ?_, h2.congr ?_, hsame.trans h3⟩
    · simp only [Vector_initLoop, Prog.bind_run, Prog.bind, getVec_run, hd, e1]
      exact e2
    · intro j
      simp only [List.length_cons]
      by_cases hj : j = i
      · subst hj
        have h1 : ¬ (j + 1 ≤ j ∧ j < j + 1 + items.length) := by omega
        have h2 : j ≤ j ∧ j < j + (items.length + 1) := by omega
        simp [h1, h2]
      · by_cases hj2 : i + 1 ≤ j ∧ j < i + 1 + items.length
        · have h2 : i ≤ j ∧ j < i + (items.length + 1) := by omega
          have h3 : j - i = (j - (i + 1)) + 1 := by omega
          simp only [hj2, and_self, if_true, h2, h3, List.getElem?_cons_succ]
        · have h2 : ¬ (i ≤ j ∧ j < i + (items.length + 1)) := by omega
          simp only [hj2, if_false, hj, h2]

theorem Vector_ctor_init_spec {st : VMem α} (v : Ref) (list : List α) (hf : VFresh st)
    (hav : list.length ≤ st.avail) :
    ∃ st1, Vector_ctor_init v list st = .ret () st1 ∧ VRepr st1 v list ∧
      (st1.vecs v).m_size = list.length ∧ (st1.vecs v).m_capacity = list.length ∧
      VFresh st1 ∧ (∀ r, r ≠ v → st1.vecs r = st.vecs r) ∧
      st1.avail = st.avail - list.length := by
  by_cases hl : list.length = 0
  · have hnil : list = [] := List.eq_nil_of_length_eq_zero hl
    subst hnil
    refine ⟨VMem.mk st.bufs st.brk st.avail
      (fun r => if r = v then VecObj.mk none 0 0 else st.vecs r), ?_, ?_, by simp, by simp,
      hf, fun r hr => by simp [hr], rfl⟩
    · simp only [Vector_ctor_init, Prog.bind_run, Prog.bind, setData, setVSize, setCapacity,
        getVec_run, List.length_nil, if_true, gt_iff_lt, lt_irrefl, if_false, Prog.pure_run]
      congr 2
      funext r
      by_cases hr : r = v <;> simp [hr]
    · refine ⟨by simp, by simp, by simp, by simp, ?_⟩
      intro i hi
      simp at hi
  · have hpos : 0 < list.length := Nat.pos_of_ne_zero hl
    have hvec : (fun r => if r = v then
        ({ m_data := some st.brk, m_size := list.length, m_capacity := list.length } : VecObj)
        else st.vecs r) v = VecObj.mk (some st.brk) list.length list.length := by simp
    obtain ⟨st1, e1, h1, h2⟩ := Vector_initLoop_spec v st.brk list.length list 0
      (VMem.mk (fun x => if x = st.brk then some (Block.mk list.length (fun _ => none))
        else st.bufs x) (st.brk + 1) (st.avail - list.length)
        (fun r => if r = v then VecObj.mk (some st.brk) list.length list.length else st.vecs r))
      (fun _ => none) (by simp) ⟨Block.mk list.length (fun _ => none), by simp, rfl, fun _ => rfl⟩
      (by omega)
    have hv1 : st1.vecs v = VecObj.mk (some st.brk) list.length list.length := by
      rw [h2.1]; simp
    refine ⟨st1, ?_, ?_, by rw [hv1], by rw [hv1], ?_, ?_, h2.2.2.1⟩
    · have hnew := opNew_run (S := VMem.mk st.bufs st.brk st.avail
        (fun r => if r = v then VecObj.mk none list.length list.length else st.vecs r))
        (n := list.length) hav
      simp only [Vector_ctor_init, Prog.bind_run, Prog.bind, setData, setVSize, setCapacity,
        getVec_run, if_true, gt_iff_lt, hpos, ite_ite_same, hnew]
      exact e1
    · refine VRepr.of_buf (a := st.brk) (by rw [hv1]) (by rw [hv1]) (by rw [hv1])
        (by rw [hv1]; exact h1) ?_
      intro i hi
      have : 0 ≤ i ∧ i < 0 + list.length := by omega
      simp [this]
    · refine hf.step (T := st1) (by rw [h2.2.1]) ?_
      intro x hx
      rw [h2.2.2.2 x (by simp [Nat.ne_of_gt hx])]
      simp [Nat.ne_of_gt hx]
    · intro r hr
      rw [h2.1]; simp [hr]

end VecCtor

section VecInsert
variable {α : Type}

theorem getElem?_insert (xs : List α) (v : α) (i j : Nat) (hi : i ≤ xs.length) :
    (xs.take i ++ v :: xs.drop i)[j]? =
      if j < i then xs[j]? else if j = i then some v else xs[j - 1]? := by
  have hlen : (xs.take i).length = i := by simp [hi]
  by_cases h1 : j < i
  · rw [List.getElem?_append_left (by rw [hlen]; exact h1)]
    simp [h1, List.getElem?_take]
  · rw [List.getElem?_append_right (by rw [hlen]; omega), hlen]
    by_cases h2 : j = i
    · subst h2; simp
    · obtain ⟨m, hm⟩ : ∃ m, j - i = m + 1 := ⟨j - i - 1, by omega⟩
      rw [hm, List.getElem?_cons_succ, List.getElem?_drop]
      have : i + m = j - 1 := by omega
      simp [h1, h2, this]

/-- One step `new (a + k) ValType(std::move_if_noexcept(a[i]))` inside one buffer. -/
theorem move_construct_same [ValType α] {s : VMem α} {a : Ptr} {la i k : Nat}
    {fa : Nat → Option α} {v : α} (ha : BufIs s a la fa)
    (hv : fa i = some v) (hk : k < la) :
    ∃ s1, (do let x ← moveFrom (some a) i; constructAt (some a) k x) s = .ret () s1 ∧
      BufIs s1 a la (fun j => if j = k then some v
        else if j = i then some (ValType.movedFrom v) else fa j) ∧
      SameBut s s1 [a] := by
  obtain ⟨blka, ha1, ha2, ha3⟩ := ha
  have e1 := moveFrom_run ha1 (by rw [ha3]; exact hv)
  have e2 := constructAt_run (S := s.setBuf a (some (blka.set i (some (ValType.movedFrom v)))))
    (b := a) (K := blka.set i (some (ValType.movedFrom v))) (i := k) v (by simp)
    (by simp [ha2, hk])
  refine ⟨(s.setBuf a (some (blka.set i (some (ValType.movedFrom v))))).setBuf a
    (some ((blka.set i (some (ValType.movedFrom v))).set k (some v))), ?_, ?_, ?_⟩
  · simp only [Prog.bind_run, Prog.bind, e1]
    exact e2
  · refine ⟨(blka.set i (some (ValType.movedFrom v))).set k (some v), by simp, by simp [ha2], ?_⟩
    intro j
    simp only [Block.set_slot, ha3]
  · refine ⟨rfl, rfl, rfl, ?_⟩
    intro x hx
    have h1 : x ≠ a := fun e => hx (by simp [e])
    simp [h1]

/-- The loop `for (i = n - 1; i > idx; --i) a[i] = std::move_if_noexcept(a[i - 1])`, run
after `a[n]` was constructed from `a[n - 1]`. -/
theorem shift_loop_spec [ValType α] {s : VMem α} {a : Ptr} {la n d : Nat}
    {f g : Nat → Option α} (hidx : d < n) (hlive : ∀ j, j < n → (f j).isSome)
    (ha : BufIs s a la g)
    (hg : ∀ j, g j = if j = n then f (n - 1)
      else if j + 1 = n then (f j).map ValType.movedFrom else f j) :
    ∃ s1, forDown (fun i => do
        let y ← moveFrom (some a) (i - 1)
        assignAt (some a) i y) (n - 1 - d) (n - 1) s = .ret () s1 ∧
      BufIs s1 a la (fun j => if j = n then f (n - 1)
        else if d + 1 ≤ j ∧ j < n then f (j - 1)
        else if j = d then (f j).map ValType.movedFrom else f j) ∧
      SameBut s s1 [a] := by
  have := forDown_inv (fun i => do
        let y ← moveFrom (some a) (i - 1)
        assignAt (some a) i y) (n - 1 - d)
    (fun k s1 =>
      BufIs s1 a la (fun j => if j = n then f (n - 1)
        else if n - k ≤ j ∧ j < n then f (j - 1)
        else if j + 1 + k = n then (f j).map ValType.movedFrom else f j) ∧
      SameBut s s1 [a]) (n - 1) s
    ⟨ha.congr (fun j => by
      rw [hg]
      by_cases h1 : j = n
      · rw [if_pos h1, if_pos h1]
      · have h2 : ¬ (n - 0 ≤ j ∧ j < n) := by omega
        rw [if_neg h1, if_neg h1, if_neg h2, Nat.add_zero]), SameBut.refl _ _⟩
    (by
      intro k s1 hk ⟨h1, h3⟩
      have hi1 : n - 1 - k - 1 < n := by omega
      obtain ⟨v, hv⟩ := Option.isSome_iff_exists.mp (hlive (n - 1 - k - 1) hi1)
      obtain ⟨w, hw⟩ := Option.isSome_iff_exists.mp (hlive (n - 1 - k) (by omega))
      obtain ⟨s2, e2, h4, h6⟩ := move_assign_step (i := n - 1 - k - 1) (k := n - 1 - k)
        (v := v) (w := ValType.movedFrom w) (by omega) h1
        (by
          have c1 : ¬ (n - 1 - k - 1 = n) := by omega
          have c2 : ¬ (n - k ≤ n - 1 - k - 1 ∧ n - 1 - k - 1 < n) := by omega
          have c3 : ¬ (n - 1 - k - 1 + 1 + k = n) := by omega
          show (if n - 1 - k - 1 = n then f (n - 1)
            else if n - k ≤ n - 1 - k - 1 ∧ n - 1 - k - 1 < n then f (n - 1 - k - 1 - 1)
            else if n - 1 - k - 1 + 1 + k = n then (f (n - 1 - k - 1)).map ValType.movedFrom
            else f (n - 1 - k - 1)) = some v
          rw [if_neg c1, if_neg c2, if_neg c3, hv])
        (by
          have c1 : ¬ (n - 1 - k = n) := by omega
          have c2 : ¬ (n - k ≤ n - 1 - k ∧ n - 1 - k < n) := by omega
          have c3 : n - 1 - k + 1 + k = n := by omega
          show (if n - 1 - k = n then f (n - 1)
            else if n - k ≤ n - 1 - k ∧ n - 1 - k < n then f (n - 1 - k - 1)
            else if n - 1 - k + 1 + k = n then (f (n - 1 - k)).map ValType.movedFrom
            else f (n - 1 - k)) = some (ValType.movedFrom w)
          rw [if_neg c1, if_neg c2, if_pos c3, hw]
          rfl)
      refine ⟨s2, e2, h4.congr ?_, h3.trans h6⟩
      intro j
      show (if j = n - 1 - k then some v
        else if j = n - 1 - k - 1 then some (ValType.movedFrom v)
        else if j = n then f (n - 1)
        else if n - k ≤ j ∧ j < n then f (j - 1)
        else if j + 1 + k = n then (f j).map ValType.movedFrom else f j) =
        (if j = n then f (n - 1)
        else if n - (k + 1) ≤ j ∧ j < n then f (j - 1)
        else if j + 1 + (k + 1) = n then (f j).map ValType.movedFrom else f j)
      by_cases c0 : j = n
      · have c1 : ¬ (j = n - 1 - k) := by omega
        have c2 : ¬ (j = n - 1 - k - 1) := by omega
        rw [if_neg c1, if_neg c2, if_pos c0, if_pos c0]
      · by_cases c1 : j = n - 1 - k
        · have c2 : n - (k + 1) ≤ j ∧ j < n := by omega
          have c3 : j - 1 = n - 1 - k - 1 := by omega
          rw [if_pos c1, if_neg c0, if_pos c2, c3, hv]
        · by_cases c2 : j = n - 1 - k - 1
          · have c3 : ¬ (n - (k + 1) ≤ j ∧ j < n) := by omega
            have c4 : j + 1 + (k + 1) = n := by omega
            rw [if_neg c1, if_pos c2, if_neg c0, if_neg c3, if_pos c4, c2, hv]
            rfl
          · rw [if_neg c1, if_neg c2, if_neg c0, if_neg c0]
            by_cases c3 : n - k ≤ j ∧ j < n
            · have c4 : n - (k + 1) ≤ j ∧ j < n := by omega
              rw [if_pos c3, if_pos c4]
            · have c4 : ¬ (n - (k + 1) ≤ j ∧ j < n) := by omega
              have c5 : ¬ (j + 1 + k = n) := by omega
              have c6 : ¬ (j + 1 + (k + 1) = n) := by omega
              rw [if_neg c3, if_neg c4, if_neg c5, if_neg c6])
  obtain ⟨s1, e1, h1, h2⟩ := this
  refine ⟨s1, e1, h1.congr ?_, h2⟩
  intro j
  show (if j = n then f (n - 1)
      else if n - (n - 1 - d) ≤ j ∧ j < n then f (j - 1)
      else if j + 1 + (n - 1 - d) = n then (f j).map ValType.movedFrom else f j) =
    (if j = n then f (n - 1)
      else if d + 1 ≤ j ∧ j < n then f (j - 1)
      else if j = d then (f j).map ValType.movedFrom else f j)
  by_cases c0 : j = n
  · rw [if_pos c0, if_pos c0]
  · rw [if_neg c0, if_neg c0]
    by_cases c1 : d + 1 ≤ j ∧ j < n
    · have c2 : n - (n - 1 - d) ≤ j ∧ j < n := by omega
      rw [if_pos c1, if_pos c2]
    · have c2 : ¬ (n - (n - 1 - d) ≤ j ∧ j < n) := by omega
      rw [if_neg c1, if_neg c2]
      by_cases c3 : j = d
      · have c4 : j + 1 + (n - 1 - d) = n := by omega
        rw [if_pos c3, if_pos c4]
      · have c4 : ¬ (j + 1 + (n - 1 - d) = n) := by omega
        rw [if_neg c3, if_neg c4]

end VecInsert

section VecInsertMain
variable {α : Type}

theorem vdistance_run (st : VMem α) (p : Option Ptr) (i j : Nat) :
    vdistance (VIter.mk p i) (VIter.mk p j) st = .ret ((j : Int) - (i : Int)) st := by
  simp [vdistance]

theorem Vector_begin_run (st : VMem α) (v : Ref) :
    Vector_begin v st = .ret (VIter.mk (st.vecs v).m_data 0) st := by
  simp [Vector_begin, Prog.bind]

theorem toNat_sub_zero (i : Nat) : ((i : Int) - ((0 : Nat) : Int)).toNat = i := by
  simp

/-- The in-place path of `insert`: the vector has spare capacity. -/
theorem Vector_insert_spare [ValType α] {st : VMem α} {v : Ref} {xs : List α} (i : Nat)
    (value : α) (hR : VRepr st v xs) (hi : i ≤ xs.length)
    (hsp : (st.vecs v).m_size < (st.vecs v).m_capacity) :
    ∃ st1, Vector_insert v (VIter.mk (st.vecs v).m_data i) value st =
        .ret (VIter.mk (st1.vecs v).m_data i) st1 ∧
      VRepr st1 v (xs.take i ++ value :: xs.drop i) ∧
      st1.vecs v = { st.vecs v with m_size := xs.length + 1 } ∧
      (∀ r, r ≠ v → st1.vecs r = st.vecs r) ∧ st1.brk = st.brk ∧ st1.avail = st.avail ∧
      (∀ x, some x ≠ (st.vecs v).m_data → st1.bufs x = st.bufs x) ∧
      (∀ x, (st1.bufs x).isSome = (st.bufs x).isSome) := by
  have hsz := hR.1
  have hdn : (st.vecs v).m_data ≠ none := by
    intro e
    have := hR.2.2.1 e
    omega
  obtain ⟨a, ha⟩ := Option.ne_none_iff_exists'.mp hdn
  obtain ⟨f, hbuf, hfx⟩ := hR.buf ha
  have hlive : ∀ j, j < xs.length → (f j).isSome := by
    intro j hj
    rw [hfx j hj]
    simp [List.getElem?_eq_getElem hj]
  have hlen' : (xs.take i ++ value :: xs.drop i).length = xs.length + 1 := by
    simp [List.length_take, List.length_drop]; omega
  by_cases hlt : i < xs.length
  · obtain ⟨w, hw⟩ := Option.isSome_iff_exists.mp (hlive (xs.length - 1) (by omega))
    have hsp' : xs.length < (st.vecs v).m_capacity := by rw [← hsz]; exact hsp
    obtain ⟨blk0, hb01, hb02, hb03⟩ := hbuf
    have em := moveFrom_run hb01 (by rw [hb03]; exact hw)
    have ec := constructAt_run
      (S := st.setBuf a (some (blk0.set (xs.length - 1) (some (ValType.movedFrom w)))))
      (b := a) (K := blk0.set (xs.length - 1) (some (ValType.movedFrom w))) (i := xs.length) w
      (by simp) (by simp [hb02, hsp'])
    have h1 : BufIs ((st.setBuf a (some (blk0.set (xs.length - 1)
        (some (ValType.movedFrom w))))).setBuf a (some ((blk0.set (xs.length - 1)
        (some (ValType.movedFrom w))).set xs.length (some w)))) a (st.vecs v).m_capacity
        (fun j => if j = xs.length then some w
          else if j = xs.length - 1 then some (ValType.movedFrom w) else f j) :=
      Exists.intro ((blk0.set (xs.length - 1) (some (ValType.movedFrom w))).set xs.length
        (some w)) ⟨by simp, by simp [hb02], fun j => by simp only [Block.set_slot, hb03]⟩
    have hs1 : SameBut st ((st.setBuf a (some (blk0.set (xs.length - 1)
        (some (ValType.movedFrom w))))).setBuf a (some ((blk0.set (xs.length - 1)
        (some (ValType.movedFrom w))).set xs.length (some w)))) [a] :=
      ⟨rfl, rfl, rfl, fun x hx => by
        have : x ≠ a := fun e => hx (by simp [e])
        simp [this]⟩
    obtain ⟨s2, e2, h2, hs2⟩ := shift_loop_spec (n := xs.length) (d := i) (f := f) hlt hlive h1
      (by
        intro j
        by_cases c0 : j = xs.length
        · rw [if_pos c0, if_pos c0, hw]
        · rw [if_neg c0, if_neg c0]
          by_cases c1 : j = xs.length - 1
          · have c2 : j + 1 = xs.length := by omega
            rw [if_pos c1, if_pos c2, c1, hw]
            rfl
          · have c2 : ¬ (j + 1 = xs.length) := by omega
            rw [if_neg c1, if_neg c2])
    obtain ⟨blk, hb1, hb2, hb3⟩ := h2
    obtain ⟨u, hu⟩ := Option.isSome_iff_exists.mp (hlive i hlt)
    have hslot : blk.slot i = some (ValType.movedFrom u) := by
      rw [hb3]
      have c0 : ¬ (i = xs.length) := by omega
      have c1 : ¬ (i + 1 ≤ i ∧ i < xs.length) := by omega
      show (if i = xs.length then f (xs.length - 1)
        else if i + 1 ≤ i ∧ i < xs.length then f (i - 1)
        else if i = i then (f i).map ValType.movedFrom else f i) = _
      rw [if_neg c0, if_neg c1, if_pos rfl, hu]
      rfl
    have e3 := assignAt_run (S := s2) value hb1 hslot
    have hvec2 : s2.vecs = st.vecs := hs2.1.trans hs1.1
    refine ⟨VMem.mk (fun x => if x = a then some (blk.set i (some value)) else s2.bufs x)
        s2.brk s2.avail
        (fun r => if r = v then { st.vecs v with m_size := xs.length + 1 } else st.vecs r),
      ?_, ?_, by simp, fun r hr => by simp [hr], hs2.2.1.trans hs1.2.1,
      hs2.2.2.1.trans hs1.2.2.1, ?_, ?_⟩
    · simp only [Vector_insert, Prog.bind_run, Prog.bind, Vector_begin_run, ha, vdistance_run,
        toNat_sub_zero, getVec_run, hsp', if_true, hsz, hlt, em, ec, e2, e3, setVSize,
        hvec2, Prog.pure_run, VIter.add, Nat.zero_add, setBuf_vecs, setBuf_brk, setBuf_avail]
      simp [VMem.setBuf, ha]
    · refine VRepr.of_buf (a := a)
        (f := fun j => if j = i then some value else blk.slot j)
        (by simp [ha]) (by simp [hlen']) (by simp only [if_true, hlen']; omega)
        (Exists.intro (blk.set i (some value)) ⟨by simp, by simp [hb2], fun j => by simp⟩) ?_
      intro j hj
      rw [hlen'] at hj
      rw [getElem?_insert xs value i j hi]
      show (if j = i then some value else blk.slot j) = _
      by_cases c0 : j = i
      · have c1 : ¬ (j < i) := by omega
        rw [if_pos c0, if_neg c1, if_pos c0]
      · rw [if_neg c0, hb3]
        show (if j = xs.length then f (xs.length - 1)
          else if i + 1 ≤ j ∧ j < xs.length then f (j - 1)
          else if j = i then (f j).map ValType.movedFrom else f j) = _
        by_cases c1 : j < i
        · have c2 : ¬ (j = xs.length) := by omega
          have c3 : ¬ (i + 1 ≤ j ∧ j < xs.length) := by omega
          rw [if_pos c1, if_neg c2, if_neg c3, if_neg c0, hfx j (by omega)]
        · rw [if_neg c1, if_neg c0, if_neg c0]
          by_cases c2 : j = xs.length
          · rw [if_pos c2, c2, hfx _ (by omega)]
          · have c3 : i + 1 ≤ j ∧ j < xs.length := by omega
            rw [if_neg c2, if_pos c3, hfx _ (by omega)]
    · intro x hx
      have hxa : x ≠ a := fun e => hx (by rw [e, ha])
      simp only [if_neg hxa]
      rw [hs2.2.2.2 x (by simp [hxa]), hs1.2.2.2 x (by simp [hxa])]
    · intro x
      by_cases hxa : x = a
      · simp [hxa, hb01]
      · simp only [if_neg hxa]
        rw [hs2.2.2.2 x (by simp [hxa]), hs1.2.2.2 x (by simp [hxa])]
  · have hie : i = xs.length := by omega
    subst hie
    have hsp' : xs.length < (st.vecs v).m_capacity := by rw [← hsz]; exact hsp
    obtain ⟨blk, hb1, hb2, hb3⟩ := hbuf
    have e1 := constructAt_run (S := st) (i := xs.length) value hb1 (by rw [hb2, ← hsz]; exact hsp)
    refine ⟨VMem.mk (fun x => if x = a then some (blk.set xs.length (some value)) else st.bufs x)
        st.brk st.avail
        (fun r => if r = v then { st.vecs v with m_size := xs.length + 1 } else st.vecs r),
      ?_, ?_, by simp, fun r hr => by simp [hr], rfl, rfl, ?_, ?_⟩
    · simp only [Vector_insert, Prog.bind_run, Prog.bind, Vector_begin_run, ha, vdistance_run,
        toNat_sub_zero, getVec_run, hsp', if_true, hsz, hlt, if_false, e1, setVSize,
        Prog.pure_run, VIter.add, Nat.zero_add, setBuf_vecs, setBuf_brk, setBuf_avail]
      simp [VMem.setBuf, ha]
    · refine VRepr.of_buf (a := a)
        (f := fun j => if j = xs.length then some value else blk.slot j)
        (by simp [ha]) (by simp [hlen']) (by simp only [if_true, hlen']; omega)
        (Exists.intro (blk.set xs.length (some value))
          ⟨by simp, by simp [hb2], fun j => by simp⟩) ?_
      intro j hj
      rw [hlen'] at hj
      rw [getElem?_insert xs value xs.length j hi]
      show (if j = xs.length then some value else blk.slot j) = _
      by_cases c0 : j = xs.length
      · have c1 : ¬ (j < xs.length) := by omega
        rw [if_pos c0, if_neg c1, if_pos c0]
      · have c1 : j < xs.length := by omega
        rw [if_neg c0, if_pos c1, hb3, hfx j c1]
    · intro x hx
      have hxa : x ≠ a := fun e => hx (by rw [e, ha])
      simp only [if_neg hxa]
    · intro x
      by_cases hxa : x = a
      · simp [hxa, hb1]
      · simp only [if_neg hxa]

end VecInsertMain

section VecInsertGrow
variable {α : Type}

/-- The reallocating path of `insert`: the vector is full. -/
theorem Vector_insert_grow [ValType α] {st : VMem α} {v : Ref} {xs : List α} (i : Nat)
    (value : α) (hf : VFresh st) (hR : VRepr st v xs) (hi : i ≤ xs.length)
    (hfull : ¬ (st.vecs v).m_size < (st.vecs v).m_capacity)
    (hav : (if (st.vecs v).m_capacity = 0 then 1 else (st.vecs v).m_capacity * 2) ≤ st.avail) :
    ∃ st1, Vector_insert v (VIter.mk (st.vecs v).m_data i) value st =
        .ret (VIter.mk (st1.vecs v).m_data i) st1 ∧
      VRepr st1 v (xs.take i ++ value :: xs.drop i) ∧
      st1.vecs v = VecObj.mk (some st.brk) (xs.length + 1)
        (if (st.vecs v).m_capacity = 0 then 1 else (st.vecs v).m_capacity * 2) ∧
      (∀ r, r ≠ v → st1.vecs r = st.vecs r) ∧ VFresh st1 ∧
      (∀ x, some x ≠ (st.vecs v).m_data → x ≠ st.brk → st1.bufs x = st.bufs x) := by
  have hsz := hR.1
  have hle := hR.2.1
  have hcap : (st.vecs v).m_capacity = xs.length := by omega
  have hlen' : (xs.take i ++ value :: xs.drop i).length = xs.length + 1 := by
    simp [List.length_take, List.length_drop]; omega
  generalize hnc : (if (st.vecs v).m_capacity = 0 then 1 else (st.vecs v).m_capacity * 2) = nc
    at hav
  have hroom : xs.length + 1 ≤ nc := by
    rw [← hnc, hcap]; split <;> omega
  cases hd : (st.vecs v).m_data with
  | none =>
    obtain ⟨hxs, hs0, hc0⟩ := hR.null hd
    subst hxs
    have hi0 : i = 0 := by simpa using hi
    subst hi0
    have hfull0 : ¬ 0 < (st.vecs v).m_capacity := by omega
    have ec := constructAt_run
      (S := VMem.mk (fun x => if x = st.brk then some (Block.mk nc (fun _ => none))
        else st.bufs x) (st.brk + 1) (st.avail - nc) st.vecs)
      (b := st.brk) (K := Block.mk nc (fun _ => none)) (i := 0) value (by simp)
      (by simpa using hroom)
    refine ⟨VMem.mk
        (fun x => if x = st.brk then some ((Block.mk nc (fun _ => none)).set 0 (some value))
          else st.bufs x)
        (st.brk + 1) (st.avail - nc)
        (fun r => if r = v then VecObj.mk (some st.brk) 1 nc else st.vecs r),
      ?_, ?_, by simp, fun r hr => by simp [hr], ?_, fun x _ hx => by simp [hx]⟩
    · simp only [Vector_insert, Prog.bind_run, Prog.bind, Vector_begin_run, hd, vdistance_run,
        toNat_sub_zero, getVec_run, hfull0, if_false, hnc, opNew_run hav, hs0, forUp,
        Prog.pure_run, Nat.sub_self, ec, destroyRange_zero, opDelete, setData, setVSize,
        setCapacity, VIter.add, Nat.zero_add]
      simp only [VMem.setBuf, if_true]
      congr 2
      · funext x
        by_cases hx : x = st.brk
        · simp [hx]
        · simp [hx]
      · funext r
        by_cases hr : r = v
        · subst hr; simp
        · simp [hr]
    · exact VRepr.of_buf (a := st.brk) (f := fun j => if j = 0 then some value else none)
        (by simp) (by simp) (by simpa using hroom)
        (Exists.intro ((Block.mk nc (fun _ => none)).set 0 (some value))
          ⟨by simp, by simp, fun j => by simp⟩)
        (by
          intro j hj
          have : j = 0 := by simpa using hj
          subst this
          simp)
    · exact hf.step rfl (fun x hx => by simp [Nat.ne_of_gt hx])
  | some a =>
    obtain ⟨f, hbuf, hfx⟩ := hR.buf hd
    have hfull1 : ¬ xs.length < (st.vecs v).m_capacity := by omega
    obtain ⟨hne, hold⟩ := bufIs_old_after_new (n := nc) hf hbuf
    have hlive : ∀ j, j < xs.length → (f j).isSome := by
      intro j hj
      rw [hfx j hj]
      simp [List.getElem?_eq_getElem hj]
    -- first loop: the elements before the insertion point
    obtain ⟨s1, e1, h1a, h1b, h1s⟩ := copy_loop_spec
      (fun k => do let x ← moveFrom (some a) k; constructAt (some st.brk) k x) 0 i 0
      (fun _ => rfl) hne hold bufIs_after_new
      (fun j _ hj => hlive j (by omega)) (by omega)
    -- the new element
    obtain ⟨blkb, hb1, hb2, hb3⟩ := h1b
    have ec := constructAt_run (S := s1) (i := i) value hb1 (by rw [hb2]; omega)
    have h2a : BufIs (s1.setBuf st.brk (some (blkb.set i (some value)))) a
        (st.vecs v).m_capacity
        (fun j => if 0 ≤ j ∧ j < 0 + i then (f j).map ValType.movedFrom else f j) := by
      obtain ⟨blka, ha1, ha2, ha3⟩ := h1a
      exact ⟨blka, by simp [hne, ha1], ha2, ha3⟩
    have h2b : BufIs (s1.setBuf st.brk (some (blkb.set i (some value)))) st.brk nc
        (fun j => if j = i then some value
          else if 0 + 0 ≤ j ∧ j < 0 + 0 + i then f (j - 0) else none) :=
      ⟨blkb.set i (some value), by simp, by simp [hb2], fun j => by
        simp only [Block.set_slot, hb3]⟩
    have h2s : SameBut s1 (s1.setBuf st.brk (some (blkb.set i (some value)))) [a, st.brk] :=
      ⟨rfl, rfl, rfl, fun x hx => by
        have : x ≠ st.brk := fun e => hx (by simp [e])
        simp [this]⟩
    -- second loop: the elements from the insertion point on
    obtain ⟨s3, e3, h3a, h3b, h3s⟩ := copy_loop_spec
      (fun k => do let x ← moveFrom (some a) k; constructAt (some st.brk) (k + 1) x) 1
      (xs.length - i) i (fun _ => rfl) hne h2a h2b
      (fun j hj1 hj2 => by
        have c : ¬ (0 ≤ j ∧ j < 0 + i) := by omega
        simp only [c, if_false]
        exact hlive j (by omega)) (by omega)
    obtain ⟨s4, g, e4, ⟨blk4, hb41, hb42, -⟩, -, h4s⟩ := destroyRange_spec xs.length 0 h3a
      (by
        intro j h0 hj
        have hl := hlive j (by omega)
        by_cases c1 : i ≤ j ∧ j < i + (xs.length - i)
        · by_cases c2 : 0 ≤ j ∧ j < 0 + i
          · simp only [c1, c2, and_self, if_true, Option.isSome_map']; exact hl
          · simp only [c1, c2, and_self, if_true, if_false, Option.isSome_map']; exact hl
        · by_cases c2 : 0 ≤ j ∧ j < 0 + i
          · simp only [c1, c2, and_self, if_true, if_false, Option.isSome_map']; exact hl
          · simp only [c1, c2, if_false]; exact hl)
    have e5 := opDelete_run hb41
    have hsame : SameBut (VMem.mk (fun x => if x = st.brk then some (Block.mk nc (fun _ => none))
        else st.bufs x) (st.brk + 1) (st.avail - nc) st.vecs) s4 [a, st.brk] :=
      ((h1s.trans h2s).trans h3s).trans (h4s.mono_set (fun x hx => by
        have : x = a := by simpa using hx
        simp [this]))
    have h4b := h3b.frame_buf h4s (by simp [Ne.symm hne])
    have hvecs : s4.vecs = st.vecs := hsame.1
    have hbrk : s4.brk = st.brk + 1 := hsame.2.1
    have hfin : BufIs (VMem.mk (fun x => if x = a then none else s4.bufs x) s4.brk
        (s4.avail + blk4.len)
        (fun r => if r = v then VecObj.mk (some st.brk) (xs.length + 1) nc else st.vecs r))
        st.brk nc
        (fun j => if i + 1 ≤ j ∧ j < i + 1 + (xs.length - i)
          then (fun j => if 0 ≤ j ∧ j < 0 + i then (f j).map ValType.movedFrom else f j) (j - 1)
          else (fun j => if j = i then some value
            else if 0 + 0 ≤ j ∧ j < 0 + 0 + i then f (j - 0) else none) j) := by
      obtain ⟨blk, hb1, hb2, hb3⟩ := h4b
      exact ⟨blk, by simp [Ne.symm hne, hb1], hb2, hb3⟩
    refine ⟨VMem.mk (fun x => if x = a then none else s4.bufs x) s4.brk (s4.avail + blk4.len)
        (fun r => if r = v then VecObj.mk (some st.brk) (xs.length + 1) nc else st.vecs r),
      ?_, ?_, by simp, fun r hr => by simp [hr], ?_, ?_⟩
    · simp only [Vector_insert, Prog.bind_run, Prog.bind, Vector_begin_run, hd, vdistance_run,
        toNat_sub_zero, getVec_run, hfull1, if_false, hnc, opNew_run hav, hsz, e1, ec, e3, e4,
        e5, setData, setVSize, setCapacity, Prog.pure_run, VIter.add, Nat.zero_add]
      simp only [if_true]
      congr 2
      rw [hvecs]
      funext r
      by_cases hr : r = v
      · subst hr; simp
      · simp [hr]
    · refine VRepr.of_buf (a := st.brk) (by simp) (by simp [hlen'])
        (by simp only [if_true, hlen']; exact hroom) (by simpa using hfin) ?_
      intro j hj
      rw [hlen'] at hj
      rw [getElem?_insert xs value i j hi]
      show (if i + 1 ≤ j ∧ j < i + 1 + (xs.length - i)
          then (if j - 1 < i then (f (j - 1)).map ValType.movedFrom else f (j - 1))
          else (if j = i then some value else if j < i then f j else none)) = _
      by_cases c1 : j < i
      · have c2 : ¬ (i + 1 ≤ j ∧ j < i + 1 + (xs.length - i)) := by omega
        have c3 : ¬ (j = i) := by omega
        rw [if_neg c2, if_neg c3, if_pos c1, if_pos c1, hfx j (by omega)]
      · by_cases c3 : j = i
        · have c2 : ¬ (i + 1 ≤ j ∧ j < i + 1 + (xs.length - i)) := by omega
          rw [if_neg c2, if_pos c3, if_neg c1, if_pos c3]
        · have c2 : i + 1 ≤ j ∧ j < i + 1 + (xs.length - i) := by omega
          have c4 : ¬ (j - 1 < i) := by omega
          rw [if_pos c2, if_neg c4, if_neg c1, if_neg c3, hfx _ (by omega)]
    · refine hf.step hbrk ?_
      intro x hx
      by_cases hxa : x = a
      · subst hxa
        have := hf x (Nat.le_of_lt hx)
        simp [this]
      · simp only [if_neg hxa]
        rw [hsame.2.2.2 x (by simp [hxa, Nat.ne_of_gt hx])]
        simp [Nat.ne_of_gt hx]
    · intro x hx1 hx2
      have hxa : x ≠ a := fun e => hx1 (by rw [e])
      simp only [if_neg hxa]
      rw [hsame.2.2.2 x (by simp [hxa, hx2])]
      simp [hx2]

end VecInsertGrow

section VecErase
variable {α : Type}

/-- Effect of `insert(begin() + i, value)` on both paths. -/
theorem Vector_insert_spec [ValType α] {st : VMem α} {v : Ref} {xs : List α} (i : Nat)
    (value : α) (hf : VFresh st) (hR : VRepr st v xs) (hi : i ≤ xs.length)
    (hav : ¬ (st.vecs v).m_size < (st.vecs v).m_capacity →
      (if (st.vecs v).m_capacity = 0 then 1 else (st.vecs v).m_capacity * 2) ≤ st.avail) :
    ∃ st1, Vector_insert v (VIter.mk (st.vecs v).m_data i) value st =
        .ret (VIter.mk (st1.vecs v).m_data i) st1 ∧
      VRepr st1 v (xs.take i ++ value :: xs.drop i) ∧
      (st1.vecs v).m_size = (st.vecs v).m_size + 1 ∧
      (st1.vecs v).m_capacity =
        (if (st.vecs v).m_size < (st.vecs v).m_capacity then (st.vecs v).m_capacity
         else if (st.vecs v).m_capacity = 0 then 1 else (st.vecs v).m_capacity * 2) ∧
      (∀ r, r ≠ v → st1.vecs r = st.vecs r) ∧ VFresh st1 := by
  by_cases hsp : (st.vecs v).m_size < (st.vecs v).m_capacity
  · obtain ⟨st1, e, hR1, hv1, ho, hbrk, -, -, hlive⟩ := Vector_insert_spare i value hR hi hsp
    refine ⟨st1, e, hR1, by rw [hv1, hR.1], by rw [hv1]; simp [hsp], ho, ?_⟩
    intro a ha
    rw [hbrk] at ha
    have h1 := hlive a
    rw [hf a ha] at h1
    cases h2 : st1.bufs a with
    | none => rfl
    | some blk => rw [h2] at h1; simp at h1
  · obtain ⟨st1, e, hR1, hv1, ho, hf1, -⟩ := Vector_insert_grow i value hf hR hi hsp (hav hsp)
    exact ⟨st1, e, hR1, by rw [hv1, hR.1], by rw [hv1]; simp [hsp], ho, hf1⟩

theorem getElem?_take_drop (xs : List α) (i j m : Nat) (hi : i ≤ j) (hj : j ≤ xs.length) :
    (xs.take i ++ xs.drop j)[m]? = if m < i then xs[m]? else xs[m + (j - i)]? := by
  have hlen : (xs.take i).length = i := by simp; omega
  by_cases h1 : m < i
  · rw [List.getElem?_append_left (by rw [hlen]; exact h1)]
    simp [h1, List.getElem?_take]
  · rw [List.getElem?_append_right (by rw [hlen]; omega), hlen, List.getElem?_drop, if_neg h1]
    congr 1
    omega

theorem Vector_end_run (st : VMem α) (v : Ref) :
    Vector_end v st = .ret (VIter.mk (st.vecs v).m_data (st.vecs v).m_size) st := by
  simp [Vector_end, Prog.bind]

/-- The compaction loop of `erase(first, last)`: with `rem` elements left to read it moves
`a[r .. r + rem)` down to `a[w .. w + rem)`. -/
theorem erase_loop_spec [ValType α] (v : Ref) (a : Ptr) (la n : Nat) :
    ∀ (rem fuel : Nat) (s : VMem α) (w r : Nat) (g : Nat → Option α), rem < fuel →
      r + rem = n → w < r → (s.vecs v).m_data = some a → (s.vecs v).m_size = n →
      BufIs s a la g → (∀ m, m < n → (g m).isSome) →
      ∃ s1, Vector_eraseLoop v fuel (VIter.mk (some a) w) (VIter.mk (some a) r) s = .ret () s1 ∧
        BufIs s1 a la (fun m => if w ≤ m ∧ m < w + rem then g (m + (r - w))
          else if r ≤ m ∧ m < r + rem then (g m).map ValType.movedFrom else g m) ∧
        SameBut s s1 [a] := by
  intro rem
  induction rem with
  | zero =>
    intro fuel s w r g hfuel hr hwr hd hs hb _
    obtain ⟨fuel, rfl⟩ : ∃ k, fuel = k + 1 := ⟨fuel - 1, by omega⟩
    have hrn : r = n := by omega
    refine ⟨s, ?_, hb.congr ?_, SameBut.refl _ _⟩
    · simp only [Vector_eraseLoop, Prog.bind_run, Prog.bind, Vector_end_run, hd, hs, hrn,
        if_true, Prog.pure_run]
    · intro m
      have c1 : ¬ (w ≤ m ∧ m < w + 0) := by omega
      have c2 : ¬ (r ≤ m ∧ m < r + 0) := by omega
      rw [if_neg c1, if_neg c2]
  | succ rem ih =>
    intro fuel s w r g hfuel hr hwr hd hs hb hlive
    obtain ⟨fuel, rfl⟩ : ∃ k, fuel = k + 1 := ⟨fuel - 1, by omega⟩
    have hrn : r < n := by omega
    obtain ⟨x, hx⟩ := Option.isSome_iff_exists.mp (hlive r hrn)
    obtain ⟨y, hy⟩ := Option.isSome_iff_exists.mp (hlive w (by omega))
    obtain ⟨blk, hb1, hb2, hb3⟩ := hb
    have em := moveFrom_run hb1 (by rw [hb3]; exact hx)
    have ea := assignAt_run (S := s.setBuf a (some (blk.set r (some (ValType.movedFrom x)))))
      (b := a) (K := blk.set r (some (ValType.movedFrom x))) (i := w) (w := y) x (by simp)
      (by
        have : ¬ (w = r) := by omega
        simp [this, hb3, hy])
    have hb' : BufIs ((s.setBuf a (some (blk.set r (some (ValType.movedFrom x))))).setBuf a
        (some ((blk.set r (some (ValType.movedFrom x))).set w (some x)))) a la
        (fun m => if m = w then some x else if m = r then some (ValType.movedFrom x) else g m) :=
      ⟨(blk.set r (some (ValType.movedFrom x))).set w (some x), by simp, by simp [hb2],
        fun m => by simp only [Block.set_slot, hb3]⟩
    have hs' : SameBut s ((s.setBuf a (some (blk.set r (some (ValType.movedFrom x))))).setBuf a
        (some ((blk.set r (some (ValType.movedFrom x))).set w (some x)))) [a] :=
      ⟨rfl, rfl, rfl, fun z hz => by
        have : z ≠ a := fun e => hz (by simp [e])
        simp [this]⟩
    obtain ⟨s1, e1, h1, h1s⟩ := ih fuel _ (w + 1) (r + 1) _ (by omega) (by omega) (by omega)
      (by simpa using hd) (by simpa using hs) hb'
      (by
        intro m hm
        by_cases c1 : m = w
        · simp [c1]
        · by_cases c2 : m = r
          · rw [if_neg c1, if_pos c2]; rfl
          · simp only [c1, c2, if_false]
            exact hlive m hm)
    have hne : ¬ (VIter.mk (some a) r = VIter.mk (some a) n) := by
      intro e
      have := congrArg VIter.off e
      simp at this
      omega
    refine ⟨s1, ?_, h1.congr ?_, hs'.trans h1s⟩
    · simp only [Vector_eraseLoop, Prog.bind_run, Prog.bind, Vector_end_run, hd, hs, hne,
        if_false, em, ea, VIter.add]
      exact e1
    · intro m
      show (if w + 1 ≤ m ∧ m < w + 1 + rem
          then (if m + (r + 1 - (w + 1)) = w then some x
            else if m + (r + 1 - (w + 1)) = r then some (ValType.movedFrom x)
            else g (m + (r + 1 - (w + 1))))
          else if r + 1 ≤ m ∧ m < r + 1 + rem
            then (if m = w then some x else if m = r then some (ValType.movedFrom x)
              else g m).map ValType.movedFrom
            else (if m = w then some x else if m = r then some (ValType.movedFrom x)
              else g m)) =
        (if w ≤ m ∧ m < w + (rem + 1) then g (m + (r - w))
          else if r ≤ m ∧ m < r + (rem + 1) then (g m).map ValType.movedFrom else g m)
      by_cases c0 : m = w
      · have c1 : ¬ (w + 1 ≤ m ∧ m < w + 1 + rem) := by omega
        have c2 : ¬ (r + 1 ≤ m ∧ m < r + 1 + rem) := by omega
        have c3 : w ≤ m ∧ m < w + (rem + 1) := by omega
        have c4 : m + (r - w) = r := by omega
        rw [if_neg c1, if_neg c2, if_pos c0, if_pos c3, c4, hx]
      · by_cases c1 : w + 1 ≤ m ∧ m < w + 1 + rem
        · have c2 : ¬ (m + (r + 1 - (w + 1)) = w) := by omega
          have c3 : ¬ (m + (r + 1 - (w + 1)) = r) := by omega
          have c4 : w ≤ m ∧ m < w + (rem + 1) := by omega
          have c5 : m + (r + 1 - (w + 1)) = m + (r - w) := by omega
          rw [if_pos c1, if_neg c2, if_neg c3, if_pos c4, c5]
        · have c4 : ¬ (w ≤ m ∧ m < w + (rem + 1)) := by omega
          rw [if_neg c1, if_neg c4]
          by_cases c2 : m = r
          · have c3 : ¬ (r + 1 ≤ m ∧ m < r + 1 + rem) := by omega
            have c5 : r ≤ m ∧ m < r + (rem + 1) := by omega
            rw [if_neg c3, if_neg c0, if_pos c2, if_pos c5, c2, hx]
            rfl
          · by_cases c3 : r + 1 ≤ m ∧ m < r + 1 + rem
            · have c5 : r ≤ m ∧ m < r + (rem + 1) := by omega
              rw [if_pos c3, if_neg c0, if_neg c2, if_pos c5]
            · have c5 : ¬ (r ≤ m ∧ m < r + (rem + 1)) := by omega
              rw [if_neg c3, if_neg c0, if_neg c2, if_neg c5]

theorem int_sub_toNat (i j : Nat) : ((j : Int) - (i : Int)).toNat = j - i := by
  omega

theorem int_sub_nonpos (i j : Nat) : ((j : Int) - (i : Int) ≤ 0) ↔ j ≤ i := by
  omega

end VecErase

section VecEraseMain
variable {α : Type}

/-- Effect of `erase(begin() + i, begin() + j)`. -/
theorem Vector_erase_range_spec [ValType α] {st : VMem α} {v : Ref} {xs : List α}
    (fuel i j : Nat) (hR : VRepr st v xs) (hij : i ≤ j) (hj : j ≤ xs.length)
    (hfuel : xs.length - j < fuel) :
    ∃ st1, Vector_erase_range fuel v (VIter.mk (st.vecs v).m_data i)
        (VIter.mk (st.vecs v).m_data j) st = .ret (VIter.mk (st1.vecs v).m_data i) st1 ∧
      VRepr st1 v (xs.take i ++ xs.drop j) ∧
      st1.vecs v = VecObj.mk (st.vecs v).m_data (xs.length - (j - i)) (st.vecs v).m_capacity ∧
      (∀ r, r ≠ v → st1.vecs r = st.vecs r) ∧ st1.brk = st.brk ∧ st1.avail = st.avail ∧
      (∀ x, (st1.bufs x).isSome = (st.bufs x).isSome) := by
  have hsz := hR.1
  by_cases hlt : i < j
  · have hdn : (st.vecs v).m_data ≠ none := by
      intro e
      have := (hR.null e).1
      rw [this] at hj
      simp at hj
      omega
    obtain ⟨a, ha⟩ := Option.ne_none_iff_exists'.mp hdn
    obtain ⟨f, hbuf, hfx⟩ := hR.buf ha
    have hlive : ∀ m, m < xs.length → (f m).isSome := by
      intro m hm
      rw [hfx m hm]
      simp [List.getElem?_eq_getElem hm]
    obtain ⟨s1, e1, h1, h1s⟩ := erase_loop_spec v a (st.vecs v).m_capacity xs.length
      (xs.length - j) fuel st i j f hfuel (by omega) hlt ha hsz hbuf hlive
    have hvec1 : s1.vecs = st.vecs := h1s.1
    have hlive1 : ∀ m, xs.length - (j - i) ≤ m →
        m < xs.length - (j - i) + (xs.length - (xs.length - (j - i))) →
        ((fun m => if i ≤ m ∧ m < i + (xs.length - j) then f (m + (j - i))
          else if j ≤ m ∧ m < j + (xs.length - j) then (f m).map ValType.movedFrom
          else f m) m).isSome := by
      intro m _ hm
      show (if i ≤ m ∧ m < i + (xs.length - j) then f (m + (j - i))
          else if j ≤ m ∧ m < j + (xs.length - j) then (f m).map ValType.movedFrom
          else f m).isSome = true
      by_cases c1 : i ≤ m ∧ m < i + (xs.length - j)
      · rw [if_pos c1]; exact hlive _ (by omega)
      · by_cases c2 : j ≤ m ∧ m < j + (xs.length - j)
        · rw [if_neg c1, if_pos c2, Option.isSome_map']; exact hlive _ (by omega)
        · rw [if_neg c1, if_neg c2]; exact hlive _ (by omega)
    obtain ⟨s2, g, e2, h2, hg, h2s⟩ := destroyRange_spec (xs.length - (xs.length - (j - i)))
      (xs.length - (j - i)) h1 hlive1
    have hvec2 : s2.vecs = st.vecs := h2s.1.trans hvec1
    have hcnt : ¬ ((j : Int) - (i : Int) ≤ 0) := by omega
    have hws : wrapSub xs.length (j - i) = xs.length - (j - i) := wrapSub_of_le (by omega)
    refine ⟨VMem.mk s2.bufs s2.brk s2.avail
        (fun r => if r = v then
          VecObj.mk (st.vecs v).m_data (xs.length - (j - i)) (st.vecs v).m_capacity
          else st.vecs r),
      ?_, ?_, by simp, fun r hr => by simp [hr], h2s.2.1.trans h1s.2.1,
      h2s.2.2.1.trans h1s.2.2.1, ?_⟩
    · simp only [Vector_erase_range, Prog.bind_run, Prog.bind, Vector_begin_run, ha,
        vdistance_run, toNat_sub_zero, hcnt, if_false, VIter.add, Nat.zero_add, e1, getVec_run,
        hvec1, hsz, int_sub_toNat, Nat.sub_zero, hws, e2, setVSize, hvec2, Prog.pure_run]
    · have hb : BufIs (VMem.mk s2.bufs s2.brk s2.avail
          (fun r => if r = v then
            VecObj.mk (st.vecs v).m_data (xs.length - (j - i)) (st.vecs v).m_capacity
            else st.vecs r)) a (st.vecs v).m_capacity g := h2
      have hlen : (xs.take i ++ xs.drop j).length = xs.length - (j - i) := by
        simp [List.length_take, List.length_drop]; omega
      refine VRepr.of_buf (a := a) (f := g) (by simp [ha]) (by simp [hlen])
        (by simp only [if_true, hlen]; have := hR.2.1; omega) (by simpa using hb) ?_
      intro m hm
      rw [hlen] at hm
      rw [getElem?_take_drop xs i j m hij hj, hg m (by omega)]
      show (if i ≤ m ∧ m < i + (xs.length - j) then f (m + (j - i))
          else if j ≤ m ∧ m < j + (xs.length - j) then (f m).map ValType.movedFrom
          else f m) = _
      by_cases c1 : m < i
      · have c2 : ¬ (i ≤ m ∧ m < i + (xs.length - j)) := by omega
        have c3 : ¬ (j ≤ m ∧ m < j + (xs.length - j)) := by omega
        rw [if_neg c2, if_neg c3, if_pos c1, hfx m (by omega)]
      · have c2 : i ≤ m ∧ m < i + (xs.length - j) := by omega
        rw [if_pos c2, if_neg c1, hfx _ (by omega)]
    · intro x
      show (s2.bufs x).isSome = _
      by_cases hxa : x = a
      · obtain ⟨blk2, hb2, -, -⟩ := h2
        obtain ⟨blk0, hb0, -, -⟩ := hbuf
        rw [hxa, hb2, hb0]
        rfl
      · rw [h2s.2.2.2 x (by simp [hxa]), h1s.2.2.2 x (by simp [hxa])]
  · have hie : j = i := by omega
    subst hie
    have hcnt : ((j : Int) - (j : Int) ≤ 0) := by omega
    refine ⟨st, ?_, ?_, ?_, fun _ _ => rfl, rfl, rfl, fun _ => rfl⟩
    · simp only [Vector_erase_range, Prog.bind_run, Prog.bind, Vector_begin_run,
        vdistance_run, toNat_sub_zero, int_sub_toNat, Nat.sub_zero, hcnt, if_true, VIter.add,
        Nat.zero_add, Prog.pure_run]
    · have : xs.take j ++ xs.drop j = xs := List.take_append_drop j xs
      rw [this]
      exact hR
    · rw [Nat.sub_self, Nat.sub_zero, ← hsz]

/-- Effect of `erase(begin() + i)` for a dereferenceable position. -/
theorem Vector_erase_spec [ValType α] {st : VMem α} {v : Ref} {xs : List α}
    (fuel i : Nat) (hR : VRepr st v xs) (hi : i < xs.length) (hfuel : xs.length - (i + 1) < fuel) :
    ∃ st1, Vector_erase fuel v (VIter.mk (st.vecs v).m_data i) st =
        .ret (VIter.mk (st1.vecs v).m_data i) st1 ∧
      VRepr st1 v (xs.take i ++ xs.drop (i + 1)) ∧
      st1.vecs v = VecObj.mk (st.vecs v).m_data (xs.length - 1) (st.vecs v).m_capacity ∧
      (∀ r, r ≠ v → st1.vecs r = st.vecs r) := by
  obtain ⟨st1, e, h1, h2, h3, -⟩ := Vector_erase_range_spec fuel i (i + 1) hR (by omega) hi hfuel
  refine ⟨st1, e, h1, ?_, h3⟩
  rw [h2]
  congr 1
  omega

end VecEraseMain

section IndexLemmas
variable {α : Type}

theorem Repr.length {st : Mem α} {l : Ref} {ns : List Ptr} {xs : List α}
    (hR : Repr st l ns xs) : ns.length = xs.length := by
  have := congrArg List.length hR.2.2
  simpa using this

theorem Repr.size_run {st : Mem α} {l : Ref} {ns : List Ptr} {xs : List α}
    (hR : Repr st l ns xs) : List_size l st = .ret xs.length st := by
  simp [List_size, hR.1, hR.length]

theorem Ring.next_sentinel {h : Heap α} {s : Ptr} {ns : List Ptr} (hr : Ring h s ns) :
    nextOf h s = some (ns.headD s) := by
  have hc := hr.2
  cases ns with
  | nil =>
    simp only [List.nil_append, List.cons_append, List.chain'_cons, List.headD_nil] at hc ⊢
    exact hc.1.1
  | cons a t =>
    simp only [List.cons_append, List.chain'_cons, List.headD_cons] at hc ⊢
    exact hc.1.1

theorem Repr.begin_run {st : Mem α} {l : Ref} {ns : List Ptr} {xs : List α}
    (hR : Repr st l ns xs) :
    List_begin l st = .ret (ns.headD (st.lists l).m_sentinel) st := by
  simp only [List_begin, Prog.bind_run, Prog.bind, getSentinel_run]
  exact getNext_run hR.2.1.next_sentinel

theorem iterAt_zero (s : Ptr) (ns : List Ptr) : iterAt s ns 0 = ns.headD s := by
  cases ns <;> rfl

theorem iterAt_length (s : Ptr) (ns : List Ptr) : iterAt s ns ns.length = s := by
  simp [iterAt, List.getD_eq_default]

theorem iterAt_drop (s : Ptr) (ns : List Ptr) (p : Nat) : iterAt s ns p = (ns.drop p).headD s :=
  (headD_drop s ns p).symm

/-- A nonempty index range `[i, j)` of `ns` is a block `f :: B` between `take i` and
`drop j`. -/
theorem split_range (s : Ptr) (ns : List Ptr) {i j : Nat} (hij : i < j) (hj : j ≤ ns.length) :
    ∃ f B, ns = ns.take i ++ (f :: B ++ ns.drop j) ∧ B.length + 1 = j - i ∧
      iterAt s ns i = f ∧ f :: B = (ns.drop i).take (j - i) := by
  have h1 : ns.drop i = (ns.drop i).take (j - i) ++ ns.drop j := by
    have := (List.take_append_drop (j - i) (ns.drop i)).symm
    rw [List.drop_drop] at this
    rwa [show i + (j - i) = j by omega] at this
  have hl : ((ns.drop i).take (j - i)).length = j - i := by
    simp [List.length_take, List.length_drop]; omega
  cases hb : (ns.drop i).take (j - i) with
  | nil => rw [hb] at hl; simp at hl; omega
  | cons f B =>
    refine ⟨f, B, ?_, ?_, ?_, rfl⟩
    · have := (List.take_append_drop i ns).symm
      rw [h1, hb] at this
      exact this
    · rw [hb] at hl; simpa using hl
    · rw [iterAt_drop, h1, hb]
      rfl

theorem take_length_le {β : Type} (ns : List β) {i : Nat} (hi : i ≤ ns.length) :
    (ns.take i).length = i := by
  simp [hi]

theorem List_erase_eq_range {st : Mem α} {l : Ref} {pos nx : Ptr} (fuel : Nat)
    (e : nextOf st.nodes pos = some nx) :
    List_erase fuel l pos st = List_erase_range fuel l pos nx st := by
  simp only [List_erase, Prog.bind_run, Prog.bind, getNext_run e]

theorem List_erase_range_empty (st : Mem α) (l : Ref) (fuel : Nat) (pos : Ptr) :
    List_erase_range fuel l pos pos st = .ret pos st := by
  simp [List_erase_range, Prog.bind]

theorem List_splice_empty (st : Mem α) (l other : Ref) (fuel : Nat) (pos f : Ptr) :
    List_splice fuel l pos other f f st = .ret () st := by
  simp [List_splice, Prog.bind]

/-- Effect of `insert` at index `p`. -/
theorem List_insert_idx {st : Mem α} {l : Ref} {ns : List Ptr} {xs : List α} (p : Nat) (v : α)
    (hf : Fresh st) (hR : Repr st l ns xs) (hp : p ≤ xs.length) :
    ∃ st1, List_insert l (iterAt (st.lists l).m_sentinel ns p) v st = .ret st.brk st1 ∧
      Repr st1 l (ns.take p ++ st.brk :: ns.drop p) (xs.take p ++ v :: xs.drop p) ∧
      Fresh st1 ∧ (st1.lists l).m_sentinel = (st.lists l).m_sentinel ∧
      st.brk ∉ (st.lists l).m_sentinel :: ns := by
  have hlen := hR.length
  have hR' : Repr st l (ns.take p ++ ns.drop p) xs := by
    rw [List.take_append_drop]; exact hR
  obtain ⟨st1, e, h1, h2, h3, h4⟩ := List_insert_repr v hf hR'
  rw [take_length_le ns (by omega)] at h1
  rw [List.take_append_drop] at h4
  exact ⟨st1, by rw [iterAt_drop]; exact e, h1, h2, h3, h4⟩

/-- Effect of `erase(first, last)` on the index range `[i, j)`. -/
theorem List_erase_range_idx {st : Mem α} {l : Ref} {ns : List Ptr} {xs : List α}
    (fuel i j : Nat) (hR : Repr st l ns xs) (hij : i ≤ j) (hj : j ≤ xs.length)
    (hfuel : j - i < fuel) :
    ∃ st1, List_erase_range fuel l (iterAt (st.lists l).m_sentinel ns i)
        (iterAt (st.lists l).m_sentinel ns j) st =
          .ret (iterAt (st.lists l).m_sentinel ns j) st1 ∧
      Repr st1 l (ns.take i ++ ns.drop j) (xs.take i ++ xs.drop j) ∧
      st1.brk = st.brk ∧ (∀ a, (st1.nodes a).isSome → (st.nodes a).isSome) ∧
      (st1.lists l).m_sentinel = (st.lists l).m_sentinel ∧
      (∀ r, r ≠ l → st1.lists r = st.lists r) ∧
      (∀ x, x ∉ (st.lists l).m_sentinel :: ns → st1.nodes x = st.nodes x) := by
  have hlen := hR.length
  by_cases hlt : i < j
  · obtain ⟨f, B, hns, hB, hfi, -⟩ := split_range (st.lists l).m_sentinel ns hlt (by omega)
    have hR' : Repr st l (ns.take i ++ (f :: B ++ ns.drop j)) xs := by
      rw [← hns]; exact hR
    obtain ⟨st1, e, h1, h2, h3, h4, h5, h6⟩ := List_erase_range_repr fuel hR' (by omega)
    rw [take_length_le ns (by omega), show i + (B.length + 1) = j by omega] at h1
    rw [← hns] at h6
    refine ⟨st1, ?_, h1, h2, h3, h4, h5, h6⟩
    rw [hfi, iterAt_drop _ _ j]
    exact e
  · have hie : j = i := by omega
    subst hie
    refine ⟨st, List_erase_range_empty st l fuel _, ?_, rfl, fun _ h => h, rfl, fun _ _ => rfl,
      fun _ _ => rfl⟩
    rw [List.take_append_drop, List.take_append_drop]
    exact hR

theorem iterAt_take_drop (s : Ptr) (ns : List Ptr) {i j : Nat} (hij : i ≤ j)
    (hj : j ≤ ns.length) : iterAt s (ns.take i ++ ns.drop j) i = iterAt s ns j := by
  rw [iterAt_drop, iterAt_drop]
  congr 1
  rw [List.drop_append_of_le_length (by rw [take_length_le ns (by omega)])]
  have : (ns.take i).drop i = [] := by
    apply List.drop_eq_nil_of_le
    simp
  rw [this, List.nil_append]

theorem iterAt_insert (s a : Ptr) (ns : List Ptr) {p : Nat} (hp : p ≤ ns.length) :
    iterAt s (ns.take p ++ a :: ns.drop p) p = a := by
  rw [iterAt_drop, List.drop_append_of_le_length (by rw [take_length_le ns hp])]
  have : (ns.take p).drop p = [] := by
    apply List.drop_eq_nil_of_le
    simp
  rw [this]
  rfl

theorem Ring.next_at_idx {h : Heap α} {s : Ptr} {ns : List Ptr} (hr : Ring h s ns) {i : Nat}
    (hi : i < ns.length) : nextOf h (iterAt s ns i) = some (iterAt s ns (i + 1)) := by
  obtain ⟨f, B, hns, hB, hfi, -⟩ := split_range s ns (show i < i + 1 by omega) hi
  have hB0 : B = [] := List.eq_nil_of_length_eq_zero (by omega)
  subst hB0
  have hr' : Ring h s (ns.take i ++ (f :: ns.drop (i + 1))) := by
    have e : ns.take i ++ (f :: ns.drop (i + 1)) = ns := by
      simpa using hns.symm
    rw [e]; exact hr
  rw [hfi, iterAt_drop _ _ (i + 1)]
  exact hr'.next_mid

end IndexLemmas

section RemoveNoop
variable {α : Type}

/-- The loop of `remove(value)` changes nothing when no remaining element equals `value`. -/
theorem List_removeLoop_noop [DecidableEq α] (l : Ref) (v : α) :
    ∀ (R D : List Ptr) (xsD xsR : List α) (fuel : Nat) (st : Mem α),
      Repr st l (D ++ R) (xsD ++ xsR) → D.length = xsD.length → R.length < fuel →
      (∀ x ∈ xsR, x ≠ v) →
      List_removeLoop l v fuel (R.headD (st.lists l).m_sentinel) st = .ret () st := by
  intro R
  induction R with
  | nil =>
    intro D xsD xsR fuel st hR hl hfuel _
    obtain ⟨k, rfl⟩ : ∃ k, fuel = k + 1 := ⟨fuel - 1, by omega⟩
    simp [List_removeLoop, List_end, Prog.bind]
  | cons a R ih =>
    intro D xsD xsR fuel st hR hl hfuel hall
    obtain ⟨k, rfl⟩ : ∃ k, fuel = k + 1 := ⟨fuel - 1, by omega⟩
    have hlen := map_len hR.2.2
    cases xsR with
    | nil =>
      exfalso
      simp only [List.length_append, List.length_cons, List.append_nil] at hlen
      omega
    | cons x xsR =>
      have hne : a ≠ (st.lists l).m_sentinel := by
        intro e
        have := hR.2.1.1
        rw [List.nodup_cons] at this
        exact this.1 (by rw [← e]; simp)
      have hdat := hR.data_at hl
      have hnx := hR.next_at
      have hv : ¬ (x = v) := hall x (by simp)
      have hR' : Repr st l ((D ++ [a]) ++ R) ((xsD ++ [x]) ++ xsR) := by simpa using hR
      have e2 := ih (D ++ [a]) (xsD ++ [x]) xsR k st hR' (by simp [hl])
        (by simp only [List.length_cons] at hfuel; omega)
        (fun y hy => hall y (by simp [hy]))
      simp only [List_removeLoop, List_end, Prog.bind_run, Prog.bind, getSentinel_run, hne,
        List.headD_cons, Prog.pure_run, if_false, getData_run hdat, hv, getNext_run hnx]
      exact e2

theorem List_remove_noop [DecidableEq α] {st : Mem α} {l : Ref} {ns : List Ptr} {xs : List α}
    (fuel : Nat) (v : α) (hR : Repr st l ns xs) (hfuel : ns.length < fuel)
    (hall : ∀ x ∈ xs, x ≠ v) : List_remove fuel l v st = .ret () st := by
  have e := List_removeLoop_noop l v ns [] [] xs fuel st (by simpa using hR) rfl hfuel hall
  simp only [List_remove, Prog.bind_run, Prog.bind, hR.begin_run]
  exact e

end RemoveNoop

section SpliceIndex
variable {α : Type}

theorem map_data_take {h : Heap α} {ns : List Ptr} {xs : List α}
    (hd : ns.map (dataOf h) = xs.map some) (k : Nat) :
    (ns.take k).map (dataOf h) = (xs.take k).map some := by
  rw [List.map_take, List.map_take, hd]

theorem map_data_drop {h : Heap α} {ns : List Ptr} {xs : List α}
    (hd : ns.map (dataOf h) = xs.map some) (k : Nat) :
    (ns.drop k).map (dataOf h) = (xs.drop k).map some := by
  rw [List.map_drop, List.map_drop, hd]

/-- Effect of `splice` between two distinct lists, by indices. -/
theorem List_splice_cross_idx {st : Mem α} {l1 l2 : Ref} {ns ms : List Ptr} {xs ys : List α}
    (fuel p i j : Nat) (hl : l1 ≠ l2) (hR1 : Repr st l1 ns xs) (hR2 : Repr st l2 ms ys)
    (hdisj : ∀ x ∈ (st.lists l1).m_sentinel :: ns, x ∉ (st.lists l2).m_sentinel :: ms)
    (hp : p ≤ xs.length) (hij : i ≤ j) (hj : j ≤ ys.length) (hfuel : j - i < fuel) :
    ∃ st1, List_splice fuel l1 (iterAt (st.lists l1).m_sentinel ns p) l2
        (iterAt (st.lists l2).m_sentinel ms i) (iterAt (st.lists l2).m_sentinel ms j) st =
          .ret () st1 ∧
      Repr st1 l1 (ns.take p ++ ((ms.drop i).take (j - i) ++ ns.drop p))
        (xs.take p ++ ((ys.drop i).take (j - i) ++ xs.drop p)) ∧
      Repr st1 l2 (ms.take i ++ ms.drop j) (ys.take i ++ ys.drop j) ∧
      st1.brk = st.brk ∧ (∀ x, (st1.nodes x).isSome = (st.nodes x).isSome) := by
  have hlen1 := hR1.length
  have hlen2 := hR2.length
  by_cases hlt : i < j
  · obtain ⟨f, B, hms, hB, hfi, hfB⟩ := split_range (st.lists l2).m_sentinel ms hlt (by omega)
    have hR1' : Repr st l1 (ns.take p ++ ns.drop p) xs := by
      rw [List.take_append_drop]; exact hR1
    have hR2' : Repr st l2 (ms.take i ++ (f :: B ++ ms.drop j)) ys := by
      rw [← hms]; exact hR2
    obtain ⟨st1, e, h1, h2, h3, h4, -⟩ := List_splice_repr_cross fuel hl hR1' hR2'
      (by rw [List.take_append_drop, ← hms]; exact hdisj) (by omega)
    rw [take_length_le ns (by omega), take_length_le ms (by omega),
      show B.length + 1 = j - i from hB] at h1
    rw [take_length_le ms (by omega), show i + (B.length + 1) = j by omega] at h2
    refine ⟨st1, ?_, ?_, h2, h3, h4⟩
    · rw [iterAt_drop _ _ p, hfi, iterAt_drop _ _ j]
      exact e
    · rw [← hfB]
      exact h1
  · have hie : j = i := by omega
    subst hie
    refine ⟨st, List_splice_empty st l1 l2 fuel _ _, ?_, ?_, rfl, fun _ => rfl⟩
    · simp only [Nat.sub_self, List.take_zero, List.nil_append, List.take_append_drop]
      exact hR1
    · rw [List.take_append_drop, List.take_append_drop]
      exact hR2

/-- Effect of a self-splice whose position lies before the moved block. -/
theorem List_splice_self_before {st : Mem α} {l : Ref} {ns : List Ptr} {xs : List α}
    (fuel p i j : Nat) (hR : Repr st l ns xs) (hpi : p < i) (hij : i < j) (hj : j ≤ xs.length) :
    ∃ st1, List_splice fuel l (iterAt (st.lists l).m_sentinel ns p) l
        (iterAt (st.lists l).m_sentinel ns i) (iterAt (st.lists l).m_sentinel ns j) st =
          .ret () st1 ∧
      Repr st1 l (ns.take p ++ ((ns.drop i).take (j - i) ++ ((ns.take i).drop p ++ ns.drop j)))
        (xs.take p ++ ((xs.drop i).take (j - i) ++ ((xs.take i).drop p ++ xs.drop j))) ∧
      st1.brk = st.brk ∧ (∀ x, (st1.nodes x).isSome = (st.nodes x).isSome) ∧
      (st1.lists l).m_sentinel = (st.lists l).m_sentinel := by
  have hlen := hR.length
  obtain ⟨f, B, hns, hB, hfi, hfB⟩ := split_range (st.lists l).m_sentinel ns hij (by omega)
  have hR' : Repr st l (ns.take i ++ (f :: B ++ ns.drop j)) xs := by
    rw [← hns]; exact hR
  have htp : ns.take i = ns.take p ++ (ns.take i).drop p := by
    have := (List.take_append_drop p (ns.take i)).symm
    rwa [List.take_take, Nat.min_eq_left (Nat.le_of_lt hpi)] at this
  have hsplit : ns.take i ++ ns.drop j = ns.take p ++ ((ns.take i).drop p ++ ns.drop j) := by
    rw [← List.append_assoc, ← htp]
  have hd := hR.2.2
  have hys : (ns.take p ++ (f :: B ++ ((ns.take i).drop p ++ ns.drop j))).map (dataOf st.nodes)
      = (xs.take p ++ ((xs.drop i).take (j - i) ++ ((xs.take i).drop p ++ xs.drop j))).map
        some := by
    rw [hfB]
    simp only [List.map_append, List.map_take, List.map_drop, hd]
  obtain ⟨st1, e, h1, -, h3, h4, h5, -⟩ := List_splice_repr_self fuel hR' hsplit hys
  refine ⟨st1, ?_, ?_, h3, h4, h5⟩
  · have hpos : iterAt (st.lists l).m_sentinel ns p =
        ((ns.take i).drop p ++ ns.drop j).headD (st.lists l).m_sentinel := by
      rw [iterAt_drop]
      have : ns.drop p = (ns.take i).drop p ++ ns.drop i := by
        have h0 := congrArg (List.drop p) (List.take_append_drop i ns).symm
        rw [List.drop_append_of_le_length (by rw [take_length_le ns (by omega)]; omega)] at h0
        exact h0
      rw [this]
      have hne : (ns.take i).drop p ≠ [] := by
        intro e0
        have := congrArg List.length e0
        simp [List.length_drop, List.length_take] at this
        omega
      cases hc : (ns.take i).drop p with
      | nil => exact absurd hc hne
      | cons c t => rfl
    rw [hpos, hfi, iterAt_drop _ _ j]
    exact e
  · rw [← hfB]
    exact h1

/-- Effect of a self-splice whose position lies at or after the end of the moved block. -/
theorem List_splice_self_after {st : Mem α} {l : Ref} {ns : List Ptr} {xs : List α}
    (fuel p i j : Nat) (hR : Repr st l ns xs) (hij : i < j) (hjp : j ≤ p) (hp : p ≤ xs.length) :
    ∃ st1, List_splice fuel l (iterAt (st.lists l).m_sentinel ns p) l
        (iterAt (st.lists l).m_sentinel ns i) (iterAt (st.lists l).m_sentinel ns j) st =
          .ret () st1 ∧
      Repr st1 l (ns.take i ++ ((ns.take p).drop j ++ ((ns.drop i).take (j - i) ++ ns.drop p)))
        (xs.take i ++ ((xs.take p).drop j ++ ((xs.drop i).take (j - i) ++ xs.drop p))) ∧
      st1.brk = st.brk ∧ (∀ x, (st1.nodes x).isSome = (st.nodes x).isSome) ∧
      (st1.lists l).m_sentinel = (st.lists l).m_sentinel := by
  have hlen := hR.length
  obtain ⟨f, B, hns, hB, hfi, hfB⟩ := split_range (st.lists l).m_sentinel ns hij (by omega)
  have hR' : Repr st l (ns.take i ++ (f :: B ++ ns.drop j)) xs := by
    rw [← hns]; exact hR
  have hdj : ns.drop j = (ns.take p).drop j ++ ns.drop p := by
    have h0 := congrArg (List.drop j) (List.take_append_drop p ns).symm
    rw [List.drop_append_of_le_length (by rw [take_length_le ns (by omega)]; omega)] at h0
    exact h0
  have hsplit : ns.take i ++ ns.drop j = (ns.take i ++ (ns.take p).drop j) ++ ns.drop p := by
    rw [List.append_assoc, ← hdj]
  have hd := hR.2.2
  have hys : ((ns.take i ++ (ns.take p).drop j) ++ (f :: B ++ ns.drop p)).map (dataOf st.nodes)
      = (xs.take i ++ ((xs.take p).drop j ++ ((xs.drop i).take (j - i) ++ xs.drop p))).map
        some := by
    rw [hfB]
    simp only [List.map_append, List.map_take, List.map_drop, hd, List.append_assoc]
  obtain ⟨st1, e, h1, -, h3, h4, h5, -⟩ := List_splice_repr_self fuel hR' hsplit hys
  refine ⟨st1, ?_, ?_, h3, h4, h5⟩
  · rw [iterAt_drop _ _ p, hfi, iterAt_drop _ _ j]
    exact e
  · rw [← hfB, ← List.append_assoc]
    exact h1

end SpliceIndex

section ExampleLemmas
variable {α : Type}

theorem exists_data {h : Heap α} :
    ∀ ns : List Ptr, (∀ a ∈ ns, (h a).isSome) → ∃ xs : List α, ns.map (dataOf h) = xs.map some := by
  intro ns
  induction ns with
  | nil => intro _; exact ⟨[], rfl⟩
  | cons a t ih =>
    intro hl
    obtain ⟨xs, hxs⟩ := ih (fun b hb => hl b (by simp [hb]))
    obtain ⟨n, hn⟩ := Option.isSome_iff_exists.mp (hl a (by simp))
    refine ⟨n.data :: xs, ?_⟩
    simp only [List.map_cons, hxs, dataOf, hn, Option.map_some']

theorem RingAt.repr {st : Mem α} {l : Ref} {ns : List Ptr} (hr : RingAt st l ns) :
    ∃ xs, Repr st l ns xs := by
  obtain ⟨xs, hxs⟩ := exists_data (h := st.nodes) ns
    (fun a ha => hr.2.live a (by simp [ha]))
  exact ⟨xs, hr.1, hr.2, hxs⟩

theorem Repr.ringAt {st : Mem α} {l : Ref} {ns : List Ptr} {xs : List α}
    (hR : Repr st l ns xs) : RingAt st l ns := ⟨hR.1, hR.2.1⟩

theorem Repr.ringInv {st : Mem α} {l : Ref} {ns : List Ptr} {xs : List α}
    (hR : Repr st l ns xs) : RingInv st l := ⟨ns, hR.ringAt⟩

theorem exMem_fresh : Fresh exMem := by
  intro a ha
  have h7 : 7 ≤ a := ha
  have hne : ∀ k, k < 7 → ¬ (a = k) := fun k hk e => by
    rw [e] at h7
    exact absurd h7 (Nat.not_le.mpr hk)
  show (if a = 0 then some (Node.mk 0 3 1)
      else if a = 1 then some (Node.mk 10 0 2)
      else if a = 2 then some (Node.mk 20 1 3)
      else if a = 3 then some (Node.mk 30 2 0)
      else if a = 4 then some (Node.mk 0 6 5)
      else if a = 5 then some (Node.mk 40 4 6)
      else if a = 6 then some (Node.mk 50 5 4)
      else none) = none
  rw [if_neg (hne 0 (by decide)), if_neg (hne 1 (by decide)), if_neg (hne 2 (by decide)),
    if_neg (hne 3 (by decide)), if_neg (hne 4 (by decide)), if_neg (hne 5 (by decide)),
    if_neg (hne 6 (by decide))]

theorem exVec_fresh : VFresh exVec := by
  intro a ha
  have h1 : 1 ≤ a := ha
  have hne : ¬ (a = 0) := fun e => by
    rw [e] at h1
    exact absurd h1 (by decide)
  show (if a = 0 then _ else none) = none
  rw [if_neg hne]

theorem Vector_size_run (st : VMem α) (v : Ref) :
    Vector_size v st = .ret (st.vecs v).m_size st := by
  simp [Vector_size, Prog.bind]

theorem Vector_capacity_run (st : VMem α) (v : Ref) :
    Vector_capacity v st = .ret (st.vecs v).m_capacity st := by
  simp [Vector_capacity, Prog.bind]

theorem exMem_repr0 : Repr exMem 0 [1, 2, 3] [10, 20, 30] := by
  refine ⟨rfl, ⟨by decide, ?_⟩, by decide⟩
  show List.Chain' (Linked exMem.nodes) [0, 1, 2, 3, 0]
  simp only [List.chain'_cons, List.chain'_singleton, and_true]
  decide

theorem exMem_repr1 : Repr exMem 1 [5, 6] [40, 50] := by
  refine ⟨rfl, ⟨by decide, ?_⟩, by decide⟩
  show List.Chain' (Linked exMem.nodes) [4, 5, 6, 4]
  simp only [List.chain'_cons, List.chain'_singleton, and_true]
  decide

theorem exMem_disjoint : ∀ x ∈ (exMem.lists 0).m_sentinel :: [1, 2, 3],
    x ∉ (exMem.lists 1).m_sentinel :: [5, 6] := by decide

theorem exVec_repr : VRepr exVec 0 [10, 20, 30] := by decide

end ExampleLemmas

section ListClaimLemmas
variable {α : Type}

theorem take_append_take_drop {β : Type} (xs : List β) {p i : Nat} (hpi : p ≤ i) :
    xs.take p ++ (xs.take i).drop p = xs.take i := by
  have := List.take_append_drop p (xs.take i)
  rwa [List.take_take, Nat.min_eq_left hpi] at this

theorem drop_take_append_drop {β : Type} (xs : List β) {j p : Nat} (hjp : j ≤ p) :
    (xs.take p).drop j ++ xs.drop p = xs.drop j := by
  by_cases hp : p ≤ xs.length
  · have h0 := congrArg (List.drop j) (List.take_append_drop p xs)
    rw [List.drop_append_of_le_length (by rw [take_length_le xs hp]; exact hjp)] at h0
    exact h0
  · have h1 : xs.take p = xs := List.take_of_length_le (by omega)
    have h2 : xs.drop p = [] := List.drop_eq_nil_of_le (by omega)
    rw [h1, h2, List.append_nil]

theorem List_end_run (st : Mem α) (l : Ref) :
    List_end l st = .ret (st.lists l).m_sentinel st := rfl

theorem iterAt_ne_brk {st : Mem α} {l : Ref} {ns : List Ptr}
    (h : st.brk ∉ (st.lists l).m_sentinel :: ns) : st.brk ≠ (st.lists l).m_sentinel := by
  intro e
  apply h
  rw [← e]
  simp

/-- Effect of a self-splice whose position is not inside the moved block. -/
theorem List_splice_self_idx {st : Mem α} {l : Ref} {ns : List Ptr} {xs : List α}
    (fuel p i j : Nat) (hR : Repr st l ns xs) (hij : i ≤ j) (hj : j ≤ xs.length)
    (hp : p ≤ xs.length) (hout : p < i ∨ j ≤ p ∨ i = j) :
    ∃ st1 ns1, List_splice fuel l (iterAt (st.lists l).m_sentinel ns p) l
        (iterAt (st.lists l).m_sentinel ns i) (iterAt (st.lists l).m_sentinel ns j) st =
          .ret () st1 ∧
      Repr st1 l ns1
        (if p ≤ i then xs.take p ++ ((xs.drop i).take (j - i) ++ ((xs.take i).drop p ++ xs.drop j))
         else xs.take i ++ ((xs.take p).drop j ++ ((xs.drop i).take (j - i) ++ xs.drop p))) := by
  by_cases hlt : i < j
  · by_cases hpi : p < i
    · obtain ⟨st1, e, h1, -⟩ := List_splice_self_before fuel p i j hR hpi hlt hj
      refine ⟨st1, ns.take p ++ ((ns.drop i).take (j - i) ++
        ((ns.take i).drop p ++ ns.drop j)), e, ?_⟩
      rw [if_pos (Nat.le_of_lt hpi)]
      exact h1
    · have hjp : j ≤ p := by omega
      obtain ⟨st1, e, h1, -⟩ := List_splice_self_after fuel p i j hR hlt hjp hp
      refine ⟨st1, ns.take i ++ ((ns.take p).drop j ++
        ((ns.drop i).take (j - i) ++ ns.drop p)), e, ?_⟩
      rw [if_neg (by omega)]
      exact h1
  · have hie : j = i := by omega
    subst hie
    refine ⟨st, ns, List_splice_empty st l l fuel _ _, ?_⟩
    have h0 : (xs.drop j).take (j - j) = [] := by simp
    by_cases hpj : p ≤ j
    · rw [if_pos hpj, h0, List.nil_append, ← List.append_assoc,
        take_append_take_drop xs hpj, List.take_append_drop]
      exact hR
    · rw [if_neg hpj, h0, List.nil_append, drop_take_append_drop xs (by omega),
        List.take_append_drop]
      exact hR

/-- In a ring, the node after the sentinel points back to the sentinel. -/
theorem Ring.head_prev {h : Heap α} {s a : Ptr} {ns : List Ptr} (hr : Ring h s ns)
    (hn : nextOf h s = some a) : prevOf h a = some s := by
  have hc := hr.2
  cases ns with
  | nil =>
    simp only [List.nil_append, List.cons_append, List.chain'_cons] at hc
    have := hc.1.1
    rw [hn] at this
    rw [Option.some.inj this]
    exact hc.1.2
  | cons b t =>
    simp only [List.cons_append, List.chain'_cons] at hc
    have := hc.1.1
    rw [hn] at this
    rw [Option.some.inj this]
    exact hc.1.2

end ListClaimLemmas

section RingClaim
variable {α : Type}

theorem final_of_ret {σ ρ : Type} {o : Outcome σ ρ} {r : ρ} {s : σ} (h : o = .ret r s) :
    o.final = some s := by
  rw [h]; rfl

theorem forall_mem_one {P : Ref → Prop} {a : Ref} (h : P a) : ∀ l ∈ [a], P l := by
  intro l hl
  rw [List.mem_singleton] at hl
  rw [hl]
  exact h

theorem forall_mem_two {P : Ref → Prop} {a b : Ref} (ha : P a) (hb : P b) :
    ∀ l ∈ [a, b], P l := by
  intro l hl
  simp only [List.mem_cons, List.mem_singleton, List.not_mem_nil, or_false] at hl
  rcases hl with h | h
  · rw [h]; exact ha
  · rw [h]; exact hb

/-- After `swap`, each of the two list objects owns the ring of the other. -/
theorem List_swap_ring {st : Mem α} {this other : Ref} (h1 : RingInv st this)
    (h2 : RingInv st other) :
    ∃ st1, List_swap this other st = .ret () st1 ∧ RingInv st1 this ∧ RingInv st1 other := by
  obtain ⟨ns, hn⟩ := h1
  obtain ⟨ms, hm⟩ := h2
  refine ⟨_, List_swap_run st this other, ?_, ?_⟩
  · by_cases e : this = other
    · refine ⟨ns, ?_⟩
      show RingAt (Mem.mk st.nodes st.brk _) this ns
      unfold RingAt
      simp only [if_pos e]
      exact hn
    · refine ⟨ms, ?_⟩
      show RingAt (Mem.mk st.nodes st.brk _) this ms
      unfold RingAt
      simp only [if_neg e, if_true]
      exact hm
  · refine ⟨ns, ?_⟩
    show RingAt (Mem.mk st.nodes st.brk _) other ns
    unfold RingAt
    simp only [if_true]
    exact hn

end RingClaim

section RingClaimMain
variable {α : Type}

end RingClaimMain

section VectorClaims
variable {α : Type}

/-- C2: for a `Vector` holding the elements `xs`, every index `i ≤ |xs|` and every value
(passed by value, so it aliases no element), `insert(begin() + i, value)` returns normally,
leaves the elements `take i xs ++ [value] ++ drop i xs`, increases `size()` by exactly one
and returns `begin() + i` of the resulting vector; this holds with spare capacity and,
when the allocator can provide the grown buffer, without it. -/
theorem C2_vector_insert [ValType α] (st : VMem α) (v : Ref) (xs : List α) (i : Nat)
    (value : α) (hf : VFresh st) (hR : VRepr st v xs) (hi : i ≤ xs.length)
    (hav : ¬ (st.vecs v).m_size < (st.vecs v).m_capacity →
      (if (st.vecs v).m_capacity = 0 then 1 else (st.vecs v).m_capacity * 2) ≤ st.avail) :
    ∃ b it st1 b1, Vector_begin v st = .ret b st ∧
      Vector_insert v (b.add i) value st = .ret it st1 ∧
      VRepr st1 v (xs.take i ++ [value] ++ xs.drop i) ∧
      Vector_size v st = .ret xs.length st ∧
      Vector_size v st1 = .ret (xs.length + 1) st1 ∧
      Vector_begin v st1 = .ret b1 st1 ∧ it = b1.add i := by
  obtain ⟨st1, e, hR1, hs1, -, -, -⟩ := Vector_insert_spec i value hf hR hi hav
  refine ⟨VIter.mk (st.vecs v).m_data 0, VIter.mk (st1.vecs v).m_data i, st1,
    VIter.mk (st1.vecs v).m_data 0, Vector_begin_run st v, ?_, ?_, ?_, ?_,
    Vector_begin_run st1 v, ?_⟩
  · simp only [VIter.add, Nat.zero_add]
    exact e
  · simpa using hR1
  · rw [Vector_size_run, hR.1]
  · rw [Vector_size_run, hs1, hR.1]
  · simp only [VIter.add, Nat.zero_add]

/-- Instance of C2: inserting `99` at index `1` of the full vector `[10, 20, 30]`. -/
theorem C2_vector_insert_witness :
    ∃ b it st1 b1, Vector_begin 0 exVec = .ret b exVec ∧
      Vector_insert 0 (b.add 1) 99 exVec = .ret it st1 ∧
      VRepr st1 0 (([10, 20, 30] : List Nat).take 1 ++ [99] ++ ([10, 20, 30] : List Nat).drop 1) ∧
      Vector_size 0 exVec = .ret ([10, 20, 30] : List Nat).length exVec ∧
      Vector_size 0 st1 = .ret (([10, 20, 30] : List Nat).length + 1) st1 ∧
      Vector_begin 0 st1 = .ret b1 st1 ∧ it = b1.add 1 :=
  C2_vector_insert exVec 0 [10, 20, 30] 1 99 exVec_fresh exVec_repr (by decide) (by decide)

/-- C3: for a `Vector` holding the elements `xs` and every range `i ≤ j ≤ |xs|`,
`erase(begin() + i, begin() + j)` returns normally, leaves the elements
`take i xs ++ drop j xs`, decreases `size()` by exactly `j - i`, leaves `capacity()`
unchanged and returns `begin() + i`, which is `end()` when `j = |xs|`; `erase(pos)` is the
case `j = i + 1`. -/
theorem C3_vector_erase [ValType α] (st : VMem α) (v : Ref) (xs : List α) (fuel i j : Nat)
    (hR : VRepr st v xs) (hij : i ≤ j) (hj : j ≤ xs.length) (hfuel : xs.length - j < fuel) :
    ∃ b it st1 b1 c, Vector_begin v st = .ret b st ∧
      Vector_erase_range fuel v (b.add i) (b.add j) st = .ret it st1 ∧
      VRepr st1 v (xs.take i ++ xs.drop j) ∧
      Vector_size v st = .ret xs.length st ∧
      Vector_size v st1 = .ret (xs.length - (j - i)) st1 ∧
      Vector_capacity v st = .ret c st ∧ Vector_capacity v st1 = .ret c st1 ∧
      Vector_begin v st1 = .ret b1 st1 ∧ it = b1.add i ∧
      (j = xs.length → Vector_end v st1 = .ret it st1) ∧
      (j = i + 1 → Vector_erase fuel v (b.add i) st = .ret it st1) := by
  obtain ⟨st1, e, hR1, hv1, -⟩ := Vector_erase_range_spec fuel i j hR hij hj hfuel
  refine ⟨VIter.mk (st.vecs v).m_data 0, VIter.mk (st1.vecs v).m_data i, st1,
    VIter.mk (st1.vecs v).m_data 0, (st.vecs v).m_capacity, Vector_begin_run st v, ?_, hR1, ?_,
    ?_, Vector_capacity_run st v, ?_, Vector_begin_run st1 v, ?_, ?_, ?_⟩
  · simp only [VIter.add, Nat.zero_add]
    exact e
  · rw [Vector_size_run, hR.1]
  · rw [Vector_size_run, hv1]
  · rw [Vector_capacity_run, hv1]
  · simp only [VIter.add, Nat.zero_add]
  · intro hje
    rw [Vector_end_run, hv1]
    have : xs.length - (j - i) = i := by omega
    simp only [this]
  · intro hje
    subst hje
    simp only [Vector_erase, VIter.add, Nat.zero_add]
    exact e

/-- Instance of C3: erasing the range `[1, 3)` of the vector `[10, 20, 30]`. -/
theorem C3_vector_erase_witness :
    ∃ b it st1 b1 c, Vector_begin 0 exVec = .ret b exVec ∧
      Vector_erase_range 5 0 (b.add 1) (b.add 3) exVec = .ret it st1 ∧
      VRepr st1 0 (([10, 20, 30] : List Nat).take 1 ++ ([10, 20, 30] : List Nat).drop 3) ∧
      Vector_size 0 exVec = .ret ([10, 20, 30] : List Nat).length exVec ∧
      Vector_size 0 st1 = .ret (([10, 20, 30] : List Nat).length - (3 - 1)) st1 ∧
      Vector_capacity 0 exVec = .ret c exVec ∧ Vector_capacity 0 st1 = .ret c st1 ∧
      Vector_begin 0 st1 = .ret b1 st1 ∧ it = b1.add 1 ∧
      (3 = ([10, 20, 30] : List Nat).length → Vector_end 0 st1 = .ret it st1) ∧
      (3 = 1 + 1 → Vector_erase 5 0 (b.add 1) exVec = .ret it st1) :=
  C3_vector_erase exVec 0 [10, 20, 30] 5 1 3 exVec_repr (by decide) (by decide) (by decide)

end VectorClaims

section ListClaims
variable {α : Type}

/-- C4: for two distinct lists `l1` (contents `xs`) and `l2` (contents `ys`) on disjoint
nodes, every position `p ≤ |xs|` of `l1` and every range `i ≤ j ≤ |ys|` of `l2`,
`l1.splice(pos_p, l2, first_i, last_j)` returns normally, leaves `l1` with the contents
`take p xs ++ ys[i..j) ++ drop p xs` and size `|xs| + (j - i)`, and `l2` with the contents
`take i ys ++ drop j ys` and size `|ys| - (j - i)`. -/
theorem C4_list_splice (st : Mem α) (l1 l2 : Ref) (ns ms : List Ptr) (xs ys : List α)
    (fuel p i j : Nat) (hl : l1 ≠ l2) (hR1 : Repr st l1 ns xs) (hR2 : Repr st l2 ms ys)
    (hdisj : ∀ x ∈ (st.lists l1).m_sentinel :: ns, x ∉ (st.lists l2).m_sentinel :: ms)
    (hp : p ≤ xs.length) (hij : i ≤ j) (hj : j ≤ ys.length) (hfuel : j - i < fuel) :
    ∃ st1 ns1 ms1, List_splice fuel l1 (iterAt (st.lists l1).m_sentinel ns p) l2
        (iterAt (st.lists l2).m_sentinel ms i) (iterAt (st.lists l2).m_sentinel ms j) st =
          .ret () st1 ∧
      Repr st1 l1 ns1 (xs.take p ++ (ys.drop i).take (j - i) ++ xs.drop p) ∧
      List_size l1 st1 = .ret (xs.length + (j - i)) st1 ∧
      Repr st1 l2 ms1 (ys.take i ++ ys.drop j) ∧
      List_size l2 st1 = .ret (ys.length - (j - i)) st1 := by
  obtain ⟨st1, e, h1, h2, -⟩ := List_splice_cross_idx fuel p i j hl hR1 hR2 hdisj hp hij hj hfuel
  refine ⟨st1, _, _, e, by simpa using h1, ?_, h2, ?_⟩
  · rw [h1.size_run]
    congr 1
    simp only [List.length_append, List.length_take, List.length_drop]
    omega
  · rw [h2.size_run]
    congr 1
    simp only [List.length_append, List.length_take, List.length_drop]
    omega

/-- Instance of C4: splicing the whole of `[40, 50]` before index `1` of `[10, 20, 30]`. -/
theorem C4_list_splice_witness :
    ∃ st1 ns1 ms1, List_splice 5 0 (iterAt (exMem.lists 0).m_sentinel [1, 2, 3] 1) 1
        (iterAt (exMem.lists 1).m_sentinel [5, 6] 0)
        (iterAt (exMem.lists 1).m_sentinel [5, 6] 2) exMem = .ret () st1 ∧
      Repr st1 0 ns1 (([10, 20, 30] : List Nat).take 1 ++
        (([40, 50] : List Nat).drop 0).take (2 - 0) ++ ([10, 20, 30] : List Nat).drop 1) ∧
      List_size 0 st1 = .ret (([10, 20, 30] : List Nat).length + (2 - 0)) st1 ∧
      Repr st1 1 ms1 (([40, 50] : List Nat).take 0 ++ ([40, 50] : List Nat).drop 2) ∧
      List_size 1 st1 = .ret (([40, 50] : List Nat).length - (2 - 0)) st1 :=
  C4_list_splice exMem 0 1 [1, 2, 3] [5, 6] [10, 20, 30] [40, 50] 5 1 0 2 (by decide)
    exMem_repr0 exMem_repr1 exMem_disjoint (by decide) (by decide) (by decide) (by decide)

/-- C5 (amended): for a list with contents `xs`, a range `i ≤ j ≤ |xs|` and a position
`p ≤ |xs|` that is strictly before the moved block, at or after its end, or arbitrary
when the block is empty (`p < i`, `j ≤ p`, or `i = j`), the self-splice
`l.splice(pos_p, l, first_i, last_j)` returns normally, leaves `size()` unchanged and
leaves the contents equal to `xs` with the block `xs[i..j)` removed and re-inserted
before the element originally at index `p`; for `p = 0` and `j = |xs|` this is the
rotation `drop i xs ++ take i xs`. -/
theorem C5_list_splice_self (st : Mem α) (l : Ref) (ns : List Ptr) (xs : List α)
    (fuel p i j : Nat) (hR : Repr st l ns xs) (hij : i ≤ j) (hj : j ≤ xs.length)
    (hp : p ≤ xs.length) (hout : p < i ∨ j ≤ p ∨ i = j) :
    ∃ st1 ns1, List_splice fuel l (iterAt (st.lists l).m_sentinel ns p) l
        (iterAt (st.lists l).m_sentinel ns i) (iterAt (st.lists l).m_sentinel ns j) st =
          .ret () st1 ∧
      List_size l st = .ret xs.length st ∧ List_size l st1 = .ret xs.length st1 ∧
      Repr st1 l ns1
        (if p ≤ i then xs.take p ++ ((xs.drop i).take (j - i) ++ ((xs.take i).drop p ++ xs.drop j))
         else xs.take i ++ ((xs.take p).drop j ++ ((xs.drop i).take (j - i) ++ xs.drop p))) ∧
      (p = 0 → j = xs.length → Repr st1 l ns1 (xs.drop i ++ xs.take i)) := by
  obtain ⟨st1, ns1, e, h1⟩ := List_splice_self_idx fuel p i j hR hij hj hp hout
  have hlen : (if p ≤ i then
        xs.take p ++ ((xs.drop i).take (j - i) ++ ((xs.take i).drop p ++ xs.drop j))
      else xs.take i ++ ((xs.take p).drop j ++ ((xs.drop i).take (j - i) ++ xs.drop p))).length
      = xs.length := by
    split <;> simp only [List.length_append, List.length_take, List.length_drop] <;> omega
  refine ⟨st1, ns1, e, hR.size_run, ?_, h1, ?_⟩
  · rw [h1.size_run, hlen]
  · intro hp0 hje
    subst hp0
    subst hje
    rw [if_pos (Nat.zero_le _)] at h1
    have : xs.take 0 ++ ((xs.drop i).take (xs.length - i) ++
        ((xs.take i).drop 0 ++ xs.drop xs.length)) = xs.drop i ++ xs.take i := by
      simp
    rw [this] at h1
    exact h1

/-- Instance of C5 (amended): rotating `[10, 20, 30]` by one with
`splice(begin(), l, begin() + 1, end())`. -/
theorem C5_list_splice_self_witness :
    ∃ st1 ns1, List_splice 5 0 (iterAt (exMem.lists 0).m_sentinel [1, 2, 3] 0) 0
        (iterAt (exMem.lists 0).m_sentinel [1, 2, 3] 1)
        (iterAt (exMem.lists 0).m_sentinel [1, 2, 3] 3) exMem = .ret () st1 ∧
      List_size 0 exMem = .ret ([10, 20, 30] : List Nat).length exMem ∧
      List_size 0 st1 = .ret ([10, 20, 30] : List Nat).length st1 ∧
      Repr st1 0 ns1
        (if 0 ≤ 1 then ([10, 20, 30] : List Nat).take 0 ++
            ((([10, 20, 30] : List Nat).drop 1).take (3 - 1) ++
              ((([10, 20, 30] : List Nat).take 1).drop 0 ++ ([10, 20, 30] : List Nat).drop 3))
         else ([10, 20, 30] : List Nat).take 1 ++
            ((([10, 20, 30] : List Nat).take 0).drop 3 ++
              ((([10, 20, 30] : List Nat).drop 1).take (3 - 1) ++
                ([10, 20, 30] : List Nat).drop 0))) ∧
      (0 = 0 → 3 = ([10, 20, 30] : List Nat).length →
        Repr st1 0 ns1 (([10, 20, 30] : List Nat).drop 1 ++ ([10, 20, 30] : List Nat).take 1)) :=
  C5_list_splice_self exMem 0 [1, 2, 3] [10, 20, 30] 5 0 1 3 exMem_repr0 (by decide) (by decide)
    (by decide) (by decide)

/-- C5 as stated fails: on the list `[10, 20, 30]` the self-splice
`splice(begin(), l, begin(), end())` (position `p = 0 ≤ i = 0`, range `[0, 3)`, the
rotation by `k = 0`) returns in a state where the list object holds no contents at all:
`sentinel.next` is node `1` but `1.prev` is node `3`, so no ring is left. -/
theorem C5_counterexample :
    Repr exMem 0 [1, 2, 3] [10, 20, 30] ∧ (0 ≤ 0 ∧ 0 ≤ 3 ∧ 3 ≤ ([10, 20, 30] : List Nat).length) ∧
    ∃ st1, List_splice 5 0 (iterAt (exMem.lists 0).m_sentinel [1, 2, 3] 0) 0
        (iterAt (exMem.lists 0).m_sentinel [1, 2, 3] 0)
        (iterAt (exMem.lists 0).m_sentinel [1, 2, 3] 3) exMem = .ret () st1 ∧
      ∀ ns ys, ¬ Repr st1 0 ns ys := by
  refine ⟨exMem_repr0, by decide, ?_⟩
  have e : (List_splice 5 0 (iterAt (exMem.lists 0).m_sentinel [1, 2, 3] 0) 0
        (iterAt (exMem.lists 0).m_sentinel [1, 2, 3] 0)
        (iterAt (exMem.lists 0).m_sentinel [1, 2, 3] 3) exMem).final.map
      (fun s => ((s.lists 0).m_sentinel, nextOf s.nodes 0, prevOf s.nodes 1)) =
      some (0, some 1, some 3) := by decide
  cases hO : List_splice 5 0 (iterAt (exMem.lists 0).m_sentinel [1, 2, 3] 0) 0
        (iterAt (exMem.lists 0).m_sentinel [1, 2, 3] 0)
        (iterAt (exMem.lists 0).m_sentinel [1, 2, 3] 3) exMem with
  | ret r st1 =>
    rw [hO] at e
    simp only [Outcome.final, Option.map_some', Option.some.injEq, Prod.mk.injEq] at e
    obtain ⟨hs, hn, hp⟩ := e
    refine ⟨st1, rfl, ?_⟩
    intro ns ys hR
    have hr := hR.2.1
    rw [hs] at hr
    have := hr.head_prev hn
    rw [hp] at this
    exact absurd this (by decide)
  | raise x s => rw [hO] at e; simp [Outcome.final] at e
  | undefined => rw [hO] at e; simp [Outcome.final] at e
  | spent => rw [hO] at e; simp [Outcome.final] at e

end ListClaims

section ListClaims2
variable {α : Type}

/-- C6: for a list with contents `xs` and every range `i ≤ j ≤ |xs|`,
`erase(first_i, last_j)` returns normally, leaves the contents `take i xs ++ drop j xs`,
decreases `size()` by exactly `j - i`, and returns an iterator equal to `last`: it
designates the element originally at index `j` (now at index `i`), and is `end()` when
`j = |xs|`; `erase(pos)` at a position `i < |xs|` is the case `j = i + 1`. -/
theorem C6_list_erase (st : Mem α) (l : Ref) (ns : List Ptr) (xs : List α) (fuel i j : Nat)
    (hR : Repr st l ns xs) (hij : i ≤ j) (hj : j ≤ xs.length) (hfuel : j - i < fuel) :
    ∃ it st1 ns1, List_erase_range fuel l (iterAt (st.lists l).m_sentinel ns i)
        (iterAt (st.lists l).m_sentinel ns j) st = .ret it st1 ∧
      Repr st1 l ns1 (xs.take i ++ xs.drop j) ∧
      List_size l st = .ret xs.length st ∧
      List_size l st1 = .ret (xs.length - (j - i)) st1 ∧
      it = iterAt (st.lists l).m_sentinel ns j ∧
      it = iterAt (st1.lists l).m_sentinel ns1 i ∧
      (j = xs.length → List_end l st1 = .ret it st1) ∧
      (j = i + 1 → List_erase fuel l (iterAt (st.lists l).m_sentinel ns i) st = .ret it st1) := by
  have hlen := hR.length
  obtain ⟨st1, e, h1, -, -, hs, -⟩ := List_erase_range_idx fuel i j hR hij hj hfuel
  refine ⟨iterAt (st.lists l).m_sentinel ns j, st1, ns.take i ++ ns.drop j, e, h1, hR.size_run,
    ?_, rfl, ?_, ?_, ?_⟩
  · rw [h1.size_run]
    congr 1
    simp only [List.length_append, List.length_take, List.length_drop]
    omega
  · rw [hs, iterAt_take_drop _ ns hij (by omega)]
  · intro hje
    rw [List_end_run, hs, hje, ← hlen, iterAt_length]
  · intro hje
    subst hje
    rw [List_erase_eq_range fuel (hR.2.1.next_at_idx (by omega))]
    exact e

/-- Instance of C6: erasing the range `[1, 2)` of `[10, 20, 30]`. -/
theorem C6_list_erase_witness :
    ∃ it st1 ns1, List_erase_range 5 0 (iterAt (exMem.lists 0).m_sentinel [1, 2, 3] 1)
        (iterAt (exMem.lists 0).m_sentinel [1, 2, 3] 2) exMem = .ret it st1 ∧
      Repr st1 0 ns1 (([10, 20, 30] : List Nat).take 1 ++ ([10, 20, 30] : List Nat).drop 2) ∧
      List_size 0 exMem = .ret ([10, 20, 30] : List Nat).length exMem ∧
      List_size 0 st1 = .ret (([10, 20, 30] : List Nat).length - (2 - 1)) st1 ∧
      it = iterAt (exMem.lists 0).m_sentinel [1, 2, 3] 2 ∧
      it = iterAt (st1.lists 0).m_sentinel ns1 1 ∧
      (2 = ([10, 20, 30] : List Nat).length → List_end 0 st1 = .ret it st1) ∧
      (2 = 1 + 1 →
        List_erase 5 0 (iterAt (exMem.lists 0).m_sentinel [1, 2, 3] 1) exMem = .ret it st1) :=
  C6_list_erase exMem 0 [1, 2, 3] [10, 20, 30] 5 1 2 exMem_repr0 (by decide) (by decide)
    (by decide)

/-- C7: for a list with contents `xs` and a value `v` (passed by value, so it aliases no
element), `remove(v)` returns normally, leaves the contents equal to the elements of `xs`
different from `v` in their original order, `size()` equal to their number, and leaves the
whole state unchanged when no element equals `v`. -/
theorem C7_list_remove [DecidableEq α] (st : Mem α) (l : Ref) (ns : List Ptr) (xs : List α)
    (fuel : Nat) (v : α) (hR : Repr st l ns xs) (hfuel : xs.length < fuel) :
    ∃ st1 ns1, List_remove fuel l v st = .ret () st1 ∧
      Repr st1 l ns1 (xs.filter (fun x => decide (x ≠ v))) ∧
      List_size l st1 = .ret (xs.filter (fun x => decide (x ≠ v))).length st1 ∧
      ((∀ x ∈ xs, x ≠ v) → st1 = st) := by
  have hlen := hR.length
  obtain ⟨st1, ns1, e, h1, -⟩ := List_remove_repr fuel v hR (by omega)
  refine ⟨st1, ns1, e, h1, h1.size_run, ?_⟩
  intro hall
  have e2 := List_remove_noop fuel v hR (by omega) hall
  rw [e2] at e
  injection e with _ h
  exact h.symm

/-- Instance of C7: removing `20` from `[10, 20, 30]`. -/
theorem C7_list_remove_witness :
    ∃ st1 ns1, List_remove 5 0 20 exMem = .ret () st1 ∧
      Repr st1 0 ns1 (([10, 20, 30] : List Nat).filter (fun x => decide (x ≠ 20))) ∧
      List_size 0 st1 =
        .ret (([10, 20, 30] : List Nat).filter (fun x => decide (x ≠ 20))).length st1 ∧
      ((∀ x ∈ ([10, 20, 30] : List Nat), x ≠ 20) → st1 = exMem) :=
  C7_list_remove exMem 0 [1, 2, 3] [10, 20, 30] 5 20 exMem_repr0 (by decide)

/-- C8: for a list with contents `xs`, every position `p ≤ |xs|` (`p = |xs|` is `end()`)
and every value `v`, `insert(pos_p, v)` returns normally, leaves the contents
`take p xs ++ [v] ++ drop p xs`, increases `size()` by exactly one, and returns an iterator
to the new element: the node at index `p` of the result, which holds `v` and is not
`end()`. -/
theorem C8_list_insert (st : Mem α) (l : Ref) (ns : List Ptr) (xs : List α) (p : Nat) (v : α)
    (hf : Fresh st) (hR : Repr st l ns xs) (hp : p ≤ xs.length) :
    ∃ it st1 ns1 e, List_insert l (iterAt (st.lists l).m_sentinel ns p) v st = .ret it st1 ∧
      Repr st1 l ns1 (xs.take p ++ [v] ++ xs.drop p) ∧
      List_size l st = .ret xs.length st ∧
      List_size l st1 = .ret (xs.length + 1) st1 ∧
      it = iterAt (st1.lists l).m_sentinel ns1 p ∧
      getData it st1 = .ret v st1 ∧
      List_end l st1 = .ret e st1 ∧ it ≠ e := by
  have hlen := hR.length
  obtain ⟨st1, e, h1, -, hs, hnot⟩ := List_insert_idx p v hf hR hp
  have h1' : Repr st1 l (ns.take p ++ (st.brk :: ns.drop p)) (xs.take p ++ (v :: xs.drop p)) := h1
  have hd : dataOf st1.nodes st.brk = some v :=
    h1'.data_at (by rw [take_length_le ns (by omega), take_length_le xs hp])
  refine ⟨st.brk, st1, ns.take p ++ st.brk :: ns.drop p, (st1.lists l).m_sentinel, e,
    by simpa using h1, hR.size_run, ?_, ?_, getData_run hd, List_end_run st1 l, ?_⟩
  · rw [h1.size_run]
    congr 1
    simp only [List.length_append, List.length_take, List.length_drop, List.length_cons]
    omega
  · rw [iterAt_insert _ _ ns (by omega)]
  · rw [hs]
    exact iterAt_ne_brk hnot

/-- Instance of C8: inserting `99` before index `1` of `[10, 20, 30]`. -/
theorem C8_list_insert_witness :
    ∃ it st1 ns1 e, List_insert 0 (iterAt (exMem.lists 0).m_sentinel [1, 2, 3] 1) 99 exMem =
        .ret it st1 ∧
      Repr st1 0 ns1 (([10, 20, 30] : List Nat).take 1 ++ [99] ++
        ([10, 20, 30] : List Nat).drop 1) ∧
      List_size 0 exMem = .ret ([10, 20, 30] : List Nat).length exMem ∧
      List_size 0 st1 = .ret (([10, 20, 30] : List Nat).length + 1) st1 ∧
      it = iterAt (st1.lists 0).m_sentinel ns1 1 ∧
      getData it st1 = .ret 99 st1 ∧
      List_end 0 st1 = .ret e st1 ∧ it ≠ e :=
  C8_list_insert exMem 0 [1, 2, 3] [10, 20, 30] 1 99 exMem_fresh exMem_repr0 (by decide)

/-- C9: for a list with contents `xs`, `reverse()` returns normally, leaves the contents
equal to the reverse of `xs` and `size()` unchanged, allocates and releases no node (the
allocator and the set of live nodes are unchanged), and leaves `end()` on the same
sentinel node; on an empty or one-element list `begin()` is unchanged as well. -/
theorem C9_list_reverse (st : Mem α) (l : Ref) (ns : List Ptr) (xs : List α) (fuel : Nat)
    (hR : Repr st l ns xs) (hfuel : xs.length < fuel) :
    ∃ st1 ns1 e, List_reverse fuel l st = .ret () st1 ∧ Repr st1 l ns1 xs.reverse ∧
      List_size l st = .ret xs.length st ∧ List_size l st1 = .ret xs.length st1 ∧
      st1.brk = st.brk ∧ (∀ a, (st1.nodes a).isSome = (st.nodes a).isSome) ∧
      List_end l st = .ret e st ∧ List_end l st1 = .ret e st1 ∧
      (xs.length ≤ 1 → ∃ b, List_begin l st = .ret b st ∧ List_begin l st1 = .ret b st1) := by
  have hlen := hR.length
  obtain ⟨st1, e, h1, hb, hl, hlive, -⟩ := List_reverse_repr fuel hR (by omega)
  refine ⟨st1, ns.reverse, (st.lists l).m_sentinel, e, h1, hR.size_run, ?_, hb, hlive,
    List_end_run st l, ?_, ?_⟩
  · rw [h1.size_run, List.length_reverse]
  · rw [List_end_run, hl]
  · intro hle
    refine ⟨ns.headD (st.lists l).m_sentinel, hR.begin_run, ?_⟩
    rw [h1.begin_run, hl]
    have : ns.reverse = ns := by
      cases ns with
      | nil => rfl
      | cons a t =>
        cases t with
        | nil => rfl
        | cons b t => simp only [List.length_cons] at hlen; omega
    rw [this]

/-- Instance of C9: reversing `[10, 20, 30]`. -/
theorem C9_list_reverse_witness :
    ∃ st1 ns1 e, List_reverse 5 0 exMem = .ret () st1 ∧
      Repr st1 0 ns1 ([10, 20, 30] : List Nat).reverse ∧
      List_size 0 exMem = .ret ([10, 20, 30] : List Nat).length exMem ∧
      List_size 0 st1 = .ret ([10, 20, 30] : List Nat).length st1 ∧
      st1.brk = exMem.brk ∧ (∀ a, (st1.nodes a).isSome = (exMem.nodes a).isSome) ∧
      List_end 0 exMem = .ret e exMem ∧ List_end 0 st1 = .ret e st1 ∧
      (([10, 20, 30] : List Nat).length ≤ 1 →
        ∃ b, List_begin 0 exMem = .ret b exMem ∧ List_begin 0 st1 = .ret b st1) :=
  C9_list_reverse exMem 0 [1, 2, 3] [10, 20, 30] 5 exMem_repr0 (by decide)

end ListClaims2

section OwnLemmas
variable {α : Type}

theorem VOwns.own_buf [ValType α] {st : VMem α} {v : Ref} {xs : List α} {a : Ptr}
    (hO : VOwns st v xs) (ha : (st.vecs v).m_data = some a) :
    ∃ f, BufIs st a (st.vecs v).m_capacity f ∧ (∀ i, i < xs.length → f i = xs[i]?) ∧
      (ValType.trivial_dtor α = false → ∀ i, xs.length ≤ i → f i = none) := by
  obtain ⟨⟨-, -, -, h4, h5⟩, h6⟩ := hO
  have h4' := h4 (by rw [ha]; simp)
  rw [ha] at h4' h5 h6
  simp only [bufLen] at h4'
  cases hb : st.bufs a with
  | none => rw [hb] at h4'; simp at h4'
  | some blk =>
    rw [hb] at h4'
    refine ⟨blk.slot, ⟨blk, hb, by simpa using h4', fun _ => rfl⟩, ?_, ?_⟩
    · intro i hi
      have := h5 i hi
      simpa [slotAt, hb] using this
    · intro ht i hi
      have := h6 ht i hi
      simpa [slotAt, hb] using this

theorem VOwns.of_own_buf [ValType α] {st : VMem α} {v : Ref} {xs : List α} {a : Ptr}
    {f : Nat → Option α}
    (hd : (st.vecs v).m_data = some a) (hs : (st.vecs v).m_size = xs.length)
    (hc : xs.length ≤ (st.vecs v).m_capacity) (hb : BufIs st a (st.vecs v).m_capacity f)
    (hf : ∀ i, i < xs.length → f i = xs[i]?)
    (ht : ValType.trivial_dtor α = false → ∀ i, xs.length ≤ i → f i = none) :
    VOwns st v xs := by
  refine ⟨VRepr.of_buf hd hs hc hb hf, ?_⟩
  intro htr i hi
  obtain ⟨blk, hb1, -, hb3⟩ := hb
  rw [hd]
  simp only [slotAt, hb1, hb3]
  exact ht htr i hi

theorem VOwns.own_null [ValType α] {st : VMem α} {v : Ref} {xs : List α} (hO : VOwns st v xs)
    (ha : (st.vecs v).m_data = none) :
    xs = [] ∧ (st.vecs v).m_size = 0 ∧ (st.vecs v).m_capacity = 0 :=
  hO.1.null ha

theorem VOwns.of_null [ValType α] {st : VMem α} {v : Ref}
    (hd : (st.vecs v).m_data = none) (hs : (st.vecs v).m_size = 0)
    (hc : (st.vecs v).m_capacity = 0) : VOwns st v [] := by
  refine ⟨⟨by simpa using hs, by rw [hs]; exact Nat.zero_le _, fun _ => hc,
    fun h => absurd hd h, ?_⟩, ?_⟩
  · intro i hi
    simp at hi
  · intro _ i _
    rw [hd]
    rfl

theorem VOwns.size [ValType α] {st : VMem α} {v : Ref} {xs : List α} (hO : VOwns st v xs) :
    (st.vecs v).m_size = xs.length := hO.1.1

theorem VOwns.le_cap [ValType α] {st : VMem α} {v : Ref} {xs : List α} (hO : VOwns st v xs) :
    xs.length ≤ (st.vecs v).m_capacity := by
  rw [← hO.1.1]; exact hO.1.2.1

theorem VOwns.data_ne_none [ValType α] {st : VMem α} {v : Ref} {xs : List α}
    (hO : VOwns st v xs) (h : 0 < (st.vecs v).m_capacity) : (st.vecs v).m_data ≠ none := by
  intro e
  have := hO.1.2.2.1 e
  omega

theorem VOwns.inv [ValType α] {st : VMem α} {v : Ref} {xs : List α} (hO : VOwns st v xs) :
    VInv st v := by
  obtain ⟨⟨h1, h2, h3, h4, h5⟩, h6⟩ := hO
  refine ⟨h2, h3, h4, ?_, ?_⟩
  · intro i hi
    rw [h1] at hi
    rw [h5 i hi, List.getElem?_eq_getElem hi]
    rfl
  · intro ht i hi
    rw [h1] at hi
    exact h6 ht i hi

theorem exists_list_of_live (g : Nat → Option α) :
    ∀ n, (∀ i, i < n → (g i).isSome) → ∃ xs : List α, xs.length = n ∧ ∀ i, i < n → g i = xs[i]? := by
  intro n
  induction n with
  | zero => intro _; exact ⟨[], rfl, fun i hi => absurd hi (Nat.not_lt_zero i)⟩
  | succ n ih =>
    intro h
    obtain ⟨xs, hl, hx⟩ := ih (fun i hi => h i (Nat.lt_succ_of_lt hi))
    obtain ⟨x, hxn⟩ := Option.isSome_iff_exists.mp (h n (Nat.lt_succ_self n))
    refine ⟨xs ++ [x], by simp [hl], ?_⟩
    intro i hi
    by_cases c : i < n
    · rw [List.getElem?_append_left (by rw [hl]; exact c)]
      exact hx i c
    · have : i = n := by omega
      subst this
      rw [List.getElem?_append_right (by rw [hl]), hl, Nat.sub_self, hxn]
      rfl

theorem VInv.owns [ValType α] {st : VMem α} {v : Ref} (hI : VInv st v) :
    ∃ xs, VOwns st v xs := by
  obtain ⟨h1, h2, h3, h4, h5⟩ := hI
  obtain ⟨xs, hl, hx⟩ := exists_list_of_live (fun i => slotAt st (st.vecs v).m_data i)
    (st.vecs v).m_size h4
  refine ⟨xs, ⟨hl.symm, h1, h2, h3, ?_⟩, ?_⟩
  · intro i hi
    rw [hl] at hi
    exact hx i hi
  · intro ht i hi
    rw [hl] at hi
    exact h5 ht i hi

/-- Constructing an object in slot `i` of a buffer. -/
theorem constructAt_buf {st : VMem α} {a : Ptr} {la i : Nat} {f : Nat → Option α} (x : α)
    (hb : BufIs st a la f) (hi : i < la) :
    ∃ st1, constructAt (some a) i x st = .ret () st1 ∧
      BufIs st1 a la (fun j => if j = i then some x else f j) ∧ SameBut st st1 [a] := by
  obtain ⟨blk, hb1, hb2, hb3⟩ := hb
  refine ⟨st.setBuf a (some (blk.set i (some x))),
    constructAt_run x hb1 (by rw [hb2]; exact hi),
    ⟨blk.set i (some x), by simp, by simp [hb2], fun j => by simp only [Block.set_slot, hb3]⟩,
    rfl, rfl, rfl, ?_⟩
  intro y hy
  have : y ≠ a := fun e => hy (by simp [e])
  simp [this]

/-- Destroying the object in slot `i` of a buffer. -/
theorem destroyAt_buf {st : VMem α} {a : Ptr} {la i : Nat} {f : Nat → Option α}
    (hb : BufIs st a la f) (hl : (f i).isSome) :
    ∃ st1, destroyAt (some a) i st = .ret () st1 ∧
      BufIs st1 a la (fun j => if j = i then none else f j) ∧ SameBut st st1 [a] := by
  obtain ⟨blk, hb1, hb2, hb3⟩ := hb
  obtain ⟨w, hw⟩ := Option.isSome_iff_exists.mp hl
  refine ⟨st.setBuf a (some (blk.set i none)),
    destroyAt_run hb1 (by rw [hb3]; exact hw),
    ⟨blk.set i none, by simp, by simp [hb2], fun j => by simp only [Block.set_slot, hb3]⟩,
    rfl, rfl, rfl, ?_⟩
  intro y hy
  have : y ≠ a := fun e => hy (by simp [e])
  simp [this]

/-- The destroy loop, with the content of every slot afterwards. -/
theorem destroyRange_exact [ValType α] {s : VMem α} {a : Ptr} {la : Nat} {fa : Nat → Option α}
    (n lo : Nat) (ha : BufIs s a la fa) (hlive : ∀ j, lo ≤ j → j < lo + n → (fa j).isSome) :
    ∃ s1, destroyRange (some a) n lo s = .ret () s1 ∧
      BufIs s1 a la (fun j => if ValType.trivial_dtor α = false ∧ lo ≤ j ∧ j < lo + n then none
        else fa j) ∧ SameBut s s1 [a] := by
  unfold destroyRange
  cases ht : ValType.trivial_dtor α with
  | true =>
    refine ⟨s, rfl, ha.congr ?_, SameBut.refl _ _⟩
    intro j
    simp
  | false =>
    obtain ⟨s1, e1, h1, h2⟩ := destroy_loop_spec n lo ha hlive
    refine ⟨s1, by simpa using e1, h1.congr ?_, h2⟩
    intro j
    simp

/-- The loop `for (i = lo; i < lo + n; ++i) new (m_data + i) ValType(value)`. -/
theorem fill_loop_spec (st : VMem α) (v : Ref) {a : Ptr} {la : Nat} {f : Nat → Option α}
    (value : α) (n lo : Nat) (hd : (st.vecs v).m_data = some a) (hb : BufIs st a la f)
    (hlen : lo + n ≤ la) :
    ∃ st1, forUp (fun i => do
        let w ← getVec v
        constructAt w.m_data i value) n lo st = .ret () st1 ∧
      BufIs st1 a la (fun j => if lo ≤ j ∧ j < lo + n then some value else f j) ∧
      SameBut st st1 [a] := by
  have := forUp_inv (fun i => do
        let w ← getVec v
        constructAt w.m_data i value) n
    (fun k s1 => BufIs s1 a la (fun j => if lo ≤ j ∧ j < lo + k then some value else f j) ∧
      SameBut st s1 [a]) lo st
    ⟨hb.congr (fun j => by rw [if_neg]; omega), SameBut.refl _ _⟩
    (by
      intro k s1 hk ⟨h1, h2⟩
      obtain ⟨s2, e2, h3, h4⟩ := constructAt_buf (i := lo + k) value h1 (by omega)
      refine ⟨s2, ?_, h3.congr ?_, h2.trans h4⟩
      · simp only [Prog.bind_run, Prog.bind, getVec_run, h2.1, hd]
        exact e2
      · intro j
        by_cases c0 : j = lo + k
        · have c1 : lo ≤ j ∧ j < lo + (k + 1) := by omega
          rw [if_pos c0, if_pos c1]
        · by_cases c1 : lo ≤ j ∧ j < lo + k
          · have c2 : lo ≤ j ∧ j < lo + (k + 1) := by omega
            rw [if_neg c0, if_pos c1, if_pos c2]
          · have c2 : ¬ (lo ≤ j ∧ j < lo + (k + 1)) := by omega
            rw [if_neg c0, if_neg c1, if_neg c2])
  exact this

theorem BufIs.of_bufs_eq {S T : VMem α} {a : Ptr} {la : Nat} {f : Nat → Option α}
    (h : BufIs S a la f) (e : T.bufs a = S.bufs a) : BufIs T a la f := by
  obtain ⟨blk, h1, h2, h3⟩ := h
  exact ⟨blk, by rw [e]; exact h1, h2, h3⟩

theorem VFresh.of_same {st st1 : VMem α} (hf : VFresh st) (hb : st1.brk = st.brk)
    (hl : ∀ x, (st1.bufs x).isSome → (st.bufs x).isSome) : VFresh st1 := by
  intro a ha
  rw [hb] at ha
  have h0 := hf a ha
  cases h1 : st1.bufs a with
  | none => rfl
  | some blk =>
    have := hl a (by rw [h1]; rfl)
    rw [h0] at this
    simp at this

theorem BufIs.lt_brk {st : VMem α} {a : Ptr} {la : Nat} {f : Nat → Option α}
    (h : BufIs st a la f) (hf : VFresh st) : a < st.brk := by
  obtain ⟨blk, h1, -, -⟩ := h
  by_contra hc
  have := hf a (Nat.le_of_not_lt hc)
  rw [this] at h1
  simp at h1

end OwnLemmas

section OwnFrame
variable {α : Type}

theorem slotAt_congr {st st1 : VMem α} {p : Option Ptr}
    (h : ∀ a, p = some a → st1.bufs a = st.bufs a) (i : Nat) :
    slotAt st1 p i = slotAt st p i := by
  cases p with
  | none => rfl
  | some a => simp only [slotAt, h a rfl]

theorem bufLen_congr {st st1 : VMem α} {p : Option Ptr}
    (h : ∀ a, p = some a → st1.bufs a = st.bufs a) :
    bufLen st1 p = bufLen st p := by
  cases p with
  | none => rfl
  | some a => simp only [bufLen, h a rfl]

theorem VRepr.congr_state {st st1 : VMem α} {v w : Ref} {xs : List α}
    (hv : st1.vecs w = st.vecs v)
    (hb : ∀ a, (st.vecs v).m_data = some a → st1.bufs a = st.bufs a)
    (h : VRepr st v xs) : VRepr st1 w xs := by
  unfold VRepr at h ⊢
  rw [hv, bufLen_congr hb]
  refine ⟨h.1, h.2.1, h.2.2.1, h.2.2.2.1, ?_⟩
  intro i hi
  rw [slotAt_congr hb]
  exact h.2.2.2.2 i hi

theorem VOwns.owns_congr [ValType α] {st st1 : VMem α} {v w : Ref} {xs : List α}
    (hv : st1.vecs w = st.vecs v)
    (hb : ∀ a, (st.vecs v).m_data = some a → st1.bufs a = st.bufs a)
    (h : VOwns st v xs) : VOwns st1 w xs := by
  refine ⟨h.1.congr_state hv hb, ?_⟩
  intro ht i hi
  rw [hv, slotAt_congr hb]
  exact h.2 ht i hi

theorem VInv.inv_congr [ValType α] {st st1 : VMem α} {v w : Ref}
    (hv : st1.vecs w = st.vecs v)
    (hb : ∀ a, (st.vecs v).m_data = some a → st1.bufs a = st.bufs a)
    (h : VInv st v) : VInv st1 w := by
  obtain ⟨xs, hO⟩ := h.owns
  exact (hO.owns_congr hv hb).inv

theorem VStep.same (st : VMem α) (v : Ref) : VStep st st v :=
  ⟨Nat.le_refl _, fun _ _ => rfl, fun _ _ _ => rfl, Or.inl rfl⟩

/-- A change of the members `m_size` and `m_capacity` of `v` only. -/
theorem VStep.of_members {st st1 : VMem α} {v : Ref} (hb : st1.brk = st.brk)
    (hbufs : st1.bufs = st.bufs) (hv : ∀ r, r ≠ v → st1.vecs r = st.vecs r)
    (hd : (st1.vecs v).m_data = (st.vecs v).m_data) : VStep st st1 v :=
  ⟨by rw [hb], hv, fun x _ _ => by rw [hbufs], Or.inl hd⟩

/-- A change inside the buffer of `v`. -/
theorem VStep.of_same_buf {st st1 : VMem α} {v : Ref} {a : Ptr}
    (ha : (st.vecs v).m_data = some a) (hb : st1.brk = st.brk)
    (hbufs : ∀ x, x ≠ a → st1.bufs x = st.bufs x) (hv : ∀ r, r ≠ v → st1.vecs r = st.vecs r)
    (hd : (st1.vecs v).m_data = (st.vecs v).m_data) : VStep st st1 v := by
  refine ⟨by rw [hb], hv, ?_, Or.inl hd⟩
  intro x hx _
  exact hbufs x (fun e => hx (by rw [e, ha]))

theorem live_of_slots {xs : List α} {f : Nat → Option α}
    (hfx : ∀ i, i < xs.length → f i = xs[i]?) : ∀ j, j < xs.length → (f j).isSome := by
  intro j hj
  rw [hfx j hj, List.getElem?_eq_getElem hj]
  rfl

end OwnFrame

section OwnRealloc
variable {α : Type}

/-- The reallocation leaves the vector owning the same elements in a fresh buffer. -/
theorem Vector__reallocate_owns [ValType α] {st : VMem α} {v : Ref} {xs : List α}
    (newCapacity : Nat) (hf : VFresh st) (hR : VRepr st v xs)
    (hroom : xs.length ≤ newCapacity) (hav : newCapacity ≤ st.avail) :
    ∃ st1, Vector__reallocate v newCapacity st = .ret () st1 ∧ VOwns st1 v xs ∧ VFresh st1 ∧
      VStep st st1 v ∧
      st1.vecs v = VecObj.mk (some st.brk) xs.length newCapacity ∧
      BufIs st1 st.brk newCapacity (fun j => if j < xs.length then xs[j]? else none) ∧
      st1.brk = st.brk + 1 ∧
      st1.avail + newCapacity = st.avail + (st.vecs v).m_capacity := by
  obtain ⟨st1, e, hv, hb, hR1, hf1, hbrk, hfr, hbufs, havl⟩ :=
    Vector__reallocate_spec newCapacity hf hR hroom hav
  refine ⟨st1, e, ?_, hf1, ?_, hv, hb, hbrk, by omega⟩
  · refine VOwns.of_own_buf (a := st.brk) (by rw [hv]) (by rw [hv]) (by rw [hv]; exact hroom)
      (by rw [hv]; exact hb) (fun i hi => by simp [hi]) ?_
    intro _ i hi
    have : ¬ i < xs.length := by omega
    simp [this]
  · refine ⟨by rw [hbrk]; exact Nat.le_succ _, hfr, ?_,
      Or.inr (Or.inr ⟨st.brk, by rw [hv], Nat.le_refl _⟩)⟩
    intro x hx hlt
    exact hbufs x hx (Nat.ne_of_lt hlt)

/-- Effect of `reserve(n)`. -/
theorem Vector_reserve_owns [ValType α] {st : VMem α} {v : Ref} {xs : List α}
    (n : Nat) (hf : VFresh st) (hR : VRepr st v xs)
    (hav : (st.vecs v).m_capacity < n → n ≤ st.avail) :
    ∃ st1, Vector_reserve v n st = .ret () st1 ∧ VRepr st1 v xs ∧
      (VOwns st v xs → VOwns st1 v xs) ∧ VFresh st1 ∧ VStep st st1 v ∧
      (st1.vecs v).m_size = xs.length ∧
      (st1.vecs v).m_capacity = (if (st.vecs v).m_capacity < n then n
        else (st.vecs v).m_capacity) ∧
      (n ≤ (st.vecs v).m_capacity → st1 = st) ∧
      st1.avail + (st1.vecs v).m_capacity = st.avail + (st.vecs v).m_capacity := by
  by_cases h : n ≤ (st.vecs v).m_capacity
  · have c : ¬ (st.vecs v).m_capacity < n := by omega
    exact ⟨st, Vector_reserve_noop h, hR, fun hO => hO, hf, VStep.same _ _, hR.1,
      by rw [if_neg c], fun _ => rfl, rfl⟩
  · have c : (st.vecs v).m_capacity < n := by omega
    have hle := hR.2.1
    have hsz := hR.1
    obtain ⟨st1, e, hO1, hf1, hs1, hv1, -, -, havl⟩ :=
      Vector__reallocate_owns n hf hR (by omega) (hav c)
    refine ⟨st1, by rw [Vector_reserve_grow h]; exact e, hO1.1, fun _ => hO1, hf1, hs1,
      by rw [hv1], by rw [hv1, if_pos c], fun h1 => absurd h1 h, by rw [hv1]; exact havl⟩

/-- Allocation failure in `reserve(n)`. -/
theorem Vector_reserve_fail [ValType α] {st : VMem α} {v : Ref} {n : Nat}
    (h : (st.vecs v).m_capacity < n) (hav : ¬ n ≤ st.avail) :
    Vector_reserve v n st = .raise .bad_alloc st := by
  rw [Vector_reserve_grow (by omega)]
  exact Vector__reallocate_fail v hav

end OwnRealloc

section OwnPush
variable {α : Type}

/-- Constructing `value` in slot `m_size` and incrementing `m_size`, with the content of
the buffer afterwards. -/
theorem push_slot_exact {S : VMem α} {v : Ref} {a : Ptr} {f : Nat → Option α}
    (value : α) (hd : (S.vecs v).m_data = some a)
    (hc : (S.vecs v).m_size < (S.vecs v).m_capacity) (hb : BufIs S a (S.vecs v).m_capacity f) :
    ∃ st1, (do
        let o ← getVec v
        constructAt o.m_data o.m_size value
        setVSize v (o.m_size + 1)) S = .ret () st1 ∧
      st1.vecs v = VecObj.mk (some a) ((S.vecs v).m_size + 1) (S.vecs v).m_capacity ∧
      BufIs st1 a (S.vecs v).m_capacity
        (fun j => if j = (S.vecs v).m_size then some value else f j) ∧
      (∀ r, r ≠ v → st1.vecs r = S.vecs r) ∧ st1.brk = S.brk ∧ st1.avail = S.avail ∧
      (∀ x, x ≠ a → st1.bufs x = S.bufs x) ∧ (VFresh S → VFresh st1) := by
  obtain ⟨blk, hb1, hb2, hb3⟩ := hb
  have e1 := constructAt_run (i := (S.vecs v).m_size) value hb1 (by rw [hb2]; exact hc)
  refine ⟨VMem.mk
      (fun x => if x = a then some (blk.set (S.vecs v).m_size (some value)) else S.bufs x)
      S.brk S.avail
      (fun r => if r = v then VecObj.mk (some a) ((S.vecs v).m_size + 1) (S.vecs v).m_capacity
        else S.vecs r),
    ?_, by simp, ?_, ?_, rfl, rfl, ?_, ?_⟩
  · simp only [Prog.bind_run, Prog.bind, getVec_run, hd, e1, setVSize]
    simp only [VMem.setBuf, setBuf_vecs]
    congr 2
    funext r
    by_cases hr : r = v
    · subst hr
      simp only [if_true]
      rw [← hd]
    · simp only [if_neg hr]
  · exact ⟨blk.set (S.vecs v).m_size (some value), by simp, by simp [hb2],
      fun j => by simp only [Block.set_slot, hb3]⟩
  · intro r hr; simp [hr]
  · intro x hx; simp [hx]
  · intro hfr x hx
    have hne : x ≠ a := by
      intro e
      have := hfr x hx
      rw [e, hb1] at this
      simp at this
    simp only [if_neg hne]
    exact hfr x hx

theorem owns_after_push [ValType α] {st1 : VMem α} {v : Ref} {xs : List α} {a : Ptr}
    {cap : Nat} {f : Nat → Option α} (value : α)
    (hv : st1.vecs v = VecObj.mk (some a) (xs.length + 1) cap) (hc : xs.length < cap)
    (hb : BufIs st1 a cap (fun j => if j = xs.length then some value else f j))
    (hfx : ∀ i, i < xs.length → f i = xs[i]?) :
    VRepr st1 v (xs ++ [value]) ∧
      ((ValType.trivial_dtor α = false → ∀ i, xs.length ≤ i → f i = none) →
        VOwns st1 v (xs ++ [value])) := by
  have hlen : (xs ++ [value]).length = xs.length + 1 := by simp
  have hslots : ∀ i, i < (xs ++ [value]).length →
      (fun j => if j = xs.length then some value else f j) i = (xs ++ [value])[i]? := by
    intro i hi
    rw [hlen] at hi
    rw [getElem?_append_one]
    show (if i = xs.length then some value else f i) = _
    by_cases h1 : i < xs.length
    · have c : ¬ (i = xs.length) := by omega
      rw [if_neg c, if_pos h1, hfx i h1]
    · have c : i = xs.length := by omega
      rw [if_pos c, if_neg h1, if_pos c]
  refine ⟨VRepr.of_buf (a := a) (by rw [hv]) (by rw [hv, hlen]) (by rw [hv, hlen]; exact hc)
    (by rw [hv]; exact hb) hslots, ?_⟩
  intro ht
  refine VOwns.of_own_buf (a := a) (by rw [hv]) (by rw [hv, hlen]) (by rw [hv, hlen]; exact hc)
    (by rw [hv]; exact hb) hslots ?_
  intro htr i hi
  rw [hlen] at hi
  have c : ¬ (i = xs.length) := by omega
  show (if i = xs.length then some value else f i) = none
  rw [if_neg c]
  exact ht htr i (by omega)

/-- Effect of `pushBack(value)`, with the slots past the size and the allocator. -/
theorem Vector_pushBack_owns [ValType α] {st : VMem α} {v : Ref} {xs : List α} (value : α)
    (hf : VFresh st) (hR : VRepr st v xs)
    (hav : (st.vecs v).m_size = (st.vecs v).m_capacity →
      (if (st.vecs v).m_capacity = 0 then 1 else (st.vecs v).m_capacity * 2) ≤ st.avail) :
    ∃ st1, Vector_pushBack v value st = .ret () st1 ∧ VRepr st1 v (xs ++ [value]) ∧
      (VOwns st v xs → VOwns st1 v (xs ++ [value])) ∧ VFresh st1 ∧ VStep st st1 v ∧
      (st1.vecs v).m_size = xs.length + 1 ∧
      (st1.vecs v).m_capacity =
        (if (st.vecs v).m_size < (st.vecs v).m_capacity then (st.vecs v).m_capacity
         else if (st.vecs v).m_capacity = 0 then 1 else (st.vecs v).m_capacity * 2) ∧
      st1.avail + (st1.vecs v).m_capacity = st.avail + (st.vecs v).m_capacity := by
  have hsz := hR.1
  have hle := hR.2.1
  by_cases hfull : (st.vecs v).m_size = (st.vecs v).m_capacity
  · have hav' := hav hfull
    have hnlt : ¬ (st.vecs v).m_size < (st.vecs v).m_capacity := by omega
    generalize hnc : (if (st.vecs v).m_capacity = 0 then 1 else (st.vecs v).m_capacity * 2) = nc
      at hav'
    have hgt : ¬ nc ≤ (st.vecs v).m_capacity := by
      rw [← hnc]; split <;> omega
    have hlt : xs.length < nc := by
      rw [← hsz, hfull]; omega
    obtain ⟨s1, e1, hO1, hf1, hs1, hv1, hb1, hbrk1, havl1⟩ :=
      Vector__reallocate_owns nc hf hR (by omega) hav'
    obtain ⟨s2, e2, hv2, hb2, ho2, hbrk2, havl2, hbuf2, hf2⟩ := push_slot_exact (S := s1)
      (v := v) (a := st.brk) value (by rw [hv1]) (by rw [hv1]; exact hlt)
      (by rw [hv1]; exact hb1)
    rw [hv1] at hv2 hb2
    obtain ⟨hR2, hO2⟩ := owns_after_push value hv2 hlt hb2 (fun i hi => by simp [hi])
    refine ⟨s2, ?_, hR2, fun _ => hO2 (fun _ i hi => by
        have : ¬ i < xs.length := by omega
        simp [this]), hf2 hf1, ?_, by rw [hv2], ?_, ?_⟩
    · simp only [Vector_pushBack, Prog.bind_run, Prog.bind, getVec_run, hfull, if_true,
        Vector_reserve_grow hgt, hnc, e1]
      simp only [Prog.bind_run, Prog.bind, getVec_run] at e2
      exact e2
    · refine ⟨by rw [hbrk2]; exact hs1.1, fun r hr => by rw [ho2 r hr, hs1.2.1 r hr], ?_,
        Or.inr (Or.inr ⟨st.brk, by rw [hv2], Nat.le_refl _⟩)⟩
      intro x hx hlt1
      rw [hbuf2 x (Nat.ne_of_lt hlt1), hs1.2.2.1 x hx hlt1]
    · rw [hv2, if_neg hnlt]
    · rw [hv2, havl2]
      exact havl1
  · have hlt : (st.vecs v).m_size < (st.vecs v).m_capacity := by omega
    have hdn : (st.vecs v).m_data ≠ none := by
      intro e
      have := hR.2.2.1 e
      omega
    obtain ⟨a, ha⟩ := Option.ne_none_iff_exists'.mp hdn
    obtain ⟨f, hbuf, hfx⟩ := hR.buf ha
    obtain ⟨s2, e2, hv2, hb2, ho2, hbrk2, havl2, hbuf2, hf2⟩ := push_slot_exact (S := st)
      (v := v) (a := a) value ha hlt hbuf
    rw [hsz] at hv2 hb2
    obtain ⟨hR2, hO2⟩ := owns_after_push value hv2 (by omega) hb2 hfx
    refine ⟨s2, ?_, hR2, ?_, hf2 hf, ?_, by rw [hv2], ?_, ?_⟩
    · simp only [Vector_pushBack, Prog.bind_run, Prog.bind, getVec_run, hfull, if_false,
        Prog.pure_run]
      simp only [Prog.bind_run, Prog.bind, getVec_run] at e2
      exact e2
    · intro hO
      obtain ⟨g, hg1, hg2, hg3⟩ := hO.own_buf ha
      refine hO2 ?_
      intro ht i hi
      obtain ⟨b1, hb11, -, hb13⟩ := hbuf
      obtain ⟨b2, hb21, -, hb23⟩ := hg1
      rw [hb11] at hb21
      cases hb21
      rw [← hb13, hb23]
      exact hg3 ht i hi
    · exact VStep.of_same_buf ha hbrk2 hbuf2 ho2 (by rw [hv2, ha])
    · rw [hv2, if_pos hlt]
    · rw [hv2, havl2]

/-- Allocation failure in `pushBack(value)`. -/
theorem Vector_pushBack_fail [ValType α] {st : VMem α} {v : Ref} (value : α)
    (hfull : (st.vecs v).m_size = (st.vecs v).m_capacity)
    (hav : ¬ (if (st.vecs v).m_capacity = 0 then 1 else (st.vecs v).m_capacity * 2) ≤ st.avail) :
    Vector_pushBack v value st = .raise .bad_alloc st := by
  have hgt : (st.vecs v).m_capacity <
      (if (st.vecs v).m_capacity = 0 then 1 else (st.vecs v).m_capacity * 2) := by
    split <;> omega
  simp only [Vector_pushBack, Prog.bind_run, Prog.bind, getVec_run, hfull, if_true,
    Vector_reserve_fail hgt hav]

end OwnPush

section OwnMembers
variable {α : Type}

theorem setVSize_spec (s : VMem α) (v : Ref) (n : Nat) :
    ∃ s1, setVSize v n s = .ret () s1 ∧ s1.bufs = s.bufs ∧ s1.brk = s.brk ∧
      s1.avail = s.avail ∧
      s1.vecs v = VecObj.mk (s.vecs v).m_data n (s.vecs v).m_capacity ∧
      ∀ r, r ≠ v → s1.vecs r = s.vecs r :=
  ⟨_, rfl, rfl, rfl, rfl, by simp, fun r hr => by simp [hr]⟩

theorem setCapacity_spec (s : VMem α) (v : Ref) (n : Nat) :
    ∃ s1, setCapacity v n s = .ret () s1 ∧ s1.bufs = s.bufs ∧ s1.brk = s.brk ∧
      s1.avail = s.avail ∧
      s1.vecs v = VecObj.mk (s.vecs v).m_data (s.vecs v).m_size n ∧
      ∀ r, r ≠ v → s1.vecs r = s.vecs r :=
  ⟨_, rfl, rfl, rfl, rfl, by simp, fun r hr => by simp [hr]⟩

theorem setData_spec (s : VMem α) (v : Ref) (p : Option Ptr) :
    ∃ s1, setData v p s = .ret () s1 ∧ s1.bufs = s.bufs ∧ s1.brk = s.brk ∧
      s1.avail = s.avail ∧
      s1.vecs v = VecObj.mk p (s.vecs v).m_size (s.vecs v).m_capacity ∧
      ∀ r, r ≠ v → s1.vecs r = s.vecs r :=
  ⟨_, rfl, rfl, rfl, rfl, by simp, fun r hr => by simp [hr]⟩

theorem BufIs.slot_eq {st : VMem α} {a : Ptr} {la : Nat} {f : Nat → Option α}
    (h : BufIs st a la f) (i : Nat) : slotAt st (some a) i = f i := by
  obtain ⟨blk, h1, -, h3⟩ := h
  simp only [slotAt, h1, h3]

theorem VOwns.tail [ValType α] {st : VMem α} {v : Ref} {xs : List α} {a : Ptr} {la : Nat}
    {f : Nat → Option α} (hO : VOwns st v xs) (ha : (st.vecs v).m_data = some a)
    (hb : BufIs st a la f) (ht : ValType.trivial_dtor α = false) :
    ∀ i, xs.length ≤ i → f i = none := by
  intro i hi
  have := hO.2 ht i hi
  rw [ha, hb.slot_eq] at this
  exact this

theorem VFresh.of_sameBut {st s1 : VMem α} {a : Ptr} {la : Nat} {f : Nat → Option α}
    (hf : VFresh st) (hb : BufIs st a la f) (hs : SameBut st s1 [a]) : VFresh s1 := by
  refine hf.of_same hs.2.1 ?_
  intro x hx
  by_cases c : x = a
  · obtain ⟨blk, h1, -, -⟩ := hb
    rw [c, h1]
    rfl
  · rw [← hs.2.2.2 x (by simp [c])]
    exact hx

theorem VFresh.of_bufs {st s1 : VMem α} (hf : VFresh st) (hb : s1.brk = st.brk)
    (hbufs : s1.bufs = st.bufs) : VFresh s1 :=
  hf.of_same hb (fun x hx => by rw [← hbufs]; exact hx)

theorem VStep.comp {st s1 s2 : VMem α} {v : Ref} (h1 : VStep st s1 v) (h2 : VStep s1 s2 v) :
    VStep st s2 v := by
  obtain ⟨a1, a2, a3, a4⟩ := h1
  obtain ⟨b1, b2, b3, b4⟩ := h2
  refine ⟨Nat.le_trans a1 b1, fun r hr => by rw [b2 r hr, a2 r hr], ?_, ?_⟩
  · intro x hx hlt
    rw [b3 x ?_ (Nat.lt_of_lt_of_le hlt a1), a3 x hx hlt]
    rcases a4 with h | h | ⟨a, h, hge⟩
    · rw [h]; exact hx
    · rw [h]; simp
    · rw [h]
      intro e
      cases e
      exact absurd hlt (Nat.not_lt.mpr hge)
  · rcases b4 with h | h | ⟨a, h, hge⟩
    · rw [h]; exact a4
    · exact Or.inr (Or.inl h)
    · exact Or.inr (Or.inr ⟨a, h, Nat.le_trans a1 hge⟩)

/-- A step that changes the buffer of `v` in place and then the members of `v`. -/
theorem VStep.in_place {st s1 s2 : VMem α} {v : Ref} {a : Ptr}
    (ha : (st.vecs v).m_data = some a) (hs : SameBut st s1 [a]) (hbufs : s2.bufs = s1.bufs)
    (hbrk : s2.brk = s1.brk) (hd : (s2.vecs v).m_data = some a)
    (ho : ∀ r, r ≠ v → s2.vecs r = s1.vecs r) : VStep st s2 v := by
  refine ⟨by rw [hbrk, hs.2.1], fun r hr => by rw [ho r hr, hs.1], ?_,
    Or.inl (by rw [hd, ha])⟩
  intro x hx _
  have : x ≠ a := fun e => hx (by rw [e, ha])
  rw [hbufs, hs.2.2.2 x (by simp [this])]

/-- The statement `if constexpr (!std::is_trivially_destructible_v<ValType>)
p[i].~ValType();`. -/
theorem destroy_back_spec [ValType α] {s : VMem α} {a : Ptr} {la : Nat} {f : Nat → Option α}
    (i : Nat) (hb : BufIs s a la f) (hl : (f i).isSome) :
    ∃ s1, (if ValType.trivial_dtor α then pure () else destroyAt (some a) i :
        Prog (VMem α) Unit) s = .ret () s1 ∧
      BufIs s1 a la (fun j => if ValType.trivial_dtor α = false ∧ j = i then none else f j) ∧
      SameBut s s1 [a] := by
  cases ht : ValType.trivial_dtor α with
  | true =>
    refine ⟨s, rfl, hb.congr ?_, SameBut.refl _ _⟩
    intro j
    simp
  | false =>
    obtain ⟨s1, e1, h1, h2⟩ := destroyAt_buf hb hl
    refine ⟨s1, by simpa using e1, h1.congr ?_, h2⟩
    intro j
    simp

/-- Effect of `popBack()` on a non-empty vector. -/
theorem Vector_popBack_owns [ValType α] {st : VMem α} {v : Ref} {ys : List α} {y : α}
    (hR : VRepr st v (ys ++ [y])) :
    ∃ st1, Vector_popBack v st = .ret () st1 ∧ VRepr st1 v ys ∧
      (VOwns st v (ys ++ [y]) → VOwns st1 v ys) ∧ (VFresh st → VFresh st1) ∧
      VStep st st1 v ∧
      st1.vecs v = VecObj.mk (st.vecs v).m_data ys.length (st.vecs v).m_capacity ∧
      st1.avail = st.avail := by
  have hlen : (ys ++ [y]).length = ys.length + 1 := by simp
  have hsz := hR.1
  rw [hlen] at hsz
  have hle := hR.2.1
  have hdn : (st.vecs v).m_data ≠ none := fun e => by
    have := hR.2.2.1 e
    omega
  obtain ⟨a, ha⟩ := Option.ne_none_iff_exists'.mp hdn
  obtain ⟨f, hbuf, hfx⟩ := hR.buf ha
  rw [hlen] at hfx
  have hlive : (f ys.length).isSome := by
    rw [hfx _ (by omega)]
    simp
  obtain ⟨s1, e1, hb1, hs1⟩ := destroy_back_spec ys.length hbuf hlive
  obtain ⟨s2, e2, hbufs2, hbrk2, hav2, hv2, ho2⟩ := setVSize_spec s1 v ys.length
  have hws : wrapSub (ys.length + 1) 1 = ys.length := by
    rw [wrapSub_of_le (by omega)]; omega
  rw [hs1.1, ha] at hv2
  have hb2 := hb1.of_bufs_eq (T := s2) (by rw [hbufs2])
  have hslots : ∀ i, i < ys.length →
      (fun j => if ValType.trivial_dtor α = false ∧ j = ys.length then none else f j) i =
        ys[i]? := by
    intro i hi
    have c : ¬ (ValType.trivial_dtor α = false ∧ i = ys.length) := by omega
    show (if ValType.trivial_dtor α = false ∧ i = ys.length then none else f i) = _
    rw [if_neg c, hfx i (by omega), List.getElem?_append_left hi]
  refine ⟨s2, ?_, ?_, ?_, ?_, ?_, by rw [hv2, ha], by rw [hav2, hs1.2.2.1]⟩
  · simp only [Vector_popBack, Vector_empty, Prog.bind_run, Prog.bind, getVec_run,
      Prog.pure_run, hsz, ha, Nat.add_sub_cancel, hws, Nat.add_one_ne_zero, decide_False,
      Bool.false_eq_true, if_false, e1]
    exact e2
  · exact VRepr.of_buf (a := a) (by rw [hv2]) (by rw [hv2])
      (by rw [hv2]; show ys.length ≤ (st.vecs v).m_capacity; omega)
      (by rw [hv2]; exact hb2) hslots
  · intro hO
    refine VOwns.of_own_buf (a := a) (by rw [hv2]) (by rw [hv2])
      (by rw [hv2]; show ys.length ≤ (st.vecs v).m_capacity; omega)
      (by rw [hv2]; exact hb2) hslots ?_
    intro ht i hi
    show (if ValType.trivial_dtor α = false ∧ i = ys.length then none else f i) = none
    by_cases c : i = ys.length
    · rw [if_pos ⟨ht, c⟩]
    · have c1 : ¬ (ValType.trivial_dtor α = false ∧ i = ys.length) := fun h => c h.2
      rw [if_neg c1]
      exact hO.tail ha hbuf ht i (by rw [hlen]; omega)
  · intro hf
    exact (hf.of_sameBut hbuf hs1).of_bufs hbrk2 hbufs2
  · exact VStep.in_place ha hs1 hbufs2 hbrk2 (by rw [hv2]) ho2

/-- A call `popBack()` on an empty vector does nothing. -/
theorem Vector_popBack_empty [ValType α] {st : VMem α} {v : Ref}
    (h : (st.vecs v).m_size = 0) : Vector_popBack v st = .ret () st := by
  simp [Vector_popBack, Vector_empty, Prog.bind, h]

/-- Effect of `clear()`. -/
theorem Vector_clear_owns [ValType α] {st : VMem α} {v : Ref} {xs : List α}
    (hR : VRepr st v xs) :
    ∃ st1, Vector_clear v st = .ret () st1 ∧ VRepr st1 v [] ∧
      (VOwns st v xs → VOwns st1 v []) ∧ (VFresh st → VFresh st1) ∧ VStep st st1 v ∧
      st1.vecs v = VecObj.mk (st.vecs v).m_data 0 (st.vecs v).m_capacity ∧
      st1.avail = st.avail ∧ st1.brk = st.brk ∧
      (∀ x, some x ≠ (st.vecs v).m_data → st1.bufs x = st.bufs x) := by
  have hsz := hR.1
  cases hd : (st.vecs v).m_data with
  | none =>
    obtain ⟨hxs, hs0, hc0⟩ := hR.null hd
    obtain ⟨s2, e2, hbufs2, hbrk2, hav2, hv2, ho2⟩ := setVSize_spec st v 0
    rw [hd, hc0] at hv2
    have hO : VOwns s2 v ([] : List α) :=
      VOwns.of_null (by rw [hv2]) (by rw [hv2]) (by rw [hv2])
    refine ⟨s2, ?_, hO.1, fun _ => hO, fun hf => hf.of_bufs hbrk2 hbufs2,
      VStep.of_members hbrk2 hbufs2 ho2 (by rw [hv2, hd]), by rw [hv2, hc0], hav2, hbrk2,
      fun x _ => by rw [hbufs2]⟩
    simp only [Vector_clear, Prog.bind_run, Prog.bind, getVec_run, hd, hs0, destroyRange_zero]
    exact e2
  | some a =>
    obtain ⟨f, hbuf, hfx⟩ := hR.buf hd
    obtain ⟨s1, e1, hb1, hs1⟩ := destroyRange_exact xs.length 0 hbuf
      (fun j _ hj => live_of_slots hfx j (by omega))
    obtain ⟨s2, e2, hbufs2, hbrk2, hav2, hv2, ho2⟩ := setVSize_spec s1 v 0
    rw [hs1.1, hd] at hv2
    have hb2 := hb1.of_bufs_eq (T := s2) (by rw [hbufs2])
    refine ⟨s2, ?_, ?_, ?_, ?_, ?_, hv2, by rw [hav2, hs1.2.2.1], by rw [hbrk2, hs1.2.1], ?_⟩
    · simp only [Vector_clear, Prog.bind_run, Prog.bind, getVec_run, hd, hsz, e1]
      exact e2
    · exact VRepr.of_buf (a := a) (by rw [hv2]) (by rw [hv2]; rfl)
        (by rw [hv2]; exact Nat.zero_le _) (by rw [hv2]; exact hb2)
        (fun i hi => absurd hi (Nat.not_lt_zero i))
    · intro hO
      refine VOwns.of_own_buf (a := a) (by rw [hv2]) (by rw [hv2]; rfl)
        (by rw [hv2]; exact Nat.zero_le _) (by rw [hv2]; exact hb2)
        (fun i hi => absurd hi (Nat.not_lt_zero i)) ?_
      intro ht i _
      show (if ValType.trivial_dtor α = false ∧ 0 ≤ i ∧ i < 0 + xs.length then none else f i)
        = none
      by_cases c : i < xs.length
      · rw [if_pos ⟨ht, Nat.zero_le _, by omega⟩]
      · have c1 : ¬ (ValType.trivial_dtor α = false ∧ 0 ≤ i ∧ i < 0 + xs.length) := by omega
        rw [if_neg c1]
        exact hO.tail hd hbuf ht i (by omega)
    · intro hf
      exact (hf.of_sameBut hbuf hs1).of_bufs hbrk2 hbufs2
    · exact VStep.in_place hd hs1 hbufs2 hbrk2 (by rw [hv2]) ho2
    · intro x hx
      have : x ≠ a := fun e => hx (by rw [e])
      rw [hbufs2, hs1.2.2.2 x (by simp [this])]

/-- Effect of `at(index)`. -/
theorem Vector_at_spec {st : VMem α} {v : Ref} {xs : List α} (k : Nat)
    (hR : VRepr st v xs) :
    (∀ h : k < xs.length, Vector_at v k st = .ret (xs[k]) st) ∧
      (xs.length ≤ k → Vector_at v k st = .raise .out_of_range st) := by
  have hsz := hR.1
  constructor
  · intro h
    have hle := hR.2.1
    have hdn : (st.vecs v).m_data ≠ none := fun e => by
      have := hR.2.2.1 e
      omega
    obtain ⟨a, ha⟩ := Option.ne_none_iff_exists'.mp hdn
    obtain ⟨f, ⟨blk, hb1, -, hb3⟩, hfx⟩ := hR.buf ha
    have hslot : blk.slot k = some (xs[k]) := by
      rw [hb3, hfx k h, List.getElem?_eq_getElem h]
    have c : ¬ (k ≥ xs.length) := by omega
    simp only [Vector_at, Prog.bind_run, Prog.bind, getVec_run, hsz, c, if_false, ha,
      readAt_run hb1 hslot]
  · intro h
    have c : k ≥ xs.length := h
    simp only [Vector_at, Prog.bind_run, Prog.bind, getVec_run, hsz, c, if_true, throwExn]

/-- Effect of `shrinkToFit()`. -/
theorem Vector_shrinkToFit_owns [ValType α] {st : VMem α} {v : Ref} {xs : List α}
    (hf : VFresh st) (hR : VRepr st v xs)
    (hav : xs.length < (st.vecs v).m_capacity → xs.length ≤ st.avail) :
    ∃ st1, Vector_shrinkToFit v st = .ret () st1 ∧ VRepr st1 v xs ∧
      (VOwns st v xs → VOwns st1 v xs) ∧ VFresh st1 ∧ VStep st st1 v ∧
      (st1.vecs v).m_size = xs.length ∧ (st1.vecs v).m_capacity = xs.length ∧
      ((st.vecs v).m_capacity = xs.length → st1 = st) ∧
      (xs.length < (st.vecs v).m_capacity → (st1.vecs v).m_data = some st.brk) := by
  have hsz := hR.1
  have hle := hR.2.1
  by_cases h : (st.vecs v).m_capacity ≤ (st.vecs v).m_size
  · refine ⟨st, ?_, hR, fun hO => hO, hf, VStep.same _ _, hsz, by omega, fun _ => rfl,
      fun h1 => by omega⟩
    simp only [Vector_shrinkToFit, Prog.bind_run, Prog.bind, getVec_run, h, if_true,
      Prog.pure_run]
  · have hlt : xs.length < (st.vecs v).m_capacity := by omega
    have h' : ¬ (st.vecs v).m_capacity ≤ xs.length := by omega
    obtain ⟨s1, e1, hO1, hf1, hs1, hv1, hb1, hbrk1, -⟩ :=
      Vector__reallocate_owns xs.length hf hR (Nat.le_refl _) (hav hlt)
    obtain ⟨s2, e2, hbufs2, hbrk2, hav2, hv2, ho2⟩ := setCapacity_spec s1 v xs.length
    rw [hv1] at hv2
    have hv21 : s2.vecs v = s1.vecs v := by rw [hv2, hv1]
    have hO2 : VOwns s2 v xs := hO1.owns_congr hv21 (fun a _ => by rw [hbufs2])
    refine ⟨s2, ?_, hO2.1, fun _ => hO2, hf1.of_bufs hbrk2 hbufs2,
      hs1.comp (VStep.of_members hbrk2 hbufs2 ho2 (by rw [hv21])), by rw [hv2], by rw [hv2],
      fun h1 => by omega, fun _ => by rw [hv2]⟩
    simp only [Vector_shrinkToFit, Prog.bind_run, Prog.bind, getVec_run, h, h', if_false, hsz,
      e1, hv1]
    exact e2

end OwnMembers

section OwnResize
variable {α : Type}

theorem getElem?_append_replicate (xs : List α) (k : Nat) (v : α) (i : Nat) :
    (xs ++ List.replicate k v)[i]? =
      if i < xs.length then xs[i]? else if i < xs.length + k then some v else none := by
  by_cases h1 : i < xs.length
  · rw [if_pos h1, List.getElem?_append_left h1]
  · rw [if_neg h1, List.getElem?_append_right (by omega)]
    by_cases h2 : i < xs.length + k
    · have h3 : i - xs.length < (List.replicate k v).length := by
        rw [List.length_replicate]; omega
      rw [if_pos h2, List.getElem?_eq_getElem h3, List.getElem_replicate]
    · rw [if_neg h2]
      apply List.getElem?_eq_none
      rw [List.length_replicate]
      omega

theorem getElem?_take_lt (xs : List α) {n i : Nat} (h : i < n) : (xs.take n)[i]? = xs[i]? := by
  induction xs generalizing n i with
  | nil => simp
  | cons x t ih =>
    cases n with
    | zero => omega
    | succ n =>
      cases i with
      | zero => simp
      | succ i =>
        simp only [List.take_succ_cons, List.getElem?_cons_succ]
        exact ih (by omega)

/-- The loop of `resize` that constructs the new elements, followed by the update of
`m_size`. -/
theorem fill_tail_owns [ValType α] {s : VMem α} {v : Ref} {xs : List α} (n : Nat) (value : α)
    (hR : VRepr s v xs) (hn : xs.length < n) (hc : n ≤ (s.vecs v).m_capacity) :
    ∃ s1 s2, forUp (fun i => do
          let u ← getVec v
          constructAt u.m_data i value) (n - xs.length) xs.length s = .ret () s1 ∧
      setVSize v n s1 = .ret () s2 ∧
      VRepr s2 v (xs ++ List.replicate (n - xs.length) value) ∧
      (VOwns s v xs → VOwns s2 v (xs ++ List.replicate (n - xs.length) value)) ∧
      (VFresh s → VFresh s2) ∧ VStep s s2 v ∧
      s2.vecs v = VecObj.mk (s.vecs v).m_data n (s.vecs v).m_capacity ∧
      s2.avail = s.avail := by
  have hdn : (s.vecs v).m_data ≠ none := fun e => by
    have := hR.2.2.1 e
    omega
  obtain ⟨a, ha⟩ := Option.ne_none_iff_exists'.mp hdn
  obtain ⟨f, hbuf, hfx⟩ := hR.buf ha
  obtain ⟨s1, e1, hb1, hs1⟩ := fill_loop_spec s v value (n - xs.length) xs.length ha hbuf
    (by omega)
  obtain ⟨s2, e2, hbufs2, hbrk2, hav2, hv2, ho2⟩ := setVSize_spec s1 v n
  rw [hs1.1, ha] at hv2
  have hb2 := hb1.of_bufs_eq (T := s2) (by rw [hbufs2])
  have hlen : (xs ++ List.replicate (n - xs.length) value).length = n := by
    rw [List.length_append, List.length_replicate]; omega
  have hslots : ∀ i, i < (xs ++ List.replicate (n - xs.length) value).length →
      (fun j => if xs.length ≤ j ∧ j < xs.length + (n - xs.length) then some value else f j) i =
        (xs ++ List.replicate (n - xs.length) value)[i]? := by
    intro i hi
    rw [hlen] at hi
    rw [getElem?_append_replicate]
    show (if xs.length ≤ i ∧ i < xs.length + (n - xs.length) then some value else f i) = _
    by_cases c : i < xs.length
    · have c1 : ¬ (xs.length ≤ i ∧ i < xs.length + (n - xs.length)) := by omega
      rw [if_neg c1, if_pos c, hfx i c]
    · have c1 : xs.length ≤ i ∧ i < xs.length + (n - xs.length) := by omega
      rw [if_pos c1, if_neg c, if_pos c1.2]
  refine ⟨s1, s2, e1, e2, ?_, ?_, ?_, ?_, by rw [hv2, ha], by rw [hav2, hs1.2.2.1]⟩
  · exact VRepr.of_buf (a := a) (by rw [hv2]) (by rw [hv2, hlen]) (by rw [hv2, hlen]; exact hc)
      (by rw [hv2]; exact hb2) hslots
  · intro hO
    refine VOwns.of_own_buf (a := a) (by rw [hv2]) (by rw [hv2, hlen])
      (by rw [hv2, hlen]; exact hc) (by rw [hv2]; exact hb2) hslots ?_
    intro ht i hi
    rw [hlen] at hi
    have c1 : ¬ (xs.length ≤ i ∧ i < xs.length + (n - xs.length)) := by omega
    show (if xs.length ≤ i ∧ i < xs.length + (n - xs.length) then some value else f i) = none
    rw [if_neg c1]
    exact hO.tail ha hbuf ht i (by omega)
  · intro hf
    exact (hf.of_sameBut hbuf hs1).of_bufs hbrk2 hbufs2
  · exact VStep.in_place ha hs1 hbufs2 hbrk2 (by rw [hv2]) ho2

/-- Effect of `resize(n, value)`. -/
theorem Vector_resize_owns [ValType α] {st : VMem α} {v : Ref} {xs : List α} (n : Nat)
    (value : α) (hf : VFresh st) (hR : VRepr st v xs)
    (hav : (st.vecs v).m_capacity < n → n ≤ st.avail) :
    ∃ st1, Vector_resize v n value st = .ret () st1 ∧
      VRepr st1 v (if n ≤ xs.length then xs.take n
        else xs ++ List.replicate (n - xs.length) value) ∧
      (VOwns st v xs → VOwns st1 v (if n ≤ xs.length then xs.take n
        else xs ++ List.replicate (n - xs.length) value)) ∧
      VFresh st1 ∧ VStep st st1 v ∧ (st1.vecs v).m_size = n ∧
      (st1.vecs v).m_capacity = (if (st.vecs v).m_capacity < n then n
        else (st.vecs v).m_capacity) ∧
      st1.avail + (st1.vecs v).m_capacity = st.avail + (st.vecs v).m_capacity := by
  have hsz := hR.1
  have hle := hR.2.1
  rcases Nat.lt_trichotomy n xs.length with hlt | heq | hgt
  · -- shrinking
    have hdn : (st.vecs v).m_data ≠ none := fun e => by
      have := hR.2.2.1 e
      omega
    obtain ⟨a, ha⟩ := Option.ne_none_iff_exists'.mp hdn
    obtain ⟨f, hbuf, hfx⟩ := hR.buf ha
    obtain ⟨s1, e1, hb1, hs1⟩ := destroyRange_exact (xs.length - n) n hbuf
      (fun j _ hj => live_of_slots hfx j (by omega))
    obtain ⟨s2, e2, hbufs2, hbrk2, hav2, hv2, ho2⟩ := setVSize_spec s1 v n
    rw [hs1.1, ha] at hv2
    have hb2 := hb1.of_bufs_eq (T := s2) (by rw [hbufs2])
    have hlen : (xs.take n).length = n := by
      rw [List.length_take]; omega
    have hslots : ∀ i, i < (xs.take n).length →
        (fun j => if ValType.trivial_dtor α = false ∧ n ≤ j ∧ j < n + (xs.length - n) then none
          else f j) i = (xs.take n)[i]? := by
      intro i hi
      rw [hlen] at hi
      have c1 : ¬ (ValType.trivial_dtor α = false ∧ n ≤ i ∧ i < n + (xs.length - n)) := by
        omega
      show (if ValType.trivial_dtor α = false ∧ n ≤ i ∧ i < n + (xs.length - n) then none
          else f i) = _
      rw [if_neg c1, getElem?_take_lt xs hi, hfx i (by omega)]
    have hcn : ¬ (st.vecs v).m_capacity < n := by omega
    rw [if_pos (Nat.le_of_lt hlt)]
    refine ⟨s2, ?_, ?_, ?_, (hf.of_sameBut hbuf hs1).of_bufs hbrk2 hbufs2,
      VStep.in_place ha hs1 hbufs2 hbrk2 (by rw [hv2]) ho2, by rw [hv2],
      by rw [hv2, if_neg hcn], by rw [hv2, hav2, hs1.2.2.1]⟩
    · simp only [Vector_resize, Prog.bind_run, Prog.bind, getVec_run, hsz, hlt, if_true, ha,
        e1]
      exact e2
    · exact VRepr.of_buf (a := a) (by rw [hv2]) (by rw [hv2, hlen])
        (by rw [hv2, hlen]; show n ≤ (st.vecs v).m_capacity; omega)
        (by rw [hv2]; exact hb2) hslots
    · intro hO
      refine VOwns.of_own_buf (a := a) (by rw [hv2]) (by rw [hv2, hlen])
        (by rw [hv2, hlen]; show n ≤ (st.vecs v).m_capacity; omega)
        (by rw [hv2]; exact hb2) hslots ?_
      intro ht i hi
      rw [hlen] at hi
      show (if ValType.trivial_dtor α = false ∧ n ≤ i ∧ i < n + (xs.length - n) then none
          else f i) = none
      by_cases c : i < xs.length
      · rw [if_pos ⟨ht, hi, by omega⟩]
      · have c1 : ¬ (ValType.trivial_dtor α = false ∧ n ≤ i ∧ i < n + (xs.length - n)) := by
          omega
        rw [if_neg c1]
        exact hO.tail ha hbuf ht i (by omega)
  · -- same size
    subst heq
    obtain ⟨s2, e2, hbufs2, hbrk2, hav2, hv2, ho2⟩ := setVSize_spec st v xs.length
    have hv21 : s2.vecs v = st.vecs v := by
      rw [hv2, ← hsz]
    have hc1 : ¬ xs.length < xs.length := Nat.lt_irrefl _
    have hcn : ¬ (st.vecs v).m_capacity < xs.length := by omega
    rw [if_pos (Nat.le_refl _), List.take_length]
    refine ⟨s2, ?_, hR.congr_state hv21 (fun a _ => by rw [hbufs2]),
      fun hO => hO.owns_congr hv21 (fun a _ => by rw [hbufs2]), hf.of_bufs hbrk2 hbufs2,
      VStep.of_members hbrk2 hbufs2 ho2 (by rw [hv21]), by rw [hv21, hsz],
      by rw [hv21, if_neg hcn], by rw [hv21, hav2]⟩
    simp only [Vector_resize, Prog.bind_run, Prog.bind, getVec_run, hsz, hc1, gt_iff_lt,
      if_false, Prog.pure_run]
    exact e2
  · -- growing
    obtain ⟨s1, e1, hR1, hO1, hf1, hs1, hsz1, hcap1, hsame, havl1⟩ :=
      Vector_reserve_owns n hf hR hav
    have hroom : n ≤ (s1.vecs v).m_capacity := by
      rw [hcap1]; split <;> omega
    obtain ⟨s2, s3, e2, e3, hR3, hO3, hf3, hs3, hv3, havl3⟩ :=
      fill_tail_owns n value hR1 hgt hroom
    have hc1 : ¬ n < xs.length := by omega
    have hc2 : ¬ n ≤ xs.length := by omega
    rw [if_neg hc2]
    have e1' : (if n > (st.vecs v).m_capacity then Vector_reserve v n else pure () :
        Prog (VMem α) Unit) st = .ret () s1 := by
      by_cases c : (st.vecs v).m_capacity < n
      · simp only [gt_iff_lt, c, if_true]
        exact e1
      · simp only [gt_iff_lt, c, if_false, Prog.pure_run]
        rw [hsame (by omega)]
    refine ⟨s3, ?_, hR3, fun hO => hO3 (hO1 hO), hf3 hf1, hs1.comp hs3, by rw [hv3], ?_, ?_⟩
    · simp only [Vector_resize, Prog.bind_run, Prog.bind, getVec_run, hsz, hc1, hgt, gt_iff_lt,
        if_false, if_true]
      simp only [gt_iff_lt] at e1'
      rw [e1']
      simp only [hsz1, e2]
      exact e3
    · rw [hv3]
      exact hcap1
    · rw [hv3, havl3]
      exact havl1

/-- Allocation failure in `resize(n, value)`. -/
theorem Vector_resize_fail [ValType α] {st : VMem α} {v : Ref} {xs : List α} (n : Nat)
    (value : α) (hR : VRepr st v xs) (hgt : (st.vecs v).m_capacity < n)
    (hav : ¬ n ≤ st.avail) :
    Vector_resize v n value st = .raise .bad_alloc st := by
  have hsz := hR.1
  have hle := hR.2.1
  have hc1 : ¬ n < xs.length := by omega
  have hc2 : xs.length < n := by omega
  simp only [Vector_resize, Prog.bind_run, Prog.bind, getVec_run, hsz, hc1, hc2, hgt, gt_iff_lt,
    if_false, if_true, Vector_reserve_fail hgt hav]

/-- Allocation failure in `shrinkToFit()`. -/
theorem Vector_shrinkToFit_fail [ValType α] {st : VMem α} {v : Ref}
    (hgt : (st.vecs v).m_size < (st.vecs v).m_capacity)
    (hav : ¬ (st.vecs v).m_size ≤ st.avail) :
    Vector_shrinkToFit v st = .raise .bad_alloc st := by
  have h : ¬ (st.vecs v).m_capacity ≤ (st.vecs v).m_size := by omega
  simp only [Vector_shrinkToFit, Prog.bind_run, Prog.bind, getVec_run, h, if_false,
    Vector__reallocate_fail v hav]

end OwnResize

section OwnCtor
variable {α : Type}

/-- The object built in a buffer allocated during the call owns its elements. -/
theorem owns_of_new [ValType α] {st s1 : VMem α} (s0 : VMem α) (v : Ref) (xs : List α)
    {c : Nat} {g : Nat → Option α} (hf : VFresh st) (h0b : s0.brk = st.brk + 1)
    (h0bufs : ∀ x, x ≠ st.brk → s0.bufs x = st.bufs x)
    (h0v : ∀ r, r ≠ v → s0.vecs r = st.vecs r) (hs : SameBut s0 s1 [st.brk])
    (hv : s1.vecs v = VecObj.mk (some st.brk) xs.length c) (hc : xs.length ≤ c)
    (hb : BufIs s1 st.brk c g) (hg : ∀ i, i < xs.length → g i = xs[i]?)
    (hg2 : ∀ i, xs.length ≤ i → g i = none) :
    VOwns s1 v xs ∧ VFresh s1 ∧ VNew st s1 v := by
  refine ⟨?_, ?_, ?_⟩
  · exact VOwns.of_own_buf (a := st.brk) (by rw [hv]) (by rw [hv]) (by rw [hv]; exact hc)
      (by rw [hv]; exact hb) hg (fun _ => hg2)
  · refine hf.step (T := s1) (by rw [hs.2.1, h0b]) ?_
    intro x hx
    rw [hs.2.2.2 x (by simp [Nat.ne_of_gt hx]), h0bufs x (Nat.ne_of_gt hx)]
  · refine ⟨by rw [hs.2.1, h0b]; exact Nat.le_succ _, fun r hr => by rw [hs.1, h0v r hr], ?_,
      Or.inr ⟨st.brk, by rw [hv], Nat.le_refl _⟩⟩
    intro x hx
    rw [hs.2.2.2 x (by simp [Nat.ne_of_lt hx]), h0bufs x (Nat.ne_of_lt hx)]

/-- Effect of the default constructor. -/
theorem Vector_ctor_owns [ValType α] (st : VMem α) (v : Ref) (hf : VFresh st) :
    ∃ st1, Vector_ctor v st = .ret () st1 ∧ VOwns st1 v [] ∧ VFresh st1 ∧ VNew st st1 v ∧
      st1.vecs v = VecObj.mk none 0 0 ∧ st1.avail = st.avail ∧ st1.bufs = st.bufs ∧
      st1.brk = st.brk := by
  refine ⟨VMem.mk st.bufs st.brk st.avail
    (fun r => if r = v then VecObj.mk none 0 0 else st.vecs r), ?_, ?_, hf, ?_, by simp, rfl,
    rfl, rfl⟩
  · simp only [Vector_ctor, Prog.bind_run, Prog.bind, setData, setVSize, setCapacity]
    congr 2
    funext r
    by_cases hr : r = v <;> simp [hr]
  · exact VOwns.of_null (by simp) (by simp) (by simp)
  · exact ⟨Nat.le_refl _, fun r hr => by simp [hr], fun x _ => rfl, Or.inl (by simp)⟩

/-- Effect of the constructor `Vector(size, value)`. -/
theorem Vector_ctor_fill_owns [ValType α] {st : VMem α} (v : Ref) (size : Nat) (value : α)
    (hf : VFresh st) (hav : size ≤ st.avail) :
    ∃ st1, Vector_ctor_fill v size value st = .ret () st1 ∧
      VOwns st1 v (List.replicate size value) ∧ VFresh st1 ∧ VNew st st1 v ∧
      (st1.vecs v).m_size = size ∧ (st1.vecs v).m_capacity = size ∧
      st1.avail + size = st.avail := by
  by_cases hl : size = 0
  · subst hl
    refine ⟨VMem.mk st.bufs st.brk st.avail
      (fun r => if r = v then VecObj.mk none 0 0 else st.vecs r), ?_, ?_, hf, ?_, by simp,
      by simp, rfl⟩
    · simp only [Vector_ctor_fill, Prog.bind_run, Prog.bind, setData, setVSize, setCapacity,
        gt_iff_lt, lt_irrefl, if_false, Prog.pure_run]
      congr 2
      funext r
      by_cases hr : r = v <;> simp [hr]
    · exact VOwns.of_null (by simp) (by simp) (by simp)
    · exact ⟨Nat.le_refl _, fun r hr => by simp [hr], fun x _ => rfl, Or.inl (by simp)⟩
  · have hpos : 0 < size := Nat.pos_of_ne_zero hl
    obtain ⟨st1, e1, h1, h2⟩ := fill_loop_spec
      (VMem.mk (fun x => if x = st.brk then some (Block.mk size (fun _ => none))
        else st.bufs x) (st.brk + 1) (st.avail - size)
        (fun r => if r = v then VecObj.mk (some st.brk) size size else st.vecs r))
      v (a := st.brk) (f := fun _ => none) value size 0 (by simp)
      ⟨Block.mk size (fun _ => none), by simp, rfl, fun _ => rfl⟩
      (by show 0 + size ≤ size; omega)
    have hv1 : st1.vecs v = VecObj.mk (some st.brk) size size := by
      rw [h2.1]; simp
    have hlen : (List.replicate size value).length = size := List.length_replicate _ _
    obtain ⟨hO, hF, hN⟩ := owns_of_new
      (VMem.mk (fun x => if x = st.brk then some (Block.mk size (fun _ => none))
        else st.bufs x) (st.brk + 1) (st.avail - size)
        (fun r => if r = v then VecObj.mk (some st.brk) size size else st.vecs r))
      v (List.replicate size value) (c := size) hf rfl (fun x hx => by simp [hx]) (fun r hr => by simp [hr]) h2 (by rw [hv1, hlen])
      (by rw [hlen]) h1
      (by
        intro i hi
        rw [hlen] at hi
        have c : 0 ≤ i ∧ i < 0 + size := by omega
        show (if 0 ≤ i ∧ i < 0 + size then some value else none) = _
        rw [if_pos c, List.getElem?_eq_getElem (by rw [hlen]; exact hi), List.getElem_replicate])
      (by
        intro i hi
        rw [hlen] at hi
        have c : ¬ (0 ≤ i ∧ i < 0 + size) := by omega
        show (if 0 ≤ i ∧ i < 0 + size then some value else none) = _
        rw [if_neg c])
    refine ⟨st1, ?_, hO, hF, hN, by rw [hv1], by rw [hv1], ?_⟩
    · have hnew := @opNew_run α (VMem.mk st.bufs st.brk st.avail
        (fun r => if r = v then VecObj.mk none size size else st.vecs r)) size hav
      simp only [Vector_ctor_fill, Prog.bind_run, Prog.bind, setData, setVSize, setCapacity,
        getVec_run, if_true, gt_iff_lt, hpos, ite_ite_same, hnew]
      exact e1
    · rw [h2.2.2.1]
      show st.avail - size + size = st.avail
      omega

/-- Allocation failure in the constructor `Vector(size, value)`. -/
theorem Vector_ctor_fill_fail {st : VMem α} (v : Ref) (size : Nat) (value : α)
    (hav : ¬ size ≤ st.avail) :
    ∃ st1, Vector_ctor_fill v size value st = .raise .bad_alloc st1 ∧ st1.bufs = st.bufs ∧
      st1.brk = st.brk ∧ st1.avail = st.avail ∧ ∀ r, r ≠ v → st1.vecs r = st.vecs r := by
  have hpos : 0 < size := by omega
  refine ⟨VMem.mk st.bufs st.brk st.avail
    (fun r => if r = v then VecObj.mk none size size else st.vecs r), ?_, rfl, rfl, rfl,
    fun r hr => by simp [hr]⟩
  have hnew := @opNew_fail α (VMem.mk st.bufs st.brk st.avail
    (fun r => if r = v then VecObj.mk none size size else st.vecs r)) size hav
  simp only [Vector_ctor_fill, Prog.bind_run, Prog.bind, setData, setVSize, setCapacity,
    getVec_run, if_true, gt_iff_lt, hpos, ite_ite_same, hnew]

/-- Effect of the constructor from an initializer list. -/
theorem Vector_ctor_init_owns [ValType α] {st : VMem α} (v : Ref) (list : List α)
    (hf : VFresh st) (hav : list.length ≤ st.avail) :
    ∃ st1, Vector_ctor_init v list st = .ret () st1 ∧ VOwns st1 v list ∧ VFresh st1 ∧
      VNew st st1 v ∧ (st1.vecs v).m_size = list.length ∧
      (st1.vecs v).m_capacity = list.length ∧ st1.avail + list.length = st.avail := by
  by_cases hl : list.length = 0
  · have hnil : list = [] := List.eq_nil_of_length_eq_zero hl
    subst hnil
    refine ⟨VMem.mk st.bufs st.brk st.avail
      (fun r => if r = v then VecObj.mk none 0 0 else st.vecs r), ?_, ?_, hf, ?_, by simp,
      by simp, rfl⟩
    · simp only [Vector_ctor_init, Prog.bind_run, Prog.bind, setData, setVSize, setCapacity,
        getVec_run, List.length_nil, if_true, gt_iff_lt, lt_irrefl, if_false, Prog.pure_run]
      congr 2
      funext r
      by_cases hr : r = v <;> simp [hr]
    · exact VOwns.of_null (by simp) (by simp) (by simp)
    · exact ⟨Nat.le_refl _, fun r hr => by simp [hr], fun x _ => rfl, Or.inl (by simp)⟩
  · have hpos : 0 < list.length := Nat.pos_of_ne_zero hl
    obtain ⟨st1, e1, h1, h2⟩ := Vector_initLoop_spec v st.brk list.length list 0
      (VMem.mk (fun x => if x = st.brk then some (Block.mk list.length (fun _ => none))
        else st.bufs x) (st.brk + 1) (st.avail - list.length)
        (fun r => if r = v then VecObj.mk (some st.brk) list.length list.length else st.vecs r))
      (fun _ => none) (by simp) ⟨Block.mk list.length (fun _ => none), by simp, rfl, fun _ => rfl⟩
      (by omega)
    have hv1 : st1.vecs v = VecObj.mk (some st.brk) list.length list.length := by
      rw [h2.1]; simp
    obtain ⟨hO, hF, hN⟩ := owns_of_new
      (VMem.mk (fun x => if x = st.brk then some (Block.mk list.length (fun _ => none))
        else st.bufs x) (st.brk + 1) (st.avail - list.length)
        (fun r => if r = v then VecObj.mk (some st.brk) list.length list.length else st.vecs r))
      v list (c := list.length) hf rfl (fun x hx => by simp [hx]) (fun r hr => by simp [hr]) h2 hv1
      (Nat.le_refl _) h1
      (by
        intro i hi
        have c : 0 ≤ i ∧ i < 0 + list.length := by omega
        show (if 0 ≤ i ∧ i < 0 + list.length then list[i - 0]? else none) = _
        rw [if_pos c, Nat.sub_zero])
      (by
        intro i hi
        have c : ¬ (0 ≤ i ∧ i < 0 + list.length) := by omega
        show (if 0 ≤ i ∧ i < 0 + list.length then list[i - 0]? else none) = _
        rw [if_neg c])
    refine ⟨st1, ?_, hO, hF, hN, by rw [hv1], by rw [hv1], ?_⟩
    · have hnew := @opNew_run α (VMem.mk st.bufs st.brk st.avail
        (fun r => if r = v then VecObj.mk none list.length list.length else st.vecs r))
        list.length hav
      simp only [Vector_ctor_init, Prog.bind_run, Prog.bind, setData, setVSize, setCapacity,
        getVec_run, if_true, gt_iff_lt, hpos, ite_ite_same, hnew]
      exact e1
    · rw [h2.2.2.1]
      show st.avail - list.length + list.length = st.avail
      omega

/-- Allocation failure in the constructor from an initializer list. -/
theorem Vector_ctor_init_fail {st : VMem α} (v : Ref) (list : List α)
    (hav : ¬ list.length ≤ st.avail) :
    ∃ st1, Vector_ctor_init v list st = .raise .bad_alloc st1 ∧ st1.bufs = st.bufs ∧
      st1.brk = st.brk ∧ st1.avail = st.avail ∧ ∀ r, r ≠ v → st1.vecs r = st.vecs r := by
  have hpos : 0 < list.length := by omega
  refine ⟨VMem.mk st.bufs st.brk st.avail
    (fun r => if r = v then VecObj.mk none list.length list.length else st.vecs r), ?_, rfl,
    rfl, rfl, fun r hr => by simp [hr]⟩
  have hnew := @opNew_fail α (VMem.mk st.bufs st.brk st.avail
    (fun r => if r = v then VecObj.mk none list.length list.length else st.vecs r))
    list.length hav
  simp only [Vector_ctor_init, Prog.bind_run, Prog.bind, setData, setVSize, setCapacity,
    getVec_run, if_true, gt_iff_lt, hpos, ite_ite_same, hnew]

end OwnCtor

section OwnCopy
variable {α : Type}

/-- The loop `for (i = 0; i < n; ++i) new (m_data + i) ValType(other.m_data[i])`. -/
theorem readcopy_loop_spec (s : VMem α) (this other : Ref) {a b : Ptr} {la lb : Nat}
    {fa fb : Nat → Option α} (n : Nat)
    (hda : (s.vecs other).m_data = some a) (hdb : (s.vecs this).m_data = some b) (hab : a ≠ b)
    (ha : BufIs s a la fa) (hb : BufIs s b lb fb) (hlive : ∀ j, j < n → (fa j).isSome)
    (hlen : n ≤ lb) :
    ∃ s1, forUp (fun i => do
        let w ← getVec this
        let o ← getVec other
        let x ← readAt o.m_data i
        constructAt w.m_data i x) n 0 s = .ret () s1 ∧
      BufIs s1 b lb (fun j => if j < n then fa j else fb j) ∧ SameBut s s1 [b] := by
  have := forUp_inv (fun i => do
        let w ← getVec this
        let o ← getVec other
        let x ← readAt o.m_data i
        constructAt w.m_data i x) n
    (fun k s1 => BufIs s1 b lb (fun j => if j < k then fa j else fb j) ∧ SameBut s s1 [b]) 0 s
    ⟨hb.congr (fun j => by rw [if_neg (Nat.not_lt_zero j)]), SameBut.refl _ _⟩
    (by
      intro k s1 hk ⟨h1, h2⟩
      have ha1 : BufIs s1 a la fa := ha.frame_buf h2 (by simp [hab])
      obtain ⟨blka, hb1, -, hb3⟩ := ha1
      obtain ⟨x, hx⟩ := Option.isSome_iff_exists.mp (hlive k hk)
      have er := readAt_run (i := k) hb1 (by rw [hb3]; exact hx)
      obtain ⟨s2, e2, h3, h4⟩ := constructAt_buf (i := k) x h1 (by omega)
      refine ⟨s2, ?_, h3.congr ?_, h2.trans h4⟩
      · simp only [Prog.bind_run, Prog.bind, getVec_run, h2.1, hda, hdb, Nat.zero_add, er]
        exact e2
      · intro j
        by_cases c0 : j = k
        · have c1 : j < k + 1 := by omega
          rw [if_pos c0, if_pos c1, c0, hx]
        · by_cases c1 : j < k
          · have c2 : j < k + 1 := by omega
            rw [if_neg c0, if_pos c1, if_pos c2]
          · have c2 : ¬ j < k + 1 := by omega
            rw [if_neg c0, if_neg c1, if_neg c2])
  exact this

/-- Effect of the copy constructor. -/
theorem Vector_ctor_copy_owns [ValType α] {st : VMem α} {this other : Ref} {ys : List α}
    (hne : this ≠ other) (hf : VFresh st) (hR : VRepr st other ys)
    (hav : (st.vecs other).m_capacity ≤ st.avail) :
    ∃ st1, Vector_ctor_copy this other st = .ret () st1 ∧ VOwns st1 this ys ∧ VFresh st1 ∧
      VNew st st1 this ∧ (st1.vecs this).m_size = ys.length ∧
      (st1.vecs this).m_capacity = (st.vecs other).m_capacity ∧
      st1.avail + (st.vecs other).m_capacity = st.avail := by
  have hsz := hR.1
  have hle := hR.2.1
  have hne' : ¬ other = this := fun e => hne e.symm
  by_cases hc : (st.vecs other).m_capacity = 0
  · have hs0 : (st.vecs other).m_size = 0 := by omega
    have hnil : ys = [] := List.eq_nil_of_length_eq_zero (by omega)
    subst hnil
    refine ⟨VMem.mk st.bufs st.brk st.avail
      (fun r => if r = this then VecObj.mk none 0 0 else st.vecs r), ?_, ?_, hf, ?_, by simp,
      by simp [hc], by simp [hc]⟩
    · simp only [Vector_ctor_copy, Prog.bind_run, Prog.bind, getVec_run, setVSize, setCapacity,
        setData, hne', if_false, hc, hs0, gt_iff_lt, lt_irrefl]
      congr 2
      funext r
      by_cases hr : r = this <;> simp [hr]
    · exact VOwns.of_null (by simp) (by simp) (by simp)
    · exact ⟨Nat.le_refl _, fun r hr => by simp [hr], fun x _ => rfl, Or.inl (by simp)⟩
  · have hpos : 0 < (st.vecs other).m_capacity := Nat.pos_of_ne_zero hc
    have hdn : (st.vecs other).m_data ≠ none := fun e => by
      have := hR.2.2.1 e
      omega
    obtain ⟨a, ha⟩ := Option.ne_none_iff_exists'.mp hdn
    obtain ⟨f, hbuf, hfx⟩ := hR.buf ha
    obtain ⟨hab, hold⟩ := bufIs_old_after_new (n := (st.vecs other).m_capacity) hf hbuf
    have hold' : BufIs (VMem.mk
        (fun x => if x = st.brk then some (Block.mk (st.vecs other).m_capacity (fun _ => none))
          else st.bufs x) (st.brk + 1) (st.avail - (st.vecs other).m_capacity)
        (fun r => if r = this then VecObj.mk (some st.brk) (st.vecs other).m_size
          (st.vecs other).m_capacity else st.vecs r)) a (st.vecs other).m_capacity f := by
      obtain ⟨blk, h1, h2, h3⟩ := hold
      exact ⟨blk, h1, h2, h3⟩
    obtain ⟨st1, e1, h1, h2⟩ := readcopy_loop_spec
      (VMem.mk
        (fun x => if x = st.brk then some (Block.mk (st.vecs other).m_capacity (fun _ => none))
          else st.bufs x) (st.brk + 1) (st.avail - (st.vecs other).m_capacity)
        (fun r => if r = this then VecObj.mk (some st.brk) (st.vecs other).m_size
          (st.vecs other).m_capacity else st.vecs r))
      this other (a := a) (b := st.brk) (st.vecs other).m_size
      (by simp [hne', ha]) (by simp) hab hold'
      ⟨Block.mk (st.vecs other).m_capacity (fun _ => none), by simp, rfl, fun _ => rfl⟩
      (fun j hj => live_of_slots hfx j (by omega))
      (by show (st.vecs other).m_size ≤ (st.vecs other).m_capacity; exact hle)
    have hv1 : st1.vecs this = VecObj.mk (some st.brk) ys.length (st.vecs other).m_capacity := by
      rw [h2.1, ← hsz]; simp
    obtain ⟨hO, hF, hN⟩ := owns_of_new
      (VMem.mk
        (fun x => if x = st.brk then some (Block.mk (st.vecs other).m_capacity (fun _ => none))
          else st.bufs x) (st.brk + 1) (st.avail - (st.vecs other).m_capacity)
        (fun r => if r = this then VecObj.mk (some st.brk) (st.vecs other).m_size
          (st.vecs other).m_capacity else st.vecs r))
      this ys (c := (st.vecs other).m_capacity) hf rfl (fun x hx => by simp [hx])
      (fun r hr => by simp [hr]) h2 hv1 (by omega) h1
      (by
        intro i hi
        have c : i < (st.vecs other).m_size := by omega
        show (if i < (st.vecs other).m_size then f i else none) = _
        rw [if_pos c, hfx i hi])
      (by
        intro i hi
        have c : ¬ i < (st.vecs other).m_size := by omega
        show (if i < (st.vecs other).m_size then f i else none) = _
        rw [if_neg c])
    refine ⟨st1, ?_, hO, hF, hN, by rw [hv1], by rw [hv1], ?_⟩
    · have hnew := @opNew_run α (VMem.mk st.bufs st.brk st.avail
        (fun r => if r = this then VecObj.mk (st.vecs this).m_data (st.vecs other).m_size
          (st.vecs other).m_capacity else st.vecs r)) (st.vecs other).m_capacity hav
      simp only [Vector_ctor_copy, Prog.bind_run, Prog.bind, getVec_run, setVSize, setCapacity,
        setData, hne', if_false, if_true, gt_iff_lt, hpos, ite_ite_same, hnew]
      exact e1
    · rw [h2.2.2.1]
      show st.avail - (st.vecs other).m_capacity + (st.vecs other).m_capacity = st.avail
      omega

/-- Allocation failure in the copy constructor. -/
theorem Vector_ctor_copy_fail {st : VMem α} {this other : Ref} (hne : this ≠ other)
    (hav : ¬ (st.vecs other).m_capacity ≤ st.avail) :
    ∃ st1, Vector_ctor_copy this other st = .raise .bad_alloc st1 ∧ st1.bufs = st.bufs ∧
      st1.brk = st.brk ∧ st1.avail = st.avail ∧ ∀ r, r ≠ this → st1.vecs r = st.vecs r := by
  have hpos : 0 < (st.vecs other).m_capacity := by omega
  have hne' : ¬ other = this := fun e => hne e.symm
  refine ⟨VMem.mk st.bufs st.brk st.avail
    (fun r => if r = this then VecObj.mk (st.vecs this).m_data (st.vecs other).m_size
      (st.vecs other).m_capacity else st.vecs r), ?_, rfl, rfl, rfl, fun r hr => by simp [hr]⟩
  have hnew := @opNew_fail α (VMem.mk st.bufs st.brk st.avail
    (fun r => if r = this then VecObj.mk (st.vecs this).m_data (st.vecs other).m_size
      (st.vecs other).m_capacity else st.vecs r)) (st.vecs other).m_capacity hav
  simp only [Vector_ctor_copy, Prog.bind_run, Prog.bind, getVec_run, setVSize, setCapacity,
    setData, hne', if_false, if_true, gt_iff_lt, hpos, ite_ite_same, hnew]

/-- Effect of the move constructor. -/
theorem Vector_ctor_move_spec {st : VMem α} {this other : Ref} (hne : this ≠ other) :
    ∃ st1, Vector_ctor_move this other st = .ret () st1 ∧ st1.bufs = st.bufs ∧
      st1.brk = st.brk ∧ st1.avail = st.avail ∧ st1.vecs this = st.vecs other ∧
      st1.vecs other = VecObj.mk none 0 0 ∧
      ∀ r, r ≠ this → r ≠ other → st1.vecs r = st.vecs r := by
  have hne' : ¬ other = this := fun e => hne e.symm
  refine ⟨VMem.mk st.bufs st.brk st.avail
    (fun r => if r = other then VecObj.mk none 0 0 else if r = this then st.vecs other
      else st.vecs r), ?_, rfl, rfl, rfl, by simp [hne], by simp,
    fun r h1 h2 => by simp [h1, h2]⟩
  simp only [Vector_ctor_move, Prog.bind_run, Prog.bind, getVec_run, setVSize, setCapacity,
    setData]
  congr 2
  funext r
  by_cases h1 : r = other
  · subst h1
    simp
  · by_cases h2 : r = this
    · subst h2
      simp [h1]
    · simp [h1, h2]

/-- Effect of `swap(other)`: the two objects exchange their members. -/
theorem Vector_swap_spec (st : VMem α) (this other : Ref) :
    ∃ st1, Vector_swap this other st = .ret () st1 ∧ st1.bufs = st.bufs ∧
      st1.brk = st.brk ∧ st1.avail = st.avail ∧ st1.vecs this = st.vecs other ∧
      st1.vecs other = st.vecs this ∧
      ∀ r, r ≠ this → r ≠ other → st1.vecs r = st.vecs r := by
  refine ⟨VMem.mk st.bufs st.brk st.avail
    (fun r => if r = other then st.vecs this else if r = this then st.vecs other
      else st.vecs r), ?_, rfl, rfl, rfl, ?_, by simp, fun r h1 h2 => by simp [h1, h2]⟩
  · simp only [Vector_swap, Prog.bind_run, Prog.bind, getVec_run, setVSize, setCapacity,
      setData]
    congr 2
    funext r
    by_cases h1 : r = other
    · subst h1
      by_cases h2 : this = r
      · subst h2
        simp
      · have h3 : ¬ r = this := fun e => h2 e.symm
        simp [h2, h3]
    · by_cases h2 : r = this
      · subst h2
        have h3 : ¬ other = r := fun e => h1 e.symm
        simp [h1, h3]
      · simp [h1, h2]
  · by_cases h : this = other
    · subst h
      simp
    · simp [h]

/-- Effect of the destructor: the elements are destroyed and the buffer is released. -/
theorem Vector_dtor_spec [ValType α] {st : VMem α} {v : Ref} {xs : List α}
    (hR : VRepr st v xs) :
    ∃ st1, Vector_dtor v st = .ret () st1 ∧ st1.brk = st.brk ∧
      (∀ r, r ≠ v → st1.vecs r = st.vecs r) ∧
      (∀ x, some x ≠ (st.vecs v).m_data → st1.bufs x = st.bufs x) ∧
      (∀ a, (st.vecs v).m_data = some a → st1.bufs a = none) ∧
      (VFresh st → VFresh st1) ∧ st1.avail = st.avail + (st.vecs v).m_capacity := by
  obtain ⟨s1, e1, hR1, -, hf1, hs1, hv1, hav1, hbrk1, hbufs1⟩ := Vector_clear_owns hR
  cases hd : (st.vecs v).m_data with
  | none =>
    rw [hd] at hv1
    have hc0 := hR.2.2.1 hd
    refine ⟨s1, ?_, hbrk1, hs1.2.1, ?_, ?_, hf1, ?_⟩
    · simp only [Vector_dtor, Prog.bind_run, Prog.bind, e1, getVec_run, hv1, opDelete]
    · intro x hx
      exact hbufs1 x (by rw [hd]; exact hx)
    · intro a h
      cases h
    · rw [hav1, hc0]
      rfl
  | some a =>
    rw [hd] at hv1
    have hd1 : (s1.vecs v).m_data = some a := by rw [hv1]
    obtain ⟨f, ⟨blk, hb1, hb2, -⟩, -⟩ := hR1.buf hd1
    rw [hv1] at hb2
    refine ⟨VMem.mk (fun x => if x = a then none else s1.bufs x) s1.brk (s1.avail + blk.len)
      s1.vecs, ?_, hbrk1, hs1.2.1, ?_, ?_, ?_, ?_⟩
    · simp only [Vector_dtor, Prog.bind_run, Prog.bind, e1, getVec_run, hv1, opDelete_run hb1]
    · intro x hx
      have hxa : x ≠ a := fun e => hx (by rw [e])
      simp only [if_neg hxa]
      exact hbufs1 x (by rw [hd]; exact hx)
    · intro b hb
      cases hb
      simp
    · intro hf
      refine (hf1 hf).of_same rfl ?_
      intro x hx
      by_cases hxa : x = a
      · simp [hxa] at hx
      · simpa [hxa] using hx
    · show s1.avail + blk.len = _
      rw [hav1, hb2]

end OwnCopy

section OwnInsert
variable {α : Type}

/-- The in-place path of `insert`, with the slots past the size. -/
theorem Vector_insert_spare_tail [ValType α] {st : VMem α} {v : Ref} {xs : List α} (i : Nat)
    (value : α) (hR : VRepr st v xs) (hi : i ≤ xs.length)
    (hsp : (st.vecs v).m_size < (st.vecs v).m_capacity) :
    ∃ st1, Vector_insert v (VIter.mk (st.vecs v).m_data i) value st =
        .ret (VIter.mk (st1.vecs v).m_data i) st1 ∧
      VRepr st1 v (xs.take i ++ value :: xs.drop i) ∧
      st1.vecs v = { st.vecs v with m_size := xs.length + 1 } ∧
      (∀ r, r ≠ v → st1.vecs r = st.vecs r) ∧ st1.brk = st.brk ∧ st1.avail = st.avail ∧
      (∀ x, some x ≠ (st.vecs v).m_data → st1.bufs x = st.bufs x) ∧
      (∀ x, (st1.bufs x).isSome = (st.bufs x).isSome) ∧
      (VOwns st v xs → ValType.trivial_dtor α = false → ∀ m, xs.length + 1 ≤ m →
        slotAt st1 (st1.vecs v).m_data m = none) := by
  have hsz := hR.1
  have hdn : (st.vecs v).m_data ≠ none := by
    intro e
    have := hR.2.2.1 e
    omega
  obtain ⟨a, ha⟩ := Option.ne_none_iff_exists'.mp hdn
  obtain ⟨f, hbuf, hfx⟩ := hR.buf ha
  have hlive : ∀ j, j < xs.length → (f j).isSome := by
    intro j hj
    rw [hfx j hj]
    simp [List.getElem?_eq_getElem hj]
  have hlen' : (xs.take i ++ value :: xs.drop i).length = xs.length + 1 := by
    simp [List.length_take, List.length_drop]; omega
  by_cases hlt : i < xs.length
  · obtain ⟨w, hw⟩ := Option.isSome_iff_exists.mp (hlive (xs.length - 1) (by omega))
    have hsp' : xs.length < (st.vecs v).m_capacity := by rw [← hsz]; exact hsp
    obtain ⟨blk0, hb01, hb02, hb03⟩ := hbuf
    have em := moveFrom_run hb01 (by rw [hb03]; exact hw)
    have ec := constructAt_run
      (S := st.setBuf a (some (blk0.set (xs.length - 1) (some (ValType.movedFrom w)))))
      (b := a) (K := blk0.set (xs.length - 1) (some (ValType.movedFrom w))) (i := xs.length) w
      (by simp) (by simp [hb02, hsp'])
    have h1 : BufIs ((st.setBuf a (some (blk0.set (xs.length - 1)
        (some (ValType.movedFrom w))))).setBuf a (some ((blk0.set (xs.length - 1)
        (some (ValType.movedFrom w))).set xs.length (some w)))) a (st.vecs v).m_capacity
        (fun j => if j = xs.length then some w
          else if j = xs.length - 1 then some (ValType.movedFrom w) else f j) :=
      Exists.intro ((blk0.set (xs.length - 1) (some (ValType.movedFrom w))).set xs.length
        (some w)) ⟨by simp, by simp [hb02], fun j => by simp only [Block.set_slot, hb03]⟩
    have hs1 : SameBut st ((st.setBuf a (some (blk0.set (xs.length - 1)
        (some (ValType.movedFrom w))))).setBuf a (some ((blk0.set (xs.length - 1)
        (some (ValType.movedFrom w))).set xs.length (some w)))) [a] :=
      ⟨rfl, rfl, rfl, fun x hx => by
        have : x ≠ a := fun e => hx (by simp [e])
        simp [this]⟩
    obtain ⟨s2, e2, h2, hs2⟩ := shift_loop_spec (n := xs.length) (d := i) (f := f) hlt hlive h1
      (by
        intro j
        by_cases c0 : j = xs.length
        · rw [if_pos c0, if_pos c0, hw]
        · rw [if_neg c0, if_neg c0]
          by_cases c1 : j = xs.length - 1
          · have c2 : j + 1 = xs.length := by omega
            rw [if_pos c1, if_pos c2, c1, hw]
            rfl
          · have c2 : ¬ (j + 1 = xs.length) := by omega
            rw [if_neg c1, if_neg c2])
    obtain ⟨blk, hb1, hb2, hb3⟩ := h2
    obtain ⟨u, hu⟩ := Option.isSome_iff_exists.mp (hlive i hlt)
    have hslot : blk.slot i = some (ValType.movedFrom u) := by
      rw [hb3]
      have c0 : ¬ (i = xs.length) := by omega
      have c1 : ¬ (i + 1 ≤ i ∧ i < xs.length) := by omega
      show (if i = xs.length then f (xs.length - 1)
        else if i + 1 ≤ i ∧ i < xs.length then f (i - 1)
        else if i = i then (f i).map ValType.movedFrom else f i) = _
      rw [if_neg c0, if_neg c1, if_pos rfl, hu]
      rfl
    have e3 := assignAt_run (S := s2) value hb1 hslot
    have hvec2 : s2.vecs = st.vecs := hs2.1.trans hs1.1
    refine ⟨VMem.mk (fun x => if x = a then some (blk.set i (some value)) else s2.bufs x)
        s2.brk s2.avail
        (fun r => if r = v then { st.vecs v with m_size := xs.length + 1 } else st.vecs r),
      ?_, ?_, by simp, fun r hr => by simp [hr], hs2.2.1.trans hs1.2.1,
      hs2.2.2.1.trans hs1.2.2.1, ?_, ?_, ?_⟩
    · simp only [Vector_insert, Prog.bind_run, Prog.bind, Vector_begin_run, ha, vdistance_run,
        toNat_sub_zero, getVec_run, hsp', if_true, hsz, hlt, em, ec, e2, e3, setVSize,
        hvec2, Prog.pure_run, VIter.add, Nat.zero_add, setBuf_vecs, setBuf_brk, setBuf_avail]
      simp [VMem.setBuf, ha]
    · refine VRepr.of_buf (a := a)
        (f := fun j => if j = i then some value else blk.slot j)
        (by simp [ha]) (by simp [hlen']) (by simp only [if_true, hlen']; omega)
        (Exists.intro (blk.set i (some value)) ⟨by simp, by simp [hb2], fun j => by simp⟩) ?_
      intro j hj
      rw [hlen'] at hj
      rw [getElem?_insert xs value i j hi]
      show (if j = i then some value else blk.slot j) = _
      by_cases c0 : j = i
      · have c1 : ¬ (j < i) := by omega
        rw [if_pos c0, if_neg c1, if_pos c0]
      · rw [if_neg c0, hb3]
        show (if j = xs.length then f (xs.length - 1)
          else if i + 1 ≤ j ∧ j < xs.length then f (j - 1)
          else if j = i then (f j).map ValType.movedFrom else f j) = _
        by_cases c1 : j < i
        · have c2 : ¬ (j = xs.length) := by omega
          have c3 : ¬ (i + 1 ≤ j ∧ j < xs.length) := by omega
          rw [if_pos c1, if_neg c2, if_neg c3, if_neg c0, hfx j (by omega)]
        · rw [if_neg c1, if_neg c0, if_neg c0]
          by_cases c2 : j = xs.length
          · rw [if_pos c2, c2, hfx _ (by omega)]
          · have c3 : i + 1 ≤ j ∧ j < xs.length := by omega
            rw [if_neg c2, if_pos c3, hfx _ (by omega)]
    · intro x hx
      have hxa : x ≠ a := fun e => hx (by rw [e, ha])
      simp only [if_neg hxa]
      rw [hs2.2.2.2 x (by simp [hxa]), hs1.2.2.2 x (by simp [hxa])]
    · intro x
      by_cases hxa : x = a
      · simp [hxa, hb01]
      · simp only [if_neg hxa]
        rw [hs2.2.2.2 x (by simp [hxa]), hs1.2.2.2 x (by simp [hxa])]
    · intro hO ht m hm
      have hft := hO.tail ha ⟨blk0, hb01, hb02, hb03⟩ ht
      have c0 : ¬ (m = i) := by omega
      have c1 : ¬ (m = xs.length) := by omega
      have c2 : ¬ (i + 1 ≤ m ∧ m < xs.length) := by omega
      simp only [slotAt, ha, if_true, Block.set_slot, hb3, if_neg c0, if_neg c1, if_neg c2]
      exact hft m (by omega)
  · have hie : i = xs.length := by omega
    subst hie
    have hsp' : xs.length < (st.vecs v).m_capacity := by rw [← hsz]; exact hsp
    obtain ⟨blk, hb1, hb2, hb3⟩ := hbuf
    have e1 := constructAt_run (S := st) (i := xs.length) value hb1 (by rw [hb2, ← hsz]; exact hsp)
    refine ⟨VMem.mk (fun x => if x = a then some (blk.set xs.length (some value)) else st.bufs x)
        st.brk st.avail
        (fun r => if r = v then { st.vecs v with m_size := xs.length + 1 } else st.vecs r),
      ?_, ?_, by simp, fun r hr => by simp [hr], rfl, rfl, ?_, ?_, ?_⟩
    · simp only [Vector_insert, Prog.bind_run, Prog.bind, Vector_begin_run, ha, vdistance_run,
        toNat_sub_zero, getVec_run, hsp', if_true, hsz, hlt, if_false, e1, setVSize,
        Prog.pure_run, VIter.add, Nat.zero_add, setBuf_vecs, setBuf_brk, setBuf_avail]
      simp [VMem.setBuf, ha]
    · refine VRepr.of_buf (a := a)
        (f := fun j => if j = xs.length then some value else blk.slot j)
        (by simp [ha]) (by simp [hlen']) (by simp only [if_true, hlen']; omega)
        (Exists.intro (blk.set xs.length (some value))
          ⟨by simp, by simp [hb2], fun j => by simp⟩) ?_
      intro j hj
      rw [hlen'] at hj
      rw [getElem?_insert xs value xs.length j hi]
      show (if j = xs.length then some value else blk.slot j) = _
      by_cases c0 : j = xs.length
      · have c1 : ¬ (j < xs.length) := by omega
        rw [if_pos c0, if_neg c1, if_pos c0]
      · have c1 : j < xs.length := by omega
        rw [if_neg c0, if_pos c1, hb3, hfx j c1]
    · intro x hx
      have hxa : x ≠ a := fun e => hx (by rw [e, ha])
      simp only [if_neg hxa]
    · intro x
      by_cases hxa : x = a
      · simp [hxa, hb1]
      · simp only [if_neg hxa]
    · intro hO ht m hm
      have hft := hO.tail ha ⟨blk, hb1, hb2, hb3⟩ ht
      have c0 : ¬ (m = xs.length) := by omega
      simp only [slotAt, ha, if_true, Block.set_slot, hb3, if_neg c0]
      exact hft m (by omega)


/-- The reallocating path of `insert`, with the slots past the size and the allocator. -/
theorem Vector_insert_grow_tail [ValType α] {st : VMem α} {v : Ref} {xs : List α} (i : Nat)
    (value : α) (hf : VFresh st) (hR : VRepr st v xs) (hi : i ≤ xs.length)
    (hfull : ¬ (st.vecs v).m_size < (st.vecs v).m_capacity)
    (hav : (if (st.vecs v).m_capacity = 0 then 1 else (st.vecs v).m_capacity * 2) ≤ st.avail) :
    ∃ st1, Vector_insert v (VIter.mk (st.vecs v).m_data i) value st =
        .ret (VIter.mk (st1.vecs v).m_data i) st1 ∧
      VRepr st1 v (xs.take i ++ value :: xs.drop i) ∧
      st1.vecs v = VecObj.mk (some st.brk) (xs.length + 1)
        (if (st.vecs v).m_capacity = 0 then 1 else (st.vecs v).m_capacity * 2) ∧
      (∀ r, r ≠ v → st1.vecs r = st.vecs r) ∧ VFresh st1 ∧
      (∀ x, some x ≠ (st.vecs v).m_data → x ≠ st.brk → st1.bufs x = st.bufs x) ∧
      (∀ m, xs.length + 1 ≤ m → slotAt st1 (st1.vecs v).m_data m = none) ∧
      st1.brk = st.brk + 1 ∧
      st1.avail + (if (st.vecs v).m_capacity = 0 then 1 else (st.vecs v).m_capacity * 2) =
        st.avail + (st.vecs v).m_capacity := by
  have hsz := hR.1
  have hle := hR.2.1
  have hcap : (st.vecs v).m_capacity = xs.length := by omega
  have hlen' : (xs.take i ++ value :: xs.drop i).length = xs.length + 1 := by
    simp [List.length_take, List.length_drop]; omega
  generalize hnc : (if (st.vecs v).m_capacity = 0 then 1 else (st.vecs v).m_capacity * 2) = nc
    at hav
  have hroom : xs.length + 1 ≤ nc := by
    rw [← hnc, hcap]; split <;> omega
  cases hd : (st.vecs v).m_data with
  | none =>
    obtain ⟨hxs, hs0, hc0⟩ := hR.null hd
    subst hxs
    have hi0 : i = 0 := by simpa using hi
    subst hi0
    have hfull0 : ¬ 0 < (st.vecs v).m_capacity := by omega
    have ec := constructAt_run
      (S := VMem.mk (fun x => if x = st.brk then some (Block.mk nc (fun _ => none))
        else st.bufs x) (st.brk + 1) (st.avail - nc) st.vecs)
      (b := st.brk) (K := Block.mk nc (fun _ => none)) (i := 0) value (by simp)
      (by simpa using hroom)
    refine ⟨VMem.mk
        (fun x => if x = st.brk then some ((Block.mk nc (fun _ => none)).set 0 (some value))
          else st.bufs x)
        (st.brk + 1) (st.avail - nc)
        (fun r => if r = v then VecObj.mk (some st.brk) 1 nc else st.vecs r),
      ?_, ?_, by simp, fun r hr => by simp [hr], ?_, fun x _ hx => by simp [hx], ?_, rfl, ?_⟩
    · simp only [Vector_insert, Prog.bind_run, Prog.bind, Vector_begin_run, hd, vdistance_run,
        toNat_sub_zero, getVec_run, hfull0, if_false, hnc, opNew_run hav, hs0, forUp,
        Prog.pure_run, Nat.sub_self, ec, destroyRange_zero, opDelete, setData, setVSize,
        setCapacity, VIter.add, Nat.zero_add]
      simp only [VMem.setBuf, if_true]
      congr 2
      · funext x
        by_cases hx : x = st.brk
        · simp [hx]
        · simp [hx]
      · funext r
        by_cases hr : r = v
        · subst hr; simp
        · simp [hr]
    · exact VRepr.of_buf (a := st.brk) (f := fun j => if j = 0 then some value else none)
        (by simp) (by simp) (by simpa using hroom)
        (Exists.intro ((Block.mk nc (fun _ => none)).set 0 (some value))
          ⟨by simp, by simp, fun j => by simp⟩)
        (by
          intro j hj
          have : j = 0 := by simpa using hj
          subst this
          simp)
    · exact hf.step rfl (fun x hx => by simp [Nat.ne_of_gt hx])
    · intro m hm
      have c0 : ¬ (m = 0) := by
        simp only [List.length_nil] at hm
        omega
      simp only [slotAt, if_true, Block.set_slot, if_neg c0]
    · show st.avail - nc + nc = st.avail + (st.vecs v).m_capacity
      omega
  | some a =>
    obtain ⟨f, hbuf, hfx⟩ := hR.buf hd
    have hfull1 : ¬ xs.length < (st.vecs v).m_capacity := by omega
    obtain ⟨hne, hold⟩ := bufIs_old_after_new (n := nc) hf hbuf
    have hlive : ∀ j, j < xs.length → (f j).isSome := by
      intro j hj
      rw [hfx j hj]
      simp [List.getElem?_eq_getElem hj]
    -- first loop: the elements before the insertion point
    obtain ⟨s1, e1, h1a, h1b, h1s⟩ := copy_loop_spec
      (fun k => do let x ← moveFrom (some a) k; constructAt (some st.brk) k x) 0 i 0
      (fun _ => rfl) hne hold bufIs_after_new
      (fun j _ hj => hlive j (by omega)) (by omega)
    -- the new element
    obtain ⟨blkb, hb1, hb2, hb3⟩ := h1b
    have ec := constructAt_run (S := s1) (i := i) value hb1 (by rw [hb2]; omega)
    have h2a : BufIs (s1.setBuf st.brk (some (blkb.set i (some value)))) a
        (st.vecs v).m_capacity
        (fun j => if 0 ≤ j ∧ j < 0 + i then (f j).map ValType.movedFrom else f j) := by
      obtain ⟨blka, ha1, ha2, ha3⟩ := h1a
      exact ⟨blka, by simp [hne, ha1], ha2, ha3⟩
    have h2b : BufIs (s1.setBuf st.brk (some (blkb.set i (some value)))) st.brk nc
        (fun j => if j = i then some value
          else if 0 + 0 ≤ j ∧ j < 0 + 0 + i then f (j - 0) else none) :=
      ⟨blkb.set i (some value), by simp, by simp [hb2], fun j => by
        simp only [Block.set_slot, hb3]⟩
    have h2s : SameBut s1 (s1.setBuf st.brk (some (blkb.set i (some value)))) [a, st.brk] :=
      ⟨rfl, rfl, rfl, fun x hx => by
        have : x ≠ st.brk := fun e => hx (by simp [e])
        simp [this]⟩
    -- second loop: the elements from the insertion point on
    obtain ⟨s3, e3, h3a, h3b, h3s⟩ := copy_loop_spec
      (fun k => do let x ← moveFrom (some a) k; constructAt (some st.brk) (k + 1) x) 1
      (xs.length - i) i (fun _ => rfl) hne h2a h2b
      (fun j hj1 hj2 => by
        have c : ¬ (0 ≤ j ∧ j < 0 + i) := by omega
        simp only [c, if_false]
        exact hlive j (by omega)) (by omega)
    obtain ⟨s4, g, e4, ⟨blk4, hb41, hb42, -⟩, -, h4s⟩ := destroyRange_spec xs.length 0 h3a
      (by
        intro j h0 hj
        have hl := hlive j (by omega)
        by_cases c1 : i ≤ j ∧ j < i + (xs.length - i)
        · by_cases c2 : 0 ≤ j ∧ j < 0 + i
          · simp only [c1, c2, and_self, if_true, Option.isSome_map']; exact hl
          · simp only [c1, c2, and_self, if_true, if_false, Option.isSome_map']; exact hl
        · by_cases c2 : 0 ≤ j ∧ j < 0 + i
          · simp only [c1, c2, and_self, if_true, if_false, Option.isSome_map']; exact hl
          · simp only [c1, c2, if_false]; exact hl)
    have e5 := opDelete_run hb41
    have hsame : SameBut (VMem.mk (fun x => if x = st.brk then some (Block.mk nc (fun _ => none))
        else st.bufs x) (st.brk + 1) (st.avail - nc) st.vecs) s4 [a, st.brk] :=
      ((h1s.trans h2s).trans h3s).trans (h4s.mono_set (fun x hx => by
        have : x = a := by simpa using hx
        simp [this]))
    have h4b := h3b.frame_buf h4s (by simp [Ne.symm hne])
    have hvecs : s4.vecs = st.vecs := hsame.1
    have hbrk : s4.brk = st.brk + 1 := hsame.2.1
    have hfin : BufIs (VMem.mk (fun x => if x = a then none else s4.bufs x) s4.brk
        (s4.avail + blk4.len)
        (fun r => if r = v then VecObj.mk (some st.brk) (xs.length + 1) nc else st.vecs r))
        st.brk nc
        (fun j => if i + 1 ≤ j ∧ j < i + 1 + (xs.length - i)
          then (fun j => if 0 ≤ j ∧ j < 0 + i then (f j).map ValType.movedFrom else f j) (j - 1)
          else (fun j => if j = i then some value
            else if 0 + 0 ≤ j ∧ j < 0 + 0 + i then f (j - 0) else none) j) := by
      obtain ⟨blk, hb1, hb2, hb3⟩ := h4b
      exact ⟨blk, by simp [Ne.symm hne, hb1], hb2, hb3⟩
    refine ⟨VMem.mk (fun x => if x = a then none else s4.bufs x) s4.brk (s4.avail + blk4.len)
        (fun r => if r = v then VecObj.mk (some st.brk) (xs.length + 1) nc else st.vecs r),
      ?_, ?_, by simp, fun r hr => by simp [hr], ?_, ?_, ?_, hbrk, ?_⟩
    · simp only [Vector_insert, Prog.bind_run, Prog.bind, Vector_begin_run, hd, vdistance_run,
        toNat_sub_zero, getVec_run, hfull1, if_false, hnc, opNew_run hav, hsz, e1, ec, e3, e4,
        e5, setData, setVSize, setCapacity, Prog.pure_run, VIter.add, Nat.zero_add]
      simp only [if_true]
      congr 2
      rw [hvecs]
      funext r
      by_cases hr : r = v
      · subst hr; simp
      · simp [hr]
    · refine VRepr.of_buf (a := st.brk) (by simp) (by simp [hlen'])
        (by simp only [if_true, hlen']; exact hroom) (by simpa using hfin) ?_
      intro j hj
      rw [hlen'] at hj
      rw [getElem?_insert xs value i j hi]
      show (if i + 1 ≤ j ∧ j < i + 1 + (xs.length - i)
          then (if j - 1 < i then (f (j - 1)).map ValType.movedFrom else f (j - 1))
          else (if j = i then some value else if j < i then f j else none)) = _
      by_cases c1 : j < i
      · have c2 : ¬ (i + 1 ≤ j ∧ j < i + 1 + (xs.length - i)) := by omega
        have c3 : ¬ (j = i) := by omega
        rw [if_neg c2, if_neg c3, if_pos c1, if_pos c1, hfx j (by omega)]
      · by_cases c3 : j = i
        · have c2 : ¬ (i + 1 ≤ j ∧ j < i + 1 + (xs.length - i)) := by omega
          rw [if_neg c2, if_pos c3, if_neg c1, if_pos c3]
        · have c2 : i + 1 ≤ j ∧ j < i + 1 + (xs.length - i) := by omega
          have c4 : ¬ (j - 1 < i) := by omega
          rw [if_pos c2, if_neg c4, if_neg c1, if_neg c3, hfx _ (by omega)]
    · refine hf.step hbrk ?_
      intro x hx
      by_cases hxa : x = a
      · subst hxa
        have := hf x (Nat.le_of_lt hx)
        simp [this]
      · simp only [if_neg hxa]
        rw [hsame.2.2.2 x (by simp [hxa, Nat.ne_of_gt hx])]
        simp [Nat.ne_of_gt hx]
    · intro x hx1 hx2
      have hxa : x ≠ a := fun e => hx1 (by rw [e])
      simp only [if_neg hxa]
      rw [hsame.2.2.2 x (by simp [hxa, hx2])]
      simp [hx2]
    · intro m hm
      have hsl := hfin.slot_eq m
      have hdv : ((VMem.mk (fun x => if x = a then none else s4.bufs x) s4.brk
          (s4.avail + blk4.len)
          (fun r => if r = v then VecObj.mk (some st.brk) (xs.length + 1) nc
            else st.vecs r)).vecs v).m_data = some st.brk := by simp
      rw [hdv, hsl]
      have c1 : ¬ (i + 1 ≤ m ∧ m < i + 1 + (xs.length - i)) := by omega
      have c2 : ¬ (m = i) := by omega
      have c3 : ¬ (0 + 0 ≤ m ∧ m < 0 + 0 + i) := by omega
      show (if i + 1 ≤ m ∧ m < i + 1 + (xs.length - i)
          then (if 0 ≤ m - 1 ∧ m - 1 < 0 + i then (f (m - 1)).map ValType.movedFrom
            else f (m - 1))
          else (if m = i then some value
            else if 0 + 0 ≤ m ∧ m < 0 + 0 + i then f (m - 0) else none)) = none
      rw [if_neg c1, if_neg c2, if_neg c3]
    · show s4.avail + blk4.len + nc = st.avail + (st.vecs v).m_capacity
      rw [hsame.2.2.1, hb42]
      show st.avail - nc + (st.vecs v).m_capacity + nc = st.avail + (st.vecs v).m_capacity
      omega

end OwnInsert

section OwnErase
variable {α : Type}

/-- Effect of `erase(begin() + i, begin() + j)`, with the slots past the size. -/
theorem Vector_erase_range_tail [ValType α] {st : VMem α} {v : Ref} {xs : List α}
    (fuel i j : Nat) (hR : VRepr st v xs) (hij : i ≤ j) (hj : j ≤ xs.length)
    (hfuel : xs.length - j < fuel) :
    ∃ st1, Vector_erase_range fuel v (VIter.mk (st.vecs v).m_data i)
        (VIter.mk (st.vecs v).m_data j) st = .ret (VIter.mk (st1.vecs v).m_data i) st1 ∧
      VRepr st1 v (xs.take i ++ xs.drop j) ∧
      st1.vecs v = VecObj.mk (st.vecs v).m_data (xs.length - (j - i)) (st.vecs v).m_capacity ∧
      (∀ r, r ≠ v → st1.vecs r = st.vecs r) ∧ st1.brk = st.brk ∧ st1.avail = st.avail ∧
      (∀ x, (st1.bufs x).isSome = (st.bufs x).isSome) ∧
      (∀ x, some x ≠ (st.vecs v).m_data → st1.bufs x = st.bufs x) ∧
      (VOwns st v xs → ValType.trivial_dtor α = false → ∀ m, xs.length - (j - i) ≤ m →
        slotAt st1 (st1.vecs v).m_data m = none) := by
  have hsz := hR.1
  by_cases hlt : i < j
  · have hdn : (st.vecs v).m_data ≠ none := by
      intro e
      have := (hR.null e).1
      rw [this] at hj
      simp at hj
      omega
    obtain ⟨a, ha⟩ := Option.ne_none_iff_exists'.mp hdn
    obtain ⟨f, hbuf, hfx⟩ := hR.buf ha
    have hlive : ∀ m, m < xs.length → (f m).isSome := by
      intro m hm
      rw [hfx m hm]
      simp [List.getElem?_eq_getElem hm]
    obtain ⟨s1, e1, h1, h1s⟩ := erase_loop_spec v a (st.vecs v).m_capacity xs.length
      (xs.length - j) fuel st i j f hfuel (by omega) hlt ha hsz hbuf hlive
    have hvec1 : s1.vecs = st.vecs := h1s.1
    have hlive1 : ∀ m, xs.length - (j - i) ≤ m →
        m < xs.length - (j - i) + (xs.length - (xs.length - (j - i))) →
        ((fun m => if i ≤ m ∧ m < i + (xs.length - j) then f (m + (j - i))
          else if j ≤ m ∧ m < j + (xs.length - j) then (f m).map ValType.movedFrom
          else f m) m).isSome := by
      intro m _ hm
      show (if i ≤ m ∧ m < i + (xs.length - j) then f (m + (j - i))
          else if j ≤ m ∧ m < j + (xs.length - j) then (f m).map ValType.movedFrom
          else f m).isSome = true
      by_cases c1 : i ≤ m ∧ m < i + (xs.length - j)
      · rw [if_pos c1]; exact hlive _ (by omega)
      · by_cases c2 : j ≤ m ∧ m < j + (xs.length - j)
        · rw [if_neg c1, if_pos c2, Option.isSome_map']; exact hlive _ (by omega)
        · rw [if_neg c1, if_neg c2]; exact hlive _ (by omega)
    obtain ⟨s2, e2, h2, h2s⟩ := destroyRange_exact (xs.length - (xs.length - (j - i)))
      (xs.length - (j - i)) h1 hlive1
    have hvec2 : s2.vecs = st.vecs := h2s.1.trans hvec1
    have hcnt : ¬ ((j : Int) - (i : Int) ≤ 0) := by omega
    have hws : wrapSub xs.length (j - i) = xs.length - (j - i) := wrapSub_of_le (by omega)
    refine ⟨VMem.mk s2.bufs s2.brk s2.avail
        (fun r => if r = v then
          VecObj.mk (st.vecs v).m_data (xs.length - (j - i)) (st.vecs v).m_capacity
          else st.vecs r),
      ?_, ?_, by simp, fun r hr => by simp [hr], h2s.2.1.trans h1s.2.1,
      h2s.2.2.1.trans h1s.2.2.1, ?_, ?_, ?_⟩
    · simp only [Vector_erase_range, Prog.bind_run, Prog.bind, Vector_begin_run, ha,
        vdistance_run, toNat_sub_zero, hcnt, if_false, VIter.add, Nat.zero_add, e1, getVec_run,
        hvec1, hsz, int_sub_toNat, Nat.sub_zero, hws, e2, setVSize, hvec2, Prog.pure_run]
    · have hb : BufIs (VMem.mk s2.bufs s2.brk s2.avail
          (fun r => if r = v then
            VecObj.mk (st.vecs v).m_data (xs.length - (j - i)) (st.vecs v).m_capacity
            else st.vecs r)) a (st.vecs v).m_capacity _ := h2
      have hlen : (xs.take i ++ xs.drop j).length = xs.length - (j - i) := by
        simp [List.length_take, List.length_drop]; omega
      refine VRepr.of_buf (a := a) (by simp [ha]) (by simp [hlen])
        (by simp only [if_true, hlen]; have := hR.2.1; omega)
        (by simp only [if_true]; exact hb) ?_
      intro m hm
      rw [hlen] at hm
      rw [getElem?_take_drop xs i j m hij hj]
      have c : ¬ (ValType.trivial_dtor α = false ∧ xs.length - (j - i) ≤ m ∧
          m < xs.length - (j - i) + (xs.length - (xs.length - (j - i)))) := by omega
      show (if ValType.trivial_dtor α = false ∧ xs.length - (j - i) ≤ m ∧
          m < xs.length - (j - i) + (xs.length - (xs.length - (j - i))) then none
          else if i ≤ m ∧ m < i + (xs.length - j) then f (m + (j - i))
          else if j ≤ m ∧ m < j + (xs.length - j) then (f m).map ValType.movedFrom
          else f m) = _
      rw [if_neg c]
      by_cases c1 : m < i
      · have c2 : ¬ (i ≤ m ∧ m < i + (xs.length - j)) := by omega
        have c3 : ¬ (j ≤ m ∧ m < j + (xs.length - j)) := by omega
        rw [if_neg c2, if_neg c3, if_pos c1, hfx m (by omega)]
      · have c2 : i ≤ m ∧ m < i + (xs.length - j) := by omega
        rw [if_pos c2, if_neg c1, hfx _ (by omega)]
    · intro x
      show (s2.bufs x).isSome = _
      by_cases hxa : x = a
      · obtain ⟨blk2, hb2, -, -⟩ := h2
        obtain ⟨blk0, hb0, -, -⟩ := hbuf
        rw [hxa, hb2, hb0]
        rfl
      · rw [h2s.2.2.2 x (by simp [hxa]), h1s.2.2.2 x (by simp [hxa])]
    · intro x hx
      have hxa : x ≠ a := fun e => hx (by rw [e, ha])
      show s2.bufs x = _
      rw [h2s.2.2.2 x (by simp [hxa]), h1s.2.2.2 x (by simp [hxa])]
    · intro hO ht m hm
      have hft := hO.tail ha hbuf ht
      have hb : BufIs (VMem.mk s2.bufs s2.brk s2.avail
          (fun r => if r = v then
            VecObj.mk (st.vecs v).m_data (xs.length - (j - i)) (st.vecs v).m_capacity
            else st.vecs r)) a (st.vecs v).m_capacity _ := h2
      have hdv : ((VMem.mk s2.bufs s2.brk s2.avail
          (fun r => if r = v then
            VecObj.mk (st.vecs v).m_data (xs.length - (j - i)) (st.vecs v).m_capacity
            else st.vecs r)).vecs v).m_data = some a := by simp [ha]
      rw [hdv, hb.slot_eq m]
      show (if ValType.trivial_dtor α = false ∧ xs.length - (j - i) ≤ m ∧
          m < xs.length - (j - i) + (xs.length - (xs.length - (j - i))) then none
          else if i ≤ m ∧ m < i + (xs.length - j) then f (m + (j - i))
            else if j ≤ m ∧ m < j + (xs.length - j) then (f m).map ValType.movedFrom
            else f m) = none
      by_cases c : m < xs.length
      · rw [if_pos ⟨ht, hm, by omega⟩]
      · have c0 : ¬ (ValType.trivial_dtor α = false ∧ xs.length - (j - i) ≤ m ∧
            m < xs.length - (j - i) + (xs.length - (xs.length - (j - i)))) := by omega
        have c1 : ¬ (i ≤ m ∧ m < i + (xs.length - j)) := by omega
        have c2 : ¬ (j ≤ m ∧ m < j + (xs.length - j)) := by omega
        rw [if_neg c0, if_neg c1, if_neg c2]
        exact hft m (by omega)
  · have hie : j = i := by omega
    subst hie
    have hcnt : ((j : Int) - (j : Int) ≤ 0) := by omega
    refine ⟨st, ?_, ?_, ?_, fun _ _ => rfl, rfl, rfl, fun _ => rfl, fun _ _ => rfl, ?_⟩
    · simp only [Vector_erase_range, Prog.bind_run, Prog.bind, Vector_begin_run,
        vdistance_run, toNat_sub_zero, int_sub_toNat, Nat.sub_zero, hcnt, if_true, VIter.add,
        Nat.zero_add, Prog.pure_run]
    · have : xs.take j ++ xs.drop j = xs := List.take_append_drop j xs
      rw [this]
      exact hR
    · rw [Nat.sub_self, Nat.sub_zero, ← hsz]
    · intro hO ht m hm
      exact hO.2 ht m (by omega)

end OwnErase

section OwnInsertErase
variable {α : Type}

theorem length_insert_at (xs : List α) (value : α) {i : Nat} (hi : i ≤ xs.length) :
    (xs.take i ++ value :: xs.drop i).length = xs.length + 1 := by
  simp [List.length_take, List.length_drop]; omega

theorem length_erase_at (xs : List α) {i j : Nat} (hij : i ≤ j) (hj : j ≤ xs.length) :
    (xs.take i ++ xs.drop j).length = xs.length - (j - i) := by
  simp [List.length_take, List.length_drop]; omega

/-- Effect of `insert(begin() + i, value)` on both paths, with the slots past the size and
the allocator. -/
theorem Vector_insert_owns [ValType α] {st : VMem α} {v : Ref} {xs : List α} (i : Nat)
    (value : α) (hf : VFresh st) (hR : VRepr st v xs) (hi : i ≤ xs.length)
    (hav : ¬ (st.vecs v).m_size < (st.vecs v).m_capacity →
      (if (st.vecs v).m_capacity = 0 then 1 else (st.vecs v).m_capacity * 2) ≤ st.avail) :
    ∃ st1, Vector_insert v (VIter.mk (st.vecs v).m_data i) value st =
        .ret (VIter.mk (st1.vecs v).m_data i) st1 ∧
      VRepr st1 v (xs.take i ++ value :: xs.drop i) ∧
      (VOwns st v xs → VOwns st1 v (xs.take i ++ value :: xs.drop i)) ∧
      VFresh st1 ∧ VStep st st1 v ∧ (st1.vecs v).m_size = xs.length + 1 ∧
      (st1.vecs v).m_capacity =
        (if (st.vecs v).m_size < (st.vecs v).m_capacity then (st.vecs v).m_capacity
         else if (st.vecs v).m_capacity = 0 then 1 else (st.vecs v).m_capacity * 2) ∧
      st1.avail + (st1.vecs v).m_capacity = st.avail + (st.vecs v).m_capacity := by
  have hlen := length_insert_at xs value hi
  by_cases hsp : (st.vecs v).m_size < (st.vecs v).m_capacity
  · obtain ⟨st1, e, hR1, hv1, ho1, hbrk1, havl1, hbufs1, hlive1, htail1⟩ :=
      Vector_insert_spare_tail i value hR hi hsp
    refine ⟨st1, e, hR1, ?_, ?_, ?_, by rw [hv1], by rw [hv1, if_pos hsp], by rw [hv1, havl1]⟩
    · intro hO
      refine ⟨hR1, ?_⟩
      intro ht m hm
      rw [hlen] at hm
      exact htail1 hO ht m hm
    · refine hf.of_same hbrk1 ?_
      intro x hx
      rw [← hlive1 x]
      exact hx
    · exact ⟨by rw [hbrk1], ho1, fun x hx _ => hbufs1 x hx, Or.inl (by rw [hv1])⟩
  · obtain ⟨st1, e, hR1, hv1, ho1, hf1, hbufs1, htail1, hbrk1, havl1⟩ :=
      Vector_insert_grow_tail i value hf hR hi hsp (hav hsp)
    refine ⟨st1, e, hR1, ?_, hf1, ?_, by rw [hv1], by rw [hv1, if_neg hsp],
      by rw [hv1]; exact havl1⟩
    · intro _
      refine ⟨hR1, ?_⟩
      intro _ m hm
      rw [hlen] at hm
      exact htail1 m hm
    · refine ⟨by rw [hbrk1]; exact Nat.le_succ _, ho1, ?_,
        Or.inr (Or.inr ⟨st.brk, by rw [hv1], Nat.le_refl _⟩)⟩
      intro x hx hlt
      exact hbufs1 x hx (Nat.ne_of_lt hlt)

/-- Allocation failure in `insert(pos, value)`. -/
theorem Vector_insert_fail [ValType α] {st : VMem α} {v : Ref} (i : Nat) (value : α)
    (hfull : ¬ (st.vecs v).m_size < (st.vecs v).m_capacity)
    (hav : ¬ (if (st.vecs v).m_capacity = 0 then 1 else (st.vecs v).m_capacity * 2) ≤ st.avail) :
    Vector_insert v (VIter.mk (st.vecs v).m_data i) value st = .raise .bad_alloc st := by
  simp only [Vector_insert, Prog.bind_run, Prog.bind, Vector_begin_run, vdistance_run,
    toNat_sub_zero, getVec_run, hfull, if_false, opNew_fail hav]

/-- Effect of `erase(begin() + i, begin() + j)`, with the slots past the size. -/
theorem Vector_erase_range_owns [ValType α] {st : VMem α} {v : Ref} {xs : List α}
    (fuel i j : Nat) (hR : VRepr st v xs) (hij : i ≤ j) (hj : j ≤ xs.length)
    (hfuel : xs.length - j < fuel) :
    ∃ st1, Vector_erase_range fuel v (VIter.mk (st.vecs v).m_data i)
        (VIter.mk (st.vecs v).m_data j) st = .ret (VIter.mk (st1.vecs v).m_data i) st1 ∧
      VRepr st1 v (xs.take i ++ xs.drop j) ∧
      (VOwns st v xs → VOwns st1 v (xs.take i ++ xs.drop j)) ∧
      (VFresh st → VFresh st1) ∧ VStep st st1 v ∧
      st1.vecs v = VecObj.mk (st.vecs v).m_data (xs.length - (j - i)) (st.vecs v).m_capacity ∧
      st1.avail = st.avail := by
  have hlen := length_erase_at xs hij hj
  obtain ⟨st1, e, hR1, hv1, ho1, hbrk1, havl1, hlive1, hbufs1, htail1⟩ :=
    Vector_erase_range_tail fuel i j hR hij hj hfuel
  refine ⟨st1, e, hR1, ?_, ?_, ?_, hv1, havl1⟩
  · intro hO
    refine ⟨hR1, ?_⟩
    intro ht m hm
    rw [hlen] at hm
    exact htail1 hO ht m hm
  · intro hf
    refine hf.of_same hbrk1 ?_
    intro x hx
    rw [← hlive1 x]
    exact hx
  · exact ⟨by rw [hbrk1], ho1, fun x hx _ => hbufs1 x hx, Or.inl (by rw [hv1])⟩

/-- Effect of `erase(begin() + i)`, with the slots past the size. -/
theorem Vector_erase_owns [ValType α] {st : VMem α} {v : Ref} {xs : List α}
    (fuel i : Nat) (hR : VRepr st v xs) (hi : i < xs.length)
    (hfuel : xs.length - (i + 1) < fuel) :
    ∃ st1, Vector_erase fuel v (VIter.mk (st.vecs v).m_data i) st =
        .ret (VIter.mk (st1.vecs v).m_data i) st1 ∧
      VRepr st1 v (xs.take i ++ xs.drop (i + 1)) ∧
      (VOwns st v xs → VOwns st1 v (xs.take i ++ xs.drop (i + 1))) ∧
      (VFresh st → VFresh st1) ∧ VStep st st1 v ∧
      st1.vecs v = VecObj.mk (st.vecs v).m_data (xs.length - 1) (st.vecs v).m_capacity ∧
      st1.avail = st.avail := by
  obtain ⟨st1, e, h1, h2, h3, h4, h5, h6⟩ :=
    Vector_erase_range_owns fuel i (i + 1) hR (by omega) hi hfuel
  refine ⟨st1, e, h1, h2, h3, h4, ?_, h6⟩
  rw [h5]
  congr 1
  omega

end OwnInsertErase

section WorldLemmas
variable {α : Type}

theorem VWorld.of_subset [ValType α] {st : VMem α} {vs ws : List Ref}
    (h : VWorld st vs) (hs : ∀ w ∈ ws, w ∈ vs) : VWorld st ws :=
  ⟨h.1, fun w hw => h.2.1 w (hs w hw),
    fun v hv w hw hne => h.2.2 v (hs v hv) w (hs w hw) hne⟩

theorem VWorld.empty [ValType α] {st : VMem α} (hf : VFresh st) : VWorld st [] :=
  ⟨hf, fun _ h => absurd h (List.not_mem_nil _), fun _ h => absurd h (List.not_mem_nil _)⟩

/-- The buffer of a vector object that satisfies the invariant was allocated before. -/
theorem VInv.data_lt [ValType α] {st : VMem α} {v : Ref} {a : Ptr} (hI : VInv st v)
    (hf : VFresh st) (ha : (st.vecs v).m_data = some a) : a < st.brk := by
  have h := hI.2.2.1 (by rw [ha]; simp)
  rw [ha] at h
  simp only [bufLen] at h
  by_contra hc
  rw [hf a (Nat.le_of_not_lt hc)] at h
  simp at h

/-- A member function called on `v` within the frame `VStep` leaves the other vector
objects as they were. -/
theorem VWorld.member_step [ValType α] {st st1 : VMem α} {vs : List Ref} {v : Ref}
    (hW : VWorld st vs) (hv : v ∈ vs) (hI : VInv st1 v) (hf1 : VFresh st1)
    (hs : VStep st st1 v) : VWorld st1 vs := by
  obtain ⟨hf, hinv, hdis⟩ := hW
  obtain ⟨hbrk, hvecs, hbufs, hdata⟩ := hs
  have hother : ∀ w ∈ vs, w ≠ v → ∀ a, (st.vecs w).m_data = some a →
      st1.bufs a = st.bufs a := by
    intro w hw hne a ha
    exact hbufs a (fun e => hdis w hw v hv hne a ha e.symm) ((hinv w hw).data_lt hf ha)
  refine ⟨hf1, ?_, ?_⟩
  · intro w hw
    by_cases hne : w = v
    · rw [hne]; exact hI
    · exact (hinv w hw).inv_congr (hvecs w hne) (hother w hw hne)
  · intro u hu w hw hne a ha
    by_cases h1 : u = v
    · subst h1
      have hwv : w ≠ u := fun e => hne e.symm
      rw [hvecs w hwv]
      intro hwa
      rcases hdata with h | h | ⟨b, h, hge⟩
      · rw [h] at ha
        exact hdis u hu w hw hne a ha hwa
      · rw [h] at ha
        cases ha
      · rw [h] at ha
        cases ha
        have := (hinv w hw).data_lt hf hwa
        exact absurd this (Nat.not_lt.mpr hge)
    · rw [hvecs u h1] at ha
      by_cases h2 : w = v
      · subst h2
        intro hwa
        rcases hdata with h | h | ⟨b, h, hge⟩
        · rw [h] at hwa
          exact hdis u hu w hw hne a ha hwa
        · rw [h] at hwa
          cases hwa
        · rw [h] at hwa
          cases hwa
          have := (hinv u hu).data_lt hf ha
          exact absurd this (Nat.not_lt.mpr hge)
      · rw [hvecs w h2]
        exact hdis u hu w hw hne a ha

/-- A constructor adds its object to the constructed ones. -/
theorem VWorld.add [ValType α] {st st1 : VMem α} {vs : List Ref} {v : Ref}
    (hW : VWorld st vs) (hv : v ∉ vs) (hI : VInv st1 v) (hf1 : VFresh st1)
    (hn : VNew st st1 v) : VWorld st1 (v :: vs) := by
  obtain ⟨hf, hinv, hdis⟩ := hW
  obtain ⟨hbrk, hvecs, hbufs, hdata⟩ := hn
  have hne_of : ∀ w ∈ vs, w ≠ v := fun w hw e => hv (e ▸ hw)
  have hfresh : ∀ w ∈ vs, ∀ a, (st1.vecs v).m_data = some a → (st.vecs w).m_data ≠ some a := by
    intro w hw a ha hwa
    rcases hdata with h | ⟨b, h, hge⟩
    · rw [h] at ha
      cases ha
    · rw [h] at ha
      cases ha
      have := (hinv w hw).data_lt hf hwa
      exact absurd this (Nat.not_lt.mpr hge)
  refine ⟨hf1, ?_, ?_⟩
  · intro w hw
    rcases List.mem_cons.mp hw with h | h
    · rw [h]; exact hI
    · exact (hinv w h).inv_congr (hvecs w (hne_of w h))
        (fun a ha => hbufs a ((hinv w h).data_lt hf ha))
  · intro u hu w hw hne a ha
    rcases List.mem_cons.mp hu with h1 | h1
    · subst h1
      rcases List.mem_cons.mp hw with h2 | h2
      · exact absurd h2.symm hne
      · rw [hvecs w (hne_of w h2)]
        exact hfresh w h2 a ha
    · rw [hvecs u (hne_of u h1)] at ha
      rcases List.mem_cons.mp hw with h2 | h2
      · subst h2
        intro hwa
        exact hfresh u h1 a hwa ha
      · rw [hvecs w (hne_of w h2)]
        exact hdis u h1 w h2 hne a ha

/-- A failed constructor, which wrote members of its object only, leaves the constructed
objects as they were. -/
theorem VWorld.ctor_failed [ValType α] {st st1 : VMem α} {vs : List Ref} {v : Ref}
    (hW : VWorld st vs) (hv : v ∉ vs) (hbufs : st1.bufs = st.bufs) (hbrk : st1.brk = st.brk)
    (hvecs : ∀ r, r ≠ v → st1.vecs r = st.vecs r) : VWorld st1 vs := by
  obtain ⟨hf, hinv, hdis⟩ := hW
  have hne_of : ∀ w ∈ vs, w ≠ v := fun w hw e => hv (e ▸ hw)
  refine ⟨hf.of_bufs hbrk hbufs, ?_, ?_⟩
  · intro w hw
    exact (hinv w hw).inv_congr (hvecs w (hne_of w hw)) (fun a _ => by rw [hbufs])
  · intro u hu w hw hne a ha
    rw [hvecs u (hne_of u hu)] at ha
    rw [hvecs w (hne_of w hw)]
    exact hdis u hu w hw hne a ha

/-- The destructor of `t` takes it out of the constructed objects. -/
theorem VWorld.remove [ValType α] {st st1 : VMem α} {vs : List Ref} {t : Ref}
    (hW : VWorld st (t :: vs)) (ht : t ∉ vs) (hf1 : VFresh st1)
    (hvecs : ∀ r, r ≠ t → st1.vecs r = st.vecs r)
    (hbufs : ∀ x, some x ≠ (st.vecs t).m_data → st1.bufs x = st.bufs x) : VWorld st1 vs := by
  obtain ⟨hf, hinv, hdis⟩ := hW
  have hne_of : ∀ w ∈ vs, w ≠ t := fun w hw e => ht (e ▸ hw)
  refine ⟨hf1, ?_, ?_⟩
  · intro w hw
    refine (hinv w (List.mem_cons_of_mem _ hw)).inv_congr (hvecs w (hne_of w hw)) ?_
    intro a ha
    exact hbufs a (fun e => hdis w (List.mem_cons_of_mem _ hw) t (List.mem_cons_self _ _)
      (hne_of w hw) a ha e.symm)
  · intro u hu w hw hne a ha
    rw [hvecs u (hne_of u hu)] at ha
    rw [hvecs w (hne_of w hw)]
    exact hdis u (List.mem_cons_of_mem _ hu) w (List.mem_cons_of_mem _ hw) hne a ha

/-- Two constructed objects that exchange their members stay constructed. -/
theorem VWorld.exchange [ValType α] {st st1 : VMem α} {vs : List Ref} {a b : Ref}
    (hW : VWorld st vs) (ha : a ∈ vs) (hb : b ∈ vs) (hbufs : st1.bufs = st.bufs)
    (hbrk : st1.brk = st.brk) (hva : st1.vecs a = st.vecs b) (hvb : st1.vecs b = st.vecs a)
    (hvecs : ∀ r, r ≠ a → r ≠ b → st1.vecs r = st.vecs r) : VWorld st1 vs := by
  obtain ⟨hf, hinv, hdis⟩ := hW
  have hsrc2 : ∀ r ∈ vs, st1.vecs r = st.vecs (if r = a then b else if r = b then a else r) ∧
      (if r = a then b else if r = b then a else r) ∈ vs := by
    intro r hr
    by_cases h1 : r = a
    · rw [if_pos h1, h1]
      exact ⟨hva, hb⟩
    · rw [if_neg h1]
      by_cases h2 : r = b
      · rw [if_pos h2, h2]
        exact ⟨hvb, ha⟩
      · rw [if_neg h2]
        exact ⟨hvecs r h1 h2, hr⟩
  refine ⟨hf.of_bufs hbrk hbufs, ?_, ?_⟩
  · intro w hw
    obtain ⟨e, hm⟩ := hsrc2 w hw
    exact (hinv _ hm).inv_congr e (fun x _ => by rw [hbufs])
  · intro u hu w hw hne x hx
    obtain ⟨eu, hmu⟩ := hsrc2 u hu
    obtain ⟨ew, hmw⟩ := hsrc2 w hw
    rw [eu] at hx
    rw [ew]
    refine hdis _ hmu _ hmw ?_ x hx
    by_cases h1 : u = a
    · rw [if_pos h1]
      by_cases c1 : w = a
      · exact absurd (h1.trans c1.symm) hne
      · rw [if_neg c1]
        by_cases c2 : w = b
        · rw [if_pos c2]
          intro e
          exact c1 (c2.trans e)
        · rw [if_neg c2]
          exact fun e => c2 e.symm
    · rw [if_neg h1]
      by_cases h2 : u = b
      · rw [if_pos h2]
        by_cases c1 : w = a
        · rw [if_pos c1]
          intro e
          exact h1 (h2.trans e.symm)
        · rw [if_neg c1]
          by_cases c2 : w = b
          · exact absurd (h2.trans c2.symm) hne
          · rw [if_neg c2]
            exact fun e => c1 e.symm
      · rw [if_neg h2]
        by_cases c1 : w = a
        · rw [if_pos c1]
          exact h2
        · rw [if_neg c1]
          by_cases c2 : w = b
          · rw [if_pos c2]
            exact h1
          · rw [if_neg c2]
            exact hne

/-- An object that takes over the members of a constructed one, which is left empty. -/
theorem VWorld.take [ValType α] {st st1 : VMem α} {vs : List Ref} {a b : Ref}
    (hW : VWorld st vs) (ha : a ∉ vs) (hb : b ∈ vs) (hbufs : st1.bufs = st.bufs)
    (hbrk : st1.brk = st.brk) (hva : st1.vecs a = st.vecs b)
    (hvb : st1.vecs b = VecObj.mk none 0 0)
    (hvecs : ∀ r, r ≠ a → r ≠ b → st1.vecs r = st.vecs r) : VWorld st1 (a :: vs) := by
  obtain ⟨hf, hinv, hdis⟩ := hW
  have hne_of : ∀ w ∈ vs, w ≠ a := fun w hw e => ha (e ▸ hw)
  have hIb : VInv st1 b :=
    (VOwns.of_null (by rw [hvb]) (by rw [hvb]) (by rw [hvb])).inv
  have hIa : VInv st1 a := (hinv b hb).inv_congr hva (fun x _ => by rw [hbufs])
  have hold : ∀ w ∈ vs, w ≠ b → st1.vecs w = st.vecs w :=
    fun w hw h => hvecs w (hne_of w hw) h
  refine ⟨hf.of_bufs hbrk hbufs, ?_, ?_⟩
  · intro w hw
    rcases List.mem_cons.mp hw with h | h
    · rw [h]; exact hIa
    · by_cases h2 : w = b
      · rw [h2]; exact hIb
      · exact (hinv w h).inv_congr (hold w h h2) (fun x _ => by rw [hbufs])
  · intro u hu w hw hne x hx
    have key : ∀ r, r ∈ a :: vs → ∀ y, (st1.vecs r).m_data = some y →
        ∃ s ∈ vs, (st.vecs s).m_data = some y ∧ (r = a → s = b) ∧ (r ≠ a → s = r ∧ r ≠ b) := by
      intro r hr y hy
      rcases List.mem_cons.mp hr with h | h
      · rw [h, hva] at hy
        exact ⟨b, hb, hy, fun _ => rfl, fun c => absurd h c⟩
      · by_cases h2 : r = b
        · rw [h2, hvb] at hy
          cases hy
        · rw [hold r h h2] at hy
          exact ⟨r, h, hy, fun c => absurd c (hne_of r h), fun _ => ⟨rfl, h2⟩⟩
    obtain ⟨s, hs, hsx, hs1, hs2⟩ := key u hu x hx
    intro hwx
    obtain ⟨s', hs', hsx', hs1', hs2'⟩ := key w hw x hwx
    have hss : s ≠ s' := by
      by_cases c1 : u = a
      · have c2 : w ≠ a := fun e => hne (c1.trans e.symm)
        rw [hs1 c1, (hs2' c2).1]
        exact fun e => (hs2' c2).2 e.symm
      · rw [(hs2 c1).1]
        by_cases c2 : w = a
        · rw [hs1' c2]
          exact (hs2 c1).2
        · rw [(hs2' c2).1]
          exact hne
    exact hdis s hs s' hs' hss x hsx hsx'

end WorldLemmas

section CallLemmas
variable {α : Type}

/-- The two steps of the destructor. -/
theorem Vector_dtor_steps [ValType α] {st st1 : VMem α} {v : Ref}
    (e : Vector_dtor v st = .ret () st1) :
    ∃ sA, Vector_clear v st = .ret () sA ∧ opDelete (sA.vecs v).m_data sA = .ret () st1 := by
  simp only [Vector_dtor, Prog.bind_run, Prog.bind] at e
  cases hc : Vector_clear v st with
  | ret r sA =>
    rw [hc] at e
    exact ⟨sA, rfl, by simpa using e⟩
  | raise x s => rw [hc] at e; simp at e
  | undefined => rw [hc] at e; simp at e
  | spent => rw [hc] at e; simp at e

/-- Effect of the move assignment on distinct objects, after the destruction of the
elements and the release of the buffer of the target. -/
theorem Vector_assign_move_spec [ValType α] {st s1 : VMem α} {this : Ref} (other : Ref)
    (hne : this ≠ other) (e1 : Vector_dtor this st = .ret () s1) :
    ∃ st1, Vector_assign_move this other st = .ret () st1 ∧ st1.bufs = s1.bufs ∧
      st1.brk = s1.brk ∧ st1.avail = s1.avail ∧ st1.vecs this = s1.vecs other ∧
      st1.vecs other = VecObj.mk none 0 0 ∧
      ∀ r, r ≠ this → r ≠ other → st1.vecs r = s1.vecs r := by
  obtain ⟨sA, ec, ed⟩ := Vector_dtor_steps e1
  have hne' : ¬ other = this := fun e => hne e.symm
  refine ⟨VMem.mk s1.bufs s1.brk s1.avail
    (fun r => if r = other then VecObj.mk none 0 0 else if r = this then s1.vecs other
      else s1.vecs r), ?_, rfl, rfl, rfl, by simp [hne], by simp,
    fun r h1 h2 => by simp [h1, h2]⟩
  simp only [Vector_assign_move, ne_eq, hne, not_false_eq_true, if_true, Prog.bind_run,
    Prog.bind, ec, getVec_run, ed, setData, setVSize, setCapacity]
  congr 2
  funext r
  by_cases h1 : r = other
  · subst h1
    simp
  · by_cases h2 : r = this
    · subst h2
      simp [h1, hne']
    · simp [h1, h2]

/-- A self move assignment does nothing. -/
theorem Vector_assign_move_self [ValType α] (st : VMem α) (this : Ref) :
    Vector_assign_move this this st = .ret () st := by
  simp [Vector_assign_move]

/-- A self copy assignment does nothing. -/
theorem Vector_assign_copy_self [ValType α] (st : VMem α) (this temp : Ref) :
    Vector_assign_copy this this temp st = .ret () st := by
  simp [Vector_assign_copy]

theorem Vector_assign_copy_run [ValType α] {st s1 s2 s3 : VMem α} {this other temp : Ref}
    (hne : this ≠ other) (e1 : Vector_ctor_copy temp other st = .ret () s1)
    (e2 : Vector_swap this temp s1 = .ret () s2) (e3 : Vector_dtor temp s2 = .ret () s3) :
    Vector_assign_copy this other temp st = .ret () s3 := by
  simp only [Vector_assign_copy, ne_eq, hne, not_false_eq_true, if_true, Prog.bind_run,
    Prog.bind, e1, e2, e3]

theorem Vector_assign_copy_fail [ValType α] {st s1 : VMem α} {this other temp : Ref}
    (hne : this ≠ other) (e1 : Vector_ctor_copy temp other st = .raise .bad_alloc s1) :
    Vector_assign_copy this other temp st = .raise .bad_alloc s1 := by
  simp only [Vector_assign_copy, ne_eq, hne, not_false_eq_true, if_true, Prog.bind_run,
    Prog.bind, e1]

theorem Vector_assign_init_run [ValType α] {st s1 s2 s3 : VMem α} {this temp : Ref}
    {list : List α} (e1 : Vector_ctor_init temp list st = .ret () s1)
    (e2 : Vector_swap this temp s1 = .ret () s2) (e3 : Vector_dtor temp s2 = .ret () s3) :
    Vector_assign_init this list temp st = .ret () s3 := by
  simp only [Vector_assign_init, Prog.bind_run, Prog.bind, e1, e2, e3]

theorem Vector_assign_init_fail [ValType α] {st s1 : VMem α} {this temp : Ref}
    {list : List α} (e1 : Vector_ctor_init temp list st = .raise .bad_alloc s1) :
    Vector_assign_init this list temp st = .raise .bad_alloc s1 := by
  simp only [Vector_assign_init, Prog.bind_run, Prog.bind, e1]

/-- The local object of an assignment operator takes the former members of the target and
is destroyed. -/
theorem VWorld.assign [ValType α] {st s1 : VMem α} {vs : List Ref} {this temp : Ref}
    (hW : VWorld st vs) (hthis : this ∈ vs) (htemp : temp ∉ vs) (hI : VInv s1 temp)
    (hf1 : VFresh s1) (hN : VNew st s1 temp) :
    ∃ s2 s3, Vector_swap this temp s1 = .ret () s2 ∧ Vector_dtor temp s2 = .ret () s3 ∧
      VWorld s3 vs := by
  have W1 : VWorld s1 (temp :: vs) := hW.add htemp hI hf1 hN
  obtain ⟨s2, e2, hb2, hbrk2, -, hva2, hvb2, hvo2⟩ := Vector_swap_spec s1 this temp
  have W2 : VWorld s2 (temp :: vs) :=
    W1.exchange (List.mem_cons_of_mem _ hthis) (List.mem_cons_self _ _) hb2 hbrk2 hva2 hvb2 hvo2
  obtain ⟨zs, hOt⟩ := (W2.2.1 temp (List.mem_cons_self _ _)).owns
  obtain ⟨s3, e3, -, hvecs3, hbufs3, -, hf3, -⟩ := Vector_dtor_spec hOt.1
  exact ⟨s2, s3, e2, e3, W2.remove htemp (hf3 W2.1) hvecs3 hbufs3⟩

/-- Every call of a public operation within its precondition, on vector objects that
satisfy the invariant and own distinct buffers, returns or throws `std::bad_alloc`, and
leaves the constructed objects with the invariant and with distinct buffers. -/
theorem VecCall.total [ValType α] (c : VecCall α) (st : VMem α) (vs : List Ref) (fuel : Nat)
    (hW : VWorld st vs) (hv : c.Valid st vs) (hfuel : c.bound st < fuel) :
    (∃ st1, c.exec fuel st = .ret () st1 ∧ VWorld st1 (c.after vs)) ∨
      (∃ st1, c.exec fuel st = .raise .bad_alloc st1 ∧ VWorld st1 vs) := by
  have hf := hW.1
  cases c with
  | ctor this =>
    obtain ⟨st1, e, hO, hf1, hN, -⟩ := Vector_ctor_owns st this hf
    exact Or.inl ⟨st1, e, hW.add hv hO.inv hf1 hN⟩
  | ctorFill this size value =>
    by_cases h : size ≤ st.avail
    · obtain ⟨st1, e, hO, hf1, hN, -⟩ := Vector_ctor_fill_owns this size value hf h
      exact Or.inl ⟨st1, e, hW.add hv hO.inv hf1 hN⟩
    · obtain ⟨st1, e, hb, hbrk, -, hvecs⟩ := Vector_ctor_fill_fail this size value h
      exact Or.inr ⟨st1, e, hW.ctor_failed hv hb hbrk hvecs⟩
  | ctorInit this list =>
    by_cases h : list.length ≤ st.avail
    · obtain ⟨st1, e, hO, hf1, hN, -⟩ := Vector_ctor_init_owns this list hf h
      exact Or.inl ⟨st1, e, hW.add hv hO.inv hf1 hN⟩
    · obtain ⟨st1, e, hb, hbrk, -, hvecs⟩ := Vector_ctor_init_fail this list h
      exact Or.inr ⟨st1, e, hW.ctor_failed hv hb hbrk hvecs⟩
  | ctorCopy this other =>
    obtain ⟨hthis, hother⟩ := hv
    have hne : this ≠ other := fun e => hthis (e ▸ hother)
    obtain ⟨ys, hOo⟩ := (hW.2.1 other hother).owns
    by_cases h : (st.vecs other).m_capacity ≤ st.avail
    · obtain ⟨st1, e, hO, hf1, hN, -⟩ := Vector_ctor_copy_owns hne hf hOo.1 h
      exact Or.inl ⟨st1, e, hW.add hthis hO.inv hf1 hN⟩
    · obtain ⟨st1, e, hb, hbrk, -, hvecs⟩ := Vector_ctor_copy_fail hne h
      exact Or.inr ⟨st1, e, hW.ctor_failed hthis hb hbrk hvecs⟩
  | ctorMove this other =>
    obtain ⟨hthis, hother⟩ := hv
    have hne : this ≠ other := fun e => hthis (e ▸ hother)
    obtain ⟨st1, e, hb, hbrk, -, hva, hvb, hvo⟩ := @Vector_ctor_move_spec α st this other hne
    exact Or.inl ⟨st1, e, hW.take hthis hother hb hbrk hva hvb hvo⟩
  | assignCopy this other temp =>
    obtain ⟨hthis, hother, htemp⟩ := hv
    by_cases heq : this = other
    · subst heq
      exact Or.inl ⟨st, Vector_assign_copy_self st this temp, hW⟩
    · have hto : temp ≠ other := fun e => htemp (e ▸ hother)
      obtain ⟨ys, hOo⟩ := (hW.2.1 other hother).owns
      by_cases h : (st.vecs other).m_capacity ≤ st.avail
      · obtain ⟨s1, e1, hO1, hf1, hN1, -⟩ := Vector_ctor_copy_owns hto hf hOo.1 h
        obtain ⟨s2, s3, e2, e3, W3⟩ := hW.assign hthis htemp hO1.inv hf1 hN1
        exact Or.inl ⟨s3, Vector_assign_copy_run heq e1 e2 e3, W3⟩
      · obtain ⟨s1, e1, hb, hbrk, -, hvecs⟩ := Vector_ctor_copy_fail hto h
        exact Or.inr ⟨s1, Vector_assign_copy_fail heq e1, hW.ctor_failed htemp hb hbrk hvecs⟩
  | assignMove this other =>
    obtain ⟨hthis, hother⟩ := hv
    by_cases heq : this = other
    · subst heq
      exact Or.inl ⟨st, Vector_assign_move_self st this, hW⟩
    · obtain ⟨xs, hOt⟩ := (hW.2.1 this hthis).owns
      obtain ⟨s1, e1, -, hvecs1, hbufs1, -, hf1, -⟩ := Vector_dtor_spec hOt.1
      obtain ⟨st1, e2, hb, hbrk, -, hva, hvb, hvo⟩ := Vector_assign_move_spec other heq e1
      have hnot : this ∉ vs.filter (fun r => decide (r ≠ this)) := by
        intro h
        have := (List.mem_filter.mp h).2
        simp at this
      have hoth : other ∈ vs.filter (fun r => decide (r ≠ this)) :=
        List.mem_filter.mpr ⟨hother, by simpa using fun e => heq e.symm⟩
      have W0 : VWorld st (this :: vs.filter (fun r => decide (r ≠ this))) := by
        refine hW.of_subset ?_
        intro w hw
        rcases List.mem_cons.mp hw with h | h
        · rw [h]; exact hthis
        · exact (List.mem_filter.mp h).1
      have W1 := W0.remove hnot (hf1 hf) hvecs1 hbufs1
      have W2 := W1.take hnot hoth hb hbrk hva hvb hvo
      refine Or.inl ⟨st1, e2, W2.of_subset ?_⟩
      intro w hw
      by_cases c : w = this
      · rw [c]; exact List.mem_cons_self _ _
      · exact List.mem_cons_of_mem _ (List.mem_filter.mpr ⟨hw, by simpa using c⟩)
  | assignInit this list temp =>
    obtain ⟨hthis, htemp⟩ := hv
    by_cases h : list.length ≤ st.avail
    · obtain ⟨s1, e1, hO1, hf1, hN1, -⟩ := Vector_ctor_init_owns temp list hf h
      obtain ⟨s2, s3, e2, e3, W3⟩ := hW.assign hthis htemp hO1.inv hf1 hN1
      exact Or.inl ⟨s3, Vector_assign_init_run e1 e2 e3, W3⟩
    · obtain ⟨s1, e1, hb, hbrk, -, hvecs⟩ := Vector_ctor_init_fail temp list h
      exact Or.inr ⟨s1, Vector_assign_init_fail e1, hW.ctor_failed htemp hb hbrk hvecs⟩
  | reserve this n =>
    have hmem : this ∈ vs := hv
    obtain ⟨xs, hO⟩ := (hW.2.1 this hmem).owns
    by_cases h : (st.vecs this).m_capacity < n ∧ ¬ n ≤ st.avail
    · exact Or.inr ⟨st, Vector_reserve_fail h.1 h.2, hW⟩
    · obtain ⟨st1, e, -, hO1, hf1, hs1, -⟩ := Vector_reserve_owns n hf hO.1
        (fun h1 => by
          by_contra h2
          exact h ⟨h1, h2⟩)
      exact Or.inl ⟨st1, e, hW.member_step hmem (hO1 hO).inv hf1 hs1⟩
  | resize this n value =>
    have hmem : this ∈ vs := hv
    obtain ⟨xs, hO⟩ := (hW.2.1 this hmem).owns
    by_cases h : (st.vecs this).m_capacity < n ∧ ¬ n ≤ st.avail
    · exact Or.inr ⟨st, Vector_resize_fail n value hO.1 h.1 h.2, hW⟩
    · obtain ⟨st1, e, -, hO1, hf1, hs1, -⟩ := Vector_resize_owns n value hf hO.1
        (fun h1 => by
          by_contra h2
          exact h ⟨h1, h2⟩)
      exact Or.inl ⟨st1, e, hW.member_step hmem (hO1 hO).inv hf1 hs1⟩
  | resizeDefault this n =>
    have hmem : this ∈ vs := hv
    obtain ⟨xs, hO⟩ := (hW.2.1 this hmem).owns
    by_cases h : (st.vecs this).m_capacity < n ∧ ¬ n ≤ st.avail
    · exact Or.inr ⟨st, Vector_resize_fail n ValType.dflt hO.1 h.1 h.2, hW⟩
    · obtain ⟨st1, e, -, hO1, hf1, hs1, -⟩ := Vector_resize_owns n ValType.dflt hf hO.1
        (fun h1 => by
          by_contra h2
          exact h ⟨h1, h2⟩)
      exact Or.inl ⟨st1, e, hW.member_step hmem (hO1 hO).inv hf1 hs1⟩
  | shrinkToFit this =>
    have hmem : this ∈ vs := hv
    obtain ⟨xs, hO⟩ := (hW.2.1 this hmem).owns
    have hsz := hO.1.1
    by_cases h : (st.vecs this).m_size < (st.vecs this).m_capacity ∧
        ¬ (st.vecs this).m_size ≤ st.avail
    · exact Or.inr ⟨st, Vector_shrinkToFit_fail h.1 h.2, hW⟩
    · obtain ⟨st1, e, -, hO1, hf1, hs1, -⟩ := Vector_shrinkToFit_owns hf hO.1
        (fun h1 => by
          by_contra h2
          rw [← hsz] at h1 h2
          exact h ⟨h1, h2⟩)
      exact Or.inl ⟨st1, e, hW.member_step hmem (hO1 hO).inv hf1 hs1⟩
  | insert this pos value =>
    obtain ⟨hmem, i, hi, hpos⟩ := hv
    obtain ⟨xs, hO⟩ := (hW.2.1 this hmem).owns
    have hsz := hO.1.1
    by_cases h : ¬ (st.vecs this).m_size < (st.vecs this).m_capacity ∧
        ¬ (if (st.vecs this).m_capacity = 0 then 1 else (st.vecs this).m_capacity * 2) ≤ st.avail
    · refine Or.inr ⟨st, ?_, hW⟩
      show (Vector_insert this pos value st).discard = _
      rw [hpos, Vector_insert_fail i value h.1 h.2]
      rfl
    · obtain ⟨st1, e, -, hO1, hf1, hs1, -⟩ := Vector_insert_owns i value hf hO.1
        (by rw [← hsz]; exact hi)
        (fun h1 => by
          by_contra h2
          exact h ⟨h1, h2⟩)
      refine Or.inl ⟨st1, ?_, hW.member_step hmem (hO1 hO).inv hf1 hs1⟩
      show (Vector_insert this pos value st).discard = _
      rw [hpos, e]
      rfl
  | pushBack this value =>
    have hmem : this ∈ vs := hv
    obtain ⟨xs, hO⟩ := (hW.2.1 this hmem).owns
    by_cases h : (st.vecs this).m_size = (st.vecs this).m_capacity ∧
        ¬ (if (st.vecs this).m_capacity = 0 then 1 else (st.vecs this).m_capacity * 2) ≤ st.avail
    · exact Or.inr ⟨st, Vector_pushBack_fail value h.1 h.2, hW⟩
    · obtain ⟨st1, e, -, hO1, hf1, hs1, -⟩ := Vector_pushBack_owns value hf hO.1
        (fun h1 => by
          by_contra h2
          exact h ⟨h1, h2⟩)
      exact Or.inl ⟨st1, e, hW.member_step hmem (hO1 hO).inv hf1 hs1⟩
  | popBack this =>
    have hmem : this ∈ vs := hv
    obtain ⟨xs, hO⟩ := (hW.2.1 this hmem).owns
    rcases List.eq_nil_or_concat xs with h | ⟨ys, y, h⟩
    · subst h
      have hs0 : (st.vecs this).m_size = 0 := hO.1.1
      exact Or.inl ⟨st, Vector_popBack_empty hs0, hW⟩
    · rw [h, List.concat_eq_append] at hO
      obtain ⟨st1, e, -, hO1, hf1, hs1, -⟩ := Vector_popBack_owns hO.1
      exact Or.inl ⟨st1, e, hW.member_step hmem (hO1 hO).inv (hf1 hf) hs1⟩
  | clear this =>
    have hmem : this ∈ vs := hv
    obtain ⟨xs, hO⟩ := (hW.2.1 this hmem).owns
    obtain ⟨st1, e, -, hO1, hf1, hs1, -⟩ := Vector_clear_owns hO.1
    exact Or.inl ⟨st1, e, hW.member_step hmem (hO1 hO).inv (hf1 hf) hs1⟩
  | erase this pos =>
    obtain ⟨hmem, i, hi, hpos⟩ := hv
    obtain ⟨xs, hO⟩ := (hW.2.1 this hmem).owns
    have hsz := hO.1.1
    have hb : (st.vecs this).m_size < fuel := hfuel
    obtain ⟨st1, e, -, hO1, hf1, hs1, -⟩ := Vector_erase_owns fuel i hO.1
      (by rw [← hsz]; exact hi) (by rw [← hsz]; omega)
    refine Or.inl ⟨st1, ?_, hW.member_step hmem (hO1 hO).inv (hf1 hf) hs1⟩
    show (Vector_erase fuel this pos st).discard = _
    rw [hpos, e]
    rfl
  | eraseRange this first last =>
    obtain ⟨hmem, i, j, hij, hj, hfirst, hlast⟩ := hv
    obtain ⟨xs, hO⟩ := (hW.2.1 this hmem).owns
    have hsz := hO.1.1
    have hb : (st.vecs this).m_size < fuel := hfuel
    obtain ⟨st1, e, -, hO1, hf1, hs1, -⟩ := Vector_erase_range_owns fuel i j hO.1 hij
      (by rw [← hsz]; exact hj) (by rw [← hsz]; omega)
    refine Or.inl ⟨st1, ?_, hW.member_step hmem (hO1 hO).inv (hf1 hf) hs1⟩
    show (Vector_erase_range fuel this first last st).discard = _
    rw [hfirst, hlast, e]
    rfl
  | swap this other =>
    obtain ⟨hthis, hother⟩ := hv
    obtain ⟨st1, e, hb, hbrk, -, hva, hvb, hvo⟩ := Vector_swap_spec st this other
    exact Or.inl ⟨st1, e, hW.exchange hthis hother hb hbrk hva hvb hvo⟩

/-- Every reachable state has its constructed vector objects satisfying the invariant and
owning distinct buffers. -/
theorem VReach.world [ValType α] {st : VMem α} {vs : List Ref} (h : VReach st vs) :
    VWorld st vs := by
  induction h with
  | init st hf => exact VWorld.empty hf
  | call c fuel st st1 vs _ hv hfuel e ih =>
    rcases VecCall.total c st vs fuel ih hv hfuel with ⟨s, es, hs⟩ | ⟨s, es, -⟩
    · rw [e] at es
      cases es
      exact hs
    · rw [e] at es
      cases es
  | fail c fuel x st st1 vs _ hv hfuel e ih =>
    rcases VecCall.total c st vs fuel ih hv hfuel with ⟨s, es, -⟩ | ⟨s, es, hs⟩
    · rw [e] at es
      cases es
    · rw [e] at es
      cases es
      exact hs

end CallLemmas

section FrontBack
variable {α : Type}

/-- On a non-empty list `front()` returns the first element. -/
theorem List_front_run {st : Mem α} {l : Ref} {a : Ptr} {C : List Ptr} {x : α} {xs : List α}
    (hR : Repr st l (a :: C) (x :: xs)) : List_front l st = .ret x st := by
  have hne : (st.lists l).m_size ≠ 0 := by rw [hR.1]; simp
  have hfirst : Linked st.nodes (st.lists l).m_sentinel a := hR.2.1.first
  have hd : dataOf st.nodes a = some x := @Repr.data_at α st l [] C a [] xs x hR rfl
  simp only [List_front, Prog.bind_run, Prog.bind, List_empty_run, hne, decide_False,
    Bool.false_eq_true, if_false, getSentinel_run, getNext_run hfirst.1, getData_run hd]

/-- On a non-empty list `back()` returns the last element. -/
theorem List_back_run {st : Mem α} {l : Ref} {a : Ptr} {A : List Ptr} {x : α} {xs : List α}
    (hR : Repr st l (A ++ [a]) (xs ++ [x])) : List_back l st = .ret x st := by
  have hne : (st.lists l).m_size ≠ 0 := by rw [hR.1]; simp
  have hlast : Linked st.nodes ((A ++ [a]).getLastD (st.lists l).m_sentinel)
      (st.lists l).m_sentinel := hR.2.1.last
  rw [getLastD_snoc] at hlast
  have hlen : A.length = xs.length := by
    have := hR.length
    simpa using this
  have hd : dataOf st.nodes a = some x := @Repr.data_at α st l A [] a xs [] x hR hlen
  simp only [List_back, Prog.bind_run, Prog.bind, List_empty_run, hne, decide_False,
    Bool.false_eq_true, if_false, getSentinel_run, getPrev_run hlast.2, getData_run hd]

/-- On an empty list the assertion of `front()` and of `back()` fails. -/
theorem List_front_back_empty {st : Mem α} {l : Ref} (h : (st.lists l).m_size = 0) :
    List_front l st = .raise .assertion st ∧ List_back l st = .raise .assertion st := by
  constructor
  · simp [List_front, Prog.bind, List_empty_run, h, throwExn]
  · simp [List_back, Prog.bind, List_empty_run, h, throwExn]

end FrontBack

section GrowthLemmas
variable {α : Type}

/-- The capacity stays the least power of two not below the size when one element is
pushed. -/
theorem pow2_step {n c : Nat} (hle : n ≤ c)
    (h : (n = 0 ∧ c = 0) ∨ ∃ k, c = 2 ^ k ∧ n ≤ 2 ^ k ∧ ∀ j, n ≤ 2 ^ j → k ≤ j) :
    ∃ k, (if n < c then c else if c = 0 then 1 else c * 2) = 2 ^ k ∧ n + 1 ≤ 2 ^ k ∧
      ∀ j, n + 1 ≤ 2 ^ j → k ≤ j := by
  rcases h with ⟨hn, hc⟩ | ⟨k, hc, hnk, hmin⟩
  · subst hn
    subst hc
    exact ⟨0, by simp, by simp, fun j _ => Nat.zero_le j⟩
  · by_cases hlt : n < c
    · rw [if_pos hlt]
      exact ⟨k, hc, by omega, fun j hj => hmin j (by omega)⟩
    · have hnc : n = c := by omega
      have hpos : 0 < 2 ^ k := Nat.two_pow_pos k
      have hc0 : ¬ c = 0 := by omega
      rw [if_neg hlt, if_neg hc0]
      refine ⟨k + 1, by rw [hc, Nat.pow_succ], by rw [Nat.pow_succ]; omega, ?_⟩
      intro j hj
      by_contra hcon
      have hjk : j ≤ k := by omega
      have : 2 ^ j ≤ 2 ^ k := Nat.pow_le_pow_right (by decide) hjk
      omega

/-- Effect of a sequence of `pushBack` calls. -/
theorem Vector_pushBackAll_spec [ValType α] (v : Ref) :
    ∀ (values : List α) (st : VMem α) (xs : List α), VFresh st → VRepr st v xs →
      ((xs.length = 0 ∧ (st.vecs v).m_capacity = 0) ∨
        ∃ k, (st.vecs v).m_capacity = 2 ^ k ∧ xs.length ≤ 2 ^ k ∧
          ∀ j, xs.length ≤ 2 ^ j → k ≤ j) →
      3 * (xs.length + values.length) ≤ st.avail + (st.vecs v).m_capacity →
      ∃ st1, Vector_pushBackAll v values st = .ret () st1 ∧ VRepr st1 v (xs ++ values) ∧
        VFresh st1 ∧
        (((xs ++ values).length = 0 ∧ (st1.vecs v).m_capacity = 0) ∨
          ∃ k, (st1.vecs v).m_capacity = 2 ^ k ∧ (xs ++ values).length ≤ 2 ^ k ∧
            ∀ j, (xs ++ values).length ≤ 2 ^ j → k ≤ j) := by
  intro values
  induction values with
  | nil =>
    intro st xs hf hR hG _
    refine ⟨st, rfl, by rw [List.append_nil]; exact hR, hf, ?_⟩
    rw [List.append_nil]
    exact hG
  | cons x rest ih =>
    intro st xs hf hR hG hav
    have hsz := hR.1
    have hle := hR.2.1
    simp only [List.length_cons] at hav
    obtain ⟨s1, e1, hR1, -, hf1, -, hsz1, hcap1, havl1⟩ := Vector_pushBack_owns x hf hR
      (by
        intro hfull
        split <;> omega)
    have hG1 := pow2_step (n := xs.length) (c := (st.vecs v).m_capacity)
      (by rw [← hsz]; exact hle) hG
    rw [hsz] at hcap1
    rw [← hcap1] at hG1
    have hl1 : (xs ++ [x]).length = xs.length + 1 := by simp
    obtain ⟨s2, e2, hR2, hf2, hG2⟩ := ih s1 (xs ++ [x]) hf1 hR1
      (Or.inr (by rw [hl1]; exact hG1)) (by rw [hl1]; omega)
    have happ : xs ++ [x] ++ rest = xs ++ x :: rest := by simp
    rw [happ] at hR2 hG2
    refine ⟨s2, ?_, hR2, hf2, hG2⟩
    simp only [Vector_pushBackAll, Prog.bind_run, Prog.bind, e1]
    exact e2

end GrowthLemmas

section ExampleLemmas2

theorem exNew_fresh : VFresh exNew := fun _ _ => rfl

theorem exOne_run : Vector_ctor_init 0 [1, 2, 3] exNew = .ret () exOne := rfl

theorem exSpare_repr : VRepr exSpare 0 [10, 20] := by decide

theorem exSpare_fresh : VFresh exSpare := by
  intro a ha
  have hne : a ≠ 0 := fun e => by
    rw [e] at ha
    exact absurd ha (by decide)
  simp [exSpare, hne]

theorem exFull_repr : VRepr exFull 0 [10, 20, 30] := by decide

theorem exFull_fresh : VFresh exFull := by
  intro a ha
  have hne : a ≠ 0 := fun e => by
    rw [e] at ha
    exact absurd ha (by decide)
  simp [exFull, hne]

end ExampleLemmas2

section VectorClaims2
variable {α : Type}

/-- C11: for a list of `N ≥ 1` values and every `m` with `1 ≤ m ≤ N`, the first `m` of `N`
sequential `pushBack` calls on a default-constructed `Vector` (the allocator being able to
hand out `3 * N` slots) return normally and leave `size() == m`, `capacity()` the least
power of two that is at least `m` (so the capacities seen are 1, 2, 4, 8, ... and
`capacity() ≥ size()` after every call), and the pushed values as elements. -/
theorem C11_vector_growth [ValType α] (st : VMem α) (v : Ref) (values : List α) (m : Nat)
    (hf : VFresh st) (hm1 : 1 ≤ m) (hm : m ≤ values.length)
    (hav : 3 * values.length ≤ st.avail) :
    ∃ st0 st1, Vector_ctor v st = .ret () st0 ∧
      Vector_pushBackAll v (values.take m) st0 = .ret () st1 ∧
      Vector_size v st1 = .ret m st1 ∧
      (∃ k, Vector_capacity v st1 = .ret (2 ^ k) st1 ∧ m ≤ 2 ^ k ∧ ∀ j, m ≤ 2 ^ j → k ≤ j) ∧
      VRepr st1 v (values.take m) := by
  obtain ⟨st0, e0, hO0, hf0, -, hv0, hav0, -⟩ := Vector_ctor_owns st v hf
  have hlen : (values.take m).length = m := by
    rw [List.length_take]; omega
  obtain ⟨st1, e1, hR1, -, hG1⟩ := Vector_pushBackAll_spec v (values.take m) st0 [] hf0 hO0.1
    (Or.inl ⟨rfl, by rw [hv0]⟩)
    (by
      rw [hlen, hav0, hv0]
      show 3 * (0 + m) ≤ st.avail + 0
      omega)
  rw [List.nil_append] at hR1 hG1
  rw [hlen] at hG1
  refine ⟨st0, st1, e0, e1, ?_, ?_, hR1⟩
  · rw [Vector_size_run, hR1.1, hlen]
  · rcases hG1 with ⟨h0, -⟩ | ⟨k, hk, hmk, hmin⟩
    · omega
    · exact ⟨k, by rw [Vector_capacity_run, hk], hmk, hmin⟩

/-- Instance of C11: five `pushBack` calls on a default-constructed vector of the empty
example memory leave size `5` and capacity `8`. -/
theorem C11_vector_growth_witness :
    ∃ st0 st1, Vector_ctor 0 exNew = .ret () st0 ∧
      Vector_pushBackAll 0 ([1, 2, 3, 4, 5].take 5) st0 = .ret () st1 ∧
      Vector_size 0 st1 = .ret 5 st1 ∧
      (∃ k, Vector_capacity 0 st1 = .ret (2 ^ k) st1 ∧ 5 ≤ 2 ^ k ∧ ∀ j, 5 ≤ 2 ^ j → k ≤ j) ∧
      VRepr st1 0 ([1, 2, 3, 4, 5].take 5) :=
  C11_vector_growth exNew 0 [1, 2, 3, 4, 5] 5 exNew_fresh (by decide) (by decide) (by decide)

/-- C14: for a `Vector` with elements `xs`, size `s` and capacity `c` (the allocator
being able to hand out `s` slots when `c > s`), `shrinkToFit()` returns normally and leaves
`capacity() == s`, `size() == s` and the element sequence `xs`; when `c == s` already it
changes nothing. -/
theorem C14_vector_shrinkToFit [ValType α] (st : VMem α) (v : Ref) (xs : List α)
    (hf : VFresh st) (hR : VRepr st v xs)
    (hav : xs.length < (st.vecs v).m_capacity → xs.length ≤ st.avail) :
    ∃ st1, Vector_shrinkToFit v st = .ret () st1 ∧
      Vector_capacity v st1 = .ret xs.length st1 ∧ Vector_size v st1 = .ret xs.length st1 ∧
      VRepr st1 v xs ∧ ((st.vecs v).m_capacity = xs.length → st1 = st) := by
  obtain ⟨st1, e, hR1, -, -, -, hsz1, hcap1, hsame, -⟩ := Vector_shrinkToFit_owns hf hR hav
  exact ⟨st1, e, by rw [Vector_capacity_run, hcap1], by rw [Vector_size_run, hsz1], hR1, hsame⟩

/-- Instance of C14: `shrinkToFit()` on the example vector `[10, 20]` of capacity `4`. -/
theorem C14_vector_shrinkToFit_witness :
    ∃ st1, Vector_shrinkToFit 0 exSpare = .ret () st1 ∧
      Vector_capacity 0 st1 = .ret [10, 20].length st1 ∧
      Vector_size 0 st1 = .ret [10, 20].length st1 ∧
      VRepr st1 0 [10, 20] ∧ ((exSpare.vecs 0).m_capacity = [10, 20].length → st1 = exSpare) :=
  C14_vector_shrinkToFit exSpare 0 [10, 20] exSpare_fresh exSpare_repr (fun _ => by decide)

/-- C15: for a `Vector` with elements `xs` and every index `k`, `at(k)` throws
`std::out_of_range` if and only if `k ≥ size()`, leaving the state untouched, and otherwise
returns the element `xs[k]` without changing the state; in particular `at(size())` throws,
and `at(0)` throws on a default-constructed vector. -/
theorem C15_vector_at (st : VMem α) (v : Ref) (xs : List α) (k : Nat) (hR : VRepr st v xs) :
    ((∃ s, Vector_at v k st = .raise .out_of_range s) ↔ xs.length ≤ k) ∧
    (xs.length ≤ k → Vector_at v k st = .raise .out_of_range st) ∧
    (∀ h : k < xs.length, Vector_at v k st = .ret (xs[k]) st) ∧
    Vector_at v xs.length st = .raise .out_of_range st ∧
    (∀ s0 : VMem α, ∃ s1, Vector_ctor v s0 = .ret () s1 ∧
      Vector_at v 0 s1 = .raise .out_of_range s1) := by
  obtain ⟨hin, hout⟩ := Vector_at_spec k hR
  refine ⟨⟨?_, fun h => ⟨st, hout h⟩⟩, hout, hin, (Vector_at_spec xs.length hR).2 (Nat.le_refl _),
    ?_⟩
  · rintro ⟨s, hs⟩
    by_contra hc
    rw [hin (by omega)] at hs
    cases hs
  · intro s0
    refine ⟨VMem.mk s0.bufs s0.brk s0.avail
      (fun r => if r = v then VecObj.mk none 0 0 else s0.vecs r), ?_, ?_⟩
    · simp only [Vector_ctor, Prog.bind_run, Prog.bind, setData, setVSize, setCapacity]
      congr 2
      funext r
      by_cases hr : r = v <;> simp [hr]
    · simp [Vector_at, Prog.bind, throwExn]

/-- Instance of C15: `at(1)` on the example vector `[10, 20, 30]`. -/
theorem C15_vector_at_witness :
    ((∃ s, Vector_at 0 1 exVec = .raise .out_of_range s) ↔ [10, 20, 30].length ≤ 1) ∧
    ([10, 20, 30].length ≤ 1 → Vector_at 0 1 exVec = .raise .out_of_range exVec) ∧
    (∀ h : 1 < [10, 20, 30].length, Vector_at 0 1 exVec = .ret ([10, 20, 30][1]) exVec) ∧
    Vector_at 0 [10, 20, 30].length exVec = .raise .out_of_range exVec ∧
    (∀ s0 : VMem Nat, ∃ s1, Vector_ctor 0 s0 = .ret () s1 ∧
      Vector_at 0 0 s1 = .raise .out_of_range s1) :=
  C15_vector_at exVec 0 [10, 20, 30] 1 exVec_repr

/-- C18 fails on the code: from a state without vector objects (the allocator being able
to hand out one slot), `Vector<T> v{x}; v.clear(); v.shrinkToFit();` returns normally and
reaches, through public operations within their preconditions, a state in which
`capacity() == 0` although the buffer pointer `data()` is not null: `shrinkToFit()` calls
`_reallocate(0)`, which keeps the buffer `operator new(0)` returned. -/
theorem C18_vector_null_capacity [ValType α] (st : VMem α) (v : Ref) (x : α)
    (hf : VFresh st) (hav : 1 ≤ st.avail) :
    ∃ st1 st2 st3, Vector_ctor_init v [x] st = .ret () st1 ∧
      Vector_clear v st1 = .ret () st2 ∧ Vector_shrinkToFit v st2 = .ret () st3 ∧
      VReach st3 [v] ∧ Vector_capacity v st3 = .ret 0 st3 ∧
      (∃ a, Vector_data v st3 = .ret (some a) st3) := by
  obtain ⟨st1, e1, hO1, hf1, -, -, hc1, -⟩ := Vector_ctor_init_owns v [x] hf hav
  obtain ⟨st2, e2, hR2, -, hf2, -, hv2, -, -, -⟩ := Vector_clear_owns hO1.1
  have hcap2 : (st2.vecs v).m_capacity = 1 := by rw [hv2]; exact hc1
  obtain ⟨st3, e3, -, -, -, -, -, hcap3, -, hd3⟩ := Vector_shrinkToFit_owns (hf2 hf1) hR2
    (fun _ => Nat.zero_le _)
  have r1 : VReach st1 [v] :=
    VReach.call (VecCall.ctorInit v [x]) 1 st st1 [] (VReach.init st hf)
      (List.not_mem_nil v) Nat.zero_lt_one e1
  have r2 : VReach st2 [v] :=
    VReach.call (VecCall.clear v) 1 st1 st2 [v] r1 (List.mem_singleton.mpr rfl)
      Nat.zero_lt_one e2
  have r3 : VReach st3 [v] :=
    VReach.call (VecCall.shrinkToFit v) 1 st2 st3 [v] r2 (List.mem_singleton.mpr rfl)
      Nat.zero_lt_one e3
  refine ⟨st1, st2, st3, e1, e2, e3, r3, ?_, st2.brk, ?_⟩
  · rw [Vector_capacity_run, hcap3]
    rfl
  · have h := hd3 (by rw [hcap2]; exact Nat.zero_lt_one)
    simp only [Vector_data, Prog.bind_run, Prog.bind, getVec_run, h]
    rfl

/-- Instance of the failure of C18: `Vector<Nat> v{1}; v.clear(); v.shrinkToFit();` in the
empty example memory. -/
theorem C18_vector_null_capacity_witness :
    ∃ st1 st2 st3, Vector_ctor_init 0 [1] exNew = .ret () st1 ∧
      Vector_clear 0 st1 = .ret () st2 ∧ Vector_shrinkToFit 0 st2 = .ret () st3 ∧
      VReach st3 [0] ∧ Vector_capacity 0 st3 = .ret 0 st3 ∧
      (∃ a, Vector_data 0 st3 = .ret (some a) st3) :=
  C18_vector_null_capacity exNew 0 1 exNew_fresh (by decide)

end VectorClaims2

section ListClaims3
variable {α : Type}

/-- C19: for a list with contents `xs` and every value `v`, `pushFront(v)` returns normally
and leaves the contents `[v] ++ xs`, and `pushBack(v)` leaves them `xs ++ [v]`; each
increases `size()` from `|xs|` to `|xs| + 1`, `front()` returns `v` after `pushFront` and
`back()` returns `v` after `pushBack`; the other elements keep their values and order. -/
theorem C19_list_push (st : Mem α) (l : Ref) (ns : List Ptr) (xs : List α) (v : α)
    (hf : Fresh st) (hR : Repr st l ns xs) :
    List_size l st = .ret xs.length st ∧
    (∃ st1 ns1, List_pushFront l v st = .ret () st1 ∧ Repr st1 l ns1 ([v] ++ xs) ∧
      List_size l st1 = .ret (xs.length + 1) st1 ∧ List_front l st1 = .ret v st1) ∧
    (∃ st1 ns1, List_pushBack l v st = .ret () st1 ∧ Repr st1 l ns1 (xs ++ [v]) ∧
      List_size l st1 = .ret (xs.length + 1) st1 ∧ List_back l st1 = .ret v st1) := by
  refine ⟨hR.size_run, ?_, ?_⟩
  · obtain ⟨st1, e, hR1, -⟩ := List_pushFront_repr v hf hR
    exact ⟨st1, st.brk :: ns, e, hR1, hR1.size_run, List_front_run hR1⟩
  · obtain ⟨st1, e, hR1, -⟩ := List_pushBack_repr v hf hR
    refine ⟨st1, ns ++ [st.brk], e, hR1, ?_, List_back_run hR1⟩
    have := hR1.size_run
    rwa [List.length_append] at this

/-- Instance of C19: pushing `7` at the front and at the back of the example list
`[10, 20, 30]`. -/
theorem C19_list_push_witness :
    List_size 0 exMem = .ret [10, 20, 30].length exMem ∧
    (∃ st1 ns1, List_pushFront 0 7 exMem = .ret () st1 ∧ Repr st1 0 ns1 ([7] ++ [10, 20, 30]) ∧
      List_size 0 st1 = .ret ([10, 20, 30].length + 1) st1 ∧ List_front 0 st1 = .ret 7 st1) ∧
    (∃ st1 ns1, List_pushBack 0 7 exMem = .ret () st1 ∧ Repr st1 0 ns1 ([10, 20, 30] ++ [7]) ∧
      List_size 0 st1 = .ret ([10, 20, 30].length + 1) st1 ∧ List_back 0 st1 = .ret 7 st1) :=
  C19_list_push exMem 0 [1, 2, 3] [10, 20, 30] 7 exMem_fresh exMem_repr0

/-- C20: on a non-empty container a pop removes exactly the boundary element: `List`
`popFront()` turns `x :: xs` into `xs`, `List` `popBack()` and `Vector` `popBack()` turn
`ys ++ [y]` into `ys`; each returns normally, the size decreases by exactly one, the
remaining elements keep their order, and for `Vector` the capacity is unchanged. -/
theorem C20_pop_boundary [ValType α] (st : Mem α) (l1 l2 : Ref) (a b : Ptr)
    (A C : List Ptr) (x y z : α) (xs ys zs : List α) (vst : VMem α) (v : Ref)
    (hfront : Repr st l1 (a :: C) (x :: xs)) (hback : Repr st l2 (A ++ [b]) (ys ++ [y]))
    (hvec : VRepr vst v (zs ++ [z])) :
    (∃ st1, List_popFront l1 st = .ret () st1 ∧ Repr st1 l1 C xs ∧
      (st1.lists l1).m_size + 1 = (st.lists l1).m_size) ∧
    (∃ st1, List_popBack l2 st = .ret () st1 ∧ Repr st1 l2 A ys ∧
      (st1.lists l2).m_size + 1 = (st.lists l2).m_size) ∧
    (∃ vst1, Vector_popBack v vst = .ret () vst1 ∧ VRepr vst1 v zs ∧
      (vst1.vecs v).m_size + 1 = (vst.vecs v).m_size ∧
      (vst1.vecs v).m_capacity = (vst.vecs v).m_capacity) := by
  refine ⟨?_, ?_, ?_⟩
  · obtain ⟨st1, e, hR1, -⟩ := List_popFront_repr hfront
    refine ⟨st1, e, hR1, ?_⟩
    rw [hR1.1, hfront.1]
    rfl
  · obtain ⟨st1, e, hR1, -⟩ := List_popBack_repr hback
    have hlen : A.length = ys.length := by
      have := hback.length
      simpa using this
    rw [List.take_left' hlen.symm] at hR1
    refine ⟨st1, e, hR1, ?_⟩
    rw [hR1.1, hback.1, List.length_append]
    rfl
  · obtain ⟨vst1, e, hR1, -, -, -, hv1, -⟩ := Vector_popBack_owns hvec
    refine ⟨vst1, e, hR1, ?_, by rw [hv1]⟩
    rw [hv1, hvec.1, List.length_append]
    rfl

/-- Instance of C20: `popFront()` and `popBack()` on the example list `[10, 20, 30]`, and
`popBack()` on the example vector `[10, 20, 30]`. -/
theorem C20_pop_boundary_witness :
    (∃ st1, List_popFront 0 exMem = .ret () st1 ∧ Repr st1 0 [2, 3] [20, 30] ∧
      (st1.lists 0).m_size + 1 = (exMem.lists 0).m_size) ∧
    (∃ st1, List_popBack 0 exMem = .ret () st1 ∧ Repr st1 0 [1, 2] [10, 20] ∧
      (st1.lists 0).m_size + 1 = (exMem.lists 0).m_size) ∧
    (∃ vst1, Vector_popBack 0 exVec = .ret () vst1 ∧ VRepr vst1 0 [10, 20] ∧
      (vst1.vecs 0).m_size + 1 = (exVec.vecs 0).m_size ∧
      (vst1.vecs 0).m_capacity = (exVec.vecs 0).m_capacity) :=
  C20_pop_boundary exMem 0 0 1 3 [1, 2] [2, 3] 10 30 30 [20, 30] [10, 20] [10, 20] exVec 0
    exMem_repr0 exMem_repr0 exVec_repr

end ListClaims3

/-! ## List iterators and iteration -/

section IterLemmas
variable {α : Type}

@[simp] theorem nextOf_setData (h : Heap α) (a x : Ptr) (v : α) :
    nextOf (h.setData a v) x = nextOf h x := by
  unfold nextOf Heap.setData
  split
  · subst x; cases h a <;> simp
  · rfl

@[simp] theorem prevOf_setData (h : Heap α) (a x : Ptr) (v : α) :
    prevOf (h.setData a v) x = prevOf h x := by
  unfold prevOf Heap.setData
  split
  · subst x; cases h a <;> simp
  · rfl

@[simp] theorem dataOf_setData (h : Heap α) (a x : Ptr) (v : α) :
    dataOf (h.setData a v) x = if x = a then (if (h a).isSome then some v else none)
      else dataOf h x := by
  unfold dataOf Heap.setData
  split
  · cases h a <;> simp
  · rfl

@[simp] theorem live_setData (h : Heap α) (a x : Ptr) (v : α) :
    ((h.setData a v) x).isSome = (h x).isSome := by
  unfold Heap.setData
  split
  · subst x; cases h a <;> simp
  · rfl

theorem storeData_run {S : Mem α} {a : Ptr} (v : α) (e : (S.nodes a).isSome) :
    storeData a v S = .ret () (Mem.mk (S.nodes.setData a v) S.brk S.lists) := by
  unfold storeData
  cases hx : S.nodes a with
  | none => rw [hx] at e; simp at e
  | some n => rfl

/-- In a list with nodes `A ++ a :: C`, the node before `a` is the last node of `A`, or the
sentinel. -/
theorem Repr.prev_at {st : Mem α} {l : Ref} {A C : List Ptr} {a : Ptr} {xs : List α}
    (hR : Repr st l (A ++ (a :: C)) xs) :
    prevOf st.nodes a = some (A.getLastD (st.lists l).m_sentinel) :=
  hR.2.1.boundary.2

/-- The sentinel is none of the data nodes. -/
theorem Repr.sentinel_not_mem {st : Mem α} {l : Ref} {ns : List Ptr} {xs : List α}
    (hR : Repr st l ns xs) : (st.lists l).m_sentinel ∉ ns :=
  (List.nodup_cons.mp hR.2.1.1).1

theorem Repr.nodup {st : Mem α} {l : Ref} {ns : List Ptr} {xs : List α}
    (hR : Repr st l ns xs) : ns.Nodup :=
  (List.nodup_cons.mp hR.2.1.1).2

/-- The increments `++it` walk along the positions of the list. -/
theorem List_advance_run {st : Mem α} {s : Ptr} {ns : List Ptr} (hr : Ring st.nodes s ns) :
    ∀ (k i : Nat), i + k ≤ ns.length →
      List_advance k (iterAt s ns i) st = .ret (iterAt s ns (i + k)) st := by
  intro k
  induction k with
  | zero => intro i _; rfl
  | succ k ih =>
    intro i hi
    have e := getNext_run (S := st) (hr.next_at_idx (show i < ns.length by omega))
    simp only [List_advance, List_Iterator_inc, Prog.bind_run, Prog.bind, e]
    rw [ih (i + 1) (by omega)]
    rw [show i + 1 + k = i + (k + 1) by omega]

/-- The iterator reached from `begin()` by `i` increments designates position `i`. -/
theorem List_iterTo_run {st : Mem α} {l : Ref} {ns : List Ptr} {xs : List α}
    (hR : Repr st l ns xs) {i : Nat} (hi : i ≤ ns.length) :
    List_iterTo l i st = .ret (iterAt (st.lists l).m_sentinel ns i) st := by
  simp only [List_iterTo, Prog.bind_run, Prog.bind, hR.begin_run]
  rw [← iterAt_zero]
  have := List_advance_run hR.2.1 i 0 (by omega)
  rw [this]
  simp

/-- The loop of the forward iteration, started on the node after the nodes `A`. -/
theorem List_iterateLoop_run {st : Mem α} {l : Ref} :
    ∀ (C A : List Ptr) (xsA xsC : List α) (fuel : Nat) (out : List α),
      Repr st l (A ++ C) (xsA ++ xsC) → A.length = xsA.length → C.length < fuel →
      List_iterateLoop l fuel (C.headD (st.lists l).m_sentinel) out st =
        .ret (out ++ xsC) st := by
  intro C
  induction C with
  | nil =>
    intro A xsA xsC fuel out hR hl hfuel
    have hlen := hR.length
    have hC : xsC = [] := by
      apply List.eq_nil_of_length_eq_zero
      simp only [List.append_nil, List.length_append] at hlen
      omega
    subst hC
    obtain ⟨f, rfl⟩ : ∃ f, fuel = f + 1 := ⟨fuel - 1, by simp at hfuel; omega⟩
    simp [List_iterateLoop, Prog.bind, List_end_run]
  | cons c C ih =>
    intro A xsA xsC fuel out hR hl hfuel
    have hlen := hR.length
    cases xsC with
    | nil =>
      simp only [List.length_append, List.length_cons, List.append_nil] at hlen
      omega
    | cons x xsC =>
      obtain ⟨f, rfl⟩ : ∃ f, fuel = f + 1 := ⟨fuel - 1, by simp at hfuel; omega⟩
      have hne : c ≠ (st.lists l).m_sentinel := by
        intro e
        apply hR.sentinel_not_mem
        rw [← e]
        simp
      have hd := getData_run (hR.data_at hl)
      have hn := getNext_run hR.next_at
      have hR' : Repr st l ((A ++ [c]) ++ C) ((xsA ++ [x]) ++ xsC) := by
        simpa using hR
      have := ih (A ++ [c]) (xsA ++ [x]) xsC f (out ++ [x]) hR' (by simp [hl])
        (by simp at hfuel; omega)
      simp only [List_iterateLoop, List_Iterator_deref, List_Iterator_inc, Prog.bind_run,
        Prog.bind, List_end_run, List.headD_cons, if_neg hne, hd, hn]
      rw [this]
      simp

/-- Iterating from `begin()` to `end()` yields the elements in order. -/
theorem List_iterate_run {st : Mem α} {l : Ref} {ns : List Ptr} {xs : List α} (fuel : Nat)
    (hR : Repr st l ns xs) (hfuel : xs.length < fuel) :
    List_iterate fuel l st = .ret xs st := by
  simp only [List_iterate, Prog.bind_run, Prog.bind, hR.begin_run]
  have := @List_iterateLoop_run α st l ns [] [] xs fuel [] (by simpa using hR) rfl
    (by rw [hR.length]; exact hfuel)
  simpa using this

/-- The loop of the reverse iteration, whose base iterator stands after the nodes `A`. -/
theorem List_riterateLoop_run {st : Mem α} {l : Ref} :
    ∀ (n : Nat) (A C : List Ptr) (xsA xsC : List α) (fuel : Nat) (out : List α),
      A.length = n → Repr st l (A ++ C) (xsA ++ xsC) → A.length = xsA.length → n < fuel →
      List_riterateLoop l fuel (C.headD (st.lists l).m_sentinel) out st =
        .ret (out ++ xsA.reverse) st := by
  intro n
  induction n with
  | zero =>
    intro A C xsA xsC fuel out hn hR hl hfuel
    have hA : A = [] := List.eq_nil_of_length_eq_zero hn
    subst hA
    have hxA : xsA = [] := List.eq_nil_of_length_eq_zero (by simpa using hl.symm)
    subst hxA
    obtain ⟨f, rfl⟩ : ∃ f, fuel = f + 1 := ⟨fuel - 1, by omega⟩
    have hb := hR.begin_run
    simp only [List.nil_append] at hb
    simp [List_riterateLoop, List_rend, Prog.bind, hb]
  | succ n ih =>
    intro A C xsA xsC fuel out hn hR hl hfuel
    obtain ⟨f, rfl⟩ : ∃ f, fuel = f + 1 := ⟨fuel - 1, by omega⟩
    have hAne : A ≠ [] := by
      intro e
      rw [e] at hn
      simp at hn
    have hxne : xsA ≠ [] := by
      intro e
      rw [e] at hl
      rw [hn] at hl
      simp at hl
    obtain ⟨A1, a, rfl⟩ : ∃ A1 a, A = A1 ++ [a] :=
      ⟨A.dropLast, A.getLast hAne, (List.dropLast_append_getLast hAne).symm⟩
    obtain ⟨xs1, x, rfl⟩ : ∃ xs1 x, xsA = xs1 ++ [x] :=
      ⟨xsA.dropLast, xsA.getLast hxne, (List.dropLast_append_getLast hxne).symm⟩
    have hl1 : A1.length = xs1.length := by simpa using hl
    have hn1 : A1.length = n := by simpa using hn
    have hR' : Repr st l (A1 ++ (a :: C)) (xs1 ++ (x :: xsC)) := by simpa using hR
    have hb := hR.begin_run
    have hnd := hR.2.1.1
    -- the base iterator is not `begin()`
    have hne : C.headD (st.lists l).m_sentinel ≠
        (A1 ++ [a] ++ C).headD (st.lists l).m_sentinel := by
      intro e
      have hmem : C.headD (st.lists l).m_sentinel ∈ (st.lists l).m_sentinel :: C := by
        have := headD_mem (st.lists l).m_sentinel C
        simp only [List.mem_cons, List.mem_append, List.mem_singleton] at this ⊢
        tauto
      have hhead : (A1 ++ [a] ++ C).headD (st.lists l).m_sentinel ∈ A1 ++ [a] := by
        cases A1 with
        | nil => simp
        | cons b B => simp
      rw [← e] at hhead
      rw [List.nodup_cons, List.nodup_append] at hnd
      rcases List.mem_cons.mp hmem with h0 | h0
      · apply hnd.1
        rw [h0] at hhead
        exact List.mem_append_left _ hhead
      · exact hnd.2.2.2 hhead h0
    have hp : prevOf st.nodes (C.headD (st.lists l).m_sentinel) = some a := by
      have := hR.2.1.boundary.2
      rwa [getLastD_snoc] at this
    have hd := getData_run (hR'.data_at hl1)
    have := ih A1 (a :: C) xs1 (x :: xsC) f (out ++ [x]) hn1 hR' hl1 (by omega)
    simp only [List_riterateLoop, List_rend, List_ReverseIterator_deref,
      List_ReverseIterator_inc, List_Iterator_dec, List_Iterator_deref, Prog.bind_run,
      Prog.bind, hb, if_neg hne, getPrev_run hp, hd]
    simp only [List.headD_cons] at this
    rw [this]
    simp

/-- Iterating from `rbegin()` to `rend()` yields the elements in reverse order. -/
theorem List_riterate_run {st : Mem α} {l : Ref} {ns : List Ptr} {xs : List α} (fuel : Nat)
    (hR : Repr st l ns xs) (hfuel : xs.length < fuel) :
    List_riterate fuel l st = .ret xs.reverse st := by
  simp only [List_riterate, List_rbegin, Prog.bind_run, Prog.bind, List_end_run]
  have := @List_riterateLoop_run α st l ns.length ns [] xs [] fuel [] rfl (by simpa using hR)
    hR.length (by rw [hR.length]; exact hfuel)
  simpa using this

end IterLemmas

/-! ## The frame of a call on a list -/

section StepLemmas
variable {α : Type}

theorem LStep.stay (st : Mem α) (l : Ref) (ns : List Ptr) : LStep st st l ns ns :=
  ⟨le_refl _, rfl, fun _ _ => rfl, fun _ _ _ => rfl, fun _ hx => Or.inl hx⟩

theorem LStep.seq {st s1 s2 : Mem α} {l : Ref} {ns ns1 ns2 : List Ptr}
    (h1 : LStep st s1 l ns ns1) (h2 : LStep s1 s2 l ns1 ns2) : LStep st s2 l ns ns2 := by
  obtain ⟨hb1, hs1, ho1, hn1, hm1⟩ := h1
  obtain ⟨hb2, hs2, ho2, hn2, hm2⟩ := h2
  refine ⟨le_trans hb1 hb2, hs2.trans hs1, fun r hr => (ho2 r hr).trans (ho1 r hr), ?_, ?_⟩
  · intro x hx hlt
    have hx1 : x ∉ (s1.lists l).m_sentinel :: ns1 := by
      rw [hs1]
      intro hm
      rcases List.mem_cons.mp hm with h0 | h0
      · exact hx (by rw [h0]; exact List.mem_cons_self _ _)
      · rcases hm1 x h0 with h | h
        · exact hx (List.mem_cons_of_mem _ h)
        · exact absurd hlt (not_lt.mpr h)
    rw [hn2 x hx1 (lt_of_lt_of_le hlt hb1), hn1 x hx hlt]
  · intro x hx
    rcases hm2 x hx with h | h
    · exact hm1 x h
    · exact Or.inr (le_trans hb1 h)

/-- The frame of a call that allocates nothing and touches only nodes of the list. -/
theorem LStep.of_frame {st st1 : Mem α} {l : Ref} {ns ns1 : List Ptr}
    (hb : st.brk ≤ st1.brk)
    (hs : (st1.lists l).m_sentinel = (st.lists l).m_sentinel)
    (ho : ∀ r, r ≠ l → st1.lists r = st.lists r)
    (hn : ∀ x, x ∉ (st.lists l).m_sentinel :: ns → st1.nodes x = st.nodes x)
    (hm : ∀ x ∈ ns1, x ∈ ns ∨ st.brk ≤ x) : LStep st st1 l ns ns1 :=
  ⟨hb, hs, ho, fun x hx _ => hn x hx, hm⟩

/-- A list object represents the same elements when its members and its nodes are those
of a list object of another state. -/
theorem Repr.of_obj_eq {st st1 : Mem α} {l l1 : Ref} {ns : List Ptr} {xs : List α}
    (hR : Repr st l ns xs) (hl : st1.lists l1 = st.lists l)
    (he : ∀ x ∈ (st.lists l).m_sentinel :: ns, st1.nodes x = st.nodes x) :
    Repr st1 l1 ns xs := by
  obtain ⟨hsz, hr, hd⟩ := hR
  refine ⟨by rw [hl]; exact hsz, by rw [hl]; exact hr.of_heap_eq he, ?_⟩
  rw [← hd]
  refine List.map_congr_left (fun x hx => ?_)
  simp only [dataOf, he x (List.mem_cons_of_mem _ hx)]

/-- A call on the list `l` leaves a list `a` that shares no node with `l` as it was, and
the two lists still share no node. -/
theorem Repr.of_step {st st1 : Mem α} {a l : Ref} {ns nsl nsl1 : List Ptr} {xs : List α}
    (hR : Repr st a ns xs) (hf : Fresh st) (hne : a ≠ l)
    (hdis : ∀ x ∈ (st.lists a).m_sentinel :: ns, x ∉ (st.lists l).m_sentinel :: nsl)
    (hs : LStep st st1 l nsl nsl1) :
    Repr st1 a ns xs ∧
      ∀ x ∈ (st1.lists a).m_sentinel :: ns, x ∉ (st1.lists l).m_sentinel :: nsl1 := by
  obtain ⟨hb, hsl, ho, hn, hm⟩ := hs
  have hlt : ∀ x ∈ (st.lists a).m_sentinel :: ns, x < st.brk :=
    fun x hx => hf.lt_of_live (hR.live_nodes x hx)
  refine ⟨hR.of_heap_agree (ho a hne) (fun x hx => hn x (hdis x hx) (hlt x hx)), ?_⟩
  rw [ho a hne, hsl]
  intro x hx hmem
  rcases List.mem_cons.mp hmem with h0 | h0
  · exact hdis x hx (by rw [h0]; exact List.mem_cons_self _ _)
  · rcases hm x h0 with h | h
    · exact hdis x hx (List.mem_cons_of_mem _ h)
    · exact absurd (hlt x hx) (not_lt.mpr h)

/-- Two nodes with the same fields are equal. -/
theorem node_eq_of_fields {h h1 : Heap α} {x : Ptr}
    (hd : dataOf h1 x = dataOf h x) (hn : nextOf h1 x = nextOf h x)
    (hp : prevOf h1 x = prevOf h x) : h1 x = h x := by
  unfold dataOf at hd
  unfold nextOf at hn
  unfold prevOf at hp
  cases e1 : h1 x with
  | none =>
    cases e : h x with
    | none => rfl
    | some n => rw [e1, e] at hd; simp at hd
  | some m =>
    cases e : h x with
    | none => rw [e1, e] at hd; simp at hd
    | some n =>
      rw [e1, e] at hd hn hp
      simp only [Option.map_some', Option.some.injEq] at hd hn hp
      cases m
      cases n
      simp only at hd hn hp
      subst hd
      subst hn
      subst hp
      rfl

/-- Effect of a write to the `data` member of the node `a` of a list. -/
theorem storeData_repr {st : Mem α} {l : Ref} {A C : List Ptr} {a : Ptr} {xsA xsC : List α}
    {x : α} (v : α) (hR : Repr st l (A ++ (a :: C)) (xsA ++ (x :: xsC)))
    (hl : A.length = xsA.length) :
    storeData a v st = .ret () (Mem.mk (st.nodes.setData a v) st.brk st.lists) ∧
      Repr (Mem.mk (st.nodes.setData a v) st.brk st.lists) l (A ++ (a :: C))
        (xsA ++ (v :: xsC)) ∧
      (∀ y, y ≠ a → (st.nodes.setData a v) y = st.nodes y) := by
  have hlive : (st.nodes a).isSome := hR.live_nodes a (by simp)
  obtain ⟨hsz, hr, hd⟩ := hR
  have hnd := hr.1
  rw [List.nodup_cons, List.nodup_append] at hnd
  have haA : a ∉ A := fun hm => hnd.2.2.2 hm (List.mem_cons_self _ _)
  have haC : a ∉ C := (List.nodup_cons.mp hnd.2.2.1).1
  refine ⟨storeData_run v hlive, ⟨hsz, ?_, ?_⟩, ?_⟩
  · exact hr.frame (fun y _ => nextOf_setData _ _ _ _) (fun y _ => prevOf_setData _ _ _ _)
  · obtain ⟨hdA, hdC⟩ := map_split hd
    rw [hl] at hdA hdC
    simp only [List.take_left', List.drop_left', List.map_cons, List.cons.injEq] at hdA hdC
    simp only [List.map_append, List.map_cons, dataOf_setData, if_true, hlive]
    congr 1
    · rw [← hdA]
      exact List.map_congr_left (fun y hy => by
        have : y ≠ a := fun e => haA (e ▸ hy)
        simp [this])
    · congr 1
      rw [← hdC.2]
      exact List.map_congr_left (fun y hy => by
        have : y ≠ a := fun e => haC (e ▸ hy)
        simp [this])
  · intro y hy
    simp only [Heap.setData, if_neg hy]

/-- A list splits at a valid index. -/
theorem split_at_index {β : Type} (xs : List β) {i : Nat} (hi : i < xs.length) :
    xs = xs.take i ++ (xs[i] :: xs.drop (i + 1)) := by
  rw [← List.drop_eq_getElem_cons hi, List.take_append_drop]

/-- Effect of a write through the iterator on position `i`. -/
theorem storeData_idx {st : Mem α} {l : Ref} {ns : List Ptr} {xs : List α} (i : Nat) (v : α)
    (hR : Repr st l ns xs) (hi : i < xs.length) :
    ∃ st1, storeData (iterAt (st.lists l).m_sentinel ns i) v st = .ret () st1 ∧
      Repr st1 l ns (xs.set i v) ∧ st1.brk = st.brk ∧ st1.lists = st.lists ∧
      (∀ b, (st1.nodes b).isSome = (st.nodes b).isSome) ∧
      (∀ y, y ≠ iterAt (st.lists l).m_sentinel ns i → st1.nodes y = st.nodes y) ∧
      iterAt (st.lists l).m_sentinel ns i ∈ ns := by
  have hlen := hR.length
  have hin : i < ns.length := by omega
  have hns := split_at_index ns hin
  have hxs := split_at_index xs hi
  have hit : iterAt (st.lists l).m_sentinel ns i = ns[i] := by
    simp [iterAt, List.getD_eq_getElem?_getD, List.getElem?_eq_getElem hin]
  have hR' : Repr st l (ns.take i ++ (ns[i] :: ns.drop (i + 1)))
      (xs.take i ++ (xs[i] :: xs.drop (i + 1))) := by
    rw [← hns, ← hxs]; exact hR
  obtain ⟨e, hR1, hfr⟩ := storeData_repr v hR' (by simp; omega)
  rw [← hns] at hR1
  have hset : xs.take i ++ (v :: xs.drop (i + 1)) = xs.set i v := by
    rw [List.set_eq_take_append_cons_drop, if_pos hi]
  rw [hset] at hR1
  refine ⟨_, by rw [hit]; exact e, hR1, rfl, rfl, fun b => live_setData _ _ _ _, ?_, ?_⟩
  · rw [hit]; exact hfr
  · rw [hit]; exact List.getElem_mem _

end StepLemmas

/-! ## Mutating operations on a list, one by one -/

section MutLemmas
variable {α : Type}

theorem List_pushFront_step {st : Mem α} {l : Ref} {ns : List Ptr} {xs : List α} (v : α)
    (hf : Fresh st) (hR : Repr st l ns xs) :
    ∃ st1 ns1, List_pushFront l v st = .ret () st1 ∧ Repr st1 l ns1 (v :: xs) ∧ Fresh st1 ∧
      LStep st st1 l ns ns1 := by
  obtain ⟨st1, e, hR1, hf1, hb, hs, ho, hn⟩ := List_pushFront_repr v hf hR
  refine ⟨st1, _, e, hR1, hf1, by rw [hb]; exact Nat.le_succ _, hs, ho, ?_, ?_⟩
  · intro x hx hlt
    refine hn x (fun hm => ?_)
    rcases List.mem_cons.mp hm with h0 | h0
    · rw [h0] at hlt; exact lt_irrefl _ hlt
    · exact hx h0
  · intro x hx
    rcases List.mem_cons.mp hx with h0 | h0
    · right; rw [h0]
    · left; exact h0

theorem List_pushBack_step {st : Mem α} {l : Ref} {ns : List Ptr} {xs : List α} (v : α)
    (hf : Fresh st) (hR : Repr st l ns xs) :
    ∃ st1 ns1, List_pushBack l v st = .ret () st1 ∧ Repr st1 l ns1 (xs ++ [v]) ∧ Fresh st1 ∧
      LStep st st1 l ns ns1 := by
  obtain ⟨st1, e, hR1, hf1, hb, hs, ho, hn⟩ := List_pushBack_repr v hf hR
  refine ⟨st1, _, e, hR1, hf1, by rw [hb]; exact Nat.le_succ _, hs, ho, ?_, ?_⟩
  · intro x hx hlt
    refine hn x (fun hm => ?_)
    rcases List.mem_cons.mp hm with h0 | h0
    · rw [h0] at hlt; exact lt_irrefl _ hlt
    · exact hx h0
  · intro x hx
    rcases List.mem_append.mp hx with h0 | h0
    · left; exact h0
    · right; rw [List.mem_singleton.mp h0]

theorem List_popFront_step {st : Mem α} {l : Ref} {ns : List Ptr} {xs : List α}
    (hf : Fresh st) (hR : Repr st l ns xs) :
    ∃ st1 ns1, List_popFront l st = .ret () st1 ∧ Repr st1 l ns1 (xs.drop 1) ∧ Fresh st1 ∧
      LStep st st1 l ns ns1 := by
  cases ns with
  | nil =>
    have hxs : xs = [] := List.eq_nil_of_length_eq_zero (by rw [← hR.length]; rfl)
    subst hxs
    exact ⟨st, [], (List_pop_empty hR.1).1, hR, hf, LStep.stay _ _ _⟩
  | cons a C =>
    obtain ⟨st1, e, hR1, hb, hl, hs, ho, hn⟩ := List_popFront_repr hR
    exact ⟨st1, C, e, hR1, hf.of_shrink hl hb,
      LStep.of_frame (le_of_eq hb.symm) hs ho hn
        (fun x hx => Or.inl (List.mem_cons_of_mem _ hx))⟩

theorem List_popBack_step {st : Mem α} {l : Ref} {ns : List Ptr} {xs : List α}
    (hf : Fresh st) (hR : Repr st l ns xs) :
    ∃ st1 ns1, List_popBack l st = .ret () st1 ∧ Repr st1 l ns1 (xs.take (xs.length - 1)) ∧
      Fresh st1 ∧ LStep st st1 l ns ns1 := by
  by_cases hne : ns = []
  · subst hne
    have hxs : xs = [] := List.eq_nil_of_length_eq_zero (by rw [← hR.length]; rfl)
    subst hxs
    exact ⟨st, [], (List_pop_empty hR.1).2, hR, hf, LStep.stay _ _ _⟩
  · obtain ⟨A, a, rfl⟩ : ∃ A a, ns = A ++ [a] :=
      ⟨ns.dropLast, ns.getLast hne, (List.dropLast_append_getLast hne).symm⟩
    have hlen := hR.length
    obtain ⟨st1, e, hR1, hb, hl, hs, ho, hn⟩ := List_popBack_repr hR
    have hA : A.length = xs.length - 1 := by
      simp only [List.length_append, List.length_singleton] at hlen
      omega
    rw [hA] at hR1
    exact ⟨st1, A, e, hR1, hf.of_shrink hl hb,
      LStep.of_frame (le_of_eq hb.symm) hs ho hn
        (fun x hx => Or.inl (List.mem_append_left _ hx))⟩

/-- Effect of `insert` at index `p`, with its frame. -/
theorem List_insert_step {st : Mem α} {l : Ref} {ns : List Ptr} {xs : List α} (p : Nat) (v : α)
    (hf : Fresh st) (hR : Repr st l ns xs) (hp : p ≤ xs.length) :
    ∃ st1 ns1, List_insert l (iterAt (st.lists l).m_sentinel ns p) v st = .ret st.brk st1 ∧
      Repr st1 l ns1 (xs.take p ++ v :: xs.drop p) ∧ Fresh st1 ∧ LStep st st1 l ns ns1 := by
  obtain ⟨st1, e, hR1, hf1, hs1, -⟩ := List_insert_idx p v hf hR hp
  have hR' : Repr st l (ns.take p ++ ns.drop p) xs := by
    rw [List.take_append_drop]; exact hR
  have hb := hR'.2.1.boundary
  have hnbm : (ns.take p).getLastD (st.lists l).m_sentinel ∈ (st.lists l).m_sentinel :: ns := by
    have := getLastD_mem (st.lists l).m_sentinel (ns.take p)
    rcases List.mem_cons.mp this with h0 | h0
    · rw [h0]; exact List.mem_cons_self _ _
    · exact List.mem_cons_of_mem _ (List.mem_of_mem_take h0)
  have hposm : (ns.drop p).headD (st.lists l).m_sentinel ∈ (st.lists l).m_sentinel :: ns := by
    have := headD_mem (st.lists l).m_sentinel (ns.drop p)
    rcases List.mem_append.mp this with h0 | h0
    · exact List.mem_cons_of_mem _ (List.mem_of_mem_drop h0)
    · rw [List.mem_singleton.mp h0]; exact List.mem_cons_self _ _
  have hnbl := hR.live_nodes _ hnbm
  have e2 := List_insert_run (l := l) v hb.2 hnbl
  rw [iterAt_drop] at e
  rw [e2] at e
  injection e with _ hst
  subst hst
  refine ⟨_, _, by rw [iterAt_drop]; exact e2, hR1, hf1, Nat.le_succ _, hs1, ?_, ?_, ?_⟩
  · intro r hr
    show (if r = l then _ else st.lists r) = st.lists r
    rw [if_neg hr]
  · intro x hx hlt
    have h1 : x ≠ st.brk := fun e0 => by rw [e0] at hlt; exact lt_irrefl _ hlt
    have h2 : x ≠ (ns.take p).getLastD (st.lists l).m_sentinel := fun e0 => hx (e0 ▸ hnbm)
    have h3 : x ≠ (ns.drop p).headD (st.lists l).m_sentinel := fun e0 => hx (e0 ▸ hposm)
    show (((st.nodes.put st.brk _).setNext _ st.brk).setPrev _ st.brk) x = st.nodes x
    simp only [Heap.setNext, Heap.setPrev, Heap.put, if_neg h1, if_neg h2, if_neg h3]
  · intro x hx
    rcases List.mem_append.mp hx with h0 | h0
    · left; exact List.mem_of_mem_take h0
    · rcases List.mem_cons.mp h0 with h1 | h1
      · right; rw [h1]
      · left; exact List.mem_of_mem_drop h1

/-- Effect of `erase(first, last)` on the index range `[i, j)`, with its frame. -/
theorem List_erase_range_step {st : Mem α} {l : Ref} {ns : List Ptr} {xs : List α}
    (fuel i j : Nat) (hf : Fresh st) (hR : Repr st l ns xs) (hij : i ≤ j)
    (hj : j ≤ xs.length) (hfuel : j - i < fuel) :
    ∃ st1 ns1, List_erase_range fuel l (iterAt (st.lists l).m_sentinel ns i)
        (iterAt (st.lists l).m_sentinel ns j) st =
          .ret (iterAt (st.lists l).m_sentinel ns j) st1 ∧
      Repr st1 l ns1 (xs.take i ++ xs.drop j) ∧ Fresh st1 ∧ LStep st st1 l ns ns1 := by
  obtain ⟨st1, e, hR1, hb, hl, hs, ho, hn⟩ := List_erase_range_idx fuel i j hR hij hj hfuel
  refine ⟨st1, _, e, hR1, hf.of_shrink hl hb, LStep.of_frame (le_of_eq hb.symm) hs ho hn ?_⟩
  intro x hx
  rcases List.mem_append.mp hx with h0 | h0
  · left; exact List.mem_of_mem_take h0
  · left; exact List.mem_of_mem_drop h0

/-- The loop of `remove(value)`; the nodes left are former nodes of the list. -/
theorem List_removeLoop_nodes [DecidableEq α] (l : Ref) (v : α) :
    ∀ (R D : List Ptr) (xsD xsR : List α) (fuel : Nat) (st : Mem α),
      Repr st l (D ++ R) (xsD ++ xsR) → D.length = xsD.length → R.length < fuel →
      ∃ st1 R1, List_removeLoop l v fuel (R.headD (st.lists l).m_sentinel) st = .ret () st1 ∧
        Repr st1 l (D ++ R1) (xsD ++ xsR.filter (fun x => decide (x ≠ v))) ∧
        st1.brk = st.brk ∧ (∀ b, (st1.nodes b).isSome → (st.nodes b).isSome) ∧
        (st1.lists l).m_sentinel = (st.lists l).m_sentinel ∧
        (∀ r, r ≠ l → st1.lists r = st.lists r) ∧
        (∀ x, x ∉ (st.lists l).m_sentinel :: (D ++ R) → st1.nodes x = st.nodes x) ∧
        (∀ x ∈ R1, x ∈ R) := by
  intro R
  induction R with
  | nil =>
    intro D xsD xsR fuel st hR hl hfuel
    obtain ⟨k, rfl⟩ : ∃ k, fuel = k + 1 := ⟨fuel - 1, by omega⟩
    have hlen := map_len hR.2.2
    have hxs : xsR = [] := by
      simp only [List.append_nil, List.length_append] at hlen
      exact List.eq_nil_of_length_eq_zero (by omega)
    subst hxs
    refine ⟨st, [], ?_, by simpa using hR, rfl, fun _ hb => hb, rfl, fun _ _ => rfl,
      fun _ _ => rfl, fun _ hx => hx⟩
    simp [List_removeLoop, List_end, Prog.bind]
  | cons a R ih =>
    intro D xsD xsR fuel st hR hl hfuel
    obtain ⟨k, rfl⟩ : ∃ k, fuel = k + 1 := ⟨fuel - 1, by omega⟩
    have hlen := map_len hR.2.2
    cases xsR with
    | nil =>
      exfalso
      simp only [List.length_append, List.length_cons, List.append_nil] at hlen
      omega
    | cons x xsR =>
      have hne : a ≠ (st.lists l).m_sentinel := by
        intro e
        have := hR.2.1.1
        rw [List.nodup_cons] at this
        exact this.1 (by rw [← e]; simp)
      have hdat := hR.data_at hl
      have hnx := hR.next_at
      by_cases hv : x = v
      · obtain ⟨st1, e1, hR1, hb1, hl1, hs1, ho1, hn1⟩ := List_erase_repr (k + 1) hR
          (by simp only [List.length_cons] at hfuel; omega)
        have hxs1 : (xsD ++ x :: xsR).take D.length ++ (xsD ++ x :: xsR).drop (D.length + 1)
            = xsD ++ xsR := by
          rw [hl]
          simp [List.take_append_eq_append_take, List.drop_append_eq_append_drop]
        rw [hxs1] at hR1
        obtain ⟨st2, R2, e2, hR2, hb2, hl2, hs2, ho2, hn2, hm2⟩ := ih D xsD xsR k st1 hR1 hl
          (by simp only [List.length_cons] at hfuel; omega)
        refine ⟨st2, R2, ?_, ?_, hb2.trans hb1, fun b hb => hl1 b (hl2 b hb), hs2.trans hs1,
          fun r hr => (ho2 r hr).trans (ho1 r hr), ?_,
          fun y hy => List.mem_cons_of_mem _ (hm2 y hy)⟩
        · simp only [List_removeLoop, List_end, Prog.bind_run, Prog.bind, getSentinel_run, hne,
            List.headD_cons, Prog.pure_run, if_false, getData_run hdat, hv, if_true, e1]
          rw [hs1] at e2
          exact e2
        · simpa [hv] using hR2
        · intro y hy
          rw [hn2 y (by
            rw [hs1]
            intro hm
            apply hy
            simp only [List.mem_cons, List.mem_append] at hm ⊢
            tauto), hn1 y hy]
      · have hR' : Repr st l ((D ++ [a]) ++ R) ((xsD ++ [x]) ++ xsR) := by simpa using hR
        obtain ⟨st2, R2, e2, hR2, hb2, hl2, hs2, ho2, hn2, hm2⟩ := ih (D ++ [a]) (xsD ++ [x])
          xsR k st hR' (by simp [hl]) (by simp only [List.length_cons] at hfuel; omega)
        refine ⟨st2, a :: R2, ?_, ?_, hb2, hl2, hs2, ho2, ?_, ?_⟩
        · simp only [List_removeLoop, List_end, Prog.bind_run, Prog.bind, getSentinel_run, hne,
            List.headD_cons, Prog.pure_run, if_false, getData_run hdat, hv, getNext_run hnx]
          exact e2
        · simpa [hv] using hR2
        · intro y hy
          exact hn2 y (by simpa using hy)
        · intro y hy
          rcases List.mem_cons.mp hy with h0 | h0
          · rw [h0]; exact List.mem_cons_self _ _
          · exact List.mem_cons_of_mem _ (hm2 y h0)

/-- Effect of `remove(value)`, with its frame. -/
theorem List_remove_step [DecidableEq α] {st : Mem α} {l : Ref} {ns : List Ptr} {xs : List α}
    (fuel : Nat) (v : α) (hf : Fresh st) (hR : Repr st l ns xs) (hfuel : ns.length < fuel) :
    ∃ st1 ns1, List_remove fuel l v st = .ret () st1 ∧
      Repr st1 l ns1 (xs.filter (fun x => decide (x ≠ v))) ∧ Fresh st1 ∧
      LStep st st1 l ns ns1 := by
  have hb := hR.2.1.first
  obtain ⟨st1, R1, e1, hR1, hbrk, hl, hs, ho, hn, hm⟩ :=
    List_removeLoop_nodes l v ns [] [] xs fuel st (by simpa using hR) rfl hfuel
  refine ⟨st1, R1, ?_, by simpa using hR1, hf.of_shrink hl hbrk,
    LStep.of_frame (le_of_eq hbrk.symm) hs ho (by simpa using hn) (fun x hx => Or.inl (hm x hx))⟩
  simp only [List_remove, List_begin, Prog.bind_run, Prog.bind, getSentinel_run,
    getNext_run hb.1]
  exact e1

theorem List_clear_step {st : Mem α} {l : Ref} {ns : List Ptr} {xs : List α}
    (fuel : Nat) (hf : Fresh st) (hR : Repr st l ns xs) (hfuel : ns.length < fuel) :
    ∃ st1 ns1, List_clear fuel l st = .ret () st1 ∧ Repr st1 l ns1 [] ∧ Fresh st1 ∧
      LStep st st1 l ns ns1 := by
  obtain ⟨st1, e, hR1, hb, hl, hs, ho, hn, -⟩ := List_clear_repr fuel hR hfuel
  exact ⟨st1, [], e, hR1, hf.of_shrink hl hb,
    LStep.of_frame (le_of_eq hb.symm) hs ho hn (fun x hx => absurd hx (List.not_mem_nil x))⟩

theorem List_reverse_step {st : Mem α} {l : Ref} {ns : List Ptr} {xs : List α}
    (fuel : Nat) (hf : Fresh st) (hR : Repr st l ns xs) (hfuel : ns.length < fuel) :
    ∃ st1 ns1, List_reverse fuel l st = .ret () st1 ∧ Repr st1 l ns1 xs.reverse ∧ Fresh st1 ∧
      LStep st st1 l ns ns1 := by
  obtain ⟨st1, e, hR1, hb, hls, hl, hd, hn⟩ := List_reverse_repr fuel hR hfuel
  refine ⟨st1, _, e, hR1, hf.of_shrink (fun a ha => by rw [← hl a]; exact ha) hb,
    LStep.of_frame (le_of_eq hb.symm) (by rw [hls]) (fun r _ => by rw [hls]) ?_
      (fun x hx => Or.inl (List.mem_reverse.mp hx))⟩
  intro x hx
  exact node_eq_of_fields (hd x) (hn x hx).1 (hn x hx).2

theorem List_write_step {st : Mem α} {l : Ref} {ns : List Ptr} {xs : List α} (i : Nat) (v : α)
    (hf : Fresh st) (hR : Repr st l ns xs) (hi : i < xs.length) :
    ∃ st1 ns1, List_Iterator_assign (iterAt (st.lists l).m_sentinel ns i) v st = .ret () st1 ∧
      Repr st1 l ns1 (xs.set i v) ∧ Fresh st1 ∧ LStep st st1 l ns ns1 := by
  obtain ⟨st1, e, hR1, hb, hls, hl, hn, hm⟩ := storeData_idx i v hR hi
  refine ⟨st1, ns, e, hR1, hf.of_shrink (fun a ha => by rw [← hl a]; exact ha) hb,
    LStep.of_frame (le_of_eq hb.symm) (by rw [hls]) (fun r _ => by rw [hls]) ?_
      (fun x hx => Or.inl hx)⟩
  intro x hx
  exact hn x (fun e0 => hx (e0 ▸ List.mem_cons_of_mem _ hm))

theorem ListMut.expected_length_le [DecidableEq α] (xs : List α) (op : ListMut α)
    (hv : op.Valid xs.length) : (op.expected xs).length ≤ xs.length + 1 := by
  cases op with
  | pushFront v => simp [ListMut.expected]
  | pushBack v => simp [ListMut.expected]
  | popFront => simp [ListMut.expected]; omega
  | popBack => simp [ListMut.expected]; omega
  | insert i v => simp [ListMut.expected]; omega
  | erase i => simp [ListMut.expected]; omega
  | eraseRange i j =>
    have hij : i ≤ j ∧ j ≤ xs.length := hv
    simp [ListMut.expected]
    omega
  | remove v =>
    simp only [ListMut.expected]
    exact le_trans (List.length_filter_le _ _) (Nat.le_succ _)
  | clear => simp [ListMut.expected]
  | reverse => simp [ListMut.expected]
  | write i v => simp [ListMut.expected]

/-- Every mutating operation called within its precondition returns, leaves the elements
it has to, and stays within its frame. -/
theorem ListMut.exec_step [DecidableEq α] {st : Mem α} {l : Ref} {ns : List Ptr}
    {xs : List α} (op : ListMut α) (fuel : Nat) (hf : Fresh st) (hR : Repr st l ns xs)
    (hv : op.Valid xs.length) (hfuel : xs.length + 1 < fuel) :
    ∃ st1 ns1, op.exec fuel l st = .ret () st1 ∧ Repr st1 l ns1 (op.expected xs) ∧
      Fresh st1 ∧ LStep st st1 l ns ns1 := by
  have hlen := hR.length
  cases op with
  | pushFront v => exact List_pushFront_step v hf hR
  | pushBack v => exact List_pushBack_step v hf hR
  | popFront => exact List_popFront_step hf hR
  | popBack => exact List_popBack_step hf hR
  | insert i v =>
    have hi : i ≤ xs.length := hv
    obtain ⟨st1, ns1, e, h⟩ := List_insert_step i v hf hR hi
    refine ⟨st1, ns1, ?_, h⟩
    simp only [ListMut.exec, Prog.bind_run, Prog.bind, List_iterTo_run hR (show i ≤ ns.length by omega), e,
      Prog.pure_run]
  | erase i =>
    have hi : i < xs.length := hv
    obtain ⟨st1, ns1, e, h⟩ := List_erase_range_step fuel i (i + 1) hf hR (Nat.le_succ i) hi
      (by omega)
    refine ⟨st1, ns1, ?_, h⟩
    have hnx := getNext_run (S := st) (hR.2.1.next_at_idx (show i < ns.length by omega))
    simp only [ListMut.exec, List_erase, Prog.bind_run, Prog.bind,
      List_iterTo_run hR (show i ≤ ns.length by omega), hnx, e, Prog.pure_run]
  | eraseRange i j =>
    have hij : i ≤ j ∧ j ≤ xs.length := hv
    obtain ⟨st1, ns1, e, h⟩ := List_erase_range_step fuel i j hf hR hij.1 hij.2 (by omega)
    refine ⟨st1, ns1, ?_, h⟩
    simp only [ListMut.exec, Prog.bind_run, Prog.bind,
      List_iterTo_run hR (show i ≤ ns.length by omega),
      List_iterTo_run hR (show j ≤ ns.length by omega), e, Prog.pure_run]
  | remove v => exact List_remove_step fuel v hf hR (by omega)
  | clear => exact List_clear_step fuel hf hR (by omega)
  | reverse => exact List_reverse_step fuel hf hR (by omega)
  | write i v =>
    have hi : i < xs.length := hv
    obtain ⟨st1, ns1, e, h⟩ := List_write_step i v hf hR hi
    refine ⟨st1, ns1, ?_, h⟩
    simp only [ListMut.exec, Prog.bind_run, Prog.bind,
      List_iterTo_run hR (show i ≤ ns.length by omega), e]

/-- Every sequence of mutating operations called within their preconditions returns,
leaves the elements it has to, and stays within its frame. -/
theorem List_mutAll_run [DecidableEq α] {l : Ref} (fuel : Nat) :
    ∀ (ops : List (ListMut α)) (st : Mem α) (ns : List Ptr) (xs : List α),
      Fresh st → Repr st l ns xs → ListMut.ValidAll xs ops →
      xs.length + ops.length + 1 < fuel →
      ∃ st1 ns1, List_mutAll fuel l ops st = .ret () st1 ∧
        Repr st1 l ns1 (ListMut.expectedAll xs ops) ∧ Fresh st1 ∧ LStep st st1 l ns ns1 := by
  intro ops
  induction ops with
  | nil =>
    intro st ns xs hf hR _ _
    exact ⟨st, ns, rfl, hR, hf, LStep.stay _ _ _⟩
  | cons op rest ih =>
    intro st ns xs hf hR hv hfuel
    simp only [List.length_cons] at hfuel
    obtain ⟨s1, ns1, e1, hR1, hf1, hs1⟩ := op.exec_step fuel hf hR hv.1 (by omega)
    have hle := ListMut.expected_length_le xs op hv.1
    obtain ⟨s2, ns2, e2, hR2, hf2, hs2⟩ := ih s1 ns1 (op.expected xs) hf1 hR1 hv.2 (by omega)
    refine ⟨s2, ns2, ?_, hR2, hf2, hs1.seq hs2⟩
    simp only [List_mutAll, Prog.bind_run, Prog.bind, e1]
    exact e2

end MutLemmas

/-! ## Destructor, assignment operators, equality and element access of a list -/

section AssignLemmas
variable {α : Type}

/-- Effect of the destructor: every node of the list, the sentinel included, is released. -/
theorem List_dtor_repr {st : Mem α} {l : Ref} {ns : List Ptr} {xs : List α} (fuel : Nat)
    (hR : Repr st l ns xs) (hfuel : ns.length < fuel) :
    ∃ st1, List_dtor fuel l st = .ret () st1 ∧ st1.brk = st.brk ∧
      (∀ b, (st1.nodes b).isSome → (st.nodes b).isSome) ∧
      (∀ r, r ≠ l → st1.lists r = st.lists r) ∧
      (∀ x, x ∉ (st.lists l).m_sentinel :: ns → st1.nodes x = st.nodes x) ∧
      (∀ x ∈ (st.lists l).m_sentinel :: ns, st1.nodes x = none) := by
  obtain ⟨sA, e1, hRA, hb, hl, hs, ho, hn, hfree⟩ := List_clear_repr fuel hR hfuel
  have hlive : (sA.nodes (st.lists l).m_sentinel).isSome := by
    have := hRA.live_nodes (sA.lists l).m_sentinel (List.mem_cons_self _ _)
    rwa [hs] at this
  have e2 := deleteNode_run (S := sA) hlive
  refine ⟨Mem.mk (sA.nodes.free (st.lists l).m_sentinel) sA.brk sA.lists, ?_, hb, ?_, ho,
    ?_, ?_⟩
  · simp only [List_dtor, Prog.bind_run, Prog.bind, e1, getSentinel_run, hs, e2]
  · intro b hb1
    apply hl
    simp only [live_free, Bool.and_eq_true] at hb1
    exact hb1.2
  · intro x hx
    have h1 : x ≠ (st.lists l).m_sentinel := fun e => hx (by rw [e]; exact List.mem_cons_self _ _)
    show (sA.nodes.free _) x = st.nodes x
    simp only [Heap.free, if_neg h1]
    exact hn x hx
  · intro x hx
    show (sA.nodes.free _) x = none
    by_cases h1 : x = (st.lists l).m_sentinel
    · simp only [Heap.free, if_pos h1]
    · simp only [Heap.free, if_neg h1]
      rcases List.mem_cons.mp hx with h0 | h0
      · exact absurd h0 h1
      · exact hfree x h0

/-- Effect of the copy assignment on distinct objects: the target gets nodes of its own
that hold the elements of the source, its former nodes are released, and the source is
left as it was. -/
theorem List_assign_copy_repr [Inhabited α] {st : Mem α} {this other temp : Ref}
    {ns ms : List Ptr} {xs ys : List α} (fuel : Nat) (hf : Fresh st) (hne : this ≠ other)
    (ht1 : temp ≠ this) (ht2 : temp ≠ other) (hR : Repr st this ns xs)
    (hO : Repr st other ms ys)
    (hdis : ∀ x ∈ (st.lists this).m_sentinel :: ns, x ∉ (st.lists other).m_sentinel :: ms)
    (hfuel1 : ns.length < fuel) (hfuel2 : ms.length < fuel) :
    ∃ st1 ns1, List_assign_copy fuel this other temp st = .ret () st1 ∧
      Repr st1 this ns1 ys ∧ Repr st1 other ms ys ∧ Fresh st1 ∧
      (∀ x ∈ (st1.lists this).m_sentinel :: ns1, x ∉ (st1.lists other).m_sentinel :: ms) ∧
      (∀ x ∈ (st.lists this).m_sentinel :: ns, st1.nodes x = none) ∧
      (∀ r, r ≠ this → r ≠ temp → st1.lists r = st.lists r) := by
  obtain ⟨s1, nsT, e1, hT1, hO1, hf1, hsT, ho1, hn1, hgt⟩ :=
    List_ctor_copy_repr fuel hf ht2 hO hfuel2
  have hold : ∀ x ∈ (st.lists this).m_sentinel :: ns, x < st.brk :=
    fun x hx => hf.lt_of_live (hR.live_nodes x hx)
  have holdO : ∀ x ∈ (st.lists other).m_sentinel :: ms, x < st.brk :=
    fun x hx => hf.lt_of_live (hO.live_nodes x hx)
  have hnew : ∀ x ∈ (s1.lists temp).m_sentinel :: nsT, st.brk ≤ x := by
    intro x hx
    rcases List.mem_cons.mp hx with h0 | h0
    · rw [h0, hsT]
    · exact le_of_lt (hgt x h0)
  have hR1 : Repr s1 this ns xs :=
    hR.of_heap_agree (ho1 this (Ne.symm ht1)) (fun x hx => hn1 x (hold x hx))
  have e2 := List_swap_run s1 this temp
  have hl2this : (if this = temp then s1.lists this else if this = this then s1.lists temp
      else s1.lists this) = s1.lists temp := by
    rw [if_neg (Ne.symm ht1), if_pos rfl]
  have hl2temp : (if temp = temp then s1.lists this else if temp = this then s1.lists temp
      else s1.lists temp) = s1.lists this := by
    rw [if_pos rfl]
  have hl2other : (if other = temp then s1.lists this else if other = this then s1.lists temp
      else s1.lists other) = s1.lists other := by
    rw [if_neg (Ne.symm ht2), if_neg (Ne.symm hne)]
  have hT2 : Repr (Mem.mk s1.nodes s1.brk
      (fun r => if r = temp then s1.lists this else if r = this then s1.lists temp
        else s1.lists r)) this nsT ys :=
    hT1.of_obj_eq hl2this (fun _ _ => rfl)
  have hR2 : Repr (Mem.mk s1.nodes s1.brk
      (fun r => if r = temp then s1.lists this else if r = this then s1.lists temp
        else s1.lists r)) temp ns xs :=
    hR1.of_obj_eq hl2temp (fun _ _ => rfl)
  have hO2 : Repr (Mem.mk s1.nodes s1.brk
      (fun r => if r = temp then s1.lists this else if r = this then s1.lists temp
        else s1.lists r)) other ms ys :=
    hO1.of_obj_eq hl2other (fun _ _ => rfl)
  have hf2 : Fresh (Mem.mk s1.nodes s1.brk
      (fun r => if r = temp then s1.lists this else if r = this then s1.lists temp
        else s1.lists r)) := hf1
  obtain ⟨s3, e3, hb3, hl3, ho3, hn3, hfree3⟩ := List_dtor_repr fuel hR2 hfuel1
  have hst : ((Mem.mk s1.nodes s1.brk
      (fun r => if r = temp then s1.lists this else if r = this then s1.lists temp
        else s1.lists r)).lists temp).m_sentinel = (st.lists this).m_sentinel := by
    show (if temp = temp then s1.lists this else if temp = this then s1.lists temp
      else s1.lists temp).m_sentinel = _
    rw [hl2temp, ho1 this (Ne.symm ht1)]
  rw [hst] at hn3 hfree3
  have hT3 : Repr s3 this nsT ys := by
    refine hT2.of_heap_agree (ho3 this (Ne.symm ht1)) (fun x hx => hn3 x (fun hm => ?_))
    have hx1 : x ∈ (s1.lists temp).m_sentinel :: nsT := by
      have : ((Mem.mk s1.nodes s1.brk
        (fun r => if r = temp then s1.lists this else if r = this then s1.lists temp
          else s1.lists r)).lists this) = s1.lists temp := hl2this
      rwa [this] at hx
    exact absurd (hold x hm) (not_lt.mpr (hnew x hx1))
  have hO3 : Repr s3 other ms ys := by
    refine hO2.of_heap_agree (ho3 other (Ne.symm ht2)) (fun x hx => hn3 x (fun hm => ?_))
    have hx1 : x ∈ (st.lists other).m_sentinel :: ms := by
      have : ((Mem.mk s1.nodes s1.brk
        (fun r => if r = temp then s1.lists this else if r = this then s1.lists temp
          else s1.lists r)).lists other) = st.lists other := by
        show (if other = temp then s1.lists this else if other = this then s1.lists temp
          else s1.lists other) = _
        rw [hl2other, ho1 other (Ne.symm ht2)]
      rwa [this] at hx
    exact hdis x hm hx1
  have hthis3 : s3.lists this = s1.lists temp := by
    rw [ho3 this (Ne.symm ht1)]
    exact hl2this
  have hother3 : s3.lists other = st.lists other := by
    rw [ho3 other (Ne.symm ht2)]
    show (if other = temp then s1.lists this else if other = this then s1.lists temp
      else s1.lists other) = _
    rw [hl2other, ho1 other (Ne.symm ht2)]
  refine ⟨s3, nsT, ?_, hT3, hO3, hf2.of_shrink hl3 hb3, ?_, hfree3, ?_⟩
  · simp only [List_assign_copy, if_pos hne, Prog.bind_run, Prog.bind, e1, e2]
    exact e3
  · rw [hthis3, hother3]
    intro x hx hm
    exact absurd (holdO x hm) (not_lt.mpr (hnew x hx))
  · intro r hr1 hr2
    rw [ho3 r hr2]
    show (if r = temp then s1.lists this else if r = this then s1.lists temp
      else s1.lists r) = _
    rw [if_neg hr2, if_neg hr1, ho1 r hr2]

/-- A self copy assignment does nothing. -/
theorem List_assign_copy_same [Inhabited α] (st : Mem α) (fuel : Nat) (this temp : Ref) :
    List_assign_copy fuel this this temp st = .ret () st := by
  simp [List_assign_copy]

/-- The move assignment on distinct objects exchanges the members of the two objects and
touches no node. -/
theorem List_assign_move_run {st : Mem α} {this other : Ref} (hne : this ≠ other) :
    List_assign_move this other st = .ret () (Mem.mk st.nodes st.brk
      (fun r => if r = other then st.lists this else if r = this then st.lists other
        else st.lists r)) := by
  simp only [List_assign_move, if_pos hne]
  exact List_swap_run st this other

/-- A self move assignment does nothing. -/
theorem List_assign_move_same (st : Mem α) (this : Ref) :
    List_assign_move this this st = .ret () st := by
  simp [List_assign_move]

theorem List_eq_run (st : Mem α) (this other : Ref) :
    List_eq this other st = .ret (decide ((st.lists this).m_size = (st.lists other).m_size) &&
      decide ((st.lists this).m_sentinel = (st.lists other).m_sentinel)) st := rfl

theorem List_front_ref_run {st : Mem α} {l : Ref} {a : Ptr} {C : List Ptr} {xs : List α}
    (hR : Repr st l (a :: C) xs) : List_front_ref l st = .ret a st := by
  have hne : (st.lists l).m_size ≠ 0 := by rw [hR.1]; simp
  have hfirst : Linked st.nodes (st.lists l).m_sentinel a := hR.2.1.first
  simp only [List_front_ref, Prog.bind_run, Prog.bind, List_empty_run, hne, decide_False,
    Bool.false_eq_true, if_false, getSentinel_run, getNext_run hfirst.1]

theorem List_back_ref_run {st : Mem α} {l : Ref} {a : Ptr} {A : List Ptr} {xs : List α}
    (hR : Repr st l (A ++ [a]) xs) : List_back_ref l st = .ret a st := by
  have hne : (st.lists l).m_size ≠ 0 := by rw [hR.1]; simp
  have hlast : Linked st.nodes ((A ++ [a]).getLastD (st.lists l).m_sentinel)
      (st.lists l).m_sentinel := hR.2.1.last
  rw [getLastD_snoc] at hlast
  simp only [List_back_ref, Prog.bind_run, Prog.bind, List_empty_run, hne, decide_False,
    Bool.false_eq_true, if_false, getSentinel_run, getPrev_run hlast.2]

/-- On a non-empty list the assertion of `front()` and of `back()` holds. -/
theorem List_front_back_nonempty {st : Mem α} {l : Ref} {ns : List Ptr} {xs : List α}
    (hR : Repr st l ns xs) (hne : xs ≠ []) :
    List_front l st ≠ .raise .assertion st ∧ List_back l st ≠ .raise .assertion st := by
  have hlen := hR.length
  have hpos : 0 < xs.length := List.length_pos.mpr hne
  have hns : ns ≠ [] := by
    intro e
    rw [e] at hlen
    simp at hlen
    omega
  constructor
  · cases ns with
    | nil => exact absurd rfl hns
    | cons a C =>
      cases xs with
      | nil => exact absurd rfl hne
      | cons x rest =>
        rw [List_front_run hR]
        intro h
        cases h
  · obtain ⟨A, a, rfl⟩ : ∃ A a, ns = A ++ [a] :=
      ⟨ns.dropLast, ns.getLast hns, (List.dropLast_append_getLast hns).symm⟩
    obtain ⟨ys, y, rfl⟩ : ∃ ys y, xs = ys ++ [y] :=
      ⟨xs.dropLast, xs.getLast hne, (List.dropLast_append_getLast hne).symm⟩
    rw [List_back_run hR]
    intro h
    cases h

end AssignLemmas

/-! ## Counting the elements a sequence of operations adds or removes -/

section CountLemmas
variable {α : Type}

theorem ListMut.validAll_push [DecidableEq α] :
    ∀ (ops : List (ListMut α)) (xs : List α), (∀ op ∈ ops, op.isPush = true) →
      ListMut.ValidAll xs ops := by
  intro ops
  induction ops with
  | nil => intro _ _; trivial
  | cons op rest ih =>
    intro xs h
    refine ⟨?_, ih _ (fun o ho => h o (List.mem_cons_of_mem _ ho))⟩
    have h1 := h op (List.mem_cons_self _ _)
    cases op with
    | pushFront v => trivial
    | pushBack v => trivial
    | popFront => trivial
    | popBack => trivial
    | insert i v => simp [ListMut.isPush] at h1
    | erase i => simp [ListMut.isPush] at h1
    | eraseRange i j => simp [ListMut.isPush] at h1
    | remove v => trivial
    | clear => trivial
    | reverse => trivial
    | write i v => simp [ListMut.isPush] at h1

theorem ListMut.expectedAll_push [DecidableEq α] :
    ∀ (ops : List (ListMut α)) (xs : List α), (∀ op ∈ ops, op.isPush = true) →
      (ListMut.expectedAll xs ops).length = xs.length + ops.length := by
  intro ops
  induction ops with
  | nil => intro _ _; rfl
  | cons op rest ih =>
    intro xs h
    have h1 := h op (List.mem_cons_self _ _)
    have h2 := ih (op.expected xs) (fun o ho => h o (List.mem_cons_of_mem _ ho))
    have h3 : (op.expected xs).length = xs.length + 1 := by
      cases op with
      | pushFront v => simp [ListMut.expected]
      | pushBack v => simp [ListMut.expected]
      | popFront => simp [ListMut.isPush] at h1
      | popBack => simp [ListMut.isPush] at h1
      | insert i v => simp [ListMut.isPush] at h1
      | erase i => simp [ListMut.isPush] at h1
      | eraseRange i j => simp [ListMut.isPush] at h1
      | remove v => simp [ListMut.isPush] at h1
      | clear => simp [ListMut.isPush] at h1
      | reverse => simp [ListMut.isPush] at h1
      | write i v => simp [ListMut.isPush] at h1
    show (ListMut.expectedAll (op.expected xs) rest).length = _
    rw [h2, h3, List.length_cons]
    omega

theorem ListMut.expected_removal [DecidableEq α] (xs : List α) (op : ListMut α)
    (hr : op.isRemoval = true) (hv : op.Valid xs.length) :
    (op.expected xs).length + op.removed xs.length = xs.length := by
  cases op with
  | popFront =>
    simp only [ListMut.expected, ListMut.removed, List.length_drop]
    split <;> omega
  | popBack =>
    simp only [ListMut.expected, ListMut.removed, List.length_take]
    split <;> omega
  | erase i =>
    have hi : i < xs.length := hv
    simp only [ListMut.expected, ListMut.removed, List.length_append, List.length_take,
      List.length_drop]
    omega
  | eraseRange i j =>
    have hij : i ≤ j ∧ j ≤ xs.length := hv
    simp only [ListMut.expected, ListMut.removed, List.length_append, List.length_take,
      List.length_drop]
    omega
  | pushFront v => simp [ListMut.isRemoval] at hr
  | pushBack v => simp [ListMut.isRemoval] at hr
  | insert i v => simp [ListMut.isRemoval] at hr
  | remove v => simp [ListMut.isRemoval] at hr
  | clear => simp [ListMut.isRemoval] at hr
  | reverse => simp [ListMut.isRemoval] at hr
  | write i v => simp [ListMut.isRemoval] at hr

theorem ListMut.expectedAll_removal [DecidableEq α] :
    ∀ (ops : List (ListMut α)) (xs : List α), (∀ op ∈ ops, op.isRemoval = true) →
      ListMut.ValidAll xs ops →
      (ListMut.expectedAll xs ops).length + ListMut.removedAll xs.length ops = xs.length := by
  intro ops
  induction ops with
  | nil => intro _ _ _; rfl
  | cons op rest ih =>
    intro xs h hv
    have h1 := ListMut.expected_removal xs op (h op (List.mem_cons_self _ _)) hv.1
    have h2 := ih (op.expected xs) (fun o ho => h o (List.mem_cons_of_mem _ ho)) hv.2
    have h3 : (op.expected xs).length = xs.length - op.removed xs.length := by omega
    show (ListMut.expectedAll (op.expected xs) rest).length +
      (op.removed xs.length + ListMut.removedAll (xs.length - op.removed xs.length) rest) = _
    rw [← h3]
    omega

end CountLemmas

/-! ## Vector iterators, iteration and element writes -/

section VecIter
variable {α : Type}

/-- Reading slot `i` of a vector whose elements are `xs`. -/
theorem VRepr.read_at {st : VMem α} {v : Ref} {xs : List α} (hR : VRepr st v xs) {i : Nat}
    (hi : i < xs.length) : readAt (st.vecs v).m_data i st = .ret (xs[i]) st := by
  have hsz := hR.1
  have hle := hR.2.1
  have hdn : (st.vecs v).m_data ≠ none := fun e => by
    have := hR.2.2.1 e
    omega
  obtain ⟨a, ha⟩ := Option.ne_none_iff_exists'.mp hdn
  obtain ⟨f, ⟨blk, hb1, -, hb3⟩, hfx⟩ := hR.buf ha
  have hslot : blk.slot i = some (xs[i]) := by
    rw [hb3, hfx i hi, List.getElem?_eq_getElem hi]
  rw [ha]
  exact readAt_run hb1 hslot

/-- The loop of the forward iteration, started on position `i`. -/
theorem Vector_iterateLoop_run {st : VMem α} {v : Ref} {xs : List α} (hR : VRepr st v xs) :
    ∀ (k i fuel : Nat) (out : List α), i + k = xs.length → k < fuel →
      Vector_iterateLoop v fuel (VIter.mk (st.vecs v).m_data i) out st =
        .ret (out ++ xs.drop i) st := by
  intro k
  induction k with
  | zero =>
    intro i fuel out hi hfuel
    obtain ⟨f, rfl⟩ : ∃ f, fuel = f + 1 := ⟨fuel - 1, by omega⟩
    have hsz : (st.vecs v).m_size = i := by rw [hR.1]; omega
    have hd : xs.drop i = [] := List.drop_eq_nil_of_le (by omega)
    simp only [Vector_iterateLoop, Prog.bind_run, Prog.bind, Vector_end_run, hsz, if_true,
      Prog.pure_run, hd, List.append_nil]
  | succ k ih =>
    intro i fuel out hi hfuel
    obtain ⟨f, rfl⟩ : ∃ f, fuel = f + 1 := ⟨fuel - 1, by omega⟩
    have hlt : i < xs.length := by omega
    have hne : ¬ (VIter.mk (st.vecs v).m_data i = VIter.mk (st.vecs v).m_data
        (st.vecs v).m_size) := by
      intro e
      injection e with _ h2
      rw [hR.1] at h2
      omega
    have hrd := hR.read_at hlt
    have := ih (i + 1) f (out ++ [xs[i]]) (by omega) (by omega)
    simp only [Vector_iterateLoop, Vector_Iterator_deref, Prog.bind_run, Prog.bind,
      Vector_end_run, if_neg hne, hrd]
    show Vector_iterateLoop v f (VIter.mk (st.vecs v).m_data (i + 1)) (out ++ [xs[i]]) st = _
    rw [this, List.append_assoc, List.singleton_append, ← List.drop_eq_getElem_cons hlt]

/-- Iterating from `begin()` to `end()` yields the elements in order. -/
theorem Vector_iterate_run {st : VMem α} {v : Ref} {xs : List α} (fuel : Nat)
    (hR : VRepr st v xs) (hfuel : xs.length < fuel) :
    Vector_iterate fuel v st = .ret xs st := by
  simp only [Vector_iterate, Prog.bind_run, Prog.bind, Vector_begin_run]
  have := Vector_iterateLoop_run hR xs.length 0 fuel [] (by omega) hfuel
  simpa using this

/-- The loop of the reverse iteration, whose base iterator is on position `i`. -/
theorem Vector_riterateLoop_run {st : VMem α} {v : Ref} {xs : List α} (hR : VRepr st v xs) :
    ∀ (i fuel : Nat) (out : List α), i ≤ xs.length → i < fuel →
      Vector_riterateLoop v fuel (VIter.mk (st.vecs v).m_data i) out st =
        .ret (out ++ (xs.take i).reverse) st := by
  intro i
  induction i with
  | zero =>
    intro fuel out _ hfuel
    obtain ⟨f, rfl⟩ : ∃ f, fuel = f + 1 := ⟨fuel - 1, by omega⟩
    simp only [Vector_riterateLoop, Vector_rend, Prog.bind_run, Prog.bind, Vector_begin_run,
      if_true, Prog.pure_run, List.take_zero, List.reverse_nil, List.append_nil]
  | succ i ih =>
    intro fuel out hi hfuel
    obtain ⟨f, rfl⟩ : ∃ f, fuel = f + 1 := ⟨fuel - 1, by omega⟩
    have hlt : i < xs.length := by omega
    have hne : ¬ (VIter.mk (st.vecs v).m_data (i + 1) = VIter.mk (st.vecs v).m_data 0) := by
      intro e
      injection e with _ h2
      omega
    have hdec : Vector_Iterator_dec (VIter.mk (st.vecs v).m_data (i + 1)) st =
        .ret (VIter.mk (st.vecs v).m_data i) st := by
      simp [Vector_Iterator_dec]
    have hrd := hR.read_at hlt
    have := ih f (out ++ [xs[i]]) (by omega) (by omega)
    simp only [Vector_riterateLoop, Vector_rend, Vector_ReverseIterator_deref,
      Vector_ReverseIterator_inc, Vector_Iterator_deref, Prog.bind_run, Prog.bind,
      Vector_begin_run, if_neg hne, hdec, hrd]
    have ht : xs.take (i + 1) = xs.take i ++ [xs[i]] := by
      rw [List.take_succ, List.getElem?_eq_getElem hlt]
      rfl
    rw [this, ht, List.reverse_append, List.reverse_singleton, List.append_assoc]

/-- Iterating from `rbegin()` to `rend()` yields the elements in reverse order. -/
theorem Vector_riterate_run {st : VMem α} {v : Ref} {xs : List α} (fuel : Nat)
    (hR : VRepr st v xs) (hfuel : xs.length < fuel) :
    Vector_riterate fuel v st = .ret xs.reverse st := by
  simp only [Vector_riterate, Vector_rbegin, Prog.bind_run, Prog.bind, Vector_end_run]
  have := Vector_riterateLoop_run hR xs.length fuel [] (le_refl _) hfuel
  rw [hR.1, this]
  simp

/-- Assigning to the object in slot `i` of a buffer. -/
theorem assignAt_buf {st : VMem α} {a : Ptr} {la i : Nat} {f : Nat → Option α} (x : α)
    (hb : BufIs st a la f) (hl : (f i).isSome) :
    ∃ st1, assignAt (some a) i x st = .ret () st1 ∧
      BufIs st1 a la (fun j => if j = i then some x else f j) ∧ SameBut st st1 [a] := by
  obtain ⟨blk, hb1, hb2, hb3⟩ := hb
  obtain ⟨w, hw⟩ := Option.isSome_iff_exists.mp hl
  refine ⟨st.setBuf a (some (blk.set i (some x))),
    assignAt_run x hb1 (by rw [hb3]; exact hw),
    ⟨blk.set i (some x), by simp, by simp [hb2], fun j => by simp only [Block.set_slot, hb3]⟩,
    rfl, rfl, rfl, ?_⟩
  intro y hy
  have : y ≠ a := fun e => hy (by simp [e])
  simp [this]

/-- Effect of the element write `vec[i] = value`. -/
theorem Vector_index_write_spec [ValType α] {st : VMem α} {v : Ref} {xs : List α} (i : Nat)
    (value : α) (hR : VRepr st v xs) (hi : i < xs.length) :
    ∃ st1, Vector_index_write v i value st = .ret () st1 ∧ VRepr st1 v (xs.set i value) ∧
      (VOwns st v xs → VOwns st1 v (xs.set i value)) ∧ (VFresh st → VFresh st1) ∧
      VStep st st1 v ∧ st1.vecs = st.vecs ∧ st1.avail = st.avail := by
  have hsz := hR.1
  have hle := hR.2.1
  have hdn : (st.vecs v).m_data ≠ none := fun e => by
    have := hR.2.2.1 e
    omega
  obtain ⟨a, ha⟩ := Option.ne_none_iff_exists'.mp hdn
  obtain ⟨f, hbuf, hfx⟩ := hR.buf ha
  have hlive : (f i).isSome := by
    rw [hfx i hi]
    simp [hi]
  obtain ⟨s1, e1, hb1, hs1⟩ := assignAt_buf value hbuf hlive
  have hv1 : s1.vecs = st.vecs := hs1.1
  have hslots : ∀ j, j < (xs.set i value).length →
      (fun j => if j = i then some value else f j) j = (xs.set i value)[j]? := by
    intro j hj
    rw [List.length_set] at hj
    show (if j = i then some value else f j) = _
    rw [List.getElem?_set]
    by_cases c : j = i
    · subst c
      simp [hi]
    · have c1 : ¬ i = j := fun e => c e.symm
      rw [if_neg c, if_neg c1, hfx j hj]
  refine ⟨s1, ?_, ?_, ?_, ?_, ?_, hv1, hs1.2.2.1⟩
  · simp only [Vector_index_write, Prog.bind_run, Prog.bind, getVec_run, ha]
    exact e1
  · exact VRepr.of_buf (a := a) (by rw [hv1]; exact ha) (by rw [hv1, List.length_set]; exact hsz)
      (by rw [hv1, List.length_set]; omega) (by rw [hv1]; exact hb1) hslots
  · intro hO
    refine VOwns.of_own_buf (a := a) (by rw [hv1]; exact ha)
      (by rw [hv1, List.length_set]; exact hsz)
      (by rw [hv1, List.length_set]; omega) (by rw [hv1]; exact hb1) hslots ?_
    intro ht j hj
    rw [List.length_set] at hj
    have c : ¬ j = i := by omega
    show (if j = i then some value else f j) = none
    rw [if_neg c]
    exact hO.tail ha hbuf ht j hj
  · intro hf
    exact hf.of_sameBut hbuf hs1
  · exact VStep.in_place ha hs1 rfl rfl (by rw [hv1]; exact ha) (fun _ _ => rfl)

end VecIter

/-! ## Mutating operations on a vector, one by one -/

section VecMutLemmas
variable {α : Type}

theorem VIter.add_mk (p : Option Ptr) (i : Nat) : (VIter.mk p 0).add i = VIter.mk p i := by
  simp [VIter.add]

/-- The buffer of a vector was allocated before. -/
theorem VRepr.buf_lt {st : VMem α} {v : Ref} {xs : List α} {p : Ptr} (hR : VRepr st v xs)
    (hf : VFresh st) (hp : (st.vecs v).m_data = some p) : p < st.brk := by
  obtain ⟨f, hb, -⟩ := hR.buf hp
  exact hb.lt_brk hf

/-- A call on the vector `v` leaves a vector `a` that does not share the buffer of `v` as
it was, and the two vectors still do not share a buffer. -/
theorem VRepr.of_vstep {st st1 : VMem α} {a v : Ref} {xs : List α} (hR : VRepr st a xs)
    (hf : VFresh st) (hne : a ≠ v)
    (hdis : ∀ p, (st.vecs a).m_data = some p → (st.vecs v).m_data ≠ some p)
    (hs : VStep st st1 v) :
    VRepr st1 a xs ∧ st1.vecs a = st.vecs a ∧
      ∀ p, (st1.vecs a).m_data = some p → (st1.vecs v).m_data ≠ some p := by
  obtain ⟨hb, ho, hn, hd⟩ := hs
  have hva := ho a hne
  refine ⟨VRepr.congr_state hva (fun p hp => hn p (fun e => hdis p hp e.symm)
    (hR.buf_lt hf hp)) hR, hva, ?_⟩
  intro p hp
  rw [hva] at hp
  rcases hd with h | h | ⟨q, hq, hle⟩
  · rw [h]; exact hdis p hp
  · rw [h]; exact fun e => Option.noConfusion e
  · rw [hq]
    intro e
    injection e with e
    have := hR.buf_lt hf hp
    rw [e] at hle
    exact absurd this (not_lt.mpr hle)

theorem VecMut.length_expected_le (xs : List α) (op : VecMut α) (hv : op.Valid xs.length) :
    (op.expected xs).length ≤ xs.length + 1 := by
  cases op with
  | pushBack v => simp [VecMut.expected]
  | popBack => simp [VecMut.expected]; omega
  | insert i v => simp [VecMut.expected]; omega
  | erase i => simp [VecMut.expected]; omega
  | eraseRange i j =>
    have hij : i ≤ j ∧ j ≤ xs.length := hv
    simp [VecMut.expected]
    omega
  | clear => simp [VecMut.expected]
  | write i v => simp [VecMut.expected]

/-- Every mutating operation called within its precondition returns, leaves the elements
it has to and stays within its frame, or, when it has to allocate and the allocation
fails, throws `std::bad_alloc` in the state it was called in. -/
theorem VecMut.exec_vstep [ValType α] {st : VMem α} {v : Ref} {xs : List α} (op : VecMut α)
    (fuel : Nat) (hf : VFresh st) (hR : VRepr st v xs) (hv : op.Valid xs.length)
    (hfuel : xs.length < fuel) :
    (∃ st1, op.exec fuel v st = .ret () st1 ∧ VRepr st1 v (op.expected xs) ∧ VFresh st1 ∧
      VStep st st1 v) ∨
    (op.isRemoval = false ∧ op.exec fuel v st = .raise .bad_alloc st) := by
  cases op with
  | pushBack value =>
    by_cases hfull : (st.vecs v).m_size = (st.vecs v).m_capacity ∧
        ¬ (if (st.vecs v).m_capacity = 0 then 1 else (st.vecs v).m_capacity * 2) ≤ st.avail
    · exact Or.inr ⟨rfl, Vector_pushBack_fail value hfull.1 hfull.2⟩
    · obtain ⟨st1, e, hR1, -, hf1, hs1, -⟩ := Vector_pushBack_owns value hf hR
        (fun h => by
          by_contra hc
          exact hfull ⟨h, hc⟩)
      exact Or.inl ⟨st1, e, hR1, hf1, hs1⟩
  | popBack =>
    left
    by_cases hne : xs = []
    · subst hne
      exact ⟨st, Vector_popBack_empty hR.1, hR, hf, VStep.same st v⟩
    · obtain ⟨ys, y, rfl⟩ : ∃ ys y, xs = ys ++ [y] :=
        ⟨xs.dropLast, xs.getLast hne, (List.dropLast_append_getLast hne).symm⟩
      obtain ⟨st1, e, hR1, -, hf1, hs1, -⟩ := Vector_popBack_owns hR
      refine ⟨st1, e, ?_, hf1 hf, hs1⟩
      have : (ys ++ [y]).take ((ys ++ [y]).length - 1) = ys := by simp
      show VRepr st1 v ((ys ++ [y]).take ((ys ++ [y]).length - 1))
      rw [this]
      exact hR1
  | insert i value =>
    have hi : i ≤ xs.length := hv
    by_cases hfull : ¬ (st.vecs v).m_size < (st.vecs v).m_capacity ∧
        ¬ (if (st.vecs v).m_capacity = 0 then 1 else (st.vecs v).m_capacity * 2) ≤ st.avail
    · right
      refine ⟨rfl, ?_⟩
      simp only [VecMut.exec, Prog.bind_run, Prog.bind, Vector_begin_run, VIter.add_mk,
        Vector_insert_fail i value hfull.1 hfull.2]
    · obtain ⟨st1, e, hR1, -, hf1, hs1, -⟩ := Vector_insert_owns i value hf hR hi
        (fun h => by
          by_contra hc
          exact hfull ⟨h, hc⟩)
      left
      refine ⟨st1, ?_, hR1, hf1, hs1⟩
      simp only [VecMut.exec, Prog.bind_run, Prog.bind, Vector_begin_run, VIter.add_mk, e,
        Prog.pure_run]
  | erase i =>
    have hi : i < xs.length := hv
    obtain ⟨st1, e, hR1, -, hf1, hs1, -⟩ := Vector_erase_owns fuel i hR hi (by omega)
    left
    refine ⟨st1, ?_, hR1, hf1 hf, hs1⟩
    simp only [VecMut.exec, Prog.bind_run, Prog.bind, Vector_begin_run, VIter.add_mk, e,
      Prog.pure_run]
  | eraseRange i j =>
    have hij : i ≤ j ∧ j ≤ xs.length := hv
    obtain ⟨st1, e, hR1, -, hf1, hs1, -⟩ :=
      Vector_erase_range_owns fuel i j hR hij.1 hij.2 (by omega)
    left
    refine ⟨st1, ?_, hR1, hf1 hf, hs1⟩
    simp only [VecMut.exec, Prog.bind_run, Prog.bind, Vector_begin_run, VIter.add_mk, e,
      Prog.pure_run]
  | clear =>
    obtain ⟨st1, e, hR1, -, hf1, hs1, -⟩ := Vector_clear_owns hR
    exact Or.inl ⟨st1, e, hR1, hf1 hf, hs1⟩
  | write i value =>
    have hi : i < xs.length := hv
    obtain ⟨st1, e, hR1, -, hf1, hs1, -⟩ := Vector_index_write_spec i value hR hi
    exact Or.inl ⟨st1, e, hR1, hf1 hf, hs1⟩

/-- Every sequence of mutating operations called within their preconditions returns and
leaves the elements it has to, or stops at an operation whose allocation fails; in both
cases the vector is in a valid state and the sequence stayed within its frame. -/
theorem Vector_mutAll_run [ValType α] {v : Ref} (fuel : Nat) :
    ∀ (ops : List (VecMut α)) (st : VMem α) (xs : List α),
      VFresh st → VRepr st v xs → VecMut.ValidAll xs ops → xs.length + ops.length < fuel →
      ∃ st1 ys, VRepr st1 v ys ∧ VFresh st1 ∧ VStep st st1 v ∧
        ((Vector_mutAll fuel v ops st = .ret () st1 ∧ ys = VecMut.expectedAll xs ops) ∨
          ((∃ op ∈ ops, op.isRemoval = false) ∧
            Vector_mutAll fuel v ops st = .raise .bad_alloc st1)) := by
  intro ops
  induction ops with
  | nil =>
    intro st xs hf hR _ _
    exact ⟨st, xs, hR, hf, VStep.same st v, Or.inl ⟨rfl, rfl⟩⟩
  | cons op rest ih =>
    intro st xs hf hR hv hfuel
    simp only [List.length_cons] at hfuel
    rcases op.exec_vstep fuel hf hR hv.1 (by omega) with ⟨s1, e1, hR1, hf1, hs1⟩ | ⟨hr, e1⟩
    · have hle := VecMut.length_expected_le xs op hv.1
      obtain ⟨s2, ys, hR2, hf2, hs2, h2⟩ := ih s1 (op.expected xs) hf1 hR1 hv.2 (by omega)
      refine ⟨s2, ys, hR2, hf2, hs1.comp hs2, ?_⟩
      rcases h2 with ⟨e2, hys⟩ | ⟨⟨o, ho, hor⟩, e2⟩
      · left
        refine ⟨?_, hys⟩
        simp only [Vector_mutAll, Prog.bind_run, Prog.bind, e1]
        exact e2
      · right
        refine ⟨⟨o, List.mem_cons_of_mem _ ho, hor⟩, ?_⟩
        simp only [Vector_mutAll, Prog.bind_run, Prog.bind, e1]
        exact e2
    · refine ⟨st, xs, hR, hf, VStep.same st v, Or.inr ⟨⟨op, List.mem_cons_self _ _, hr⟩, ?_⟩⟩
      simp only [Vector_mutAll, Prog.bind_run, Prog.bind, e1]

theorem VecMut.removal_count (xs : List α) (op : VecMut α)
    (hr : op.isRemoval = true) (hv : op.Valid xs.length) :
    (op.expected xs).length + op.removed xs.length = xs.length := by
  cases op with
  | popBack =>
    simp only [VecMut.expected, VecMut.removed, List.length_take]
    split <;> omega
  | erase i =>
    have hi : i < xs.length := hv
    simp only [VecMut.expected, VecMut.removed, List.length_append, List.length_take,
      List.length_drop]
    omega
  | eraseRange i j =>
    have hij : i ≤ j ∧ j ≤ xs.length := hv
    simp only [VecMut.expected, VecMut.removed, List.length_append, List.length_take,
      List.length_drop]
    omega
  | pushBack v => simp [VecMut.isRemoval] at hr
  | insert i v => simp [VecMut.isRemoval] at hr
  | clear => simp [VecMut.isRemoval] at hr
  | write i v => simp [VecMut.isRemoval] at hr

theorem VecMut.removalAll_count :
    ∀ (ops : List (VecMut α)) (xs : List α), (∀ op ∈ ops, op.isRemoval = true) →
      VecMut.ValidAll xs ops →
      (VecMut.expectedAll xs ops).length + VecMut.removedAll xs.length ops = xs.length := by
  intro ops
  induction ops with
  | nil => intro _ _ _; rfl
  | cons op rest ih =>
    intro xs h hv
    have h1 := VecMut.removal_count xs op (h op (List.mem_cons_self _ _)) hv.1
    have h2 := ih (op.expected xs) (fun o ho => h o (List.mem_cons_of_mem _ ho)) hv.2
    have h3 : (op.expected xs).length = xs.length - op.removed xs.length := by omega
    show (VecMut.expectedAll (op.expected xs) rest).length +
      (op.removed xs.length + VecMut.removedAll (xs.length - op.removed xs.length) rest) = _
    rw [← h3]
    omega

/-- A sequence of pops and erases called within their preconditions returns. -/
theorem Vector_mutAll_removal [ValType α] {st : VMem α} {v : Ref} {xs : List α} (fuel : Nat)
    (ops : List (VecMut α)) (hf : VFresh st) (hR : VRepr st v xs)
    (hr : ∀ op ∈ ops, op.isRemoval = true) (hv : VecMut.ValidAll xs ops)
    (hfuel : xs.length + ops.length < fuel) :
    ∃ st1, Vector_mutAll fuel v ops st = .ret () st1 ∧
      VRepr st1 v (VecMut.expectedAll xs ops) ∧ VFresh st1 ∧ VStep st st1 v := by
  obtain ⟨st1, ys, hR1, hf1, hs1, h⟩ := Vector_mutAll_run fuel ops st xs hf hR hv hfuel
  rcases h with ⟨e, hys⟩ | ⟨⟨o, ho, hor⟩, -⟩
  · exact ⟨st1, e, by rw [← hys]; exact hR1, hf1, hs1⟩
  · rw [hr o ho] at hor
    cases hor

end VecMutLemmas

/-! ## Assignment operators of a vector -/

section VecAssign
variable {α : Type}

/-- Effect of the copy assignment on distinct objects: the target gets a buffer of its own
that holds the elements of the source, its former buffer is released, and the source is
left as it was. -/
theorem Vector_assign_copy_spec [ValType α] {st : VMem α} {this other temp : Ref}
    {xs ys : List α} (hne : this ≠ other) (ht1 : temp ≠ this) (ht2 : temp ≠ other)
    (hf : VFresh st) (hR : VRepr st this xs) (hO : VRepr st other ys)
    (hdis : ∀ p, (st.vecs this).m_data = some p → (st.vecs other).m_data ≠ some p)
    (hav : (st.vecs other).m_capacity ≤ st.avail) :
    ∃ st1, Vector_assign_copy this other temp st = .ret () st1 ∧ VRepr st1 this ys ∧
      VRepr st1 other ys ∧ VFresh st1 ∧ st1.vecs other = st.vecs other ∧
      (st1.vecs this).m_capacity = (st.vecs other).m_capacity ∧
      (∀ p, (st1.vecs this).m_data = some p → (st1.vecs other).m_data ≠ some p) ∧
      (∀ p, (st.vecs this).m_data = some p → st1.bufs p = none) := by
  obtain ⟨s1, e1, hT1, hf1, hN1, -, hcap1, -⟩ := Vector_ctor_copy_owns ht2 hf hO hav
  obtain ⟨hbrk1, ho1, hn1, hd1⟩ := hN1
  obtain ⟨s2, e2, hbufs2, hbrk2, -, hthis2, htemp2, ho2⟩ := Vector_swap_spec s1 this temp
  have hvt : s2.vecs temp = st.vecs this := by rw [htemp2, ho1 this (Ne.symm ht1)]
  have hR2 : VRepr s2 temp xs :=
    VRepr.congr_state hvt (fun p hp => by rw [hbufs2]; exact hn1 p (hR.buf_lt hf hp)) hR
  have hf2 : VFresh s2 := hf1.of_bufs hbrk2 hbufs2
  obtain ⟨s3, e3, -, ho3, hn3, hfree3, hff3, -⟩ := Vector_dtor_spec hR2
  rw [hvt] at hn3 hfree3
  have hnewge : ∀ p, (s1.vecs temp).m_data = some p → st.brk ≤ p := by
    intro p hp
    rcases hd1 with h | ⟨q, hq, hle⟩
    · rw [h] at hp; exact Option.noConfusion hp
    · rw [hq] at hp
      injection hp with hp
      rw [← hp]; exact hle
  have hv3this : s3.vecs this = s1.vecs temp := by rw [ho3 this (Ne.symm ht1), hthis2]
  have hv3other : s3.vecs other = st.vecs other := by
    rw [ho3 other (Ne.symm ht2), ho2 other (Ne.symm hne) (Ne.symm ht2),
      ho1 other (Ne.symm ht2)]
  have hR3 : VRepr s3 this ys := by
    refine VRepr.congr_state hv3this (fun p hp => ?_) hT1.1
    rw [hn3 p (fun e => ?_), hbufs2]
    have hlt := hR.buf_lt hf e.symm
    exact absurd hlt (not_lt.mpr (hnewge p hp))
  have hO3 : VRepr s3 other ys := by
    refine VRepr.congr_state hv3other (fun p hp => ?_) hO
    rw [hn3 p (fun e => hdis p e.symm hp), hbufs2]
    exact hn1 p (hO.buf_lt hf hp)
  refine ⟨s3, Vector_assign_copy_run hne e1 e2 e3, hR3, hO3, hff3 hf2, hv3other, ?_, ?_,
    hfree3⟩
  · rw [hv3this]; exact hcap1
  · intro p hp
    rw [hv3this] at hp
    rw [hv3other]
    intro e
    have hlt := hO.buf_lt hf e
    exact absurd hlt (not_lt.mpr (hnewge p hp))

/-- Effect of the move assignment on distinct objects: the former elements and buffer of
the target are released, the target takes over the buffer, the size and the capacity of
the source, and the source is left empty with a null buffer. -/
theorem Vector_assign_move_owns [ValType α] {st : VMem α} {this other : Ref}
    {xs ys : List α} (hne : this ≠ other) (hR : VRepr st this xs) (hO : VRepr st other ys)
    (hdis : ∀ p, (st.vecs this).m_data = some p → (st.vecs other).m_data ≠ some p) :
    ∃ st1, Vector_assign_move this other st = .ret () st1 ∧ VRepr st1 this ys ∧
      st1.vecs this = st.vecs other ∧ st1.vecs other = VecObj.mk none 0 0 ∧
      VRepr st1 other [] ∧
      (∀ p, (st.vecs this).m_data = some p → st1.bufs p = none) ∧
      (∀ x, some x ≠ (st.vecs this).m_data → st1.bufs x = st.bufs x) ∧
      (∀ r, r ≠ this → r ≠ other → st1.vecs r = st.vecs r) ∧ (VFresh st → VFresh st1) := by
  obtain ⟨s1, e1, hbrk1, ho1, hn1, hfree1, hff1, -⟩ := Vector_dtor_spec hR
  obtain ⟨st1, e, hbufs, hbrk, -, hthis, hother, ho⟩ := Vector_assign_move_spec other hne e1
  have hvthis : st1.vecs this = st.vecs other := by rw [hthis, ho1 other (Ne.symm hne)]
  refine ⟨st1, e, ?_, hvthis, hother, ?_, ?_, ?_, ?_, ?_⟩
  · refine VRepr.congr_state hvthis (fun p hp => ?_) hO
    rw [hbufs]
    exact hn1 p (fun e0 => hdis p e0.symm hp)
  · exact (VOwns.of_null (by rw [hother]) (by rw [hother]) (by rw [hother])).1
  · intro p hp
    rw [hbufs]
    exact hfree1 p hp
  · intro x hx
    rw [hbufs]
    exact hn1 x hx
  · intro r hr1 hr2
    rw [ho r hr1 hr2, ho1 r hr1]
  · intro hf
    exact (hff1 hf).of_bufs hbrk hbufs

end VecAssign

/-! ## Two containers that share no storage -/

section FrameLemmas
variable {α : Type}

/-- Operations on the list `b` leave a list `a` that shares no node with `b` as it was. -/
theorem List_mutAll_frame [DecidableEq α] {st : Mem α} {a b : Ref} {ns ms : List Ptr}
    {xs ys : List α} (fuel : Nat) (ops : List (ListMut α)) (hf : Fresh st) (hne : a ≠ b)
    (hA : Repr st a ns xs) (hB : Repr st b ms ys)
    (hdis : ∀ x ∈ (st.lists a).m_sentinel :: ns, x ∉ (st.lists b).m_sentinel :: ms)
    (hv : ListMut.ValidAll ys ops) (hfuel : ys.length + ops.length + 1 < fuel) :
    ∃ st1 ms1, List_mutAll fuel b ops st = .ret () st1 ∧
      Repr st1 b ms1 (ListMut.expectedAll ys ops) ∧ Repr st1 a ns xs ∧ Fresh st1 ∧
      ∀ x ∈ (st1.lists a).m_sentinel :: ns, x ∉ (st1.lists b).m_sentinel :: ms1 := by
  obtain ⟨st1, ms1, e, hB1, hf1, hs⟩ := List_mutAll_run fuel ops st ms ys hf hB hv hfuel
  obtain ⟨hA1, hd1⟩ := hA.of_step hf hne hdis hs
  exact ⟨st1, ms1, e, hB1, hA1, hf1, hd1⟩

/-- The copy constructor builds a list that shares no node with its source. -/
theorem List_ctor_copy_apart [Inhabited α] {st : Mem α} {this other : Ref} {ms : List Ptr}
    {ys : List α} (fuel : Nat) (hf : Fresh st) (hne : this ≠ other)
    (hR : Repr st other ms ys) (hfuel : ms.length < fuel) :
    ∃ st1 ns1, List_ctor_copy fuel this other st = .ret () st1 ∧
      Repr st1 this ns1 ys ∧ Repr st1 other ms ys ∧ Fresh st1 ∧
      (∀ x ∈ (st1.lists other).m_sentinel :: ms, x ∉ (st1.lists this).m_sentinel :: ns1) ∧
      (∀ r, r ≠ this → st1.lists r = st.lists r) ∧
      (∀ x, x < st.brk → st1.nodes x = st.nodes x) := by
  obtain ⟨st1, ns1, e, hT, hO, hf1, hs, ho, hn, hgt⟩ := List_ctor_copy_repr fuel hf hne hR hfuel
  refine ⟨st1, ns1, e, hT, hO, hf1, ?_, ho, hn⟩
  rw [ho other (Ne.symm hne), hs]
  intro x hx hm
  have hlt : x < st.brk := hf.lt_of_live (hR.live_nodes x hx)
  rcases List.mem_cons.mp hm with h0 | h0
  · rw [h0] at hlt; exact lt_irrefl _ hlt
  · exact absurd hlt (not_lt.mpr (le_of_lt (hgt x h0)))

/-- Operations on the vector `b` leave a vector `a` that does not share the buffer of `b`
as it was, whether they all return or one of them fails to allocate. -/
theorem Vector_mutAll_frame [ValType α] {st : VMem α} {a b : Ref} {xs ys : List α}
    (fuel : Nat) (ops : List (VecMut α)) (hf : VFresh st) (hne : a ≠ b)
    (hA : VRepr st a xs) (hB : VRepr st b ys)
    (hdis : ∀ p, (st.vecs a).m_data = some p → (st.vecs b).m_data ≠ some p)
    (hv : VecMut.ValidAll ys ops) (hfuel : ys.length + ops.length < fuel) :
    ∃ st1 ws, VRepr st1 b ws ∧ VRepr st1 a xs ∧ st1.vecs a = st.vecs a ∧ VFresh st1 ∧
      ((Vector_mutAll fuel b ops st = .ret () st1 ∧ ws = VecMut.expectedAll ys ops) ∨
        ((∃ op ∈ ops, op.isRemoval = false) ∧
          Vector_mutAll fuel b ops st = .raise .bad_alloc st1)) := by
  obtain ⟨st1, ws, hB1, hf1, hs, h⟩ := Vector_mutAll_run fuel ops st ys hf hB hv hfuel
  obtain ⟨hA1, hva, -⟩ := hA.of_vstep hf hne hdis hs
  exact ⟨st1, ws, hB1, hA1, hva, hf1, h⟩

/-- The copy constructor builds a vector that does not share the buffer of its source. -/
theorem Vector_ctor_copy_apart [ValType α] {st : VMem α} {this other : Ref} {ys : List α}
    (hne : this ≠ other) (hf : VFresh st) (hR : VRepr st other ys)
    (hav : (st.vecs other).m_capacity ≤ st.avail) :
    ∃ st1, Vector_ctor_copy this other st = .ret () st1 ∧ VRepr st1 this ys ∧
      VRepr st1 other ys ∧ VFresh st1 ∧ st1.vecs other = st.vecs other ∧
      (st1.vecs this).m_capacity = (st.vecs other).m_capacity ∧
      (∀ p, (st1.vecs other).m_data = some p → (st1.vecs this).m_data ≠ some p) := by
  obtain ⟨st1, e, hT, hf1, hN, -, hcap, -⟩ := Vector_ctor_copy_owns hne hf hR hav
  obtain ⟨-, ho, hn, hd⟩ := hN
  have hvo := ho other (Ne.symm hne)
  refine ⟨st1, e, hT.1, VRepr.congr_state hvo (fun p hp => hn p (hR.buf_lt hf hp)) hR, hf1,
    hvo, hcap, ?_⟩
  intro p hp
  rw [hvo] at hp
  have hlt := hR.buf_lt hf hp
  rcases hd with h | ⟨q, hq, hle⟩
  · rw [h]; exact fun e0 => Option.noConfusion e0
  · rw [hq]
    intro e0
    injection e0 with e0
    rw [e0] at hle
    exact absurd hlt (not_lt.mpr hle)

/-- Erasing an empty range of a vector does nothing and returns the iterator. -/
theorem Vector_erase_range_empty [ValType α] (st : VMem α) (v : Ref) (fuel i : Nat) :
    Vector_erase_range fuel v (VIter.mk (st.vecs v).m_data i) (VIter.mk (st.vecs v).m_data i)
      st = .ret (VIter.mk (st.vecs v).m_data i) st := by
  have hcnt : ((i : Int) - (i : Int) ≤ 0) := by omega
  simp only [Vector_erase_range, Prog.bind_run, Prog.bind, Vector_begin_run,
    vdistance_run, toNat_sub_zero, int_sub_toNat, Nat.sub_zero, hcnt, if_true, VIter.add,
    Nat.zero_add, Prog.pure_run]

theorem Vector_empty_run (st : VMem α) (v : Ref) :
    Vector_empty v st = .ret (decide ((st.vecs v).m_size = 0)) st := by
  simp [Vector_empty, Prog.bind]

end FrameLemmas

/-! ## Facts about the example states -/

section ExampleLemmas3

theorem exNil_repr : Repr exNil 0 [] [] := by
  refine ⟨rfl, ⟨by decide, ?_⟩, by decide⟩
  show List.Chain' (Linked exNil.nodes) [0, 0]
  simp only [List.chain'_cons, List.chain'_singleton, and_true]
  decide

theorem exNil_fresh : Fresh exNil := by
  intro a ha
  have h1 : 1 ≤ a := ha
  have hne : ¬ (a = 0) := fun e => by
    rw [e] at h1
    exact absurd h1 (by decide)
  show (if a = 0 then _ else none) = none
  rw [if_neg hne]

theorem exPair_repr0 : Repr exPair 0 [1, 2] [10, 20] := by
  refine ⟨rfl, ⟨by decide, ?_⟩, by decide⟩
  show List.Chain' (Linked exPair.nodes) [0, 1, 2, 0]
  simp only [List.chain'_cons, List.chain'_singleton, and_true]
  decide

theorem exPair_repr1 : Repr exPair 1 [4, 5] [10, 20] := by
  refine ⟨rfl, ⟨by decide, ?_⟩, by decide⟩
  show List.Chain' (Linked exPair.nodes) [3, 4, 5, 3]
  simp only [List.chain'_cons, List.chain'_singleton, and_true]
  decide

theorem exPair_apart : ∀ x ∈ (exPair.lists 0).m_sentinel :: [1, 2],
    x ∉ (exPair.lists 1).m_sentinel :: [4, 5] := by decide

theorem exMem_apart : ∀ x ∈ (exMem.lists 1).m_sentinel :: [5, 6],
    x ∉ (exMem.lists 0).m_sentinel :: [1, 2, 3] := by decide

theorem exTwo_repr0 : VRepr exTwo 0 [10, 20, 30] := by decide

theorem exTwo_repr1 : VRepr exTwo 1 [40, 50] := by decide

theorem exTwo_fresh : VFresh exTwo := by
  intro a ha
  have h2 : 2 ≤ a := ha
  have hne0 : ¬ (a = 0) := fun e => by
    rw [e] at h2
    exact absurd h2 (by decide)
  have hne1 : ¬ (a = 1) := fun e => by
    rw [e] at h2
    exact absurd h2 (by decide)
  show (if a = 0 then _ else if a = 1 then _ else none) = none
  rw [if_neg hne0, if_neg hne1]

theorem exTwo_apart : ∀ p, (exTwo.vecs 0).m_data = some p → (exTwo.vecs 1).m_data ≠ some p := by
  intro p hp e
  have h0 : (some 0 : Option Ptr) = some p := hp
  have h1 : (some 1 : Option Ptr) = some p := e
  rw [← h0] at h1
  exact absurd h1 (by decide)

theorem exTwo_apart_rev :
    ∀ p, (exTwo.vecs 1).m_data = some p → (exTwo.vecs 0).m_data ≠ some p :=
  fun p hp e => exTwo_apart p e hp

end ExampleLemmas3

section Claims3
variable {α : Type}

/-- C21: on an empty container (`empty()` returns true), `List` `popFront()`, `List`
`popBack()` and `Vector` `popBack()` return normally in the very state they were called
in: nothing is thrown, `size()` is still `0`, and the ring of the list, the buffer and the
capacity of the vector are what they were. -/
theorem C21_pop_empty [ValType α] (st : Mem α) (l : Ref) (vst : VMem α) (v : Ref)
    (hl : List_empty l st = .ret true st) (hv : Vector_empty v vst = .ret true vst) :
    List_popFront l st = .ret () st ∧ List_popBack l st = .ret () st ∧
    List_size l st = .ret 0 st ∧
    Vector_popBack v vst = .ret () vst ∧ Vector_size v vst = .ret 0 vst := by
  have hz : (st.lists l).m_size = 0 := by
    rw [List_empty_run] at hl
    injection hl with h1 _
    exact of_decide_eq_true h1
  have hvz : (vst.vecs v).m_size = 0 := by
    rw [Vector_empty_run] at hv
    injection hv with h1 _
    exact of_decide_eq_true h1
  refine ⟨(List_pop_empty hz).1, (List_pop_empty hz).2, ?_, Vector_popBack_empty hvz, ?_⟩
  · show getSize l st = _
    rw [getSize_run, hz]
  · rw [Vector_size_run, hvz]

/-- Instance of C21: the pops on the empty example list and on the empty example vector. -/
theorem C21_pop_empty_witness :
    List_popFront 0 exNil = .ret () exNil ∧ List_popBack 0 exNil = .ret () exNil ∧
    List_size 0 exNil = .ret 0 exNil ∧
    Vector_popBack 0 exNew = .ret () exNew ∧ Vector_size 0 exNew = .ret 0 exNew :=
  C21_pop_empty exNil 0 exNew 0 rfl rfl

/-- C22: `erase(it, it)` returns an iterator equal to `it` in the very state it was
called in, so that the elements, the size and the capacity are unchanged: for a `List` and
every iterator `it` whatsoever, among them `end()` and `begin()` (which is `end()` on an
empty list), and for a `Vector` and every iterator `begin() + i` into its buffer, among
them `begin()` and `end()` (also of an empty vector, whose buffer is null). -/
theorem C22_erase_empty_range [ValType α] (st : Mem α) (l : Ref) (it : Ptr) (fuel : Nat)
    (vst : VMem α) (v : Ref) (i : Nat) :
    List_erase_range fuel l it it st = .ret it st ∧
    (∃ e, List_end l st = .ret e st ∧ List_erase_range fuel l e e st = .ret e st) ∧
    Vector_erase_range fuel v (VIter.mk (vst.vecs v).m_data i) (VIter.mk (vst.vecs v).m_data i)
      vst = .ret (VIter.mk (vst.vecs v).m_data i) vst ∧
    (∃ b, Vector_begin v vst = .ret b vst ∧ Vector_erase_range fuel v b b vst = .ret b vst) ∧
    (∃ e, Vector_end v vst = .ret e vst ∧ Vector_erase_range fuel v e e vst = .ret e vst) :=
  ⟨List_erase_range_empty st l fuel it,
    ⟨_, List_end_run st l, List_erase_range_empty st l fuel _⟩,
    Vector_erase_range_empty vst v fuel i,
    ⟨_, Vector_begin_run vst v, Vector_erase_range_empty vst v fuel 0⟩,
    ⟨_, Vector_end_run vst v, Vector_erase_range_empty vst v fuel _⟩⟩

/-- C23: for every literal list `list`, a `List` constructed from it has `size() ==
|list|`, a `Vector` constructed from it (the allocator being able to hand out `|list|`
slots) has `size() == |list|` and `capacity() == |list|`, and for both the iteration from
`begin()` to `end()` yields the elements of `list` in order and the iteration from
`rbegin()` to `rend()` yields the reverse of `list`. -/
theorem C23_literal_roundtrip [Inhabited α] [ValType α] (st : Mem α) (l : Ref)
    (vst : VMem α) (v : Ref) (list : List α) (fuel : Nat) (hf : Fresh st) (hvf : VFresh vst)
    (hav : list.length ≤ vst.avail) (hfuel : list.length < fuel) :
    (∃ st1, List_ctor_init l list st = .ret () st1 ∧ List_size l st1 = .ret list.length st1 ∧
      List_iterate fuel l st1 = .ret list st1 ∧
      List_riterate fuel l st1 = .ret list.reverse st1) ∧
    (∃ vst1, Vector_ctor_init v list vst = .ret () vst1 ∧
      Vector_size v vst1 = .ret list.length vst1 ∧
      Vector_capacity v vst1 = .ret list.length vst1 ∧
      Vector_iterate fuel v vst1 = .ret list vst1 ∧
      Vector_riterate fuel v vst1 = .ret list.reverse vst1) := by
  constructor
  · obtain ⟨st1, ns1, e, hR, -⟩ := List_ctor_init_repr l list hf
    exact ⟨st1, e, hR.size_run, List_iterate_run fuel hR hfuel, List_riterate_run fuel hR hfuel⟩
  · obtain ⟨vst1, e, hO, -, -, hsz, hcap, -⟩ := Vector_ctor_init_owns v list hvf hav
    exact ⟨vst1, e, by rw [Vector_size_run, hsz], by rw [Vector_capacity_run, hcap],
      Vector_iterate_run fuel hO.1 hfuel, Vector_riterate_run fuel hO.1 hfuel⟩

/-- Instance of C23: a list and a vector constructed from `{1, 2, 3}` in the example
memories. -/
theorem C23_literal_roundtrip_witness :
    (∃ st1, List_ctor_init 2 [1, 2, 3] exMem = .ret () st1 ∧
      List_size 2 st1 = .ret [1, 2, 3].length st1 ∧
      List_iterate 4 2 st1 = .ret [1, 2, 3] st1 ∧
      List_riterate 4 2 st1 = .ret [1, 2, 3].reverse st1) ∧
    (∃ vst1, Vector_ctor_init 0 [1, 2, 3] exNew = .ret () vst1 ∧
      Vector_size 0 vst1 = .ret [1, 2, 3].length vst1 ∧
      Vector_capacity 0 vst1 = .ret [1, 2, 3].length vst1 ∧
      Vector_iterate 4 0 vst1 = .ret [1, 2, 3] vst1 ∧
      Vector_riterate 4 0 vst1 = .ret [1, 2, 3].reverse vst1) :=
  C23_literal_roundtrip exMem 2 exNew 0 [1, 2, 3] 4 exMem_fresh exNew_fresh (by decide)
    (by decide)

/-- C24: starting from a default-constructed container, a sequence of `N` push operations
(`pushFront`/`pushBack` on a `List`; `pushBack` on a `Vector`, the allocator being able to
hand out `3 * N` slots) returns and leaves `size() == N`; every later sequence of pops and
erases called within their preconditions returns and leaves `size()` smaller by exactly
the number of elements removed, where `erase(pos)` removes one element, `erase(first,
last)` the elements of its range, and a pop one element unless the container is empty, in
which case the size stays `0`. The elements left are those the operations have to leave. -/
theorem C24_size_counts [DecidableEq α] [Inhabited α] [ValType α] (st : Mem α) (l : Ref)
    (pushes removals : List (ListMut α)) (vst : VMem α) (v : Ref) (values : List α)
    (vremovals : List (VecMut α)) (fuel : Nat)
    (hf : Fresh st) (hp : ∀ op ∈ pushes, op.isPush = true)
    (hr : ∀ op ∈ removals, op.isRemoval = true)
    (hv : ListMut.ValidAll (ListMut.expectedAll [] pushes) removals)
    (hfuel : pushes.length + removals.length + 1 < fuel)
    (hvf : VFresh vst) (hav : 3 * values.length ≤ vst.avail)
    (hvr : ∀ op ∈ vremovals, op.isRemoval = true)
    (hvv : VecMut.ValidAll values vremovals)
    (hvfuel : values.length + vremovals.length < fuel) :
    (∃ st0 st1 st2 ns2, List_ctor l st = .ret () st0 ∧
      List_mutAll fuel l pushes st0 = .ret () st1 ∧
      List_size l st1 = .ret pushes.length st1 ∧
      List_mutAll fuel l removals st1 = .ret () st2 ∧
      ListMut.removedAll pushes.length removals ≤ pushes.length ∧
      List_size l st2 =
        .ret (pushes.length - ListMut.removedAll pushes.length removals) st2 ∧
      Repr st2 l ns2 (ListMut.expectedAll (ListMut.expectedAll [] pushes) removals)) ∧
    (∃ vst0 vst1 vst2, Vector_ctor v vst = .ret () vst0 ∧
      Vector_pushBackAll v values vst0 = .ret () vst1 ∧
      Vector_size v vst1 = .ret values.length vst1 ∧
      Vector_mutAll fuel v vremovals vst1 = .ret () vst2 ∧
      VecMut.removedAll values.length vremovals ≤ values.length ∧
      Vector_size v vst2 =
        .ret (values.length - VecMut.removedAll values.length vremovals) vst2 ∧
      VRepr vst2 v (VecMut.expectedAll values vremovals)) := by
  constructor
  · obtain ⟨st0, e0, hR0, hf0, -⟩ := List_ctor_repr l hf
    obtain ⟨st1, ns1, e1, hR1, hf1, -⟩ := List_mutAll_run fuel pushes st0 [] [] hf0 hR0
      (ListMut.validAll_push pushes [] hp) (by simp only [List.length_nil]; omega)
    have hlen1 : (ListMut.expectedAll [] pushes).length = pushes.length := by
      rw [ListMut.expectedAll_push pushes [] hp]
      simp
    obtain ⟨st2, ns2, e2, hR2, -⟩ := List_mutAll_run fuel removals st1 ns1 _ hf1 hR1 hv
      (by rw [hlen1]; exact hfuel)
    have hcnt := ListMut.expectedAll_removal removals _ hr hv
    rw [hlen1] at hcnt
    refine ⟨st0, st1, st2, ns2, e0, e1, ?_, e2, by omega, ?_, hR2⟩
    · rw [hR1.size_run, hlen1]
    · rw [hR2.size_run]
      congr 1
      omega
  · obtain ⟨vst0, e0, hO0, hf0, -, hv0, hav0, -⟩ := Vector_ctor_owns vst v hvf
    obtain ⟨vst1, e1, hR1, hf1, -⟩ := Vector_pushBackAll_spec v values vst0 [] hf0 hO0.1
      (Or.inl ⟨rfl, by rw [hv0]⟩)
      (by
        rw [hav0, hv0]
        show 3 * (0 + values.length) ≤ vst.avail + 0
        omega)
    rw [List.nil_append] at hR1
    obtain ⟨vst2, e2, hR2, -⟩ := Vector_mutAll_removal fuel vremovals hf1 hR1 hvr hvv hvfuel
    have hcnt := VecMut.removalAll_count vremovals values hvr hvv
    refine ⟨vst0, vst1, vst2, e0, e1, ?_, e2, by omega, ?_, hR2⟩
    · rw [Vector_size_run, hR1.1]
    · rw [Vector_size_run, hR2.1]
      congr 1
      omega

/-- Instance of C24: three pushes on a default-constructed list and vector, followed by
a pop, an erase and two more pops, the last of them on the empty container. -/
theorem C24_size_counts_witness :
    (∃ st0 st1 st2 ns2, List_ctor 0 exNil = .ret () st0 ∧
      List_mutAll 9 0 [ListMut.pushBack 1, ListMut.pushFront 2, ListMut.pushBack 3] st0 =
        .ret () st1 ∧
      List_size 0 st1 =
        .ret [ListMut.pushBack 1, ListMut.pushFront 2, ListMut.pushBack 3].length st1 ∧
      List_mutAll 9 0 [ListMut.popFront, ListMut.erase 0, ListMut.popBack, ListMut.popBack]
        st1 = .ret () st2 ∧
      ListMut.removedAll [ListMut.pushBack 1, ListMut.pushFront 2, ListMut.pushBack 3].length
          [(ListMut.popFront : ListMut Nat), ListMut.erase 0, ListMut.popBack,
            ListMut.popBack] ≤
        [ListMut.pushBack 1, ListMut.pushFront 2, ListMut.pushBack 3].length ∧
      List_size 0 st2 =
        .ret ([ListMut.pushBack 1, ListMut.pushFront 2, ListMut.pushBack 3].length -
          ListMut.removedAll
            [ListMut.pushBack 1, ListMut.pushFront 2, ListMut.pushBack 3].length
            [(ListMut.popFront : ListMut Nat), ListMut.erase 0, ListMut.popBack,
              ListMut.popBack]) st2 ∧
      Repr st2 0 ns2 (ListMut.expectedAll
        (ListMut.expectedAll [] [ListMut.pushBack 1, ListMut.pushFront 2, ListMut.pushBack 3])
        [ListMut.popFront, ListMut.erase 0, ListMut.popBack, ListMut.popBack])) ∧
    (∃ vst0 vst1 vst2, Vector_ctor 0 exNew = .ret () vst0 ∧
      Vector_pushBackAll 0 [1, 2, 3] vst0 = .ret () vst1 ∧
      Vector_size 0 vst1 = .ret [1, 2, 3].length vst1 ∧
      Vector_mutAll 9 0 [VecMut.popBack, VecMut.erase 0, VecMut.popBack, VecMut.popBack]
        vst1 = .ret () vst2 ∧
      VecMut.removedAll [1, 2, 3].length
          [(VecMut.popBack : VecMut Nat), VecMut.erase 0, VecMut.popBack, VecMut.popBack] ≤
        [1, 2, 3].length ∧
      Vector_size 0 vst2 =
        .ret ([1, 2, 3].length - VecMut.removedAll [1, 2, 3].length
          [(VecMut.popBack : VecMut Nat), VecMut.erase 0, VecMut.popBack, VecMut.popBack])
          vst2 ∧
      VRepr vst2 0 (VecMut.expectedAll [1, 2, 3]
        [VecMut.popBack, VecMut.erase 0, VecMut.popBack, VecMut.popBack])) :=
  C24_size_counts exNil 0 [ListMut.pushBack 1, ListMut.pushFront 2, ListMut.pushBack 3]
    [ListMut.popFront, ListMut.erase 0, ListMut.popBack, ListMut.popBack] exNew 0 [1, 2, 3]
    [VecMut.popBack, VecMut.erase 0, VecMut.popBack, VecMut.popBack] 9 exNil_fresh
    (by decide) (by decide)
    ⟨trivial, (by decide : 0 < 2), trivial, trivial, trivial⟩
    (by decide) exNew_fresh (by decide) (by decide)
    ⟨trivial, (by decide : 0 < 2), trivial, trivial, trivial⟩
    (by decide)

/-- C26: for a `List` `a` and a `Vector` `va` with contents `xs` and `ys`, after the move
construction `b = std::move(a)` the new container holds the same nodes or buffer with the
contents of the source and its size (for the vector also its capacity), and the source is
empty: the list has size `0` and a sentinel that was allocated by the constructor and is
linked to itself, the vector has size `0`, capacity `0` and a null buffer. The source
still supports the operations: `pushBack(value)` on it returns (for the vector, the
allocator being able to hand out one slot) and leaves it the contents `[value]`, every
sequence of mutating operations on it behaves as on an empty container, and both leave the
new container unchanged. -/
theorem C26_move_construction [DecidableEq α] [Inhabited α] [ValType α] (st : Mem α)
    (a b : Ref) (ns : List Ptr) (xs : List α) (value : α) (ops : List (ListMut α))
    (vst : VMem α) (va vb : Ref) (ys : List α) (vops : List (VecMut α)) (fuel : Nat)
    (hf : Fresh st) (hba : b ≠ a) (hA : Repr st a ns xs) (hv : ListMut.ValidAll [] ops)
    (hfuel : ops.length + 1 < fuel) (hvf : VFresh vst) (hvba : vb ≠ va)
    (hVA : VRepr vst va ys) (hav : 1 ≤ vst.avail) (hvv : VecMut.ValidAll [] vops)
    (hvfuel : vops.length < fuel) :
    (∃ st1, List_ctor_move b a st = .ret () st1 ∧ Repr st1 b ns xs ∧
      List_size b st1 = .ret xs.length st1 ∧ Repr st1 a [] [] ∧
      List_size a st1 = .ret 0 st1 ∧ (st1.lists a).m_sentinel = st.brk ∧
      st.nodes st.brk = none ∧ Linked st1.nodes st.brk st.brk ∧
      (∃ st2 as2, List_pushBack a value st1 = .ret () st2 ∧ Repr st2 a as2 [value] ∧
        Repr st2 b ns xs) ∧
      (∃ st2 as2, List_mutAll fuel a ops st1 = .ret () st2 ∧
        Repr st2 a as2 (ListMut.expectedAll [] ops) ∧ Repr st2 b ns xs)) ∧
    (∃ vst1, Vector_ctor_move vb va vst = .ret () vst1 ∧ VRepr vst1 vb ys ∧
      Vector_size vb vst1 = .ret ys.length vst1 ∧ vst1.vecs vb = vst.vecs va ∧
      Vector_size va vst1 = .ret 0 vst1 ∧ Vector_capacity va vst1 = .ret 0 vst1 ∧
      Vector_data va vst1 = .ret none vst1 ∧
      (∃ vst2, Vector_pushBack va value vst1 = .ret () vst2 ∧ VRepr vst2 va [value] ∧
        VRepr vst2 vb ys) ∧
      (∃ vst2 us, VRepr vst2 va us ∧ VRepr vst2 vb ys ∧
        ((Vector_mutAll fuel va vops vst1 = .ret () vst2 ∧ us = VecMut.expectedAll [] vops) ∨
          Vector_mutAll fuel va vops vst1 = .raise .bad_alloc vst2))) := by
  constructor
  · obtain ⟨st1, e, hB1, hA1, hf1, hsb, hsa, -⟩ := List_ctor_move_repr hf hba hA
    have hdis : ∀ x ∈ (st1.lists b).m_sentinel :: ns, x ∉ (st1.lists a).m_sentinel :: [] := by
      rw [hsb, hsa]
      intro x hx hm
      have hlt : x < st.brk := hf.lt_of_live (hA.live_nodes x hx)
      rw [List.mem_singleton] at hm
      rw [hm] at hlt
      exact lt_irrefl _ hlt
    have hlink : Linked st1.nodes st.brk st.brk := by
      have := hA1.2.1.first
      rw [hsa] at this
      exact this
    refine ⟨st1, e, hB1, hB1.size_run, hA1, hA1.size_run, hsa, hf _ (le_refl _), hlink,
      ?_, ?_⟩
    · obtain ⟨st2, as2, e2, hA2, hf2, hs2⟩ := List_pushBack_step value hf1 hA1
      exact ⟨st2, as2, e2, hA2, (hB1.of_step hf1 hba hdis hs2).1⟩
    · obtain ⟨st2, as2, e2, hA2, hB2, -⟩ := List_mutAll_frame fuel ops hf1 hba hB1 hA1 hdis hv
        (by simp only [List.length_nil]; omega)
      exact ⟨st2, as2, e2, hA2, hB2⟩
  · obtain ⟨vst1, e, hbufs, hbrk, hav1, hvb, hva, -⟩ := @Vector_ctor_move_spec α vst vb va hvba
    have hB1 : VRepr vst1 vb ys :=
      VRepr.congr_state hvb (fun p _ => by rw [hbufs]) hVA
    have hA1 : VRepr vst1 va [] :=
      (VOwns.of_null (by rw [hva]) (by rw [hva]) (by rw [hva])).1
    have hf1 : VFresh vst1 := hvf.of_bufs hbrk hbufs
    have hdis : ∀ p, (vst1.vecs vb).m_data = some p → (vst1.vecs va).m_data ≠ some p := by
      intro p _
      rw [hva]
      exact fun e0 => Option.noConfusion e0
    refine ⟨vst1, e, hB1, by rw [Vector_size_run, hB1.1], hvb,
      by rw [Vector_size_run, hva], by rw [Vector_capacity_run, hva], ?_, ?_, ?_⟩
    · simp only [Vector_data, Prog.bind_run, Prog.bind, getVec_run, hva, Prog.pure_run]
    · obtain ⟨vst2, e2, hA2, -, -, hs2, -⟩ := Vector_pushBack_owns value hf1 hA1
        (fun _ => by
          rw [hva]
          show (if (0 : Nat) = 0 then 1 else 0 * 2) ≤ vst1.avail
          rw [if_pos rfl, hav1]
          exact hav)
      exact ⟨vst2, e2, hA2, (hB1.of_vstep hf1 hvba hdis hs2).1⟩
    · obtain ⟨vst2, us, hA2, hB2, -, -, h⟩ := Vector_mutAll_frame fuel vops hf1 hvba hB1 hA1
        hdis hvv (by simp only [List.length_nil]; omega)
      exact ⟨vst2, us, hA2, hB2, h.imp id (fun h2 => h2.2)⟩

/-- Instance of C26: the example list `[10, 20, 30]` and the example vector `[10, 20, 30]`
moved into a new container, then `pushBack(7)`, and a push followed by a pop, on the
moved-from container. -/
theorem C26_move_construction_witness :
    (∃ st1, List_ctor_move 2 0 exMem = .ret () st1 ∧ Repr st1 2 [1, 2, 3] [10, 20, 30] ∧
      List_size 2 st1 = .ret [10, 20, 30].length st1 ∧ Repr st1 0 [] [] ∧
      List_size 0 st1 = .ret 0 st1 ∧ (st1.lists 0).m_sentinel = exMem.brk ∧
      exMem.nodes exMem.brk = none ∧ Linked st1.nodes exMem.brk exMem.brk ∧
      (∃ st2 as2, List_pushBack 0 7 st1 = .ret () st2 ∧ Repr st2 0 as2 [7] ∧
        Repr st2 2 [1, 2, 3] [10, 20, 30]) ∧
      (∃ st2 as2, List_mutAll 5 0 [ListMut.pushBack 1, ListMut.popFront] st1 = .ret () st2 ∧
        Repr st2 0 as2 (ListMut.expectedAll [] [ListMut.pushBack 1, ListMut.popFront]) ∧
        Repr st2 2 [1, 2, 3] [10, 20, 30])) ∧
    (∃ vst1, Vector_ctor_move 2 0 exTwo = .ret () vst1 ∧ VRepr vst1 2 [10, 20, 30] ∧
      Vector_size 2 vst1 = .ret [10, 20, 30].length vst1 ∧ vst1.vecs 2 = exTwo.vecs 0 ∧
      Vector_size 0 vst1 = .ret 0 vst1 ∧ Vector_capacity 0 vst1 = .ret 0 vst1 ∧
      Vector_data 0 vst1 = .ret none vst1 ∧
      (∃ vst2, Vector_pushBack 0 7 vst1 = .ret () vst2 ∧ VRepr vst2 0 [7] ∧
        VRepr vst2 2 [10, 20, 30]) ∧
      (∃ vst2 us, VRepr vst2 0 us ∧ VRepr vst2 2 [10, 20, 30] ∧
        ((Vector_mutAll 5 0 [VecMut.pushBack 1, VecMut.popBack] vst1 = .ret () vst2 ∧
          us = VecMut.expectedAll [] [VecMut.pushBack 1, VecMut.popBack]) ∨
          Vector_mutAll 5 0 [VecMut.pushBack 1, VecMut.popBack] vst1 =
            .raise .bad_alloc vst2))) :=
  C26_move_construction exMem 0 2 [1, 2, 3] [10, 20, 30] 7
    [ListMut.pushBack 1, ListMut.popFront] exTwo 0 2 [10, 20, 30]
    [VecMut.pushBack 1, VecMut.popBack] 5 exMem_fresh (by decide) exMem_repr0
    ⟨trivial, trivial, trivial⟩ (by decide) exTwo_fresh (by decide) exTwo_repr0 (by decide)
    ⟨trivial, trivial, trivial⟩ (by decide)

/-- C27: for two distinct lists `a` (contents `xs`) and `b` (contents `ys`), the move
assignment `a = std::move(b)` is a swap: it returns, `a` then owns the nodes and the
contents `ys` of `b` and has size `|ys|`, `b` owns the nodes and the contents `xs` of `a`
and has size `|xs|`, and the node heap is untouched, so that no element is destroyed or
created; the self move assignment changes nothing. -/
theorem C27_list_move_assign (st : Mem α) (a b : Ref) (ns ms : List Ptr) (xs ys : List α)
    (hab : a ≠ b) (hA : Repr st a ns xs) (hB : Repr st b ms ys) :
    (∃ st1, List_assign_move a b st = .ret () st1 ∧ Repr st1 a ms ys ∧ Repr st1 b ns xs ∧
      List_size a st1 = .ret ys.length st1 ∧ List_size b st1 = .ret xs.length st1 ∧
      st1.nodes = st.nodes ∧ st1.brk = st.brk) ∧
    List_assign_move a a st = .ret () st := by
  refine ⟨?_, List_assign_move_same st a⟩
  have hA1 : Repr (Mem.mk st.nodes st.brk
      (fun r => if r = b then st.lists a else if r = a then st.lists b else st.lists r))
      a ms ys :=
    hB.of_obj_eq (by
      show (if a = b then st.lists a else if a = a then st.lists b else st.lists a) = _
      rw [if_neg hab, if_pos rfl]) (fun _ _ => rfl)
  have hB1 : Repr (Mem.mk st.nodes st.brk
      (fun r => if r = b then st.lists a else if r = a then st.lists b else st.lists r))
      b ns xs :=
    hA.of_obj_eq (by
      show (if b = b then st.lists a else if b = a then st.lists b else st.lists b) = _
      rw [if_pos rfl]) (fun _ _ => rfl)
  exact ⟨_, List_assign_move_run hab, hA1, hB1, hA1.size_run, hB1.size_run, rfl, rfl⟩

/-- Instance of C27: the move assignment of the example list `[40, 50]` to the example
list `[10, 20, 30]`. -/
theorem C27_list_move_assign_witness :
    (∃ st1, List_assign_move 0 1 exMem = .ret () st1 ∧ Repr st1 0 [5, 6] [40, 50] ∧
      Repr st1 1 [1, 2, 3] [10, 20, 30] ∧
      List_size 0 st1 = .ret [40, 50].length st1 ∧
      List_size 1 st1 = .ret [10, 20, 30].length st1 ∧
      st1.nodes = exMem.nodes ∧ st1.brk = exMem.brk) ∧
    List_assign_move 0 0 exMem = .ret () exMem :=
  C27_list_move_assign exMem 0 1 [1, 2, 3] [5, 6] [10, 20, 30] [40, 50] (by decide)
    exMem_repr0 exMem_repr1

end Claims3

/-! ## `clear()` and `swap()` on states that already are what the call makes them -/

section NoopLemmas
variable {α : Type}

theorem Mem.ext_fields {S T : Mem α} (hn : ∀ x, S.nodes x = T.nodes x) (hb : S.brk = T.brk)
    (hl : ∀ r, S.lists r = T.lists r) : S = T := by
  cases S with
  | mk n1 b1 l1 =>
    cases T with
    | mk n2 b2 l2 =>
      have e1 : n1 = n2 := funext hn
      have e2 : b1 = b2 := hb
      have e3 : l1 = l2 := funext hl
      rw [e1, e2, e3]

theorem VMem.ext_members {S T : VMem α} (hn : ∀ x, S.bufs x = T.bufs x) (hb : S.brk = T.brk)
    (ha : S.avail = T.avail) (hl : ∀ r, S.vecs r = T.vecs r) : S = T := by
  cases S with
  | mk n1 b1 a1 l1 =>
    cases T with
    | mk n2 b2 a2 l2 =>
      have e1 : n1 = n2 := funext hn
      have e2 : b1 = b2 := hb
      have e3 : a1 = a2 := ha
      have e4 : l1 = l2 := funext hl
      rw [e1, e2, e3, e4]

/-- On an empty list `clear()` returns in the state it was called in. -/
theorem List_clear_empty_same {st : Mem α} {l : Ref} (fuel : Nat) (hR : Repr st l [] [])
    (hfuel : 0 < fuel) : List_clear fuel l st = .ret () st := by
  obtain ⟨f, rfl⟩ : ∃ f, fuel = f + 1 := ⟨fuel - 1, by omega⟩
  have hlk : Linked st.nodes (st.lists l).m_sentinel (st.lists l).m_sentinel := hR.2.1.first
  have hlv : (st.nodes (st.lists l).m_sentinel).isSome := live_of_next hlk.1
  have hsz : (st.lists l).m_size = 0 := hR.1
  have hlv2 : ((st.nodes.setNext (st.lists l).m_sentinel (st.lists l).m_sentinel)
      (st.lists l).m_sentinel).isSome := by
    rw [live_setNext]
    exact hlv
  simp only [List_clear, List_clearLoop, Prog.bind_run, Prog.bind, getSentinel_run,
    getNext_run hlk.1, if_true, Prog.pure_run, storeNext_run _ hlv,
    storePrev_run (S := Mem.mk (st.nodes.setNext (st.lists l).m_sentinel
      (st.lists l).m_sentinel) st.brk st.lists) _ hlv2, setSize_run]
  congr 1
  refine Mem.ext_fields ?_ rfl ?_
  · intro x
    refine node_eq_of_fields ?_ ?_ ?_
    · show dataOf ((st.nodes.setNext _ _).setPrev _ _) x = _
      rw [dataOf_setPrev, dataOf_setNext]
    · show nextOf ((st.nodes.setNext _ _).setPrev _ _) x = _
      rw [nextOf_setPrev, nextOf_setNext]
      by_cases c : x = (st.lists l).m_sentinel
      · rw [if_pos c, c, hlk.1]
        simp only [hlv, if_true]
      · rw [if_neg c]
    · show prevOf ((st.nodes.setNext _ _).setPrev _ _) x = _
      rw [prevOf_setPrev]
      by_cases c : x = (st.lists l).m_sentinel
      · rw [if_pos c, c, hlk.2]
        simp only [live_setNext, hlv, if_true]
      · rw [if_neg c, prevOf_setNext]
  · intro r
    show (if r = l then _ else st.lists r) = st.lists r
    by_cases c : r = l
    · rw [if_pos c, c]
      show ListObj.mk (st.lists l).m_sentinel 0 = st.lists l
      rw [← hsz]
    · rw [if_neg c]

/-- On an empty vector `clear()` returns in the state it was called in. -/
theorem Vector_clear_empty_same [ValType α] {st : VMem α} {v : Ref}
    (hz : (st.vecs v).m_size = 0) : Vector_clear v st = .ret () st := by
  simp only [Vector_clear, Prog.bind_run, Prog.bind, getVec_run, hz, destroyRange_zero, setVSize]
  congr 1
  refine VMem.ext_members (fun _ => rfl) rfl rfl ?_
  intro r
  show (if r = v then _ else st.vecs r) = st.vecs r
  by_cases c : r = v
  · rw [if_pos c, c]
    show VecObj.mk (st.vecs v).m_data 0 (st.vecs v).m_capacity = st.vecs v
    rw [← hz]
  · rw [if_neg c]

/-- Member `List::swap` called with the list itself returns in the state it was called
in. -/
theorem List_swap_self (st : Mem α) (a : Ref) : List_swap a a st = .ret () st := by
  rw [List_swap_run]
  congr 1
  refine Mem.ext_fields (fun _ => rfl) rfl ?_
  intro r
  show (if r = a then st.lists a else if r = a then st.lists a else st.lists r) = st.lists r
  by_cases c : r = a
  · rw [if_pos c, c]
  · rw [if_neg c, if_neg c]

/-- Two calls of `List::swap` in a row restore the state. -/
theorem List_swap_twice (st : Mem α) (a b : Ref) :
    ∃ st1, List_swap a b st = .ret () st1 ∧ List_swap a b st1 = .ret () st := by
  refine ⟨_, List_swap_run st a b, ?_⟩
  rw [List_swap_run]
  congr 1
  refine Mem.ext_fields (fun _ => rfl) rfl ?_
  intro r
  show (if r = b then (if a = b then st.lists a else if a = a then st.lists b else st.lists a)
    else if r = a then (if b = b then st.lists a else if b = a then st.lists b else st.lists b)
    else (if r = b then st.lists a else if r = a then st.lists b else st.lists r)) = st.lists r
  by_cases c1 : r = b
  · rw [if_pos c1, c1]
    by_cases c2 : a = b
    · rw [if_pos c2, c2]
    · rw [if_neg c2, if_pos rfl]
  · rw [if_neg c1]
    by_cases c2 : r = a
    · rw [if_pos c2, if_pos rfl, c2]
    · rw [if_neg c2, if_neg c1, if_neg c2]

theorem Vector_swap_run (st : VMem α) (this other : Ref) :
    Vector_swap this other st = .ret () (VMem.mk st.bufs st.brk st.avail
      (fun r => if r = other then st.vecs this else if r = this then st.vecs other
        else st.vecs r)) := by
  simp only [Vector_swap, Prog.bind_run, Prog.bind, getVec_run, setVSize, setCapacity,
    setData]
  congr 2
  funext r
  by_cases h1 : r = other
  · subst h1
    by_cases h2 : this = r
    · subst h2
      simp
    · have h3 : ¬ r = this := fun e => h2 e.symm
      simp [h2, h3]
  · by_cases h2 : r = this
    · subst h2
      have h3 : ¬ other = r := fun e => h1 e.symm
      simp [h1, h3]
    · simp [h1, h2]

/-- Member `Vector::swap` called with the vector itself returns in the state it was called
in. -/
theorem Vector_swap_self (st : VMem α) (a : Ref) : Vector_swap a a st = .ret () st := by
  rw [Vector_swap_run]
  congr 1
  refine VMem.ext_members (fun _ => rfl) rfl rfl ?_
  intro r
  show (if r = a then st.vecs a else if r = a then st.vecs a else st.vecs r) = st.vecs r
  by_cases c : r = a
  · rw [if_pos c, c]
  · rw [if_neg c, if_neg c]

/-- Two calls of `Vector::swap` in a row restore the state. -/
theorem Vector_swap_twice (st : VMem α) (a b : Ref) :
    ∃ st1, Vector_swap a b st = .ret () st1 ∧ Vector_swap a b st1 = .ret () st := by
  refine ⟨_, Vector_swap_run st a b, ?_⟩
  rw [Vector_swap_run]
  congr 1
  refine VMem.ext_members (fun _ => rfl) rfl rfl ?_
  intro r
  show (if r = b then (if a = b then st.vecs a else if a = a then st.vecs b else st.vecs a)
    else if r = a then (if b = b then st.vecs a else if b = a then st.vecs b else st.vecs b)
    else (if r = b then st.vecs a else if r = a then st.vecs b else st.vecs r)) = st.vecs r
  by_cases c1 : r = b
  · rw [if_pos c1, c1]
    by_cases c2 : a = b
    · rw [if_pos c2, c2]
    · rw [if_neg c2, if_pos rfl]
  · rw [if_neg c1]
    by_cases c2 : r = a
    · rw [if_pos c2, if_pos rfl, c2]
    · rw [if_neg c2, if_neg c1, if_neg c2]

/-- A vector object represents the same elements when its members and its buffer are those
of a vector object of another state. -/
theorem VRepr.of_obj_same {st st1 : VMem α} {v v1 : Ref} {xs : List α} (hR : VRepr st v xs)
    (hv : st1.vecs v1 = st.vecs v) (hb : st1.bufs = st.bufs) : VRepr st1 v1 xs := by
  obtain ⟨h1, h2, h3, h4, h5⟩ := hR
  refine ⟨by rw [hv]; exact h1, by rw [hv]; exact h2, by rw [hv]; exact h3, ?_, ?_⟩
  · rw [hv]
    intro hne
    have := h4 hne
    cases hd : (st.vecs v).m_data with
    | none => exact absurd hd hne
    | some p =>
      rw [hd] at this
      show (st1.bufs p).map _ = _
      rw [hb]
      exact this
  · intro i hi
    rw [hv]
    have := h5 i hi
    cases hd : (st.vecs v).m_data with
    | none =>
      rw [hd] at this
      exact this
    | some p =>
      rw [hd] at this
      show (match st1.bufs p with | some blk => blk.slot i | none => none) = _
      rw [hb]
      exact this

theorem List_ne_run (st : Mem α) (a b : Ref) :
    List_ne a b st = .ret (decide ((st.lists a).m_size ≠ (st.lists b).m_size) &&
      decide ((st.lists a).m_sentinel ≠ (st.lists b).m_sentinel)) st := rfl

end NoopLemmas

/-! ## The adapters `Stack` and `Queue` -/

section AdapterLemmas
variable {α : Type}

/-- A push onto a stack followed by a pop leaves the nodes and the elements it had. -/
theorem Stack_push_pop {st : Mem α} {l : Ref} {ns : List Ptr} {xs : List α} (v : α)
    (hf : Fresh st) (hR : Repr st l ns xs) :
    ∃ st1 st2, Stack_push l v st = .ret () st1 ∧ Repr st1 l (ns ++ [st.brk]) (xs ++ [v]) ∧
      Fresh st1 ∧ Stack_top l st1 = .ret v st1 ∧ Stack_pop l st1 = .ret () st2 ∧
      Repr st2 l ns xs := by
  obtain ⟨st1, e1, hR1, hf1, -⟩ := List_pushBack_repr v hf hR
  obtain ⟨st2, e2, hR2, -⟩ := List_popBack_repr hR1
  have hl := hR.length
  have ht : (xs ++ [v]).take ns.length = xs := by
    rw [hl]
    simp
  rw [ht] at hR2
  exact ⟨st1, st2, e1, hR1, hf1, List_back_run hR1, e2, hR2⟩

/-- A sequence of pushes onto a stack appends the values in order. -/
theorem Stack_pushAll_run (l : Ref) :
    ∀ (vals : List α) (st : Mem α) (ns : List Ptr) (xs : List α), Fresh st → Repr st l ns xs →
      ∃ st1 ns1, Stack_pushAll l vals st = .ret () st1 ∧ Repr st1 l ns1 (xs ++ vals) ∧
        Fresh st1 := by
  intro vals
  induction vals with
  | nil =>
    intro st ns xs hf hR
    refine ⟨st, ns, rfl, ?_, hf⟩
    rw [List.append_nil]
    exact hR
  | cons v rest ih =>
    intro st ns xs hf hR
    obtain ⟨st1, e1, hR1, hf1, -⟩ := List_pushBack_repr v hf hR
    obtain ⟨st2, ns2, e2, hR2, hf2⟩ := ih st1 _ _ hf1 hR1
    refine ⟨st2, ns2, ?_, ?_, hf2⟩
    · simp only [Stack_pushAll, Stack_push, Prog.bind_run, Prog.bind, e1]
      exact e2
    · rw [List.append_assoc, List.singleton_append] at hR2
      exact hR2

/-- Alternating `top()` and `pop()` yields the elements of a stack from the last one to the
first one and leaves it empty. -/
theorem Stack_drain_run (l : Ref) :
    ∀ (n : Nat) (ns : List Ptr) (xs : List α) (fuel : Nat) (out : List α) (st : Mem α),
      ns.length = n → Repr st l ns xs → n < fuel →
      ∃ st1, Stack_drain l fuel out st = .ret (out ++ xs.reverse) st1 ∧ Repr st1 l [] [] := by
  intro n
  induction n with
  | zero =>
    intro ns xs fuel out st hn hR hfuel
    obtain ⟨f, rfl⟩ : ∃ f, fuel = f + 1 := ⟨fuel - 1, by omega⟩
    have hns : ns = [] := List.length_eq_zero.mp hn
    subst hns
    have hxs : xs = [] := by
      have := hR.length
      exact List.length_eq_zero.mp this.symm
    subst hxs
    have hz : (st.lists l).m_size = 0 := hR.1
    refine ⟨st, ?_, hR⟩
    simp only [Stack_drain, Stack_empty, Prog.bind_run, Prog.bind, List_empty_run, hz,
      decide_True, if_true, Prog.pure_run, List.reverse_nil, List.append_nil]
  | succ n ih =>
    intro ns xs fuel out st hn hR hfuel
    obtain ⟨f, rfl⟩ : ∃ f, fuel = f + 1 := ⟨fuel - 1, by omega⟩
    have hne : ns ≠ [] := fun e => by
      rw [e] at hn
      exact absurd hn (by simp)
    have hxne : xs ≠ [] := fun e => by
      have := hR.length
      rw [e, hn] at this
      exact absurd this (by simp)
    obtain ⟨A, a, rfl⟩ : ∃ A a, ns = A ++ [a] :=
      ⟨ns.dropLast, ns.getLast hne, (List.dropLast_append_getLast hne).symm⟩
    obtain ⟨ys, y, rfl⟩ : ∃ ys y, xs = ys ++ [y] :=
      ⟨xs.dropLast, xs.getLast hxne, (List.dropLast_append_getLast hxne).symm⟩
    have hlen : A.length = ys.length := by
      have := hR.length
      simpa using this
    have hAn : A.length = n := by
      simpa using hn
    have hnz : ¬ ((st.lists l).m_size = 0) := by
      rw [hR.1]
      simp
    obtain ⟨st1, e1, hR1, -⟩ := List_popBack_repr hR
    have ht : (ys ++ [y]).take A.length = ys := by
      rw [hlen]
      simp
    rw [ht] at hR1
    obtain ⟨st2, e2, hR2⟩ := ih A ys f (out ++ [y]) st1 hAn hR1 (by omega)
    refine ⟨st2, ?_, hR2⟩
    simp only [Stack_drain, Stack_empty, Stack_top, Stack_pop, Prog.bind_run, Prog.bind,
      List_empty_run, hnz, decide_False, Bool.false_eq_true, if_false, Prog.pure_run,
      List_back_run hR, e1]
    rw [e2, List.reverse_append, List.reverse_singleton, List.append_assoc]

/-- A sequence of pushes onto a queue appends the values in order. -/
theorem Queue_pushAll_run (l : Ref) :
    ∀ (vals : List α) (st : Mem α) (ns : List Ptr) (xs : List α), Fresh st → Repr st l ns xs →
      ∃ st1 ns1, Queue_pushAll l vals st = .ret () st1 ∧ Repr st1 l ns1 (xs ++ vals) ∧
        Fresh st1 := by
  intro vals
  induction vals with
  | nil =>
    intro st ns xs hf hR
    refine ⟨st, ns, rfl, ?_, hf⟩
    rw [List.append_nil]
    exact hR
  | cons v rest ih =>
    intro st ns xs hf hR
    obtain ⟨st1, e1, hR1, hf1, -⟩ := List_pushBack_repr v hf hR
    obtain ⟨st2, ns2, e2, hR2, hf2⟩ := ih st1 _ _ hf1 hR1
    refine ⟨st2, ns2, ?_, ?_, hf2⟩
    · simp only [Queue_pushAll, Queue_push, Prog.bind_run, Prog.bind, e1]
      exact e2
    · rw [List.append_assoc, List.singleton_append] at hR2
      exact hR2

/-- Alternating `front()` and `pop()` yields the elements of a queue from the first one to
the last one and leaves it empty. -/
theorem Queue_drain_run (l : Ref) :
    ∀ (n : Nat) (ns : List Ptr) (xs : List α) (fuel : Nat) (out : List α) (st : Mem α),
      ns.length = n → Repr st l ns xs → n < fuel →
      ∃ st1, Queue_drain l fuel out st = .ret (out ++ xs) st1 ∧ Repr st1 l [] [] := by
  intro n
  induction n with
  | zero =>
    intro ns xs fuel out st hn hR hfuel
    obtain ⟨f, rfl⟩ : ∃ f, fuel = f + 1 := ⟨fuel - 1, by omega⟩
    have hns : ns = [] := List.length_eq_zero.mp hn
    subst hns
    have hxs : xs = [] := by
      have := hR.length
      exact List.length_eq_zero.mp this.symm
    subst hxs
    have hz : (st.lists l).m_size = 0 := hR.1
    refine ⟨st, ?_, hR⟩
    simp only [Queue_drain, Queue_empty, Prog.bind_run, Prog.bind, List_empty_run, hz,
      decide_True, if_true, Prog.pure_run, List.append_nil]
  | succ n ih =>
    intro ns xs fuel out st hn hR hfuel
    obtain ⟨f, rfl⟩ : ∃ f, fuel = f + 1 := ⟨fuel - 1, by omega⟩
    cases ns with
    | nil => exact absurd hn (by simp)
    | cons a C =>
      cases xs with
      | nil =>
        have := hR.length
        exact absurd this (by simp)
      | cons x ys =>
        have hCn : C.length = n := by
          simpa using hn
        have hnz : ¬ ((st.lists l).m_size = 0) := by
          rw [hR.1]
          simp
        obtain ⟨st1, e1, hR1, -⟩ := List_popFront_repr hR
        have ht : (x :: ys).drop 1 = ys := rfl
        rw [ht] at hR1
        obtain ⟨st2, e2, hR2⟩ := ih C ys f (out ++ [x]) st1 hCn hR1 (by omega)
        refine ⟨st2, ?_, hR2⟩
        simp only [Queue_drain, Queue_empty, Queue_front, Queue_pop, Prog.bind_run, Prog.bind,
          List_empty_run, hnz, decide_False, Bool.false_eq_true, if_false, Prog.pure_run,
          List_front_run hR, e1]
        rw [e2, List.append_assoc, List.singleton_append]

/-- The effect of a push onto a queue on `front()` and `back()`. -/
theorem Queue_push_ends {st : Mem α} {l : Ref} {ns : List Ptr} {xs : List α} (v : α)
    (hf : Fresh st) (hR : Repr st l ns xs) :
    ∃ st1, Queue_push l v st = .ret () st1 ∧ Repr st1 l (ns ++ [st.brk]) (xs ++ [v]) ∧
      Queue_back l st1 = .ret v st1 ∧ Queue_front l st1 = .ret ((xs ++ [v]).headD v) st1 := by
  obtain ⟨st1, e1, hR1, -⟩ := List_pushBack_repr v hf hR
  refine ⟨st1, e1, hR1, List_back_run hR1, ?_⟩
  cases ns with
  | nil =>
    have hxs : xs = [] := by
      have := hR.length
      exact List.length_eq_zero.mp this.symm
    subst hxs
    exact List_front_run (show Repr st1 l (st.brk :: []) (v :: []) from hR1)
  | cons a C =>
    cases xs with
    | nil =>
      have := hR.length
      exact absurd this (by simp)
    | cons x ys =>
      exact List_front_run
        (show Repr st1 l (a :: (C ++ [st.brk])) (x :: (ys ++ [v])) from hR1)

end AdapterLemmas

/-! ## A `Stack` over a `Vector` -/

section VStackLemmas
variable {α : Type}

/-- On a non-empty vector `back()` returns the last element. -/
theorem Vector_back_run {st : VMem α} {v : Ref} {ys : List α} {y : α}
    (hR : VRepr st v (ys ++ [y])) : Vector_back v st = .ret y st := by
  have hi : ys.length < (ys ++ [y]).length := by simp
  have hrd := hR.read_at hi
  have hsz : (st.vecs v).m_size = ys.length + 1 := by
    rw [hR.1]
    simp
  have hw : wrapSub (ys.length + 1) 1 = ys.length := by
    rw [wrapSub_of_le (by omega)]
    omega
  simp only [Vector_back, Prog.bind_run, Prog.bind, getVec_run, hsz, hw, hrd]
  simp

theorem VStack_pushAll_eq [ValType α] (v : Ref) (vals : List α) :
    VStack_pushAll v vals = Vector_pushBackAll v vals := by
  induction vals with
  | nil => rfl
  | cons x rest ih =>
    show (do VStack_push v x; VStack_pushAll v rest) = _
    rw [ih]
    rfl

/-- Alternating `top()` and `pop()` yields the elements of a stack over a vector from the
last one to the first one and leaves it empty. -/
theorem VStack_drain_run [ValType α] (v : Ref) :
    ∀ (n : Nat) (xs : List α) (fuel : Nat) (out : List α) (st : VMem α),
      xs.length = n → VRepr st v xs → n < fuel →
      ∃ st1, VStack_drain v fuel out st = .ret (out ++ xs.reverse) st1 ∧ VRepr st1 v [] ∧
        (st1.vecs v).m_capacity = (st.vecs v).m_capacity := by
  intro n
  induction n with
  | zero =>
    intro xs fuel out st hn hR hfuel
    obtain ⟨f, rfl⟩ : ∃ f, fuel = f + 1 := ⟨fuel - 1, by omega⟩
    have hxs : xs = [] := List.length_eq_zero.mp hn
    subst hxs
    have hz : (st.vecs v).m_size = 0 := hR.1
    refine ⟨st, ?_, hR, rfl⟩
    simp only [VStack_drain, VStack_empty, Prog.bind_run, Prog.bind, Vector_empty_run, hz,
      decide_True, if_true, Prog.pure_run, List.reverse_nil, List.append_nil]
  | succ n ih =>
    intro xs fuel out st hn hR hfuel
    obtain ⟨f, rfl⟩ : ∃ f, fuel = f + 1 := ⟨fuel - 1, by omega⟩
    have hxne : xs ≠ [] := fun e => by
      rw [e] at hn
      exact absurd hn (by simp)
    obtain ⟨ys, y, rfl⟩ : ∃ ys y, xs = ys ++ [y] :=
      ⟨xs.dropLast, xs.getLast hxne, (List.dropLast_append_getLast hxne).symm⟩
    have hyn : ys.length = n := by
      simpa using hn
    have hnz : ¬ ((st.vecs v).m_size = 0) := by
      rw [hR.1]
      simp
    obtain ⟨st1, e1, hR1, -, -, -, hv1, -⟩ := Vector_popBack_owns hR
    obtain ⟨st2, e2, hR2, hc2⟩ := ih ys f (out ++ [y]) st1 hyn hR1 (by omega)
    refine ⟨st2, ?_, hR2, by rw [hc2, hv1]⟩
    simp only [VStack_drain, VStack_empty, VStack_top, VStack_pop, Prog.bind_run, Prog.bind,
      Vector_empty_run, hnz, decide_False, Bool.false_eq_true, if_false, Prog.pure_run,
      Vector_back_run hR, e1]
    rw [e2, List.reverse_append, List.reverse_singleton, List.append_assoc]

end VStackLemmas

/-! ## `reverse()` twice, and the capacities met by a sequence of insertions -/

section ReverseTwice
variable {α : Type}

/-- Two states in which the list object `l` owns the same ring agree on the links of its
nodes. -/
theorem Repr.links_eq {st st1 : Mem α} {l : Ref} {ns : List Ptr} {xs ys : List α}
    (hR : Repr st l ns xs) (hR1 : Repr st1 l ns ys)
    (hs : (st1.lists l).m_sentinel = (st.lists l).m_sentinel) :
    ∀ x ∈ (st.lists l).m_sentinel :: ns,
      nextOf st1.nodes x = nextOf st.nodes x ∧ prevOf st1.nodes x = prevOf st.nodes x := by
  intro x hx
  rcases List.mem_cons.mp hx with h0 | h0
  · subst h0
    have a1 := hR.2.1.next_sentinel
    have a2 := hR1.2.1.next_sentinel
    have b1 := hR.2.1.last.2
    have b2 := hR1.2.1.last.2
    rw [hs] at a2 b2
    exact ⟨by rw [a1, a2], by rw [b1, b2]⟩
  · obtain ⟨A, C, rfl⟩ := List.append_of_mem h0
    have a1 := hR.next_at
    have a2 := hR1.next_at
    have b1 := hR.prev_at
    have b2 := hR1.prev_at
    rw [hs] at a2 b2
    exact ⟨by rw [a1, a2], by rw [b1, b2]⟩

/-- Two calls of `reverse()` in a row restore the state. -/
theorem List_reverse_twice {st : Mem α} {l : Ref} {ns : List Ptr} {xs : List α}
    (fuel : Nat) (hR : Repr st l ns xs) (hfuel : ns.length < fuel) :
    ∃ st1, List_reverse fuel l st = .ret () st1 ∧ Repr st1 l ns.reverse xs.reverse ∧
      List_reverse fuel l st1 = .ret () st := by
  obtain ⟨st1, e1, hR1, hb1, hl1, -, hd1, hfr1⟩ := List_reverse_repr fuel hR hfuel
  obtain ⟨st2, e2, hR2, hb2, hl2, -, hd2, hfr2⟩ := List_reverse_repr fuel hR1
    (by rw [List.length_reverse]; exact hfuel)
  rw [List.reverse_reverse, List.reverse_reverse] at hR2
  refine ⟨st1, e1, hR1, ?_⟩
  rw [e2]
  congr 1
  have hs : (st2.lists l).m_sentinel = (st.lists l).m_sentinel := by rw [hl2, hl1]
  refine Mem.ext_fields ?_ (by rw [hb2, hb1]) (fun r => by rw [hl2, hl1])
  intro x
  refine node_eq_of_fields (by rw [hd2, hd1]) ?_ ?_
  · by_cases hx : x ∈ (st.lists l).m_sentinel :: ns
    · exact (Repr.links_eq hR hR2 hs x hx).1
    · have hx1 : x ∉ (st1.lists l).m_sentinel :: ns.reverse := by
        rw [hl1]
        intro hm
        apply hx
        rcases List.mem_cons.mp hm with h0 | h0
        · exact List.mem_cons.mpr (Or.inl h0)
        · exact List.mem_cons_of_mem _ (List.mem_reverse.mp h0)
      rw [(hfr2 x hx1).1, (hfr1 x hx).1]
  · by_cases hx : x ∈ (st.lists l).m_sentinel :: ns
    · exact (Repr.links_eq hR hR2 hs x hx).2
    · have hx1 : x ∉ (st1.lists l).m_sentinel :: ns.reverse := by
        rw [hl1]
        intro hm
        apply hx
        rcases List.mem_cons.mp hm with h0 | h0
        · exact List.mem_cons.mpr (Or.inl h0)
        · exact List.mem_cons_of_mem _ (List.mem_reverse.mp h0)
      rw [(hfr2 x hx1).2, (hfr1 x hx).2]

end ReverseTwice

section InsertCaps
variable {α : Type}

/-- One round of the loop that records the capacities: the insertion returns, and the
capacity it leaves is recorded in front of those of the remaining rounds. -/
theorem Vector_insertCaps_step [ValType α] {st : VMem α} {v : Ref} {xs : List α} (i : Nat)
    (value : α) (rest : List (Nat × α)) (hf : VFresh st) (hR : VRepr st v xs)
    (hi : i ≤ xs.length)
    (hav : ¬ (st.vecs v).m_size < (st.vecs v).m_capacity →
      (if (st.vecs v).m_capacity = 0 then 1 else (st.vecs v).m_capacity * 2) ≤ st.avail) :
    ∃ st1, VRepr st1 v (xs.take i ++ value :: xs.drop i) ∧ VFresh st1 ∧
      (st1.vecs v).m_size = xs.length + 1 ∧
      (st1.vecs v).m_capacity =
        (if (st.vecs v).m_size < (st.vecs v).m_capacity then (st.vecs v).m_capacity
         else if (st.vecs v).m_capacity = 0 then 1 else (st.vecs v).m_capacity * 2) ∧
      st1.avail + (st1.vecs v).m_capacity = st.avail + (st.vecs v).m_capacity ∧
      ∀ cs st2, Vector_insertCaps v rest st1 = .ret cs st2 →
        Vector_insertCaps v ((i, value) :: rest) st =
          .ret ((st1.vecs v).m_capacity :: cs) st2 := by
  obtain ⟨st1, e, hR1, -, hf1, -, hsz, hcap, hav1⟩ := Vector_insert_owns i value hf hR hi hav
  refine ⟨st1, hR1, hf1, hsz, hcap, hav1, ?_⟩
  intro cs st2 h
  simp only [Vector_insertCaps, Prog.bind_run, Prog.bind, Vector_begin_run, VIter.add_mk, e,
    Vector_capacity_run, h, Prog.pure_run]

/-- A sequence of insertions at valid positions that the allocator can serve returns, and
the capacities met are those of the doubling growth policy. -/
theorem Vector_insertCaps_run [ValType α] (v : Ref) :
    ∀ (items : List (Nat × α)) (st : VMem α) (xs : List α), VFresh st → VRepr st v xs →
      InsertsValid xs.length items →
      AllocFits xs.length (st.vecs v).m_capacity st.avail items.length →
      ∃ st1, Vector_insertCaps v items st =
        .ret (doublingCapacities xs.length (st.vecs v).m_capacity items.length) st1 := by
  intro items
  induction items with
  | nil =>
    intro st xs _ _ _ _
    exact ⟨st, rfl⟩
  | cons item rest ih =>
    intro st xs hf hR hv hfits
    obtain ⟨hi, hv2⟩ := hv
    obtain ⟨hfit, hfits2⟩ := hfits
    have hsz : (st.vecs v).m_size = xs.length := hR.1
    have hav : ¬ (st.vecs v).m_size < (st.vecs v).m_capacity →
        (if (st.vecs v).m_capacity = 0 then 1 else (st.vecs v).m_capacity * 2) ≤ st.avail := by
      intro hn
      rw [hsz] at hn
      rcases hfit with h | h
      · exact absurd h hn
      · rw [doublingCapacity, if_neg hn] at h
        exact h
    obtain ⟨st1, hR1, hf1, hsz1, hcap1, hav1, hrun⟩ :=
      Vector_insertCaps_step item.1 item.2 rest hf hR hi hav
    have hcap : (st1.vecs v).m_capacity = doublingCapacity xs.length (st.vecs v).m_capacity := by
      rw [hcap1, hsz]
      rfl
    have hlen : (xs.take item.1 ++ item.2 :: xs.drop item.1).length = xs.length + 1 := by
      rw [← hsz1, hR1.1]
    have havail : st1.avail =
        st.avail + (st.vecs v).m_capacity - doublingCapacity xs.length (st.vecs v).m_capacity := by
      rw [← hcap]
      omega
    obtain ⟨st2, e2⟩ := ih st1 _ hf1 hR1 (by rw [hlen]; exact hv2)
      (by rw [hlen, hcap, havail]; exact hfits2)
    refine ⟨st2, ?_⟩
    have := hrun _ st2 e2
    rw [hlen, hcap] at this
    exact this

end InsertCaps

/-! ## The traversal loops visit the nodes of the path they walk, one after the other -/

section VisitLoops
variable {α : Type}

/-- The loop of `clear()` walks the path `B` that leads to the sentinel: it visits the nodes
of `B` in order and deletes them. -/
theorem List_clearLoop_visits_run (l : Ref) :
    ∀ (B : List Ptr) (fuel : Nat) (seen : List Ptr) (st : Mem α),
      List.Chain' (fun a b => nextOf st.nodes a = some b) (B ++ [(st.lists l).m_sentinel]) →
      B.Nodup → (st.lists l).m_sentinel ∉ B → B.length < fuel →
      List_clearLoop_visits l fuel (B.headD (st.lists l).m_sentinel) seen st =
        .ret (seen ++ B) (Mem.mk (B.foldl Heap.free st.nodes) st.brk st.lists) := by
  intro B
  induction B with
  | nil =>
    intro fuel seen st _ _ _ hfuel
    obtain ⟨k, rfl⟩ : ∃ k, fuel = k + 1 := ⟨fuel - 1, by simp at hfuel; omega⟩
    simp [List_clearLoop_visits, Prog.bind]
  | cons b B ih =>
    intro fuel seen st hc hnd hs hfuel
    obtain ⟨k, rfl⟩ : ∃ k, fuel = k + 1 := ⟨fuel - 1, by simp at hfuel; omega⟩
    have hne : b ≠ (st.lists l).m_sentinel := fun e => hs (by simp [e])
    obtain ⟨hnx, hc2⟩ := chain_cons_snoc hc
    have hlb := live_of_next hnx
    have hbB : b ∉ B := (List.nodup_cons.mp hnd).1
    have hc3 : List.Chain' (fun a c => nextOf (st.nodes.free b) a = some c)
        (B ++ [(st.lists l).m_sentinel]) := by
      refine next_chain_congr hc2 ?_
      intro x hx
      rw [List.dropLast_concat] at hx
      have : x ≠ b := fun e => hbB (e ▸ hx)
      simp only [nextOf_free, if_neg this]
    have := ih k (seen ++ [b]) (Mem.mk (st.nodes.free b) st.brk st.lists) hc3
      (List.nodup_cons.mp hnd).2 (fun hm => hs (List.mem_cons_of_mem _ hm))
      (by simp at hfuel ⊢; omega)
    simp only [List_clearLoop_visits, Prog.bind_run, Prog.bind, getSentinel_run,
      List.headD_cons, hne, if_false, Prog.pure_run, getNext_run hnx, deleteNode_run hlb]
    rw [this, List.append_assoc, List.singleton_append]
    rfl

/-- The loop of `reverse()` walks the path `B` that leads to the sentinel: it visits the
nodes of `B` in order, and ends in the state the loop without the record ends in. -/
theorem List_reverseLoop_visits_run (l : Ref) :
    ∀ (B : List Ptr) (fuel : Nat) (seen : List Ptr) (st : Mem α),
      List.Chain' (fun a b => nextOf st.nodes a = some b) (B ++ [(st.lists l).m_sentinel]) →
      B.Nodup → (st.lists l).m_sentinel ∉ B → B.length < fuel →
      ∃ st1, List_reverseLoop_visits l fuel (B.headD (st.lists l).m_sentinel) seen st =
          .ret (seen ++ B) st1 ∧
        List_reverseLoop l fuel (B.headD (st.lists l).m_sentinel) st = .ret () st1 := by
  intro B
  induction B with
  | nil =>
    intro fuel seen st _ _ _ hfuel
    obtain ⟨k, rfl⟩ : ∃ k, fuel = k + 1 := ⟨fuel - 1, by simp at hfuel; omega⟩
    refine ⟨st, ?_, ?_⟩
    · simp [List_reverseLoop_visits, Prog.bind]
    · simp [List_reverseLoop, Prog.bind]
  | cons b B ih =>
    intro fuel seen st hc hnd hs hfuel
    obtain ⟨k, rfl⟩ : ∃ k, fuel = k + 1 := ⟨fuel - 1, by simp at hfuel; omega⟩
    have hne : b ≠ (st.lists l).m_sentinel := fun e => hs (by simp [e])
    obtain ⟨hnx, hc2⟩ := chain_cons_snoc hc
    have hlb := live_of_next hnx
    obtain ⟨p, hp⟩ := live_prev_some hlb
    have hbB : b ∉ B := (List.nodup_cons.mp hnd).1
    have hc3 : List.Chain' (fun a c =>
        nextOf ((st.nodes.setNext b p).setPrev b (B.headD (st.lists l).m_sentinel)) a = some c)
        (B ++ [(st.lists l).m_sentinel]) := by
      refine next_chain_congr hc2 ?_
      intro x hx
      rw [List.dropLast_concat] at hx
      have : x ≠ b := fun e => hbB (e ▸ hx)
      simp only [nextOf_setPrev, nextOf_setNext, if_neg this]
    obtain ⟨st1, e1, e2⟩ := ih k (seen ++ [b])
      (Mem.mk ((st.nodes.setNext b p).setPrev b (B.headD (st.lists l).m_sentinel)) st.brk st.lists)
      hc3 (List.nodup_cons.mp hnd).2 (fun hm => hs (List.mem_cons_of_mem _ hm))
      (by simp at hfuel ⊢; omega)
    refine ⟨st1, ?_, ?_⟩
    · simp only [List_reverseLoop_visits, Prog.bind_run, Prog.bind, getSentinel_run,
        List.headD_cons, hne, if_false, Prog.pure_run, getNext_run hnx, swapLinks_run hnx hp]
      rw [List.append_assoc, List.singleton_append] at e1
      exact e1
    · simp only [List_reverseLoop, Prog.bind_run, Prog.bind, getSentinel_run, List.headD_cons,
        hne, if_false, Prog.pure_run, getNext_run hnx, swapLinks_run hnx hp]
      exact e2

/-- The loop of `erase(first, last)` walks the path `f :: B` that leads to `lastNode`: it
visits the nodes of the path in order, deletes them and counts them. -/
theorem List_eraseLoop_visits_run (lastNode : Ptr) :
    ∀ (B : List Ptr) (f : Ptr) (count fuel : Nat) (seen : List Ptr) (st : Mem α),
      List.Chain' (fun a b => nextOf st.nodes a = some b) ((f :: B) ++ [lastNode]) →
      (f :: B).Nodup → lastNode ∉ f :: B → B.length + 2 ≤ fuel →
      List_eraseLoop_visits lastNode fuel f count seen st =
        .ret (count + B.length + 1, seen ++ f :: B)
          (Mem.mk ((f :: B).foldl Heap.free st.nodes) st.brk st.lists) := by
  intro B
  induction B with
  | nil =>
    intro f count fuel seen st hc _ hl hfuel
    obtain ⟨k, rfl⟩ : ∃ k, fuel = k + 2 := ⟨fuel - 2, by simp at hfuel; omega⟩
    have hne : f ≠ lastNode := fun e => hl (by simp [e])
    have hnx : nextOf st.nodes f = some lastNode := by simpa using hc
    have hlv := live_of_next hnx
    simp [List_eraseLoop_visits, hne, Prog.bind, getNext_run hnx, deleteNode_run hlv]
  | cons b B ih =>
    intro f count fuel seen st hc hnd hl hfuel
    obtain ⟨k, rfl⟩ : ∃ k, fuel = k + 1 := ⟨fuel - 1, by simp at hfuel; omega⟩
    have hne : f ≠ lastNode := fun e => hl (by simp [e])
    have hc1 : nextOf st.nodes f = some b ∧
        List.Chain' (fun a b => nextOf st.nodes a = some b) ((b :: B) ++ [lastNode]) := by
      simpa using hc
    have hlv := live_of_next hc1.1
    have hfn : f ∉ (b :: B) ++ [lastNode] := by
      intro hm
      rcases List.mem_append.mp hm with h0 | h0
      · exact (List.nodup_cons.mp hnd).1 h0
      · exact hne (List.mem_singleton.mp h0)
    have hc2 : List.Chain' (fun a c => nextOf (st.nodes.free f) a = some c)
        ((b :: B) ++ [lastNode]) := by
      refine next_chain_congr hc1.2 ?_
      intro x hx
      have : x ≠ f := fun e => hfn (e ▸ List.mem_of_mem_dropLast hx)
      simp [this]
    have := ih b (count + 1) k (seen ++ [f]) (Mem.mk (st.nodes.free f) st.brk st.lists) hc2
      (List.nodup_cons.mp hnd).2 (fun hm => hl (List.mem_cons_of_mem _ hm))
      (by simp at hfuel ⊢; omega)
    simp only [List_eraseLoop_visits, hne, if_false, Prog.bind_run, Prog.bind,
      getNext_run hc1.1, deleteNode_run hlv]
    rw [this]
    simp only [List.foldl_cons, List.length_cons, List.append_assoc, List.singleton_append]
    congr 2
    omega

end VisitLoops

/-! ## The member functions with a traversal loop visit every node of their range once -/

section VisitMembers
variable {α : Type}

/-- The loop of `remove(value)` on the remaining nodes `R` of a list: it visits the nodes of
`R` in order, and ends in the state the loop without the record ends in. -/
theorem List_removeLoop_visits_run [DecidableEq α] (l : Ref) (v : α) :
    ∀ (R D : List Ptr) (xsD xsR : List α) (fuel : Nat) (seen : List Ptr) (st : Mem α),
      Repr st l (D ++ R) (xsD ++ xsR) → D.length = xsD.length → R.length < fuel →
      ∃ st1, List_removeLoop_visits l v fuel (R.headD (st.lists l).m_sentinel) seen st =
          .ret (seen ++ R) st1 ∧
        List_removeLoop l v fuel (R.headD (st.lists l).m_sentinel) st = .ret () st1 := by
  intro R
  induction R with
  | nil =>
    intro D xsD xsR fuel seen st hR hl hfuel
    obtain ⟨k, rfl⟩ : ∃ k, fuel = k + 1 := ⟨fuel - 1, by omega⟩
    refine ⟨st, ?_, ?_⟩
    · simp [List_removeLoop_visits, List_end, Prog.bind]
    · simp [List_removeLoop, List_end, Prog.bind]
  | cons a R ih =>
    intro D xsD xsR fuel seen st hR hl hfuel
    obtain ⟨k, rfl⟩ : ∃ k, fuel = k + 1 := ⟨fuel - 1, by omega⟩
    have hlen := map_len hR.2.2
    cases xsR with
    | nil =>
      exfalso
      simp only [List.length_append, List.length_cons, List.append_nil] at hlen
      omega
    | cons x xsR =>
      have hne : a ≠ (st.lists l).m_sentinel := by
        intro e
        have := hR.2.1.1
        rw [List.nodup_cons] at this
        exact this.1 (by rw [← e]; simp)
      have hdat := hR.data_at hl
      have hnx := hR.next_at
      by_cases hv : x = v
      · obtain ⟨st1, e1, hR1, -, -, hs1, -⟩ := List_erase_repr (k + 1) hR
          (by simp only [List.length_cons] at hfuel; omega)
        have hxs1 : (xsD ++ x :: xsR).take D.length ++ (xsD ++ x :: xsR).drop (D.length + 1)
            = xsD ++ xsR := by
          rw [hl]
          simp [List.take_append_eq_append_take, List.drop_append_eq_append_drop]
        rw [hxs1] at hR1
        obtain ⟨st2, e2, e3⟩ := ih D xsD xsR k (seen ++ [a]) st1 hR1 hl
          (by simp only [List.length_cons] at hfuel; omega)
        rw [hs1, List.append_assoc, List.singleton_append] at e2
        rw [hs1] at e3
        refine ⟨st2, ?_, ?_⟩
        · simp only [List_removeLoop_visits, List_end, Prog.bind_run, Prog.bind,
            getSentinel_run, hne, List.headD_cons, Prog.pure_run, if_false, getData_run hdat, hv,
            if_true, e1]
          exact e2
        · simp only [List_removeLoop, List_end, Prog.bind_run, Prog.bind, getSentinel_run, hne,
            List.headD_cons, Prog.pure_run, if_false, getData_run hdat, hv, if_true, e1]
          exact e3
      · have hR' : Repr st l ((D ++ [a]) ++ R) ((xsD ++ [x]) ++ xsR) := by simpa using hR
        obtain ⟨st2, e2, e3⟩ := ih (D ++ [a]) (xsD ++ [x]) xsR k (seen ++ [a]) st
          hR' (by simp [hl]) (by simp only [List.length_cons] at hfuel; omega)
        rw [List.append_assoc, List.singleton_append] at e2
        refine ⟨st2, ?_, ?_⟩
        · simp only [List_removeLoop_visits, List_end, Prog.bind_run, Prog.bind,
            getSentinel_run, hne, List.headD_cons, Prog.pure_run, if_false, getData_run hdat, hv,
            getNext_run hnx]
          exact e2
        · simp only [List_removeLoop, List_end, Prog.bind_run, Prog.bind, getSentinel_run, hne,
            List.headD_cons, Prog.pure_run, if_false, getData_run hdat, hv, getNext_run hnx]
          exact e3

/-- Member `remove(value)` visits every data node once, in order. -/
theorem List_remove_visits_run [DecidableEq α] {st : Mem α} {l : Ref} {ns : List Ptr}
    {xs : List α} (fuel : Nat) (v : α) (hR : Repr st l ns xs) (hfuel : ns.length < fuel) :
    ∃ st1, List_remove_visits fuel l v st = .ret ns st1 ∧
      List_remove fuel l v st = .ret () st1 := by
  have hb := hR.2.1.first
  obtain ⟨st1, e1, e2⟩ := List_removeLoop_visits_run l v ns [] [] xs fuel [] st
    (by simpa using hR) rfl hfuel
  refine ⟨st1, ?_, ?_⟩
  · simp only [List_remove_visits, List_begin, Prog.bind_run, Prog.bind, getSentinel_run,
      getNext_run hb.1]
    rw [List.nil_append] at e1
    exact e1
  · simp only [List_remove, List_begin, Prog.bind_run, Prog.bind, getSentinel_run,
      getNext_run hb.1]
    exact e2

/-- Member `clear()` visits every data node once, in order. -/
theorem List_clear_visits_run {st : Mem α} {l : Ref} {ns : List Ptr} {xs : List α}
    (fuel : Nat) (hR : Repr st l ns xs) (hfuel : ns.length < fuel) :
    ∃ st1, List_clear_visits fuel l st = .ret ns st1 ∧ List_clear fuel l st = .ret () st1 := by
  obtain ⟨-, hr, -⟩ := hR
  have hfirst := hr.first
  have hsl := live_of_next hfirst.1
  have hsn : (st.lists l).m_sentinel ∉ ns := (List.nodup_cons.mp hr.1).1
  have hc : List.Chain' (fun a b => nextOf st.nodes a = some b)
      (ns ++ [(st.lists l).m_sentinel]) := by
    have := next_chain_of_linked hr.2
    rw [List.cons_append, List.chain'_cons'] at this
    exact this.2
  have e1 := getNext_run hfirst.1
  have e2 := List_clearLoop_run l ns fuel st hc (List.nodup_cons.mp hr.1).2 hsn hfuel
  have e2v := List_clearLoop_visits_run l ns fuel [] st hc (List.nodup_cons.mp hr.1).2 hsn hfuel
  rw [List.nil_append] at e2v
  have hsl2 : ((ns.foldl Heap.free st.nodes) (st.lists l).m_sentinel).isSome := by
    rw [live_foldl_free]
    simp [hsn, hsl]
  have e3 := storeNext_run (S := Mem.mk (ns.foldl Heap.free st.nodes) st.brk st.lists)
    (a := (st.lists l).m_sentinel) (st.lists l).m_sentinel hsl2
  have e4 := storePrev_run
    (S := Mem.mk ((ns.foldl Heap.free st.nodes).setNext (st.lists l).m_sentinel
      (st.lists l).m_sentinel) st.brk st.lists)
    (a := (st.lists l).m_sentinel) (st.lists l).m_sentinel
    (by simp only [live_setNext]; exact hsl2)
  refine ⟨Mem.mk (((ns.foldl Heap.free st.nodes).setNext (st.lists l).m_sentinel
      (st.lists l).m_sentinel).setPrev (st.lists l).m_sentinel (st.lists l).m_sentinel) st.brk
      (fun r => if r = l then { st.lists l with m_size := 0 } else st.lists r), ?_, ?_⟩
  · simp only [List_clear_visits, Prog.bind_run, Prog.bind, getSentinel_run, e1, e2v, e3, e4,
      setSize_run, Prog.pure_run]
  · simp only [List_clear, Prog.bind_run, Prog.bind, getSentinel_run, e1, e2, e3, e4,
      setSize_run]

/-- Member `reverse()` visits every data node once, in order. -/
theorem List_reverse_visits_run {st : Mem α} {l : Ref} {ns : List Ptr} {xs : List α}
    (fuel : Nat) (hR : Repr st l ns xs) (hfuel : ns.length < fuel) :
    ∃ st1, List_reverse_visits fuel l st = .ret ns st1 ∧
      List_reverse fuel l st = .ret () st1 := by
  obtain ⟨-, hr, -⟩ := hR
  have hfirst := hr.first
  have hlast := hr.last
  have hsn : (st.lists l).m_sentinel ∉ ns := (List.nodup_cons.mp hr.1).1
  have hc : List.Chain' (fun a b => nextOf st.nodes a = some b)
      (ns ++ [(st.lists l).m_sentinel]) := by
    have := next_chain_of_linked hr.2
    rw [List.cons_append, List.chain'_cons'] at this
    exact this.2
  have hc0 : List.Chain' (fun a b =>
      nextOf ((st.nodes.setNext (st.lists l).m_sentinel
        (ns.getLastD (st.lists l).m_sentinel)).setPrev
        (st.lists l).m_sentinel (ns.headD (st.lists l).m_sentinel)) a = some b)
      (ns ++ [(st.lists l).m_sentinel]) := by
    refine next_chain_congr hc ?_
    intro x hx
    rw [List.dropLast_concat] at hx
    have : x ≠ (st.lists l).m_sentinel := fun e => hsn (e ▸ hx)
    simp only [nextOf_setPrev, nextOf_setNext, if_neg this]
  obtain ⟨st1, e1, e2⟩ := List_reverseLoop_visits_run l ns fuel []
    (Mem.mk ((st.nodes.setNext (st.lists l).m_sentinel
      (ns.getLastD (st.lists l).m_sentinel)).setPrev (st.lists l).m_sentinel
      (ns.headD (st.lists l).m_sentinel)) st.brk st.lists)
    hc0 (List.nodup_cons.mp hr.1).2 hsn hfuel
  rw [List.nil_append] at e1
  refine ⟨st1, ?_, ?_⟩
  · simp only [List_reverse_visits, Prog.bind_run, Prog.bind, getSentinel_run,
      getNext_run hfirst.1, swapLinks_run hfirst.1 hlast.2]
    exact e1
  · simp only [List_reverse, Prog.bind_run, Prog.bind, getSentinel_run, getNext_run hfirst.1,
      swapLinks_run hfirst.1 hlast.2]
    exact e2

/-- A ring can be read from its first data node: the sentinel then comes last. -/
theorem Ring.rotate_one {h : Heap α} {s a : Ptr} {ns : List Ptr} (hr : Ring h s (a :: ns)) :
    Ring h a (ns ++ [s]) := by
  obtain ⟨hnd, hc⟩ := hr
  refine ⟨?_, ?_⟩
  · have e : a :: (ns ++ [s]) = (s :: a :: ns).rotate 1 := by
      rw [List.rotate_cons_succ, List.rotate_zero]
      rfl
    rw [e, List.nodup_rotate]
    exact hnd
  · have hc1 : Linked h s a ∧ List.Chain' (Linked h) (a :: (ns ++ [s])) := by
      have : List.Chain' (Linked h) (s :: a :: (ns ++ [s])) := hc
      rw [List.chain'_cons] at this
      exact this
    have := (chain_split (Linked h) a a (ns ++ [s]) []).mpr
      ⟨hc1.2, List.chain'_singleton a, by
        rw [getLastD_snoc]
        exact hc1.1⟩
    exact this

/-- A ring can be read from any of its nodes. -/
theorem Ring.rotate {h : Heap α} :
    ∀ (k : Nat) (s : Ptr) (ns : List Ptr) (r : Ptr) (rs : List Ptr), Ring h s ns →
      (s :: ns).rotate k = r :: rs → Ring h r rs := by
  intro k
  induction k with
  | zero =>
    intro s ns r rs hr e
    rw [List.rotate_zero] at e
    injection e with e1 e2
    rw [← e1, ← e2]
    exact hr
  | succ k ih =>
    intro s ns r rs hr e
    cases ns with
    | nil =>
      rw [List.rotate_singleton] at e
      injection e with e1 e2
      rw [← e1, ← e2]
      exact hr
    | cons a ns =>
      rw [List.rotate_cons_succ] at e
      exact ih a (ns ++ [s]) r rs hr.rotate_one e

theorem getLastD_append_cons (B C : List Ptr) (a d : Ptr) :
    (B ++ a :: C).getLastD d = C.getLastD a := by
  induction B generalizing d with
  | nil => rw [List.nil_append, List.getLastD_cons]
  | cons b B ih =>
    rw [List.cons_append, List.getLastD_cons]
    exact ih b

/-- Member `erase(first, last)` on a range of the ring: reading the ring from `first`, the
nodes up to `last` are `first :: B`.  The loop visits them once, in order. -/
theorem List_erase_range_visits_run {st : Mem α} {l : Ref} {ns : List Ptr} {xs : List α}
    (fuel k : Nat) (first last : Ptr) (B C : List Ptr) (hR : Repr st l ns xs)
    (hrot : ((st.lists l).m_sentinel :: ns).rotate k = first :: (B ++ last :: C))
    (hfuel : B.length + 2 ≤ fuel) :
    ∃ st1, List_erase_range_visits fuel l first last st = .ret (last, first :: B) st1 ∧
      List_erase_range fuel l first last st = .ret last st1 := by
  have hr : Ring st.nodes first (B ++ last :: C) := Ring.rotate k _ ns _ _ hR.2.1 hrot
  obtain ⟨hcA, -, hlk⟩ := hr.chain
  have hlast := hr.last
  rw [getLastD_append_cons] at hlast
  have hnd := hr.1
  obtain ⟨hfn, hnd2⟩ := List.nodup_cons.mp hnd
  obtain ⟨hndB, hndC, hdis⟩ := List.nodup_append.mp hnd2
  have hlm : last ∈ last :: C := List.mem_cons_self _ _
  have hpm : C.getLastD last ∈ last :: C := getLastD_mem last C
  have hne : first ≠ last := fun e => hfn (by
    rw [e]
    exact List.mem_append_right _ hlm)
  have hndfB : (first :: B).Nodup :=
    List.nodup_cons.mpr ⟨fun hm => hfn (List.mem_append_left _ hm), hndB⟩
  have hlnot : last ∉ first :: B := by
    intro hm
    rcases List.mem_cons.mp hm with h0 | h0
    · exact hne h0.symm
    · exact hdis h0 hlm
  have hpnot : ∀ x ∈ first :: B, x ≠ C.getLastD last := by
    intro x hx e
    rcases List.mem_cons.mp hx with h0 | h0
    · exact hfn (by
        rw [← h0, e]
        exact List.mem_append_right _ hpm)
    · exact hdis h0 (e ▸ hpm)
  have hpf : prevOf st.nodes first = some (C.getLastD last) := hlast.2
  have hlp : (st.nodes (C.getLastD last)).isSome := live_of_next hlast.1
  have hll : (st.nodes last).isSome :=
    hr.live last (List.mem_cons_of_mem _ (List.mem_append_right _ hlm))
  have hpath : List.Chain' (fun a b => nextOf st.nodes a = some b) ((first :: B) ++ [last]) := by
    have := (chain_split (fun a b => nextOf st.nodes a = some b) first last B []).mpr
      ⟨next_chain_of_linked hcA, List.chain'_singleton last, hlk.1⟩
    simpa using this
  have hpath1 : List.Chain' (fun a b =>
      nextOf ((st.nodes.setNext (C.getLastD last) last).setPrev last (C.getLastD last)) a
        = some b) ((first :: B) ++ [last]) := by
    refine next_chain_congr hpath ?_
    intro x hx
    rw [List.dropLast_concat] at hx
    simp only [nextOf_setPrev, nextOf_setNext, if_neg (hpnot x hx)]
  have hrun := List_eraseLoop_run last B first 0 fuel
    (Mem.mk ((st.nodes.setNext (C.getLastD last) last).setPrev last (C.getLastD last))
      st.brk st.lists) hpath1 hndfB hlnot hfuel
  have hrunv := List_eraseLoop_visits_run last B first 0 fuel []
    (Mem.mk ((st.nodes.setNext (C.getLastD last) last).setPrev last (C.getLastD last))
      st.brk st.lists) hpath1 hndfB hlnot hfuel
  have hlst1 : (((st.nodes.setNext (C.getLastD last) last) last).isSome) := by
    rw [live_setNext]
    exact hll
  have e1 := getPrev_run hpf
  have e2 := storeNext_run (S := st) last hlp
  have e3 : getPrev first (Mem.mk (st.nodes.setNext (C.getLastD last) last) st.brk st.lists) =
      .ret (C.getLastD last)
        (Mem.mk (st.nodes.setNext (C.getLastD last) last) st.brk st.lists) :=
    getPrev_run (by simpa using hpf)
  have e4 := storePrev_run
    (S := Mem.mk (st.nodes.setNext (C.getLastD last) last) st.brk st.lists)
    (C.getLastD last) hlst1
  refine ⟨Mem.mk ((first :: B).foldl Heap.free
      ((st.nodes.setNext (C.getLastD last) last).setPrev last (C.getLastD last)))
      st.brk
      (fun r => if r = l then
        { st.lists l with m_size := wrapSub (st.lists l).m_size (B.length + 1) }
        else st.lists r), ?_, ?_⟩
  · simp only [List_erase_range_visits, hne, if_false, Prog.bind_run, Prog.bind, e1, e2, e3, e4,
      hrunv]
    simp only [getSize_run, setSize_run, Prog.pure_run, Nat.zero_add, List.nil_append]
  · simp only [List_erase_range, hne, if_false, Prog.bind_run, Prog.bind, e1, e2, e3, e4, hrun]
    simp only [getSize_run, setSize_run, Prog.pure_run, Nat.zero_add]

/-- Member `erase(first, last)` on an empty range does not enter its loop. -/
theorem List_erase_range_visits_empty (st : Mem α) (l : Ref) (fuel : Nat) (it : Ptr) :
    List_erase_range_visits fuel l it it st = .ret (it, []) st := by
  simp [List_erase_range_visits]

end VisitMembers

/-! ## `front()` and `back()` of a non-empty list, and facts about the example states -/

section EndsLemmas
variable {α : Type}

/-- On a non-empty list `back()` returns the last element. -/
theorem List_back_getLast {st : Mem α} {l : Ref} {ns : List Ptr} {xs : List α}
    (hR : Repr st l ns xs) (hne : xs ≠ []) : List_back l st = .ret (xs.getLast hne) st := by
  have hns : ns ≠ [] := fun e => by
    have := hR.length
    rw [e] at this
    exact hne (List.length_eq_zero.mp this.symm)
  have hR1 : Repr st l (ns.dropLast ++ [ns.getLast hns]) (xs.dropLast ++ [xs.getLast hne]) := by
    rw [List.dropLast_append_getLast, List.dropLast_append_getLast]
    exact hR
  exact List_back_run hR1

/-- On a non-empty list `front()` returns the first element. -/
theorem List_front_head {st : Mem α} {l : Ref} {ns : List Ptr} {xs : List α}
    (hR : Repr st l ns xs) (hne : xs ≠ []) : List_front l st = .ret (xs.head hne) st := by
  cases xs with
  | nil => exact absurd rfl hne
  | cons x ys =>
    cases ns with
    | nil =>
      have := hR.length
      exact absurd this (by simp)
    | cons a C => exact List_front_run hR

end EndsLemmas

section ExampleLemmas4

theorem exNew_repr : VRepr exNew 0 [] := by decide

theorem exPacked_repr : VRepr exPacked 0 [10, 20] := by decide

theorem exPacked_fresh : VFresh exPacked := by
  intro a ha
  have h1 : 1 ≤ a := ha
  have hne : ¬ (a = 0) := fun e => by
    rw [e] at h1
    exact absurd h1 (by decide)
  show (if a = 0 then _ else none) = none
  rw [if_neg hne]

theorem exRoomy_repr0 : VRepr exRoomy 0 [10, 20] := by decide

theorem exRoomy_repr1 : VRepr exRoomy 1 [40] := by decide

theorem exRoomy_fresh : VFresh exRoomy := by
  intro a ha
  have h2 : 2 ≤ a := ha
  have hne0 : ¬ (a = 0) := fun e => by
    rw [e] at h2
    exact absurd h2 (by decide)
  have hne1 : ¬ (a = 1) := fun e => by
    rw [e] at h2
    exact absurd h2 (by decide)
  show (if a = 0 then _ else if a = 1 then _ else none) = none
  rw [if_neg hne0, if_neg hne1]

theorem exRoomy_apart :
    ∀ p, (exRoomy.vecs 1).m_data = some p → (exRoomy.vecs 0).m_data ≠ some p := by
  intro p hp e
  have h0 : (some 1 : Option Ptr) = some p := hp
  have h1 : (some 0 : Option Ptr) = some p := e
  rw [← h0] at h1
  exact absurd h1 (by decide)

theorem exMem_apart_rev : ∀ x ∈ (exMem.lists 0).m_sentinel :: [1, 2, 3],
    x ∉ (exMem.lists 1).m_sentinel :: [5, 6] := by decide

end ExampleLemmas4

section Claims4
variable {α : Type}

/-- C31: `clear()` leaves the container empty.  On a `List` it returns, `size()` is `0`,
the list keeps its sentinel, the `next` and the `prev` link of the sentinel point to the
sentinel, so that `begin()` and `end()` are the same iterator, and every former data node
is released.  On a `Vector` it returns, `size()` is `0`, and `capacity()` and the buffer
are the ones it had.  On a container that is empty already, `clear()` returns in the very
state it was called in. -/
theorem C31_clear_empties [ValType α] (st : Mem α) (l : Ref) (ns : List Ptr) (xs : List α)
    (fuel : Nat) (vst : VMem α) (v : Ref) (ys : List α) (est : Mem α) (el : Ref)
    (evst : VMem α) (ev : Ref)
    (hR : Repr st l ns xs) (hfuel : ns.length < fuel) (hV : VRepr vst v ys)
    (hE : Repr est el [] []) (hVE : VRepr evst ev []) :
    (∃ st1, List_clear fuel l st = .ret () st1 ∧ List_size l st1 = .ret 0 st1 ∧
      List_empty l st1 = .ret true st1 ∧
      (st1.lists l).m_sentinel = (st.lists l).m_sentinel ∧
      nextOf st1.nodes (st.lists l).m_sentinel = some (st.lists l).m_sentinel ∧
      prevOf st1.nodes (st.lists l).m_sentinel = some (st.lists l).m_sentinel ∧
      List_begin l st1 = .ret (st.lists l).m_sentinel st1 ∧
      List_end l st1 = .ret (st.lists l).m_sentinel st1 ∧
      (∀ x ∈ ns, st1.nodes x = none)) ∧
    (∃ vst1, Vector_clear v vst = .ret () vst1 ∧ Vector_size v vst1 = .ret 0 vst1 ∧
      Vector_capacity v vst1 = .ret (vst.vecs v).m_capacity vst1 ∧
      Vector_data v vst1 = .ret (vst.vecs v).m_data vst1 ∧ VRepr vst1 v [] ∧
      (∀ x, some x ≠ (vst.vecs v).m_data → vst1.bufs x = vst.bufs x)) ∧
    List_clear fuel el est = .ret () est ∧ Vector_clear ev evst = .ret () evst := by
  refine ⟨?_, ?_, List_clear_empty_same fuel hE (by omega), Vector_clear_empty_same hVE.1⟩
  · obtain ⟨st1, e, hR1, -, -, hs, -, -, hfree⟩ := List_clear_repr fuel hR hfuel
    have hlk := hR1.2.1.first
    have hb := hR1.begin_run
    have he := List_end_run st1 l
    have hz : (st1.lists l).m_size = 0 := hR1.1
    rw [hs] at hlk hb he
    refine ⟨st1, e, hR1.size_run, ?_, hs, hlk.1, hlk.2, hb, he, hfree⟩
    rw [List_empty_run, hz]
    rfl
  · obtain ⟨vst1, e, hR1, -, -, -, hv, -, -, hbufs⟩ := Vector_clear_owns hV
    refine ⟨vst1, e, by rw [Vector_size_run, hv], by rw [Vector_capacity_run, hv], ?_, hR1,
      hbufs⟩
    simp only [Vector_data, Prog.bind_run, Prog.bind, getVec_run, hv, Prog.pure_run]

/-- Instance of C31: `clear()` on the example list `[10, 20, 30]`, on the example vector
`[10, 20, 30]`, and on the empty example list and vector. -/
theorem C31_clear_empties_witness :
    (∃ st1, List_clear 4 0 exMem = .ret () st1 ∧ List_size 0 st1 = .ret 0 st1 ∧
      List_empty 0 st1 = .ret true st1 ∧
      (st1.lists 0).m_sentinel = (exMem.lists 0).m_sentinel ∧
      nextOf st1.nodes (exMem.lists 0).m_sentinel = some (exMem.lists 0).m_sentinel ∧
      prevOf st1.nodes (exMem.lists 0).m_sentinel = some (exMem.lists 0).m_sentinel ∧
      List_begin 0 st1 = .ret (exMem.lists 0).m_sentinel st1 ∧
      List_end 0 st1 = .ret (exMem.lists 0).m_sentinel st1 ∧
      (∀ x ∈ [1, 2, 3], st1.nodes x = none)) ∧
    (∃ vst1, Vector_clear 0 exTwo = .ret () vst1 ∧ Vector_size 0 vst1 = .ret 0 vst1 ∧
      Vector_capacity 0 vst1 = .ret (exTwo.vecs 0).m_capacity vst1 ∧
      Vector_data 0 vst1 = .ret (exTwo.vecs 0).m_data vst1 ∧ VRepr vst1 0 [] ∧
      (∀ x, some x ≠ (exTwo.vecs 0).m_data → vst1.bufs x = exTwo.bufs x)) ∧
    List_clear 4 0 exNil = .ret () exNil ∧ Vector_clear 0 exNew = .ret () exNew :=
  C31_clear_empties exMem 0 [1, 2, 3] [10, 20, 30] 4 exTwo 0 [10, 20, 30] exNil 0 exNew 0
    exMem_repr0 (by decide) exTwo_repr0 exNil_repr exNew_repr

/-- C32: `a.swap(b)` exchanges the complete states of two containers.  For two `List`s it
returns, `a` then owns the nodes, the element sequence and the size of `b` and `b` those of
`a`; for two `Vector`s it returns, `a` then owns the buffer, the element sequence, the size
and the capacity of `b` and `b` those of `a`.  A second `a.swap(b)` returns in the state the
first one was called in, and `a.swap(a)` returns in the very state it was called in. -/
theorem C32_swap_exchanges (st : Mem α) (a b : Ref) (ns ms : List Ptr) (xs ys : List α)
    (vst : VMem α) (va vb : Ref) (us ws : List α)
    (hA : Repr st a ns xs) (hB : Repr st b ms ys) (hVA : VRepr vst va us)
    (hVB : VRepr vst vb ws) :
    (∃ st1, List_swap a b st = .ret () st1 ∧ Repr st1 a ms ys ∧ Repr st1 b ns xs ∧
      List_size a st1 = .ret ys.length st1 ∧ List_size b st1 = .ret xs.length st1 ∧
      List_swap a b st1 = .ret () st) ∧
    List_swap a a st = .ret () st ∧
    (∃ vst1, Vector_swap va vb vst = .ret () vst1 ∧ VRepr vst1 va ws ∧ VRepr vst1 vb us ∧
      Vector_size va vst1 = .ret ws.length vst1 ∧ Vector_size vb vst1 = .ret us.length vst1 ∧
      Vector_capacity va vst1 = .ret (vst.vecs vb).m_capacity vst1 ∧
      Vector_capacity vb vst1 = .ret (vst.vecs va).m_capacity vst1 ∧
      Vector_swap va vb vst1 = .ret () vst) ∧
    Vector_swap va va vst = .ret () vst := by
  refine ⟨?_, List_swap_self st a, ?_, Vector_swap_self vst va⟩
  · obtain ⟨st1, e1, e2⟩ := List_swap_twice st a b
    have hst : st1 = Mem.mk st.nodes st.brk
        (fun r => if r = b then st.lists a else if r = a then st.lists b else st.lists r) := by
      have := List_swap_run st a b
      rw [e1] at this
      injection this
    have hA1 : Repr st1 a ms ys := by
      rw [hst]
      refine hB.of_obj_eq ?_ (fun _ _ => rfl)
      show (if a = b then st.lists a else if a = a then st.lists b else st.lists a) = _
      by_cases c : a = b
      · rw [if_pos c, c]
      · rw [if_neg c, if_pos rfl]
    have hB1 : Repr st1 b ns xs := by
      rw [hst]
      refine hA.of_obj_eq ?_ (fun _ _ => rfl)
      show (if b = b then st.lists a else if b = a then st.lists b else st.lists b) = _
      rw [if_pos rfl]
    exact ⟨st1, e1, hA1, hB1, hA1.size_run, hB1.size_run, e2⟩
  · obtain ⟨vst1, e1, e2⟩ := Vector_swap_twice vst va vb
    obtain ⟨vst2, e3, hbufs, -, -, hva, hvb, -⟩ := Vector_swap_spec vst va vb
    have hst : vst1 = vst2 := by
      rw [e1] at e3
      injection e3
    have hA1 : VRepr vst1 va ws := by
      rw [hst]
      exact hVB.of_obj_same hva hbufs
    have hB1 : VRepr vst1 vb us := by
      rw [hst]
      exact hVA.of_obj_same hvb hbufs
    refine ⟨vst1, e1, hA1, hB1, by rw [Vector_size_run, hA1.1], by rw [Vector_size_run, hB1.1],
      ?_, ?_, e2⟩
    · rw [Vector_capacity_run, hst, hva]
    · rw [Vector_capacity_run, hst, hvb]

/-- Instance of C32: the two example lists and the two example vectors swapped. -/
theorem C32_swap_exchanges_witness :
    (∃ st1, List_swap 0 1 exMem = .ret () st1 ∧ Repr st1 0 [5, 6] [40, 50] ∧
      Repr st1 1 [1, 2, 3] [10, 20, 30] ∧
      List_size 0 st1 = .ret [40, 50].length st1 ∧
      List_size 1 st1 = .ret [10, 20, 30].length st1 ∧
      List_swap 0 1 st1 = .ret () exMem) ∧
    List_swap 0 0 exMem = .ret () exMem ∧
    (∃ vst1, Vector_swap 0 1 exTwo = .ret () vst1 ∧ VRepr vst1 0 [40, 50] ∧
      VRepr vst1 1 [10, 20, 30] ∧
      Vector_size 0 vst1 = .ret [40, 50].length vst1 ∧
      Vector_size 1 vst1 = .ret [10, 20, 30].length vst1 ∧
      Vector_capacity 0 vst1 = .ret (exTwo.vecs 1).m_capacity vst1 ∧
      Vector_capacity 1 vst1 = .ret (exTwo.vecs 0).m_capacity vst1 ∧
      Vector_swap 0 1 vst1 = .ret () exTwo) ∧
    Vector_swap 0 0 exTwo = .ret () exTwo :=
  C32_swap_exchanges exMem 0 1 [1, 2, 3] [5, 6] [10, 20, 30] [40, 50] exTwo 0 1 [10, 20, 30]
    [40, 50] exMem_repr0 exMem_repr1 exTwo_repr0 exTwo_repr1

/-- C33: the capacity `insert(pos, value)` leaves.  On a vector with room (`size() <
capacity()`) it returns and the capacity is the one before; on a vector of capacity `0` it
returns (the allocator being able to hand out one slot) and the capacity is `1`; on a full
vector of capacity `c > 0` it returns (the allocator being able to hand out `2 * c` slots)
and the capacity is exactly `2 * c`; the size grows by one each time.  So five insertions,
one at a time and at any valid positions, into a default-constructed vector (the allocator
being able to hand out `12` slots) return and leave the capacities `1, 2, 4, 4, 8`. -/
theorem C33_insert_growth [ValType α] (sa : VMem α) (va : Ref) (xa : List α) (ia : Nat)
    (sb : VMem α) (vb : Ref) (xb : List α) (ib : Nat) (sc : VMem α) (vc : Ref)
    (xc : List α) (ic : Nat) (value : α) (s0 : VMem α) (w : Ref) (i1 i2 i3 i4 i5 : Nat)
    (x1 x2 x3 x4 x5 : α)
    (hRa : VRepr sa va xa) (hia : ia ≤ xa.length)
    (hroom : (sa.vecs va).m_size < (sa.vecs va).m_capacity)
    (hfb : VFresh sb) (hRb : VRepr sb vb xb) (hib : ib ≤ xb.length)
    (hzero : (sb.vecs vb).m_capacity = 0) (havb : 1 ≤ sb.avail)
    (hfc : VFresh sc) (hRc : VRepr sc vc xc) (hic : ic ≤ xc.length)
    (hfull : (sc.vecs vc).m_size = (sc.vecs vc).m_capacity)
    (hpos : 0 < (sc.vecs vc).m_capacity) (havc : 2 * (sc.vecs vc).m_capacity ≤ sc.avail)
    (hf0 : VFresh s0) (hav0 : 12 ≤ s0.avail) (h1 : i1 ≤ 0) (h2 : i2 ≤ 1) (h3 : i3 ≤ 2)
    (h4 : i4 ≤ 3) (h5 : i5 ≤ 4) :
    (∃ t, Vector_insert va (VIter.mk (sa.vecs va).m_data ia) value sa =
        .ret (VIter.mk (t.vecs va).m_data ia) t ∧
      Vector_size va t = .ret (xa.length + 1) t ∧
      Vector_capacity va t = .ret (sa.vecs va).m_capacity t) ∧
    (∃ t, Vector_insert vb (VIter.mk (sb.vecs vb).m_data ib) value sb =
        .ret (VIter.mk (t.vecs vb).m_data ib) t ∧
      Vector_size vb t = .ret (xb.length + 1) t ∧ Vector_capacity vb t = .ret 1 t) ∧
    (∃ t, Vector_insert vc (VIter.mk (sc.vecs vc).m_data ic) value sc =
        .ret (VIter.mk (t.vecs vc).m_data ic) t ∧
      Vector_size vc t = .ret (xc.length + 1) t ∧
      Vector_capacity vc t = .ret (2 * (sc.vecs vc).m_capacity) t) ∧
    (∃ t0 t1, Vector_ctor w s0 = .ret () t0 ∧
      Vector_insertCaps w [(i1, x1), (i2, x2), (i3, x3), (i4, x4), (i5, x5)] t0 =
        .ret [1, 2, 4, 4, 8] t1) := by
  refine ⟨?_, ?_, ?_, ?_⟩
  · obtain ⟨t, e, -, hv, -⟩ := Vector_insert_spare ia value hRa hia hroom
    refine ⟨t, e, ?_, ?_⟩
    · rw [Vector_size_run, hv]
    · rw [Vector_capacity_run, hv]
  · have hnot : ¬ (sb.vecs vb).m_size < (sb.vecs vb).m_capacity := by
      rw [hzero]
      exact Nat.not_lt_zero _
    obtain ⟨t, e, -, -, -, -, hsz, hcap, -⟩ := Vector_insert_owns ib value hfb hRb hib
      (fun _ => by
        rw [if_pos hzero]
        exact havb)
    refine ⟨t, e, ?_, ?_⟩
    · rw [Vector_size_run, hsz]
    · rw [Vector_capacity_run, hcap, if_neg hnot, if_pos hzero]
  · have hnot : ¬ (sc.vecs vc).m_size < (sc.vecs vc).m_capacity := by
      rw [hfull]
      exact lt_irrefl _
    have hnz : ¬ ((sc.vecs vc).m_capacity = 0) := by omega
    obtain ⟨t, e, -, -, -, -, hsz, hcap, -⟩ := Vector_insert_owns ic value hfc hRc hic
      (fun _ => by
        rw [if_neg hnz]
        omega)
    refine ⟨t, e, ?_, ?_⟩
    · rw [Vector_size_run, hsz]
    · rw [Vector_capacity_run, hcap, if_neg hnot, if_neg hnz, Nat.mul_comm]
  · obtain ⟨t0, e0, hO0, hf0', -, hv0, hav0', -⟩ := Vector_ctor_owns s0 w hf0
    have hcap0 : (t0.vecs w).m_capacity = 0 := by rw [hv0]
    obtain ⟨t1, e1⟩ := Vector_insertCaps_run w
      [(i1, x1), (i2, x2), (i3, x3), (i4, x4), (i5, x5)] t0 [] hf0' hO0.1
      ⟨h1, h2, h3, h4, h5, trivial⟩
      (by
        rw [hcap0, hav0']
        simp only [List.length_nil, List.length_cons, AllocFits, doublingCapacity]
        simp
        omega)
    rw [hcap0] at e1
    exact ⟨t0, t1, e0, e1⟩

/-- Instance of C33: an insertion into the example vector with room (`[10, 20]`, capacity
`4`), into the empty example vector and into the full example vector (`[10, 20]`,
capacity `2`), and the five insertions of the test of `insert`. -/
theorem C33_insert_growth_witness :
    (∃ t, Vector_insert 0 (VIter.mk (exSpare.vecs 0).m_data 1) 7 exSpare =
        .ret (VIter.mk (t.vecs 0).m_data 1) t ∧
      Vector_size 0 t = .ret ([10, 20].length + 1) t ∧
      Vector_capacity 0 t = .ret (exSpare.vecs 0).m_capacity t) ∧
    (∃ t, Vector_insert 0 (VIter.mk (exNew.vecs 0).m_data 0) 7 exNew =
        .ret (VIter.mk (t.vecs 0).m_data 0) t ∧
      Vector_size 0 t = .ret (([] : List Nat).length + 1) t ∧
      Vector_capacity 0 t = .ret 1 t) ∧
    (∃ t, Vector_insert 0 (VIter.mk (exPacked.vecs 0).m_data 1) 7 exPacked =
        .ret (VIter.mk (t.vecs 0).m_data 1) t ∧
      Vector_size 0 t = .ret ([10, 20].length + 1) t ∧
      Vector_capacity 0 t = .ret (2 * (exPacked.vecs 0).m_capacity) t) ∧
    (∃ t0 t1, Vector_ctor 0 exNew = .ret () t0 ∧
      Vector_insertCaps 0 [(0, 10), (1, 20), (0, 30), (2, 40), (1, 50)] t0 =
        .ret [1, 2, 4, 4, 8] t1) :=
  C33_insert_growth exSpare 0 [10, 20] 1 exNew 0 [] 0 exPacked 0 [10, 20] 1 7 exNew 0
    0 1 0 2 1 10 20 30 40 50 exSpare_repr (by decide) (by decide) exNew_fresh exNew_repr
    (by decide) rfl (by decide) exPacked_fresh exPacked_repr (by decide) rfl (by decide)
    (by decide) exNew_fresh (by decide) (by decide) (by decide) (by decide) (by decide)
    (by decide)

/-- C35: `Queue` is first-in-first-out over its `List`.  After `x1 .. xn` (`n ≥ 1`) have
been pushed onto a default-constructed queue the size is `n`, `front()` returns `x1` and
`back()` returns `xn`; alternating `front()` and `pop()` until the queue is empty yields
`x1, .., xn`, and `empty()` then holds with size `0`.  A push onto a non-empty queue
returns and leaves `front()` as it was, with the pushed value at `back()`; a push onto an
empty queue, where the assertion of `front()` fails, makes the pushed value `front()`. -/
theorem C35_queue_fifo [Inhabited α] (st0 : Mem α) (q0 : Ref) (x : α) (rest : List α)
    (fuel : Nat) (st : Mem α) (q : Ref) (ns : List Ptr) (y : α) (ys : List α) (v : α)
    (est : Mem α) (e0 : Ref)
    (hf0 : Fresh st0) (hfuel : rest.length + 1 < fuel) (hf : Fresh st)
    (hR : Repr st q ns (y :: ys)) (hfe : Fresh est) (hE : Repr est e0 [] []) :
    (∃ st1 st2 st3, Queue_ctor q0 st0 = .ret () st1 ∧
      Queue_pushAll q0 (x :: rest) st1 = .ret () st2 ∧
      Queue_size q0 st2 = .ret (rest.length + 1) st2 ∧ Queue_front q0 st2 = .ret x st2 ∧
      Queue_back q0 st2 = .ret (rest.getLastD x) st2 ∧
      Queue_drain q0 fuel [] st2 = .ret (x :: rest) st3 ∧
      Queue_empty q0 st3 = .ret true st3 ∧ Queue_size q0 st3 = .ret 0 st3) ∧
    (∃ st1, Queue_front q st = .ret y st ∧ Queue_push q v st = .ret () st1 ∧
      Queue_front q st1 = .ret y st1 ∧ Queue_back q st1 = .ret v st1 ∧
      Queue_size q st1 = .ret (ys.length + 2) st1) ∧
    (∃ st1, Queue_front e0 est = .raise .assertion est ∧ Queue_push e0 v est = .ret () st1 ∧
      Queue_front e0 st1 = .ret v st1 ∧ Queue_back e0 st1 = .ret v st1 ∧
      Queue_size e0 st1 = .ret 1 st1) := by
  refine ⟨?_, ?_, ?_⟩
  · obtain ⟨st1, e1, hR1, hf1, -⟩ := List_ctor_repr q0 hf0
    obtain ⟨st2, ns2, e2, hR2, -⟩ := Queue_pushAll_run q0 (x :: rest) st1 [] [] hf1 hR1
    rw [List.nil_append] at hR2
    obtain ⟨st3, e3, hR3⟩ := Queue_drain_run q0 ns2.length ns2 (x :: rest) fuel [] st2 rfl hR2
      (by rw [hR2.length]; exact hfuel)
    rw [List.nil_append] at e3
    have hz : (st3.lists q0).m_size = 0 := hR3.1
    have hback := List_back_getLast hR2 (List.cons_ne_nil x rest)
    rw [List.getLast_eq_getLastD] at hback
    refine ⟨st1, st2, st3, e1, e2, hR2.size_run, List_front_head hR2 (List.cons_ne_nil x rest),
      hback, e3, ?_, hR3.size_run⟩
    show List_empty q0 st3 = _
    rw [List_empty_run, hz]
    rfl
  · obtain ⟨st1, e1, hR1, hb, hfr⟩ := Queue_push_ends v hf hR
    have hs1 := hR1.size_run
    rw [List.length_append, List.length_singleton, List.length_cons] at hs1
    exact ⟨st1, List_front_head hR (List.cons_ne_nil y ys), e1, hfr, hb, hs1⟩
  · obtain ⟨st1, e1, hR1, hb, hfr⟩ := Queue_push_ends v hfe hE
    exact ⟨st1, (List_front_back_empty hE.1).1, e1, hfr, hb, hR1.size_run⟩

/-- Instance of C35: `1, 2, 3` pushed onto a default-constructed queue and taken off again,
and `push(7)` on a queue over the example list `[10, 20, 30]` and over the empty example
list. -/
theorem C35_queue_fifo_witness :
    (∃ st1 st2 st3, Queue_ctor 2 exMem = .ret () st1 ∧
      Queue_pushAll 2 (1 :: [2, 3]) st1 = .ret () st2 ∧
      Queue_size 2 st2 = .ret ([2, 3].length + 1) st2 ∧ Queue_front 2 st2 = .ret 1 st2 ∧
      Queue_back 2 st2 = .ret ([2, 3].getLastD 1) st2 ∧
      Queue_drain 2 5 [] st2 = .ret (1 :: [2, 3]) st3 ∧
      Queue_empty 2 st3 = .ret true st3 ∧ Queue_size 2 st3 = .ret 0 st3) ∧
    (∃ st1, Queue_front 0 exMem = .ret 10 exMem ∧ Queue_push 0 7 exMem = .ret () st1 ∧
      Queue_front 0 st1 = .ret 10 st1 ∧ Queue_back 0 st1 = .ret 7 st1 ∧
      Queue_size 0 st1 = .ret ([20, 30].length + 2) st1) ∧
    (∃ st1, Queue_front 0 exNil = .raise .assertion exNil ∧
      Queue_push 0 7 exNil = .ret () st1 ∧
      Queue_front 0 st1 = .ret 7 st1 ∧ Queue_back 0 st1 = .ret 7 st1 ∧
      Queue_size 0 st1 = .ret 1 st1) :=
  C35_queue_fifo exMem 2 1 [2, 3] 5 exMem 0 [1, 2, 3] 10 [20, 30] 7 exNil 0 exMem_fresh
    (by decide) exMem_fresh exMem_repr0 exNil_fresh exNil_repr

/-- C36: `List::operator!=` returns true exactly when both the sizes and the sentinels
differ.  On two lists that own their nodes apart from each other and hold equally many
elements, `a == b` and `a != b` both return false, so that `!=` is not the negation of
`==` there; on a list compared with itself `==` returns true and `!=` false. -/
theorem C36_list_ne_not_negation (st : Mem α) (a b : Ref) (ns ms : List Ptr)
    (xs ys : List α) (hA : Repr st a ns xs) (hB : Repr st b ms ys)
    (hdis : ∀ x ∈ (st.lists a).m_sentinel :: ns, x ∉ (st.lists b).m_sentinel :: ms)
    (hlen : xs.length = ys.length) :
    List_ne a b st = .ret (decide ((st.lists a).m_size ≠ (st.lists b).m_size ∧
      (st.lists a).m_sentinel ≠ (st.lists b).m_sentinel)) st ∧
    List_size a st = List_size b st ∧
    List_eq a b st = .ret false st ∧ List_ne a b st = .ret false st ∧
    List_eq a a st = .ret true st ∧ List_ne a a st = .ret false st := by
  have hne : (st.lists a).m_sentinel ≠ (st.lists b).m_sentinel := by
    intro e
    exact hdis _ (List.mem_cons_self _ _) (by rw [e]; exact List.mem_cons_self _ _)
  have hsz : (st.lists a).m_size = (st.lists b).m_size := by
    rw [hA.1, hB.1, hA.length, hB.length, hlen]
  refine ⟨?_, ?_, ?_, ?_, ?_, ?_⟩
  · rw [List_ne_run]
    congr 1
    simp only [Bool.decide_and]
  · rw [hA.size_run, hB.size_run, hlen]
  · rw [List_eq_run]
    simp [hne]
  · rw [List_ne_run]
    simp [hsz]
  · rw [List_eq_run]
    simp
  · rw [List_ne_run]
    simp

/-- Instance of C36: the two example lists that both hold `[10, 20]` are neither equal nor
unequal. -/
theorem C36_list_ne_not_negation_witness :
    List_ne 0 1 exPair = .ret (decide ((exPair.lists 0).m_size ≠ (exPair.lists 1).m_size ∧
      (exPair.lists 0).m_sentinel ≠ (exPair.lists 1).m_sentinel)) exPair ∧
    List_size 0 exPair = List_size 1 exPair ∧
    List_eq 0 1 exPair = .ret false exPair ∧ List_ne 0 1 exPair = .ret false exPair ∧
    List_eq 0 0 exPair = .ret true exPair ∧ List_ne 0 0 exPair = .ret false exPair :=
  C36_list_ne_not_negation exPair 0 1 [1, 2] [4, 5] [10, 20] [10, 20] exPair_repr0
    exPair_repr1 exPair_apart rfl

/-- C38: `reverse()` is an involution.  On a list with the nodes `ns` and the elements
`xs` the first call returns and leaves the nodes and the elements in reverse order and the
size as it was; the second call returns in the very state the first one was called in, so
that the element sequence, the `next` and the `prev` link of every node and the size are
the original ones. -/
theorem C38_reverse_involution (st : Mem α) (l : Ref) (ns : List Ptr) (xs : List α)
    (fuel : Nat) (hR : Repr st l ns xs) (hfuel : ns.length < fuel) :
    ∃ st1, List_reverse fuel l st = .ret () st1 ∧ Repr st1 l ns.reverse xs.reverse ∧
      List_size l st1 = .ret xs.length st1 ∧ List_reverse fuel l st1 = .ret () st ∧
      List_size l st = .ret xs.length st := by
  obtain ⟨st1, e1, hR1, e2⟩ := List_reverse_twice fuel hR hfuel
  refine ⟨st1, e1, hR1, ?_, e2, hR.size_run⟩
  have := hR1.size_run
  rw [List.length_reverse] at this
  exact this

/-- Instance of C38: `reverse()` twice on the example list `[10, 20, 30]`. -/
theorem C38_reverse_involution_witness :
    ∃ st1, List_reverse 4 0 exMem = .ret () st1 ∧
      Repr st1 0 [1, 2, 3].reverse [10, 20, 30].reverse ∧
      List_size 0 st1 = .ret [10, 20, 30].length st1 ∧ List_reverse 4 0 st1 = .ret () exMem ∧
      List_size 0 exMem = .ret [10, 20, 30].length exMem :=
  C38_reverse_involution exMem 0 [1, 2, 3] [10, 20, 30] 4 exMem_repr0 (by decide)

end Claims4

/-! ## Allocation sizes that do not wrap -/

section WrapAgreement
variable {α : Type}

/-- A count whose byte size fits `size_t` is allocated in full. -/
theorem allocSlots_eq [ValSizeof α] {n : Nat} (h : n * ValSizeof.sizeof α < 2 ^ 64) :
    allocSlots α n = n := by
  unfold allocSlots
  rw [Nat.mod_eq_of_lt h, Nat.mul_div_cancel _ ValSizeof.sizeof_pos]

/-- A count whose byte size fits `size_t` is itself below `2 ^ 64`. -/
theorem count_lt_of_fits (α : Type) [ValSizeof α] {n : Nat}
    (h : n * ValSizeof.sizeof α < 2 ^ 64) : n < 2 ^ 64 :=
  lt_of_le_of_lt (Nat.le_mul_of_pos_right n ValSizeof.sizeof_pos) h

/-- The allocation of a count whose byte size fits `size_t`. -/
theorem opNew_sized_eq [ValSizeof α] {n : Nat} (h : n * ValSizeof.sizeof α < 2 ^ 64) :
    (opNew_sized n : Prog (VMem α) (Option Ptr)) = opNew n := by
  unfold opNew_sized
  rw [allocSlots_eq h]

/-- `_reallocate` for a capacity whose byte size fits `size_t`. -/
theorem Vector__reallocate_wrap_eq [ValType α] [ValSizeof α] (this : Ref) {n : Nat}
    (h : n * ValSizeof.sizeof α < 2 ^ 64) :
    (Vector__reallocate_wrap this n : Prog (VMem α) Unit) = Vector__reallocate this n := by
  unfold Vector__reallocate_wrap Vector__reallocate
  rw [opNew_sized_eq h]

/-- `reserve(n)` for a capacity that is not asked for or whose byte size fits `size_t`. -/
theorem Vector_reserve_wrap_eq [ValType α] [ValSizeof α] (this : Ref) (n : Nat)
    (st : VMem α)
    (h : (st.vecs this).m_capacity < n → n * ValSizeof.sizeof α < 2 ^ 64) :
    Vector_reserve_wrap this n st = Vector_reserve this n st := by
  by_cases c : n ≤ (st.vecs this).m_capacity
  · simp [Vector_reserve_wrap, Vector_reserve, Prog.bind, c, getVec]
  · have hn : n * ValSizeof.sizeof α < 2 ^ 64 := h (by omega)
    simp only [Vector_reserve_wrap, Vector_reserve, Prog.bind_run, Prog.bind, getVec_run, c,
      Bool.false_eq_true, if_false, Prog.pure_run, Vector__reallocate_wrap_eq this hn]

/-- `reserve(n)` when the allocation fails, whatever the byte count is. -/
theorem Vector_reserve_wrap_fail [ValType α] [ValSizeof α] {st : VMem α} {v : Ref} {n : Nat}
    (h : (st.vecs v).m_capacity < n) (hav : ¬ allocSlots α n ≤ st.avail) :
    Vector_reserve_wrap v n st = .raise .bad_alloc st := by
  have c : ¬ n ≤ (st.vecs v).m_capacity := by omega
  simp only [Vector_reserve_wrap, Vector__reallocate_wrap, opNew_sized, opNew, Prog.bind_run,
    Prog.bind, getVec_run, c, Bool.false_eq_true, if_false, Prog.pure_run, hav]

/-- `resize(n, value)` for a size that needs no larger buffer or whose byte size fits
`size_t`. -/
theorem Vector_resize_wrap_eq [ValType α] [ValSizeof α] (this : Ref) (n : Nat) (value : α)
    (st : VMem α)
    (h : (st.vecs this).m_size < n → (st.vecs this).m_capacity < n →
      n * ValSizeof.sizeof α < 2 ^ 64) :
    Vector_resize_wrap this n value st = Vector_resize this n value st := by
  by_cases c1 : n < (st.vecs this).m_size
  · simp only [Vector_resize_wrap, Vector_resize, Prog.bind_run, Prog.bind, getVec_run, c1,
      if_true]
  · by_cases c2 : n > (st.vecs this).m_size
    · by_cases c3 : n > (st.vecs this).m_capacity
      · simp only [Vector_resize_wrap, Vector_resize, Prog.bind_run, Prog.bind, getVec_run,
          c1, c2, c3, if_true, if_false,
          Vector_reserve_wrap_eq this n st (fun _ => h c2 c3)]
      · simp only [Vector_resize_wrap, Vector_resize, Prog.bind_run, Prog.bind, getVec_run,
          c1, c2, c3, if_true, if_false]
    · simp only [Vector_resize_wrap, Vector_resize, Prog.bind_run, Prog.bind, getVec_run,
        c1, c2, if_false]

/-- The constructor `Vector(size, value)` for a size whose byte size fits `size_t`. -/
theorem Vector_ctor_fill_wrap_eq [ValSizeof α] (this : Ref) (size : Nat) (value : α)
    (st : VMem α) (h : size * ValSizeof.sizeof α < 2 ^ 64) :
    Vector_ctor_fill_wrap this size value st = Vector_ctor_fill this size value st := by
  by_cases c : size > 0
  · simp only [Vector_ctor_fill_wrap, Vector_ctor_fill, Prog.bind_run, Prog.bind, setData,
      setVSize, setCapacity, getVec, c, if_true, opNew_sized_eq h]
  · simp only [Vector_ctor_fill_wrap, Vector_ctor_fill, Prog.bind_run, Prog.bind, setData,
      setVSize, setCapacity, c, if_false]

/-- The constructor `Vector(std::initializer_list)` for a list whose byte size fits
`size_t`. -/
theorem Vector_ctor_init_wrap_eq [ValSizeof α] (this : Ref) (list : List α) (st : VMem α)
    (h : list.length * ValSizeof.sizeof α < 2 ^ 64) :
    Vector_ctor_init_wrap this list st = Vector_ctor_init this list st := by
  by_cases c : list.length > 0
  · simp only [Vector_ctor_init_wrap, Vector_ctor_init, Prog.bind_run, Prog.bind, setData,
      setVSize, setCapacity, getVec, c, if_true, opNew_sized_eq h]
  · simp only [Vector_ctor_init_wrap, Vector_ctor_init, Prog.bind_run, Prog.bind, setData,
      setVSize, setCapacity, getVec, c, if_true, if_false]

/-- The copy constructor for a source whose capacity has a byte size that fits `size_t`. -/
theorem Vector_ctor_copy_wrap_eq [ValSizeof α] (this other : Ref) (st : VMem α)
    (h : (st.vecs other).m_capacity * ValSizeof.sizeof α < 2 ^ 64) :
    Vector_ctor_copy_wrap this other st = Vector_ctor_copy this other st := by
  by_cases ho : other = this
  · subst ho
    by_cases c : (st.vecs other).m_capacity > 0
    · simp only [Vector_ctor_copy_wrap, Vector_ctor_copy, Prog.bind_run, Prog.bind, setData,
        setVSize, setCapacity, getVec, c, if_true, opNew_sized_eq h]
    · simp only [Vector_ctor_copy_wrap, Vector_ctor_copy, Prog.bind_run, Prog.bind, setData,
        setVSize, setCapacity, getVec, c, if_true, if_false]
  · by_cases c : (st.vecs other).m_capacity > 0
    · simp only [Vector_ctor_copy_wrap, Vector_ctor_copy, Prog.bind_run, Prog.bind, setData,
        setVSize, setCapacity, getVec, ho, c, if_true, if_false, opNew_sized_eq h]
    · simp only [Vector_ctor_copy_wrap, Vector_ctor_copy, Prog.bind_run, Prog.bind, setData,
        setVSize, setCapacity, getVec, ho, c, if_true, if_false]

/-- The copy assignment for a source whose capacity has a byte size that fits `size_t`. -/
theorem Vector_assign_copy_wrap_eq [ValType α] [ValSizeof α] (this other temp : Ref)
    (st : VMem α)
    (h : this ≠ other → (st.vecs other).m_capacity * ValSizeof.sizeof α < 2 ^ 64) :
    Vector_assign_copy_wrap this other temp st = Vector_assign_copy this other temp st := by
  by_cases hne : this ≠ other
  · unfold Vector_assign_copy_wrap Vector_assign_copy
    rw [if_pos hne, if_pos hne]
    simp only [Prog.bind_run, Prog.bind, Vector_ctor_copy_wrap_eq temp other st (h hne)]
  · unfold Vector_assign_copy_wrap Vector_assign_copy
    rw [if_neg hne, if_neg hne]

/-- The assignment of a list whose byte size fits `size_t`. -/
theorem Vector_assign_init_wrap_eq [ValType α] [ValSizeof α] (this : Ref) (list : List α)
    (temp : Ref) (st : VMem α) (h : list.length * ValSizeof.sizeof α < 2 ^ 64) :
    Vector_assign_init_wrap this list temp st = Vector_assign_init this list temp st := by
  simp only [Vector_assign_init_wrap, Vector_assign_init, Prog.bind_run, Prog.bind,
    Vector_ctor_init_wrap_eq temp list st h]

/-- `shrinkToFit()` on a vector whose size has a byte size that fits `size_t`. -/
theorem Vector_shrinkToFit_wrap_eq [ValType α] [ValSizeof α] (this : Ref) (st : VMem α)
    (h : ¬ (st.vecs this).m_capacity ≤ (st.vecs this).m_size →
      (st.vecs this).m_size * ValSizeof.sizeof α < 2 ^ 64) :
    Vector_shrinkToFit_wrap this st = Vector_shrinkToFit this st := by
  by_cases c : (st.vecs this).m_capacity ≤ (st.vecs this).m_size
  · simp only [Vector_shrinkToFit_wrap, Vector_shrinkToFit, Prog.bind_run, Prog.bind,
      getVec_run, c, if_true]
  · simp only [Vector_shrinkToFit_wrap, Vector_shrinkToFit, Prog.bind_run, Prog.bind,
      getVec_run, c, if_false, Vector__reallocate_wrap_eq this (h c)]

end WrapAgreement

/-! ## Reference arguments that are not invalidated -/

section RefAgreement
variable {α : Type}

theorem ValRef.read_obj (x : α) (st : VMem α) : (ValRef.obj x).read st = .ret x st := rfl

/-- A read through a reference leaves the state as it is. -/
theorem ValRef.read_state {r : ValRef α} {st st1 : VMem α} {x : α}
    (h : r.read st = .ret x st1) : st1 = st := by
  cases r with
  | obj y =>
    rw [ValRef.read_obj] at h
    injection h with _ h2
    exact h2.symm
  | elem p i =>
    simp only [ValRef.read, readAt] at h
    split at h
    · split at h
      · injection h with _ h2
        exact h2.symm
      · cases h
    · cases h

/-- A reference that reads a value is bound to an outside object or to a slot of a live
buffer. -/
theorem ValRef.live_of_read {p : Ptr} {i : Nat} {st : VMem α} {x : α}
    (h : (ValRef.elem p i).read st = .ret x st) : (st.bufs p).isSome := by
  simp only [ValRef.read, readAt] at h
  cases hb : st.bufs p with
  | none => rw [hb] at h; cases h
  | some blk => rfl

/-- A reference reads the same value in a state that agrees on the buffer it points into. -/
theorem ValRef.read_congr {r : ValRef α} {st st1 : VMem α} {x : α}
    (h : r.read st = .ret x st) (hb : ∀ p i, r = .elem p i → st1.bufs p = st.bufs p) :
    r.read st1 = .ret x st1 := by
  cases r with
  | obj y =>
    rw [ValRef.read_obj] at h ⊢
    injection h with h1 _
    rw [h1]
  | elem p i =>
    have e := hb p i rfl
    simp only [ValRef.read, readAt] at h ⊢
    rw [e]
    cases hq : st.bufs p with
    | none => rw [hq] at h; cases h
    | some blk =>
      rw [hq] at h
      simp only at h ⊢
      cases hs : blk.slot i with
      | none => rw [hs] at h; cases h
      | some y =>
        rw [hs] at h
        simp only at h ⊢
        injection h with h1 _
        rw [h1]

/-- A reference that is not bound to an element of the vector `v` reads the same value
after a member function of `v` ran. -/
theorem ValRef.read_after_step {r : ValRef α} {st st1 : VMem α} {v : Ref} {x : α}
    (hf : VFresh st) (h : r.read st = .ret x st) (hout : r.Outside (st.vecs v).m_data)
    (hs : VStep st st1 v) : r.read st1 = .ret x st1 := by
  refine ValRef.read_congr h ?_
  intro p i hr
  subst hr
  have hlive := ValRef.live_of_read h
  have hlt : p < st.brk := by
    by_contra c
    rw [hf p (Nat.le_of_not_lt c)] at hlive
    cases hlive
  exact hs.2.2.1 p (fun e => hout e.symm) hlt

/-- The doubled capacity computed in `size_t` when its byte size fits `size_t`. -/
theorem grownCapacity_wrap_eq [ValSizeof α] {c : Nat}
    (h : grownCapacity c * ValSizeof.sizeof α < 2 ^ 64) :
    grownCapacity_wrap c = grownCapacity c := by
  unfold grownCapacity_wrap
  unfold grownCapacity at h ⊢
  by_cases c0 : c = 0
  · rw [if_pos c0, if_pos c0]
  · rw [if_neg c0] at h
    rw [if_neg c0, if_neg c0, Nat.mod_eq_of_lt (count_lt_of_fits α h)]

theorem lt_grownCapacity (c : Nat) : c < grownCapacity c := by
  unfold grownCapacity
  split <;> omega

/-- `pushBack` with a reference argument that reads `value` and is not bound to an element
of a full vector does what `pushBack` does with the value `value`. -/
theorem Vector_pushBack_ref_eq [ValType α] [ValSizeof α] {st : VMem α} {v : Ref}
    {xs : List α} (r : ValRef α) (value : α) (hf : VFresh st) (hR : VRepr st v xs)
    (hread : r.read st = .ret value st)
    (hout : (st.vecs v).m_size = (st.vecs v).m_capacity → r.Outside (st.vecs v).m_data)
    (hfit : (st.vecs v).m_size = (st.vecs v).m_capacity →
      grownCapacity (st.vecs v).m_capacity * ValSizeof.sizeof α < 2 ^ 64) :
    Vector_pushBack_ref v r st = Vector_pushBack v value st := by
  by_cases hfull : (st.vecs v).m_size = (st.vecs v).m_capacity
  · have hgt := lt_grownCapacity (st.vecs v).m_capacity
    have hw := Vector_reserve_wrap_eq v (grownCapacity (st.vecs v).m_capacity) st
      (fun _ => hfit hfull)
    by_cases hav : grownCapacity (st.vecs v).m_capacity ≤ st.avail
    · obtain ⟨s1, e1, -, -, -, hstep, -⟩ := Vector_reserve_owns
        (grownCapacity (st.vecs v).m_capacity) hf hR (fun _ => hav)
      have hr1 := ValRef.read_after_step hf hread (hout hfull) hstep
      unfold grownCapacity at hw e1
      simp only [Vector_pushBack_ref, Vector_pushBack, Prog.bind_run, Prog.bind, getVec_run,
        hfull, if_true, grownCapacity_wrap_eq (hfit hfull), hw, e1, hr1]
      simp only [grownCapacity, hw, e1, hr1]
    · have e1 := Vector_reserve_fail hgt hav
      unfold grownCapacity at hw e1
      simp only [Vector_pushBack_ref, Vector_pushBack, Prog.bind_run, Prog.bind, getVec_run,
        hfull, if_true, grownCapacity_wrap_eq (hfit hfull), hw, e1]
      simp only [grownCapacity, hw, e1]
  · simp only [Vector_pushBack_ref, Vector_pushBack, Prog.bind_run, Prog.bind, getVec_run,
      hfull, if_false, Prog.pure_run, hread]

/-- Allocation failure in `pushBack` with a reference argument: the state is untouched,
whatever the argument is bound to. -/
theorem Vector_pushBack_ref_fail [ValType α] [ValSizeof α] {st : VMem α} {v : Ref}
    (r : ValRef α) (hfull : (st.vecs v).m_size = (st.vecs v).m_capacity)
    (hgt : (st.vecs v).m_capacity < grownCapacity_wrap (st.vecs v).m_capacity)
    (hav : ¬ allocSlots α (grownCapacity_wrap (st.vecs v).m_capacity) ≤ st.avail) :
    Vector_pushBack_ref v r st = .raise .bad_alloc st := by
  simp only [Vector_pushBack_ref, Prog.bind_run, Prog.bind, getVec_run, hfull, if_true,
    Vector_reserve_wrap_fail hgt hav]

end RefAgreement

/-! ## `insert` with a reference argument that is no element of the vector -/

section InsertRef
variable {α : Type}

/-- `insert` with a reference argument that reads `value` and is not bound to an element of
the vector does what `insert` does with the value `value`. -/
theorem Vector_insert_ref_eq [ValType α] [ValSizeof α] {st : VMem α} {v : Ref}
    {xs : List α} (i : Nat) (r : ValRef α) (value : α)
    (hfr : ¬ (st.vecs v).m_size < (st.vecs v).m_capacity → VFresh st)
    (hR : VRepr st v xs) (hi : i ≤ xs.length) (hread : r.read st = .ret value st)
    (hout : r.Outside (st.vecs v).m_data)
    (hfit : ¬ (st.vecs v).m_size < (st.vecs v).m_capacity →
      grownCapacity (st.vecs v).m_capacity * ValSizeof.sizeof α < 2 ^ 64) :
    Vector_insert_ref v (VIter.mk (st.vecs v).m_data i) r st =
      Vector_insert v (VIter.mk (st.vecs v).m_data i) value st := by
  have hsz := hR.1
  have hle := hR.2.1
  by_cases hsp : (st.vecs v).m_size < (st.vecs v).m_capacity
  · have hdn : (st.vecs v).m_data ≠ none := by
      intro e
      have := hR.2.2.1 e
      omega
    obtain ⟨a, ha⟩ := Option.ne_none_iff_exists'.mp hdn
    obtain ⟨f, hbuf, hfx⟩ := hR.buf ha
    have hlive : ∀ j, j < xs.length → (f j).isSome := by
      intro j hj
      rw [hfx j hj]
      simp [List.getElem?_eq_getElem hj]
    have hsp' : xs.length < (st.vecs v).m_capacity := by rw [← hsz]; exact hsp
    rw [ha] at hout
    by_cases hlt : i < xs.length
    · obtain ⟨w, hw⟩ := Option.isSome_iff_exists.mp (hlive (xs.length - 1) (by omega))
      obtain ⟨blk0, hb01, hb02, hb03⟩ := hbuf
      have em := moveFrom_run hb01 (by rw [hb03]; exact hw)
      have ec := constructAt_run
        (S := st.setBuf a (some (blk0.set (xs.length - 1) (some (ValType.movedFrom w)))))
        (b := a) (K := blk0.set (xs.length - 1) (some (ValType.movedFrom w)))
        (i := xs.length) w (by simp) (by simp [hb02, hsp'])
      have h1 : BufIs ((st.setBuf a (some (blk0.set (xs.length - 1)
          (some (ValType.movedFrom w))))).setBuf a (some ((blk0.set (xs.length - 1)
          (some (ValType.movedFrom w))).set xs.length (some w)))) a (st.vecs v).m_capacity
          (fun j => if j = xs.length then some w
            else if j = xs.length - 1 then some (ValType.movedFrom w) else f j) :=
        Exists.intro ((blk0.set (xs.length - 1) (some (ValType.movedFrom w))).set xs.length
          (some w)) ⟨by simp, by simp [hb02], fun j => by simp only [Block.set_slot, hb03]⟩
      have hs1 : SameBut st ((st.setBuf a (some (blk0.set (xs.length - 1)
          (some (ValType.movedFrom w))))).setBuf a (some ((blk0.set (xs.length - 1)
          (some (ValType.movedFrom w))).set xs.length (some w)))) [a] :=
        ⟨rfl, rfl, rfl, fun x hx => by
          have : x ≠ a := fun e => hx (by simp [e])
          simp [this]⟩
      obtain ⟨s2, e2, -, hs2⟩ := shift_loop_spec (n := xs.length) (d := i) (f := f) hlt hlive
        h1
        (by
          intro j
          by_cases c0 : j = xs.length
          · rw [if_pos c0, if_pos c0, hw]
          · rw [if_neg c0, if_neg c0]
            by_cases c1 : j = xs.length - 1
            · have c2 : j + 1 = xs.length := by omega
              rw [if_pos c1, if_pos c2, c1, hw]
              rfl
            · have c2 : ¬ (j + 1 = xs.length) := by omega
              rw [if_neg c1, if_neg c2])
      have hr2 : r.read s2 = .ret value s2 := by
        refine ValRef.read_congr hread ?_
        intro p k hr
        subst hr
        have hpa : p ≠ a := fun e => hout (by rw [e])
        rw [hs2.2.2.2 p (by simp [hpa]), hs1.2.2.2 p (by simp [hpa])]
      simp only [Vector_insert_ref, Vector_insert, Prog.bind_run, Prog.bind, Vector_begin_run,
        ha, vdistance_run, toNat_sub_zero, getVec_run, hsp', if_true, hsz, hlt, em, ec, e2,
        hr2]
    · simp only [Vector_insert_ref, Vector_insert, Prog.bind_run, Prog.bind, Vector_begin_run,
        ha, vdistance_run, toNat_sub_zero, getVec_run, hsp', if_true, hsz, hlt, if_false,
        hread]
  · have hfit' := hfit hsp
    have hf := hfr hsp
    have hcap : (st.vecs v).m_capacity = xs.length := by omega
    have hw := grownCapacity_wrap_eq hfit'
    have hnw : (opNew_sized (grownCapacity (st.vecs v).m_capacity) :
        Prog (VMem α) (Option Ptr)) = opNew (grownCapacity (st.vecs v).m_capacity) :=
      opNew_sized_eq hfit'
    generalize hnc : grownCapacity (st.vecs v).m_capacity = nc at hw hnw
    have hnc' : (if (st.vecs v).m_capacity = 0 then 1 else (st.vecs v).m_capacity * 2) = nc :=
      hnc
    have hroom : xs.length + 1 ≤ nc := by
      rw [← hnc', hcap]; split <;> omega
    by_cases hav : nc ≤ st.avail
    · cases hd : (st.vecs v).m_data with
      | none =>
        obtain ⟨hxs, hs0, hc0⟩ := hR.null hd
        subst hxs
        have hi0 : i = 0 := by simpa using hi
        subst hi0
        have hfull0 : ¬ 0 < (st.vecs v).m_capacity := by omega
        have hr1 : r.read (VMem.mk (fun x => if x = st.brk then
            some (Block.mk nc (fun _ => none)) else st.bufs x) (st.brk + 1) (st.avail - nc)
            st.vecs) = .ret value (VMem.mk (fun x => if x = st.brk then
            some (Block.mk nc (fun _ => none)) else st.bufs x) (st.brk + 1) (st.avail - nc)
            st.vecs) := by
          refine ValRef.read_congr hread ?_
          intro p k hr
          subst hr
          have hlive := ValRef.live_of_read hread
          have hpb : p ≠ st.brk := by
            intro e
            rw [e, hf st.brk (Nat.le_refl _)] at hlive
            cases hlive
          simp [hpb]
        simp only [Vector_insert_ref, Vector_insert, Prog.bind_run, Prog.bind,
          Vector_begin_run, hd, vdistance_run, toNat_sub_zero, getVec_run, hfull0, if_false,
          hw, hnw, hnc', opNew_run hav, hs0, forUp, Prog.pure_run, hr1]
      | some a =>
        rw [hd] at hout
        obtain ⟨f, hbuf, hfx⟩ := hR.buf hd
        have hfull1 : ¬ xs.length < (st.vecs v).m_capacity := by omega
        obtain ⟨hne, hold⟩ := bufIs_old_after_new (n := nc) hf hbuf
        have hlive : ∀ j, j < xs.length → (f j).isSome := by
          intro j hj
          rw [hfx j hj]
          simp [List.getElem?_eq_getElem hj]
        obtain ⟨s1, e1, -, -, h1s⟩ := copy_loop_spec
          (fun k => do let x ← moveFrom (some a) k; constructAt (some st.brk) k x) 0 i 0
          (fun _ => rfl) hne hold bufIs_after_new
          (fun j _ hj => hlive j (by omega)) (by omega)
        have hr1 : r.read s1 = .ret value s1 := by
          refine ValRef.read_congr hread ?_
          intro p k hr
          subst hr
          have hlive := ValRef.live_of_read hread
          have hpa : p ≠ a := fun e => hout (by rw [e])
          have hpb : p ≠ st.brk := by
            intro e
            rw [e, hf st.brk (Nat.le_refl _)] at hlive
            cases hlive
          rw [h1s.2.2.2 p (by simp [hpa, hpb])]
          simp [hpb]
        simp only [Vector_insert_ref, Vector_insert, Prog.bind_run, Prog.bind,
          Vector_begin_run, hd, vdistance_run, toNat_sub_zero, getVec_run, hfull1, if_false,
          hw, hnw, hnc', opNew_run hav, hsz, e1, hr1]
    · simp only [Vector_insert_ref, Vector_insert, Prog.bind_run, Prog.bind,
        Vector_begin_run, vdistance_run, toNat_sub_zero, getVec_run, hsp, if_false, hw, hnw,
        hnc', opNew_fail hav]

/-- Allocation failure in `insert` with a reference argument: the state is untouched,
whatever the argument is bound to. -/
theorem Vector_insert_ref_fail [ValType α] [ValSizeof α] {st : VMem α} {v : Ref} (i : Nat)
    (r : ValRef α) (hfull : ¬ (st.vecs v).m_size < (st.vecs v).m_capacity)
    (hav : ¬ allocSlots α (grownCapacity_wrap (st.vecs v).m_capacity) ≤ st.avail) :
    Vector_insert_ref v (VIter.mk (st.vecs v).m_data i) r st = .raise .bad_alloc st := by
  simp only [Vector_insert_ref, Prog.bind_run, Prog.bind, Vector_begin_run, vdistance_run,
    toNat_sub_zero, getVec_run, hfull, if_false, opNew_sized, opNew_fail hav]

end InsertRef

/-! ## The destructor calls of `clear()` and of the move assignment -/

section DtorRecord
variable {α : Type}

/-- The recording loop calls the destructor of the objects in the slots it walks over, in
order, and ends in the state the loop without the record ends in. -/
theorem destroyLoop_dtors_run (a : Ptr) :
    ∀ (n lo : Nat) (ys seen : List α) (s s1 : VMem α), ys.length = n →
      (∀ j, j < n → slotAt s (some a) (lo + j) = ys[j]?) →
      forUp (fun i => destroyAt (some a) i) n lo s = .ret () s1 →
      destroyLoop_dtors (some a) n lo seen s = .ret (seen ++ ys) s1 := by
  intro n
  induction n with
  | zero =>
    intro lo ys seen s s1 hl _ h
    have hy : ys = [] := List.length_eq_zero.mp hl
    subst hy
    simp only [forUp, Prog.pure_run] at h
    injection h with _ h2
    subst h2
    simp only [destroyLoop_dtors, Prog.pure_run, List.append_nil]
  | succ n ih =>
    intro lo ys seen s s1 hl hs h
    cases ys with
    | nil => cases hl
    | cons y ys =>
      have h0 := hs 0 (Nat.succ_pos n)
      simp only [Nat.add_zero, List.getElem?_cons_zero, slotAt] at h0
      cases hb : s.bufs a with
      | none =>
        rw [hb] at h0
        cases h0
      | some blk =>
        rw [hb] at h0
        have h0' : blk.slot lo = some y := h0
        have er := readAt_run hb h0'
        have ed := destroyAt_run hb h0'
        simp only [forUp, Prog.bind_run, Prog.bind, ed] at h
        have hrest := ih (lo + 1) ys (seen ++ [y]) _ s1
          (by simpa using hl)
          (by
            intro j hj
            have hj1 := hs (j + 1) (by omega)
            simp only [List.getElem?_cons_succ] at hj1
            rw [← hj1]
            have hne : ¬ (lo + (j + 1) = lo) := by omega
            have e : lo + 1 + j = lo + (j + 1) := by omega
            simp only [slotAt, setBuf_bufs, if_true, Block.set_slot, hb, e, hne, if_false])
          h
        simp only [destroyLoop_dtors, Prog.bind_run, Prog.bind, er, ed]
        rw [hrest, List.append_assoc, List.singleton_append]

/-- The recording `destroyRange` returns the objects of the slots it walks over when the
element type has a destructor to run, none otherwise, and ends in the state `destroyRange`
ends in. -/
theorem destroyRange_dtors_run [ValType α] (a : Ptr) (n lo : Nat) (ys : List α)
    (s s1 : VMem α) (hl : ys.length = n)
    (hs : ∀ j, j < n → slotAt s (some a) (lo + j) = ys[j]?)
    (h : destroyRange (some a) n lo s = .ret () s1) :
    destroyRange_dtors (some a) n lo s =
      .ret (if ValType.trivial_dtor α then [] else ys) s1 := by
  cases ht : ValType.trivial_dtor α with
  | true =>
    simp only [destroyRange, ht, if_true, Prog.pure_run] at h
    injection h with _ h2
    subst h2
    simp only [destroyRange_dtors, ht, if_true, Prog.pure_run]
  | false =>
    simp only [destroyRange, ht, Bool.false_eq_true, if_false] at h
    have := destroyLoop_dtors_run a n lo ys [] s s1 hl hs h
    simp only [destroyRange_dtors, ht, Bool.false_eq_true, if_false, this, List.nil_append]

/-- The recording `clear()` returns the elements of the vector when the element type has a
destructor to run, none otherwise, and ends in the state `clear()` ends in. -/
theorem Vector_clear_dtors_run [ValType α] {st sA : VMem α} {v : Ref} {xs : List α}
    (hR : VRepr st v xs) (e : Vector_clear v st = .ret () sA) :
    Vector_clear_dtors v st = .ret (if ValType.trivial_dtor α then [] else xs) sA := by
  cases hd : (st.vecs v).m_data with
  | none =>
    obtain ⟨hxs, hs0, -⟩ := hR.null hd
    subst hxs
    simp only [Vector_clear, Prog.bind_run, Prog.bind, getVec_run, hd, hs0, destroyRange,
      forUp, ite_self, Prog.pure_run] at e
    simp only [Vector_clear_dtors, Prog.bind_run, Prog.bind, getVec_run, hd, hs0,
      destroyRange_dtors, destroyLoop_dtors, ite_self, Prog.pure_run, e]
  | some a =>
    have hsz := hR.1
    simp only [Vector_clear, Prog.bind_run, Prog.bind, getVec_run, hd, hsz] at e
    cases hdr : destroyRange (some a) xs.length 0 st with
    | ret u s1 =>
      rw [hdr] at e
      have hds := destroyRange_dtors_run a xs.length 0 xs st s1 rfl
        (by
          intro j hj
          have := hR.2.2.2.2 j hj
          rw [hd] at this
          rw [Nat.zero_add]
          exact this)
        hdr
      simp only [Vector_clear_dtors, Prog.bind_run, Prog.bind, getVec_run, hd, hsz, hds]
      simp only at e
      cases hset : setVSize v 0 s1 with
      | ret u2 s2 =>
        rw [hset] at e
        simp only [Prog.pure_run]
        injection e with _ h2
        rw [h2]
      | raise x s => rw [hset] at e; cases e
      | undefined => rw [hset] at e; cases e
      | spent => rw [hset] at e; cases e
    | raise x s => rw [hdr] at e; cases e
    | undefined => rw [hdr] at e; cases e
    | spent => rw [hdr] at e; cases e

/-- The recording move assignment on distinct objects returns the former elements of the
target when the element type has a destructor to run, none otherwise, and ends in the
state the move assignment ends in. -/
theorem Vector_assign_move_dtors_run [ValType α] {st : VMem α} {this : Ref}
    {xs : List α} (other : Ref) (hne : this ≠ other) (hR : VRepr st this xs) :
    ∃ st1, Vector_assign_move_dtors this other st =
        .ret (if ValType.trivial_dtor α then [] else xs) st1 ∧
      Vector_assign_move this other st = .ret () st1 := by
  obtain ⟨s1, e1, -⟩ := Vector_dtor_spec hR
  obtain ⟨sA, ec, ed⟩ := Vector_dtor_steps e1
  have ecd := Vector_clear_dtors_run hR ec
  obtain ⟨st1, e, -⟩ := Vector_assign_move_spec other hne e1
  refine ⟨st1, ?_, e⟩
  simp only [Vector_assign_move, ne_eq, hne, not_false_eq_true, if_true, Prog.bind_run,
    Prog.bind, ec, getVec_run, ed, setData, setVSize, setCapacity] at e
  injection e with _ h2
  simp only [Vector_assign_move_dtors, ne_eq, hne, not_false_eq_true, if_true, Prog.bind_run,
    Prog.bind, ecd, getVec_run, ed, setData, setVSize, setCapacity, Prog.pure_run]
  rw [h2]

/-- Without its record, the recording loop is the loop of destructor calls: in every state
the two have the same outcome. -/
theorem destroyLoop_dtors_discard (p : Option Ptr) :
    ∀ (n lo : Nat) (seen : List α) (s : VMem α),
      forUp (fun i => destroyAt p i) n lo s = (destroyLoop_dtors p n lo seen s).discard := by
  intro n
  induction n with
  | zero =>
    intro lo seen s
    rfl
  | succ n ih =>
    intro lo seen s
    simp only [forUp, destroyLoop_dtors, Prog.bind_run, Prog.bind]
    cases p with
    | none => rfl
    | some b =>
      cases hb : s.bufs b with
      | none =>
        simp only [destroyAt, readAt, hb, Outcome.discard]
      | some blk =>
        cases hs : blk.slot lo with
        | none =>
          simp only [destroyAt, readAt, hb, hs, Outcome.discard]
        | some x =>
          rw [readAt_run hb hs]
          simp only [destroyAt_run hb hs]
          exact ih (lo + 1) (seen ++ [x]) _

/-- Without its record, the recording `destroyRange` is `destroyRange`. -/
theorem destroyRange_dtors_discard [ValType α] (p : Option Ptr) (n lo : Nat) (s : VMem α) :
    destroyRange p n lo s = (destroyRange_dtors p n lo s).discard := by
  cases ht : ValType.trivial_dtor α with
  | true =>
    simp only [destroyRange, destroyRange_dtors, ht, if_true]
    rfl
  | false =>
    simp only [destroyRange, destroyRange_dtors, ht, Bool.false_eq_true, if_false]
    exact destroyLoop_dtors_discard p n lo [] s

/-- Without its record, the recording `clear()` is `clear()`. -/
theorem Vector_clear_dtors_discard [ValType α] (this : Ref) (s : VMem α) :
    Vector_clear this s = (Vector_clear_dtors this s).discard := by
  simp only [Vector_clear, Vector_clear_dtors, Prog.bind_run, Prog.bind, getVec_run,
    destroyRange_dtors_discard]
  cases destroyRange_dtors (s.vecs this).m_data (s.vecs this).m_size 0 s with
  | ret ds s1 => rfl
  | raise x s1 => rfl
  | undefined => rfl
  | spent => rfl

/-- Without its record, the recording move assignment is the move assignment: in every
state the two have the same outcome. -/
theorem Vector_assign_move_dtors_discard [ValType α] (this other : Ref) (s : VMem α) :
    Vector_assign_move this other s = (Vector_assign_move_dtors this other s).discard := by
  by_cases hne : this ≠ other
  · unfold Vector_assign_move Vector_assign_move_dtors
    rw [if_pos hne, if_pos hne]
    simp only [Prog.bind_run, Prog.bind, Vector_clear_dtors_discard]
    cases Vector_clear_dtors this s with
    | ret ds s1 =>
      simp only [Outcome.discard, getVec_run]
      cases opDelete (s1.vecs this).m_data s1 with
      | ret u s2 => rfl
      | raise x s2 => rfl
      | undefined => rfl
      | spent => rfl
    | raise x s1 => rfl
    | undefined => rfl
    | spent => rfl
  · unfold Vector_assign_move Vector_assign_move_dtors
    rw [if_neg hne, if_neg hne]
    rfl

/-- A recording self move assignment does nothing and calls no destructor. -/
theorem Vector_assign_move_dtors_self [ValType α] (st : VMem α) (this : Ref) :
    Vector_assign_move_dtors this this st = .ret [] st := by
  simp [Vector_assign_move_dtors]

end DtorRecord

/-! ## Calls with sizes computed in `size_t`, within their preconditions -/

section CallsAgree
variable {α : Type}

/-- Within its precondition, a call with the sizes computed in `size_t` does what the call
with unbounded sizes does. -/
theorem VecCall.run_eq_exec [ValType α] [ValSizeof α] (c : VecCall α) (fuel : Nat)
    (st : VMem α) (vs : List Ref) (hW : VWorld st vs) (hp : c.Pre st vs) :
    c.run fuel st = c.exec fuel st := by
  obtain ⟨hv, hq⟩ := hp
  cases c with
  | ctor this => rfl
  | ctorFill this size value =>
    exact Vector_ctor_fill_wrap_eq this size value st hq
  | ctorInit this list => exact Vector_ctor_init_wrap_eq this list st hq
  | ctorCopy this other => exact Vector_ctor_copy_wrap_eq this other st hq
  | ctorMove this other => rfl
  | assignCopy this other temp =>
    refine Vector_assign_copy_wrap_eq this other temp st ?_
    intro h
    simpa only [VecCall.request, h, if_false] using hq
  | assignMove this other => rfl
  | assignInit this list temp => exact Vector_assign_init_wrap_eq this list temp st hq
  | reserve this n =>
    refine Vector_reserve_wrap_eq this n st ?_
    intro h
    have c : ¬ n ≤ (st.vecs this).m_capacity := by omega
    simpa only [VecCall.request, c, if_false] using hq
  | resize this n value =>
    refine Vector_resize_wrap_eq this n value st ?_
    intro h1 h2
    have c : n > (st.vecs this).m_size ∧ n > (st.vecs this).m_capacity := ⟨h1, h2⟩
    simpa only [VecCall.request, c, and_self, if_true] using hq
  | resizeDefault this n =>
    refine Vector_resize_wrap_eq this n ValType.dflt st ?_
    intro h1 h2
    have c : n > (st.vecs this).m_size ∧ n > (st.vecs this).m_capacity := ⟨h1, h2⟩
    simpa only [VecCall.request, c, and_self, if_true] using hq
  | shrinkToFit this =>
    refine Vector_shrinkToFit_wrap_eq this st ?_
    intro h
    simpa only [VecCall.request, h, if_false] using hq
  | insert this pos value =>
    obtain ⟨hm, i, hi, hpos⟩ := hv
    obtain ⟨xs, hO⟩ := (hW.2.1 this hm).owns
    have e := Vector_insert_ref_eq (v := this) i (ValRef.obj value) value (fun _ => hW.1) hO.1
      (by rw [← hO.1.1]; exact hi) rfl trivial
      (by
        intro h
        simpa only [VecCall.request, h, if_false] using hq)
    show (Vector_insert_ref this pos (ValRef.obj value) st).discard =
      (Vector_insert this pos value st).discard
    rw [hpos, e]
  | pushBack this value =>
    obtain ⟨xs, hO⟩ := (hW.2.1 this hv).owns
    exact Vector_pushBack_ref_eq (ValRef.obj value) value hW.1 hO.1 rfl (fun _ => trivial)
      (by
        intro h
        simpa only [VecCall.request, h, if_true] using hq)
  | popBack this => rfl
  | clear this => rfl
  | erase this pos => rfl
  | eraseRange this first last => rfl
  | swap this other => rfl

/-- A state reached with the sizes computed in `size_t` is reached with unbounded sizes. -/
theorem VReached.reach [ValType α] [ValSizeof α] {st : VMem α} {vs : List Ref}
    (h : VReached st vs) : VReach st vs := by
  induction h with
  | init st hf => exact VReach.init st hf
  | call c fuel st st1 vs _ hp hb hr ih =>
    rw [VecCall.run_eq_exec c fuel st vs ih.world hp] at hr
    exact VReach.call c fuel st st1 vs ih hp.1 hb hr
  | fail c fuel e st st1 vs _ hp hb hr ih =>
    rw [VecCall.run_eq_exec c fuel st vs ih.world hp] at hr
    exact VReach.fail c fuel e st st1 vs ih hp.1 hb hr

end CallsAgree

/-! ## Pushing outside objects onto a stack over a vector -/

section PushAllRef
variable {α : Type}

/-- A sequence of pushes of outside objects, with the sizes computed in `size_t`, does what
the sequence of pushes with unbounded sizes does, as long as the byte size of twice the
final number of elements fits `size_t`. -/
theorem VStack_pushAll_ref_eq [ValType α] [ValSizeof α] (v : Ref) :
    ∀ (vals : List α) (st : VMem α) (xs : List α), VFresh st → VRepr st v xs →
      ((xs.length = 0 ∧ (st.vecs v).m_capacity = 0) ∨
        ∃ k, (st.vecs v).m_capacity = 2 ^ k ∧ xs.length ≤ 2 ^ k ∧
          ∀ j, xs.length ≤ 2 ^ j → k ≤ j) →
      3 * (xs.length + vals.length) ≤ st.avail + (st.vecs v).m_capacity →
      2 * (xs.length + vals.length) * ValSizeof.sizeof α < 2 ^ 64 →
      VStack_pushAll_ref v vals st = VStack_pushAll v vals st := by
  intro vals
  induction vals with
  | nil =>
    intro st xs _ _ _ _ _
    rfl
  | cons x rest ih =>
    intro st xs hf hR hcap hav hfit
    have hsz := hR.1
    have hle := hR.2.1
    simp only [List.length_cons] at hav hfit
    have hg : (st.vecs v).m_size = (st.vecs v).m_capacity →
        grownCapacity (st.vecs v).m_capacity ≤ 2 * (xs.length + (rest.length + 1)) := by
      intro hfull
      unfold grownCapacity
      split <;> omega
    have hhead := Vector_pushBack_ref_eq (ValRef.obj x) x hf hR rfl (fun _ => trivial)
      (fun hfull => lt_of_le_of_lt (Nat.mul_le_mul_right _ (hg hfull)) hfit)
    obtain ⟨s1, e1, hR1, -, hf1, -, -, -, hav1⟩ := Vector_pushBack_owns x hf hR
      (by
        intro hfull
        have := hg hfull
        unfold grownCapacity at this
        split <;> omega)
    obtain ⟨s1', e1', -, -, hcap1⟩ := Vector_pushBackAll_spec v [x] st xs hf hR hcap
      (by simp only [List.length_singleton]; omega)
    have hs : s1' = s1 := by
      simp only [Vector_pushBackAll, Prog.bind_run, Prog.bind, e1, Prog.pure_run] at e1'
      injection e1' with _ h2
      exact h2.symm
    rw [hs] at hcap1
    have hlen : (xs ++ [x]).length = xs.length + 1 := by simp
    have hrest := ih s1 (xs ++ [x]) hf1 hR1 hcap1
      (by rw [hlen]; omega)
      (by
        rw [hlen]
        have e : xs.length + 1 + rest.length = xs.length + (rest.length + 1) := by omega
        rw [e]
        exact hfit)
    simp only [VStack_pushAll_ref, VStack_pushAll, VStack_push_ref, VStack_push, Prog.bind_run,
      Prog.bind, hhead, e1]
    exact hrest

end PushAllRef

/-! ## Claims on reference arguments, allocation sizes and the strong guarantee -/

section Claims5
variable {α : Type}

/-- C10 (amended): for a `Vector` holding `xs` with size `s` and capacity `c`,
`pushBack(value)` with an argument that is not an element of the vector itself when
`s == c` (when the vector is full, `reserve` releases the buffer before the argument is
read), the byte size of the grown buffer fitting `size_t` and the allocator being able to
provide it, returns normally and leaves the elements `xs ++ [value]` and the size `s + 1`;
the capacity is unchanged when `s < c`, becomes `1` when `s = c = 0` and `2 * c` when
`s = c > 0`; a vector built from a three-element literal has capacity `6` after one
`pushBack` of an outside object. -/
theorem C10_vector_pushBack [ValType α] [ValSizeof α] (st : VMem α) (v : Ref) (xs : List α)
    (r : ValRef α) (value : α) (hf : VFresh st) (hR : VRepr st v xs)
    (hread : r.read st = .ret value st)
    (hout : (st.vecs v).m_size = (st.vecs v).m_capacity → r.Outside (st.vecs v).m_data)
    (hfit : (st.vecs v).m_size = (st.vecs v).m_capacity →
      grownCapacity (st.vecs v).m_capacity * ValSizeof.sizeof α < 2 ^ 64)
    (hav : (st.vecs v).m_size = (st.vecs v).m_capacity →
      grownCapacity (st.vecs v).m_capacity ≤ st.avail) :
    (∃ st1 s c c1, Vector_pushBack_ref v r st = .ret () st1 ∧
      VRepr st1 v (xs ++ [value]) ∧
      Vector_size v st = .ret s st ∧ Vector_capacity v st = .ret c st ∧
      Vector_size v st1 = .ret (s + 1) st1 ∧ Vector_capacity v st1 = .ret c1 st1 ∧
      (s < c → c1 = c) ∧ (s = c → c = 0 → c1 = 1) ∧ (s = c → 0 < c → c1 = 2 * c)) ∧
    (∀ (st0 : VMem α) (u : Ref) (x y z w : α), VFresh st0 → 9 ≤ st0.avail →
      6 * ValSizeof.sizeof α < 2 ^ 64 →
      ∃ s1 s2, Vector_ctor_init_wrap u [x, y, z] st0 = .ret () s1 ∧
        Vector_capacity u s1 = .ret 3 s1 ∧
        Vector_pushBack_ref u (.obj w) s1 = .ret () s2 ∧ VRepr s2 u [x, y, z, w] ∧
        Vector_size u s2 = .ret 4 s2 ∧ Vector_capacity u s2 = .ret 6 s2) := by
  constructor
  · rw [Vector_pushBack_ref_eq r value hf hR hread hout hfit]
    obtain ⟨st1, e, hR1, hs1, hc1, -, -⟩ := Vector_pushBack_spec value hf hR hav
    refine ⟨st1, (st.vecs v).m_size, (st.vecs v).m_capacity, (st1.vecs v).m_capacity, e, hR1,
      Vector_size_run st v, Vector_capacity_run st v, ?_, Vector_capacity_run st1 v, ?_, ?_, ?_⟩
    · rw [Vector_size_run, hs1]
    · intro h
      rw [hc1, if_pos h]
    · intro h1 h2
      have : ¬ (st.vecs v).m_size < (st.vecs v).m_capacity := by omega
      rw [hc1, if_neg this, if_pos h2]
    · intro h1 h2
      have : ¬ (st.vecs v).m_size < (st.vecs v).m_capacity := by omega
      have h3 : ¬ (st.vecs v).m_capacity = 0 := by omega
      rw [hc1, if_neg this, if_neg h3, Nat.mul_comm]
  · intro st0 u x y z w hf0 hav0 hfit0
    obtain ⟨s1, e1, hR1, hs1, hc1, hf1, -, ha1⟩ :=
      Vector_ctor_init_spec u [x, y, z] hf0 (by simp only [List.length]; omega)
    have hs1' : (s1.vecs u).m_size = 3 := hs1
    have hc1' : (s1.vecs u).m_capacity = 3 := hc1
    have ha1' : s1.avail = st0.avail - 3 := ha1
    have hq := Vector_pushBack_ref_eq (ValRef.obj w) w hf1 hR1 rfl (fun _ => trivial)
      (by
        intro _
        rw [hc1']
        exact hfit0)
    obtain ⟨s2, e2, hR2, hs2, hc2, -, -⟩ := Vector_pushBack_spec w hf1 hR1
      (by
        intro _
        rw [hc1', ha1']
        simp only [OfNat.ofNat_ne_zero, if_false]
        omega)
    have hq1 : Vector_ctor_init_wrap u [x, y, z] st0 = Vector_ctor_init u [x, y, z] st0 :=
      Vector_ctor_init_wrap_eq u [x, y, z] st0 (by simp only [List.length]; omega)
    refine ⟨s1, s2, by rw [hq1]; exact e1, ?_, by rw [hq]; exact e2, by simpa using hR2, ?_,
      ?_⟩
    · rw [Vector_capacity_run, hc1']
    · rw [Vector_size_run, hs2, hs1']
    · rw [Vector_capacity_run, hc2, hs1', hc1']
      rfl

/-- Instance of C10: `pushBack(40)` on the full vector `[10, 20, 30]`, and on a vector
built from a three-element literal. -/
theorem C10_vector_pushBack_witness :
    (∃ st1 s c c1, Vector_pushBack_ref 0 (ValRef.obj 40) exVec = .ret () st1 ∧
      VRepr st1 0 ([10, 20, 30] ++ [40]) ∧
      Vector_size 0 exVec = .ret s exVec ∧ Vector_capacity 0 exVec = .ret c exVec ∧
      Vector_size 0 st1 = .ret (s + 1) st1 ∧ Vector_capacity 0 st1 = .ret c1 st1 ∧
      (s < c → c1 = c) ∧ (s = c → c = 0 → c1 = 1) ∧ (s = c → 0 < c → c1 = 2 * c)) ∧
    (∀ (st0 : VMem Nat) (u : Ref) (x y z w : Nat), VFresh st0 → 9 ≤ st0.avail →
      6 * ValSizeof.sizeof Nat < 2 ^ 64 →
      ∃ s1 s2, Vector_ctor_init_wrap u [x, y, z] st0 = .ret () s1 ∧
        Vector_capacity u s1 = .ret 3 s1 ∧
        Vector_pushBack_ref u (.obj w) s1 = .ret () s2 ∧ VRepr s2 u [x, y, z, w] ∧
        Vector_size u s2 = .ret 4 s2 ∧ Vector_capacity u s2 = .ret 6 s2) :=
  C10_vector_pushBack exVec 0 [10, 20, 30] (ValRef.obj 40) 40 exVec_fresh exVec_repr rfl
    (fun _ => trivial) (fun _ => by decide) (fun _ => by decide)

/-- C10 as stated fails: on the full example vector `[10, 20, 30]`, whose grown buffer
fits `size_t` and can be allocated, `v.pushBack(v[0])` has undefined behaviour: `reserve`
releases the buffer the argument refers to before the argument is read. -/
theorem C10_counterexample :
    VRepr exVec 0 [10, 20, 30] ∧
    Vector_index_ref 0 0 exVec = .ret (ValRef.elem 0 0) exVec ∧
    (ValRef.elem 0 0 : ValRef Nat).read exVec = .ret 10 exVec ∧
    grownCapacity (exVec.vecs 0).m_capacity * ValSizeof.sizeof Nat < 2 ^ 64 ∧
    grownCapacity (exVec.vecs 0).m_capacity ≤ exVec.avail ∧
    Vector_pushBack_ref 0 (ValRef.elem 0 0) exVec = .undefined :=
  ⟨exVec_repr, rfl, rfl, by decide, by decide, rfl⟩

/-- C12 (amended): for a `Vector` with elements `xs` and capacity `c` and every `n`,
`reserve(n)` changes nothing when `n ≤ c`; when `n > c`, the byte size `n * sizeof(ValType)`
fits `size_t` and the allocator can hand out `n` slots, it returns normally, sets the
capacity to exactly `n` and leaves the size and the element sequence `xs` unchanged. -/
theorem C12_vector_reserve [ValType α] [ValSizeof α] (st : VMem α) (v : Ref) (xs : List α)
    (n : Nat) (hf : VFresh st) (hR : VRepr st v xs)
    (hfit : (st.vecs v).m_capacity < n → n * ValSizeof.sizeof α < 2 ^ 64)
    (hav : (st.vecs v).m_capacity < n → n ≤ st.avail) :
    ∃ st1, Vector_reserve_wrap v n st = .ret () st1 ∧
      (n ≤ (st.vecs v).m_capacity → st1 = st) ∧
      ((st.vecs v).m_capacity < n → Vector_capacity v st1 = .ret n st1) ∧
      Vector_size v st1 = .ret xs.length st1 ∧ VRepr st1 v xs := by
  rw [Vector_reserve_wrap_eq v n st hfit]
  obtain ⟨st1, e, hR1, -, -, -, hsz1, hcap1, hsame, -⟩ := Vector_reserve_owns n hf hR hav
  refine ⟨st1, e, hsame, ?_, by rw [Vector_size_run, hsz1], hR1⟩
  intro h
  rw [Vector_capacity_run, hcap1, if_pos h]

/-- Instance of C12: `reserve(10)` on the example vector `[10, 20, 30]` of capacity `3`. -/
theorem C12_vector_reserve_witness :
    ∃ st1, Vector_reserve_wrap 0 10 exVec = .ret () st1 ∧
      (10 ≤ (exVec.vecs 0).m_capacity → st1 = exVec) ∧
      ((exVec.vecs 0).m_capacity < 10 → Vector_capacity 0 st1 = .ret 10 st1) ∧
      Vector_size 0 st1 = .ret [10, 20, 30].length st1 ∧ VRepr st1 0 [10, 20, 30] :=
  C12_vector_reserve exVec 0 [10, 20, 30] 10 exVec_fresh exVec_repr (fun _ => by decide)
    (fun _ => by decide)

/-- C12 as stated fails: `reserve(2 ^ 62)` on the example vector `[10, 20, 30]` of `int`
elements asks `operator new` for `2 ^ 62 * 4` bytes, which is `0` in `size_t`; the
allocation succeeds and the elements are moved past the end of the buffer it returned,
which is undefined behaviour.  On an empty vector the same call returns with capacity
`2 ^ 62` over a buffer without room for any element. -/
theorem C12_counterexample :
    VRepr exVec 0 [10, 20, 30] ∧ (exVec.vecs 0).m_capacity < 2 ^ 62 ∧
    allocSlots Nat (2 ^ 62) = 0 ∧
    Vector_reserve_wrap 0 (2 ^ 62) exVec = .undefined ∧
    (∃ st1, Vector_reserve_wrap 0 (2 ^ 62) exNew = .ret () st1 ∧
      (st1.vecs 0).m_capacity = 2 ^ 62 ∧ bufLen st1 (st1.vecs 0).m_data = some 0) :=
  ⟨exVec_repr, by decide, by decide, rfl, _, rfl, rfl, rfl⟩

/-- C13 (amended): for a `Vector` with elements `xs`, size `s` and capacity `c`, every `n`
and every value that is no element of the vector, `resize(n, value)` returns normally
when `n ≤ c`, and when `n > c`, the byte size `n * sizeof(ValType)` fits `size_t` and the
allocator can hand out `n` slots; it leaves `size() == n`, the elements `take n xs` when
`n ≤ s` and `xs ++ replicate (n - s) value` when `n > s`, and the capacity exactly `n`
when `n > c` and unchanged otherwise; `resize(n)` is `resize(n, ValType{})`. -/
theorem C13_vector_resize [ValType α] [ValSizeof α] (st : VMem α) (v : Ref) (xs : List α)
    (n : Nat) (value : α) (hf : VFresh st) (hR : VRepr st v xs)
    (hfit : (st.vecs v).m_capacity < n → n * ValSizeof.sizeof α < 2 ^ 64)
    (hav : (st.vecs v).m_capacity < n → n ≤ st.avail) :
    (∃ st1, Vector_resize_wrap v n value st = .ret () st1 ∧
      Vector_size v st1 = .ret n st1 ∧
      VRepr st1 v (if n ≤ xs.length then xs.take n
        else xs ++ List.replicate (n - xs.length) value) ∧
      Vector_capacity v st1 =
        .ret (if (st.vecs v).m_capacity < n then n else (st.vecs v).m_capacity) st1) ∧
    Vector_resize_default_wrap v n st = Vector_resize_wrap v n ValType.dflt st := by
  rw [Vector_resize_wrap_eq v n value st (fun _ h => hfit h)]
  obtain ⟨st1, e, hR1, -, -, -, hsz1, hcap1, -⟩ := Vector_resize_owns n value hf hR hav
  exact ⟨⟨st1, e, by rw [Vector_size_run, hsz1], hR1, by rw [Vector_capacity_run, hcap1]⟩,
    rfl⟩

/-- Instance of C13: `resize(5, 7)` on the example vector `[10, 20, 30]` of capacity `3`. -/
theorem C13_vector_resize_witness :
    (∃ st1, Vector_resize_wrap 0 5 7 exVec = .ret () st1 ∧
      Vector_size 0 st1 = .ret 5 st1 ∧
      VRepr st1 0 (if 5 ≤ [10, 20, 30].length then [10, 20, 30].take 5
        else [10, 20, 30] ++ List.replicate (5 - [10, 20, 30].length) 7) ∧
      Vector_capacity 0 st1 =
        .ret (if (exVec.vecs 0).m_capacity < 5 then 5 else (exVec.vecs 0).m_capacity) st1) ∧
    Vector_resize_default_wrap 0 5 exVec = Vector_resize_wrap 0 5 ValType.dflt exVec :=
  C13_vector_resize exVec 0 [10, 20, 30] 5 7 exVec_fresh exVec_repr (fun _ => by decide)
    (fun _ => by decide)

/-- C13 as stated fails: `resize(2 ^ 62, 7)` on the example vector `[10, 20, 30]` of `int`
elements reserves through `operator new` with `2 ^ 62 * 4` bytes, which is `0` in
`size_t`; the allocation succeeds and the elements are moved past the end of the buffer it
returned, which is undefined behaviour. -/
theorem C13_counterexample :
    VRepr exVec 0 [10, 20, 30] ∧ (exVec.vecs 0).m_capacity < 2 ^ 62 ∧
    allocSlots Nat (2 ^ 62) = 0 ∧
    Vector_resize_wrap 0 (2 ^ 62) 7 exVec = .undefined :=
  ⟨exVec_repr, by decide, by decide, rfl⟩

/-- C16: when the allocation of the new buffer fails during `reserve(n)` (called with
`n > capacity()` on any vector, full or not), during `pushBack(value)` (on a full vector
whose doubled capacity makes `reserve` allocate) or during `insert(pos, value)` (on a full
vector), the call throws `std::bad_alloc` in the very state it was entered in, whatever
the value argument refers to: the buffer, the size, the capacity and the elements of the
vector, and everything else, are what they were before the call. -/
theorem C16_vector_alloc_failure [ValType α] [ValSizeof α] (st : VMem α) (v : Ref) (n : Nat)
    (s2 : VMem α) (v2 : Ref) (r2 : ValRef α) (s3 : VMem α) (v3 : Ref) (i : Nat)
    (r3 : ValRef α)
    (hn : (st.vecs v).m_capacity < n) (hav : ¬ allocSlots α n ≤ st.avail)
    (hfull2 : (s2.vecs v2).m_size = (s2.vecs v2).m_capacity)
    (hgt2 : (s2.vecs v2).m_capacity < grownCapacity_wrap (s2.vecs v2).m_capacity)
    (hav2 : ¬ allocSlots α (grownCapacity_wrap (s2.vecs v2).m_capacity) ≤ s2.avail)
    (hfull3 : ¬ (s3.vecs v3).m_size < (s3.vecs v3).m_capacity)
    (hav3 : ¬ allocSlots α (grownCapacity_wrap (s3.vecs v3).m_capacity) ≤ s3.avail) :
    Vector_reserve_wrap v n st = .raise .bad_alloc st ∧
    Vector_pushBack_ref v2 r2 s2 = .raise .bad_alloc s2 ∧
    Vector_insert_ref v3 (VIter.mk (s3.vecs v3).m_data i) r3 s3 = .raise .bad_alloc s3 :=
  ⟨Vector_reserve_wrap_fail hn hav, Vector_pushBack_ref_fail r2 hfull2 hgt2 hav2,
    Vector_insert_ref_fail i r3 hfull3 hav3⟩

/-- Instance of C16: `reserve(1000)` on the example vector `[10, 20]` of capacity `4`, with
`100` slots left in the allocator, and `pushBack(v[0])` and `insert(begin() + 1, 7)` on the
full example vector `[10, 20, 30]`, with `2` slots left, throw and leave the state
untouched. -/
theorem C16_vector_alloc_failure_witness :
    Vector_reserve_wrap 0 1000 exSpare = .raise .bad_alloc exSpare ∧
    Vector_pushBack_ref 0 (ValRef.elem 0 0) exFull = .raise .bad_alloc exFull ∧
    Vector_insert_ref 0 (VIter.mk (exFull.vecs 0).m_data 1) (ValRef.obj 7) exFull =
      .raise .bad_alloc exFull :=
  C16_vector_alloc_failure exSpare 0 1000 exFull 0 (ValRef.elem 0 0) exFull 0 1 (ValRef.obj 7)
    (by decide) (by decide) (by decide) (by decide) (by decide) (by decide) (by decide)

/-- C17 (amended): in every state reachable from a state without vector objects through
calls of the constructors and of the public operations (assignment, `reserve`, `resize`,
`shrinkToFit`, `insert`, `pushBack`, `popBack`, `clear`, `erase`, `swap`) within their
preconditions `VecCall.Pre` (value arguments that are no elements of a vector, positions
and ranges inside the vector, and a byte size of the buffer asked for that fits `size_t`),
every constructed `Vector` has `m_size ≤ m_capacity`, a buffer of `m_capacity` slots unless
it is null, a live element in every slot of `[0, m_size)` and, when the element type is
not trivially destructible, in no other slot; and in such a state every call within its
precondition returns or throws `std::bad_alloc`. -/
theorem C17_vector_invariant [ValType α] [ValSizeof α] (st : VMem α) (vs : List Ref)
    (h : VReached st vs) :
    (∀ v ∈ vs, (st.vecs v).m_size ≤ (st.vecs v).m_capacity ∧
      ((st.vecs v).m_data ≠ none →
        bufLen st (st.vecs v).m_data = some (st.vecs v).m_capacity) ∧
      (∀ i, i < (st.vecs v).m_size → (slotAt st (st.vecs v).m_data i).isSome) ∧
      (ValType.trivial_dtor α = false →
        ∀ i, (st.vecs v).m_size ≤ i → slotAt st (st.vecs v).m_data i = none)) ∧
    (∀ (c : VecCall α) (fuel : Nat), c.Pre st vs → c.bound st < fuel →
      (∃ st1, c.run fuel st = .ret () st1) ∨
        (∃ st1, c.run fuel st = .raise .bad_alloc st1)) := by
  have hW := h.reach.world
  refine ⟨?_, ?_⟩
  · intro v hv
    obtain ⟨h1, -, h3, h4, h5⟩ := hW.2.1 v hv
    exact ⟨h1, h3, h4, h5⟩
  · intro c fuel hp hfuel
    rw [VecCall.run_eq_exec c fuel st vs hW hp]
    rcases VecCall.total c st vs fuel hW hp.1 hfuel with ⟨s, es, -⟩ | ⟨s, es, -⟩
    · exact Or.inl ⟨s, es⟩
    · exact Or.inr ⟨s, es⟩

/-- Instance of C17: the state `exOne` reached from the empty example memory by
`Vector<int> v{1, 2, 3};`. -/
theorem C17_vector_invariant_witness :
    (∀ v ∈ [0], (exOne.vecs v).m_size ≤ (exOne.vecs v).m_capacity ∧
      ((exOne.vecs v).m_data ≠ none →
        bufLen exOne (exOne.vecs v).m_data = some (exOne.vecs v).m_capacity) ∧
      (∀ i, i < (exOne.vecs v).m_size → (slotAt exOne (exOne.vecs v).m_data i).isSome) ∧
      (ValType.trivial_dtor Nat = false →
        ∀ i, (exOne.vecs v).m_size ≤ i → slotAt exOne (exOne.vecs v).m_data i = none)) ∧
    (∀ (c : VecCall Nat) (fuel : Nat), c.Pre exOne [0] → c.bound exOne < fuel →
      (∃ st1, c.run fuel exOne = .ret () st1) ∨
        (∃ st1, c.run fuel exOne = .raise .bad_alloc st1)) :=
  C17_vector_invariant exOne [0]
    (VReached.call (VecCall.ctorInit 0 [1, 2, 3]) 1 exNew exOne []
      (VReached.init exNew exNew_fresh) ⟨List.not_mem_nil 0, by decide⟩ Nat.zero_lt_one
      exOne_run)

/-- C17 as stated fails: after `Vector<int> v{1, 2, 3}; v.popBack();` the size is `2` and
the slot `2`, outside `[0, size())`, still holds the element `3`: for a trivially
destructible element type `popBack()` runs no destructor. -/
theorem C17_counterexample :
    VReached exPopped [0] ∧ ValType.trivial_dtor Nat = true ∧
    (exPopped.vecs 0).m_size = 2 ∧
    slotAt exPopped (exPopped.vecs 0).m_data 2 = some 3 :=
  ⟨VReached.call (VecCall.popBack 0) 1 exOne exPopped [0]
    (VReached.call (VecCall.ctorInit 0 [1, 2, 3]) 1 exNew exOne []
      (VReached.init exNew exNew_fresh) ⟨List.not_mem_nil 0, by decide⟩ Nat.zero_lt_one
      exOne_run)
    ⟨List.mem_singleton_self 0, by decide⟩ Nat.zero_lt_one rfl, rfl, by decide, by decide⟩

/-- C29: `List::operator==` is identity: for all lists `a` and `b`, in every state,
`a == b` returns, and returns true exactly when `a` and `b` have the same `m_size` and the
same sentinel node; hence `a == a` is true for every list, and two lists `c` and `d` that
own their nodes apart from each other compare unequal although they hold the same element
sequence and have the same size. -/
theorem C29_list_eq_identity (st : Mem α) (a b : Ref) (s2 : Mem α) (c d : Ref)
    (ns ms : List Ptr) (xs : List α) (hC : Repr s2 c ns xs) (hD : Repr s2 d ms xs)
    (hdis : ∀ x ∈ (s2.lists c).m_sentinel :: ns, x ∉ (s2.lists d).m_sentinel :: ms) :
    List_eq a b st = .ret (decide ((st.lists a).m_size = (st.lists b).m_size ∧
      (st.lists a).m_sentinel = (st.lists b).m_sentinel)) st ∧
    (List_eq a b st = .ret true st ↔ ((st.lists a).m_size = (st.lists b).m_size ∧
      (st.lists a).m_sentinel = (st.lists b).m_sentinel)) ∧
    List_eq a a st = .ret true st ∧
    List_size c s2 = List_size d s2 ∧ List_eq c d s2 = .ret false s2 := by
  have hne : (s2.lists c).m_sentinel ≠ (s2.lists d).m_sentinel := by
    intro e
    exact hdis _ (List.mem_cons_self _ _) (by rw [e]; exact List.mem_cons_self _ _)
  have hrun : List_eq a b st = .ret (decide ((st.lists a).m_size = (st.lists b).m_size ∧
      (st.lists a).m_sentinel = (st.lists b).m_sentinel)) st := by
    rw [List_eq_run]
    congr 1
    simp only [Bool.decide_and]
  refine ⟨hrun, ?_, ?_, ?_, ?_⟩
  · rw [hrun]
    constructor
    · intro h
      injection h with h1 _
      exact of_decide_eq_true h1
    · intro h
      rw [decide_eq_true h]
  · rw [List_eq_run]
    simp
  · rw [hC.size_run, hD.size_run]
  · rw [List_eq_run]
    simp [hne]

/-- Instance of C29: the example lists `[10, 20, 30]` and `[40, 50]`, of different sizes,
and the two example lists that both hold `[10, 20]`, compare unequal. -/
theorem C29_list_eq_identity_witness :
    List_eq 0 1 exMem = .ret (decide ((exMem.lists 0).m_size = (exMem.lists 1).m_size ∧
      (exMem.lists 0).m_sentinel = (exMem.lists 1).m_sentinel)) exMem ∧
    (List_eq 0 1 exMem = .ret true exMem ↔ ((exMem.lists 0).m_size = (exMem.lists 1).m_size ∧
      (exMem.lists 0).m_sentinel = (exMem.lists 1).m_sentinel)) ∧
    List_eq 0 0 exMem = .ret true exMem ∧
    List_size 0 exPair = List_size 1 exPair ∧ List_eq 0 1 exPair = .ret false exPair :=
  C29_list_eq_identity exMem 0 1 exPair 0 1 [1, 2] [4, 5] [10, 20] exPair_repr0 exPair_repr1
    exPair_apart

/-- C30: for a `List` with contents `zs`, the assertion of `front()` and of `back()`
fails exactly when `zs` is empty.  On a non-empty list, `front()` refers to the `data`
member of the first node and yields the first element, `back()` to that of the last node
and yields the last element, and a write through either reference returns and changes the
value of that element only: the other elements, the links of all nodes, the size and the
sentinel of the list and every other node and list object are what they were. -/
theorem C30_front_back (st : Mem α) (l : Ref) (ns : List Ptr) (zs : List α)
    (s1 : Mem α) (l1 : Ref) (a : Ptr) (C : List Ptr) (x : α) (xs : List α)
    (s2 : Mem α) (l2 : Ref) (A : List Ptr) (b : Ptr) (ys : List α) (y : α) (value : α)
    (hR : Repr st l ns zs) (hfront : Repr s1 l1 (a :: C) (x :: xs))
    (hback : Repr s2 l2 (A ++ [b]) (ys ++ [y])) :
    (List_front l st = .raise .assertion st ↔ zs = []) ∧
    (List_back l st = .raise .assertion st ↔ zs = []) ∧
    (List_front l1 s1 = .ret x s1 ∧ List_front_ref l1 s1 = .ret a s1 ∧
      ∃ t1, List_front_write l1 value s1 = .ret () t1 ∧
        Repr t1 l1 (a :: C) (value :: xs) ∧ t1.brk = s1.brk ∧ t1.lists = s1.lists ∧
        (∀ n, n ≠ a → t1.nodes n = s1.nodes n) ∧
        nextOf t1.nodes a = nextOf s1.nodes a ∧ prevOf t1.nodes a = prevOf s1.nodes a) ∧
    (List_back l2 s2 = .ret y s2 ∧ List_back_ref l2 s2 = .ret b s2 ∧
      ∃ t2, List_back_write l2 value s2 = .ret () t2 ∧
        Repr t2 l2 (A ++ [b]) (ys ++ [value]) ∧ t2.brk = s2.brk ∧ t2.lists = s2.lists ∧
        (∀ n, n ≠ b → t2.nodes n = s2.nodes n) ∧
        nextOf t2.nodes b = nextOf s2.nodes b ∧ prevOf t2.nodes b = prevOf s2.nodes b) := by
  have hempty : zs = [] → (st.lists l).m_size = 0 := by
    intro e
    rw [hR.1, hR.length, e]
    rfl
  refine ⟨⟨?_, fun e => (List_front_back_empty (hempty e)).1⟩,
    ⟨?_, fun e => (List_front_back_empty (hempty e)).2⟩, ?_, ?_⟩
  · intro h
    by_contra hne
    exact (List_front_back_nonempty hR hne).1 h
  · intro h
    by_contra hne
    exact (List_front_back_nonempty hR hne).2 h
  · obtain ⟨e, hR1, hfr⟩ := @storeData_repr α s1 l1 [] C a [] xs x value hfront rfl
    refine ⟨List_front_run hfront, List_front_ref_run hfront, _, ?_, hR1, rfl, rfl, hfr,
      nextOf_setData _ _ _ _, prevOf_setData _ _ _ _⟩
    simp only [List_front_write, Prog.bind_run, Prog.bind, List_front_ref_run hfront]
    exact e
  · have hlen : A.length = ys.length := by
      have := hback.length
      simpa using this
    obtain ⟨e, hR1, hfr⟩ := @storeData_repr α s2 l2 A [] b ys [] y value hback hlen
    refine ⟨List_back_run hback, List_back_ref_run hback, _, ?_, hR1, rfl, rfl, hfr,
      nextOf_setData _ _ _ _, prevOf_setData _ _ _ _⟩
    simp only [List_back_write, Prog.bind_run, Prog.bind, List_back_ref_run hback]
    exact e

/-- Instance of C30: `front()` and `back()` on the empty example list, where the assertion
fails, and `front()`, `back()` and the writes `front() = 7`, `back() = 7` on the example
list `[10, 20, 30]`. -/
theorem C30_front_back_witness :
    (List_front 0 exNil = .raise .assertion exNil ↔ ([] : List Nat) = []) ∧
    (List_back 0 exNil = .raise .assertion exNil ↔ ([] : List Nat) = []) ∧
    (List_front 0 exMem = .ret 10 exMem ∧ List_front_ref 0 exMem = .ret 1 exMem ∧
      ∃ t1, List_front_write 0 7 exMem = .ret () t1 ∧
        Repr t1 0 (1 :: [2, 3]) (7 :: [20, 30]) ∧ t1.brk = exMem.brk ∧
        t1.lists = exMem.lists ∧
        (∀ n, n ≠ 1 → t1.nodes n = exMem.nodes n) ∧
        nextOf t1.nodes 1 = nextOf exMem.nodes 1 ∧
        prevOf t1.nodes 1 = prevOf exMem.nodes 1) ∧
    (List_back 0 exMem = .ret 30 exMem ∧ List_back_ref 0 exMem = .ret 3 exMem ∧
      ∃ t2, List_back_write 0 7 exMem = .ret () t2 ∧
        Repr t2 0 ([1, 2] ++ [3]) ([10, 20] ++ [7]) ∧ t2.brk = exMem.brk ∧
        t2.lists = exMem.lists ∧
        (∀ n, n ≠ 3 → t2.nodes n = exMem.nodes n) ∧
        nextOf t2.nodes 3 = nextOf exMem.nodes 3 ∧
        prevOf t2.nodes 3 = prevOf exMem.nodes 3) :=
  C30_front_back exNil 0 [] [] exMem 0 1 [2, 3] 10 [20, 30] exMem 0 [1, 2] 3 [10, 20] 30 7
    exNil_repr exMem_repr0 exMem_repr0

/-- C34 (amended): `Stack` is last-in-first-out over its container, the default `List` and
a `Vector` alike.  On a stack that holds `xs`, `push(v)` returns, the size is one larger
and `top()` returns `v`; a following `pop()` returns and the stack holds `xs` again and
has the size it had (over a `List`, in the nodes it had).  Over a `Vector` this holds for
an argument that is not an element of the stack itself when the stack is full, the byte
size of the grown buffer fitting `size_t` and the allocator being able to provide it.
After `x1 .. xn`, objects outside the stack, have been pushed onto a default-constructed
stack (over a `Vector`, the byte size of `2 * n` elements fitting `size_t` and the
allocator being able to hand out `3 * n` slots) the size is `n`, alternating `top()` and
`pop()` until the stack is empty yields `xn, .., x1`, and `empty()` then holds with size
`0`. -/
theorem C34_stack_lifo [Inhabited α] [ValType α] [ValSizeof α] (st : Mem α) (s : Ref)
    (ns : List Ptr) (xs : List α) (v : α) (st0 : Mem α) (s0 : Ref) (vals : List α)
    (fuel : Nat) (vst : VMem α) (vs : Ref) (ys : List α) (r : ValRef α) (w : α)
    (vst0 : VMem α) (vs0 : Ref)
    (hf : Fresh st) (hR : Repr st s ns xs) (hf0 : Fresh st0) (hfuel : vals.length < fuel)
    (hvf : VFresh vst) (hV : VRepr vst vs ys) (hread : r.read vst = .ret w vst)
    (hout : (vst.vecs vs).m_size = (vst.vecs vs).m_capacity →
      r.Outside (vst.vecs vs).m_data)
    (hfit : (vst.vecs vs).m_size = (vst.vecs vs).m_capacity →
      grownCapacity (vst.vecs vs).m_capacity * ValSizeof.sizeof α < 2 ^ 64)
    (hav : (vst.vecs vs).m_size = (vst.vecs vs).m_capacity →
      grownCapacity (vst.vecs vs).m_capacity ≤ vst.avail)
    (hvf0 : VFresh vst0) (hav0 : 3 * vals.length ≤ vst0.avail)
    (hfit0 : 2 * vals.length * ValSizeof.sizeof α < 2 ^ 64) :
    (∃ st1 st2, Stack_size s st = .ret xs.length st ∧ Stack_push s v st = .ret () st1 ∧
      Stack_size s st1 = .ret (xs.length + 1) st1 ∧ Stack_top s st1 = .ret v st1 ∧
      Stack_pop s st1 = .ret () st2 ∧ Repr st2 s ns xs ∧
      Stack_size s st2 = .ret xs.length st2) ∧
    (∃ st1 st2 st3, Stack_ctor s0 st0 = .ret () st1 ∧
      Stack_pushAll s0 vals st1 = .ret () st2 ∧ Stack_size s0 st2 = .ret vals.length st2 ∧
      Stack_drain s0 fuel [] st2 = .ret vals.reverse st3 ∧
      Stack_empty s0 st3 = .ret true st3 ∧ Stack_size s0 st3 = .ret 0 st3) ∧
    (∃ t1 t2, VStack_size vs vst = .ret ys.length vst ∧
      VStack_push_ref vs r vst = .ret () t1 ∧
      VStack_size vs t1 = .ret (ys.length + 1) t1 ∧ VStack_top vs t1 = .ret w t1 ∧
      VStack_pop vs t1 = .ret () t2 ∧ VRepr t2 vs ys ∧
      VStack_size vs t2 = .ret ys.length t2) ∧
    (∃ t1 t2 t3, VStack_ctor vs0 vst0 = .ret () t1 ∧
      VStack_pushAll_ref vs0 vals t1 = .ret () t2 ∧
      VStack_size vs0 t2 = .ret vals.length t2 ∧
      VStack_drain vs0 fuel [] t2 = .ret vals.reverse t3 ∧
      VStack_empty vs0 t3 = .ret true t3 ∧ VStack_size vs0 t3 = .ret 0 t3) := by
  refine ⟨?_, ?_, ?_, ?_⟩
  · obtain ⟨st1, st2, e1, hR1, -, htop, e2, hR2⟩ := Stack_push_pop v hf hR
    have hs1 := hR1.size_run
    rw [List.length_append, List.length_singleton] at hs1
    exact ⟨st1, st2, hR.size_run, e1, hs1, htop, e2, hR2, hR2.size_run⟩
  · obtain ⟨st1, e1, hR1, hf1, -⟩ := List_ctor_repr s0 hf0
    obtain ⟨st2, ns2, e2, hR2, -⟩ := Stack_pushAll_run s0 vals st1 [] [] hf1 hR1
    rw [List.nil_append] at hR2
    obtain ⟨st3, e3, hR3⟩ := Stack_drain_run s0 ns2.length ns2 vals fuel [] st2 rfl hR2
      (by rw [hR2.length]; exact hfuel)
    rw [List.nil_append] at e3
    have hz : (st3.lists s0).m_size = 0 := hR3.1
    refine ⟨st1, st2, st3, e1, e2, hR2.size_run, e3, ?_, hR3.size_run⟩
    show List_empty s0 st3 = _
    rw [List_empty_run, hz]
    rfl
  · have hq : VStack_push_ref vs r vst = Vector_pushBack vs w vst :=
      Vector_pushBack_ref_eq r w hvf hV hread hout hfit
    obtain ⟨t1, e1, hR1, -, hf1, -, -⟩ := Vector_pushBack_owns w hvf hV hav
    obtain ⟨t2, e2, hR2, -⟩ := Vector_popBack_owns hR1
    refine ⟨t1, t2, ?_, by rw [hq]; exact e1, ?_, Vector_back_run hR1, e2, hR2, ?_⟩
    · show Vector_size vs vst = _
      rw [Vector_size_run, hV.1]
    · show Vector_size vs t1 = _
      rw [Vector_size_run, hR1.1, List.length_append, List.length_singleton]
    · show Vector_size vs t2 = _
      rw [Vector_size_run, hR2.1]
  · obtain ⟨t1, e1, hO1, hf1, -, hv1, hav1, -⟩ := Vector_ctor_owns vst0 vs0 hvf0
    have hq := VStack_pushAll_ref_eq vs0 vals t1 [] hf1 hO1.1 (Or.inl ⟨rfl, by rw [hv1]⟩)
      (by
        rw [hav1, hv1]
        show 3 * (0 + vals.length) ≤ vst0.avail + 0
        omega)
      (by
        show 2 * (0 + vals.length) * ValSizeof.sizeof α < 2 ^ 64
        rw [Nat.zero_add]
        exact hfit0)
    obtain ⟨t2, e2, hR2, -⟩ := Vector_pushBackAll_spec vs0 vals t1 [] hf1 hO1.1
      (Or.inl ⟨rfl, by rw [hv1]⟩)
      (by
        rw [hav1, hv1]
        show 3 * (0 + vals.length) ≤ vst0.avail + 0
        omega)
    rw [List.nil_append] at hR2
    obtain ⟨t3, e3, hR3, -⟩ := VStack_drain_run vs0 vals.length vals fuel [] t2 rfl hR2 hfuel
    rw [List.nil_append] at e3
    have hz : (t3.vecs vs0).m_size = 0 := hR3.1
    refine ⟨t1, t2, t3, e1, ?_, ?_, e3, ?_, ?_⟩
    · rw [hq, VStack_pushAll_eq]
      exact e2
    · show Vector_size vs0 t2 = _
      rw [Vector_size_run, hR2.1]
    · show Vector_empty vs0 t3 = _
      rw [Vector_empty_run, hz]
      rfl
    · show Vector_size vs0 t3 = _
      rw [Vector_size_run, hz]

/-- Instance of C34: `push(7)` and `pop()` on a stack over the example list, `push` of an
element of another vector and `pop()` on a stack over the full example vector
`[10, 20, 30]`, and `1, 2, 3` pushed onto a default-constructed stack and taken off
again. -/
theorem C34_stack_lifo_witness :
    (∃ st1 st2, Stack_size 0 exMem = .ret [10, 20, 30].length exMem ∧
      Stack_push 0 7 exMem = .ret () st1 ∧
      Stack_size 0 st1 = .ret ([10, 20, 30].length + 1) st1 ∧ Stack_top 0 st1 = .ret 7 st1 ∧
      Stack_pop 0 st1 = .ret () st2 ∧ Repr st2 0 [1, 2, 3] [10, 20, 30] ∧
      Stack_size 0 st2 = .ret [10, 20, 30].length st2) ∧
    (∃ st1 st2 st3, Stack_ctor 2 exMem = .ret () st1 ∧
      Stack_pushAll 2 [1, 2, 3] st1 = .ret () st2 ∧
      Stack_size 2 st2 = .ret [1, 2, 3].length st2 ∧
      Stack_drain 2 4 [] st2 = .ret [1, 2, 3].reverse st3 ∧
      Stack_empty 2 st3 = .ret true st3 ∧ Stack_size 2 st3 = .ret 0 st3) ∧
    (∃ t1 t2, VStack_size 0 exTwo = .ret [10, 20, 30].length exTwo ∧
      VStack_push_ref 0 (ValRef.elem 1 0) exTwo = .ret () t1 ∧
      VStack_size 0 t1 = .ret ([10, 20, 30].length + 1) t1 ∧ VStack_top 0 t1 = .ret 40 t1 ∧
      VStack_pop 0 t1 = .ret () t2 ∧ VRepr t2 0 [10, 20, 30] ∧
      VStack_size 0 t2 = .ret [10, 20, 30].length t2) ∧
    (∃ t1 t2 t3, VStack_ctor 0 exNew = .ret () t1 ∧
      VStack_pushAll_ref 0 [1, 2, 3] t1 = .ret () t2 ∧
      VStack_size 0 t2 = .ret [1, 2, 3].length t2 ∧
      VStack_drain 0 4 [] t2 = .ret [1, 2, 3].reverse t3 ∧
      VStack_empty 0 t3 = .ret true t3 ∧ VStack_size 0 t3 = .ret 0 t3) :=
  C34_stack_lifo exMem 0 [1, 2, 3] [10, 20, 30] 7 exMem 2 [1, 2, 3] 4 exTwo 0 [10, 20, 30]
    (ValRef.elem 1 0) 40 exNew 0 exMem_fresh exMem_repr0 exMem_fresh (by decide) exTwo_fresh
    exTwo_repr0 rfl (fun _ => by decide) (fun _ => by decide) (fun _ => by decide)
    exNew_fresh (by decide) (by decide)

/-- C34 as stated fails: on a stack over the full example vector `[10, 20, 30]`, whose
grown buffer fits `size_t` and can be allocated, `s.push(s.top())` has undefined
behaviour: `push` hands the reference on to `pushBack`, whose `reserve` releases the
buffer the reference points into before it is read. -/
theorem C34_counterexample :
    VRepr exVec 0 [10, 20, 30] ∧
    VStack_top_ref 0 exVec = .ret (ValRef.elem 0 2) exVec ∧
    VStack_top 0 exVec = .ret 30 exVec ∧
    (ValRef.elem 0 2 : ValRef Nat).read exVec = .ret 30 exVec ∧
    grownCapacity (exVec.vecs 0).m_capacity * ValSizeof.sizeof Nat < 2 ^ 64 ∧
    grownCapacity (exVec.vecs 0).m_capacity ≤ exVec.avail ∧
    VStack_push_ref 0 (ValRef.elem 0 2) exVec = .undefined :=
  ⟨exVec_repr, rfl, rfl, rfl, by decide, by decide, rfl⟩

/-- C37 (amended): for a value argument that is not an element of the vector, the two paths
of `Vector::insert` agree on the elements.  For an element sequence `xs`, an index
`i ≤ |xs|` and an argument that reads `value` and is bound to no element of the vector it
is inserted into, the insertion at `begin() + i` into a vector that holds `xs` with room
(the path that shifts in place) and into a vector that holds `xs` with
`size() == capacity()` (the path that reallocates, the byte size of the new buffer fitting
`size_t` and the allocator being able to hand it out) both return the iterator
`begin() + i` of the vector they leave, and leave the same element sequence and the same
size; the first keeps its buffer and its capacity, the second gets a new buffer of the
capacity the doubling policy gives. -/
theorem C37_insert_paths_agree [ValType α] [ValSizeof α] (s1 s2 : VMem α) (v1 v2 : Ref)
    (xs : List α) (i : Nat) (r : ValRef α) (value : α) (hi : i ≤ xs.length)
    (hR1 : VRepr s1 v1 xs) (hroom : (s1.vecs v1).m_size < (s1.vecs v1).m_capacity)
    (hread1 : r.read s1 = .ret value s1) (hout1 : r.Outside (s1.vecs v1).m_data)
    (hf2 : VFresh s2) (hR2 : VRepr s2 v2 xs)
    (hfull : (s2.vecs v2).m_size = (s2.vecs v2).m_capacity)
    (hread2 : r.read s2 = .ret value s2) (hout2 : r.Outside (s2.vecs v2).m_data)
    (hfit : grownCapacity (s2.vecs v2).m_capacity * ValSizeof.sizeof α < 2 ^ 64)
    (hav : grownCapacity (s2.vecs v2).m_capacity ≤ s2.avail) :
    ∃ t1 t2, Vector_insert_ref v1 (VIter.mk (s1.vecs v1).m_data i) r s1 =
        .ret (VIter.mk (t1.vecs v1).m_data i) t1 ∧
      Vector_insert_ref v2 (VIter.mk (s2.vecs v2).m_data i) r s2 =
        .ret (VIter.mk (t2.vecs v2).m_data i) t2 ∧
      Vector_begin v1 t1 = .ret (VIter.mk (t1.vecs v1).m_data 0) t1 ∧
      Vector_begin v2 t2 = .ret (VIter.mk (t2.vecs v2).m_data 0) t2 ∧
      VRepr t1 v1 (xs.take i ++ value :: xs.drop i) ∧
      VRepr t2 v2 (xs.take i ++ value :: xs.drop i) ∧
      Vector_size v1 t1 = .ret (xs.length + 1) t1 ∧
      Vector_size v2 t2 = .ret (xs.length + 1) t2 ∧
      Vector_capacity v1 t1 = .ret (s1.vecs v1).m_capacity t1 ∧
      Vector_capacity v2 t2 = .ret (grownCapacity (s2.vecs v2).m_capacity) t2 ∧
      Vector_data v1 t1 = .ret (s1.vecs v1).m_data t1 ∧
      Vector_data v2 t2 = .ret (some s2.brk) t2 := by
  have hnot : ¬ (s2.vecs v2).m_size < (s2.vecs v2).m_capacity := by
    rw [hfull]
    exact lt_irrefl _
  have hq1 := Vector_insert_ref_eq i r value (fun h => absurd hroom h) hR1 hi hread1 hout1
    (fun h => absurd hroom h)
  have hq2 := Vector_insert_ref_eq i r value (fun _ => hf2) hR2 hi hread2 hout2
    (fun _ => hfit)
  obtain ⟨t1, e1, hT1, hv1, -⟩ := Vector_insert_spare i value hR1 hi hroom
  obtain ⟨t2, e2, hT2, hv2, -⟩ := Vector_insert_grow i value hf2 hR2 hi hnot hav
  refine ⟨t1, t2, by rw [hq1]; exact e1, by rw [hq2]; exact e2, Vector_begin_run t1 v1,
    Vector_begin_run t2 v2, hT1, hT2, ?_, ?_, ?_, ?_, ?_, ?_⟩
  · rw [Vector_size_run, hv1]
  · rw [Vector_size_run, hv2]
  · rw [Vector_capacity_run, hv1]
  · rw [Vector_capacity_run, hv2]
    rfl
  · simp only [Vector_data, Prog.bind_run, Prog.bind, getVec_run, hv1, Prog.pure_run]
  · simp only [Vector_data, Prog.bind_run, Prog.bind, getVec_run, hv2, Prog.pure_run]

/-- Instance of C37: the outside object `40` inserted at index `1` into the example vector
`[10, 20]` of capacity `4` and into the example vector `[10, 20]` of capacity `2`. -/
theorem C37_insert_paths_agree_witness :
    ∃ t1 t2, Vector_insert_ref 0 (VIter.mk (exRoomy.vecs 0).m_data 1) (ValRef.obj 40)
        exRoomy = .ret (VIter.mk (t1.vecs 0).m_data 1) t1 ∧
      Vector_insert_ref 0 (VIter.mk (exPacked.vecs 0).m_data 1) (ValRef.obj 40) exPacked =
        .ret (VIter.mk (t2.vecs 0).m_data 1) t2 ∧
      Vector_begin 0 t1 = .ret (VIter.mk (t1.vecs 0).m_data 0) t1 ∧
      Vector_begin 0 t2 = .ret (VIter.mk (t2.vecs 0).m_data 0) t2 ∧
      VRepr t1 0 ([10, 20].take 1 ++ 40 :: [10, 20].drop 1) ∧
      VRepr t2 0 ([10, 20].take 1 ++ 40 :: [10, 20].drop 1) ∧
      Vector_size 0 t1 = .ret ([10, 20].length + 1) t1 ∧
      Vector_size 0 t2 = .ret ([10, 20].length + 1) t2 ∧
      Vector_capacity 0 t1 = .ret (exRoomy.vecs 0).m_capacity t1 ∧
      Vector_capacity 0 t2 = .ret (grownCapacity (exPacked.vecs 0).m_capacity) t2 ∧
      Vector_data 0 t1 = .ret (exRoomy.vecs 0).m_data t1 ∧
      Vector_data 0 t2 = .ret (some exPacked.brk) t2 :=
  C37_insert_paths_agree exRoomy exPacked 0 0 [10, 20] 1 (ValRef.obj 40) 40 (by decide)
    exRoomy_repr0 (by decide) rfl trivial exPacked_fresh exPacked_repr rfl rfl trivial
    (by decide) (by decide)

/-- C37 as stated fails: `v.insert(v.begin(), v[1])` leaves `[10, 10, 20]` on the example
vector `[10, 20]` with room, where the argument is read after the shift moved `10` into
the slot it refers to, and `[20, 10, 20]` on the full example vector `[10, 20]`, where the
argument is read before its slot is moved. -/
theorem C37_counterexample :
    VRepr exSpare 0 [10, 20] ∧ VRepr exPacked 0 [10, 20] ∧
    (exSpare.vecs 0).m_size < (exSpare.vecs 0).m_capacity ∧
    (exPacked.vecs 0).m_size = (exPacked.vecs 0).m_capacity ∧
    Vector_index_ref 0 1 exSpare = .ret (ValRef.elem 0 1) exSpare ∧
    Vector_index_ref 0 1 exPacked = .ret (ValRef.elem 0 1) exPacked ∧
    (ValRef.elem 0 1 : ValRef Nat).read exSpare = .ret 20 exSpare ∧
    (ValRef.elem 0 1 : ValRef Nat).read exPacked = .ret 20 exPacked ∧
    Vector_insert_ref 0 (VIter.mk (exSpare.vecs 0).m_data 0) (ValRef.elem 0 1) exSpare =
      .ret (VIter.mk (exShifted.vecs 0).m_data 0) exShifted ∧
    Vector_insert_ref 0 (VIter.mk (exPacked.vecs 0).m_data 0) (ValRef.elem 0 1) exPacked =
      .ret (VIter.mk (exRegrown.vecs 0).m_data 0) exRegrown ∧
    VRepr exShifted 0 [10, 10, 20] ∧ VRepr exRegrown 0 [20, 10, 20] :=
  ⟨exSpare_repr, exPacked_repr, by decide, rfl, rfl, rfl, rfl, rfl, rfl, rfl, by decide,
    by decide⟩

end Claims5

end cads
